import Mathlib

/-!
# The sway container tree (`sway/tree/container.c`) as a heap of records

The C program manipulates a pointer graph: containers point to their parent, to
their workspace and to their list of children; workspaces point back to the
containers in their tiling and floating lists and to their fullscreen
container; the root points to the global fullscreen container.

The embedding keeps that graph as it is.  A pointer is an index into an arena
(`State.containers`, `State.workspaces`, ...), `NULL` is `none`, and every C
function becomes a function on `State` in the `Option` monad: `none` is the
outcome of dereferencing a null or dangling pointer, of an out-of-range list
operation, or of the recursion budget `fuel` running out.

* C `double` and `float` values are idealised as rationals.
* Calls into collaborators that the specification places outside the core
  (seat focus, IPC events, view hooks, arrangement, textures) are recorded in
  `State.events` in call order and have no other effect on the state.
* The build without `HAVE_FONTS` is the one embedded.
-/

set_option autoImplicit false

namespace Sway

/-! ## Data model -/

inductive sway_container_layout where
  | L_NONE | L_HORIZ | L_VERT | L_STACKED | L_TABBED
  deriving DecidableEq, Repr

inductive sway_fullscreen_mode where
  | FULLSCREEN_NONE | FULLSCREEN_WORKSPACE | FULLSCREEN_GLOBAL
  deriving DecidableEq, Repr

inductive sway_container_border where
  | B_NONE | B_PIXEL | B_NORMAL | B_CSD
  deriving DecidableEq, Repr

export sway_container_layout (L_NONE L_HORIZ L_VERT L_STACKED L_TABBED)
export sway_fullscreen_mode (FULLSCREEN_NONE FULLSCREEN_WORKSPACE FULLSCREEN_GLOBAL)
export sway_container_border (B_NONE B_PIXEL B_NORMAL B_CSD)

/-- The bookkeeping record shared by every tree entity (`struct sway_node`). -/
structure sway_node where
  dirty : Bool := false
  destroying : Bool := false
  ntxnrefs : Nat := 0
  deriving DecidableEq, Repr

/-- An integer box (`struct wlr_box`). -/
structure wlr_box where
  x : Int := 0
  y : Int := 0
  width : Int := 0
  height : Int := 0
  deriving DecidableEq, Repr

/-- One geometry and hierarchy snapshot (`struct sway_container_state`). -/
structure sway_container_state where
  layout : sway_container_layout := L_NONE
  x : ℚ := 0
  y : ℚ := 0
  width : ℚ := 0
  height : ℚ := 0
  fullscreen_mode : sway_fullscreen_mode := FULLSCREEN_NONE
  workspace : Option Nat := none
  parent : Option Nat := none
  children : Option (List Nat) := none
  border : sway_container_border := B_NONE
  border_thickness : Int := 0
  border_top : Bool := false
  border_bottom : Bool := false
  border_left : Bool := false
  border_right : Bool := false
  content_x : ℚ := 0
  content_y : ℚ := 0
  content_width : ℚ := 0
  content_height : ℚ := 0
  deriving DecidableEq, Repr

/-- A container (`struct sway_container`): a leaf wrapping a view, or a split
container with a list of children. -/
structure sway_container where
  node : sway_node := {}
  view : Option Nat := none
  current : sway_container_state := {}
  pending : sway_container_state := {}
  title : Option String := none
  formatted_title : Option String := none
  saved_x : ℚ := 0
  saved_y : ℚ := 0
  saved_width : ℚ := 0
  saved_height : ℚ := 0
  saved_border : sway_container_border := B_NONE
  width_fraction : ℚ := 0
  height_fraction : ℚ := 0
  scratchpad : Bool := false
  is_sticky : Bool := false
  alpha : ℚ := 1
  title_height : Nat := 0
  outputs : List Nat := []
  marks : List String := []
  deriving DecidableEq, Repr

/-- The part of a view (`struct sway_view`) that the container code reads or
writes. -/
structure sway_view where
  container : Option Nat := none
  destroying : Bool := false
  natural_width : Int := 0
  natural_height : Int := 0
  using_csd : Bool := false
  impl_set_fullscreen : Bool := true
  foreign_toplevel : Bool := false
  view_class : Option String := none
  app_id : Option String := none
  deriving DecidableEq, Repr

/-- The part of a workspace (`struct sway_workspace`) that the container code
reads or writes. -/
structure sway_workspace where
  node : sway_node := {}
  fullscreen : Option Nat := none
  layout : sway_container_layout := L_NONE
  x : Int := 0
  y : Int := 0
  width : Int := 0
  height : Int := 0
  tiling : List Nat := []
  floating : List Nat := []
  output : Option Nat := none
  deriving DecidableEq, Repr

/-- An output: its box (`output_get_box`), its box in the output layout
(`wlr_output_layout_get_box`, null for an output outside the layout), its
workspaces and the workspace `output_get_active_workspace` reports. -/
structure sway_output where
  box : wlr_box := {}
  layout_box : Option wlr_box := none
  workspaces : List Nat := []
  active_workspace : Option Nat := none
  deriving DecidableEq, Repr

/-- The configuration values (`config->...`) read by the container code. -/
structure sway_config where
  floating_minimum_width : Int := 0
  floating_minimum_height : Int := 0
  floating_maximum_width : Int := 0
  floating_maximum_height : Int := 0
  font_height : Int := 0
  titlebar_v_padding : Int := 0
  deriving DecidableEq, Repr

/-- A call into a collaborator outside the container core, recorded in call
order. -/
inductive Event where
  | assert_failed (msg : String)
  | ipc_event_window (con : Nat) (change : String)
  | view_set_fullscreen (view : Nat) (enable : Bool)
  | foreign_toplevel_set_fullscreen (view : Nat) (enable : Bool)
  | seats_focus_fullscreen (con : Nat)
  | seats_focus_inactive (con : Nat)
  | end_mouse_operation (con : Nat)
  | arrange_workspace (ws : Nat)
  | workspace_update_representation (ws : Nat)
  | workspace_consider_destroy (ws : Nat)
  | node_destroy_signal (con : Nat)
  | view_destroy (view : Nat)
  | update_title_textures (con : Nat)
  | new_node (con : Nat)
  | view_set_tiled (view : Nat) (tiled : Bool)
  | seat_set_raw_focus (con : Nat)
  | seat_set_focus (con : Nat)
  | workspace_detect_urgent (ws : Nat)
  deriving DecidableEq, Repr

/-- The whole heap: the arenas, the root's fields, the configuration and the
record of outbound calls. -/
structure State where
  containers : List (Option sway_container) := []
  views : List (Option sway_view) := []
  workspaces : List sway_workspace := []
  outputs : List sway_output := []
  root_outputs : List Nat := []
  fullscreen_global : Option Nat := none
  scratchpad : List Nat := []
  output_layout_box : wlr_box := {}
  config : sway_config := {}
  events : List Event := []
  deriving DecidableEq, Repr

/-! ## Heap access -/

/-- Dereference a container pointer. -/
def State.con (s : State) (c : Nat) : Option sway_container :=
  s.containers.getD c none

/-- Dereference a workspace pointer. -/
def State.ws (s : State) (w : Nat) : Option sway_workspace :=
  s.workspaces.get? w

/-- Dereference a view pointer. -/
def State.vw (s : State) (v : Nat) : Option sway_view :=
  s.views.getD v none

/-- Dereference an output pointer. -/
def State.out (s : State) (o : Nat) : Option sway_output :=
  s.outputs.get? o

/-- Write through a container pointer; nothing happens when it is dangling. -/
def State.updCon (s : State) (c : Nat) (f : sway_container → sway_container) : State :=
  match s.con c with
  | some C => { s with containers := s.containers.set c (some (f C)) }
  | none => s

/-- Write through a workspace pointer; nothing happens when it is dangling. -/
def State.updWs (s : State) (w : Nat) (f : sway_workspace → sway_workspace) : State :=
  match s.ws w with
  | some W => { s with workspaces := s.workspaces.set w (f W) }
  | none => s

/-- Write through a view pointer; nothing happens when it is dangling. -/
def State.updVw (s : State) (v : Nat) (f : sway_view → sway_view) : State :=
  match s.vw v with
  | some V => { s with views := s.views.set v (some (f V)) }
  | none => s

/-- Write through a container pointer that must be valid. -/
def State.modCon (s : State) (c : Nat) (f : sway_container → sway_container) :
    Option State :=
  match s.con c with
  | some _ => some (s.updCon c f)
  | none => none

/-- Write through a workspace pointer that must be valid. -/
def State.modWs (s : State) (w : Nat) (f : sway_workspace → sway_workspace) :
    Option State :=
  match s.ws w with
  | some _ => some (s.updWs w f)
  | none => none

/-- Record an outbound call. -/
def State.emit (s : State) (e : Event) : State :=
  { s with events := s.events ++ [e] }

/-! ## Collaborators of the container code -/

/-- Modelled from the spec: `list_find` of the ordered collection (`list.c`),
the index of the first occurrence of an item, or `-1`. -/
def list_find (l : List Nat) (x : Nat) : Int :=
  if x ∈ l then (l.indexOf x : Int) else -1

/-- Modelled from the spec: `list_del` of the ordered collection (`list.c`),
index-based removal; an index outside the list is a memory error. -/
def list_del (l : List Nat) (i : Int) : Option (List Nat) :=
  if 0 ≤ i ∧ i < l.length then some (l.eraseIdx i.toNat) else none

/-- Modelled from the spec: `list_insert` of the ordered collection (`list.c`,
called `sway_list_insert` in the container code), index-based insertion; an
index outside `0..length` is a memory error. -/
def sway_list_insert (l : List Nat) (i : Int) (x : Nat) : Option (List Nat) :=
  if 0 ≤ i ∧ i ≤ l.length then some (l.insertIdx i.toNat x) else none

/-- Modelled from the spec: `list_add` of the ordered collection (`list.c`),
appending at the end. -/
def list_add (l : List Nat) (x : Nat) : List Nat :=
  l ++ [x]

/-- Modelled from the spec: `node_set_dirty` (`node.c`), which marks the node
dirty. -/
def node_set_dirty (n : sway_node) : sway_node :=
  { n with dirty := true }

/-- Modelled from the spec: `sway_assert` (`log.c`), which reports a violated
condition and lets the caller abort the operation. -/
def sway_assert (s : State) (cond : Bool) (msg : String) : State × Bool :=
  if cond then (s, true) else (s.emit (.assert_failed msg), false)

/-- Set the dirty flag of a container's node. -/
def State.dirtyCon (s : State) (c : Nat) : Option State :=
  s.modCon c (fun C => { C with node := node_set_dirty C.node })

/-- Set the dirty flag of a workspace's node. -/
def State.dirtyWs (s : State) (w : Nat) : Option State :=
  s.modWs w (fun W => { W with node := node_set_dirty W.node })

/-- Modelled from the spec: `workspace_update_representation`
(`workspace.c`), a request to recompute the workspace's representation
string. -/
def workspace_update_representation (s : State) (w : Nat) : State :=
  s.emit (.workspace_update_representation w)

/-- Modelled from the spec: `arrange_workspace` (`arrange.c`), a request to
the layout engine. -/
def arrange_workspace (s : State) (w : Nat) : State :=
  s.emit (.arrange_workspace w)

/-- Modelled from the spec: `workspace_consider_destroy` (`workspace.c`), a
request for workspace cleanup. -/
def workspace_consider_destroy (s : State) (w : Nat) : State :=
  s.emit (.workspace_consider_destroy w)

/-- Modelled from the spec: `ipc_event_window` (`ipc-server.c`), the outbound
window event. -/
def ipc_event_window (s : State) (con : Nat) (change : String) : State :=
  s.emit (.ipc_event_window con change)

/-- The closest point of a box to a point, as `wlr_box_closest_point` of the
wlroots library computes it; `none` stands for the NaN pair of an empty box. -/
def wlr_box_closest_point (box : wlr_box) (x y : ℚ) : Option (ℚ × ℚ) :=
  if box.width ≤ 0 ∨ box.height ≤ 0 then none
  else
    let dx : ℚ :=
      if x < box.x then box.x
      else if x ≥ box.x + box.width then box.x + box.width - 1
      else x
    let dy : ℚ :=
      if y < box.y then box.y
      else if y ≥ box.y + box.height then box.y + box.height - 1
      else y
    some (dx, dy)

/-- `INT_MAX` of a 32-bit `int`. -/
def INT_MAX : Int := 2147483647

/-- Conversion of an `int` to `size_t` (64 bits). -/
def to_size_t (i : Int) : Nat :=
  (i % 2 ^ 64).toNat

/-- Conversion of a `double` to `float` (binary32, round to nearest, ties to
even): the value rounded to 24 significant bits, or to a multiple of `2^-149`
when it is below `2^-126`.  Doubles are rationals here, so every double has such
a rounding; a value beyond the range of `float`, for which C defines no result,
is rounded to 24 significant bits like the others. -/
def double_to_float (q : ℚ) : ℚ :=
  let n := q.num.natAbs
  let d := q.den
  let e0 : Int := (Nat.log2 n : Int) - (Nat.log2 d : Int)
  let e1 : Int := if n * 2 ^ (-e0).toNat < d * 2 ^ e0.toNat then e0 - 1 else e0
  let e : Int := max e1 (-126)
  let N := n * 2 ^ (23 - e).toNat
  let D := d * 2 ^ (e - 23).toNat
  let m := N / D
  let r := N % D
  let m := if 2 * r < D then m else if D < 2 * r then m + 1 else m + m % 2
  let a : ℚ := ((m * 2 ^ (e - 23).toNat : Nat) : ℚ) / ((2 ^ (23 - e).toNat : Nat) : ℚ)
  if q.num < 0 then -a else a

/-! ## Queries -/

def container_is_scratchpad_hidden (s : State) (con : Nat) : Option Bool := do
  let C ← s.con con
  pure (C.scratchpad && C.pending.workspace.isNone)

def container_is_floating (s : State) (container : Nat) : Option Bool := do
  let C ← s.con container
  match C.pending.parent, C.pending.workspace with
  | none, some w =>
    let W ← s.ws w
    if list_find W.floating container ≠ -1 then pure true
    else pure C.scratchpad
  | _, _ => pure C.scratchpad

def container_parent_layout (s : State) (con : Nat) : Option sway_container_layout := do
  let C ← s.con con
  match C.pending.parent with
  | some p =>
    let P ← s.con p
    pure P.pending.layout
  | none =>
    match C.pending.workspace with
    | some w =>
      let W ← s.ws w
      pure W.layout
    | none => pure L_NONE

/-- The list a `list_t *` returned by `container_get_siblings` points to. -/
inductive SiblingList where
  | children (parent : Nat)
  | tiling (ws : Nat)
  | floating (ws : Nat)
  deriving DecidableEq, Repr

/-- Read the list behind a sibling-list pointer. -/
def State.readList (s : State) : SiblingList → Option (List Nat)
  | .children p => do
    let P ← s.con p
    P.pending.children
  | .tiling w => do
    let W ← s.ws w
    pure W.tiling
  | .floating w => do
    let W ← s.ws w
    pure W.floating

/-- Overwrite the list behind a sibling-list pointer. -/
def State.writeList (s : State) (r : SiblingList) (l : List Nat) : Option State :=
  match r with
  | .children p =>
    s.modCon p (fun P => { P with pending := { P.pending with children := some l } })
  | .tiling w => s.modWs w (fun W => { W with tiling := l })
  | .floating w => s.modWs w (fun W => { W with floating := l })

/-- The sibling list of a container; the inner `none` is the C `NULL` returned for a
container hidden in the scratchpad. -/
def container_get_siblings (s : State) (container : Nat) :
    Option (Option SiblingList) := do
  let C ← s.con container
  match C.pending.parent with
  | some p => pure (some (.children p))
  | none =>
    if (← container_is_scratchpad_hidden s container) then pure none
    else
      let w ← C.pending.workspace
      let W ← s.ws w
      if list_find W.tiling container ≠ -1 then pure (some (.tiling w))
      else pure (some (.floating w))

def container_sibling_index (s : State) (child : Nat) : Option Int := do
  let r ← container_get_siblings s child
  let ref ← r
  let l ← s.readList ref
  pure (list_find l child)

def is_parallel (first second : sway_container_layout) : Bool :=
  match first with
  | L_TABBED | L_HORIZ => second = L_TABBED || second = L_HORIZ
  | L_STACKED | L_VERT => second = L_STACKED || second = L_VERT
  | _ => false

def container_is_squashable (s : State) (con child : Nat) : Option Bool := do
  let gp_layout ← container_parent_layout s con
  let C ← s.con con
  let Ch ← s.con child
  pure ((C.pending.layout = L_HORIZ || C.pending.layout = L_VERT) &&
    (Ch.pending.layout = L_HORIZ || Ch.pending.layout = L_VERT) &&
    !is_parallel C.pending.layout Ch.pending.layout &&
    is_parallel gp_layout Ch.pending.layout)

/-! ## Floating geometry -/

def container_titlebar_height (s : State) : Nat :=
  to_size_t (s.config.font_height + s.config.titlebar_v_padding * 2)

/-- The four outputs `(min_width, max_width, min_height, max_height)`. -/
def floating_calculate_constraints (s : State) : Int × Int × Int × Int :=
  let min_width :=
    if s.config.floating_minimum_width = -1 then 0
    else if s.config.floating_minimum_width = 0 then 75
    else s.config.floating_minimum_width
  let min_height :=
    if s.config.floating_minimum_height = -1 then 0
    else if s.config.floating_minimum_height = 0 then 50
    else s.config.floating_minimum_height
  let box := s.output_layout_box
  let max_width :=
    if s.config.floating_maximum_width = -1 then INT_MAX
    else if s.config.floating_maximum_width = 0 then box.width
    else s.config.floating_maximum_width
  let max_height :=
    if s.config.floating_maximum_height = -1 then INT_MAX
    else if s.config.floating_maximum_height = 0 then box.height
    else s.config.floating_maximum_height
  (min_width, max_width, min_height, max_height)

def container_set_geometry_from_content (s : State) (con : Nat) : Option State := do
  let C ← s.con con
  let (s, ok) := sway_assert s C.view.isSome "Expected a view"
  if !ok then pure s
  else
    let (s, ok) := sway_assert s (← container_is_floating s con) "Expected a floating view"
    if !ok then pure s
    else
      let border_width : Nat :=
        if C.pending.border ≠ B_CSD ∧ C.pending.fullscreen_mode = FULLSCREEN_NONE then
          to_size_t (C.pending.border_thickness * (if C.pending.border ≠ B_NONE then 1 else 0))
        else 0
      let top : Nat :=
        if C.pending.border ≠ B_CSD ∧ C.pending.fullscreen_mode = FULLSCREEN_NONE then
          (if C.pending.border = B_NORMAL then container_titlebar_height s else border_width)
        else 0
      s.modCon con (fun C => { C with
        pending := { C.pending with
          x := C.pending.content_x - border_width
          y := C.pending.content_y - top
          width := C.pending.content_width + ((border_width * 2 % 2 ^ 64 : Nat) : ℚ)
          height := top + C.pending.content_height + border_width }
        node := node_set_dirty C.node })

def floating_natural_resize (s : State) (con : Nat) : Option State := do
  let (min_width, max_width, min_height, max_height) := floating_calculate_constraints s
  let C ← s.con con
  match C.view with
  | none =>
    s.modCon con (fun C => { C with pending := { C.pending with
      width := max (min_width : ℚ) (min C.pending.width max_width)
      height := max (min_height : ℚ) (min C.pending.height max_height) } })
  | some v =>
    let V ← s.vw v
    let s ← s.modCon con (fun C => { C with pending := { C.pending with
      content_width := max (min_width : ℚ) (min (V.natural_width : ℚ) max_width)
      content_height := max (min_height : ℚ) (min (V.natural_height : ℚ) max_height) } })
    container_set_geometry_from_content s con

def container_floating_resize_and_center (s : State) (con : Nat) : Option State := do
  let C ← s.con con
  match C.pending.workspace with
  | none => floating_natural_resize s con
  | some w =>
    let W ← s.ws w
    let o ← W.output
    let O ← s.out o
    match O.layout_box with
    | none =>
      s.modCon con (fun C => { C with pending := { C.pending with
        x := 0, y := 0, width := 0, height := 0 } })
    | some ob =>
      let s ← floating_natural_resize s con
      let C ← s.con con
      match C.view with
      | none =>
        if C.pending.width > W.width ∨ C.pending.height > W.height then
          s.modCon con (fun C => { C with pending := { C.pending with
            x := ob.x + (ob.width - C.pending.width) / 2
            y := ob.y + (ob.height - C.pending.height) / 2 } })
        else
          s.modCon con (fun C => { C with pending := { C.pending with
            x := W.x + (W.width - C.pending.width) / 2
            y := W.y + (W.height - C.pending.height) / 2 } })
      | some _ =>
        let s ←
          (if C.pending.content_width > W.width ∨ C.pending.content_height > W.height then
            s.modCon con (fun C => { C with pending := { C.pending with
              content_x := ob.x + (ob.width - C.pending.content_width) / 2
              content_y := ob.y + (ob.height - C.pending.content_height) / 2 } })
          else
            s.modCon con (fun C => { C with pending := { C.pending with
              content_x := W.x + (W.width - C.pending.content_width) / 2
              content_y := W.y + (W.height - C.pending.content_height) / 2 } }))
        let s ← s.modCon con (fun C => { C with pending := { C.pending with
          border_top := true, border_bottom := true
          border_left := true, border_right := true } })
        container_set_geometry_from_content s con

/-- Translate a container and, through its children lists, all its
descendants.  The loop walks the list read at its start; no step of the walk
writes a children list. -/
def container_floating_translate : Nat → State → Nat → ℚ → ℚ → Option State
  | 0, _, _, _, _ => none
  | fuel + 1, s, con, x_amount, y_amount => do
    let s ← s.modCon con (fun C => { C with pending := { C.pending with
      x := C.pending.x + x_amount
      y := C.pending.y + y_amount
      content_x := C.pending.content_x + x_amount
      content_y := C.pending.content_y + y_amount } })
    let C ← s.con con
    let s ← (match C.pending.children with
      | some l =>
        l.foldlM (fun s child => container_floating_translate fuel s child x_amount y_amount) s
      | none => pure s)
    s.dirtyCon con

/-- One round of the loop of `container_floating_find_output`: the running
closest output and its squared distance (`none` for the initial `DBL_MAX`), or
the output that contains the centre. -/
def find_output_step (s : State) (center_x center_y : ℚ)
    (acc : Option (Sum Nat (Option Nat × Option ℚ))) (output : Nat) :
    Option (Sum Nat (Option Nat × Option ℚ)) := do
  match ← acc with
  | .inl found => pure (.inl found)
  | .inr (closest_output, closest_distance) =>
    let O ← s.out output
    match wlr_box_closest_point O.box center_x center_y with
    | none => pure (.inr (closest_output, closest_distance))
    | some (closest_x, closest_y) =>
      if center_x = closest_x ∧ center_y = closest_y then pure (.inl output)
      else
        let x_dist := closest_x - center_x
        let y_dist := closest_y - center_y
        let distance := x_dist * x_dist + y_dist * y_dist
        match closest_distance with
        | none => pure (.inr (some output, some distance))
        | some d =>
          if distance < d then pure (.inr (some output, some distance))
          else pure (.inr (closest_output, closest_distance))

def container_floating_find_output (s : State) (con : Nat) : Option (Option Nat) := do
  let C ← s.con con
  let center_x := C.pending.x + C.pending.width / 2
  let center_y := C.pending.y + C.pending.height / 2
  match ← s.root_outputs.foldl (find_output_step s center_x center_y)
      (some (.inr (none, none))) with
  | .inl output => pure (some output)
  | .inr (closest_output, _) => pure closest_output

def container_floating_move_to_center (fuel : Nat) (s : State) (con : Nat) :
    Option State := do
  let (s, ok) := sway_assert s (← container_is_floating s con) "Expected a floating container"
  if !ok then pure s
  else
    let C ← s.con con
    let w ← C.pending.workspace
    let W ← s.ws w
    let new_lx : ℚ := W.x + (W.width - C.pending.width) / 2
    let new_ly : ℚ := W.y + (W.height - C.pending.height) / 2
    container_floating_translate fuel s con (new_lx - C.pending.x) (new_ly - C.pending.y)

/-! ## Representation strings -/

/-- The identifier of a child in its parent's representation: a view's class,
else its app id; a split container's formatted title. -/
def child_identifier (s : State) (child : Nat) : Option (Option String) := do
  let Ch ← s.con child
  match Ch.view with
  | some v =>
    let V ← s.vw v
    match V.view_class with
    | some cls => pure (some cls)
    | none => pure V.app_id
  | none => pure Ch.formatted_title

/-- The loop of `container_build_representation` from index `i` on: the
running length and buffer.  `strlen` counts bytes. -/
def build_representation_loop (s : State) : List Nat → Nat → Nat × String →
    Option (Nat × String)
  | [], _, acc => some acc
  | child :: rest, i, (len, buffer) => do
    let (len, buffer) := if i ≠ 0 then (len + 1, buffer ++ " ") else (len, buffer)
    match ← child_identifier s child with
    | some identifier =>
      build_representation_loop s rest (i + 1)
        (len + identifier.utf8ByteSize, buffer ++ identifier)
    | none =>
      build_representation_loop s rest (i + 1) (len + 6, buffer ++ "(null)")

/-- The returned length and the string written to the buffer. -/
def container_build_representation (s : State) (layout : sway_container_layout)
    (children : List Nat) : Option (Nat × String) := do
  let start : String :=
    match layout with
    | L_VERT => "V["
    | L_HORIZ => "H["
    | L_TABBED => "T["
    | L_STACKED => "S["
    | L_NONE => "D["
  let (len, buffer) ← build_representation_loop s children 0 (2, start)
  pure (len + 1, buffer ++ "]")

/-- The allocation of the title string is taken to succeed. -/
def container_update_representation : Nat → State → Nat → Option State
  | 0, _, _ => none
  | fuel + 1, s, con => do
    let C ← s.con con
    let s ←
      (if C.view.isNone then do
        let children ← C.pending.children
        let (_, title) ← container_build_representation s C.pending.layout children
        let s ← s.modCon con (fun C => { C with
          formatted_title := some title, title_height := 0 })
        pure (s.emit (.update_title_textures con))
      else pure s)
    match C.pending.parent with
    | some p => container_update_representation fuel s p
    | none =>
      match C.pending.workspace with
      | some w => pure (workspace_update_representation s w)
      | none => pure s

/-! ## Fullscreen state machine -/

def container_end_mouse_operation (s : State) (container : Nat) : State :=
  s.emit (.end_mouse_operation container)

/-- The static helper `set_fullscreen`: forward the request to the view. -/
def set_fullscreen (s : State) (con : Nat) (enable : Bool) : Option State := do
  let C ← s.con con
  match C.view with
  | none => pure s
  | some v =>
    let V ← s.vw v
    if V.impl_set_fullscreen then
      let s := s.emit (.view_set_fullscreen v enable)
      if V.foreign_toplevel then pure (s.emit (.foreign_toplevel_set_fullscreen v enable))
      else pure s
    else pure s

def container_fullscreen_workspace (s : State) (con : Nat) : Option State := do
  let C ← s.con con
  let (s, ok) := sway_assert s (C.pending.fullscreen_mode = FULLSCREEN_NONE)
    "Expected a non-fullscreen container"
  if !ok then pure s
  else
    let s ← set_fullscreen s con true
    let s ← s.modCon con (fun C => { C with
      pending := { C.pending with fullscreen_mode := FULLSCREEN_WORKSPACE } })
    let s ← s.modCon con (fun C => { C with
      saved_x := C.pending.x, saved_y := C.pending.y
      saved_width := C.pending.width, saved_height := C.pending.height })
    let s ← (match C.pending.workspace with
      | some w => do
        let s ← s.modWs w (fun W => { W with fullscreen := some con })
        pure (s.emit (.seats_focus_fullscreen con))
      | none => pure s)
    let s := container_end_mouse_operation s con
    pure (ipc_event_window s con "fullscreen_mode")

def container_fullscreen_global (s : State) (con : Nat) : Option State := do
  let C ← s.con con
  let (s, ok) := sway_assert s (C.pending.fullscreen_mode = FULLSCREEN_NONE)
    "Expected a non-fullscreen container"
  if !ok then pure s
  else
    let s ← set_fullscreen s con true
    let s := { s with fullscreen_global := some con }
    let s ← s.modCon con (fun C => { C with
      saved_x := C.pending.x, saved_y := C.pending.y
      saved_width := C.pending.width, saved_height := C.pending.height })
    let s := s.emit (.seats_focus_fullscreen con)
    let s ← s.modCon con (fun C => { C with
      pending := { C.pending with fullscreen_mode := FULLSCREEN_GLOBAL } })
    let s := container_end_mouse_operation s con
    pure (ipc_event_window s con "fullscreen_mode")

def container_fullscreen_disable (fuel : Nat) (s : State) (con : Nat) : Option State := do
  let C ← s.con con
  let (s, ok) := sway_assert s (C.pending.fullscreen_mode ≠ FULLSCREEN_NONE)
    "Expected a fullscreen container"
  if !ok then pure s
  else
    let s ← set_fullscreen s con false
    let floating ← container_is_floating s con
    let s ←
      (if floating then
        s.modCon con (fun C => { C with pending := { C.pending with
          x := C.saved_x, y := C.saved_y
          width := C.saved_width, height := C.saved_height } })
      else pure s)
    let s ←
      (if C.pending.fullscreen_mode = FULLSCREEN_WORKSPACE then
        match C.pending.workspace with
        | some w => do
          let s ← s.modWs w (fun W => { W with fullscreen := none })
          let floating ← container_is_floating s con
          if floating then
            let output ← container_floating_find_output s con
            let W ← s.ws w
            if W.output ≠ output then container_floating_move_to_center fuel s con
            else pure s
          else pure s
        | none => pure s
      else pure { s with fullscreen_global := none })
    let C1 ← s.con con
    let floating ← container_is_floating s con
    let s ←
      (if floating ∧ (C1.pending.width = 0 ∨ C1.pending.height = 0) then
        container_floating_resize_and_center s con
      else pure s)
    let s ← s.modCon con (fun C => { C with
      pending := { C.pending with fullscreen_mode := FULLSCREEN_NONE } })
    let s := container_end_mouse_operation s con
    let s := ipc_event_window s con "fullscreen_mode"
    if C.scratchpad then pure (s.emit (.seats_focus_inactive con)) else pure s

def container_set_fullscreen (fuel : Nat) (s : State) (con : Nat)
    (mode : sway_fullscreen_mode) : Option State := do
  let C ← s.con con
  if C.pending.fullscreen_mode = mode then pure s
  else
    match mode with
    | FULLSCREEN_NONE => container_fullscreen_disable fuel s con
    | FULLSCREEN_WORKSPACE =>
      let s ← (match s.fullscreen_global with
        | some g => container_fullscreen_disable fuel s g
        | none => pure s)
      let C ← s.con con
      let s ← (match C.pending.workspace with
        | some w => do
          let W ← s.ws w
          match W.fullscreen with
          | some f => container_fullscreen_disable fuel s f
          | none => pure s
        | none => pure s)
      container_fullscreen_workspace s con
    | FULLSCREEN_GLOBAL =>
      let s ← (match s.fullscreen_global with
        | some g => container_fullscreen_disable fuel s g
        | none => pure s)
      let C ← s.con con
      let s ←
        (if C.pending.fullscreen_mode = FULLSCREEN_WORKSPACE then
          container_fullscreen_disable fuel s con
        else pure s)
      container_fullscreen_global s con

def container_handle_fullscreen_reparent (fuel : Nat) (s : State) (con : Nat) :
    Option State := do
  let C ← s.con con
  match C.pending.workspace with
  | none => pure s
  | some w =>
    if C.pending.fullscreen_mode ≠ FULLSCREEN_WORKSPACE then pure s
    else
      let W ← s.ws w
      if W.fullscreen = some con then pure s
      else
        let s ← (match W.fullscreen with
          | some f => container_fullscreen_disable fuel s f
          | none => pure s)
        let s ← s.modWs w (fun W => { W with fullscreen := some con })
        pure (arrange_workspace s w)

/-! ## Attach and detach -/

/-- The callback `set_workspace`: copy the workspace of the parent. -/
def set_workspace (s : State) (container : Nat) : Option State := do
  let C ← s.con container
  let p ← C.pending.parent
  let P ← s.con p
  s.modCon container (fun C => { C with
    pending := { C.pending with workspace := P.pending.workspace } })

/-- Pre-order walk over the descendants.  The loop walks the list read at its
start; the only callback of the container code, `set_workspace`, writes no
children list. -/
def container_for_each_child : Nat → (State → Nat → Option State) → State → Nat →
    Option State
  | 0, _, _, _ => none
  | fuel + 1, f, s, container => do
    let C ← s.con container
    match C.pending.children with
    | some l =>
      l.foldlM (fun s child => do
        let s ← f s child
        container_for_each_child fuel f s child) s
    | none => pure s

def container_detach (fuel : Nat) (s : State) (child : Nat) : Option State := do
  let C ← s.con child
  let s ←
    (if C.pending.fullscreen_mode = FULLSCREEN_WORKSPACE then do
      let w ← C.pending.workspace
      s.modWs w (fun W => { W with fullscreen := none })
    else pure s)
  let s :=
    if C.pending.fullscreen_mode = FULLSCREEN_GLOBAL then
      { s with fullscreen_global := none }
    else s
  let old_parent := C.pending.parent
  let old_workspace := C.pending.workspace
  let siblings ← container_get_siblings s child
  let s ← (match siblings with
    | some siblings => do
      let l ← s.readList siblings
      let index := list_find l child
      if index ≠ -1 then do
        let l ← list_del l index
        s.writeList siblings l
      else pure s
    | none => pure s)
  let s ← s.modCon child (fun C => { C with
    pending := { C.pending with parent := none, workspace := none } })
  let s ← container_for_each_child fuel set_workspace s child
  let s ← (match old_parent with
    | some p => do
      let s ← container_update_representation fuel s p
      s.dirtyCon p
    | none =>
      match old_workspace with
      | some w => (workspace_update_representation s w).dirtyWs w
      | none => pure s)
  s.dirtyCon child

def container_insert_child (fuel : Nat) (s : State) (parent child : Nat) (i : Int) :
    Option State := do
  let Ch ← s.con child
  let s ← (if Ch.pending.workspace.isSome then container_detach fuel s child else pure s)
  let P ← s.con parent
  let children ← P.pending.children
  let l ← sway_list_insert children i child
  let s ← s.writeList (.children parent) l
  let P ← s.con parent
  let s ← s.modCon child (fun C => { C with
    pending := { C.pending with parent := some parent, workspace := P.pending.workspace } })
  let s ← container_for_each_child fuel set_workspace s child
  let s ← container_handle_fullscreen_reparent fuel s child
  container_update_representation fuel s parent

def container_add_sibling (fuel : Nat) (s : State) (fixed active : Nat) (after : Bool) :
    Option State := do
  let A ← s.con active
  let s ← (if A.pending.workspace.isSome then container_detach fuel s active else pure s)
  let siblings ← container_get_siblings s fixed
  let siblings ← siblings
  let l ← s.readList siblings
  let index := list_find l fixed
  let l ← sway_list_insert l (index + (if after then 1 else 0)) active
  let s ← s.writeList siblings l
  let F ← s.con fixed
  let s ← s.modCon active (fun C => { C with
    pending := { C.pending with parent := F.pending.parent, workspace := F.pending.workspace } })
  let s ← container_for_each_child fuel set_workspace s active
  let s ← container_handle_fullscreen_reparent fuel s active
  container_update_representation fuel s active

def container_add_child (fuel : Nat) (s : State) (parent child : Nat) : Option State := do
  let Ch ← s.con child
  let s ← (if Ch.pending.workspace.isSome then container_detach fuel s child else pure s)
  let P ← s.con parent
  let children ← P.pending.children
  let s ← s.writeList (.children parent) (list_add children child)
  let P ← s.con parent
  let s ← s.modCon child (fun C => { C with
    pending := { C.pending with parent := some parent, workspace := P.pending.workspace } })
  let s ← container_for_each_child fuel set_workspace s child
  let s ← container_handle_fullscreen_reparent fuel s child
  let s ← container_update_representation fuel s parent
  let s ← s.dirtyCon child
  s.dirtyCon parent

/-- Modelled from the spec: `workspace_insert_tiling_direct` (`workspace.c`),
the attach operation that splices a container into a workspace's tiling list
at an index, sets the workspace on the moved subtree, re-handles fullscreen
and requests the representation update. -/
def workspace_insert_tiling_direct (fuel : Nat) (s : State) (workspace con : Nat)
    (index : Int) : Option State := do
  let W ← s.ws workspace
  let l ← sway_list_insert W.tiling index con
  let s ← s.writeList (.tiling workspace) l
  let s ← s.modCon con (fun C => { C with
    pending := { C.pending with workspace := some workspace } })
  let s ← container_for_each_child fuel set_workspace s con
  let s ← container_handle_fullscreen_reparent fuel s con
  let s := workspace_update_representation s workspace
  let s ← s.dirtyWs workspace
  s.dirtyCon con

/-! ## Destruction -/

/-- Free a container: its slot in the arena becomes empty. -/
def State.freeCon (s : State) (c : Nat) : State :=
  { s with containers := s.containers.set c none }

/-- Modelled from the spec: `view_destroy` (`view.c`), which frees a view
marked destroying. -/
def view_destroy (s : State) (v : Nat) : State :=
  { s with views := s.views.set v none }.emit (.view_destroy v)

def container_destroy (s : State) (con : Nat) : Option State := do
  let C ← s.con con
  let (s, ok) := sway_assert s C.node.destroying
    "Tried to free container which wasn't marked as destroying"
  if !ok then pure s
  else
    let (s, ok) := sway_assert s (C.node.ntxnrefs = 0)
      "Tried to free container which is still referenced by transactions"
    if !ok then pure s
    else
      let s ← (match C.view with
        | some v => do
          let V ← s.vw v
          let s := if V.container = some con then
            s.updVw v (fun V => { V with container := none }) else s
          if V.destroying then pure (view_destroy s v) else pure s
        | none => pure s)
      pure (s.freeCon con)

/-- Modelled from the spec: `root_scratchpad_remove_container` (`root.c`),
which ends the scratchpad membership of a container. -/
def root_scratchpad_remove_container (s : State) (con : Nat) : Option State := do
  let C ← s.con con
  let (s, ok) := sway_assert s C.scratchpad "Container is not in scratchpad"
  if !ok then pure s
  else
    let s ← s.modCon con (fun C => { C with scratchpad := false })
    if con ∈ s.scratchpad then
      pure (ipc_event_window { s with scratchpad := s.scratchpad.erase con } con "move")
    else pure s

def container_begin_destroy (fuel : Nat) (s : State) (con : Nat) : Option State := do
  let C ← s.con con
  let s := if C.view.isSome then ipc_event_window s con "close" else s
  let s ← (match C.pending.workspace with
    | some w =>
      if C.pending.fullscreen_mode = FULLSCREEN_WORKSPACE then
        s.modWs w (fun W => { W with fullscreen := none })
      else pure s
    | none => pure s)
  let s ←
    (if C.scratchpad ∧ C.pending.fullscreen_mode = FULLSCREEN_GLOBAL then
      container_fullscreen_disable fuel s con
    else pure s)
  let s := s.emit (.node_destroy_signal con)
  let s := container_end_mouse_operation s con
  let s ← s.modCon con (fun C => { C with
    node := node_set_dirty { C.node with destroying := true } })
  let C ← s.con con
  let s ← (if C.scratchpad then root_scratchpad_remove_container s con else pure s)
  let C ← s.con con
  let s ←
    (if C.pending.fullscreen_mode = FULLSCREEN_GLOBAL then
      container_fullscreen_disable fuel s con
    else pure s)
  let C ← s.con con
  if C.pending.parent.isSome ∨ C.pending.workspace.isSome then
    container_detach fuel s con
  else pure s

/-- The loop of `container_reap_empty`; the boolean tells whether the loop ran
to its end (`con` became null) rather than returning from the function. -/
def container_reap_empty_loop : Nat → State → Option Nat → Option (State × Bool)
  | _, s, none => some (s, true)
  | 0, _, some _ => none
  | fuel + 1, s, some con => do
    let C ← s.con con
    let children ← C.pending.children
    if children.length ≠ 0 then pure (s, false)
    else
      let parent := C.pending.parent
      let s ← container_begin_destroy fuel s con
      container_reap_empty_loop fuel s parent

def container_reap_empty (fuel : Nat) (s : State) (con : Nat) : Option State := do
  let C ← s.con con
  if C.view.isSome then pure s
  else
    let ws := C.pending.workspace
    let (s, finished) ← container_reap_empty_loop fuel s (some con)
    if !finished then pure s
    else
      match ws with
      | some w => pure (workspace_consider_destroy s w)
      | none => pure s

/-! ## Squash -/

/-- The `while` loop of `container_squash` that moves the grandchildren up,
with the running `change`. -/
def container_squash_move : Nat → State → Nat → Nat → Int → Int → Option (State × Int)
  | 0, _, _, _, _, _ => none
  | fuel + 1, s, con, child, idx, change => do
    let Ch ← s.con child
    match ← Ch.pending.children with
    | [] => pure (s, change)
    | current :: _ =>
      let s ← container_detach fuel s current
      let C ← s.con con
      let s ← (match C.pending.parent with
        | some p => container_insert_child fuel s p current idx
        | none => do
          let w ← C.pending.workspace
          workspace_insert_tiling_direct fuel s w current idx)
      container_squash_move fuel s con child idx (change + 1)

mutual

/-- The loop of `container_squash_children` from index `i` on; the list and
its length are read again in every round. -/
def container_squash_children_loop : Nat → State → Nat → Int → Option State
  | 0, _, _, _ => none
  | fuel + 1, s, con, i => do
    let C ← s.con con
    let children ← C.pending.children
    if i < children.length then
      if i < 0 then none
      else
        let child ← children.get? i.toNat
        let (s, change) ← container_squash fuel s child
        container_squash_children_loop fuel s con (i + change + 1)
    else pure s

/-- The new state and the returned `int`. -/
def container_squash : Nat → State → Nat → Option (State × Int)
  | 0, _, _ => none
  | fuel + 1, s, con => do
    let C ← s.con con
    match C.pending.children with
    | none => pure (s, 0)
    | some children =>
      if children.length ≠ 1 then
        let s ← container_squash_children_loop fuel s con 0
        pure (s, 0)
      else
        let child ← children.head?
        let idx ← container_sibling_index s con
        if (← container_is_squashable s con child) then
          let (s, change) ← container_squash_move fuel s con child idx 0
          let s ← container_reap_empty fuel s child
          pure (s, change - 1)
        else
          let s ← container_squash_children_loop fuel s con 0
          pure (s, 0)

end

def container_squash_children (fuel : Nat) (s : State) (con : Nat) : Option State :=
  container_squash_children_loop fuel s con 0

/-! ## Reading the tree -/

/-- The container pointers that can be valid. -/
def State.ids (s : State) : List Nat := List.range s.containers.length

/-- The workspace pointers that are valid. -/
def State.wids (s : State) : List Nat := List.range s.workspaces.length

def State.parentOf (s : State) (c : Nat) : Option Nat :=
  (s.con c).bind (·.pending.parent)

def State.wsOf (s : State) (c : Nat) : Option Nat :=
  (s.con c).bind (·.pending.workspace)

def State.modeOf (s : State) (c : Nat) : Option sway_fullscreen_mode :=
  (s.con c).map (·.pending.fullscreen_mode)

def State.childrenOf (s : State) (c : Nat) : Option (List Nat) :=
  (s.con c).bind (·.pending.children)

/-- The children of a container; empty for a view and for a dangling pointer. -/
def State.kids (s : State) (c : Nat) : List Nat := (s.childrenOf c).getD []

def State.viewOf (s : State) (c : Nat) : Option Nat := (s.con c).bind (·.view)

/-- The fullscreen back-reference of a workspace. -/
def State.fsOf (s : State) (w : Nat) : Option Nat := (s.ws w).bind (·.fullscreen)

/-- The top-level containers of a workspace: its tiling list followed by its
floating list. -/
def State.tops (s : State) (w : Nat) : List Nat :=
  match s.ws w with
  | some W => W.tiling ++ W.floating
  | none => []

/-- Whether the dirty flag of a container is set. -/
def State.dirtyOf (s : State) (c : Nat) : Option Bool := (s.con c).map (·.node.dirty)

/-- The container `x` is `c` or is reached from `c` through children lists. -/
def Reach (s : State) (c x : Nat) : Prop :=
  Relation.ReflTransGen (fun a b => b ∈ s.kids a) c x

/-! ## Invariants -/

/-- Every container with a parent has the workspace of its parent. -/
def ParentWorkspaceConsistent (s : State) : Prop :=
  ∀ c ∈ s.ids, ∀ p ∈ s.parentOf c, (s.con p).isSome ∧ s.wsOf c = s.wsOf p

instance (s : State) : Decidable (ParentWorkspaceConsistent s) := by
  unfold ParentWorkspaceConsistent; infer_instance

/-- At most one container of a workspace has mode `FULLSCREEN_WORKSPACE`. -/
def WorkspaceFullscreenUnique (s : State) : Prop :=
  ∀ c1 ∈ s.ids, ∀ c2 ∈ s.ids,
    s.modeOf c1 = some FULLSCREEN_WORKSPACE → s.modeOf c2 = some FULLSCREEN_WORKSPACE →
    (s.wsOf c1).isSome → s.wsOf c1 = s.wsOf c2 → c1 = c2

instance (s : State) : Decidable (WorkspaceFullscreenUnique s) := by
  unfold WorkspaceFullscreenUnique; infer_instance

/-- At most one container has mode `FULLSCREEN_GLOBAL`. -/
def GlobalFullscreenUnique (s : State) : Prop :=
  ∀ c1 ∈ s.ids, ∀ c2 ∈ s.ids,
    s.modeOf c1 = some FULLSCREEN_GLOBAL → s.modeOf c2 = some FULLSCREEN_GLOBAL → c1 = c2

instance (s : State) : Decidable (GlobalFullscreenUnique s) := by
  unfold GlobalFullscreenUnique; infer_instance

/-- The fullscreen back-references agree with the fullscreen modes: a
workspace's `fullscreen` is a container of that workspace in mode
`FULLSCREEN_WORKSPACE` and every such container is its workspace's
`fullscreen`; the root's `fullscreen_global` is a container in mode
`FULLSCREEN_GLOBAL` and every such container is the root's. -/
def FullscreenConsistent (s : State) : Prop :=
  (∀ w ∈ s.wids, ∀ f ∈ s.fsOf w,
    s.modeOf f = some FULLSCREEN_WORKSPACE ∧ s.wsOf f = some w) ∧
  (∀ c ∈ s.ids, s.modeOf c = some FULLSCREEN_WORKSPACE →
    ∀ w ∈ s.wsOf c, s.fsOf w = some c) ∧
  (∀ g ∈ s.fullscreen_global, s.modeOf g = some FULLSCREEN_GLOBAL) ∧
  (∀ c ∈ s.ids, s.modeOf c = some FULLSCREEN_GLOBAL → s.fullscreen_global = some c)

instance (s : State) : Decidable (FullscreenConsistent s) := by
  unfold FullscreenConsistent; infer_instance

/-- The pointer graph is a forest hanging from the workspaces: children lists
and parent pointers agree, no list holds a container twice, the top-level
containers of a workspace are exactly the parentless containers pointing to
it, a view has no children list and a split container has one, and every
stored view, workspace and output pointer is valid. -/
def TreeWF (s : State) : Prop :=
  (∀ p ∈ s.ids, (s.kids p).Nodup ∧ ∀ c ∈ s.kids p, s.parentOf c = some p) ∧
  (∀ c ∈ s.ids, ∀ p ∈ s.parentOf c, c ∈ s.kids p) ∧
  (∀ w ∈ s.wids, (s.tops w).Nodup ∧
    ∀ c ∈ s.tops w, (s.con c).isSome ∧ s.parentOf c = none ∧ s.wsOf c = some w) ∧
  (∀ c ∈ s.ids, ∀ w ∈ s.wsOf c, (s.ws w).isSome ∧ (s.parentOf c = none → c ∈ s.tops w)) ∧
  (∀ c ∈ s.ids, ∀ C ∈ s.con c,
    (∀ v ∈ C.view, (s.vw v).isSome ∧ C.pending.children = none) ∧
    (C.view = none → C.pending.children.isSome)) ∧
  (∀ w ∈ s.wids, ∀ W ∈ s.ws w, ∃ o ∈ W.output, (s.out o).isSome) ∧
  (∀ o ∈ s.root_outputs, (s.out o).isSome)

instance (s : State) : Decidable (TreeWF s) := by
  unfold TreeWF; infer_instance

/-- The children lists contain no cycle: some bounded rank decreases from
every container to each of its children. -/
def Acyclic (s : State) : Prop :=
  ∃ r : Nat → Nat, ∃ K, (∀ x, r x ≤ K) ∧ ∀ p c, c ∈ s.kids p → r c < r p

/-- Every stored pointer is valid (the pointer part of `TreeWF`, for all
indices). -/
structure Valid (s : State) : Prop where
  view : ∀ c C, s.con c = some C → ∀ v, C.view = some v → (s.vw v).isSome
  ws : ∀ c w, s.wsOf c = some w → (s.ws w).isSome
  kids : ∀ p c, c ∈ s.kids p → (s.con c).isSome
  parent : ∀ c p, s.parentOf c = some p → (s.con p).isSome
  split : ∀ c C, s.con c = some C → C.view = none → C.pending.children.isSome
  output : ∀ w W, s.ws w = some W → ∃ o, W.output = some o ∧ (s.out o).isSome
  root_outputs : ∀ o ∈ s.root_outputs, (s.out o).isSome

/-- Children lists, parent pointers and the top-level lists of the workspaces
agree (the linking part of `TreeWF`, for all indices). -/
structure Linked (s : State) : Prop where
  kids_parent : ∀ p c, c ∈ s.kids p → s.parentOf c = some p
  parent_kids : ∀ c p, s.parentOf c = some p → c ∈ s.kids p
  kids_nodup : ∀ p, (s.kids p).Nodup
  tops_nodup : ∀ w, (s.tops w).Nodup
  tops_top : ∀ w c, c ∈ s.tops w → s.parentOf c = none ∧ s.wsOf c = some w
  top_tops : ∀ c w, s.parentOf c = none → s.wsOf c = some w → c ∈ s.tops w
  view_leaf : ∀ c C, s.con c = some C → C.view ≠ none → C.pending.children = none

/-- The record of a container with its geometry, its border flags and its
dirty flag reset: what a geometry update leaves alone. -/
def sway_container.gcore (C : sway_container) : sway_container :=
  { C with
    node := { C.node with dirty := false }
    pending := { C.pending with
      x := 0, y := 0, width := 0, height := 0
      content_x := 0, content_y := 0, content_width := 0, content_height := 0
      border_top := false, border_bottom := false
      border_left := false, border_right := false } }

/-- The state `t` comes from `s` by geometry updates of containers in `S`:
outside `S` no container changed, inside only geometry, border flags and dirty
flags did, and apart from the record of outbound calls nothing else changed. -/
structure GeomAt (S : Nat → Prop) (s t : State) : Prop where
  con_gcore : ∀ x, (t.con x).map sway_container.gcore = (s.con x).map sway_container.gcore
  con_rest : ∀ x, ¬ S x → t.con x = s.con x
  views : t.views = s.views
  workspaces : t.workspaces = s.workspaces
  outputs : t.outputs = s.outputs
  root_outputs : t.root_outputs = s.root_outputs
  fullscreen_global : t.fullscreen_global = s.fullscreen_global
  scratchpad : t.scratchpad = s.scratchpad
  output_layout_box : t.output_layout_box = s.output_layout_box
  config : t.config = s.config

/-- The record of a container with, beyond `gcore`, its fullscreen mode, its
saved geometry and its title reset: what the fullscreen state machine and the
representation update leave alone. -/
def sway_container.core (C : sway_container) : sway_container :=
  { C.gcore with
    pending := { C.gcore.pending with fullscreen_mode := FULLSCREEN_NONE }
    saved_x := 0, saved_y := 0, saved_width := 0, saved_height := 0
    formatted_title := none, title_height := 0 }

/-- The record of a workspace with its fullscreen back-reference and its dirty
flag reset. -/
def sway_workspace.core (W : sway_workspace) : sway_workspace :=
  { W with fullscreen := none, node := { W.node with dirty := false } }

/-- The state `t` has the tree of `s`: containers differ at most in geometry,
flags, fullscreen mode, saved geometry and title, workspaces at most in their
fullscreen back-reference and dirty flag; views, outputs, scratchpad and
configuration are the same. -/
structure Soft (s t : State) : Prop where
  con_core : ∀ x, (t.con x).map sway_container.core = (s.con x).map sway_container.core
  ws_core : ∀ w, (t.ws w).map sway_workspace.core = (s.ws w).map sway_workspace.core
  views : t.views = s.views
  outputs : t.outputs = s.outputs
  root_outputs : t.root_outputs = s.root_outputs
  scratchpad : t.scratchpad = s.scratchpad
  output_layout_box : t.output_layout_box = s.output_layout_box
  config : t.config = s.config

/-- With enough fuel the computation `m` returns: there is one result that
every sufficiently large fuel yields, and it satisfies `Q`. -/
def Returns {α : Type} (m : Nat → Option α) (Q : α → Prop) : Prop :=
  ∃ a, Q a ∧ ∃ N, ∀ fuel, N ≤ fuel → m fuel = some a

/-- The containers `container_fullscreen_disable` may write: `f` itself and, when
`f` leaves workspace fullscreen (where a floating container is moved with its
subtree), the descendants of `f`. -/
def DisableTouched (s : State) (f : Nat) (F : sway_container) (x : Nat) : Prop :=
  x = f ∨ (F.pending.fullscreen_mode = FULLSCREEN_WORKSPACE ∧ Reach s f x)

/-- What `container_fullscreen_disable` does to a fullscreen container `f`: the
tree is kept, only `f` and its descendants change, `f` ends in mode
`FULLSCREEN_NONE`, every other mode is kept, and the back-reference of `f`'s scope
is cleared. -/
structure DisablePost (s : State) (f : Nat) (F : sway_container) (t : State) : Prop where
  soft : Soft s t
  con_rest : ∀ x, ¬ DisableTouched s f F x → t.con x = s.con x
  mode_rest : ∀ x, x ≠ f → t.modeOf x = s.modeOf x
  mode_self : t.modeOf f = some FULLSCREEN_NONE
  fsOf : ∀ w, t.fsOf w =
    if F.pending.fullscreen_mode = FULLSCREEN_WORKSPACE ∧ F.pending.workspace = some w
    then none else s.fsOf w
  fullscreen_global : t.fullscreen_global =
    if F.pending.fullscreen_mode = FULLSCREEN_WORKSPACE then s.fullscreen_global else none

/-- What `container_fullscreen_workspace` does to a container `c` that is not
fullscreen. -/
structure EnterWorkspacePost (s : State) (c : Nat) (C : sway_container) (t : State) :
    Prop where
  soft : Soft s t
  con_rest : ∀ x, x ≠ c → t.con x = s.con x
  con_self : t.con c = some { C with
    pending := { C.pending with fullscreen_mode := FULLSCREEN_WORKSPACE }
    saved_x := C.pending.x, saved_y := C.pending.y
    saved_width := C.pending.width, saved_height := C.pending.height }
  fsOf : ∀ w, t.fsOf w = if C.pending.workspace = some w then some c else s.fsOf w
  fullscreen_global : t.fullscreen_global = s.fullscreen_global

/-- What `container_fullscreen_global` does to a container `c` that is not
fullscreen. -/
structure EnterGlobalPost (s : State) (c : Nat) (C : sway_container) (t : State) :
    Prop where
  soft : Soft s t
  con_rest : ∀ x, x ≠ c → t.con x = s.con x
  con_self : t.con c = some { C with
    pending := { C.pending with fullscreen_mode := FULLSCREEN_GLOBAL }
    saved_x := C.pending.x, saved_y := C.pending.y
    saved_width := C.pending.width, saved_height := C.pending.height }
  ws : ∀ w, t.ws w = s.ws w
  fullscreen_global : t.fullscreen_global = some c

/-- The record of a container with its workspace pointer reset. -/
def sway_container.nows (C : sway_container) : sway_container :=
  { C with pending := { C.pending with workspace := none } }

/-- The record of a container with its workspace pointer replaced. -/
def sway_container.withWs (C : sway_container) (w : Option Nat) : sway_container :=
  { C with pending := { C.pending with workspace := w } }

/-- The state `t` comes from `s` by writes to workspace pointers of containers
only. -/
structure WsOnly (s t : State) : Prop where
  con_nows : ∀ x, (t.con x).map sway_container.nows = (s.con x).map sway_container.nows
  rest : ({ t with containers := [] } : State) = { s with containers := [] }

/-- The part of the tree below `c` is sound: the children found there exist and
point back to their parent. -/
def SubtreeOk (s : State) (c : Nat) : Prop :=
  ∀ p y, Reach s c p → y ∈ s.kids p → (s.con y).isSome ∧ s.parentOf y = some p

/-- The result of the workspace cascade: in the region `D` every container has
the workspace `w`, outside nothing changed. -/
structure Cascaded (s : State) (w : Option Nat) (D : Nat → Prop) (t : State) : Prop where
  only : WsOnly s t
  inside : ∀ x, D x → t.wsOf x = w
  outside : ∀ x, ¬ D x → t.con x = s.con x

/-- The strict descendants of `c`. -/
def Below (s : State) (c x : Nat) : Prop := ∃ y, y ∈ s.kids c ∧ Reach s y x

/-- Write the parent and workspace pointers of a container. -/
def State.setLinks (s : State) (c : Nat) (a b : Option Nat) : State :=
  s.updCon c (fun C => { C with pending := { C.pending with parent := a, workspace := b } })

/-- Write the children list of a container. -/
def State.setChildren (s : State) (p : Nat) (l : List Nat) : State :=
  s.updCon p (fun C => { C with pending := { C.pending with children := some l } })

/-- The state `t` has the same skeleton as `s`: the same valid pointers, views,
outputs and flags; links between containers and workspaces may differ. -/
structure Skel (s t : State) : Prop where
  live : ∀ x, (t.con x).isSome = (s.con x).isSome
  wlive : ∀ w, (t.ws w).isSome = (s.ws w).isSome
  viewOf : ∀ x, t.viewOf x = s.viewOf x
  split : ∀ x, (t.childrenOf x).isSome = (s.childrenOf x).isSome
  scratch : ∀ x, (t.con x).map (·.scratchpad) = (s.con x).map (·.scratchpad)
  output : ∀ w, (t.ws w).map (·.output) = (s.ws w).map (·.output)
  views : t.views = s.views
  outputs : t.outputs = s.outputs
  root_outputs : t.root_outputs = s.root_outputs

/-- Every fullscreen back-reference of a workspace is a valid pointer. -/
def FsLive (s : State) : Prop := ∀ w f, s.fsOf w = some f → (s.con f).isSome

/-- The state `t` has the tree of `s` with the same `pending` records, and no
new fullscreen back-reference. -/
structure Kept (s t : State) : Prop where
  soft : Soft s t
  pending : ∀ x, (t.con x).map (·.pending) = (s.con x).map (·.pending)
  fsOf : ∀ w f, t.fsOf w = some f → s.fsOf w = some f

/-- The lists of `t` are those of `s` with `child` removed from its sibling list:
from the children of its parent, or else from the tiling list, or else from the
floating list of its workspace.  Modes are kept and no fullscreen back-reference
is new. -/
structure Unlinked (s : State) (child : Nat) (t : State) : Prop where
  skel : Skel s t
  childrenOf : ∀ x, t.childrenOf x =
    (s.childrenOf x).map (fun l => if s.parentOf child = some x then l.erase child else l)
  tiling : ∀ w, (t.ws w).map (·.tiling) = (s.ws w).map (fun W =>
    if s.parentOf child = none ∧ s.wsOf child = some w then W.tiling.erase child
    else W.tiling)
  floating : ∀ w, (t.ws w).map (·.floating) = (s.ws w).map (fun W =>
    if s.parentOf child = none ∧ s.wsOf child = some w ∧ child ∉ W.tiling
    then W.floating.erase child else W.floating)
  modeOf : ∀ x, t.modeOf x = s.modeOf x
  fsOf : ∀ w f, t.fsOf w = some f → s.fsOf w = some f

/-- What `container_detach` does to the tree. -/
structure DetachPost (s : State) (child : Nat) (t : State) : Prop where
  unlinked : Unlinked s child t
  parentOf : ∀ x, t.parentOf x = if x = child then none else s.parentOf x
  ws_in : ∀ x, Reach s child x → t.wsOf x = none
  ws_out : ∀ x, ¬ Reach s child x → t.wsOf x = s.wsOf x

/-! ## Example states -/

/-- A view container. -/
def leaf (parent : Option Nat) (w : Option Nat) (view : Nat)
    (mode : sway_fullscreen_mode := FULLSCREEN_NONE) : Option sway_container :=
  some { view := some view,
         pending := { parent := parent, workspace := w, fullscreen_mode := mode } }

/-- A split container. -/
def split (parent : Option Nat) (w : Option Nat) (layout : sway_container_layout)
    (children : List Nat) : Option sway_container :=
  some { pending := { layout := layout, parent := parent, workspace := w,
                      children := some children } }

/-- Two workspaces: on workspace 0 the split container 0 whose child 1 is the
workspace's fullscreen view; on workspace 1 the split container 2 whose child
3 is that workspace's fullscreen view. -/
def two_fullscreen_state : State where
  containers := [split none (some 0) L_HORIZ [1],
                 leaf (some 0) (some 0) 0 FULLSCREEN_WORKSPACE,
                 split none (some 1) L_HORIZ [3],
                 leaf (some 2) (some 1) 1 FULLSCREEN_WORKSPACE]
  views := [some { container := some 1 }, some { container := some 3 }]
  workspaces := [{ tiling := [0], fullscreen := some 1, output := some 0 },
                 { tiling := [2], fullscreen := some 3, output := some 0 }]
  outputs := [{}]
  root_outputs := [0]

/-- One workspace: the split container 0 with the views 1 and 2; view 1 is the
global fullscreen container. -/
def global_fullscreen_state : State where
  containers := [split none (some 0) L_HORIZ [1, 2],
                 leaf (some 0) (some 0) 0 FULLSCREEN_GLOBAL,
                 leaf (some 0) (some 0) 1]
  views := [some { container := some 1 }, some { container := some 2 }]
  workspaces := [{ tiling := [0], output := some 0 }]
  outputs := [{}]
  root_outputs := [0]
  fullscreen_global := some 1

/-- One workspace with layout `L_VERT`: the `L_VERT` container 0 has the
children 3, 1, 4; container 1 is `L_HORIZ` with the single child 2, which is
`L_VERT` with the views 5, 6, 7 in that order. -/
def squash_state : State where
  containers := [split none (some 0) L_VERT [3, 1, 4],
                 split (some 0) (some 0) L_HORIZ [2],
                 split (some 1) (some 0) L_VERT [5, 6, 7],
                 leaf (some 0) (some 0) 0, leaf (some 0) (some 0) 1,
                 leaf (some 2) (some 0) 2, leaf (some 2) (some 0) 3,
                 leaf (some 2) (some 0) 4]
  views := [some { container := some 3 }, some { container := some 4 },
            some { container := some 5 }, some { container := some 6 },
            some { container := some 7 }]
  workspaces := [{ layout := L_VERT, tiling := [0], output := some 0 }]
  outputs := [{}]
  root_outputs := [0]

/-- One workspace with the `L_TABBED` container 0 holding the `L_HORIZ`
container 1 and the view 4; container 1 has the single child 2 (`L_VERT`),
whose single child 3 (`L_HORIZ`) has an empty children list. -/
def nested_squash_state : State where
  containers := [split none (some 0) L_TABBED [1, 4],
                 split (some 0) (some 0) L_HORIZ [2],
                 split (some 1) (some 0) L_VERT [3],
                 split (some 2) (some 0) L_HORIZ [],
                 leaf (some 0) (some 0) 0]
  views := [some { container := some 4 }]
  workspaces := [{ layout := L_HORIZ, tiling := [0], output := some 0 }]
  outputs := [{}]
  root_outputs := [0]

/-- A detached split container 0 (no parent, no workspace) whose child, the
view 1, is still in mode `FULLSCREEN_WORKSPACE`: the state left by detaching a
split container that holds the fullscreen view of its workspace. -/
def detached_fullscreen_state : State where
  containers := [split none none L_HORIZ [1],
                 leaf (some 0) none 0 FULLSCREEN_WORKSPACE]
  views := [some { container := some 1 }]
  workspaces := [{ output := some 0 }]
  outputs := [{}]
  root_outputs := [0]

/-- One workspace of layout `gp` with the top-level container 0 of layout `c`,
whose single child 1 has layout `ch` and holds the view 2. -/
def pair_state (gp c ch : sway_container_layout) : State where
  containers := [split none (some 0) c [1], split (some 0) (some 0) ch [2],
                 leaf (some 1) (some 0) 0]
  views := [some { container := some 2 }]
  workspaces := [{ layout := gp, tiling := [0], output := some 0 }]
  outputs := [{}]
  root_outputs := [0]

/-- The parent layout the squash test reads, following the words of the
specification: the parent's layout, else the workspace's layout, else
`L_NONE`. -/
def spec_parent_layout (s : State) (C : sway_container) : Option sway_container_layout :=
  match C.pending.parent with
  | some p => (s.con p).map (·.pending.layout)
  | none =>
    match C.pending.workspace with
    | some w => (s.ws w).map (·.layout)
    | none => some L_NONE

/-- Two layouts are parallel, following the words of the specification. -/
def spec_parallel (a b : sway_container_layout) : Prop :=
  ((a = L_TABBED ∨ a = L_HORIZ) ∧ (b = L_TABBED ∨ b = L_HORIZ)) ∨
  ((a = L_STACKED ∨ a = L_VERT) ∧ (b = L_STACKED ∨ b = L_VERT))

instance (a b : sway_container_layout) : Decidable (spec_parallel a b) := by
  unfold spec_parallel; infer_instance

/-- The border width `container_set_geometry_from_content` works with. -/
def geometry_border_width (C : sway_container) : Nat :=
  if C.pending.border ≠ B_CSD ∧ C.pending.fullscreen_mode = FULLSCREEN_NONE then
    to_size_t (C.pending.border_thickness * (if C.pending.border ≠ B_NONE then 1 else 0))
  else 0

/-- The top offset `container_set_geometry_from_content` works with. -/
def geometry_top (s : State) (C : sway_container) : Nat :=
  if C.pending.border ≠ B_CSD ∧ C.pending.fullscreen_mode = FULLSCREEN_NONE then
    (if C.pending.border = B_NORMAL then container_titlebar_height s
     else geometry_border_width C)
  else 0

/-- A floating view container with border style `B_NONE`, border thickness 2
and content box 100 x 50 at (10, 20). -/
def floating_view : sway_container :=
  { view := some 0,
    pending := { workspace := some 0, border := B_NONE, border_thickness := 2,
                 content_x := 10, content_y := 20, content_width := 100,
                 content_height := 50 } }

/-- One workspace whose floating list holds the container `floating_view`. -/
def floating_view_state : State where
  containers := [some floating_view]
  views := [some { container := some 0 }]
  workspaces := [{ floating := [0], output := some 0 }]
  outputs := [{}]
  root_outputs := [0]

/-- A floating view container with border style `B_PIXEL`, border thickness 2
and content box 100 x 50 at (10, 20). -/
def floating_pixel_view : sway_container :=
  { view := some 0,
    pending := { workspace := some 0, border := B_PIXEL, border_thickness := 2,
                 content_x := 10, content_y := 20, content_width := 100,
                 content_height := 50 } }

/-- One workspace whose floating list holds the container
`floating_pixel_view`. -/
def floating_pixel_state : State where
  containers := [some floating_pixel_view]
  views := [some { container := some 0 }]
  workspaces := [{ floating := [0], output := some 0 }]
  outputs := [{}]
  root_outputs := [0]

/-- A floating split container of width 60 and height 40. -/
def floating_split : sway_container :=
  { pending := { workspace := some 0, children := some [], width := 60, height := 40 } }

/-- One workspace whose floating list holds `floating_split`, with the floating
minimum width 100 and the floating maximum width 50 configured. -/
def narrow_maximum_state : State where
  containers := [some floating_split]
  workspaces := [{ floating := [0], output := some 0 }]
  outputs := [{}]
  root_outputs := [0]
  config := { floating_minimum_width := 100, floating_maximum_width := 50 }

/-- The workspace of `centred_state`: 800 x 600 at the origin. -/
def centred_workspace : sway_workspace :=
  { floating := [0], output := some 0, width := 800, height := 600 }

/-- One workspace of 800 x 600 on an output with the same layout box, whose
floating list holds `floating_split`. -/
def centred_state : State where
  containers := [some floating_split]
  workspaces := [centred_workspace]
  outputs := [{ layout_box := some { width := 800, height := 600 } }]
  root_outputs := [0]

/-- What linking `child` below `newpar` on workspace `neww` does to the tree:
links of `t` relative to the state `s2` in which `child` has already been
inserted into its new sibling list. -/
structure LinkPost (s2 : State) (child : Nat) (newpar neww : Option Nat) (t : State) :
    Prop where
  skel : Skel s2 t
  parentOf : ∀ x, t.parentOf x = if x = child then newpar else s2.parentOf x
  ws_in : ∀ x, Reach s2 child x → t.wsOf x = neww
  ws_out : ∀ x, ¬ Reach s2 child x → t.wsOf x = s2.wsOf x
  childrenOf : ∀ x, t.childrenOf x = s2.childrenOf x
  tiling : ∀ w, (t.ws w).map (·.tiling) = (s2.ws w).map (·.tiling)
  floating : ∀ w, (t.ws w).map (·.floating) = (s2.ws w).map (·.floating)

/-- The state before the insertion of an attach operation: the state after
detaching `child` when it had a workspace, the initial state otherwise. -/
def PreLink (s : State) (child : Nat) (s1 : State) : Prop :=
  ((s.wsOf child).isSome ∧ DetachPost s child s1) ∨ (s.wsOf child = none ∧ s1 = s)

/-- Some bounded rank increases along the parent pointers of `t`. -/
def UpRank (t : State) : Prop :=
  ∃ r : Nat → Nat, ∃ K, (∀ x, r x ≤ K) ∧ ∀ x q, t.parentOf x = some q → r x < r q

/-- What `container_add_child` and `container_insert_child` do to the tree: the
child is detached when it had a workspace (state `s1`), inserted into the
children list of `parent` (giving the list `l2`), and linked with its subtree to
the parent's workspace. -/
def AttachPost (s : State) (parent child : Nat) (ins : List Nat → List Nat) (t : State) :
    Prop :=
  ∃ s1 l1, PreLink s child s1 ∧ s1.childrenOf parent = some l1 ∧
    LinkPost (s1.setChildren parent (ins l1)) child (some parent) (s1.wsOf parent) t

/-- The list with `active` inserted beside `fixed`, as `container_add_sibling`
computes it. -/
def insert_beside (l : List Nat) (fixed active : Nat) (after : Bool) : List Nat :=
  l.insertIdx (list_find l fixed + (if after then 1 else 0)).toNat active

/-- The state in which `container_add_sibling` has inserted `active` into the
top-level list of workspace `w` that holds `fixed`. -/
def State.insertTop (s : State) (w : Nat) (W : sway_workspace) (fixed active : Nat)
    (after : Bool) : State :=
  if list_find W.tiling fixed ≠ -1 then
    s.updWs w (fun V => { V with tiling := insert_beside W.tiling fixed active after })
  else
    s.updWs w (fun V => { V with floating := insert_beside W.floating fixed active after })

/-- What `container_add_sibling` does to the tree. -/
def SiblingPost (s : State) (fixed active : Nat) (after : Bool) (t : State) : Prop :=
  ∃ s1, PreLink s active s1 ∧
    ((∃ q l1, s1.parentOf fixed = some q ∧ s1.childrenOf q = some l1 ∧
        LinkPost (s1.setChildren q (insert_beside l1 fixed active after)) active (some q)
          (s1.wsOf fixed) t) ∨
     (∃ w W, s1.parentOf fixed = none ∧ s1.wsOf fixed = some w ∧ s1.ws w = some W ∧
        LinkPost (s1.insertTop w W fixed active after) active none (some w) t))

/-- The two characters `container_build_representation` writes first. -/
def layout_opening (layout : sway_container_layout) : String :=
  match layout with
  | L_VERT => "V["
  | L_HORIZ => "H["
  | L_TABBED => "T["
  | L_STACKED => "S["
  | L_NONE => "D["

/-- The text written for a child identifier: the identifier, or `(null)`. -/
def identifier_text (r : Option String) : String := r.getD "(null)"

/-- The text the loop of `container_build_representation` appends from index
`i` on for the identifiers `ids`. -/
def representation_body : Nat → List (Option String) → String
  | _, [] => ""
  | i, r :: rest =>
    (if i ≠ 0 then " " else "") ++ identifier_text r ++ representation_body (i + 1) rest

/-- The representation string following the words of the documentation: the
layout prefix, the identifiers separated by `sep`, and the closing bracket. -/
def spec_representation (sep : String) (layout : sway_container_layout)
    (ids : List (Option String)) : String :=
  layout_opening layout ++ String.intercalate sep (ids.map identifier_text) ++ "]"

/-- One workspace with the `L_VERT` container 0 whose children are the views
1 and 2 of classes `Terminal` and `Firefox`. -/
def terminal_firefox_state : State where
  containers := [split none (some 0) L_VERT [1, 2],
                 leaf (some 0) (some 0) 0, leaf (some 0) (some 0) 1]
  views := [some { container := some 1, view_class := some "Terminal" },
            some { container := some 2, view_class := some "Firefox" }]
  workspaces := [{ tiling := [0], output := some 0 }]
  outputs := [{}]
  root_outputs := [0]

/-- A node that can be hit-tested (`struct sway_node` of type `N_WORKSPACE` or
`N_CONTAINER`). -/
inductive Node where
  | workspace (w : Nat)
  | container (c : Nat)
  deriving DecidableEq, Repr

/-- The out-parameters `surface`, `sx`, `sy` of the hit tests: the surface
found with its local coordinates, or the null surface. -/
abbrev SurfaceHit := Option (Nat × ℚ × ℚ)

/-- Modelled from the spec: the read-only answers of the input/seat subsystem
and of the surface trees of the views: the current seat's focused container,
focused node and focused workspace, its preferred inactive tiling target in a
workspace, its active child within a tabbed or stacked node, the surface of a
view container under a point, whether a surface is a popup, and whether a
workspace is visible. -/
structure sway_seat where
  focused_container : Option Nat := none
  focus : Option Node := none
  focused_workspace : Option Nat := none
  focus_inactive_tiling : Nat → Option Nat := fun _ => none
  active_tiling_child : Node → Option Node := fun _ => none
  surface_at : Nat → ℚ → ℚ → SurfaceHit := fun _ _ _ => none
  surface_is_popup : Nat → Bool := fun _ => false
  workspace_is_visible : Nat → Bool := fun _ => true

/-- `INT_MIN` of a 32-bit `int`. -/
def INT_MIN : Int := -2147483648

/-- Conversion of a `double` to `int`: truncation toward zero; the conversion
of a value outside the range of `int` is undefined. -/
def double_to_int (q : ℚ) : Option Int :=
  let t : Int := if 0 ≤ q then ⌊q⌋ else ⌈q⌉
  if INT_MIN ≤ t ∧ t ≤ INT_MAX then some t else none

/-- Conversion of a `size_t` to `int`: the value modulo `2^32`, read as a signed
number. -/
def size_t_to_int (n : Nat) : Int :=
  let m : Int := (n : Int) % 2 ^ 32
  if m < 2 ^ 31 then m else m - 2 ^ 32

def container_get_box (s : State) (container : Nat) : Option wlr_box := do
  let C ← s.con container
  let x ← double_to_int C.pending.x
  let y ← double_to_int C.pending.y
  let width ← double_to_int C.pending.width
  let height ← double_to_int C.pending.height
  pure { x := x, y := y, width := width, height := height }

/-- Modelled from the spec: `node_get_box` (`node.c`), the box of a workspace
or of a container. -/
def node_get_box (s : State) : Node → Option wlr_box
  | .workspace w => do
    let W ← s.ws w
    pure { x := W.x, y := W.y, width := W.width, height := W.height }
  | .container c => container_get_box s c

/-- Modelled from the spec: `node_get_children` (`node.c`), the tiling list of
a workspace or the children list of a container; the inner `none` is the null
list of a view. -/
def node_get_children (s : State) : Node → Option (Option (List Nat))
  | .workspace w => do
    let W ← s.ws w
    pure (some W.tiling)
  | .container c => do
    let C ← s.con c
    pure C.pending.children

/-- The hit test of a node with layout `L_TABBED`; `recurse` is the call of
`tiling_container_at` with the same point. -/
def container_at_tabbed (recurse : Node → SurfaceHit → Option (Option Nat × SurfaceHit))
    (s : State) (seat : sway_seat) (parent : Node) (lx ly : ℚ) (surface : SurfaceHit) :
    Option (Option Nat × SurfaceHit) := do
  let box ← node_get_box s parent
  if lx < box.x ∨ lx > box.x + box.width ∨ ly < box.y ∨ ly > box.y + box.height then
    pure (none, surface)
  else
    let children ← (← node_get_children s parent)
    if children.length = 0 then pure (none, surface)
    else
      let title_height := size_t_to_int (container_titlebar_height s)
      if ly < box.y + title_height then
        let tab_width : Int := Int.tdiv box.width children.length
        -- a division by zero gives an infinity or a NaN, whose conversion is undefined
        if tab_width = 0 then none
        else
          let child_index ← double_to_int ((lx - box.x) / tab_width)
          let child_index : Int :=
            if child_index ≥ children.length then children.length - 1 else child_index
          if child_index < 0 then none
          else
            let child ← children.get? child_index.toNat
            pure (some child, surface)
      else
        match seat.active_tiling_child parent with
        | some current => recurse current surface
        | none => pure (none, surface)

/-- The hit test of a node with layout `L_STACKED`; `recurse` is the call of
`tiling_container_at` with the same point. -/
def container_at_stacked (recurse : Node → SurfaceHit → Option (Option Nat × SurfaceHit))
    (s : State) (seat : sway_seat) (parent : Node) (lx ly : ℚ) (surface : SurfaceHit) :
    Option (Option Nat × SurfaceHit) := do
  let box ← node_get_box s parent
  if lx < box.x ∨ lx > box.x + box.width ∨ ly < box.y ∨ ly > box.y + box.height then
    pure (none, surface)
  else
    let children ← (← node_get_children s parent)
    let title_height := size_t_to_int (container_titlebar_height s)
    let hit : Option Nat ←
      (if title_height > 0 then do
        let child_index ← double_to_int ((ly - box.y) / title_height)
        if child_index < children.length then
          if child_index < 0 then none
          else
            let child ← children.get? child_index.toNat
            pure (some child)
        else pure none
      else pure none)
    match hit with
    | some child => pure (some child, surface)
    | none =>
      match seat.active_tiling_child parent with
      | some current => recurse current surface
      | none => pure (none, surface)

def container_toplevel_ancestor : Nat → State → Nat → Option Nat
  | 0, _, _ => none
  | fuel + 1, s, container => do
    let C ← s.con container
    match C.pending.parent with
    | some p => container_toplevel_ancestor fuel s p
    | none => pure container

/-- One workspace with the `L_TABBED` container 0 at the origin, 2 wide and 100
high, with the views 1, 2, 3; the titlebar height is 20. -/
def narrow_tabbed_state : State where
  containers := [some { pending := { layout := L_TABBED, workspace := some 0,
                                     children := some [1, 2, 3], width := 2, height := 100 } },
                 leaf (some 0) (some 0) 0, leaf (some 0) (some 0) 1,
                 leaf (some 0) (some 0) 2]
  views := [some { container := some 1 }, some { container := some 2 },
            some { container := some 3 }]
  workspaces := [{ tiling := [0], output := some 0 }]
  outputs := [{}]
  root_outputs := [0]
  config := { font_height := 20 }

/-- One workspace with the `L_TABBED` container 0 at the origin, 300 wide and
200 high, with the views 1, 2, 3; the titlebar height is 20. -/
def tabbed_state : State where
  containers := [some { pending := { layout := L_TABBED, workspace := some 0,
                                     children := some [1, 2, 3], width := 300, height := 200 } },
                 leaf (some 0) (some 0) 0, leaf (some 0) (some 0) 1,
                 leaf (some 0) (some 0) 2]
  views := [some { container := some 1 }, some { container := some 2 },
            some { container := some 3 }]
  workspaces := [{ tiling := [0], output := some 0 }]
  outputs := [{}]
  root_outputs := [0]
  config := { font_height := 20 }

/-- The state `tabbed_state` with the tabbed container only 10 high, less than
the titlebar height 20. -/
def low_tabbed_state : State where
  containers := [some { pending := { layout := L_TABBED, workspace := some 0,
                                     children := some [1, 2, 3], width := 300, height := 10 } },
                 leaf (some 0) (some 0) 0, leaf (some 0) (some 0) 1,
                 leaf (some 0) (some 0) 2]
  views := [some { container := some 1 }, some { container := some 2 },
            some { container := some 3 }]
  workspaces := [{ tiling := [0], output := some 0 }]
  outputs := [{}]
  root_outputs := [0]
  config := { font_height := 20 }

/-- One workspace with the `L_STACKED` container 0 at the origin, 300 wide and
200 high, with the views 1, 2, 3; the titlebar height is 20. -/
def stacked_state : State where
  containers := [some { pending := { layout := L_STACKED, workspace := some 0,
                                     children := some [1, 2, 3], width := 300, height := 200 } },
                 leaf (some 0) (some 0) 0, leaf (some 0) (some 0) 1,
                 leaf (some 0) (some 0) 2]
  views := [some { container := some 1 }, some { container := some 2 },
            some { container := some 3 }]
  workspaces := [{ tiling := [0], output := some 0 }]
  outputs := [{}]
  root_outputs := [0]
  config := { font_height := 20 }

/-- The new container takes the next slot of the arena; the allocation is taken
to succeed.  Returns the new state and the new container. -/
def container_create (s : State) (view : Option Nat) : State × Nat :=
  let c := s.containers.length
  let C : sway_container :=
    { node := {}
      view := view
      alpha := 1
      pending := { layout := L_NONE, children := if view.isNone then some [] else none }
      current := { children := if view.isNone then some [] else none }
      marks := []
      outputs := [] }
  (({ s with containers := s.containers ++ [some C] } : State).emit (.new_node c), c)

def container_floating_set_default_size (s : State) (con : Nat) : Option State := do
  let C ← s.con con
  let (s, ok) := sway_assert s C.pending.workspace.isSome "Expected a container on a workspace"
  if !ok then pure s
  else
    let (min_width, max_width, min_height, max_height) := floating_calculate_constraints s
    let w ← C.pending.workspace
    let W ← s.ws w
    let width : ℚ := max (min_width : ℚ) (min ((W.width : ℚ) * (1 / 2)) max_width)
    let height : ℚ := max (min_height : ℚ) (min ((W.height : ℚ) * (3 / 4)) max_height)
    match C.view with
    | none =>
      s.modCon con (fun C => { C with pending := { C.pending with
        width := width, height := height } })
    | some _ =>
      let s ← s.modCon con (fun C => { C with pending := { C.pending with
        content_width := width, content_height := height } })
      container_set_geometry_from_content s con

/-- Modelled from the spec: `workspace_add_floating` (`workspace.c`), which
detaches the container when it is on a workspace, appends it to the
workspace's floating collection, sets the workspace on the moved subtree and
re-handles fullscreen. -/
def workspace_add_floating (fuel : Nat) (s : State) (workspace con : Nat) : Option State := do
  let C ← s.con con
  let s ← (if C.pending.workspace.isSome then container_detach fuel s con else pure s)
  let W ← s.ws workspace
  let s ← s.writeList (.floating workspace) (list_add W.floating con)
  let s ← s.modCon con (fun C => { C with
    pending := { C.pending with workspace := some workspace } })
  let s ← container_for_each_child fuel set_workspace s con
  let s ← container_handle_fullscreen_reparent fuel s con
  let s ← s.dirtyWs workspace
  s.dirtyCon con

/-- Modelled from the spec: `workspace_add_tiling` (`workspace.c`), which adds
the container directly to the workspace's tiling root and returns the
container that was added. -/
def workspace_add_tiling (fuel : Nat) (s : State) (workspace con : Nat) :
    Option (State × Nat) := do
  let C ← s.con con
  let s ← (if C.pending.workspace.isSome then container_detach fuel s con else pure s)
  let W ← s.ws workspace
  let s ← s.writeList (.tiling workspace) (list_add W.tiling con)
  let s ← s.modCon con (fun C => { C with
    pending := { C.pending with workspace := some workspace } })
  let s ← container_for_each_child fuel set_workspace s con
  let s ← container_handle_fullscreen_reparent fuel s con
  let s := workspace_update_representation s workspace
  let s ← s.dirtyWs workspace
  let s ← s.dirtyCon con
  pure (s, con)

/-- Modelled from the spec: `view_set_tiled` (`view.c`), which tells the view
whether it is tiled. -/
def view_set_tiled (s : State) (view : Nat) (tiled : Bool) : State :=
  s.emit (.view_set_tiled view tiled)

def container_set_floating (fuel : Nat) (seat : sway_seat) (s : State) (container : Nat)
    (enable : Bool) : Option State := do
  if (← container_is_floating s container) = enable then pure s
  else
    let C ← s.con container
    let workspace := C.pending.workspace
    let focus := seat.focused_container
    let set_focus : Bool := decide (focus = some container)
    let s ←
      (if enable then do
        let old_parent := C.pending.parent
        let s ← container_detach fuel s container
        let w ← workspace
        let s ← workspace_add_floating fuel s w container
        let s ← (match C.view with
          | some v => do
            let V ← s.vw v
            let s := view_set_tiled s v false
            if V.using_csd then
              s.modCon container (fun C => { C with pending := { C.pending with
                border := B_CSD } })
            else pure s
          | none => pure s)
        let s ← container_floating_set_default_size s container
        let s ← container_floating_resize_and_center s container
        match old_parent with
        | some p =>
          let s :=
            if set_focus then
              (s.emit (.seat_set_raw_focus p)).emit (.seat_set_raw_focus container)
            else s
          container_reap_empty fuel s p
        | none => pure s
      else do
        -- returning to tiled
        let s ← (if C.scratchpad then root_scratchpad_remove_container s container else pure s)
        let s ← container_detach fuel s container
        let w ← workspace
        let s ← (match seat.focus_inactive_tiling w with
          | some reference => do
            let R ← s.con reference
            let s ←
              (if R.view.isSome then container_add_sibling fuel s reference container true
               else container_add_child fuel s reference container)
            let R ← s.con reference
            s.modCon container (fun C => { C with pending := { C.pending with
              width := R.pending.width, height := R.pending.height } })
          | none => do
            let (s, other) ← workspace_add_tiling fuel s w container
            let W ← s.ws w
            s.modCon other (fun C => { C with pending := { C.pending with
              width := W.width, height := W.height } }))
        let s ← (match C.view with
          | some v => do
            let V ← s.vw v
            let s := view_set_tiled s v true
            if V.using_csd then
              s.modCon container (fun C => { C with pending := { C.pending with
                border := C.saved_border } })
            else pure s
          | none => pure s)
        s.modCon container (fun C => { C with width_fraction := 0, height_fraction := 0 }))
    let s := container_end_mouse_operation s container
    pure (ipc_event_window s container "floating")

/-- Modelled from the spec: `root_scratchpad_show` (`root.c`), which brings a
scratchpad container onto the seat's focused workspace as a floating
container, after disabling the fullscreen containers in its way. -/
def root_scratchpad_show (fuel : Nat) (seat : sway_seat) (s : State) (con : Nat) :
    Option State := do
  match seat.focused_workspace with
  | none => pure s
  | some new_ws =>
    let C ← s.con con
    let old_ws := C.pending.workspace
    let W ← s.ws new_ws
    let s ← (match W.fullscreen with
      | some f => container_fullscreen_disable fuel s f
      | none => pure s)
    let s ← (match s.fullscreen_global with
      | some g => container_fullscreen_disable fuel s g
      | none => pure s)
    let (s, con) ← (match old_ws with
      | some _ => do
        let s ← container_detach fuel s con
        pure (s, con)
      | none => do
        let top ← container_toplevel_ancestor fuel s con
        pure (s, top))
    let s ← workspace_add_floating fuel s new_ws con
    let s := arrange_workspace s new_ws
    let s := s.emit (.seat_set_focus con)
    match old_ws with
    | some w => pure (workspace_consider_destroy s w)
    | none => pure s

/-- Modelled from the spec: `root_scratchpad_add_container` (`root.c`), which
makes a container a scratchpad member: it leaves fullscreen, becomes floating,
is detached and recorded in the scratchpad, and is shown on the workspace `ws`
when one is given. -/
def root_scratchpad_add_container (fuel : Nat) (seat : sway_seat) (s : State) (con : Nat)
    (ws : Option Nat) : Option State := do
  let C ← s.con con
  let (s, ok) := sway_assert s (!C.scratchpad) "Container is already in scratchpad"
  if !ok then pure s
  else
    let s ←
      (if C.pending.fullscreen_mode ≠ FULLSCREEN_NONE then
        container_fullscreen_disable fuel s con
      else pure s)
    let s ←
      (if !(← container_is_floating s con) then do
        let s ← container_set_floating fuel seat s con true
        let s ← container_floating_set_default_size s con
        container_floating_move_to_center fuel s con
      else pure s)
    let s ← container_detach fuel s con
    let s ← s.modCon con (fun C => { C with scratchpad := true })
    let s := { s with scratchpad := list_add s.scratchpad con }
    let s ← (match ws with
      | some w => workspace_add_floating fuel s w con
      | none => pure s)
    pure (ipc_event_window s con "move")

def container_replace (fuel : Nat) (seat : sway_seat) (s : State)
    (container replacement : Nat) : Option State := do
  let C ← s.con container
  let fullscreen := C.pending.fullscreen_mode
  let scratchpad := C.scratchpad
  let s ←
    (if fullscreen ≠ FULLSCREEN_NONE then container_fullscreen_disable fuel s container
     else pure s)
  let (s, ws) ← (if scratchpad then do
      let C ← s.con container
      let ws := C.pending.workspace
      let s ← root_scratchpad_show fuel seat s container
      let s ← root_scratchpad_remove_container s container
      pure (s, ws)
    else pure (s, none))
  let C ← s.con container
  let s ←
    (if C.pending.parent.isSome ∨ C.pending.workspace.isSome then do
      let width_fraction := double_to_float C.width_fraction
      let height_fraction := double_to_float C.height_fraction
      let s ← container_add_sibling fuel s container replacement true
      let s ← container_detach fuel s container
      s.modCon replacement (fun R => { R with
        width_fraction := width_fraction, height_fraction := height_fraction })
    else pure s)
  let s ←
    (if scratchpad then root_scratchpad_add_container fuel seat s replacement ws
     else pure s)
  match fullscreen with
  | FULLSCREEN_WORKSPACE => container_fullscreen_workspace s replacement
  | FULLSCREEN_GLOBAL => container_fullscreen_global s replacement
  | FULLSCREEN_NONE => pure s

/-- The first part of `container_split`: the new state when the parent (or
workspace) is only relabelled, `none` when the child has to be wrapped. -/
def container_split_relabel (fuel : Nat) (s : State) (child : Nat)
    (layout : sway_container_layout) : Option (Option State) := do
  let C ← s.con child
  if C.pending.parent.isSome ∨ C.pending.workspace.isSome then
    let siblings ← (← container_get_siblings s child)
    let l ← s.readList siblings
    if l.length = 1 then
      let current ← container_parent_layout s child
      let current := if (← container_is_floating s child) then L_NONE else current
      if current = L_HORIZ ∨ current = L_VERT then
        match C.pending.parent with
        | some p =>
          let s ← s.modCon p (fun P => { P with pending := { P.pending with layout := layout } })
          let s ← container_update_representation fuel s p
          pure (some s)
        | none =>
          let w ← C.pending.workspace
          let s ← s.modWs w (fun W => { W with layout := layout })
          pure (some (workspace_update_representation s w))
      else pure none
    else pure none
  else pure none

/-- The new state and the returned container. -/
def container_split (fuel : Nat) (seat : sway_seat) (s : State) (child : Nat)
    (layout : sway_container_layout) : Option (State × Nat) := do
  match ← container_split_relabel fuel s child layout with
  | some s => pure (s, child)
  | none =>
    let C ← s.con child
    let set_focus : Bool := decide (seat.focus = some (.container child))
    let s ←
      (if (← container_is_floating s child) then
        match C.view with
        | some v => do
          let V ← s.vw v
          let s := view_set_tiled s v true
          if V.using_csd then
            s.modCon child (fun C => { C with pending := { C.pending with
              border := C.saved_border } })
          else pure s
        | none => pure s
      else pure s)
    let (s, cont) := container_create s none
    let C ← s.con child
    let s ← s.modCon cont (fun D => { D with
      pending := { D.pending with
        width := C.pending.width, height := C.pending.height
        x := C.pending.x, y := C.pending.y, layout := layout }
      width_fraction := C.width_fraction, height_fraction := C.height_fraction })
    let s ← container_replace fuel seat s child cont
    let s ← container_add_child fuel s cont child
    let s ←
      (if set_focus then do
        let s := s.emit (.seat_set_raw_focus cont)
        let D ← s.con cont
        if D.pending.fullscreen_mode = FULLSCREEN_GLOBAL then
          pure (s.emit (.seat_set_focus child))
        else pure (s.emit (.seat_set_raw_focus child))
      else pure s)
    pure (s, cont)

/-- The loop of `container_flatten`: the new state and the returned
container. -/
def container_flatten_loop : Nat → sway_seat → State → Option Nat →
    Option (State × Option Nat)
  | _, _, s, none => some (s, none)
  | 0, _, _, some _ => none
  | fuel + 1, seat, s, some container => do
    let C ← s.con container
    let children ← C.pending.children
    if children.length = 1 then
      let child ← children.head?
      let parent := C.pending.parent
      let s ← container_replace fuel seat s container child
      let s ← container_begin_destroy fuel s container
      container_flatten_loop fuel seat s parent
    else pure (s, some container)

def container_flatten (fuel : Nat) (seat : sway_seat) (s : State) (container : Nat) :
    Option (State × Option Nat) := do
  let C ← s.con container
  if C.view.isSome then pure (s, none)
  else container_flatten_loop fuel seat s (some container)

/-- Modelled from the spec: `workspace_detect_urgent` (`workspace.c`), a
request to recompute the urgency of a workspace. -/
def workspace_detect_urgent (s : State) (w : Nat) : State :=
  s.emit (.workspace_detect_urgent w)

/-- Modelled from the spec: `output_get_active_workspace` (`output.c`), the
workspace shown on an output. -/
def output_get_active_workspace (s : State) (output : Nat) : Option (Option Nat) := do
  let O ← s.out output
  pure O.active_workspace

def container_floating_move_to (fuel : Nat) (s : State) (con : Nat) (lx ly : ℚ) :
    Option State := do
  let (s, ok) := sway_assert s (← container_is_floating s con) "Expected a floating container"
  if !ok then pure s
  else
    let C ← s.con con
    let s ← container_floating_translate fuel s con (lx - C.pending.x) (ly - C.pending.y)
    if (← container_is_scratchpad_hidden s con) then pure s
    else
      let C ← s.con con
      let old_workspace := C.pending.workspace
      let new_output ← container_floating_find_output s con
      let (s, ok) := sway_assert s new_output.isSome "Unable to find any output"
      if !ok then pure s
      else
        let o ← new_output
        let new_workspace ← output_get_active_workspace s o
        match new_workspace with
        | some nw =>
          if old_workspace ≠ some nw then
            let s ← container_detach fuel s con
            let s ← workspace_add_floating fuel s nw con
            let ow ← old_workspace
            let s := arrange_workspace s ow
            let s := arrange_workspace s nw
            let s := workspace_detect_urgent s ow
            pure (workspace_detect_urgent s nw)
          else pure s
        | none => pure s

/-- One workspace whose floating list holds `floating_split`, while the root has
no output in its list (all outputs are disabled). -/
def no_output_state : State where
  containers := [some floating_split]
  workspaces := [{ floating := [0], output := some 0 }]
  outputs := [{}]
  root_outputs := []

/-- What no tree operation writes in a container: its view, whether it has a
children list, and its `current` snapshot. -/
def sway_container.fixed (C : sway_container) : Option Nat × Bool × sway_container_state :=
  (C.view, C.pending.children.isSome, C.current)

/-- Every container of `s` is still a container of `t`, with the same view, the
same nullness of its children list and the same `current` snapshot; and every
container of `t` is a container of `s` or a split container (no view, a
children list). -/
def Fixed (s t : State) : Prop :=
  (∀ x C, s.con x = some C → ∃ D, t.con x = some D ∧ D.fixed = C.fixed) ∧
  (∀ x D, t.con x = some D →
    (s.con x).isSome ∨ (D.view = none ∧ D.pending.children.isSome = true))

/-- The `current` snapshot of every container of `s` is the same in `t`. -/
def CurrentKept (s t : State) : Prop :=
  ∀ x C, s.con x = some C → ∃ D, t.con x = some D ∧ D.current = C.current

/-- For every container exactly one of its view and its children list is
non-null. -/
def ViewXorChildren (s : State) : Prop :=
  ∀ x C, s.con x = some C → C.view.isSome = !C.pending.children.isSome

/-- Every container of `s` has in `t` the same view and the same nullness of
its children list, and `t` keeps the invariant `ViewXorChildren` of `s`. -/
def ShapeKept (s t : State) : Prop :=
  (∀ x C, s.con x = some C → ∃ D, t.con x = some D ∧ D.view = C.view ∧
    D.pending.children.isSome = C.pending.children.isSome) ∧
  (ViewXorChildren s → ViewXorChildren t)

/-- The container `a` is `c` or is reached from `c` through parent pointers. -/
def Up (s : State) (c a : Nat) : Prop :=
  Relation.ReflTransGen (fun x q => s.parentOf x = some q) c a

/-- The formatted title of the split container `a` is the string that
`container_build_representation` produces for its layout and children. -/
def Titled (t : State) (a : Nat) : Prop :=
  ∃ A l r, t.con a = some A ∧ A.pending.children = some l ∧
    container_build_representation t A.pending.layout l = some r ∧
    A.formatted_title = some r.2

/-- The fullscreen back-references of the workspaces and of the root are the
same in `s` and `t`. -/
def BackRefs (s t : State) : Prop :=
  (∀ w, t.fsOf w = s.fsOf w) ∧ t.fullscreen_global = s.fullscreen_global

/-- The link part of a container record: its view, its parent, its workspace
and its children list. -/
def sway_container.links (C : sway_container) :
    Option Nat × Option Nat × Option Nat × Option (List Nat) :=
  (C.view, C.pending.parent, C.pending.workspace, C.pending.children)

/-- The link part of a workspace record: its two lists and its output. -/
def sway_workspace.links (W : sway_workspace) : List Nat × List Nat × Option Nat :=
  (W.tiling, W.floating, W.output)

/-- The states `s` and `t` have the same tree: the same containers and
workspaces with the same links and lists, the same views and outputs. -/
structure SameTree (s t : State) : Prop where
  con_links : ∀ x, (t.con x).map (·.links) = (s.con x).map (·.links)
  ws_links : ∀ w, (t.ws w).map (·.links) = (s.ws w).map (·.links)
  views : t.views = s.views
  outputs : t.outputs = s.outputs
  root_outputs : t.root_outputs = s.root_outputs

/-- Every container of `s` is still a container of `t`, and its record in `t`
is related by `R` to its record in `s`. -/
def Each (R : sway_container → sway_container → Prop) (s t : State) : Prop :=
  ∀ x C, s.con x = some C → ∃ D, t.con x = some D ∧ R C D

/-- The relation `R` is reflexive and transitive. -/
structure Preorder2 (R : sway_container → sway_container → Prop) : Prop where
  refl : ∀ C, R C C
  trans : ∀ A B C, R A B → R B C → R A C

/-- The flags of `D` continue those of `C`: the same `destroying` flag, and the
dirty flag still set if it was. -/
def Flagged (C D : sway_container) : Prop :=
  D.node.destroying = C.node.destroying ∧ (C.node.dirty = true → D.node.dirty = true)

/-- The record of a container with its links (parent, workspace, children
list), its dirty flag and its title reset: what `container_detach` leaves
alone. -/
def sway_container.unlinked (C : sway_container) : sway_container :=
  { C with
    node := { C.node with dirty := false }
    pending := { C.pending with parent := none, workspace := none, children := none }
    formatted_title := none, title_height := 0 }

/-- The record `D` comes from `C` by writes to links, title and dirty flag
only, and the dirty flag is still set if it was. -/
def Relinked (C D : sway_container) : Prop :=
  D.unlinked = C.unlinked ∧ (C.node.dirty = true → D.node.dirty = true)

/-- The state before the final detach of `container_begin_destroy`: the tree
of `s`, every other container untouched, and `con` flagged, out of the
scratchpad and out of global fullscreen. -/
structure PreDestroy (s : State) (con : Nat) (C : sway_container) (u : State) : Prop where
  tree : SameTree s u
  rest : ∀ x, x ≠ con → u.con x = s.con x
  self : ∃ D, u.con con = some D ∧ D.links = C.links ∧ D.node.destroying = true ∧
    D.node.dirty = true ∧ D.scratchpad = false ∧
    D.pending.fullscreen_mode ≠ FULLSCREEN_GLOBAL ∧
    (D.pending.fullscreen_mode = FULLSCREEN_WORKSPACE →
      C.pending.fullscreen_mode = FULLSCREEN_WORKSPACE)

/-- What `container_begin_destroy` does to the tree. -/
structure BeginDestroyPost (s : State) (con : Nat) (t : State) : Prop where
  valid : Valid t
  linked : Linked t
  live : ∀ x, (t.con x).isSome = (s.con x).isSome
  wlive : ∀ w, (t.ws w).isSome = (s.ws w).isSome
  parentOf : ∀ x, t.parentOf x = if x = con then none else s.parentOf x
  childrenOf : ∀ x, t.childrenOf x =
    (s.childrenOf x).map (fun l => if s.parentOf con = some x then l.erase con else l)
  tiling : ∀ w, (t.ws w).map (·.tiling) = (s.ws w).map (fun W =>
    if s.parentOf con = none ∧ s.wsOf con = some w then W.tiling.erase con else W.tiling)
  floating : ∀ w, (t.ws w).map (·.floating) = (s.ws w).map (fun W =>
    if s.parentOf con = none ∧ s.wsOf con = some w ∧ con ∉ W.tiling
    then W.floating.erase con else W.floating)
  ws_self : t.wsOf con = none
  ws_out : ∀ x, ¬ Reach s con x → t.wsOf x = s.wsOf x
  self : ∃ D, t.con con = some D ∧ D.node.destroying = true ∧ D.node.dirty = true ∧
    D.scratchpad = false ∧ D.pending.fullscreen_mode ≠ FULLSCREEN_GLOBAL
  others : ∀ x X, x ≠ con → s.con x = some X → ∃ D, t.con x = some D ∧ Relinked X D

/-- A container in workspace fullscreen that has a parent has a workspace
(`container_detach` dereferences it). -/
def FullscreenOnWorkspace (s : State) : Prop :=
  ∀ x X, s.con x = some X → X.pending.fullscreen_mode = FULLSCREEN_WORKSPACE →
    X.pending.parent.isSome → X.pending.workspace.isSome

/-- The result of the walk of `container_reap_empty` from the childless split
container `con`: `ds` lists the destroyed containers from `con` upward, each
the only child of the next, and `z` is the last of them; the parent of `z`, if
any, has another child.  The destroyed containers are marked and unlinked; of
the others only the parent of `z` changes its children list, which loses `z`. -/
structure ReapPost (s : State) (con : Nat) (ds : List Nat) (z : Nat) (t : State) : Prop where
  valid : Valid t
  linked : Linked t
  head : ds.head? = some con
  last : ds.getLast? = some z
  chain : List.Chain' (fun d e => s.parentOf d = some e ∧ s.kids e = [d]) ds
  inner : ∀ d ∈ ds, d ≠ con → s.kids d ≠ []
  stop : ∀ p, s.parentOf z = some p → s.kids p ≠ [z]
  gone : ∀ d ∈ ds, ∃ D, t.con d = some D ∧ D.node.destroying = true ∧
    D.pending.parent = none ∧ D.pending.workspace = none
  kept : ∀ x X, x ∉ ds → s.con x = some X → ∃ X', t.con x = some X' ∧ Relinked X X' ∧
    X'.pending.parent = X.pending.parent ∧ X'.pending.workspace = X.pending.workspace ∧
    X'.pending.children =
      if s.parentOf z = some x then X.pending.children.map (fun l => l.erase z)
      else X.pending.children
  lists : ∀ w, (t.ws w).map (fun W => (W.tiling, W.floating)) = (s.ws w).map (fun W =>
    if s.parentOf z = none ∧ s.wsOf z = some w then
      (W.tiling.erase z, if z ∈ W.tiling then W.floating else W.floating.erase z)
    else (W.tiling, W.floating))

/-- The container `c` is a top-level floating container of workspace `w`. -/
def Floats (t : State) (c w : Nat) : Prop :=
  t.parentOf c = none ∧ t.wsOf c = some w ∧ ∃ W, t.ws w = some W ∧ c ∈ W.floating

/-- The list with every occurrence of `c` replaced by `r`. -/
def list_swap (c r : Nat) (l : List Nat) : List Nat :=
  l.map (fun x => if x = c then r else x)

/-- A container that was not fullscreen is still not fullscreen. -/
def Calm (C D : sway_container) : Prop :=
  C.pending.fullscreen_mode = FULLSCREEN_NONE → D.pending.fullscreen_mode = FULLSCREEN_NONE

/-- What the swap inside `container_replace` does to the tree: `r` has left its
former list and stands where `c` stood, with the links and the fractions of
`c`, and `c` is free. -/
structure SwapPost (s : State) (c r : Nat) (C : sway_container) (t : State) : Prop where
  valid : Valid t
  linked : Linked t
  acyclic : Acyclic t
  live : ∀ x, (t.con x).isSome = (s.con x).isSome
  wlive : ∀ w, (t.ws w).isSome = (s.ws w).isSome
  childrenOf : ∀ p, t.childrenOf p = (s.childrenOf p).map (fun l => list_swap c r (l.erase r))
  tiling : ∀ w, (t.ws w).map (·.tiling) =
    (s.ws w).map (fun W => list_swap c r (W.tiling.erase r))
  floating : ∀ w, (t.ws w).map (·.floating) =
    (s.ws w).map (fun W => list_swap c r (W.floating.erase r))
  parent_new : t.parentOf r = C.pending.parent
  ws_new : t.wsOf r = C.pending.workspace
  parent_old : t.parentOf c = none
  ws_old : t.wsOf c = none
  parent_rest : ∀ x, x ≠ c → x ≠ r → t.parentOf x = s.parentOf x
  fractions : ∃ R, t.con r = some R ∧ R.width_fraction = double_to_float C.width_fraction ∧
    R.height_fraction = double_to_float C.height_fraction
  calm : Each Calm s t
  skel : Skel s t
  pwc : (∀ x p, s.parentOf x = some p → s.wsOf x = s.wsOf p) →
    ∀ x p, t.parentOf x = some p → t.wsOf x = t.wsOf p

/-- The containers of `t` are those of `s`, and every fullscreen
back-reference of a workspace of `t` is one of `s` or points to a container. -/
def FsKept (s t : State) : Prop :=
  (∀ x, (t.con x).isSome = (s.con x).isSome) ∧
  ∀ w f, t.fsOf w = some f → s.fsOf w = some f ∨ (s.con f).isSome

/-- The geometry and layout part of a container record. -/
def sway_container.shape (C : sway_container) : ℚ × ℚ × ℚ × ℚ × sway_container_layout :=
  (C.pending.x, C.pending.y, C.pending.width, C.pending.height, C.pending.layout)

/-- What `container_replace` does to the tree when `c` is attached and not a
scratchpad member: `r` has left its former list and stands where `c` stood,
with the links and the fractions of `c`, and `c` is free and not fullscreen;
a replacement that was not fullscreen and not below `c` keeps its geometry and
layout and takes the fullscreen mode of `c`. -/
structure ReplacePost (s : State) (c r : Nat) (C : sway_container) (t : State) : Prop where
  valid : Valid t
  linked : Linked t
  acyclic : Acyclic t
  fsLive : FsLive t
  skel : Skel s t
  childrenOf : ∀ p, t.childrenOf p = (s.childrenOf p).map (fun l => list_swap c r (l.erase r))
  tiling : ∀ w, (t.ws w).map (·.tiling) =
    (s.ws w).map (fun W => list_swap c r (W.tiling.erase r))
  floating : ∀ w, (t.ws w).map (·.floating) =
    (s.ws w).map (fun W => list_swap c r (W.floating.erase r))
  parent_new : t.parentOf r = C.pending.parent
  ws_new : t.wsOf r = C.pending.workspace
  parent_old : t.parentOf c = none
  ws_old : t.wsOf c = none
  parent_rest : ∀ x, x ≠ c → x ≠ r → t.parentOf x = s.parentOf x
  fractions : ∃ R, t.con r = some R ∧ R.width_fraction = double_to_float C.width_fraction ∧
    R.height_fraction = double_to_float C.height_fraction
  mode_old : t.modeOf c = some FULLSCREEN_NONE
  self : ∀ X, s.con r = some X → X.pending.fullscreen_mode = FULLSCREEN_NONE →
    ¬ Reach s c r → ∃ Y, t.con r = some Y ∧ Y.shape = X.shape ∧
      Y.pending.fullscreen_mode = C.pending.fullscreen_mode
  pwc : (∀ x p, s.parentOf x = some p → s.wsOf x = s.wsOf p) →
    ∀ x p, t.parentOf x = some p → t.wsOf x = t.wsOf p

/-- The state `t` is `s` with the new container `w`, free, childless, without
view, not fullscreen and not a scratchpad member. -/
structure Fresh (s : State) (w : Nat) (t : State) : Prop where
  before : s.con w = none
  old : ∀ x, x ≠ w → t.con x = s.con x
  new : ∃ D, t.con w = some D ∧ D.view = none ∧ D.pending.parent = none ∧
    D.pending.workspace = none ∧ D.pending.children = some [] ∧
    D.pending.fullscreen_mode = FULLSCREEN_NONE ∧ D.scratchpad = false
  workspaces : t.workspaces = s.workspaces
  views : t.views = s.views
  outputs : t.outputs = s.outputs
  root_outputs : t.root_outputs = s.root_outputs

/-- One workspace whose floating list holds the view container 0, which is a
scratchpad member shown on the workspace, and the view container 1. -/
def scratchpad_pair_state : State where
  containers := [some { view := some 0, scratchpad := true, pending := { workspace := some 0 } },
                 leaf none (some 0) 1]
  views := [some { container := some 0 }, some { container := some 1 }]
  workspaces := [{ floating := [0, 1], output := some 0 }]
  outputs := [{}]
  root_outputs := [0]
  scratchpad := [0]

/-- One workspace whose tiling list holds the views 0 and 1; container 0 has the
width fraction 1/3, which is not a `float` value, container 1 the width
fraction 1/2, which is one; the view container 2 is attached nowhere. -/
def fraction_state : State where
  containers := [some { view := some 0, pending := { workspace := some 0 },
                        width_fraction := 1 / 3, height_fraction := 1 },
                 some { view := some 1, pending := { workspace := some 0 },
                        width_fraction := 1 / 2, height_fraction := 1 },
                 some { view := some 2 }]
  views := [some { container := some 0 }, some { container := some 1 },
            some { container := some 2 }]
  workspaces := [{ tiling := [0, 1], output := some 0 }]
  outputs := [{}]
  root_outputs := [0]

/-- A view container hidden in the scratchpad (no workspace) whose outer box is
at (0, 0) while its content box is at (10, 20); the border style is `B_NONE`. -/
def hidden_view : sway_container :=
  { view := some 0, scratchpad := true,
    pending := { border := B_NONE, content_x := 10, content_y := 20 } }

/-- The scratchpad holds the container `hidden_view`; there is one empty
workspace. -/
def hidden_view_state : State where
  containers := [some hidden_view]
  views := [some { container := some 0, natural_width := 100, natural_height := 80 }]
  workspaces := [{ output := some 0 }]
  outputs := [{}]
  root_outputs := [0]
  scratchpad := [0]

/-- One workspace with the `L_TABBED` container 0 whose children are the view 1
of class `Terminal`, the view 2 without class and with the app id `foot`, the
split container 3 with the formatted title `H[a b]` and the view 4 without
class and app id. -/
def mixed_children_state : State where
  containers := [split none (some 0) L_TABBED [1, 2, 3, 4],
                 leaf (some 0) (some 0) 0, leaf (some 0) (some 0) 1,
                 some { formatted_title := some "H[a b]",
                        pending := { layout := L_HORIZ, parent := some 0, workspace := some 0,
                                     children := some [] } },
                 leaf (some 0) (some 0) 2]
  views := [some { container := some 1, view_class := some "Terminal", app_id := some "term" },
            some { container := some 2, app_id := some "foot" },
            some { container := some 4 }]
  workspaces := [{ tiling := [0], output := some 0 }]
  outputs := [{}]
  root_outputs := [0]

/-- The container `c` has exactly `n` ancestors: `n` parent pointers lead from
`c` to a container without parent. -/
def Depth (s : State) : Nat → Nat → Prop
  | c, 0 => s.parentOf c = none
  | c, n + 1 => ∃ p, s.parentOf c = some p ∧ Depth s p n

instance Depth.instDecidable (s : State) : ∀ (n c : Nat), Decidable (Depth s c n)
  | 0, c => (inferInstance : Decidable (s.parentOf c = none))
  | n + 1, c =>
    match h : s.parentOf c with
    | none => isFalse (by
        rintro ⟨p, hp, -⟩
        rw [h] at hp
        cases hp)
    | some p =>
      match Depth.instDecidable s n p with
      | isTrue hd => isTrue ⟨p, h, hd⟩
      | isFalse hd => isFalse (by
          rintro ⟨q, hq, hd2⟩
          rw [h] at hq
          cases hq
          exact hd hd2)

/-- The state `s0` in which `container_squash` finds a redundant pair: `child`
is the only child of `con`, both are on workspace `w`, `P0` is the parent of
`con`, and the rank `r`, bounded by `K`, decreases along the children lists. -/
structure SquashPre (s0 : State) (con child : Nat) (P0 : Option Nat) (w : Nat)
    (r : Nat → Nat) (K : Nat) : Prop where
  bound : ∀ x, r x ≤ K
  rank : ∀ p c, c ∈ s0.kids p → r c < r p
  linked : Linked s0
  pwc : ∀ x p, s0.parentOf x = some p → s0.wsOf x = s0.wsOf p
  parent : s0.parentOf con = P0
  ws : s0.wsOf con = some w
  ws_child : s0.wsOf child = some w
  only : s0.childrenOf con = some [child]

/-- The state `t` inside the loop of `container_squash` started in `s0`: the
grandchildren `moved` have gone from `child` up to the parent `P0` of `con`
(to the tiling list of workspace `w` when `con` has no parent), the
grandchildren `rem` are still the children of `child`, and nothing else has
changed in the tree. -/
structure SquashInv (s0 : State) (con child : Nat) (P0 : Option Nat) (w : Nat)
    (r : Nat → Nat) (moved rem : List Nat) (t : State) : Prop where
  valid : Valid t
  linked : Linked t
  rank : ∀ p c, c ∈ t.kids p → r c < r p
  fsLive : FsLive t
  pwc : ∀ x p, t.parentOf x = some p → t.wsOf x = t.wsOf p
  live : ∀ x, (t.con x).isSome = (s0.con x).isSome
  parentOf : ∀ x, t.parentOf x = if x ∈ moved then P0 else s0.parentOf x
  wsOf : ∀ x, t.wsOf x = s0.wsOf x
  rest : t.childrenOf child = some rem
  source : ∀ y, y ∈ s0.kids child ↔ y ∈ moved ∨ y ∈ rem
  count : moved.length + rem.length = (s0.kids child).length
  children : ∀ x, x ≠ child → P0 ≠ some x → t.childrenOf x = s0.childrenOf x
  target : ∀ p, P0 = some p → ∃ l0 l, s0.childrenOf p = some l0 ∧ t.childrenOf p = some l ∧
    (∀ y, y ∈ l ↔ y ∈ l0 ∨ y ∈ moved) ∧ l0.length ≤ l.length
  floating : ∀ v, (t.ws v).map (·.floating) = (s0.ws v).map (·.floating)
  tiling : ∀ v, ¬ (P0 = none ∧ v = w) → (t.ws v).map (·.tiling) = (s0.ws v).map (·.tiling)
  top : P0 = none → ∃ W0 W, s0.ws w = some W0 ∧ t.ws w = some W ∧
    (∀ y, y ∈ W.tiling ↔ y ∈ W0.tiling ∨ y ∈ moved) ∧ W0.tiling.length ≤ W.tiling.length
  flagged : Each Flagged s0 t

/-- The state `s1` inside a round of the loop of `container_squash`, after the
grandchild `current` has been detached from `child` in the state `t`. -/
structure SquashMid (t : State) (child current w : Nat) (r : Nat → Nat) (rem : List Nat)
    (s1 : State) : Prop where
  valid : Valid s1
  linked : Linked s1
  rank : ∀ p c, c ∈ s1.kids p → r c < r p
  fsLive : FsLive s1
  pwc : ∀ x p, s1.parentOf x = some p → s1.wsOf x = s1.wsOf p
  free : ∃ C1, s1.con current = some C1 ∧ C1.pending.parent = none ∧
    C1.pending.workspace = none
  live : ∀ x, (s1.con x).isSome = (t.con x).isSome
  parentOf : ∀ x, s1.parentOf x = if x = current then none else t.parentOf x
  ws_in : ∀ x, Reach s1 current x → t.wsOf x = some w
  ws_out : ∀ x, ¬ Reach s1 current x → s1.wsOf x = t.wsOf x
  rest : s1.childrenOf child = some rem
  children : ∀ x, x ≠ child → s1.childrenOf x = t.childrenOf x
  tiling : ∀ v, (s1.ws v).map (·.tiling) = (t.ws v).map (·.tiling)
  floating : ∀ v, (s1.ws v).map (·.floating) = (t.ws v).map (·.floating)

/-- One round of the loop of `container_flatten`: the wrapper `c` has been
replaced by its only child `child` and marked for destruction. -/
structure FlattenStep (s : State) (c child : Nat) (t : State) : Prop where
  valid : Valid t
  linked : Linked t
  acyclic : Acyclic t
  fsLive : FsLive t
  pwc : ∀ x p, t.parentOf x = some p → t.wsOf x = t.wsOf p
  live : ∀ x, (t.con x).isSome = (s.con x).isSome
  childrenOf : ∀ p, t.childrenOf p =
    (s.childrenOf p).map (fun l => list_swap c child (l.erase child))
  tiling : ∀ w, (t.ws w).map (·.tiling) =
    (s.ws w).map (fun W => list_swap c child (W.tiling.erase child))
  floating : ∀ w, (t.ws w).map (·.floating) =
    (s.ws w).map (fun W => list_swap c child (W.floating.erase child))
  parent_new : t.parentOf child = s.parentOf c
  ws_new : t.wsOf child = s.wsOf c
  gone : ∃ D, t.con c = some D ∧ D.node.destroying = true ∧ D.pending.parent = none ∧
    D.pending.workspace = none
  parent_rest : ∀ x, x ≠ c → x ≠ child → t.parentOf x = s.parentOf x
  flags : ∀ x X, x ≠ c → s.con x = some X → ∃ X', t.con x = some X' ∧
    X'.node.destroying = X.node.destroying ∧ X'.scratchpad = X.scratchpad

theorem con_freeCon (s : State) (c x : Nat) :
    (s.freeCon c).con x = if x = c then none else s.con x := by
  unfold State.freeCon State.con
  simp only [List.getD_eq_getElem?_getD, List.getElem?_set]
  by_cases h : c = x
  · subst h
    by_cases hl : c < s.containers.length
    · simp [hl]
    · simp [hl, List.getElem?_eq_none (Nat.le_of_not_lt hl)]
  · simp [h, Ne.symm h, eq_comm]

/-! ## Heap access lemmas -/

theorem con_lt {s : State} {c : Nat} {C : sway_container} (h : s.con c = some C) :
    c < s.containers.length := by
  by_contra hl
  simp [State.con, List.getD_eq_getElem?_getD, List.getElem?_eq_none (Nat.le_of_not_lt hl)] at h

@[simp] theorem con_updCon (s : State) (c : Nat) (f : sway_container → sway_container)
    (x : Nat) : (s.updCon c f).con x = if x = c then (s.con c).map f else s.con x := by
  unfold State.updCon
  cases h : s.con c with
  | none =>
    by_cases hx : x = c
    · subst hx; simp [h]
    · simp [hx]
  | some C =>
    have hl := con_lt h
    by_cases hx : x = c
    · subst hx
      simp [State.con, List.getD_eq_getElem?_getD, List.getElem?_set, hl]
    · simp [State.con, List.getD_eq_getElem?_getD, List.getElem?_set, hx, Ne.symm hx]

@[simp] theorem ws_updCon (s : State) (c : Nat) (f : sway_container → sway_container) :
    (s.updCon c f).workspaces = s.workspaces := by
  unfold State.updCon; split <;> rfl

@[simp] theorem views_updCon (s : State) (c : Nat) (f : sway_container → sway_container) :
    (s.updCon c f).views = s.views := by
  unfold State.updCon; split <;> rfl

@[simp] theorem outputs_updCon (s : State) (c : Nat) (f : sway_container → sway_container) :
    (s.updCon c f).outputs = s.outputs := by
  unfold State.updCon; split <;> rfl

@[simp] theorem root_outputs_updCon (s : State) (c : Nat) (f : sway_container → sway_container) :
    (s.updCon c f).root_outputs = s.root_outputs := by
  unfold State.updCon; split <;> rfl

@[simp] theorem fullscreen_global_updCon (s : State) (c : Nat)
    (f : sway_container → sway_container) :
    (s.updCon c f).fullscreen_global = s.fullscreen_global := by
  unfold State.updCon; split <;> rfl

@[simp] theorem scratchpad_updCon (s : State) (c : Nat) (f : sway_container → sway_container) :
    (s.updCon c f).scratchpad = s.scratchpad := by
  unfold State.updCon; split <;> rfl

@[simp] theorem output_layout_box_updCon (s : State) (c : Nat)
    (f : sway_container → sway_container) :
    (s.updCon c f).output_layout_box = s.output_layout_box := by
  unfold State.updCon; split <;> rfl

@[simp] theorem config_updCon (s : State) (c : Nat) (f : sway_container → sway_container) :
    (s.updCon c f).config = s.config := by
  unfold State.updCon; split <;> rfl

@[simp] theorem events_updCon (s : State) (c : Nat) (f : sway_container → sway_container) :
    (s.updCon c f).events = s.events := by
  unfold State.updCon; split <;> rfl

@[simp] theorem wsget_updCon (s : State) (c : Nat) (f : sway_container → sway_container)
    (w : Nat) : (s.updCon c f).ws w = s.ws w := by
  simp [State.ws]

@[simp] theorem vw_updCon (s : State) (c : Nat) (f : sway_container → sway_container)
    (v : Nat) : (s.updCon c f).vw v = s.vw v := by
  simp [State.vw]

@[simp] theorem out_updCon (s : State) (c : Nat) (f : sway_container → sway_container)
    (o : Nat) : (s.updCon c f).out o = s.out o := by
  simp [State.out]

theorem modCon_some {s : State} {c : Nat} {C : sway_container}
    (f : sway_container → sway_container) (h : s.con c = some C) :
    s.modCon c f = some (s.updCon c f) := by
  simp [State.modCon, h]

theorem modCon_eq_some {s t : State} {c : Nat} {f : sway_container → sway_container}
    (h : s.modCon c f = some t) : (s.con c).isSome ∧ t = s.updCon c f := by
  unfold State.modCon at h
  cases hc : s.con c with
  | none => simp [hc] at h
  | some C => simp [hc] at h; exact ⟨rfl, h.symm⟩

@[simp] theorem ws_updWs (s : State) (w : Nat) (f : sway_workspace → sway_workspace)
    (x : Nat) : (s.updWs w f).ws x = if x = w then (s.ws w).map f else s.ws x := by
  unfold State.updWs
  cases h : s.ws w with
  | none =>
    by_cases hx : x = w
    · subst hx; simp [h]
    · simp [hx]
  | some W =>
    have hl : w < s.workspaces.length := by
      by_contra hl
      simp [State.ws, List.getElem?_eq_none (Nat.le_of_not_lt hl)] at h
    by_cases hx : x = w
    · subst hx
      simp [State.ws, List.getElem?_set, hl] at h ⊢
    · simp [State.ws, List.getElem?_set, hx, Ne.symm hx]

@[simp] theorem containers_updWs (s : State) (w : Nat) (f : sway_workspace → sway_workspace) :
    (s.updWs w f).containers = s.containers := by
  unfold State.updWs; split <;> rfl

@[simp] theorem views_updWs (s : State) (w : Nat) (f : sway_workspace → sway_workspace) :
    (s.updWs w f).views = s.views := by
  unfold State.updWs; split <;> rfl

@[simp] theorem outputs_updWs (s : State) (w : Nat) (f : sway_workspace → sway_workspace) :
    (s.updWs w f).outputs = s.outputs := by
  unfold State.updWs; split <;> rfl

@[simp] theorem root_outputs_updWs (s : State) (w : Nat) (f : sway_workspace → sway_workspace) :
    (s.updWs w f).root_outputs = s.root_outputs := by
  unfold State.updWs; split <;> rfl

@[simp] theorem fullscreen_global_updWs (s : State) (w : Nat)
    (f : sway_workspace → sway_workspace) :
    (s.updWs w f).fullscreen_global = s.fullscreen_global := by
  unfold State.updWs; split <;> rfl

@[simp] theorem scratchpad_updWs (s : State) (w : Nat) (f : sway_workspace → sway_workspace) :
    (s.updWs w f).scratchpad = s.scratchpad := by
  unfold State.updWs; split <;> rfl

@[simp] theorem output_layout_box_updWs (s : State) (w : Nat)
    (f : sway_workspace → sway_workspace) :
    (s.updWs w f).output_layout_box = s.output_layout_box := by
  unfold State.updWs; split <;> rfl

@[simp] theorem config_updWs (s : State) (w : Nat) (f : sway_workspace → sway_workspace) :
    (s.updWs w f).config = s.config := by
  unfold State.updWs; split <;> rfl

@[simp] theorem con_updWs (s : State) (w : Nat) (f : sway_workspace → sway_workspace)
    (c : Nat) : (s.updWs w f).con c = s.con c := by
  simp [State.con]

@[simp] theorem vw_updWs (s : State) (w : Nat) (f : sway_workspace → sway_workspace)
    (v : Nat) : (s.updWs w f).vw v = s.vw v := by
  simp [State.vw]

@[simp] theorem out_updWs (s : State) (w : Nat) (f : sway_workspace → sway_workspace)
    (o : Nat) : (s.updWs w f).out o = s.out o := by
  simp [State.out]

theorem modWs_some {s : State} {w : Nat} {W : sway_workspace}
    (f : sway_workspace → sway_workspace) (h : s.ws w = some W) :
    s.modWs w f = some (s.updWs w f) := by
  simp [State.modWs, h]

@[simp] theorem con_emit (s : State) (e : Event) (c : Nat) : (s.emit e).con c = s.con c := rfl
@[simp] theorem ws_emit (s : State) (e : Event) (w : Nat) : (s.emit e).ws w = s.ws w := rfl
@[simp] theorem vw_emit (s : State) (e : Event) (v : Nat) : (s.emit e).vw v = s.vw v := rfl
@[simp] theorem out_emit (s : State) (e : Event) (o : Nat) : (s.emit e).out o = s.out o := rfl
@[simp] theorem containers_emit (s : State) (e : Event) :
    (s.emit e).containers = s.containers := rfl
@[simp] theorem workspaces_emit (s : State) (e : Event) :
    (s.emit e).workspaces = s.workspaces := rfl
@[simp] theorem views_emit (s : State) (e : Event) : (s.emit e).views = s.views := rfl
@[simp] theorem outputs_emit (s : State) (e : Event) : (s.emit e).outputs = s.outputs := rfl
@[simp] theorem root_outputs_emit (s : State) (e : Event) :
    (s.emit e).root_outputs = s.root_outputs := rfl
@[simp] theorem fullscreen_global_emit (s : State) (e : Event) :
    (s.emit e).fullscreen_global = s.fullscreen_global := rfl
@[simp] theorem scratchpad_emit (s : State) (e : Event) :
    (s.emit e).scratchpad = s.scratchpad := rfl
@[simp] theorem output_layout_box_emit (s : State) (e : Event) :
    (s.emit e).output_layout_box = s.output_layout_box := rfl
@[simp] theorem config_emit (s : State) (e : Event) : (s.emit e).config = s.config := rfl

/-! ## States with the same tree -/

theorem Soft.soft_refl (s : State) : Soft s s :=
  ⟨fun _ => rfl, fun _ => rfl, rfl, rfl, rfl, rfl, rfl, rfl⟩

theorem Soft.soft_trans {s t u : State} (h1 : Soft s t) (h2 : Soft t u) : Soft s u :=
  ⟨fun x => (h2.con_core x).trans (h1.con_core x),
   fun w => (h2.ws_core w).trans (h1.ws_core w),
   h2.views.trans h1.views, h2.outputs.trans h1.outputs,
   h2.root_outputs.trans h1.root_outputs, h2.scratchpad.trans h1.scratchpad,
   h2.output_layout_box.trans h1.output_layout_box, h2.config.trans h1.config⟩

theorem Soft.soft_emit (s : State) (e : Event) : Soft s (s.emit e) :=
  ⟨fun _ => rfl, fun _ => rfl, rfl, rfl, rfl, rfl, rfl, rfl⟩

theorem Soft.soft_updCon (s : State) (c : Nat) {f : sway_container → sway_container}
    (hf : ∀ C, (f C).core = C.core) : Soft s (s.updCon c f) := by
  refine ⟨fun x => ?_, fun w => by simp, by simp, by simp, by simp, by simp, by simp, by simp⟩
  by_cases h : x = c
  · subst h
    cases hx : s.con x <;> simp [hx, hf]
  · simp [h]

theorem Soft.soft_updWs (s : State) (w : Nat) {f : sway_workspace → sway_workspace}
    (hf : ∀ W, (f W).core = W.core) : Soft s (s.updWs w f) := by
  refine ⟨fun x => by simp, fun x => ?_, by simp, by simp, by simp, by simp, by simp, by simp⟩
  by_cases h : x = w
  · subst h
    cases hx : s.ws x <;> simp [hx, hf]
  · simp [h]

theorem Soft.soft_set_fullscreen_global (s : State) (g : Option Nat) :
    Soft s { s with fullscreen_global := g } :=
  ⟨fun _ => rfl, fun _ => rfl, rfl, rfl, rfl, rfl, rfl, rfl⟩

theorem Soft.soft_proj {s t : State} (h : Soft s t) {α : Type}
    (g : sway_container → α) (hg : ∀ C, g C.core = g C) (x : Nat) :
    (t.con x).map g = (s.con x).map g := by
  have := congrArg (Option.map g) (h.con_core x)
  simpa [Option.map_map, Function.comp_def, hg] using this

theorem Soft.wproj {s t : State} (h : Soft s t) {α : Type}
    (g : sway_workspace → α) (hg : ∀ W, g W.core = g W) (w : Nat) :
    (t.ws w).map g = (s.ws w).map g := by
  have := congrArg (Option.map g) (h.ws_core w)
  simpa [Option.map_map, Function.comp_def, hg] using this

theorem Soft.soft_live {s t : State} (h : Soft s t) (x : Nat) :
    (t.con x).isSome = (s.con x).isSome := by
  have := congrArg Option.isSome (h.con_core x)
  simpa using this

theorem Soft.wlive {s t : State} (h : Soft s t) (w : Nat) :
    (t.ws w).isSome = (s.ws w).isSome := by
  have := congrArg Option.isSome (h.ws_core w)
  simpa using this

theorem Soft.soft_parentOf {s t : State} (h : Soft s t) (x : Nat) :
    t.parentOf x = s.parentOf x := by
  have := h.soft_proj (fun C => C.pending.parent) (fun _ => rfl) x
  cases h1 : t.con x <;> cases h2 : s.con x <;> simp_all [State.parentOf]

theorem Soft.soft_wsOf {s t : State} (h : Soft s t) (x : Nat) :
    t.wsOf x = s.wsOf x := by
  have := h.soft_proj (fun C => C.pending.workspace) (fun _ => rfl) x
  cases h1 : t.con x <;> cases h2 : s.con x <;> simp_all [State.wsOf]

theorem Soft.soft_childrenOf {s t : State} (h : Soft s t) (x : Nat) :
    t.childrenOf x = s.childrenOf x := by
  have := h.soft_proj (fun C => C.pending.children) (fun _ => rfl) x
  cases h1 : t.con x <;> cases h2 : s.con x <;> simp_all [State.childrenOf]

theorem Soft.soft_kids {s t : State} (h : Soft s t) (x : Nat) :
    t.kids x = s.kids x := by
  simp [State.kids, h.soft_childrenOf]

theorem Soft.viewOf {s t : State} (h : Soft s t) (x : Nat) :
    t.viewOf x = s.viewOf x := by
  have := h.soft_proj (fun C => C.view) (fun _ => rfl) x
  cases h1 : t.con x <;> cases h2 : s.con x <;> simp_all [State.viewOf]

theorem Soft.tops {s t : State} (h : Soft s t) (w : Nat) :
    t.tops w = s.tops w := by
  have := h.wproj (fun W => W.tiling ++ W.floating) (fun _ => rfl) w
  cases h1 : t.ws w <;> cases h2 : s.ws w <;> simp_all [State.tops]

theorem Soft.vw {s t : State} (h : Soft s t) (v : Nat) : t.vw v = s.vw v := by
  simp [State.vw, h.views]

theorem Soft.out {s t : State} (h : Soft s t) (o : Nat) : t.out o = s.out o := by
  simp [State.out, h.outputs]

/-- A container of `t` and the container of `s` it comes from. -/
theorem Soft.soft_con_some {s t : State} (h : Soft s t) {x : Nat}
    {C : sway_container} (hx : s.con x = some C) :
    ∃ D, t.con x = some D ∧ D.core = C.core := by
  have := h.con_core x
  rw [hx] at this
  cases ht : t.con x with
  | none => simp [ht] at this
  | some D => exact ⟨D, rfl, by simpa [ht] using this⟩

theorem Soft.con_some_rev {s t : State} (h : Soft s t) {x : Nat}
    {D : sway_container} (hx : t.con x = some D) :
    ∃ C, s.con x = some C ∧ D.core = C.core := by
  have := h.con_core x
  rw [hx] at this
  cases hs : s.con x with
  | none => simp [hs] at this
  | some C => exact ⟨C, rfl, by simpa [hs] using this⟩

theorem Soft.ws_some {s t : State} (h : Soft s t) {w : Nat}
    {W : sway_workspace} (hw : s.ws w = some W) :
    ∃ V, t.ws w = some V ∧ V.core = W.core := by
  have := h.ws_core w
  rw [hw] at this
  cases ht : t.ws w with
  | none => simp [ht] at this
  | some V => exact ⟨V, rfl, by simpa [ht] using this⟩

theorem Soft.ws_some_rev {s t : State} (h : Soft s t) {w : Nat}
    {V : sway_workspace} (hw : t.ws w = some V) :
    ∃ W, s.ws w = some W ∧ V.core = W.core := by
  have := h.ws_core w
  rw [hw] at this
  cases hs : s.ws w with
  | none => simp [hs] at this
  | some W => exact ⟨W, rfl, by simpa [hs] using this⟩

theorem core_view {C D : sway_container} (h : D.core = C.core) : D.view = C.view :=
  congrArg (fun X => X.view) h

theorem core_parent {C D : sway_container} (h : D.core = C.core) :
    D.pending.parent = C.pending.parent :=
  congrArg (fun X => X.pending.parent) h

theorem core_workspace {C D : sway_container} (h : D.core = C.core) :
    D.pending.workspace = C.pending.workspace :=
  congrArg (fun X => X.pending.workspace) h

theorem core_children {C D : sway_container} (h : D.core = C.core) :
    D.pending.children = C.pending.children :=
  congrArg (fun X => X.pending.children) h

theorem core_scratchpad {C D : sway_container} (h : D.core = C.core) :
    D.scratchpad = C.scratchpad :=
  congrArg (fun X => X.scratchpad) h

theorem core_layout {C D : sway_container} (h : D.core = C.core) :
    D.pending.layout = C.pending.layout :=
  congrArg (fun X => X.pending.layout) h

theorem wcore_floating {W V : sway_workspace} (h : V.core = W.core) :
    V.floating = W.floating :=
  congrArg (fun X => X.floating) h

theorem wcore_tiling {W V : sway_workspace} (h : V.core = W.core) :
    V.tiling = W.tiling :=
  congrArg (fun X => X.tiling) h

theorem wcore_output {W V : sway_workspace} (h : V.core = W.core) :
    V.output = W.output :=
  congrArg (fun X => X.output) h

theorem Soft.soft_valid {s t : State} (h : Soft s t) (hv : Valid s) : Valid t := by
  refine ⟨?_, ?_, ?_, ?_, ?_, ?_, ?_⟩
  · intro c D hD v hview
    obtain ⟨C, hC, hg⟩ := h.con_some_rev hD
    rw [h.vw]
    exact hv.view c C hC v (by rw [← core_view hg]; exact hview)
  · intro c w hw
    rw [h.soft_wsOf] at hw
    rw [h.wlive]
    exact hv.ws c w hw
  · intro p c hc
    rw [h.soft_kids] at hc
    rw [h.soft_live]
    exact hv.kids p c hc
  · intro c p hp
    rw [h.soft_parentOf] at hp
    rw [h.soft_live]
    exact hv.parent c p hp
  · intro c D hD hview
    obtain ⟨C, hC, hg⟩ := h.con_some_rev hD
    rw [core_children hg]
    exact hv.split c C hC (by rw [← core_view hg]; exact hview)
  · intro w V hV
    obtain ⟨W, hW, hg⟩ := h.ws_some_rev hV
    obtain ⟨o, ho, hout⟩ := hv.output w W hW
    exact ⟨o, by rw [wcore_output hg]; exact ho, by rw [h.out]; exact hout⟩
  · intro o ho
    rw [h.root_outputs] at ho
    rw [h.out]
    exact hv.root_outputs o ho

theorem Soft.soft_linked {s t : State} (h : Soft s t) (hl : Linked s) : Linked t := by
  refine ⟨?_, ?_, ?_, ?_, ?_, ?_, ?_⟩
  · intro p c hc
    rw [h.soft_kids] at hc
    rw [h.soft_parentOf]
    exact hl.kids_parent p c hc
  · intro c p hp
    rw [h.soft_parentOf] at hp
    rw [h.soft_kids]
    exact hl.parent_kids c p hp
  · intro p
    rw [h.soft_kids]
    exact hl.kids_nodup p
  · intro w
    rw [h.tops]
    exact hl.tops_nodup w
  · intro w c hc
    rw [h.tops] at hc
    rw [h.soft_parentOf, h.soft_wsOf]
    exact hl.tops_top w c hc
  · intro c w hp hw
    rw [h.soft_parentOf] at hp
    rw [h.soft_wsOf] at hw
    rw [h.tops]
    exact hl.top_tops c w hp hw
  · intro c D hD hview
    obtain ⟨C, hC, hg⟩ := h.con_some_rev hD
    rw [core_children hg]
    exact hl.view_leaf c C hC (by rw [← core_view hg]; exact hview)

theorem Soft.soft_acyclic {s t : State} (h : Soft s t) (ha : Acyclic s) : Acyclic t := by
  obtain ⟨r, K, hK, hr⟩ := ha
  exact ⟨r, K, hK, fun p c hc => hr p c (by rw [← h.soft_kids]; exact hc)⟩

theorem Soft.soft_reach {s t : State} (h : Soft s t) (c x : Nat) :
    Reach t c x ↔ Reach s c x := by
  have : (fun a b => b ∈ t.kids a) = (fun a b => b ∈ s.kids a) := by
    funext a b; rw [h.soft_kids]
  unfold Reach
  rw [this]

theorem Soft.soft_parent_workspace {s t : State} (h : Soft s t)
    (hp : ∀ c p, s.parentOf c = some p → s.wsOf c = s.wsOf p) :
    ∀ c p, t.parentOf c = some p → t.wsOf c = t.wsOf p := by
  intro c p hc
  rw [h.soft_parentOf] at hc
  rw [h.soft_wsOf, h.soft_wsOf]
  exact hp c p hc

theorem container_is_floating_eq (s : State) (c : Nat) (C : sway_container)
    (h : s.con c = some C) :
    container_is_floating s c =
      match C.pending.parent, C.pending.workspace with
      | none, some w => (s.ws w).bind (fun W =>
          if list_find W.floating c ≠ -1 then some true else some C.scratchpad)
      | _, _ => some C.scratchpad := by
  cases hp : C.pending.parent <;> cases hw : C.pending.workspace <;>
    simp [container_is_floating, h, hp, hw]

theorem Soft.is_floating {s t : State} (h : Soft s t) (c : Nat) :
    container_is_floating t c = container_is_floating s c := by
  cases hs : s.con c with
  | none =>
    have : t.con c = none := by
      have := h.soft_live c
      simpa [hs] using this
    simp [container_is_floating, hs, this]
  | some C =>
    obtain ⟨D, hD, hg⟩ := h.soft_con_some hs
    rw [container_is_floating_eq s c C hs, container_is_floating_eq t c D hD,
      core_parent hg, core_workspace hg, core_scratchpad hg]
    split
    · rename_i w _ _
      cases hW : s.ws w with
      | none =>
        have : t.ws w = none := by
          have := h.wlive w
          simpa [hW] using this
        simp [this]
      | some W =>
        obtain ⟨V, hV, hgw⟩ := h.ws_some hW
        simp [hV, wcore_floating hgw]
    · rfl

theorem container_is_floating_defined {s : State} (hv : Valid s) {c : Nat}
    {C : sway_container} (h : s.con c = some C) :
    ∃ b, container_is_floating s c = some b := by
  rw [container_is_floating_eq s c C h]
  split
  · rename_i w hp hw
    have := hv.ws c w (by simp [State.wsOf, h, hw])
    obtain ⟨W, hW⟩ := Option.isSome_iff_exists.mp this
    simp only [hW, Option.some_bind]
    split <;> exact ⟨_, rfl⟩
  · exact ⟨_, rfl⟩

/-! ## Geometry updates -/

theorem gcore_core (C : sway_container) : C.gcore.core = C.core := rfl

theorem core_of_gcore {C D : sway_container} (h : D.gcore = C.gcore) : D.core = C.core := by
  rw [← gcore_core D, ← gcore_core C, h]

theorem GeomAt.soft {S : Nat → Prop} {s t : State} (h : GeomAt S s t) : Soft s t := by
  refine ⟨fun x => ?_, fun w => by simp [State.ws, h.workspaces], h.views, h.outputs,
    h.root_outputs, h.scratchpad, h.output_layout_box, h.config⟩
  have := congrArg (Option.map sway_container.core) (h.con_gcore x)
  simpa [Option.map_map, Function.comp_def, gcore_core] using this

theorem GeomAt.geom_refl (S : Nat → Prop) (s : State) : GeomAt S s s :=
  ⟨fun _ => rfl, fun _ _ => rfl, rfl, rfl, rfl, rfl, rfl, rfl, rfl, rfl⟩

theorem GeomAt.geom_trans {S : Nat → Prop} {s t u : State} (h1 : GeomAt S s t)
    (h2 : GeomAt S t u) : GeomAt S s u :=
  ⟨fun x => (h2.con_gcore x).trans (h1.con_gcore x),
   fun x hx => (h2.con_rest x hx).trans (h1.con_rest x hx),
   h2.views.trans h1.views, h2.workspaces.trans h1.workspaces,
   h2.outputs.trans h1.outputs, h2.root_outputs.trans h1.root_outputs,
   h2.fullscreen_global.trans h1.fullscreen_global, h2.scratchpad.trans h1.scratchpad,
   h2.output_layout_box.trans h1.output_layout_box, h2.config.trans h1.config⟩

theorem GeomAt.geom_mono {S T : Nat → Prop} {s t : State} (h : GeomAt S s t)
    (hST : ∀ x, S x → T x) : GeomAt T s t :=
  { h with con_rest := fun x hx => h.con_rest x (fun hs => hx (hST x hs)) }

theorem GeomAt.geom_emit (S : Nat → Prop) (s : State) (e : Event) : GeomAt S s (s.emit e) :=
  ⟨fun _ => rfl, fun _ _ => rfl, rfl, rfl, rfl, rfl, rfl, rfl, rfl, rfl⟩

theorem GeomAt.geom_updCon {S : Nat → Prop} (s : State) {c : Nat}
    {f : sway_container → sway_container} (hc : S c)
    (hf : ∀ C, (f C).gcore = C.gcore) : GeomAt S s (s.updCon c f) := by
  refine ⟨fun x => ?_, fun x hx => ?_, by simp, by simp, by simp, by simp, by simp, by simp,
    by simp, by simp⟩
  · by_cases h : x = c
    · subst h
      cases hx : s.con x <;> simp [hx, hf]
    · simp [h]
  · have : x ≠ c := fun h => hx (h ▸ hc)
    simp [this]

theorem GeomAt.geom_modeOf {S : Nat → Prop} {s t : State} (h : GeomAt S s t) (x : Nat) :
    t.modeOf x = s.modeOf x := by
  have := congrArg (Option.map (fun C => C.pending.fullscreen_mode)) (h.con_gcore x)
  simpa [Option.map_map, Function.comp_def, sway_container.gcore] using this

theorem GeomAt.geom_ws {S : Nat → Prop} {s t : State} (h : GeomAt S s t) (w : Nat) :
    t.ws w = s.ws w := by
  simp [State.ws, h.workspaces]

theorem GeomAt.geom_con_some {S : Nat → Prop} {s t : State} (h : GeomAt S s t) {x : Nat}
    {C : sway_container} (hx : s.con x = some C) :
    ∃ D, t.con x = some D ∧ D.gcore = C.gcore := by
  have := h.con_gcore x
  rw [hx] at this
  cases ht : t.con x with
  | none => simp [ht] at this
  | some D => exact ⟨D, rfl, by simpa [ht] using this⟩

/-! ## Computations that return with enough fuel -/

theorem Returns.of_some {α : Type} {m : Option α} {a : α} {Q : α → Prop}
    (h : m = some a) (hq : Q a) : Returns (fun _ => m) Q :=
  ⟨a, hq, 0, fun _ _ => h⟩

theorem Returns.returns_mono {α : Type} {m : Nat → Option α} {P Q : α → Prop}
    (h : Returns m P) (hpq : ∀ a, P a → Q a) : Returns m Q := by
  obtain ⟨a, ha, N, hN⟩ := h
  exact ⟨a, hpq a ha, N, hN⟩

theorem Returns.bind {α β : Type} {m : Nat → Option α} {k : Nat → α → Option β}
    {P : α → Prop} {Q : β → Prop} (h1 : Returns m P)
    (h2 : ∀ a, P a → Returns (fun fuel => k fuel a) Q) :
    Returns (fun fuel => (m fuel).bind (k fuel)) Q := by
  obtain ⟨a, ha, N1, hN1⟩ := h1
  obtain ⟨b, hb, N2, hN2⟩ := h2 a ha
  refine ⟨b, hb, max N1 N2, fun fuel hf => ?_⟩
  simp only [hN1 fuel (le_trans (le_max_left _ _) hf), Option.some_bind]
  exact hN2 fuel (le_trans (le_max_right _ _) hf)

theorem Returns.succ {α : Type} {f body : Nat → Option α} {Q : α → Prop}
    (hf : ∀ n, f (n + 1) = body n) (h : Returns body Q) : Returns f Q := by
  obtain ⟨a, ha, N, hN⟩ := h
  refine ⟨a, ha, N + 1, fun fuel hfuel => ?_⟩
  obtain ⟨n, rfl⟩ : ∃ n, fuel = n + 1 := ⟨fuel - 1, by omega⟩
  rw [hf]
  exact hN n (by omega)

theorem Returns.congr {α : Type} {f g : Nat → Option α} {Q : α → Prop}
    (hfg : ∀ n, f n = g n) (h : Returns g Q) : Returns f Q := by
  obtain ⟨a, ha, N, hN⟩ := h
  exact ⟨a, ha, N, fun fuel hfuel => (hfg fuel).trans (hN fuel hfuel)⟩

theorem set_geometry_from_content_spec {s : State} (hv : Valid s) {c : Nat}
    {C : sway_container} (h : s.con c = some C) :
    ∃ t, container_set_geometry_from_content s c = some t ∧ GeomAt (· = c) s t := by
  obtain ⟨b, hb⟩ := container_is_floating_defined hv h
  unfold container_set_geometry_from_content
  simp only [h, Option.bind_eq_bind, Option.some_bind, sway_assert]
  by_cases hview : C.view.isSome = true
  · have hb' : container_is_floating (s) c = some b := hb
    simp only [hview, if_true, Bool.not_true, Bool.false_eq_true, if_false, hb',
      Option.some_bind]
    cases b with
    | false =>
      simp only [Bool.false_eq_true, if_false, Bool.not_false, if_true, Option.pure_def]
      exact ⟨_, rfl, GeomAt.geom_emit _ _ _⟩
    | true =>
      simp only [if_true, Bool.not_true, Bool.false_eq_true, if_false]
      refine ⟨_, modCon_some _ h, GeomAt.geom_updCon s rfl (fun _ => rfl)⟩
  · simp only [hview, Bool.false_eq_true, if_false, Bool.not_false, if_true, Option.pure_def]
    exact ⟨_, rfl, GeomAt.geom_emit _ _ _⟩

/-- One geometry write to `c` followed by a computation that keeps the tree. -/
theorem geom_modCon_bind {s : State} {c : Nat} {C : sway_container}
    (h : s.con c = some C) {f : sway_container → sway_container}
    (hf : ∀ C, (f C).gcore = C.gcore) {k : State → Option State} {S : Nat → Prop} (hc : S c)
    (hk : ∀ s1, GeomAt S s s1 → s1.con c = some (f C) → ∃ t, k s1 = some t ∧ GeomAt S s1 t) :
    ∃ t, (s.modCon c f).bind k = some t ∧ GeomAt S s t := by
  rw [modCon_some f h, Option.some_bind]
  have g1 : GeomAt S s (s.updCon c f) := GeomAt.geom_updCon s hc hf
  obtain ⟨t, ht, g2⟩ := hk _ g1 (by simp [h])
  exact ⟨t, ht, g1.geom_trans g2⟩

theorem floating_natural_resize_spec {s : State} (hv : Valid s) {c : Nat}
    {C : sway_container} (h : s.con c = some C) :
    ∃ t, floating_natural_resize s c = some t ∧ GeomAt (· = c) s t := by
  unfold floating_natural_resize
  simp only [h, Option.bind_eq_bind, Option.some_bind]
  cases hview : C.view with
  | none =>
    exact ⟨_, modCon_some _ h, GeomAt.geom_updCon s rfl (fun _ => rfl)⟩
  | some v =>
    obtain ⟨V, hV⟩ := Option.isSome_iff_exists.mp (hv.view c C h v hview)
    simp only [hV, Option.some_bind]
    refine geom_modCon_bind h ?_ ?_ ?_
    · intro _; rfl
    · rfl
    · intro s1 g1 h1
      exact set_geometry_from_content_spec (g1.soft.soft_valid hv) h1

theorem border_then_geometry_spec {s : State} (hv : Valid s) {c : Nat}
    {C : sway_container} (h : s.con c = some C) :
    ∃ t, ((s.modCon c (fun C => { C with pending := { C.pending with
        border_top := true, border_bottom := true
        border_left := true, border_right := true } })).bind
          (fun s => container_set_geometry_from_content s c)) = some t ∧
      GeomAt (· = c) s t := by
  refine geom_modCon_bind h ?_ ?_ ?_
  · intro _; rfl
  · rfl
  · intro s1 g1 h1
    exact set_geometry_from_content_spec (g1.soft.soft_valid hv) h1

theorem floating_resize_and_center_spec {s : State} (hv : Valid s) {c : Nat}
    {C : sway_container} (h : s.con c = some C) :
    ∃ t, container_floating_resize_and_center s c = some t ∧ GeomAt (· = c) s t := by
  unfold container_floating_resize_and_center
  simp only [h, Option.bind_eq_bind, Option.some_bind]
  cases hws : C.pending.workspace with
  | none => exact floating_natural_resize_spec hv h
  | some w =>
    obtain ⟨W, hW⟩ := Option.isSome_iff_exists.mp (hv.ws c w (by simp [State.wsOf, h, hws]))
    obtain ⟨o, ho, hout⟩ := hv.output w W hW
    obtain ⟨O, hO⟩ := Option.isSome_iff_exists.mp hout
    simp only [hW, ho, hO, Option.some_bind]
    cases hlb : O.layout_box with
    | none => exact ⟨_, modCon_some _ h, GeomAt.geom_updCon s rfl (fun _ => rfl)⟩
    | some ob =>
      simp only []
      obtain ⟨s1, hs1, g1⟩ := floating_natural_resize_spec hv h
      simp only [hs1, Option.some_bind]
      obtain ⟨D, hD, -⟩ := g1.geom_con_some h
      simp only [hD, Option.some_bind]
      have hv1 := g1.soft.soft_valid hv
      cases hDv : D.view with
      | none =>
        simp only []
        split
        · exact ⟨_, modCon_some _ hD, g1.geom_trans (GeomAt.geom_updCon s1 rfl (fun _ => rfl))⟩
        · exact ⟨_, modCon_some _ hD, g1.geom_trans (GeomAt.geom_updCon s1 rfl (fun _ => rfl))⟩
      | some v =>
        simp only []
        split
        · refine (geom_modCon_bind hD ?_ ?_ ?_).imp (fun t ht => ⟨ht.1, g1.geom_trans ht.2⟩)
          · intro _; rfl
          · rfl
          · intro s2 g2 h2
            exact border_then_geometry_spec (g2.soft.soft_valid hv1) h2
        · refine (geom_modCon_bind hD ?_ ?_ ?_).imp (fun t ht => ⟨ht.1, g1.geom_trans ht.2⟩)
          · intro _; rfl
          · rfl
          · intro s2 g2 h2
            exact border_then_geometry_spec (g2.soft.soft_valid hv1) h2

/-! ## Reachability through children lists -/

theorem Reach.reach_refl (s : State) (c : Nat) : Reach s c c := Relation.ReflTransGen.refl

theorem Reach.head {s : State} {c y x : Nat} (hy : y ∈ s.kids c) (h : Reach s y x) :
    Reach s c x := Relation.ReflTransGen.head hy h

theorem Reach.tail {s : State} {c y x : Nat} (h : Reach s c y) (hx : x ∈ s.kids y) :
    Reach s c x := Relation.ReflTransGen.tail h hx

theorem Reach.reach_trans {s : State} {a b c : Nat} (h1 : Reach s a b) (h2 : Reach s b c) :
    Reach s a c := Relation.ReflTransGen.trans h1 h2

theorem Reach.rank_le {s : State} {r : Nat → Nat} (hr : ∀ p c, c ∈ s.kids p → r c < r p)
    {c x : Nat} (h : Reach s c x) : r x ≤ r c := by
  induction h with
  | refl => exact le_refl _
  | tail _ hx ih => exact le_trans (le_of_lt (hr _ _ hx)) ih

theorem Reach.not_kid_self {s : State} (ha : Acyclic s) {c y : Nat} (hy : y ∈ s.kids c) :
    ¬ Reach s y c := by
  obtain ⟨r, K, -, hr⟩ := ha
  intro h
  have := Reach.rank_le hr h
  have := hr c y hy
  omega

theorem kids_of_con {s : State} {c : Nat} {C : sway_container} (h : s.con c = some C)
    {l : List Nat} (hl : C.pending.children = some l) : s.kids c = l := by
  simp [State.kids, State.childrenOf, h, hl]

/-! ## Translation of a floating subtree -/

theorem translate_fold_spec {s : State} {c : Nat} {dx dy : ℚ}
    (ih : ∀ s2, GeomAt (Reach s c) s s2 → ∀ y, y ∈ s.kids c →
      Returns (fun fuel => container_floating_translate fuel s2 y dx dy)
        (fun t => GeomAt (Reach s c) s2 t)) :
    ∀ l : List Nat, (∀ y ∈ l, y ∈ s.kids c) → ∀ s2, GeomAt (Reach s c) s s2 →
      Returns (fun fuel => l.foldlM
        (fun st child => container_floating_translate fuel st child dx dy) s2)
        (fun t => GeomAt (Reach s c) s t) := by
  intro l
  induction l with
  | nil =>
    intro _ s2 g2
    exact Returns.of_some (by simp) g2
  | cons y l ihl =>
    intro hl s2 g2
    simp only [List.foldlM_cons]
    refine Returns.bind (ih s2 g2 y (hl y (List.mem_cons_self _ _))) ?_
    intro s3 g3
    exact ihl (fun z hz => hl z (List.mem_cons_of_mem _ hz)) s3 (g2.geom_trans g3)

theorem translate_spec (r : Nat → Nat) (dx dy : ℚ) :
    ∀ n (s : State), Valid s → (∀ p c, c ∈ s.kids p → r c < r p) →
      ∀ c C, r c < n → s.con c = some C →
      Returns (fun fuel => container_floating_translate fuel s c dx dy)
        (fun t => GeomAt (Reach s c) s t) := by
  intro n
  induction n with
  | zero => intro s _ _ c C hlt; omega
  | succ n ih =>
    intro s hv hr c C hlt hC
    refine Returns.succ (fun fuel => rfl) ?_
    simp only [container_floating_translate, Option.bind_eq_bind, modCon_some _ hC,
      Option.some_bind]
    have g1 : GeomAt (Reach s c) s (s.updCon c (fun C => { C with pending := { C.pending with
        x := C.pending.x + dx, y := C.pending.y + dy
        content_x := C.pending.content_x + dx
        content_y := C.pending.content_y + dy } })) :=
      GeomAt.geom_updCon s (Reach.reach_refl s c) (fun _ => rfl)
    revert g1
    generalize (s.updCon c (fun C => { C with pending := { C.pending with
        x := C.pending.x + dx, y := C.pending.y + dy
        content_x := C.pending.content_x + dx
        content_y := C.pending.content_y + dy } })) = s1
    intro g1
    obtain ⟨D, hD, hg⟩ := g1.geom_con_some hC
    simp only [hD, Option.some_bind]
    have hfin : ∀ s2, GeomAt (Reach s c) s s2 →
        Returns (fun _ : Nat => s2.dirtyCon c) (fun t => GeomAt (Reach s c) s t) := by
      intro s2 g2
      obtain ⟨E, hE, -⟩ := g2.geom_con_some hC
      exact Returns.of_some (modCon_some _ hE)
        (g2.geom_trans (GeomAt.geom_updCon s2 (Reach.reach_refl s c) (fun _ => rfl)))
    have hstep : ∀ s2, GeomAt (Reach s c) s s2 → ∀ y, y ∈ s.kids c →
        Returns (fun fuel => container_floating_translate fuel s2 y dx dy)
          (fun t => GeomAt (Reach s c) s2 t) := by
      intro s2 g2 y hy
      have hy2 : (s2.con y).isSome := by
        rw [g2.soft.soft_live]; exact hv.kids c y hy
      obtain ⟨Y, hY⟩ := Option.isSome_iff_exists.mp hy2
      have hr2 : ∀ p c, c ∈ s2.kids p → r c < r p := fun p c hc =>
        hr p c (by rw [← g2.soft.soft_kids]; exact hc)
      refine (ih s2 (g2.soft.soft_valid hv) hr2 y Y (by have := hr c y hy; omega) hY).returns_mono ?_
      intro t gt
      refine gt.geom_mono (fun x hx => ?_)
      exact Reach.head hy ((g2.soft.soft_reach y x).mp hx)
    cases hch : D.pending.children with
    | none =>
      simp only [Option.pure_def, Option.some_bind]
      exact hfin s1 g1
    | some l =>
      simp only []
      have hkids : s.kids c = l := by
        rw [← g1.soft.soft_kids]; exact kids_of_con hD hch
      refine Returns.bind (translate_fold_spec hstep l (fun y hy => hkids ▸ hy) s1 g1) ?_
      intro s2 g2
      exact hfin s2 g2

theorem find_output_defined {s : State} (hv : Valid s) {c : Nat} {C : sway_container}
    (h : s.con c = some C) : ∃ o, container_floating_find_output s c = some o := by
  unfold container_floating_find_output
  simp only [h, Option.bind_eq_bind, Option.some_bind]
  have key : ∀ (l : List Nat), (∀ o ∈ l, (s.out o).isSome) →
      ∀ a, ∃ b, l.foldl (find_output_step s (C.pending.x + C.pending.width / 2)
        (C.pending.y + C.pending.height / 2)) (some a) = some b := by
    intro l
    induction l with
    | nil => intro _ a; exact ⟨a, rfl⟩
    | cons o l ih =>
      intro hl a
      simp only [List.foldl_cons]
      obtain ⟨O, hO⟩ := Option.isSome_iff_exists.mp (hl o (List.mem_cons_self _ _))
      have : ∃ a', find_output_step s (C.pending.x + C.pending.width / 2)
          (C.pending.y + C.pending.height / 2) (some a) o = some a' := by
        unfold find_output_step
        simp only [Option.bind_eq_bind, Option.some_bind, Option.pure_def]
        cases a with
        | inl found => exact ⟨_, rfl⟩
        | inr p =>
          obtain ⟨co, cd⟩ := p
          simp only [hO, Option.some_bind]
          split
          · exact ⟨_, rfl⟩
          · split
            · exact ⟨_, rfl⟩
            · split
              · exact ⟨_, rfl⟩
              · split <;> exact ⟨_, rfl⟩
      obtain ⟨a', ha'⟩ := this
      rw [ha']
      exact ih (fun o ho => hl o (List.mem_cons_of_mem _ ho)) a'
  obtain ⟨b, hb⟩ := key s.root_outputs hv.root_outputs (.inr (none, none))
  rw [hb]
  cases b with
  | inl o => exact ⟨_, rfl⟩
  | inr p => exact ⟨_, rfl⟩

theorem set_fullscreen_spec {s : State} (hv : Valid s) {c : Nat} {C : sway_container}
    (h : s.con c = some C) (b : Bool) :
    ∃ t, set_fullscreen s c b = some t ∧ GeomAt (fun _ => False) s t := by
  unfold set_fullscreen
  simp only [h, Option.bind_eq_bind, Option.some_bind]
  cases hview : C.view with
  | none => exact ⟨s, rfl, GeomAt.geom_refl _ s⟩
  | some v =>
    obtain ⟨V, hV⟩ := Option.isSome_iff_exists.mp (hv.view c C h v hview)
    simp only [hV, Option.some_bind, Option.pure_def]
    split
    · split
      · exact ⟨_, rfl, (GeomAt.geom_emit _ _ _).geom_trans (GeomAt.geom_emit _ _ _)⟩
      · exact ⟨_, rfl, GeomAt.geom_emit _ _ _⟩
    · exact ⟨s, rfl, GeomAt.geom_refl _ s⟩

theorem move_to_center_spec {s : State} (hv : Valid s) (ha : Acyclic s) {c : Nat}
    {C : sway_container} (h : s.con c = some C) {w : Nat}
    (hw : C.pending.workspace = some w) :
    Returns (fun fuel => container_floating_move_to_center fuel s c)
      (fun t => GeomAt (Reach s c) s t) := by
  obtain ⟨b, hb⟩ := container_is_floating_defined hv h
  obtain ⟨W, hW⟩ := Option.isSome_iff_exists.mp (hv.ws c w (by simp [State.wsOf, h, hw]))
  obtain ⟨r, K, hK, hr⟩ := ha
  unfold container_floating_move_to_center
  simp only [hb, Option.bind_eq_bind, Option.some_bind, sway_assert]
  cases b with
  | false =>
    simp only [Bool.false_eq_true, if_false, Bool.not_false, if_true, Option.pure_def]
    exact Returns.of_some rfl (GeomAt.geom_emit _ _ _)
  | true =>
    simp only [if_true, Bool.not_true, Bool.false_eq_true, if_false, h, hw, hW,
      Option.some_bind]
    exact translate_spec r _ _ (K + 1) s hv hr c C (by have := hK c; omega) h

/-! ## Leaving fullscreen -/

theorem Returns.bind_some {α β : Type} {m : Option α} {a : α} {k : Nat → α → Option β}
    {Q : β → Prop} (h : m = some a) (hk : Returns (fun fuel => k fuel a) Q) :
    Returns (fun fuel => m.bind (k fuel)) Q := by
  subst h
  exact hk

theorem modeOf_updCon_mode (s : State) (c : Nat) (m : sway_fullscreen_mode) (x : Nat) :
    (s.updCon c (fun C => { C with pending := { C.pending with fullscreen_mode := m } })).modeOf x
      = if x = c then (s.con c).map (fun _ => m) else s.modeOf x := by
  unfold State.modeOf
  by_cases h : x = c
  · subst h
    cases hx : s.con x <;> simp [hx]
  · simp [h]

theorem fullscreen_disable_spec {s : State} (hv : Valid s) (ha : Acyclic s) {f : Nat}
    {F : sway_container} (hF : s.con f = some F)
    (hm : F.pending.fullscreen_mode ≠ FULLSCREEN_NONE) :
    Returns (fun fuel => container_fullscreen_disable fuel s f) (DisablePost s f F) := by
  unfold container_fullscreen_disable
  simp only [hF, Option.bind_eq_bind, Option.some_bind, sway_assert, hm, ne_eq,
    not_false_eq_true, decide_True, if_true, Bool.not_true, Bool.false_eq_true, if_false,
    Option.pure_def]
  obtain ⟨b, hb⟩ := container_is_floating_defined hv hF
  have hfl : ∀ u, Soft s u → container_is_floating u f = some b := fun u hu => by
    rw [hu.is_floating]; exact hb
  -- set_fullscreen
  obtain ⟨s1, hs1, g1⟩ := set_fullscreen_spec hv hF false
  refine Returns.bind_some hs1 ?_
  refine Returns.bind_some (hfl s1 g1.soft) ?_
  -- restore the saved geometry
  have h2 : Returns (fun _ : Nat => (if b = true then
      s1.modCon f (fun C => { C with pending := { C.pending with
          x := C.saved_x, y := C.saved_y
          width := C.saved_width, height := C.saved_height } })
      else some s1)) (fun s2 => GeomAt (DisableTouched s f F) s s2) := by
    obtain ⟨D, hD, -⟩ := g1.geom_con_some hF
    split
    · exact Returns.of_some (modCon_some _ hD)
        ((g1.geom_mono (fun _ h => h.elim)).geom_trans
          (GeomAt.geom_updCon s1 (Or.inl rfl) (fun _ => rfl)))
    · exact Returns.of_some rfl (g1.geom_mono (fun _ h => h.elim))
  refine Returns.bind h2 ?_
  intro s2 g2
  -- clear the back-reference
  have h3 : Returns (fun fuel =>
      (if F.pending.fullscreen_mode = FULLSCREEN_WORKSPACE then
        match F.pending.workspace with
        | some w =>
          (s2.modWs w (fun W => { W with fullscreen := none })).bind fun s =>
            (container_is_floating s f).bind fun floating =>
              if floating = true then
                (container_floating_find_output s f).bind fun output =>
                  (s.ws w).bind fun W =>
                    if ¬ W.output = output then container_floating_move_to_center fuel s f
                    else some s
              else some s
        | none => some s2
      else some { s2 with fullscreen_global := none }))
      (fun s3 => ∃ u, Soft s u ∧ (∀ x, u.con x = s.con x) ∧
        (∀ w, u.fsOf w = if F.pending.fullscreen_mode = FULLSCREEN_WORKSPACE ∧
            F.pending.workspace = some w then none else s.fsOf w) ∧
        (u.fullscreen_global =
          if F.pending.fullscreen_mode = FULLSCREEN_WORKSPACE then s.fullscreen_global
          else none) ∧
        GeomAt (DisableTouched s f F) u s3) := by
    by_cases hws : F.pending.fullscreen_mode = FULLSCREEN_WORKSPACE
    · simp only [hws, if_true, true_and]
      cases hw : F.pending.workspace with
      | none =>
        simp only []
        exact Returns.of_some rfl ⟨s, Soft.soft_refl s, fun _ => rfl, by simp, rfl, g2⟩
      | some w =>
        simp only []
        obtain ⟨W, hW⟩ := Option.isSome_iff_exists.mp
          (hv.ws f w (by simp [State.wsOf, hF, hw]))
        have hW2 : s2.ws w = some W := by rw [g2.geom_ws]; exact hW
        have su : Soft s (s.updWs w (fun W => { W with fullscreen := none })) :=
          Soft.soft_updWs s w (fun _ => rfl)
        have gu : GeomAt (DisableTouched s f F) (s.updWs w (fun W => { W with fullscreen := none }))
            (s2.updWs w (fun W => { W with fullscreen := none })) := by
          refine ⟨fun x => by simpa using g2.con_gcore x,
            fun x hx => by simpa using g2.con_rest x hx, by simpa using g2.views, ?_,
            by simpa using g2.outputs, by simpa using g2.root_outputs,
            by simpa using g2.fullscreen_global, by simpa using g2.scratchpad,
            by simpa using g2.output_layout_box, by simpa using g2.config⟩
          unfold State.updWs
          rw [hW, hW2]
          simp [g2.workspaces]
        have hfs : ∀ x, (s.updWs w (fun W => { W with fullscreen := none })).fsOf x =
            if some w = some x then none else s.fsOf x := by
          intro x
          unfold State.fsOf
          by_cases hx : x = w
          · subst hx; simp [hW]
          · simp [hx, Ne.symm hx]
        have hU : ∀ s3, GeomAt (DisableTouched s f F)
            (s2.updWs w (fun W => { W with fullscreen := none })) s3 →
            ∃ u, Soft s u ∧ (∀ x, u.con x = s.con x) ∧
              (∀ x, u.fsOf x = if some w = some x then none else s.fsOf x) ∧
              u.fullscreen_global = s.fullscreen_global ∧ GeomAt (DisableTouched s f F) u s3 :=
          fun s3 g3 => ⟨_, su, fun x => by simp, hfs, by simp, gu.geom_trans g3⟩
        refine Returns.bind_some (modWs_some _ hW2) ?_
        refine Returns.bind_some (hfl _ (su.soft_trans gu.soft)) ?_
        cases b with
        | false =>
          simp only [Bool.false_eq_true, if_false]
          exact Returns.of_some rfl (hU _ (GeomAt.geom_refl _ _))
        | true =>
          simp only [if_true]
          have hvu := (su.soft_trans gu.soft).soft_valid hv
          obtain ⟨D, hD, hDc⟩ := (su.soft_trans gu.soft).soft_con_some hF
          obtain ⟨o, ho⟩ := find_output_defined hvu hD
          refine Returns.bind_some ho ?_
          obtain ⟨V, hV, -⟩ := (su.soft_trans gu.soft).ws_some hW
          refine Returns.bind_some hV ?_
          split
          · refine (move_to_center_spec hvu ((su.soft_trans gu.soft).soft_acyclic ha) hD
              ((core_workspace hDc).trans hw)).returns_mono ?_
            intro s3 g3
            refine hU s3 (g3.geom_mono (fun x hx => ?_))
            exact Or.inr ⟨hws, ((su.soft_trans gu.soft).soft_reach f x).mp hx⟩
          · exact Returns.of_some rfl (hU _ (GeomAt.geom_refl _ _))
    · simp only [hws, if_false, false_and]
      refine Returns.of_some rfl ⟨{ s with fullscreen_global := none },
        Soft.soft_set_fullscreen_global s none, fun _ => rfl, fun _ => rfl, rfl, ?_⟩
      exact ⟨g2.con_gcore, g2.con_rest, g2.views, g2.workspaces, g2.outputs, g2.root_outputs,
        rfl, g2.scratchpad, g2.output_layout_box, g2.config⟩
  refine Returns.bind h3 ?_
  intro s3 ⟨u, su, hucon, hufs, hufg, g3⟩
  -- floating containers without a size are initialised
  have s03 : Soft s s3 := su.soft_trans g3.soft
  obtain ⟨D3, hD3, -⟩ := s03.soft_con_some hF
  refine Returns.bind_some hD3 ?_
  refine Returns.bind_some (hfl s3 s03) ?_
  have h4 : Returns (fun _ : Nat => (if b = true ∧
      (D3.pending.width = 0 ∨ D3.pending.height = 0) then
        container_floating_resize_and_center s3 f else some s3))
      (fun s4 => GeomAt (DisableTouched s f F) u s4) := by
    split
    · obtain ⟨s4, hs4, g4⟩ := floating_resize_and_center_spec (s03.soft_valid hv) hD3
      exact Returns.of_some hs4 (g3.geom_trans (g4.geom_mono (fun x hx => Or.inl hx)))
    · exact Returns.of_some rfl g3
  refine Returns.bind h4 ?_
  intro s4 g4
  have s04 : Soft s s4 := su.soft_trans g4.soft
  obtain ⟨D4, hD4, -⟩ := s04.soft_con_some hF
  refine Returns.bind_some (modCon_some _ hD4) ?_
  have s05 : Soft s (s4.updCon f (fun C => { C with
      pending := { C.pending with fullscreen_mode := FULLSCREEN_NONE } })) :=
    s04.soft_trans (Soft.soft_updCon s4 f (fun _ => rfl))
  have post : ∀ t, (∀ x, t.con x = (s4.updCon f (fun C => { C with
      pending := { C.pending with fullscreen_mode := FULLSCREEN_NONE } })).con x) →
      (∀ w, t.ws w = s4.ws w) → t.fullscreen_global = s4.fullscreen_global →
      Soft (s4.updCon f (fun C => { C with
        pending := { C.pending with fullscreen_mode := FULLSCREEN_NONE } })) t →
      DisablePost s f F t := by
    intro t htc htw htg hts
    refine ⟨s05.soft_trans hts, ?_, ?_, ?_, ?_, ?_⟩
    · intro x hx
      have hxf : x ≠ f := fun h => hx (Or.inl h)
      rw [htc x, con_updCon, if_neg hxf, g4.con_rest x hx, hucon]
    · intro x hxf
      have : t.modeOf x = s4.modeOf x := by
        unfold State.modeOf
        rw [htc x, con_updCon, if_neg hxf]
      rw [this, g4.geom_modeOf]
      unfold State.modeOf
      rw [hucon]
    · unfold State.modeOf
      rw [htc f]
      simp [hD4]
    · intro w
      have : t.fsOf w = u.fsOf w := by
        unfold State.fsOf
        rw [htw, g4.geom_ws]
      rw [this, hufs]
    · rw [htg, g4.fullscreen_global, hufg]
  split
  · exact Returns.of_some rfl (post _ (fun _ => rfl)
      (fun _ => by simp [ipc_event_window, container_end_mouse_operation])
      (by simp [ipc_event_window, container_end_mouse_operation])
      ((Soft.soft_emit _ _).soft_trans ((Soft.soft_emit _ _).soft_trans (Soft.soft_emit _ _))))
  · exact Returns.of_some rfl (post _ (fun _ => rfl)
      (fun _ => by simp [ipc_event_window, container_end_mouse_operation])
      (by simp [ipc_event_window, container_end_mouse_operation])
      ((Soft.soft_emit _ _).soft_trans (Soft.soft_emit _ _)))

/-! ## From the checked predicates to statements about all indices -/

theorem mem_ids {s : State} {c : Nat} (h : (s.con c).isSome) : c ∈ s.ids := by
  obtain ⟨C, hC⟩ := Option.isSome_iff_exists.mp h
  simp [State.ids, con_lt hC]

theorem mem_wids {s : State} {w : Nat} (h : (s.ws w).isSome) : w ∈ s.wids := by
  obtain ⟨W, hW⟩ := Option.isSome_iff_exists.mp h
  by_contra hl
  simp [State.wids] at hl
  simp [State.ws, List.getElem?_eq_none hl] at hW

theorem live_of_parentOf {s : State} {c p : Nat} (h : s.parentOf c = some p) :
    (s.con c).isSome := by
  cases hc : s.con c <;> simp_all [State.parentOf]

theorem live_of_wsOf {s : State} {c w : Nat} (h : s.wsOf c = some w) :
    (s.con c).isSome := by
  cases hc : s.con c <;> simp_all [State.wsOf]

theorem live_of_modeOf {s : State} {c : Nat} {m : sway_fullscreen_mode}
    (h : s.modeOf c = some m) : (s.con c).isSome := by
  cases hc : s.con c <;> simp_all [State.modeOf]

theorem live_of_kids {s : State} {p c : Nat} (h : c ∈ s.kids p) : (s.con p).isSome := by
  cases hc : s.con p <;> simp_all [State.kids, State.childrenOf]

theorem wlive_of_tops {s : State} {w c : Nat} (h : c ∈ s.tops w) : (s.ws w).isSome := by
  cases hc : s.ws w <;> simp_all [State.tops]

theorem wlive_of_fsOf {s : State} {w f : Nat} (h : s.fsOf w = some f) : (s.ws w).isSome := by
  cases hc : s.ws w <;> simp_all [State.fsOf]

theorem TreeWF.treewf_linked {s : State} (h : TreeWF s) : Linked s := by
  obtain ⟨h1, h2, h3, h4, h5, -, -⟩ := h
  refine ⟨?_, ?_, ?_, ?_, ?_, ?_, ?_⟩
  · intro p c hc
    exact (h1 p (mem_ids (live_of_kids hc))).2 c hc
  · intro c p hp
    exact h2 c (mem_ids (live_of_parentOf hp)) p hp
  · intro p
    by_cases hp : (s.con p).isSome
    · exact (h1 p (mem_ids hp)).1
    · have : s.kids p = [] := by
        cases hc : s.con p <;> simp_all [State.kids, State.childrenOf]
      rw [this]; exact List.nodup_nil
  · intro w
    by_cases hw : (s.ws w).isSome
    · exact (h3 w (mem_wids hw)).1
    · have : s.tops w = [] := by
        cases hc : s.ws w <;> simp_all [State.tops]
      rw [this]; exact List.nodup_nil
  · intro w c hc
    exact ((h3 w (mem_wids (wlive_of_tops hc))).2 c hc).2
  · intro c w hp hw
    exact (h4 c (mem_ids (live_of_wsOf hw)) w hw).2 hp
  · intro c C hC hview
    obtain ⟨v, hv⟩ := Option.ne_none_iff_exists'.mp hview
    exact ((h5 c (mem_ids (by simp [hC])) C hC).1 v hv).2

theorem TreeWF.treewf_valid {s : State} (h : TreeWF s) : Valid s := by
  obtain ⟨h1, h2, h3, h4, h5, h6, h7⟩ := h
  refine ⟨?_, ?_, ?_, ?_, ?_, ?_, ?_⟩
  · intro c C hC v hv
    exact ((h5 c (mem_ids (by simp [hC])) C hC).1 v hv).1
  · intro c w hw
    exact (h4 c (mem_ids (live_of_wsOf hw)) w hw).1
  · intro p c hc
    exact live_of_parentOf ((h1 p (mem_ids (live_of_kids hc))).2 c hc)
  · intro c p hp
    exact live_of_kids (h2 c (mem_ids (live_of_parentOf hp)) p hp)
  · intro c C hC hview
    exact (h5 c (mem_ids (by simp [hC])) C hC).2 hview
  · intro w W hW
    obtain ⟨o, ho, hout⟩ := h6 w (mem_wids (by simp [hW])) W hW
    exact ⟨o, ho, hout⟩
  · exact h7

theorem FullscreenConsistent.fs_mode {s : State} (h : FullscreenConsistent s) {w f : Nat}
    (hf : s.fsOf w = some f) :
    s.modeOf f = some FULLSCREEN_WORKSPACE ∧ s.wsOf f = some w :=
  h.1 w (mem_wids (wlive_of_fsOf hf)) f hf

theorem FullscreenConsistent.mode_fs {s : State} (h : FullscreenConsistent s) {c w : Nat}
    (hm : s.modeOf c = some FULLSCREEN_WORKSPACE) (hw : s.wsOf c = some w) :
    s.fsOf w = some c :=
  h.2.1 c (mem_ids (live_of_modeOf hm)) hm w hw

theorem FullscreenConsistent.global_mode {s : State} (h : FullscreenConsistent s) {g : Nat}
    (hg : s.fullscreen_global = some g) : s.modeOf g = some FULLSCREEN_GLOBAL :=
  h.2.2.1 g hg

theorem FullscreenConsistent.mode_global {s : State} (h : FullscreenConsistent s) {c : Nat}
    (hm : s.modeOf c = some FULLSCREEN_GLOBAL) : s.fullscreen_global = some c :=
  h.2.2.2 c (mem_ids (live_of_modeOf hm)) hm

theorem ParentWorkspaceConsistent.all {s : State} (h : ParentWorkspaceConsistent s)
    {c p : Nat} (hp : s.parentOf c = some p) : s.wsOf c = s.wsOf p :=
  (h c (mem_ids (live_of_parentOf hp)) p hp).2

/-! ## Entering fullscreen -/

theorem fsOf_updWs_fullscreen (s : State) (w : Nat) (o : Option Nat) (x : Nat)
    (hw : (s.ws w).isSome) :
    (s.updWs w (fun W => { W with fullscreen := o })).fsOf x =
      if w = x then o else s.fsOf x := by
  obtain ⟨W, hW⟩ := Option.isSome_iff_exists.mp hw
  unfold State.fsOf
  by_cases hx : x = w
  · subst hx; simp [hW]
  · simp [hx, Ne.symm hx]

theorem fullscreen_workspace_spec {s : State} (hv : Valid s) {c : Nat} {C : sway_container}
    (hC : s.con c = some C) (hm : C.pending.fullscreen_mode = FULLSCREEN_NONE) :
    ∃ t, container_fullscreen_workspace s c = some t ∧ EnterWorkspacePost s c C t := by
  unfold container_fullscreen_workspace
  simp only [hC, Option.bind_eq_bind, Option.some_bind, sway_assert, hm, decide_True, if_true,
    Bool.not_true, Bool.false_eq_true, if_false, Option.pure_def]
  obtain ⟨s1, hs1, g1⟩ := set_fullscreen_spec hv hC true
  have hC1 : s1.con c = some C := by rw [g1.con_rest c (fun h => h)]; exact hC
  simp only [hs1, Option.some_bind, modCon_some _ hC1]
  have hC2 : (s1.updCon c (fun C => { C with
      pending := { C.pending with fullscreen_mode := FULLSCREEN_WORKSPACE } })).con c =
      some { C with pending := { C.pending with fullscreen_mode := FULLSCREEN_WORKSPACE } } := by
    simp [hC1]
  simp only [modCon_some _ hC2, Option.some_bind]
  have sf : Soft s ((s1.updCon c (fun C => { C with
      pending := { C.pending with fullscreen_mode := FULLSCREEN_WORKSPACE } })).updCon c
      (fun C => { C with saved_x := C.pending.x, saved_y := C.pending.y
                         saved_width := C.pending.width
                         saved_height := C.pending.height })) := by
    refine (g1.soft.soft_trans (Soft.soft_updCon s1 c ?_)).soft_trans (Soft.soft_updCon _ c ?_) <;> intro _ <;> rfl
  cases hw : C.pending.workspace with
  | none =>
    refine ⟨_, rfl, ⟨?_, ?_, ?_, ?_, ?_⟩⟩
    · exact sf.soft_trans ((Soft.soft_emit _ _).soft_trans (Soft.soft_emit _ _))
    · intro x hx
      simp [ipc_event_window, container_end_mouse_operation, hx, g1.con_rest x (fun h => h)]
    · simp [ipc_event_window, container_end_mouse_operation, hC1]
    · intro w
      simp [ipc_event_window, container_end_mouse_operation, State.fsOf, g1.geom_ws, hw]
    · simp [ipc_event_window, container_end_mouse_operation, g1.fullscreen_global]
  | some w =>
    obtain ⟨W, hW⟩ := Option.isSome_iff_exists.mp (hv.ws c w (by simp [State.wsOf, hC, hw]))
    have hW3 : ((s1.updCon c (fun C => { C with
      pending := { C.pending with fullscreen_mode := FULLSCREEN_WORKSPACE } })).updCon c
      (fun C => { C with saved_x := C.pending.x, saved_y := C.pending.y
                         saved_width := C.pending.width
                         saved_height := C.pending.height })).ws w = some W := by
      simp [g1.geom_ws, hW]
    simp only [modWs_some _ hW3, Option.some_bind]
    refine ⟨_, rfl, ⟨?_, ?_, ?_, ?_, ?_⟩⟩
    · refine (sf.soft_trans (Soft.soft_updWs _ w ?_)).soft_trans
        ((Soft.soft_emit _ _).soft_trans ((Soft.soft_emit _ _).soft_trans (Soft.soft_emit _ _)))
      intro _; rfl
    · intro x hx
      simp [ipc_event_window, container_end_mouse_operation, hx, g1.con_rest x (fun h => h)]
    · simp [ipc_event_window, container_end_mouse_operation, hC1]
    · intro x
      have := fsOf_updWs_fullscreen ((s1.updCon c (fun C => { C with
        pending := { C.pending with fullscreen_mode := FULLSCREEN_WORKSPACE } })).updCon c
        (fun C => { C with saved_x := C.pending.x, saved_y := C.pending.y
                           saved_width := C.pending.width
                           saved_height := C.pending.height })) w (some c) x (by simp [hW3])
      simp only [ipc_event_window, container_end_mouse_operation, State.fsOf, ws_emit] at this ⊢
      rw [this]
      simp [g1.geom_ws, hw]
    · simp [ipc_event_window, container_end_mouse_operation, g1.fullscreen_global]

theorem fullscreen_global_spec {s : State} (hv : Valid s) {c : Nat} {C : sway_container}
    (hC : s.con c = some C) (hm : C.pending.fullscreen_mode = FULLSCREEN_NONE) :
    ∃ t, container_fullscreen_global s c = some t ∧ EnterGlobalPost s c C t := by
  unfold container_fullscreen_global
  simp only [hC, Option.bind_eq_bind, Option.some_bind, sway_assert, hm, decide_True, if_true,
    Bool.not_true, Bool.false_eq_true, if_false, Option.pure_def]
  obtain ⟨s1, hs1, g1⟩ := set_fullscreen_spec hv hC true
  have hC1 : s1.con c = some C := by rw [g1.con_rest c (fun h => h)]; exact hC
  have hC1' : ({ s1 with fullscreen_global := some c } : State).con c = some C := hC1
  simp only [hs1, Option.some_bind, modCon_some _ hC1']
  have hC2 : ((({ s1 with fullscreen_global := some c } : State).updCon c
      (fun C => { C with saved_x := C.pending.x, saved_y := C.pending.y
                         saved_width := C.pending.width
                         saved_height := C.pending.height })).emit
        (.seats_focus_fullscreen c)).con c =
      some { C with saved_x := C.pending.x, saved_y := C.pending.y
                    saved_width := C.pending.width, saved_height := C.pending.height } := by
    simp [hC1']
  simp only [modCon_some _ hC2, Option.some_bind]
  refine ⟨_, rfl, ⟨?_, ?_, ?_, ?_, ?_⟩⟩
  · refine ((((g1.soft.soft_trans (Soft.soft_set_fullscreen_global s1 (some c))).soft_trans
      (Soft.soft_updCon _ c ?_)).soft_trans (Soft.soft_emit _ _)).soft_trans (Soft.soft_updCon _ c ?_)).soft_trans
      ((Soft.soft_emit _ _).soft_trans (Soft.soft_emit _ _)) <;> intro _ <;> rfl
  · intro x hx
    simp only [ipc_event_window, container_end_mouse_operation, con_emit, con_updCon, if_neg hx]
    exact g1.con_rest x (fun h => h)
  · simp only [ipc_event_window, container_end_mouse_operation, con_emit, con_updCon, if_true]
    rw [hC1']
    rfl
  · intro w
    simp only [ipc_event_window, container_end_mouse_operation, ws_emit, wsget_updCon]
    exact g1.geom_ws w
  · simp [ipc_event_window, container_end_mouse_operation]

theorem modeOf_of_con {s : State} {c : Nat} {C : sway_container} (h : s.con c = some C) :
    s.modeOf c = some C.pending.fullscreen_mode := by
  simp [State.modeOf, h]

theorem wsOf_of_con {s : State} {c : Nat} {C : sway_container} (h : s.con c = some C) :
    s.wsOf c = C.pending.workspace := by
  simp [State.wsOf, h]

theorem parentOf_of_con {s : State} {c : Nat} {C : sway_container} (h : s.con c = some C) :
    s.parentOf c = C.pending.parent := by
  simp [State.parentOf, h]

theorem fsOf_of_ws {s : State} {w : Nat} {W : sway_workspace} (h : s.ws w = some W) :
    s.fsOf w = W.fullscreen := by
  simp [State.fsOf, h]

/-- Disabling the global fullscreen container, if there is one. -/
theorem disable_global_spec {s : State} (hv : Valid s) (ha : Acyclic s)
    (hfc : FullscreenConsistent s) :
    Returns (fun fuel => match s.fullscreen_global with
        | some g => container_fullscreen_disable fuel s g
        | none => some s)
      (fun t => Soft s t ∧ t.fullscreen_global = none ∧ (∀ w, t.fsOf w = s.fsOf w) ∧
        (∀ x, s.fullscreen_global ≠ some x → t.con x = s.con x) ∧
        (∀ x, t.modeOf x =
          if s.fullscreen_global = some x then some FULLSCREEN_NONE else s.modeOf x)) := by
  cases hg : s.fullscreen_global with
  | none =>
    simp only []
    exact Returns.of_some rfl ⟨Soft.soft_refl s, hg, fun _ => rfl, fun _ _ => rfl, fun x => by simp⟩
  | some g =>
    simp only []
    have hmg := hfc.global_mode hg
    obtain ⟨G, hG⟩ := Option.isSome_iff_exists.mp (live_of_modeOf hmg)
    have hGm : G.pending.fullscreen_mode = FULLSCREEN_GLOBAL := by
      rw [modeOf_of_con hG] at hmg; exact Option.some.inj hmg
    refine (fullscreen_disable_spec hv ha hG (by rw [hGm]; decide)).returns_mono ?_
    intro t ht
    refine ⟨ht.soft, ?_, ?_, ?_, ?_⟩
    · rw [ht.fullscreen_global, hGm]; simp
    · intro w; rw [ht.fsOf, hGm]; simp
    · intro x hx
      refine ht.con_rest x (fun h => ?_)
      rcases h with h | ⟨h, -⟩
      · exact hx (by rw [h])
      · rw [hGm] at h; exact absurd h (by decide)
    · intro x
      by_cases hx : x = g
      · subst hx; simp [ht.mode_self]
      · have : ¬ (some g = some x) := fun h => hx (Option.some.inj h).symm
        rw [if_neg this]
        exact ht.mode_rest x hx

/-- C9 (amended): for every container `con` on a workspace `w` that is not in
mode `FULLSCREEN_WORKSPACE`, in a well-formed acyclic state whose fullscreen
back-references agree with the modes, `container_set_fullscreen(con,
FULLSCREEN_WORKSPACE)` returns, and afterwards `con` has mode
`FULLSCREEN_WORKSPACE`, `w.fullscreen` is `con`, the container that was
`w.fullscreen` before (if any) has mode `FULLSCREEN_NONE`, the root's
`fullscreen_global` is null, its former holder, if there was one other than `con`,
has mode `FULLSCREEN_NONE`, and the saved geometry of `con` equals its pending
geometry. -/
theorem set_fullscreen_workspace_exclusive (s : State) (con w : Nat)
    (hwf : TreeWF s) (ha : Acyclic s) (hfc : FullscreenConsistent s)
    (hw : s.wsOf con = some w) (hm : s.modeOf con ≠ some FULLSCREEN_WORKSPACE) :
    Returns (fun fuel => container_set_fullscreen fuel s con FULLSCREEN_WORKSPACE)
      (fun t =>
        t.modeOf con = some FULLSCREEN_WORKSPACE ∧ t.fsOf w = some con ∧
        (∀ f, s.fsOf w = some f → t.modeOf f = some FULLSCREEN_NONE) ∧
        t.fullscreen_global = none ∧
        (∀ g, s.fullscreen_global = some g → g ≠ con → t.modeOf g = some FULLSCREEN_NONE) ∧
        ∃ C, t.con con = some C ∧ C.saved_x = C.pending.x ∧ C.saved_y = C.pending.y ∧
          C.saved_width = C.pending.width ∧ C.saved_height = C.pending.height) := by
  have hv := hwf.treewf_valid
  obtain ⟨C, hC⟩ := Option.isSome_iff_exists.mp (live_of_wsOf hw)
  have hCm : C.pending.fullscreen_mode ≠ FULLSCREEN_WORKSPACE := by
    intro h; exact hm (by rw [modeOf_of_con hC, h])
  have hCw : C.pending.workspace = some w := by rw [← wsOf_of_con hC]; exact hw
  unfold container_set_fullscreen
  simp only [hC, Option.bind_eq_bind, Option.some_bind, hCm, if_false]
  refine Returns.bind (disable_global_spec hv ha hfc) ?_
  rintro s1 ⟨sf1, hfg1, hfs1, -, hmode1⟩
  obtain ⟨C1, hC1, hcore1⟩ := sf1.soft_con_some hC
  have hC1w : C1.pending.workspace = some w := (core_workspace hcore1).trans hCw
  obtain ⟨W, hW⟩ := Option.isSome_iff_exists.mp (hv.ws con w hw)
  obtain ⟨W1, hW1, -⟩ := sf1.ws_some hW
  refine Returns.bind_some hC1 ?_
  have hv1 := sf1.soft_valid hv
  have ha1 := sf1.soft_acyclic ha
  -- the workspace's fullscreen container is disabled
  have h2 : Returns (fun fuel => match C1.pending.workspace with
      | some w => (s1.ws w).bind fun W =>
        match W.fullscreen with
        | some f => container_fullscreen_disable fuel s1 f
        | none => some s1
      | none => some s1)
      (fun s2 => Soft s s2 ∧ s2.fullscreen_global = none ∧ s2.fsOf w = none ∧
        ∀ x, s2.modeOf x =
          if s.fullscreen_global = some x ∨ s.fsOf w = some x then some FULLSCREEN_NONE
          else s.modeOf x) := by
    rw [hC1w]
    simp only [hW1, Option.some_bind]
    have hfsw : s.fsOf w = W1.fullscreen := by rw [← hfs1, fsOf_of_ws hW1]
    cases hf : W1.fullscreen with
    | none =>
      simp only []
      refine Returns.of_some rfl ⟨sf1, hfg1, by rw [hfs1, hfsw, hf], fun x => ?_⟩
      rw [hmode1, hfsw, hf]
      simp
    | some f =>
      simp only []
      rw [hf] at hfsw
      obtain ⟨hfm, hfw⟩ := hfc.fs_mode hfsw
      have hfg : s.fullscreen_global ≠ some f := by
        intro h
        have := hfc.global_mode h
        rw [hfm] at this
        exact absurd this (by decide)
      have hfm1 : s1.modeOf f = some FULLSCREEN_WORKSPACE := by
        rw [hmode1, if_neg hfg]; exact hfm
      obtain ⟨F1, hF1⟩ := Option.isSome_iff_exists.mp (live_of_modeOf hfm1)
      have hF1m : F1.pending.fullscreen_mode = FULLSCREEN_WORKSPACE := by
        rw [modeOf_of_con hF1] at hfm1; exact Option.some.inj hfm1
      have hF1w : F1.pending.workspace = some w := by
        rw [← wsOf_of_con hF1, sf1.soft_wsOf]; exact hfw
      refine (fullscreen_disable_spec hv1 ha1 hF1 (by rw [hF1m]; decide)).returns_mono ?_
      intro s2 h2
      refine ⟨sf1.soft_trans h2.soft, ?_, ?_, ?_⟩
      · rw [h2.fullscreen_global, hF1m]; simpa using hfg1
      · rw [h2.fsOf, hF1m, hF1w]; simp
      · intro x
        by_cases hx : x = f
        · subst hx
          rw [h2.mode_self]; simp [hfsw]
        · rw [h2.mode_rest x hx, hmode1, hfsw]
          have : ¬ (some f = some x) := fun h => hx (Option.some.inj h).symm
          simp [this]
  refine Returns.bind h2 ?_
  rintro s2 ⟨sf2, hfg2, hfs2, hmode2⟩
  -- the container enters fullscreen
  obtain ⟨C2, hC2, hcore2⟩ := sf2.soft_con_some hC
  have hC2w : C2.pending.workspace = some w := (core_workspace hcore2).trans hCw
  have hnot : s.fsOf w ≠ some con := by
    intro h
    exact hm (hfc.fs_mode h).1
  have hC2m : C2.pending.fullscreen_mode = FULLSCREEN_NONE := by
    have := hmode2 con
    rw [modeOf_of_con hC2] at this
    by_cases hg : s.fullscreen_global = some con
    · simpa [hg] using this
    · simp only [hg, hnot, or_self, if_false] at this
      rw [modeOf_of_con hC] at this
      have h3 := Option.some.inj this
      rw [h3]
      cases hmC : C.pending.fullscreen_mode with
      | FULLSCREEN_NONE => rfl
      | FULLSCREEN_WORKSPACE => exact absurd hmC hCm
      | FULLSCREEN_GLOBAL =>
        exact absurd (hfc.mode_global (by rw [modeOf_of_con hC, hmC])) hg
  obtain ⟨t, ht, hp⟩ := fullscreen_workspace_spec (sf2.soft_valid hv) hC2 hC2m
  refine Returns.of_some ht ⟨?_, ?_, ?_, ?_, ?_, ?_⟩
  · rw [modeOf_of_con hp.con_self]
  · rw [hp.fsOf, hC2w]; simp
  · intro f hf
    have hne : f ≠ con := fun h => hnot (h ▸ hf)
    unfold State.modeOf
    rw [hp.con_rest f hne]
    have := hmode2 f
    unfold State.modeOf at this
    rw [this]
    simp [hf]
  · rw [hp.fullscreen_global]; exact hfg2
  · intro g hg hne
    unfold State.modeOf
    rw [hp.con_rest g hne]
    have := hmode2 g
    unfold State.modeOf at this
    rw [this]
    simp [hg]
  · exact ⟨_, hp.con_self, rfl, rfl, rfl, rfl⟩

/-- Under parent/workspace consistency every container of a subtree is on the
workspace of the subtree's root. -/
theorem Reach.wsOf_eq {s : State} (hl : Linked s) (hpw : ParentWorkspaceConsistent s)
    {c x : Nat} (h : Reach s c x) : s.wsOf x = s.wsOf c := by
  induction h with
  | refl => rfl
  | tail _ hx ih =>
    rw [← ih]
    exact hpw.all (hl.kids_parent _ _ hx)

/-- C10: for containers `A ≠ B` where `B` is the fullscreen container of
workspace `wB` in mode `FULLSCREEN_WORKSPACE` and `A` is on another workspace,
in a well-formed acyclic state, `container_set_fullscreen(A, FULLSCREEN_GLOBAL)`
returns, and afterwards `A` has mode `FULLSCREEN_GLOBAL` and is the root's
`fullscreen_global`, while `B` still has mode `FULLSCREEN_WORKSPACE`,
`wB.fullscreen` is still `B` and the record of `B`, its geometry included, is
unchanged. -/
theorem set_fullscreen_global_coexists (s : State) (A B wA wB : Nat)
    (hwf : TreeWF s) (ha : Acyclic s) (hpw : ParentWorkspaceConsistent s)
    (hfc : FullscreenConsistent s) (hAB : A ≠ B)
    (hBm : s.modeOf B = some FULLSCREEN_WORKSPACE) (hBw : s.fsOf wB = some B)
    (hAw : s.wsOf A = some wA) (hne : wA ≠ wB) :
    Returns (fun fuel => container_set_fullscreen fuel s A FULLSCREEN_GLOBAL)
      (fun t =>
        t.modeOf A = some FULLSCREEN_GLOBAL ∧ t.fullscreen_global = some A ∧
        t.modeOf B = some FULLSCREEN_WORKSPACE ∧ t.fsOf wB = some B ∧
        t.con B = s.con B) := by
  have hv := hwf.treewf_valid
  have hl := hwf.treewf_linked
  obtain ⟨C, hC⟩ := Option.isSome_iff_exists.mp (live_of_wsOf hAw)
  have hBws : s.wsOf B = some wB := (hfc.fs_mode hBw).2
  unfold container_set_fullscreen
  simp only [hC, Option.bind_eq_bind, Option.some_bind]
  by_cases hCm : C.pending.fullscreen_mode = FULLSCREEN_GLOBAL
  · simp only [hCm, if_true, Option.pure_def]
    have hmA : s.modeOf A = some FULLSCREEN_GLOBAL := by rw [modeOf_of_con hC, hCm]
    exact Returns.of_some rfl ⟨hmA, hfc.mode_global hmA, hBm, hBw, rfl⟩
  · simp only [hCm, if_false]
    have hgA : s.fullscreen_global ≠ some A := by
      intro h
      have := hfc.global_mode h
      rw [modeOf_of_con hC] at this
      exact hCm (Option.some.inj this)
    have hgB : s.fullscreen_global ≠ some B := by
      intro h
      have := hfc.global_mode h
      rw [hBm] at this
      exact absurd this (by decide)
    refine Returns.bind (disable_global_spec hv ha hfc) ?_
    rintro s1 ⟨sf1, hfg1, hfs1, hcon1, hmode1⟩
    obtain ⟨C1, hC1, hcore1⟩ := sf1.soft_con_some hC
    have hC1eq : s1.con A = s.con A := hcon1 A hgA
    have hC1C : C1 = C := by
      rw [hC1, hC] at hC1eq; exact Option.some.inj hC1eq
    subst hC1C
    refine Returns.bind_some hC1 ?_
    have hv1 := sf1.soft_valid hv
    have ha1 := sf1.soft_acyclic ha
    have hnreach : ¬ Reach s1 A B := by
      intro h
      have h' := (sf1.soft_reach A B).mp h
      have := Reach.wsOf_eq hl hpw h'
      rw [hBws, hAw] at this
      exact hne (Option.some.inj this).symm
    have h2 : Returns (fun fuel =>
        if C1.pending.fullscreen_mode = FULLSCREEN_WORKSPACE then
          container_fullscreen_disable fuel s1 A else some s1)
        (fun s2 => Soft s s2 ∧ s2.modeOf A = some FULLSCREEN_NONE ∧ s2.con B = s.con B ∧
          s2.fsOf wB = some B) := by
      by_cases hws : C1.pending.fullscreen_mode = FULLSCREEN_WORKSPACE
      · simp only [hws, if_true]
        refine (fullscreen_disable_spec hv1 ha1 hC1 (by rw [hws]; decide)).returns_mono ?_
        intro s2 h2
        refine ⟨sf1.soft_trans h2.soft, h2.mode_self, ?_, ?_⟩
        · rw [h2.con_rest B ?_, hcon1 B hgB]
          rintro (h | ⟨-, h⟩)
          · exact hAB h.symm
          · exact hnreach h
        · rw [h2.fsOf, hfs1]
          have : ¬ (C1.pending.workspace = some wB) := by
            rw [← wsOf_of_con hC, hAw]
            intro h; exact hne (Option.some.inj h)
          simp [this, hBw]
      · simp only [hws, if_false]
        refine Returns.of_some rfl ⟨sf1, ?_, hcon1 B hgB, by rw [hfs1]; exact hBw⟩
        rw [modeOf_of_con hC1]
        cases hmC : C1.pending.fullscreen_mode with
        | FULLSCREEN_NONE => rfl
        | FULLSCREEN_WORKSPACE => exact absurd hmC hws
        | FULLSCREEN_GLOBAL => exact absurd hmC hCm
    refine Returns.bind h2 ?_
    rintro s2 ⟨sf2, hmA2, hB2, hfsB2⟩
    obtain ⟨C2, hC2, -⟩ := sf2.soft_con_some hC
    have hC2m : C2.pending.fullscreen_mode = FULLSCREEN_NONE := by
      rw [modeOf_of_con hC2] at hmA2; exact Option.some.inj hmA2
    obtain ⟨t, ht, hp⟩ := fullscreen_global_spec (sf2.soft_valid hv) hC2 hC2m
    refine Returns.of_some ht ⟨?_, hp.fullscreen_global, ?_, ?_, ?_⟩
    · rw [modeOf_of_con hp.con_self]
    · unfold State.modeOf
      rw [hp.con_rest B (Ne.symm hAB), hB2]
      exact hBm
    · unfold State.fsOf
      rw [hp.ws]
      exact hfsB2
    · rw [hp.con_rest B (Ne.symm hAB), hB2]

theorem WsOnly.wsonly_refl (s : State) : WsOnly s s := ⟨fun _ => rfl, rfl⟩

theorem WsOnly.wsonly_trans {s t u : State} (h1 : WsOnly s t) (h2 : WsOnly t u) : WsOnly s u :=
  ⟨fun x => (h2.con_nows x).trans (h1.con_nows x), h2.rest.trans h1.rest⟩

theorem WsOnly.wsonly_updCon (s : State) (c : Nat) (w : Option Nat) :
    WsOnly s (s.updCon c (fun C => C.withWs w)) := by
  refine ⟨fun x => ?_, ?_⟩
  · by_cases h : x = c
    · subst h
      cases hx : s.con x <;> simp [hx, sway_container.withWs, sway_container.nows]
    · simp [h]
  · unfold State.updCon
    split <;> rfl

theorem WsOnly.wsonly_proj {s t : State} (h : WsOnly s t) {α : Type}
    (g : sway_container → α) (hg : ∀ C, g C.nows = g C) (x : Nat) :
    (t.con x).map g = (s.con x).map g := by
  have := congrArg (Option.map g) (h.con_nows x)
  simpa [Option.map_map, Function.comp_def, hg] using this

theorem WsOnly.wsonly_live {s t : State} (h : WsOnly s t) (x : Nat) :
    (t.con x).isSome = (s.con x).isSome := by
  have := congrArg Option.isSome (h.con_nows x)
  simpa using this

theorem WsOnly.wsonly_parentOf {s t : State} (h : WsOnly s t) (x : Nat) :
    t.parentOf x = s.parentOf x := by
  have := h.wsonly_proj (fun C => C.pending.parent) (fun _ => rfl) x
  cases h1 : t.con x <;> cases h2 : s.con x <;> simp_all [State.parentOf]

theorem WsOnly.wsonly_childrenOf {s t : State} (h : WsOnly s t) (x : Nat) :
    t.childrenOf x = s.childrenOf x := by
  have := h.wsonly_proj (fun C => C.pending.children) (fun _ => rfl) x
  cases h1 : t.con x <;> cases h2 : s.con x <;> simp_all [State.childrenOf]

theorem WsOnly.wsonly_kids {s t : State} (h : WsOnly s t) (x : Nat) : t.kids x = s.kids x := by
  simp [State.kids, h.wsonly_childrenOf]

theorem WsOnly.wsonly_reach {s t : State} (h : WsOnly s t) (c x : Nat) :
    Reach t c x ↔ Reach s c x := by
  have : (fun a b => b ∈ t.kids a) = (fun a b => b ∈ s.kids a) := by
    funext a b; rw [h.wsonly_kids]
  unfold Reach
  rw [this]

theorem WsOnly.wsonly_con_some {s t : State} (h : WsOnly s t) {x : Nat}
    {C : sway_container} (hx : s.con x = some C) :
    ∃ D, t.con x = some D ∧ D.nows = C.nows := by
  have := h.con_nows x
  rw [hx] at this
  cases ht : t.con x with
  | none => simp [ht] at this
  | some D => exact ⟨D, rfl, by simpa [ht] using this⟩

theorem nows_eq_withWs {C D : sway_container} (h : D.nows = C.nows) :
    D = C.withWs D.pending.workspace := by
  have h1 : D = D.nows.withWs D.pending.workspace := rfl
  rw [h1, h]
  rfl

/-- A container of `t` is the container of `s` with the workspace pointer it has
in `t`. -/
theorem WsOnly.con_eq {s t : State} (h : WsOnly s t) (x : Nat) :
    t.con x = (s.con x).map (fun C => C.withWs (t.wsOf x)) := by
  cases hs : s.con x with
  | none =>
    have := h.wsonly_live x
    rw [hs] at this
    cases ht : t.con x with
    | none => rfl
    | some D => simp [ht] at this
  | some C =>
    obtain ⟨D, hD, hg⟩ := h.wsonly_con_some hs
    rw [hD, wsOf_of_con hD]
    simp only [Option.map_some']
    exact congrArg some (nows_eq_withWs hg)

/-! ## The workspace cascade -/

theorem SubtreeOk.kid {s : State} {c y : Nat} (h : SubtreeOk s c) (hy : y ∈ s.kids c) :
    SubtreeOk s y :=
  fun p z hp hz => h p z (Reach.head hy hp) hz

theorem SubtreeOk.wsOnly {s t : State} {c : Nat} (h : SubtreeOk s c) (hst : WsOnly s t) :
    SubtreeOk t c := by
  intro p y hp hy
  rw [hst.wsonly_reach] at hp
  rw [hst.wsonly_kids] at hy
  rw [hst.wsonly_live, hst.wsonly_parentOf]
  exact h p y hp hy

theorem set_workspace_spec {s : State} {y c : Nat} {Y P : sway_container}
    (hY : s.con y = some Y) (hp : Y.pending.parent = some c) (hP : s.con c = some P) :
    set_workspace s y = some (s.updCon y (fun C => C.withWs P.pending.workspace)) := by
  unfold set_workspace
  simp only [hY, hp, hP, Option.bind_eq_bind, Option.some_bind]
  exact modCon_some _ hY

theorem reach_cases {s : State} {c x : Nat} (h : Reach s c x) : x = c ∨ Below s c x := by
  rcases Relation.ReflTransGen.cases_head h with h | ⟨y, hy, hyx⟩
  · exact Or.inl h.symm
  · exact Or.inr ⟨y, hy, hyx⟩

theorem Below.below_reach {s : State} {c x : Nat} (h : Below s c x) : Reach s c x := by
  obtain ⟨y, hy, hyx⟩ := h
  exact Reach.head hy hyx

theorem Below.irrefl {s : State} {r : Nat → Nat} (hr : ∀ p c, c ∈ s.kids p → r c < r p)
    (c : Nat) : ¬ Below s c c := by
  rintro ⟨y, hy, hyc⟩
  have := Reach.rank_le hr hyc
  have := hr c y hy
  omega

theorem for_each_child_spec (r : Nat → Nat) :
    ∀ n (s : State) (c : Nat), (∀ p y, y ∈ s.kids p → r y < r p) → SubtreeOk s c →
      r c < n → (s.con c).isSome →
      Returns (fun fuel => container_for_each_child fuel set_workspace s c)
        (Cascaded s (s.wsOf c) (Below s c)) := by
  intro n
  induction n with
  | zero => intro s c _ _ hlt; omega
  | succ n ih =>
    intro s c hr hok hlt hlive
    obtain ⟨C, hC⟩ := Option.isSome_iff_exists.mp hlive
    refine Returns.succ (fun fuel => rfl) ?_
    simp only [container_for_each_child, hC, Option.bind_eq_bind, Option.some_bind]
    cases hch : C.pending.children with
    | none =>
      simp only [Option.pure_def]
      have hk : s.kids c = [] := by simp [State.kids, State.childrenOf, hC, hch]
      refine Returns.of_some rfl ⟨WsOnly.wsonly_refl s, ?_, fun _ _ => rfl⟩
      rintro x ⟨y, hy, -⟩
      rw [hk] at hy
      exact absurd hy (List.not_mem_nil _)
    | some l =>
      simp only []
      have hk : s.kids c = l := kids_of_con hC hch
      -- the loop, for any region already done
      have loop : ∀ (l' : List Nat), (∀ y ∈ l', y ∈ s.kids c) →
          ∀ (D : Nat → Prop) (s2 : State), (∀ x, D x → Below s c x) →
            Cascaded s (s.wsOf c) D s2 →
            Returns (fun fuel => l'.foldlM (fun st child =>
                (set_workspace st child).bind fun st =>
                  container_for_each_child fuel set_workspace st child) s2)
              (Cascaded s (s.wsOf c) (fun x => D x ∨ ∃ y, y ∈ l' ∧ Reach s y x)) := by
        intro l'
        induction l' with
        | nil =>
          intro _ D s2 _ hc2
          simp only [List.foldlM_nil]
          refine Returns.of_some rfl ⟨hc2.only, ?_, ?_⟩
          · rintro x (hx | ⟨y, hy, -⟩)
            · exact hc2.inside x hx
            · exact absurd hy (List.not_mem_nil _)
          · intro x hx
            exact hc2.outside x (fun h => hx (Or.inl h))
        | cons y l' ihl =>
          intro hl' D s2 hD hc2
          simp only [List.foldlM_cons, Option.bind_eq_bind]
          have hy : y ∈ s.kids c := hl' y (List.mem_cons_self _ _)
          obtain ⟨hylive, hyp⟩ := hok c y (Reach.reach_refl s c) hy
          -- the parent is untouched so far
          have hc_out : ¬ D c := fun h => Below.irrefl hr c (hD c h)
          have hC2 : s2.con c = some C := by rw [hc2.outside c hc_out]; exact hC
          obtain ⟨Y, hY⟩ := Option.isSome_iff_exists.mp hylive
          obtain ⟨Y2, hY2, hYn⟩ := hc2.only.wsonly_con_some hY
          have hY2p : Y2.pending.parent = some c := by
            have := hc2.only.wsonly_parentOf y
            rw [parentOf_of_con hY2, hyp] at this
            exact this
          have hsw := set_workspace_spec hY2 hY2p hC2
          have hCw : C.pending.workspace = s.wsOf c := (wsOf_of_con hC).symm
          rw [hCw] at hsw
          simp only [hsw, Option.some_bind]
          have o3 : WsOnly s2 (s2.updCon y (fun C => C.withWs (s.wsOf c))) :=
            WsOnly.wsonly_updCon s2 y _
          have hws3 : (s2.updCon y (fun C => C.withWs (s.wsOf c))).wsOf y = s.wsOf c := by
            simp [State.wsOf, hY2, sway_container.withWs]
          revert o3 hws3
          have hcon3 : ∀ x, x ≠ y →
              (s2.updCon y (fun C => C.withWs (s.wsOf c))).con x = s2.con x := by
            intro x hx; simp [hx]
          revert hcon3
          generalize (s2.updCon y (fun C => C.withWs (s.wsOf c))) = s3
          intro hcon3 o3 hws3
          have o03 : WsOnly s s3 := hc2.only.wsonly_trans o3
          have hr3 : ∀ p y, y ∈ s3.kids p → r y < r p := fun p z hz =>
            hr p z (by rw [← o03.wsonly_kids]; exact hz)
          have hok3 : SubtreeOk s3 y := (hok.kid hy).wsOnly o03
          have hlive3 : (s3.con y).isSome := by rw [o03.wsonly_live]; exact hylive
          have step := ih s3 y hr3 hok3 (by have := hr c y hy; omega) hlive3
          refine Returns.bind step ?_
          intro s4 hc4
          have hbelow : ∀ x, Below s3 y x ↔ Below s y x := by
            intro x
            unfold Below
            constructor
            · rintro ⟨z, hz, hzx⟩
              exact ⟨z, by rw [← o03.wsonly_kids]; exact hz, (o03.wsonly_reach z x).mp hzx⟩
            · rintro ⟨z, hz, hzx⟩
              exact ⟨z, by rw [o03.wsonly_kids]; exact hz, (o03.wsonly_reach z x).mpr hzx⟩
          have hc4' : Cascaded s (s.wsOf c) (fun x => D x ∨ Reach s y x) s4 := by
            refine ⟨o03.wsonly_trans hc4.only, ?_, ?_⟩
            · intro x hx
              by_cases hby : Below s y x
              · rw [hc4.inside x ((hbelow x).mpr hby), hws3]
              · have h4 : s4.con x = s3.con x :=
                  hc4.outside x (fun h => hby ((hbelow x).mp h))
                by_cases hxy : x = y
                · subst hxy
                  unfold State.wsOf at hws3 ⊢
                  rw [h4]; exact hws3
                · have hDx : D x := by
                    rcases hx with h | h
                    · exact h
                    · rcases reach_cases h with h | h
                      · exact absurd h hxy
                      · exact absurd h hby
                  unfold State.wsOf
                  rw [h4, hcon3 x hxy]
                  exact hc2.inside x hDx
            · intro x hx
              have hxy : x ≠ y := fun h => hx (Or.inr (h ▸ Reach.reach_refl s y))
              have hby : ¬ Below s y x := fun h => hx (Or.inr h.below_reach)
              rw [hc4.outside x (fun h => hby ((hbelow x).mp h)), hcon3 x hxy]
              exact hc2.outside x (fun h => hx (Or.inl h))
          have hD' : ∀ x, (D x ∨ Reach s y x) → Below s c x := by
            rintro x (h | h)
            · exact hD x h
            · exact ⟨y, hy, h⟩
          refine (ihl (fun z hz => hl' z (List.mem_cons_of_mem _ hz)) _ s4 hD' hc4').returns_mono ?_
          intro t ht
          refine ⟨ht.only, ?_, ?_⟩
          · rintro x (hx | ⟨z, hz, hzx⟩)
            · exact ht.inside x (Or.inl (Or.inl hx))
            · rcases List.mem_cons.mp hz with h | h
              · subst h; exact ht.inside x (Or.inl (Or.inr hzx))
              · exact ht.inside x (Or.inr ⟨z, h, hzx⟩)
          · intro x hx
            refine ht.outside x ?_
            rintro ((h | h) | ⟨z, hz, hzx⟩)
            · exact hx (Or.inl h)
            · exact hx (Or.inr ⟨y, List.mem_cons_self _ _, h⟩)
            · exact hx (Or.inr ⟨z, List.mem_cons_of_mem _ hz, hzx⟩)
      refine (loop l (fun y hy => hk ▸ hy) (fun _ => False) s (fun _ h => h.elim)
        ⟨WsOnly.wsonly_refl s, fun _ h => h.elim, fun _ _ => rfl⟩).returns_mono ?_
      intro t ht
      refine ⟨ht.only, ?_, ?_⟩
      · rintro x ⟨y, hy, hyx⟩
        exact ht.inside x (Or.inr ⟨y, hk ▸ hy, hyx⟩)
      · intro x hx
        refine ht.outside x ?_
        rintro (h | ⟨y, hy, hyx⟩)
        · exact h
        · exact hx ⟨y, hk ▸ hy, hyx⟩

/-! ## Structural writes -/

theorem live_setLinks (s : State) (c : Nat) (a b : Option Nat) (x : Nat) :
    ((s.setLinks c a b).con x).isSome = (s.con x).isSome := by
  unfold State.setLinks
  by_cases h : x = c
  · subst h; cases hx : s.con x <;> simp [hx]
  · simp [h]

theorem parentOf_setLinks (s : State) (c : Nat) (a b : Option Nat) (x : Nat)
    (hc : (s.con c).isSome) :
    (s.setLinks c a b).parentOf x = if x = c then a else s.parentOf x := by
  obtain ⟨C, hC⟩ := Option.isSome_iff_exists.mp hc
  unfold State.setLinks State.parentOf
  by_cases h : x = c
  · subst h; simp [hC]
  · simp [h]

theorem wsOf_setLinks (s : State) (c : Nat) (a b : Option Nat) (x : Nat)
    (hc : (s.con c).isSome) :
    (s.setLinks c a b).wsOf x = if x = c then b else s.wsOf x := by
  obtain ⟨C, hC⟩ := Option.isSome_iff_exists.mp hc
  unfold State.setLinks State.wsOf
  by_cases h : x = c
  · subst h; simp [hC]
  · simp [h]

theorem childrenOf_setLinks (s : State) (c : Nat) (a b : Option Nat) (x : Nat) :
    (s.setLinks c a b).childrenOf x = s.childrenOf x := by
  unfold State.setLinks State.childrenOf
  by_cases h : x = c
  · subst h; cases hx : s.con x <;> simp [hx]
  · simp [h]

theorem kids_setLinks (s : State) (c : Nat) (a b : Option Nat) (x : Nat) :
    (s.setLinks c a b).kids x = s.kids x := by
  simp [State.kids, childrenOf_setLinks]

theorem viewOf_setLinks (s : State) (c : Nat) (a b : Option Nat) (x : Nat) :
    (s.setLinks c a b).viewOf x = s.viewOf x := by
  unfold State.setLinks State.viewOf
  by_cases h : x = c
  · subst h; cases hx : s.con x <;> simp [hx]
  · simp [h]

theorem modeOf_setLinks (s : State) (c : Nat) (a b : Option Nat) (x : Nat) :
    (s.setLinks c a b).modeOf x = s.modeOf x := by
  unfold State.setLinks State.modeOf
  by_cases h : x = c
  · subst h; cases hx : s.con x <;> simp [hx]
  · simp [h]

theorem ws_setLinks (s : State) (c : Nat) (a b : Option Nat) (w : Nat) :
    (s.setLinks c a b).ws w = s.ws w := by
  simp [State.setLinks]

theorem live_setChildren (s : State) (p : Nat) (l : List Nat) (x : Nat) :
    ((s.setChildren p l).con x).isSome = (s.con x).isSome := by
  unfold State.setChildren
  by_cases h : x = p
  · subst h; cases hx : s.con x <;> simp [hx]
  · simp [h]

theorem parentOf_setChildren (s : State) (p : Nat) (l : List Nat) (x : Nat) :
    (s.setChildren p l).parentOf x = s.parentOf x := by
  unfold State.setChildren State.parentOf
  by_cases h : x = p
  · subst h; cases hx : s.con x <;> simp [hx]
  · simp [h]

theorem wsOf_setChildren (s : State) (p : Nat) (l : List Nat) (x : Nat) :
    (s.setChildren p l).wsOf x = s.wsOf x := by
  unfold State.setChildren State.wsOf
  by_cases h : x = p
  · subst h; cases hx : s.con x <;> simp [hx]
  · simp [h]

theorem viewOf_setChildren (s : State) (p : Nat) (l : List Nat) (x : Nat) :
    (s.setChildren p l).viewOf x = s.viewOf x := by
  unfold State.setChildren State.viewOf
  by_cases h : x = p
  · subst h; cases hx : s.con x <;> simp [hx]
  · simp [h]

theorem modeOf_setChildren (s : State) (p : Nat) (l : List Nat) (x : Nat) :
    (s.setChildren p l).modeOf x = s.modeOf x := by
  unfold State.setChildren State.modeOf
  by_cases h : x = p
  · subst h; cases hx : s.con x <;> simp [hx]
  · simp [h]

theorem childrenOf_setChildren (s : State) (p : Nat) (l : List Nat) (x : Nat)
    (hp : (s.con p).isSome) :
    (s.setChildren p l).childrenOf x = if x = p then some l else s.childrenOf x := by
  obtain ⟨P, hP⟩ := Option.isSome_iff_exists.mp hp
  unfold State.setChildren State.childrenOf
  by_cases h : x = p
  · subst h; simp [hP]
  · simp [h]

theorem kids_setChildren (s : State) (p : Nat) (l : List Nat) (x : Nat)
    (hp : (s.con p).isSome) :
    (s.setChildren p l).kids x = if x = p then l else s.kids x := by
  unfold State.kids
  rw [childrenOf_setChildren s p l x hp]
  split <;> rfl

theorem ws_setChildren (s : State) (p : Nat) (l : List Nat) (w : Nat) :
    (s.setChildren p l).ws w = s.ws w := by
  simp [State.setChildren]

theorem writeList_children {s : State} {p : Nat} (l : List Nat) (hp : (s.con p).isSome) :
    s.writeList (.children p) l = some (s.setChildren p l) := by
  obtain ⟨P, hP⟩ := Option.isSome_iff_exists.mp hp
  exact modCon_some _ hP

theorem modCon_setLinks {s : State} {c : Nat} (a b : Option Nat) (hc : (s.con c).isSome) :
    s.modCon c (fun C => { C with pending := { C.pending with parent := a, workspace := b } })
      = some (s.setLinks c a b) := by
  obtain ⟨C, hC⟩ := Option.isSome_iff_exists.mp hc
  exact modCon_some _ hC

/-! ## Lists -/

theorem list_find_of_mem {l : List Nat} {x : Nat} (h : x ∈ l) :
    list_find l x = (l.indexOf x : Int) := by
  simp [list_find, h]

theorem list_find_of_not_mem {l : List Nat} {x : Nat} (h : x ∉ l) : list_find l x = -1 := by
  simp [list_find, h]

theorem list_find_ne_neg_one {l : List Nat} {x : Nat} : list_find l x ≠ -1 ↔ x ∈ l := by
  unfold list_find
  split
  · rename_i h
    simp [h]
  · rename_i h
    simp [h]

theorem eraseIdx_indexOf {l : List Nat} {x : Nat} (h : x ∈ l) :
    l.eraseIdx (l.indexOf x) = l.erase x := by
  induction l with
  | nil => simp at h
  | cons a l ih =>
    by_cases hax : a = x
    · subst hax; simp
    · have hx : x ∈ l := by
        rcases List.mem_cons.mp h with h | h
        · exact absurd h.symm hax
        · exact h
      have hne : ¬ (a == x) = true := by simpa using hax
      simp [List.indexOf_cons, hne, List.erase_cons, ih hx]

theorem list_del_find {l : List Nat} {x : Nat} (h : x ∈ l) :
    list_del l (list_find l x) = some (l.erase x) := by
  unfold list_del
  rw [list_find_of_mem h]
  have : l.indexOf x < l.length := List.indexOf_lt_length.mpr h
  simp [this, eraseIdx_indexOf h]

/-! ## The representation update -/

theorem child_identifier_defined {s : State} (hv : Valid s) {y : Nat}
    (hy : (s.con y).isSome) : ∃ r, child_identifier s y = some r := by
  obtain ⟨Y, hY⟩ := Option.isSome_iff_exists.mp hy
  unfold child_identifier
  simp only [hY, Option.bind_eq_bind, Option.some_bind]
  cases hview : Y.view with
  | none => exact ⟨_, rfl⟩
  | some v =>
    obtain ⟨V, hV⟩ := Option.isSome_iff_exists.mp (hv.view y Y hY v hview)
    simp only [hV, Option.some_bind]
    cases V.view_class <;> exact ⟨_, rfl⟩

theorem build_representation_loop_defined {s : State} (hv : Valid s) :
    ∀ (l : List Nat) (i : Nat) (acc : Nat × String), (∀ y ∈ l, (s.con y).isSome) →
      ∃ r, build_representation_loop s l i acc = some r := by
  intro l
  induction l with
  | nil => intro i acc _; exact ⟨acc, rfl⟩
  | cons y l ih =>
    intro i acc hl
    obtain ⟨len, buffer⟩ := acc
    obtain ⟨r, hr⟩ := child_identifier_defined hv (hl y (List.mem_cons_self _ _))
    have hl2 : ∀ z ∈ l, (s.con z).isSome := fun z hz => hl z (List.mem_cons_of_mem _ hz)
    unfold build_representation_loop
    simp only [hr, Option.bind_eq_bind, Option.some_bind]
    cases r with
    | none => exact ih _ _ hl2
    | some identifier => exact ih _ _ hl2

theorem build_representation_defined {s : State} (hv : Valid s)
    (layout : sway_container_layout) {l : List Nat} (hl : ∀ y ∈ l, (s.con y).isSome) :
    ∃ r, container_build_representation s layout l = some r := by
  unfold container_build_representation
  have key : ∀ acc, ∃ r, ((build_representation_loop s l 0 acc).bind
      fun d => pure (d.1 + 1, d.2 ++ "]")) = some r := by
    intro acc
    obtain ⟨res, hr⟩ := build_representation_loop_defined hv l 0 acc hl
    rw [hr]
    exact ⟨_, rfl⟩
  exact key _

theorem dirtyCon_spec {s : State} {c : Nat} (hc : (s.con c).isSome) :
    ∃ t, s.dirtyCon c = some t ∧ Soft s t := by
  obtain ⟨C, hC⟩ := Option.isSome_iff_exists.mp hc
  refine ⟨_, modCon_some _ hC, Soft.soft_updCon s c ?_⟩
  intro _; rfl

theorem dirtyWs_spec {s : State} {w : Nat} (hw : (s.ws w).isSome) :
    ∃ t, s.dirtyWs w = some t ∧ Soft s t := by
  obtain ⟨W, hW⟩ := Option.isSome_iff_exists.mp hw
  refine ⟨_, modWs_some _ hW, Soft.soft_updWs s w ?_⟩
  intro _; rfl

/-! ## Skeleton -/

theorem Skel.skel_refl (s : State) : Skel s s :=
  ⟨fun _ => rfl, fun _ => rfl, fun _ => rfl, fun _ => rfl, fun _ => rfl, fun _ => rfl,
    rfl, rfl, rfl⟩

theorem Skel.skel_trans {s t u : State} (h1 : Skel s t) (h2 : Skel t u) : Skel s u :=
  ⟨fun x => (h2.live x).trans (h1.live x), fun w => (h2.wlive w).trans (h1.wlive w),
    fun x => (h2.viewOf x).trans (h1.viewOf x), fun x => (h2.split x).trans (h1.split x),
    fun x => (h2.scratch x).trans (h1.scratch x), fun w => (h2.output w).trans (h1.output w),
    h2.views.trans h1.views, h2.outputs.trans h1.outputs,
    h2.root_outputs.trans h1.root_outputs⟩

theorem Soft.soft_skel {s t : State} (h : Soft s t) : Skel s t where
  live := h.soft_live
  wlive := h.wlive
  viewOf := h.viewOf
  split := fun x => by rw [h.soft_childrenOf]
  scratch := fun x => h.soft_proj (·.scratchpad) (fun _ => rfl) x
  output := fun w => h.wproj (·.output) (fun _ => rfl) w
  views := h.views
  outputs := h.outputs
  root_outputs := h.root_outputs

theorem WsOnly.wsonly_ws {s t : State} (h : WsOnly s t) (w : Nat) : t.ws w = s.ws w := by
  have := congrArg State.workspaces h.rest
  simp only at this
  simp [State.ws, this]

theorem WsOnly.wsonly_skel {s t : State} (h : WsOnly s t) : Skel s t where
  live := h.wsonly_live
  wlive := fun w => by rw [h.wsonly_ws]
  viewOf := fun x => by
    have := h.wsonly_proj (·.view) (fun _ => rfl) x
    unfold State.viewOf
    cases ht : t.con x <;> cases hs : s.con x <;> simp_all
  split := fun x => by rw [h.wsonly_childrenOf]
  scratch := fun x => h.wsonly_proj (·.scratchpad) (fun _ => rfl) x
  output := fun w => by rw [h.wsonly_ws]
  views := by have := congrArg State.views h.rest; exact this
  outputs := by have := congrArg State.outputs h.rest; exact this
  root_outputs := by have := congrArg State.root_outputs h.rest; exact this

theorem Skel.setLinks (s : State) (c : Nat) (a b : Option Nat) : Skel s (s.setLinks c a b) where
  live := live_setLinks s c a b
  wlive := fun w => by rw [ws_setLinks]
  viewOf := viewOf_setLinks s c a b
  split := fun x => by rw [childrenOf_setLinks]
  scratch := fun x => by
    unfold State.setLinks
    by_cases h : x = c
    · subst h; cases hx : s.con x <;> simp [hx]
    · simp [h]
  output := fun w => by rw [ws_setLinks]
  views := by simp [State.setLinks]
  outputs := by simp [State.setLinks]
  root_outputs := by simp [State.setLinks]

theorem Skel.setChildren (s : State) (p : Nat) (l : List Nat)
    (hp : (s.childrenOf p).isSome) : Skel s (s.setChildren p l) where
  live := live_setChildren s p l
  wlive := fun w => by rw [ws_setChildren]
  viewOf := viewOf_setChildren s p l
  split := fun x => by
    have hlive : (s.con p).isSome := by
      cases h : s.con p with
      | none => simp [State.childrenOf, h] at hp
      | some _ => rfl
    rw [childrenOf_setChildren s p l x hlive]
    by_cases h : x = p
    · subst h; simp [hp]
    · simp [h]
  scratch := fun x => by
    unfold State.setChildren
    by_cases h : x = p
    · subst h; cases hx : s.con x <;> simp [hx]
    · simp [h]
  output := fun w => by rw [ws_setChildren]
  views := by simp [State.setChildren]
  outputs := by simp [State.setChildren]
  root_outputs := by simp [State.setChildren]

theorem Skel.skel_updWs (s : State) (w : Nat) {f : sway_workspace → sway_workspace}
    (hf : ∀ W, (f W).output = W.output) : Skel s (s.updWs w f) where
  live := fun x => by simp
  wlive := fun v => by
    by_cases h : v = w
    · subst h; cases hv : s.ws v <;> simp [hv]
    · simp [h]
  viewOf := fun x => by simp [State.viewOf]
  split := fun x => by simp [State.childrenOf]
  scratch := fun x => by simp
  output := fun v => by
    by_cases h : v = w
    · subst h; cases hv : s.ws v <;> simp [hv, hf]
    · simp [h]
  views := by simp
  outputs := by simp
  root_outputs := by simp

/-- Validity of the pointers carries over to a state with the same skeleton whose
links point to valid objects. -/
theorem Skel.skel_valid {s t : State} (h : Skel s t) (hv : Valid s)
    (hws : ∀ c w, t.wsOf c = some w → (s.ws w).isSome)
    (hk : ∀ p c, c ∈ t.kids p → (s.con c).isSome)
    (hp : ∀ c p, t.parentOf c = some p → (s.con p).isSome) : Valid t where
  view := fun c C hC v hview => by
    have h1 : t.viewOf c = some v := by simp [State.viewOf, hC, hview]
    rw [h.viewOf] at h1
    cases hc : s.con c with
    | none => simp [State.viewOf, hc] at h1
    | some C0 =>
      have h2 : C0.view = some v := by simpa [State.viewOf, hc] using h1
      have := hv.view c C0 hc v h2
      simpa [State.vw, h.views] using this
  ws := fun c w hw => by rw [h.wlive]; exact hws c w hw
  kids := fun p c hc => by rw [h.live]; exact hk p c hc
  parent := fun c p hc => by rw [h.live]; exact hp c p hc
  split := fun c C hC hview => by
    have h1 : t.viewOf c = none := by simp [State.viewOf, hC, hview]
    rw [h.viewOf] at h1
    have hl : (s.con c).isSome := by rw [← h.live, hC]; rfl
    obtain ⟨C0, hC0⟩ := Option.isSome_iff_exists.mp hl
    have h2 : C0.view = none := by simpa [State.viewOf, hC0] using h1
    have h3 := hv.split c C0 hC0 h2
    have h4 : (s.childrenOf c).isSome := by simpa [State.childrenOf, hC0] using h3
    rw [← h.split] at h4
    simpa [State.childrenOf, hC] using h4
  output := fun w W hW => by
    have h1 := h.output w
    rw [hW] at h1
    cases hw : s.ws w with
    | none => simp [hw] at h1
    | some W0 =>
      rw [hw] at h1
      have h2 : W.output = W0.output := by simpa using h1
      obtain ⟨o, ho, hlive⟩ := hv.output w W0 hw
      exact ⟨o, by rw [h2, ho], by simpa [State.out, h.outputs] using hlive⟩
  root_outputs := fun o ho => by
    rw [h.root_outputs] at ho
    simpa [State.out, h.outputs] using hv.root_outputs o ho

/-! ## Kept -/

theorem Kept.kept_refl (s : State) : Kept s s := ⟨Soft.soft_refl s, fun _ => rfl, fun _ _ h => h⟩

theorem Kept.kept_trans {s t u : State} (h1 : Kept s t) (h2 : Kept t u) : Kept s u :=
  ⟨h1.soft.soft_trans h2.soft, fun x => (h2.pending x).trans (h1.pending x),
    fun w f h => h1.fsOf w f (h2.fsOf w f h)⟩

theorem Kept.kept_emit (s : State) (e : Event) : Kept s (s.emit e) :=
  ⟨Soft.soft_emit s e, fun _ => rfl, fun _ _ h => h⟩

theorem Kept.kept_modeOf {s t : State} (h : Kept s t) (x : Nat) : t.modeOf x = s.modeOf x := by
  have := congrArg (fun o => o.map (·.fullscreen_mode)) (h.pending x)
  simpa [State.modeOf, Option.map_map, Function.comp_def] using this

theorem Kept.kept_wsOf {s t : State} (h : Kept s t) (x : Nat) : t.wsOf x = s.wsOf x :=
  h.soft.soft_wsOf x

theorem Kept.kept_fsLive {s t : State} (h : Kept s t) (hf : FsLive s) : FsLive t :=
  fun w f hw => by rw [h.soft.soft_live]; exact hf w f (h.fsOf w f hw)

theorem Kept.kept_updCon (s : State) (c : Nat) {f : sway_container → sway_container}
    (hf : ∀ C, (f C).core = C.core) (hp : ∀ C, (f C).pending = C.pending) :
    Kept s (s.updCon c f) where
  soft := Soft.soft_updCon s c hf
  pending := fun x => by
    by_cases h : x = c
    · subst h; cases hx : s.con x <;> simp [hx, hp]
    · simp [h]
  fsOf := fun w f h => by simpa [State.fsOf] using h

theorem Kept.kept_updWs (s : State) (w : Nat) {f : sway_workspace → sway_workspace}
    (hf : ∀ W, (f W).core = W.core)
    (hfs : ∀ W, (f W).fullscreen = W.fullscreen ∨ (f W).fullscreen = none) :
    Kept s (s.updWs w f) where
  soft := Soft.soft_updWs s w hf
  pending := fun x => by simp
  fsOf := fun v g h => by
    unfold State.fsOf at h ⊢
    by_cases hv : v = w
    · subst hv
      cases hw : s.ws v with
      | none => simp [hw] at h
      | some W =>
        simp only [ws_updWs, hw, if_true, Option.map_some', Option.some_bind] at h
        rcases hfs W with h1 | h1
        · simpa [h1] using h
        · simp [h1] at h
    · simpa [hv] using h

theorem Kept.kept_set_fullscreen_global (s : State) (g : Option Nat) :
    Kept s { s with fullscreen_global := g } :=
  ⟨Soft.soft_set_fullscreen_global s g, fun _ => rfl, fun _ _ h => h⟩

/-! ## The representation update keeps the tree -/

/-- The update walks up the parent pointers; `r` bounds its length. -/
theorem update_representation_spec (r : Nat → Nat) (K : Nat) (hK : ∀ x, r x ≤ K) :
    ∀ n (s : State) (c : Nat), Valid s → (∀ x q, s.parentOf x = some q → r x < r q) →
      K - r c < n → (s.con c).isSome →
      Returns (fun fuel => container_update_representation fuel s c) (Kept s) := by
  intro n
  induction n with
  | zero => intro s c _ _ hlt; omega
  | succ n ih =>
    intro s c hv hr hlt hlive
    obtain ⟨C, hC⟩ := Option.isSome_iff_exists.mp hlive
    refine Returns.succ (fun fuel => rfl) ?_
    simp only [container_update_representation, hC, Option.bind_eq_bind, Option.some_bind]
    -- the title step
    have step : ∃ s1, (if C.view.isNone = true then
          (C.pending.children.bind fun children =>
            (container_build_representation s C.pending.layout children).bind fun x =>
              (s.modCon c fun C => { C with formatted_title := some x.2, title_height := 0 }).bind
                fun s => pure (s.emit (.update_title_textures c)))
        else pure s) = some s1 ∧ Kept s s1 := by
      by_cases hview : C.view.isNone = true
      · simp only [hview, if_true]
        have hnone : C.view = none := Option.isNone_iff_eq_none.mp hview
        obtain ⟨l, hl⟩ := Option.isSome_iff_exists.mp (hv.split c C hC hnone)
        have hkids : ∀ y ∈ l, (s.con y).isSome := by
          intro y hy
          refine hv.kids c y ?_
          simp [State.kids, State.childrenOf, hC, hl, hy]
        obtain ⟨res, hres⟩ := build_representation_defined hv C.pending.layout hkids
        simp only [hl, hres, Option.some_bind, modCon_some _ hC, Option.pure_def]
        refine ⟨_, rfl, (Kept.kept_updCon s c ?_ ?_).kept_trans (Kept.kept_emit _ _)⟩
        · intro _; rfl
        · intro _; rfl
      · simp only [hview, Bool.false_eq_true, if_false, Option.pure_def]
        exact ⟨s, rfl, Kept.kept_refl s⟩
    obtain ⟨s1, hs1, soft1⟩ := step
    have hs1' := hs1
    simp only [Option.bind_eq_bind] at hs1' ⊢
    cases hp : C.pending.parent with
    | some p =>
      have hpar : s.parentOf c = some p := by simp [State.parentOf, hC, hp]
      have hlt2 := hr c p hpar
      have hrec := ih s1 p (soft1.soft.soft_valid hv)
        (fun x q hx => hr x q (by rw [← soft1.soft.soft_parentOf]; exact hx))
        (by have := hK p; omega)
        (by rw [soft1.soft.soft_live]; exact hv.parent c p hpar)
      refine Returns.congr (fun fuel => ?_) (hrec.returns_mono (fun t ht => soft1.kept_trans ht))
      rw [hs1']; rfl
    | none =>
      cases hw : C.pending.workspace with
      | some w =>
        refine Returns.congr
          (fun fuel => (?_ : _ = some (workspace_update_representation s1 w)))
          (Returns.of_some rfl (soft1.kept_trans (Kept.kept_emit _ _)))
        rw [hs1']; rfl
      | none =>
        refine Returns.congr (fun fuel => (?_ : _ = some s1)) (Returns.of_some rfl soft1)
        rw [hs1']; rfl


theorem dirtyCon_kept {s : State} {c : Nat} (hc : (s.con c).isSome) :
    ∃ t, s.dirtyCon c = some t ∧ Kept s t := by
  obtain ⟨C, hC⟩ := Option.isSome_iff_exists.mp hc
  refine ⟨_, modCon_some _ hC, Kept.kept_updCon s c ?_ ?_⟩
  · intro _; rfl
  · intro _; rfl

theorem dirtyWs_kept {s : State} {w : Nat} (hw : (s.ws w).isSome) :
    ∃ t, s.dirtyWs w = some t ∧ Kept s t := by
  obtain ⟨W, hW⟩ := Option.isSome_iff_exists.mp hw
  refine ⟨_, modWs_some _ hW, Kept.kept_updWs s w ?_ ?_⟩
  · intro _; rfl
  · intro _; exact Or.inl rfl

/-! ## Fullscreen handling after a move -/

/-- Leaving fullscreen returns and keeps the tree, whatever the mode of the
container is. -/
theorem fullscreen_disable_soft {s : State} (hv : Valid s) (ha : Acyclic s) {f : Nat}
    (hf : (s.con f).isSome) :
    Returns (fun fuel => container_fullscreen_disable fuel s f) (Soft s) := by
  obtain ⟨F, hF⟩ := Option.isSome_iff_exists.mp hf
  by_cases hm : F.pending.fullscreen_mode = FULLSCREEN_NONE
  · refine Returns.congr (fun fuel => (?_ : _ = some (s.emit
      (.assert_failed "Expected a fullscreen container")))) (Returns.of_some rfl (Soft.soft_emit _ _))
    unfold container_fullscreen_disable
    simp [hF, sway_assert, hm]
  · exact (fullscreen_disable_spec hv ha hF hm).returns_mono (fun t ht => ht.soft)

theorem handle_fullscreen_reparent_soft {s : State} (hv : Valid s) (ha : Acyclic s)
    (hfs : FsLive s) {c : Nat} (hc : (s.con c).isSome) :
    Returns (fun fuel => container_handle_fullscreen_reparent fuel s c) (Soft s) := by
  obtain ⟨C, hC⟩ := Option.isSome_iff_exists.mp hc
  unfold container_handle_fullscreen_reparent
  simp only [hC, Option.bind_eq_bind, Option.some_bind]
  cases hw : C.pending.workspace with
  | none => exact Returns.of_some rfl (Soft.soft_refl s)
  | some w =>
    simp only []
    by_cases hm : C.pending.fullscreen_mode = FULLSCREEN_WORKSPACE
    · have hwl : (s.ws w).isSome := hv.ws c w (by simp [State.wsOf, hC, hw])
      obtain ⟨W, hW⟩ := Option.isSome_iff_exists.mp hwl
      simp only [hm, ne_eq, not_true_eq_false, if_false, hW, Option.some_bind]
      by_cases hfc : W.fullscreen = some c
      · simp only [hfc, if_true]
        exact Returns.of_some rfl (Soft.soft_refl s)
      · simp only [hfc, if_false]
        have h1 : Returns (fun fuel => (match W.fullscreen with
            | some f => container_fullscreen_disable fuel s f
            | none => pure s)) (Soft s) := by
          cases hfw : W.fullscreen with
          | none => exact Returns.of_some rfl (Soft.soft_refl s)
          | some f =>
            exact fullscreen_disable_soft hv ha (hfs w f (by simp [State.fsOf, hW, hfw]))
        refine Returns.bind h1 ?_
        intro s1 soft1
        obtain ⟨W1, hW1, -⟩ := soft1.ws_some hW
        refine Returns.of_some (?_ : _ = some (arrange_workspace
          (s1.updWs w (fun W => { W with fullscreen := some c })) w)) ?_
        · simp [modWs_some _ hW1]
        · refine soft1.soft_trans ((Soft.soft_updWs s1 w ?_).soft_trans (Soft.soft_emit _ _))
          intro _; rfl
    · simp only [hm, ne_eq, not_false_eq_true, if_true]
      exact Returns.of_some rfl (Soft.soft_refl s)

/-! ## Kept states -/

theorem Kept.kept_parentOf {s t : State} (h : Kept s t) (x : Nat) : t.parentOf x = s.parentOf x :=
  h.soft.soft_parentOf x

theorem Kept.kept_childrenOf {s t : State} (h : Kept s t) (x : Nat) :
    t.childrenOf x = s.childrenOf x :=
  h.soft.soft_childrenOf x

theorem Kept.kept_kids {s t : State} (h : Kept s t) (x : Nat) : t.kids x = s.kids x :=
  h.soft.soft_kids x

theorem Kept.tiling {s t : State} (h : Kept s t) (w : Nat) :
    (t.ws w).map (·.tiling) = (s.ws w).map (·.tiling) :=
  h.soft.wproj (·.tiling) (fun _ => rfl) w

theorem Kept.floating {s t : State} (h : Kept s t) (w : Nat) :
    (t.ws w).map (·.floating) = (s.ws w).map (·.floating) :=
  h.soft.wproj (·.floating) (fun _ => rfl) w

theorem map_tiling_eq {s t : State} {w : Nat}
    (h : (t.ws w).map (·.tiling) = (s.ws w).map (·.tiling)) {α : Type}
    (g : List Nat → α) : (t.ws w).map (fun W => g W.tiling) = (s.ws w).map (fun W => g W.tiling) := by
  have := congrArg (fun o => o.map g) h
  simpa [Option.map_map, Function.comp_def] using this

theorem Unlinked.refl_of_free (s : State) (child : Nat)
    (h1 : ∀ p, s.parentOf child = some p → child ∉ s.kids p)
    (h2 : ∀ w W, s.parentOf child = none → s.wsOf child = some w → s.ws w = some W →
      child ∉ W.tiling ∧ child ∉ W.floating) : Unlinked s child s where
  skel := Skel.skel_refl s
  childrenOf := fun x => by
    cases hx : s.childrenOf x with
    | none => rfl
    | some l =>
      simp only [Option.map_some']
      split
      · rename_i hp
        have : child ∉ l := by
          have := h1 x hp
          simpa [State.kids, hx] using this
        rw [List.erase_of_not_mem this]
      · rfl
  tiling := fun w => by
    cases hw : s.ws w with
    | none => rfl
    | some W =>
      simp only [Option.map_some']
      split
      · rename_i hp
        rw [List.erase_of_not_mem (h2 w W hp.1 hp.2 hw).1]
      · rfl
  floating := fun w => by
    cases hw : s.ws w with
    | none => rfl
    | some W =>
      simp only [Option.map_some']
      split
      · rename_i hp
        rw [List.erase_of_not_mem (h2 w W hp.1 hp.2.1 hw).2]
      · rfl
  modeOf := fun _ => rfl
  fsOf := fun _ _ h => h

theorem Unlinked.unlinked_kept_right {s t u : State} {child : Nat} (h : Unlinked s child t)
    (hk : Kept t u) : Unlinked s child u where
  skel := h.skel.skel_trans hk.soft.soft_skel
  childrenOf := fun x => by rw [hk.kept_childrenOf, h.childrenOf]
  tiling := fun w => by rw [hk.tiling, h.tiling]
  floating := fun w => by rw [hk.floating, h.floating]
  modeOf := fun x => by rw [hk.kept_modeOf, h.modeOf]
  fsOf := fun w f hf => h.fsOf w f (hk.fsOf w f hf)

theorem Unlinked.kept_left {s t u : State} {child : Nat} (hk : Kept s t)
    (h : Unlinked t child u) : Unlinked s child u where
  skel := hk.soft.soft_skel.skel_trans h.skel
  childrenOf := fun x => by rw [h.childrenOf, hk.kept_childrenOf, hk.kept_parentOf]
  tiling := fun w => by
    rw [h.tiling, hk.kept_parentOf, hk.kept_wsOf]
    cases ht : t.ws w with
    | none =>
      have := hk.soft.wlive w
      rw [ht] at this
      cases hs : s.ws w with
      | none => rfl
      | some _ => rw [hs] at this; simp at this
    | some W =>
      obtain ⟨W0, hW0, hcore⟩ := hk.soft.ws_some_rev ht
      rw [hW0]
      simp only [Option.map_some', wcore_tiling hcore]
  floating := fun w => by
    rw [h.floating, hk.kept_parentOf, hk.kept_wsOf]
    cases ht : t.ws w with
    | none =>
      have := hk.soft.wlive w
      rw [ht] at this
      cases hs : s.ws w with
      | none => rfl
      | some _ => rw [hs] at this; simp at this
    | some W =>
      obtain ⟨W0, hW0, hcore⟩ := hk.soft.ws_some_rev ht
      rw [hW0]
      simp only [Option.map_some', wcore_tiling hcore, wcore_floating hcore]
  modeOf := fun x => by rw [h.modeOf, hk.kept_modeOf]
  fsOf := fun w f hf => hk.fsOf w f (h.fsOf w f hf)

/-! ## Detaching: the removal from the sibling list -/

theorem childrenOf_of_kids {s : State} {p c : Nat} (h : c ∈ s.kids p) :
    ∃ P l, s.con p = some P ∧ P.pending.children = some l ∧ s.childrenOf p = some l ∧
      s.kids p = l := by
  cases hp : s.con p with
  | none => simp [State.kids, State.childrenOf, hp] at h
  | some P =>
    cases hl : P.pending.children with
    | none => simp [State.kids, State.childrenOf, hp, hl] at h
    | some l =>
      exact ⟨P, l, rfl, hl, by simp [State.childrenOf, hp, hl],
        by simp [State.kids, State.childrenOf, hp, hl]⟩

theorem detach_unlink_step {u : State} {child : Nat} {C : sway_container}
    (hv : Valid u) (hpk : ∀ p, u.parentOf child = some p → child ∈ u.kids p)
    (hC : u.con child = some C)
    (hatt : C.pending.parent.isSome ∨ C.pending.workspace.isSome ∨ C.scratchpad = true) :
    ∃ sib sB, container_get_siblings u child = some sib ∧
      (match sib with
        | some siblings =>
          (u.readList siblings).bind fun l =>
            if list_find l child ≠ -1 then
              (list_del l (list_find l child)).bind fun l => u.writeList siblings l
            else pure u
        | none => pure u) = some sB ∧
      Unlinked u child sB ∧ (∀ x, sB.parentOf x = u.parentOf x) ∧
      (∀ x, sB.wsOf x = u.wsOf x) := by
  unfold container_get_siblings
  simp only [hC, Option.bind_eq_bind, Option.some_bind, container_is_scratchpad_hidden,
    Option.pure_def]
  cases hp : C.pending.parent with
  | some p =>
    have hpar : u.parentOf child = some p := by simp [State.parentOf, hC, hp]
    obtain ⟨P, l, hP, hl, hch, hkids⟩ := childrenOf_of_kids (hpk p hpar)
    have hmem : child ∈ l := by rw [← hkids]; exact hpk p hpar
    have hlive : (u.con p).isSome := by rw [hP]; rfl
    refine ⟨_, u.setChildren p (l.erase child), rfl, ?_, ?_, ?_, ?_⟩
    · simp only [State.readList, hP, hl, Option.bind_eq_bind, Option.some_bind,
        list_find_ne_neg_one.mpr hmem, ne_eq, not_false_eq_true, if_true, list_del_find hmem]
      exact writeList_children _ hlive
    · refine ⟨Skel.setChildren u p _ (by rw [hch]; rfl), ?_, ?_, ?_, ?_, ?_⟩
      · intro x
        rw [childrenOf_setChildren u p _ x hlive, hpar]
        by_cases hx : x = p
        · subst hx; simp [hch]
        · have : ¬ (some p = some x) := fun h => hx (Option.some.inj h).symm
          simp [hx, this]
      · intro w
        rw [ws_setChildren, hpar]
        simp
      · intro w
        rw [ws_setChildren, hpar]
        simp
      · exact modeOf_setChildren u p _
      · intro w f h
        simpa [State.fsOf, ws_setChildren] using h
    · exact parentOf_setChildren u p _
    · exact wsOf_setChildren u p _
  | none =>
    have hpar : u.parentOf child = none := by simp [State.parentOf, hC, hp]
    simp only []
    cases hw : C.pending.workspace with
    | none =>
      have hscr : C.scratchpad = true := by
        rcases hatt with h | h | h
        · simp [hp] at h
        · simp [hw] at h
        · exact h
      have hwsOf : u.wsOf child = none := by simp [State.wsOf, hC, hw]
      refine ⟨none, u, by simp [hscr], rfl, ?_, fun _ => rfl, fun _ => rfl⟩
      refine Unlinked.refl_of_free u child ?_ ?_
      · intro q hq; rw [hpar] at hq; cases hq
      · intro w W _ h; rw [hwsOf] at h; cases h
    | some w =>
      have hwsOf : u.wsOf child = some w := by simp [State.wsOf, hC, hw]
      obtain ⟨W, hW⟩ := Option.isSome_iff_exists.mp (hv.ws child w hwsOf)
      have hwl : (u.ws w).isSome := by rw [hW]; rfl
      simp only [Option.isNone_some, Bool.and_false, Bool.false_eq_true, if_false, hW,
        Option.some_bind]
      by_cases ht : child ∈ W.tiling
      · refine ⟨some (.tiling w), u.updWs w (fun V => { V with tiling := W.tiling.erase child }),
          by simp [list_find_ne_neg_one.mpr ht], ?_, ?_, ?_, ?_⟩
        · simp only [State.readList, hW, Option.bind_eq_bind, Option.some_bind,
            Option.pure_def, list_find_ne_neg_one.mpr ht, ne_eq, not_false_eq_true, if_true,
            list_del_find ht, State.writeList]
          exact modWs_some _ hW
        · refine ⟨Skel.skel_updWs u w (fun _ => rfl), ?_, ?_, ?_, ?_, ?_⟩
          · intro x
            simp [State.childrenOf, hpar]
          · intro v
            rw [hpar, hwsOf]
            by_cases hvw : v = w
            · subst hvw; simp [hW]
            · have : ¬ (some w = some v) := fun h => hvw (Option.some.inj h).symm
              simp [hvw, this]
          · intro v
            rw [hpar, hwsOf]
            by_cases hvw : v = w
            · subst hvw; simp [hW, ht]
            · have : ¬ (some w = some v) := fun h => hvw (Option.some.inj h).symm
              simp [hvw, this]
          · intro x; simp [State.modeOf]
          · intro v f h
            unfold State.fsOf at h ⊢
            by_cases hvw : v = w
            · subst hvw; simpa [hW] using h
            · simpa [hvw] using h
        · intro x; simp [State.parentOf]
        · intro x; simp [State.wsOf]
      · by_cases hf : child ∈ W.floating
        · refine ⟨some (.floating w),
            u.updWs w (fun V => { V with floating := W.floating.erase child }),
            by simp [list_find_of_not_mem ht], ?_, ?_, ?_, ?_⟩
          · simp only [State.readList, hW, Option.bind_eq_bind, Option.some_bind,
              Option.pure_def, list_find_ne_neg_one.mpr hf, ne_eq, not_false_eq_true, if_true,
              list_del_find hf, State.writeList]
            exact modWs_some _ hW
          · refine ⟨Skel.skel_updWs u w (fun _ => rfl), ?_, ?_, ?_, ?_, ?_⟩
            · intro x
              simp [State.childrenOf, hpar]
            · intro v
              rw [hpar, hwsOf]
              by_cases hvw : v = w
              · subst hvw; simp [hW, List.erase_of_not_mem ht]
              · have : ¬ (some w = some v) := fun h => hvw (Option.some.inj h).symm
                simp [hvw, this]
            · intro v
              rw [hpar, hwsOf]
              by_cases hvw : v = w
              · subst hvw; simp [hW, ht]
              · have : ¬ (some w = some v) := fun h => hvw (Option.some.inj h).symm
                simp [hvw, this]
            · intro x; simp [State.modeOf]
            · intro v f h
              unfold State.fsOf at h ⊢
              by_cases hvw : v = w
              · subst hvw; simpa [hW] using h
              · simpa [hvw] using h
          · intro x; simp [State.parentOf]
          · intro x; simp [State.wsOf]
        · refine ⟨some (.floating w), u, by simp [list_find_of_not_mem ht], ?_, ?_,
            fun _ => rfl, fun _ => rfl⟩
          · simp [State.readList, hW, list_find_of_not_mem hf]
          · refine Unlinked.refl_of_free u child ?_ ?_
            · intro q hq; rw [hpar] at hq; cases hq
            · intro w2 W2 _ h hW2
              rw [hwsOf] at h
              cases h
              rw [hW] at hW2
              cases hW2
              exact ⟨ht, hf⟩

/-! ## Detaching: the links afterwards -/

theorem Unlinked.unlinked_kids_subset {s t : State} {child : Nat} (h : Unlinked s child t)
    {x y : Nat} (hy : y ∈ t.kids x) : y ∈ s.kids x := by
  unfold State.kids at hy ⊢
  rw [h.childrenOf] at hy
  cases hx : s.childrenOf x with
  | none => simp [hx] at hy
  | some l =>
    simp only [hx, Option.map_some', Option.getD_some] at hy ⊢
    split at hy
    · exact List.mem_of_mem_erase hy
    · exact hy

theorem Unlinked.kids_eq {s t : State} {child : Nat} (h : Unlinked s child t)
    {x : Nat} (hx : s.parentOf child ≠ some x) : t.kids x = s.kids x := by
  unfold State.kids
  rw [h.childrenOf]
  cases s.childrenOf x with
  | none => rfl
  | some l => simp [hx]

theorem Unlinked.step {s t u : State} {child : Nat} (h : Unlinked s child t)
    (hs : Skel t u) (hc : ∀ x, u.childrenOf x = t.childrenOf x) (hw : ∀ w, u.ws w = t.ws w)
    (hm : ∀ x, u.modeOf x = t.modeOf x) : Unlinked s child u where
  skel := h.skel.skel_trans hs
  childrenOf := fun x => by rw [hc, h.childrenOf]
  tiling := fun w => by rw [hw, h.tiling]
  floating := fun w => by rw [hw, h.floating]
  modeOf := fun x => by rw [hm, h.modeOf]
  fsOf := fun w f hf => h.fsOf w f (by simpa [State.fsOf, hw] using hf)

theorem reach_of_kids_subset {s t : State} (h : ∀ p y, y ∈ t.kids p → y ∈ s.kids p)
    {c x : Nat} (hx : Reach t c x) : Reach s c x := by
  induction hx with
  | refl => exact Reach.reach_refl s c
  | tail _ hy ih => exact Reach.tail ih (h _ _ hy)

theorem reach_congr {s t : State} {c : Nat} (h : ∀ p, Reach s c p → t.kids p = s.kids p)
    {x : Nat} (hx : Reach s c x) : Reach t c x := by
  induction hx with
  | refl => exact Reach.reach_refl t c
  | tail hp hy ih => exact Reach.tail ih (by rw [h _ hp]; exact hy)

theorem WsOnly.wsonly_modeOf {s t : State} (h : WsOnly s t) (x : Nat) : t.modeOf x = s.modeOf x :=
  h.wsonly_proj (·.pending.fullscreen_mode) (fun _ => rfl) x

theorem wsOf_of_con_eq {s t : State} {x : Nat} (h : t.con x = s.con x) :
    t.wsOf x = s.wsOf x := by
  simp [State.wsOf, h]

theorem detach_assemble {s u sB sD t : State} {child : Nat} (r : Nat → Nat)
    (hl : Linked s) (hr : ∀ p c, c ∈ s.kids p → r c < r p)
    (hlive : (s.con child).isSome)
    (kA : Kept s u) (hun : Unlinked u child sB)
    (hparB : ∀ x, sB.parentOf x = u.parentOf x) (hwsB : ∀ x, sB.wsOf x = u.wsOf x)
    (hD : Cascaded (sB.setLinks child none none) none
      (Below (sB.setLinks child none none) child) sD)
    (kE : Kept sD t) : DetachPost s child t := by
  have hun0 : Unlinked s child sB := Unlinked.kept_left kA hun
  have hliveB : (sB.con child).isSome := by rw [hun0.skel.live]; exact hlive
  have hkC : ∀ x, (sB.setLinks child none none).kids x = sB.kids x :=
    kids_setLinks sB child none none
  have hsub : ∀ p y, y ∈ (sB.setLinks child none none).kids p → y ∈ s.kids p := by
    intro p y hy
    rw [hkC] at hy
    exact hun0.unlinked_kids_subset hy
  have hsame : ∀ p, Reach s child p → (sB.setLinks child none none).kids p = s.kids p := by
    intro p hp
    rw [hkC]
    refine hun0.kids_eq ?_
    intro hpar
    have h1 := hr p child (hl.parent_kids child p hpar)
    have h2 := Reach.rank_le hr hp
    omega
  have hbelow : ∀ x, Below (sB.setLinks child none none) child x ↔ Below s child x := by
    intro x
    constructor
    · rintro ⟨y, hy, hyx⟩
      exact ⟨y, hsub _ _ hy, reach_of_kids_subset hsub hyx⟩
    · rintro ⟨y, hy, hyx⟩
      have hy2 : Reach s child y := Reach.head hy (Reach.reach_refl s y)
      refine ⟨y, by rw [hsame child (Reach.reach_refl s child)]; exact hy, ?_⟩
      exact reach_congr (fun p hp => hsame p (Reach.reach_trans hy2 hp)) hyx
  refine ⟨?_, ?_, ?_, ?_⟩
  · refine Unlinked.unlinked_kept_right ?_ kE
    refine (hun0.step (Skel.setLinks sB child none none) (childrenOf_setLinks sB child none none)
      (ws_setLinks sB child none none) (modeOf_setLinks sB child none none)).step
      hD.only.wsonly_skel hD.only.wsonly_childrenOf hD.only.wsonly_ws hD.only.wsonly_modeOf
  · intro x
    rw [kE.kept_parentOf, hD.only.wsonly_parentOf, parentOf_setLinks sB child none none x hliveB, hparB,
      kA.kept_parentOf]
  · intro x hx
    rw [kE.kept_wsOf]
    rcases reach_cases hx with rfl | hb
    · have hnb : ¬ Below (sB.setLinks x none none) x x := by
        rw [hbelow]; exact Below.irrefl hr x
      rw [wsOf_of_con_eq (hD.outside x hnb), wsOf_setLinks sB x none none x hliveB]
      simp
    · exact hD.inside x ((hbelow x).mpr hb)
  · intro x hx
    have hne : x ≠ child := fun h => hx (h ▸ Reach.reach_refl s child)
    have hnb : ¬ Below (sB.setLinks child none none) child x := by
      rw [hbelow]; exact fun hb => hx hb.below_reach
    rw [kE.kept_wsOf, wsOf_of_con_eq (hD.outside x hnb), wsOf_setLinks sB child none none x hliveB,
      hwsB, kA.kept_wsOf]
    simp [hne]

/-! ## Destruction is guarded -/

/-- C8: `container_destroy` on a container that is not marked destroying, or
that a transaction still references, only reports the violated assertion: the
resulting state is the initial one with that report added, so nothing is
freed and the container, its view and everything else are as before.  A
container is freed only if it was marked destroying with no transaction
reference, and in that case it is freed. -/
theorem container_destroy_guarded (s : State) (con : Nat) (C : sway_container)
    (h : s.con con = some C) :
    (C.node.destroying = false →
      container_destroy s con = some (s.emit (.assert_failed
        "Tried to free container which wasn't marked as destroying"))) ∧
    (C.node.destroying = true → C.node.ntxnrefs ≠ 0 →
      container_destroy s con = some (s.emit (.assert_failed
        "Tried to free container which is still referenced by transactions"))) ∧
    (∀ s', container_destroy s con = some s' → s'.con con = none →
      C.node.destroying = true ∧ C.node.ntxnrefs = 0) ∧
    (C.node.destroying = true → C.node.ntxnrefs = 0 →
      (∀ v, C.view = some v → (s.vw v).isSome) →
      ∃ s', container_destroy s con = some s' ∧ s'.con con = none) := by
  refine ⟨?_, ?_, ?_, ?_⟩
  · intro hd
    simp [container_destroy, h, sway_assert, hd]
  · intro hd hn
    simp [container_destroy, h, sway_assert, hd, hn]
  · intro s' hs' hfree
    by_cases hd : C.node.destroying = true
    · by_cases hn : C.node.ntxnrefs = 0
      · exact ⟨hd, hn⟩
      · simp [container_destroy, h, sway_assert, hd, hn] at hs'
        subst hs'
        simp [State.emit, State.con] at hfree
        simp [State.con] at h
        simp [h] at hfree
    · simp [container_destroy, h, sway_assert, hd] at hs'
      subst hs'
      simp [State.emit, State.con] at hfree
      simp [State.con] at h
      simp [h] at hfree
  · intro hd hn hv
    cases hview : C.view with
    | none =>
      refine ⟨s.freeCon con, ?_, by simp [con_freeCon]⟩
      simp [container_destroy, h, sway_assert, hd, hn, hview]
    | some v =>
      obtain ⟨V, hV⟩ := Option.isSome_iff_exists.mp (hv v hview)
      simp only [container_destroy, h, sway_assert, hd, hn, hview, hV, Option.bind_eq_bind,
        Option.some_bind, Option.pure_def, Bool.not_true, Bool.false_eq_true, if_true, if_false,
        decide_True]
      by_cases hvd : V.destroying = true
      · simp [hvd, con_freeCon]
      · simp [hvd, con_freeCon]

/-- The guard of `container_destroy` at a concrete state: container 1 of
`squash_state` is not marked destroying. -/
theorem container_destroy_guarded_witness :
    container_destroy squash_state 1 = some (squash_state.emit (.assert_failed
      "Tried to free container which wasn't marked as destroying")) :=
  (container_destroy_guarded squash_state 1 _ rfl).1 rfl

/-! ## Acyclicity of concrete states -/

theorem acyclic_of_ids (s : State) (r : Nat → Nat) (K : Nat) (hK : ∀ x, r x ≤ K)
    (h : ∀ p ∈ s.ids, ∀ c ∈ s.kids p, r c < r p) : Acyclic s := by
  refine ⟨r, K, hK, fun p c hc => ?_⟩
  exact h p (mem_ids (live_of_kids hc)) c hc

theorem two_fullscreen_state_acyclic : Acyclic two_fullscreen_state := by
  refine acyclic_of_ids _ (fun x => if x = 0 ∨ x = 2 then 1 else 0) 1 ?_ (by decide)
  intro x
  show (if x = 0 ∨ x = 2 then 1 else 0) ≤ 1
  split <;> omega

/-! ## Fullscreen uniqueness is not kept by moves -/

/-- C2, evaluated on the code: `two_fullscreen_state` is well formed and has at
most one `FULLSCREEN_WORKSPACE` container per workspace, yet after
`container_add_child(2, 0)`, which moves the split container 0 with its
fullscreen child 1 to workspace 1, the views 1 and 3 are both in mode
`FULLSCREEN_WORKSPACE` on workspace 1: the uniqueness is lost. -/
theorem split_move_breaks_workspace_fullscreen_unique :
    TreeWF two_fullscreen_state ∧ ParentWorkspaceConsistent two_fullscreen_state ∧
    FullscreenConsistent two_fullscreen_state ∧
    WorkspaceFullscreenUnique two_fullscreen_state ∧
    ∃ s' ∈ container_add_child 8 two_fullscreen_state 2 0,
      s'.modeOf 1 = some FULLSCREEN_WORKSPACE ∧ s'.wsOf 1 = some 1 ∧
      s'.modeOf 3 = some FULLSCREEN_WORKSPACE ∧ s'.wsOf 3 = some 1 ∧
      ¬ WorkspaceFullscreenUnique s' := by
  decide

/-- C3, evaluated on the code: `global_fullscreen_state` is well formed with the
single `FULLSCREEN_GLOBAL` container 1; after `container_detach(1)`,
`container_set_fullscreen(2, FULLSCREEN_GLOBAL)` and `container_add_child(0, 1)`
the containers 1 and 2 are both in mode `FULLSCREEN_GLOBAL`: the uniqueness is
lost. -/
theorem global_detach_reattach_breaks_global_fullscreen_unique :
    TreeWF global_fullscreen_state ∧ ParentWorkspaceConsistent global_fullscreen_state ∧
    FullscreenConsistent global_fullscreen_state ∧
    GlobalFullscreenUnique global_fullscreen_state ∧
    ∃ s1 ∈ container_detach 8 global_fullscreen_state 1,
    ∃ s2 ∈ container_set_fullscreen 8 s1 2 FULLSCREEN_GLOBAL,
    ∃ s3 ∈ container_add_child 8 s2 0 1,
      s3.modeOf 1 = some FULLSCREEN_GLOBAL ∧ s3.modeOf 2 = some FULLSCREEN_GLOBAL ∧
      s3.fullscreen_global = some 2 ∧ s3.parentOf 1 = some 0 ∧
      ¬ GlobalFullscreenUnique s3 := by
  decide

/-! ## Squash -/

/-- C4, evaluated on the code: in `squash_state` the pair (1, 2) is squashable
and container 2 has the grandchildren 5, 6, 7 in that order; after
`container_squash(1)` the sibling list that held container 1 is 3, 7, 6, 5, 4:
the grandchildren stand in reverse order. -/
theorem squash_reverses_grandchildren :
    TreeWF squash_state ∧ ParentWorkspaceConsistent squash_state ∧
    container_is_squashable squash_state 1 2 = some true ∧
    squash_state.kids 0 = [3, 1, 4] ∧ squash_state.kids 2 = [5, 6, 7] ∧
    ∃ r ∈ container_squash 10 squash_state 1,
      r.1.kids 0 = [3, 7, 6, 5, 4] ∧ r.2 = 2 := by
  decide

/-- C5, evaluated on the code: in `nested_squash_state` container 1 is attached
to the parent 0, whose children are 1, 4; `container_squash(1)` returns 0
although the sibling list that held container 1 shrank from 1, 4 to 4 (the
nested squash reaped container 1 with its emptied descendants). -/
theorem squash_return_misses_reaped_container :
    TreeWF nested_squash_state ∧ ParentWorkspaceConsistent nested_squash_state ∧
    FullscreenConsistent nested_squash_state ∧
    container_sibling_index nested_squash_state 1 = some 0 ∧
    nested_squash_state.kids 0 = [1, 4] ∧
    ∃ r ∈ container_squash 12 nested_squash_state 1,
      r.1.kids 0 = [4] ∧ r.2 = 0 := by
  decide

/-! ## Detaching a fullscreen container without workspace -/

/-- C7, evaluated on the code: in `detached_fullscreen_state` the view 1 is
attached to its parent 0, has no workspace and is in mode
`FULLSCREEN_WORKSPACE`; `container_detach(1)` reads the `fullscreen` field of
the null workspace, so with no amount of fuel does it return a state. -/
theorem detach_fullscreen_without_workspace_fails :
    TreeWF detached_fullscreen_state ∧
    ParentWorkspaceConsistent detached_fullscreen_state ∧
    FullscreenConsistent detached_fullscreen_state ∧
    detached_fullscreen_state.parentOf 1 = some 0 ∧
    ¬ ∃ fuel, (container_detach fuel detached_fullscreen_state 1).isSome = true := by
  refine ⟨by decide, by decide, by decide, by decide, ?_⟩
  rintro ⟨fuel, h⟩
  have hc : detached_fullscreen_state.con 1 = leaf (some 0) none 0 FULLSCREEN_WORKSPACE := rfl
  simp [container_detach, hc, leaf] at h

/-! ## Entering fullscreen: concrete cases -/

/-- C9 as stated fails when `con` itself holds the global fullscreen:
in `global_fullscreen_state` container 1 is on workspace 0, is not in mode
`FULLSCREEN_WORKSPACE` and is the root's `fullscreen_global`; after
`container_set_fullscreen(1, FULLSCREEN_WORKSPACE)` this former holder has mode
`FULLSCREEN_WORKSPACE`, not `FULLSCREEN_NONE`. -/
theorem set_fullscreen_workspace_former_global_holder :
    TreeWF global_fullscreen_state ∧ FullscreenConsistent global_fullscreen_state ∧
    global_fullscreen_state.wsOf 1 = some 0 ∧
    global_fullscreen_state.modeOf 1 ≠ some FULLSCREEN_WORKSPACE ∧
    global_fullscreen_state.fullscreen_global = some 1 ∧
    ∃ t ∈ container_set_fullscreen 8 global_fullscreen_state 1 FULLSCREEN_WORKSPACE,
      t.modeOf 1 = some FULLSCREEN_WORKSPACE ∧ t.modeOf 1 ≠ some FULLSCREEN_NONE := by
  decide

/-- The amended C9 at `two_fullscreen_state`: the split container 0 of
workspace 0 enters workspace fullscreen and the former fullscreen view 1 of
that workspace leaves it. -/
theorem set_fullscreen_workspace_exclusive_witness :
    Returns (fun fuel => container_set_fullscreen fuel two_fullscreen_state 0
        FULLSCREEN_WORKSPACE)
      (fun t =>
        t.modeOf 0 = some FULLSCREEN_WORKSPACE ∧ t.fsOf 0 = some 0 ∧
        (∀ f, two_fullscreen_state.fsOf 0 = some f → t.modeOf f = some FULLSCREEN_NONE) ∧
        t.fullscreen_global = none ∧
        (∀ g, two_fullscreen_state.fullscreen_global = some g → g ≠ 0 →
          t.modeOf g = some FULLSCREEN_NONE) ∧
        ∃ C, t.con 0 = some C ∧ C.saved_x = C.pending.x ∧ C.saved_y = C.pending.y ∧
          C.saved_width = C.pending.width ∧ C.saved_height = C.pending.height) :=
  set_fullscreen_workspace_exclusive two_fullscreen_state 0 0 (by decide)
    two_fullscreen_state_acyclic (by decide) (by decide) (by decide)

/-- C10 at `two_fullscreen_state`: the split container 0 of workspace 0 enters
global fullscreen while view 3 stays the fullscreen view of workspace 1. -/
theorem set_fullscreen_global_coexists_witness :
    Returns (fun fuel => container_set_fullscreen fuel two_fullscreen_state 0
        FULLSCREEN_GLOBAL)
      (fun t =>
        t.modeOf 0 = some FULLSCREEN_GLOBAL ∧ t.fullscreen_global = some 0 ∧
        t.modeOf 3 = some FULLSCREEN_WORKSPACE ∧ t.fsOf 1 = some 3 ∧
        t.con 3 = two_fullscreen_state.con 3) :=
  set_fullscreen_global_coexists two_fullscreen_state 0 3 0 1 (by decide)
    two_fullscreen_state_acyclic (by decide) (by decide) (by decide) (by decide) (by decide)
    (by decide) (by decide)

theorem is_parallel_iff (a b : sway_container_layout) :
    is_parallel a b = true ↔ spec_parallel a b := by
  cases a <;> cases b <;> decide

theorem container_parent_layout_eq (s : State) (con : Nat) (C : sway_container)
    (hC : s.con con = some C) :
    container_parent_layout s con = spec_parent_layout s C := by
  unfold container_parent_layout spec_parent_layout
  simp only [hC, Option.bind_eq_bind, Option.some_bind]
  cases C.pending.parent with
  | some p => cases h : s.con p <;> simp [h]
  | none =>
    cases C.pending.workspace with
    | some w => cases h : s.ws w <;> simp [h]
    | none => rfl

/-- C16: `container_is_squashable(con, child)` is true exactly when both layouts
are `L_HORIZ` or `L_VERT`, they are not parallel to each other and the child's
layout is parallel to the parent layout of `con` (the parent's layout, else the
workspace's, else `L_NONE`); a container with neither parent nor workspace is
never squashable, and pairs under a `L_TABBED` and under a `L_STACKED`
grandparent that are squashable exist. -/
theorem container_is_squashable_iff (s : State) (con child : Nat) (C Ch : sway_container)
    (gp : sway_container_layout)
    (hC : s.con con = some C) (hCh : s.con child = some Ch)
    (hgp : spec_parent_layout s C = some gp) :
    (∃ b, container_is_squashable s con child = some b ∧
      (b = true ↔
        (C.pending.layout = L_HORIZ ∨ C.pending.layout = L_VERT) ∧
        (Ch.pending.layout = L_HORIZ ∨ Ch.pending.layout = L_VERT) ∧
        ¬ spec_parallel C.pending.layout Ch.pending.layout ∧
        spec_parallel gp Ch.pending.layout)) ∧
    (C.pending.parent = none → C.pending.workspace = none →
      container_is_squashable s con child = some false) ∧
    container_is_squashable (pair_state L_TABBED L_VERT L_HORIZ) 0 1 = some true ∧
    container_is_squashable (pair_state L_STACKED L_HORIZ L_VERT) 0 1 = some true := by
  have hpl : container_parent_layout s con = some gp := by
    rw [container_parent_layout_eq s con C hC, hgp]
  refine ⟨⟨_, by simp [container_is_squashable, hpl, hC, hCh]; rfl, ?_⟩, ?_, by decide, by decide⟩
  · simp only [Bool.and_eq_true, Bool.or_eq_true, decide_eq_true_eq, Bool.not_eq_true',
      ← is_parallel_iff]
    constructor
    · rintro ⟨⟨⟨h1, h2⟩, h3⟩, h4⟩
      exact ⟨h1, h2, by simp [h3], h4⟩
    · rintro ⟨h1, h2, h3, h4⟩
      exact ⟨⟨⟨h1, h2⟩, by simpa using h3⟩, h4⟩
  · intro hp hw
    have : gp = L_NONE := by
      simp [spec_parent_layout, hp, hw] at hgp
      exact hgp.symm
    subst this
    simp [container_is_squashable, hpl, hC, hCh, is_parallel]

/-- C16 at `squash_state`: the pair (1, 2) under the `L_VERT` container 0 is
squashable. -/
theorem container_is_squashable_iff_witness :
    ∃ b, container_is_squashable squash_state 1 2 = some b ∧
      (b = true ↔
        (L_HORIZ = L_HORIZ ∨ L_HORIZ = L_VERT) ∧ (L_VERT = L_HORIZ ∨ L_VERT = L_VERT) ∧
        ¬ spec_parallel L_HORIZ L_VERT ∧ spec_parallel L_VERT L_VERT) :=
  (container_is_squashable_iff squash_state 1 2
    { pending := { layout := L_HORIZ, parent := some 0, workspace := some 0,
                   children := some [2] } }
    { pending := { layout := L_VERT, parent := some 1, workspace := some 0,
                   children := some [5, 6, 7] } }
    L_VERT rfl rfl rfl).1

/-- C26: `floating_calculate_constraints` gives, for each of the four configured
values, 0 (minimum) or `INT_MAX` (maximum) for -1, the automatic value (75, 50,
the width or height of the output layout box) for 0, and the configured value
otherwise; each output is the same in two states that agree on its own
configuration value and on the layout box. -/
theorem floating_calculate_constraints_three_way (s : State) :
    ((s.config.floating_minimum_width = -1 → (floating_calculate_constraints s).1 = 0) ∧
     (s.config.floating_minimum_width = 0 → (floating_calculate_constraints s).1 = 75) ∧
     (s.config.floating_minimum_width ≠ -1 → s.config.floating_minimum_width ≠ 0 →
       (floating_calculate_constraints s).1 = s.config.floating_minimum_width)) ∧
    ((s.config.floating_maximum_width = -1 →
       (floating_calculate_constraints s).2.1 = INT_MAX) ∧
     (s.config.floating_maximum_width = 0 →
       (floating_calculate_constraints s).2.1 = s.output_layout_box.width) ∧
     (s.config.floating_maximum_width ≠ -1 → s.config.floating_maximum_width ≠ 0 →
       (floating_calculate_constraints s).2.1 = s.config.floating_maximum_width)) ∧
    ((s.config.floating_minimum_height = -1 →
       (floating_calculate_constraints s).2.2.1 = 0) ∧
     (s.config.floating_minimum_height = 0 →
       (floating_calculate_constraints s).2.2.1 = 50) ∧
     (s.config.floating_minimum_height ≠ -1 → s.config.floating_minimum_height ≠ 0 →
       (floating_calculate_constraints s).2.2.1 = s.config.floating_minimum_height)) ∧
    ((s.config.floating_maximum_height = -1 →
       (floating_calculate_constraints s).2.2.2 = INT_MAX) ∧
     (s.config.floating_maximum_height = 0 →
       (floating_calculate_constraints s).2.2.2 = s.output_layout_box.height) ∧
     (s.config.floating_maximum_height ≠ -1 → s.config.floating_maximum_height ≠ 0 →
       (floating_calculate_constraints s).2.2.2 = s.config.floating_maximum_height)) ∧
    (∀ s2 : State,
      (s2.config.floating_minimum_width = s.config.floating_minimum_width →
        (floating_calculate_constraints s2).1 = (floating_calculate_constraints s).1) ∧
      (s2.config.floating_maximum_width = s.config.floating_maximum_width →
        s2.output_layout_box = s.output_layout_box →
        (floating_calculate_constraints s2).2.1 = (floating_calculate_constraints s).2.1) ∧
      (s2.config.floating_minimum_height = s.config.floating_minimum_height →
        (floating_calculate_constraints s2).2.2.1 =
          (floating_calculate_constraints s).2.2.1) ∧
      (s2.config.floating_maximum_height = s.config.floating_maximum_height →
        s2.output_layout_box = s.output_layout_box →
        (floating_calculate_constraints s2).2.2.2 =
          (floating_calculate_constraints s).2.2.2)) := by
  refine ⟨⟨?_, ?_, ?_⟩, ⟨?_, ?_, ?_⟩, ⟨?_, ?_, ?_⟩, ⟨?_, ?_, ?_⟩, ?_⟩
  all_goals first
    | (intro h1 h2; simp [floating_calculate_constraints, h1, h2])
    | (intro h; simp [floating_calculate_constraints, h])
    | (intro s2
       refine ⟨?_, ?_, ?_, ?_⟩
       · intro h; simp [floating_calculate_constraints, h]
       · intro h hb; simp [floating_calculate_constraints, h, hb]
       · intro h; simp [floating_calculate_constraints, h]
       · intro h hb; simp [floating_calculate_constraints, h, hb])

theorem to_size_t_of_nonneg {i : Int} (h0 : 0 ≤ i) (h1 : i < 2 ^ 64) :
    ((to_size_t i : Nat) : ℚ) = (i : ℚ) := by
  unfold to_size_t
  rw [Int.emod_eq_of_lt h0 h1]
  have : ((i.toNat : Nat) : Int) = i := Int.toNat_of_nonneg h0
  exact_mod_cast congrArg (fun z : Int => (z : ℚ)) this

theorem set_geometry_from_content_eq (s : State) (con : Nat) (C : sway_container) (v : Nat)
    (hC : s.con con = some C) (hv : C.view = some v)
    (hfl : container_is_floating s con = some true) :
    ∃ t, container_set_geometry_from_content s con = some t ∧
      t.con con = some { C with
        pending := { C.pending with
          x := C.pending.content_x - geometry_border_width C
          y := C.pending.content_y - geometry_top s C
          width := C.pending.content_width + ((geometry_border_width C * 2 % 2 ^ 64 : Nat) : ℚ)
          height := geometry_top s C + C.pending.content_height + geometry_border_width C }
        node := node_set_dirty C.node } ∧
      (∀ x, x ≠ con → t.con x = s.con x) ∧ Soft s t := by
  unfold container_set_geometry_from_content
  simp only [hC, hv, hfl, Option.bind_eq_bind, Option.some_bind, sway_assert, Option.isSome_some,
    if_true, Bool.not_true, Bool.false_eq_true, if_false]
  rw [modCon_some _ hC]
  refine ⟨_, rfl, ?_, fun x hx => by simp [hx], Soft.soft_updCon s con (fun _ => rfl)⟩
  simp only [con_updCon, if_true, hC, Option.map_some']
  simp only [geometry_top, geometry_border_width, hv]

theorem geometry_border_width_le (C : sway_container)
    (ht0 : 0 ≤ C.pending.border_thickness) (ht1 : C.pending.border_thickness ≤ INT_MAX) :
    geometry_border_width C ≤ 2147483647 := by
  unfold INT_MAX at ht1
  unfold geometry_border_width
  split
  · by_cases hn : C.pending.border = B_NONE
    · simp [hn, to_size_t]
    · simp only [hn, ne_eq, not_false_eq_true, if_true, mul_one]
      unfold to_size_t
      rw [Int.emod_eq_of_lt ht0 (by omega)]
      omega
  · exact Nat.zero_le _

theorem geometry_width_no_wrap (C : sway_container)
    (ht0 : 0 ≤ C.pending.border_thickness) (ht1 : C.pending.border_thickness ≤ INT_MAX) :
    geometry_border_width C * 2 % 2 ^ 64 = geometry_border_width C * 2 := by
  have := geometry_border_width_le C ht0 ht1
  exact Nat.mod_eq_of_lt (by omega)

/-- C28 (amended): for every floating view container that is neither
client-side-decorated nor fullscreen and whose border thickness is not
negative (it is an `int`, so at most `INT_MAX`), with `t` its border thickness
(taken as 0 when the border style is `B_NONE`) and `T` the titlebar height for
the style `B_NORMAL` and `t` otherwise, after
`container_set_geometry_from_content` the outer box is `x = content_x - t`,
`y = content_y - T`, `width = content_width + 2t`,
`height = T + content_height + t`; for a `B_CSD` or fullscreen container the
outer box equals the content box. -/
theorem set_geometry_from_content_outer_box (s : State) (con : Nat) (C : sway_container)
    (v : Nat) (hC : s.con con = some C) (hv : C.view = some v)
    (hfl : container_is_floating s con = some true)
    (ht0 : 0 ≤ C.pending.border_thickness) (ht1 : C.pending.border_thickness ≤ INT_MAX) :
    ∃ t D, container_set_geometry_from_content s con = some t ∧ t.con con = some D ∧
      (C.pending.border ≠ B_CSD → C.pending.fullscreen_mode = FULLSCREEN_NONE →
        ∀ bw T : ℚ,
          bw = (if C.pending.border = B_NONE then 0 else (C.pending.border_thickness : ℚ)) →
          T = (if C.pending.border = B_NORMAL then (container_titlebar_height s : ℚ) else bw) →
          D.pending.x = C.pending.content_x - bw ∧ D.pending.y = C.pending.content_y - T ∧
          D.pending.width = C.pending.content_width + 2 * bw ∧
          D.pending.height = T + C.pending.content_height + bw) ∧
      ((C.pending.border = B_CSD ∨ C.pending.fullscreen_mode ≠ FULLSCREEN_NONE) →
        D.pending.x = C.pending.content_x ∧ D.pending.y = C.pending.content_y ∧
        D.pending.width = C.pending.content_width ∧
        D.pending.height = C.pending.content_height) := by
  obtain ⟨t, ht, hD, -, -⟩ := set_geometry_from_content_eq s con C v hC hv hfl
  refine ⟨t, _, ht, hD, ?_, ?_⟩
  · intro hb hm bw T hbw hT
    have hw : ((geometry_border_width C : Nat) : ℚ) = bw := by
      unfold geometry_border_width
      rw [if_pos ⟨hb, hm⟩, hbw]
      by_cases hn : C.pending.border = B_NONE
      · simp [hn, to_size_t]
      · simp only [hn, ne_eq, not_false_eq_true, if_true, if_false, mul_one]
        exact to_size_t_of_nonneg ht0 (by unfold INT_MAX at ht1; omega)
    have htop : ((geometry_top s C : Nat) : ℚ) = T := by
      unfold geometry_top
      rw [if_pos ⟨hb, hm⟩, hT]
      by_cases hn : C.pending.border = B_NORMAL
      · simp [hn]
      · simp only [hn, if_false]
        exact hw
    simp only [geometry_width_no_wrap C ht0 ht1, Nat.cast_mul, Nat.cast_ofNat, hw, htop]
    refine ⟨trivial, trivial, ?_, trivial⟩
    ring
  · intro h
    have hcond : ¬ (C.pending.border ≠ B_CSD ∧ C.pending.fullscreen_mode = FULLSCREEN_NONE) := by
      rintro ⟨h1, h2⟩
      rcases h with h | h
      · exact h1 h
      · exact h h2
    simp [geometry_border_width, geometry_top, hcond]

/-- C28 as stated fails for the border style `B_NONE`: the container of
`floating_view_state` is a floating view, neither client-side-decorated nor
fullscreen, with border thickness 2 and `content_x = 10`; after
`container_set_geometry_from_content` its `pending.x` is 10, not `10 - 2`. -/
theorem set_geometry_from_content_border_none :
    container_is_floating floating_view_state 0 = some true ∧
    floating_view.pending.border ≠ B_CSD ∧
    floating_view.pending.fullscreen_mode = FULLSCREEN_NONE ∧
    floating_view.pending.border_thickness = 2 ∧ floating_view.pending.content_x = 10 ∧
    ∃ t ∈ container_set_geometry_from_content floating_view_state 0,
      ∃ D ∈ t.con 0, D.pending.x = 10 ∧ D.pending.x ≠ 10 - 2 := by
  refine ⟨by decide, by decide, by decide, by decide, rfl, ?_⟩
  obtain ⟨t, ht, hD, -, -⟩ := set_geometry_from_content_eq floating_view_state 0 floating_view 0
    rfl rfl (by decide)
  refine ⟨t, ht, _, hD, ?_⟩
  have h0 : geometry_border_width floating_view = 0 := by decide
  simp only [h0]
  norm_num [floating_view]

/-- The amended C28 at `floating_pixel_state`: the border style is `B_PIXEL`
and the thickness 2, so the outer box is the content box 100 x 50 at (10, 20)
grown by 2 on every side. -/
theorem set_geometry_from_content_outer_box_witness :
    ∃ t D, container_set_geometry_from_content floating_pixel_state 0 = some t ∧
      t.con 0 = some D ∧
      (floating_pixel_view.pending.border ≠ B_CSD →
        floating_pixel_view.pending.fullscreen_mode = FULLSCREEN_NONE →
        ∀ bw T : ℚ,
          bw = (if floating_pixel_view.pending.border = B_NONE then 0
                else (floating_pixel_view.pending.border_thickness : ℚ)) →
          T = (if floating_pixel_view.pending.border = B_NORMAL then
                (container_titlebar_height floating_pixel_state : ℚ) else bw) →
          D.pending.x = floating_pixel_view.pending.content_x - bw ∧
          D.pending.y = floating_pixel_view.pending.content_y - T ∧
          D.pending.width = floating_pixel_view.pending.content_width + 2 * bw ∧
          D.pending.height = T + floating_pixel_view.pending.content_height + bw) ∧
      ((floating_pixel_view.pending.border = B_CSD ∨
          floating_pixel_view.pending.fullscreen_mode ≠ FULLSCREEN_NONE) →
        D.pending.x = floating_pixel_view.pending.content_x ∧
        D.pending.y = floating_pixel_view.pending.content_y ∧
        D.pending.width = floating_pixel_view.pending.content_width ∧
        D.pending.height = floating_pixel_view.pending.content_height) :=
  set_geometry_from_content_outer_box floating_pixel_state 0 floating_pixel_view 0 rfl rfl
    (by decide) (by decide) (by decide)

theorem natural_resize_split_eq (s : State) (con : Nat) (C : sway_container)
    (hC : s.con con = some C) (hv : C.view = none) :
    ∃ t, floating_natural_resize s con = some t ∧
      t.con con = some { C with pending := { C.pending with
        width := max ((floating_calculate_constraints s).1 : ℚ)
          (min C.pending.width ((floating_calculate_constraints s).2.1 : ℚ))
        height := max ((floating_calculate_constraints s).2.2.1 : ℚ)
          (min C.pending.height ((floating_calculate_constraints s).2.2.2 : ℚ)) } } ∧
      (∀ x, x ≠ con → t.con x = s.con x) ∧ Soft s t := by
  unfold floating_natural_resize
  simp only [hC, hv, Option.bind_eq_bind, Option.some_bind]
  rw [modCon_some _ hC]
  refine ⟨_, rfl, by simp [hC, hv], fun x hx => by simp [hx], Soft.soft_updCon s con (fun _ => rfl)⟩

theorem natural_resize_view_eq (s : State) (con : Nat) (C : sway_container) (v : Nat)
    (V : sway_view) (hC : s.con con = some C) (hv : C.view = some v) (hV : s.vw v = some V)
    (hfl : container_is_floating s con = some true) :
    ∃ t D, floating_natural_resize s con = some t ∧ t.con con = some D ∧
      D.pending.content_width = max ((floating_calculate_constraints s).1 : ℚ)
          (min (V.natural_width : ℚ) ((floating_calculate_constraints s).2.1 : ℚ)) ∧
      D.pending.content_height = max ((floating_calculate_constraints s).2.2.1 : ℚ)
          (min (V.natural_height : ℚ) ((floating_calculate_constraints s).2.2.2 : ℚ)) ∧
      D.pending.content_x = C.pending.content_x ∧ D.pending.content_y = C.pending.content_y ∧
      D.pending.border_top = C.pending.border_top ∧
      D.pending.border_bottom = C.pending.border_bottom ∧
      D.pending.border_left = C.pending.border_left ∧
      D.pending.border_right = C.pending.border_right ∧
      D.pending.workspace = C.pending.workspace ∧ D.view = C.view ∧
      (∀ x, x ≠ con → t.con x = s.con x) ∧ Soft s t := by
  unfold floating_natural_resize
  simp only [hC, hv, hV, Option.bind_eq_bind, Option.some_bind]
  rw [modCon_some _ hC, Option.some_bind]
  let f : sway_container → sway_container := fun C => { C with pending := { C.pending with
      content_width := max ((floating_calculate_constraints s).1 : ℚ)
        (min (V.natural_width : ℚ) ((floating_calculate_constraints s).2.1 : ℚ))
      content_height := max ((floating_calculate_constraints s).2.2.1 : ℚ)
        (min (V.natural_height : ℚ) ((floating_calculate_constraints s).2.2.2 : ℚ)) } }
  have hC1 : (s.updCon con f).con con = some (f C) := by simp [hC]
  have soft1 : Soft s (s.updCon con f) := Soft.soft_updCon s con (fun _ => rfl)
  obtain ⟨t, ht, hD, hrest, soft2⟩ := set_geometry_from_content_eq (s.updCon con f) con (f C) v
    hC1 hv (by rw [soft1.is_floating]; exact hfl)
  refine ⟨t, _, ht, hD, rfl, rfl, rfl, rfl, rfl, rfl, rfl, rfl, rfl, by simp [f, hv], ?_,
    soft1.soft_trans soft2⟩
  intro x hx
  rw [hrest x hx]
  simp [hx]

/-- C27 (amended): for every floating container, `floating_natural_resize`
returns and the resulting size `w`, `h` (`pending.width`/`height` for a split
container, `pending.content_width`/`content_height` for a view) is at least the
minimum of `floating_calculate_constraints`, and at most the maximum whenever
the minimum does not exceed the maximum. -/
theorem floating_natural_resize_clamps (s : State) (con : Nat) (C : sway_container)
    (hC : s.con con = some C) (hview : ∀ v, C.view = some v → (s.vw v).isSome)
    (hfl : container_is_floating s con = some true) :
    ∃ t D, floating_natural_resize s con = some t ∧ t.con con = some D ∧
      ∀ w h : ℚ,
        (w, h) = (if C.view = none then (D.pending.width, D.pending.height)
                  else (D.pending.content_width, D.pending.content_height)) →
        ((floating_calculate_constraints s).1 : ℚ) ≤ w ∧
        ((floating_calculate_constraints s).2.2.1 : ℚ) ≤ h ∧
        ((floating_calculate_constraints s).1 ≤ (floating_calculate_constraints s).2.1 →
          w ≤ ((floating_calculate_constraints s).2.1 : ℚ)) ∧
        ((floating_calculate_constraints s).2.2.1 ≤ (floating_calculate_constraints s).2.2.2 →
          h ≤ ((floating_calculate_constraints s).2.2.2 : ℚ)) := by
  have key : ∀ (a b : Int) (x : ℚ), (a : ℚ) ≤ max (a : ℚ) (min x (b : ℚ)) ∧
      (a ≤ b → max (a : ℚ) (min x (b : ℚ)) ≤ (b : ℚ)) := by
    intro a b x
    refine ⟨le_max_left _ _, fun hab => max_le ?_ (min_le_right _ _)⟩
    exact_mod_cast hab
  cases hv : C.view with
  | none =>
    obtain ⟨t, ht, hD, -, -⟩ := natural_resize_split_eq s con C hC hv
    refine ⟨t, _, ht, hD, ?_⟩
    intro w h hwh
    simp only [if_true, Prod.mk.injEq] at hwh
    obtain ⟨rfl, rfl⟩ := hwh
    exact ⟨(key _ _ _).1, (key _ _ _).1, (key _ _ _).2, (key _ _ _).2⟩
  | some v =>
    obtain ⟨V, hV⟩ := Option.isSome_iff_exists.mp (hview v hv)
    obtain ⟨t, D, ht, hD, hw, hh, -⟩ := natural_resize_view_eq s con C v V hC hv hV hfl
    refine ⟨t, D, ht, hD, ?_⟩
    intro w h hwh
    simp only [reduceCtorEq, if_false, Prod.mk.injEq] at hwh
    obtain ⟨rfl, rfl⟩ := hwh
    rw [hw, hh]
    exact ⟨(key _ _ _).1, (key _ _ _).1, (key _ _ _).2, (key _ _ _).2⟩

/-- C27 as stated fails when the configured minimum exceeds the maximum: in
`narrow_maximum_state` the floating minimum width is 100 and the maximum 50,
and the floating container of width 60 gets the width 100, above the
maximum. -/
theorem floating_natural_resize_exceeds_maximum :
    container_is_floating narrow_maximum_state 0 = some true ∧
    (floating_calculate_constraints narrow_maximum_state).1 = 100 ∧
    (floating_calculate_constraints narrow_maximum_state).2.1 = 50 ∧
    ∃ t ∈ floating_natural_resize narrow_maximum_state 0,
      ∃ D ∈ t.con 0, D.pending.width = 100 ∧
        ¬ D.pending.width ≤ ((floating_calculate_constraints narrow_maximum_state).2.1 : ℚ) := by
  refine ⟨by decide, by decide, by decide, ?_⟩
  obtain ⟨t, ht, hD, -, -⟩ := natural_resize_split_eq narrow_maximum_state 0 floating_split
    rfl rfl
  refine ⟨t, ht, _, hD, ?_⟩
  have h1 : (floating_calculate_constraints narrow_maximum_state).1 = 100 := by decide
  have h2 : (floating_calculate_constraints narrow_maximum_state).2.1 = 50 := by decide
  simp only [h1, h2]
  norm_num [floating_split]

/-- The amended C27 at `narrow_maximum_state`. -/
theorem floating_natural_resize_clamps_witness :
    ∃ t D, floating_natural_resize narrow_maximum_state 0 = some t ∧ t.con 0 = some D ∧
      ∀ w h : ℚ,
        (w, h) = (if floating_split.view = none then (D.pending.width, D.pending.height)
                  else (D.pending.content_width, D.pending.content_height)) →
        ((floating_calculate_constraints narrow_maximum_state).1 : ℚ) ≤ w ∧
        ((floating_calculate_constraints narrow_maximum_state).2.2.1 : ℚ) ≤ h ∧
        ((floating_calculate_constraints narrow_maximum_state).1 ≤
            (floating_calculate_constraints narrow_maximum_state).2.1 →
          w ≤ ((floating_calculate_constraints narrow_maximum_state).2.1 : ℚ)) ∧
        ((floating_calculate_constraints narrow_maximum_state).2.2.1 ≤
            (floating_calculate_constraints narrow_maximum_state).2.2.2 →
          h ≤ ((floating_calculate_constraints narrow_maximum_state).2.2.2 : ℚ)) :=
  floating_natural_resize_clamps narrow_maximum_state 0 floating_split rfl
    (by decide) (by decide)

/-! ## Detaching returns -/
theorem DetachPost.detach_kept_right {s t u : State} {child : Nat} (h : DetachPost s child t)
    (hk : Kept t u) : DetachPost s child u where
  unlinked := h.unlinked.unlinked_kept_right hk
  parentOf := fun x => by rw [hk.kept_parentOf, h.parentOf]
  ws_in := fun x hx => by rw [hk.kept_wsOf, h.ws_in x hx]
  ws_out := fun x hx => by rw [hk.kept_wsOf, h.ws_out x hx]

theorem DetachPost.detach_valid {s t : State} {child : Nat} (h : DetachPost s child t)
    (hv : Valid s) : Valid t := by
  refine h.unlinked.skel.skel_valid hv ?_ ?_ ?_
  · intro c w hw
    by_cases hc : Reach s child c
    · rw [h.ws_in c hc] at hw; cases hw
    · rw [h.ws_out c hc] at hw; exact hv.ws c w hw
  · intro p c hc
    exact hv.kids p c (h.unlinked.unlinked_kids_subset hc)
  · intro c p hc
    rw [h.parentOf] at hc
    by_cases hcc : c = child
    · simp [hcc] at hc
    · simp only [hcc, if_false] at hc
      exact hv.parent c p hc

theorem DetachPost.parent_rank {s t : State} {child : Nat} (h : DetachPost s child t)
    (hl : Linked s) {r : Nat → Nat} (hr : ∀ p c, c ∈ s.kids p → r c < r p) :
    ∀ x q, t.parentOf x = some q → r x < r q := by
  intro x q hx
  rw [h.parentOf] at hx
  by_cases hcc : x = child
  · simp [hcc] at hx
  · simp only [hcc, if_false] at hx
    exact hr q x (hl.parent_kids x q hx)

theorem detach_spec {s : State} {child : Nat} {C : sway_container} (r : Nat → Nat) (K : Nat)
    (hv : Valid s) (hl : Linked s) (hr : ∀ p c, c ∈ s.kids p → r c < r p) (hK : ∀ x, r x ≤ K)
    (hC : s.con child = some C)
    (hatt : C.pending.parent.isSome ∨ C.pending.workspace.isSome ∨ C.scratchpad = true)
    (hmode : C.pending.fullscreen_mode = FULLSCREEN_WORKSPACE → C.pending.workspace.isSome) :
    Returns (fun fuel => container_detach fuel s child) (DetachPost s child) := by
  have hlive : (s.con child).isSome := by rw [hC]; rfl
  unfold container_detach
  simp only [hC, Option.bind_eq_bind, Option.some_bind]
  have hA : ∃ sA, (if C.pending.fullscreen_mode = FULLSCREEN_WORKSPACE then
        C.pending.workspace.bind fun w => s.modWs w (fun W => { W with fullscreen := none })
      else pure s) = some sA ∧ Kept s sA ∧ ∀ x, sA.con x = s.con x := by
    by_cases hm : C.pending.fullscreen_mode = FULLSCREEN_WORKSPACE
    · obtain ⟨w, hw⟩ := Option.isSome_iff_exists.mp (hmode hm)
      obtain ⟨W, hW⟩ := Option.isSome_iff_exists.mp
        (hv.ws child w (by simp [State.wsOf, hC, hw]))
      refine ⟨_, by simp only [hm, if_true, hw, Option.some_bind]; exact modWs_some _ hW,
        Kept.kept_updWs s w ?_ ?_, fun x => by simp⟩
      · intro _; rfl
      · intro _; exact Or.inr rfl
    · exact ⟨s, by simp only [hm, if_false]; rfl, Kept.kept_refl s, fun _ => rfl⟩
  obtain ⟨sA, hsA, kA, conA⟩ := hA
  refine Returns.bind_some hsA ?_
  have hU : ∃ u, (if C.pending.fullscreen_mode = FULLSCREEN_GLOBAL then
      ({ sA with fullscreen_global := none } : State) else sA) = u ∧ Kept s u ∧
      ∀ x, u.con x = s.con x := by
    by_cases hm : C.pending.fullscreen_mode = FULLSCREEN_GLOBAL
    · exact ⟨_, rfl, by
        simp only [hm, if_true]
        exact kA.kept_trans (Kept.kept_set_fullscreen_global sA none), by
        simp only [hm, if_true]
        exact conA⟩
    · exact ⟨_, rfl, by simp only [hm, if_false]; exact kA, by
        simp only [hm, if_false]; exact conA⟩
  obtain ⟨u, hu, kU, conU⟩ := hU
  simp only [hu]
  have hvU : Valid u := kU.soft.soft_valid hv
  have hCu : u.con child = some C := by rw [conU]; exact hC
  have hpkU : ∀ p, u.parentOf child = some p → child ∈ u.kids p := by
    intro p hp
    rw [kU.kept_kids]
    exact hl.parent_kids child p (by rw [← kU.kept_parentOf]; exact hp)
  obtain ⟨sib, sB, hsib, hsB, hun, hparB, hwsB⟩ := detach_unlink_step hvU hpkU hCu hatt
  refine Returns.bind_some hsib ?_
  refine @Returns.bind_some _ _ _ sB _ _ ?_ ?_
  · cases sib <;> exact hsB
  have hun0 : Unlinked s child sB := Unlinked.kept_left kU hun
  have hliveB : (sB.con child).isSome := by rw [hun0.skel.live]; exact hlive
  refine Returns.bind_some (modCon_setLinks none none hliveB) ?_
  -- the cascade
  have hkC : ∀ x, (sB.setLinks child none none).kids x = sB.kids x :=
    kids_setLinks sB child none none
  have hrC : ∀ p y, y ∈ (sB.setLinks child none none).kids p → r y < r p := by
    intro p y hy
    rw [hkC] at hy
    exact hr p y (hun0.unlinked_kids_subset hy)
  have hokC : SubtreeOk (sB.setLinks child none none) child := by
    intro p y hp hy
    have hp0 : Reach s child p :=
      reach_of_kids_subset (fun a b hb => by rw [hkC] at hb; exact hun0.unlinked_kids_subset hb) hp
    rw [hkC] at hy
    have hy0 := hun0.unlinked_kids_subset hy
    have hne : y ≠ child := by
      rintro rfl
      have h1 := hr p y hy0
      have h2 := Reach.rank_le hr hp0
      omega
    refine ⟨?_, ?_⟩
    · rw [live_setLinks, hun0.skel.live]; exact hv.kids p y hy0
    · rw [parentOf_setLinks sB child none none y hliveB, if_neg hne, hparB, kU.kept_parentOf]
      exact hl.kids_parent p y hy0
  have hcas := for_each_child_spec r (r child + 1) (sB.setLinks child none none) child hrC hokC
    (by omega) (by rw [live_setLinks]; exact hliveB)
  have hwsC : (sB.setLinks child none none).wsOf child = none := by
    rw [wsOf_setLinks sB child none none child hliveB]; simp
  rw [hwsC] at hcas
  refine Returns.bind hcas ?_
  intro sD hD
  have hpostD : DetachPost s child sD :=
    detach_assemble r hl hr hlive kU hun hparB hwsB hD (Kept.kept_refl sD)
  have hvD : Valid sD := hpostD.detach_valid hv
  -- the dirty flag of the child
  have hlast : ∀ t, Kept sD t →
      Returns (fun _ : Nat => t.dirtyCon child) (DetachPost s child) := by
    intro t kt
    have htl : (t.con child).isSome := by
      rw [kt.soft.soft_live, hpostD.unlinked.skel.live]; exact hlive
    obtain ⟨t2, ht2, k2⟩ := dirtyCon_kept htl
    exact Returns.of_some ht2 (hpostD.detach_kept_right (kt.kept_trans k2))
  cases hp : C.pending.parent with
  | some p =>
    have hpar : s.parentOf child = some p := by simp [State.parentOf, hC, hp]
    have hplive : (sD.con p).isSome := by
      rw [hpostD.unlinked.skel.live]; exact hv.parent child p hpar
    have hup := update_representation_spec r K hK (K - r p + 1) sD p hvD
      (hpostD.parent_rank hl hr) (by omega) hplive
    have hup2 : Returns (fun fuel =>
        (container_update_representation fuel sD p).bind fun s => s.dirtyCon p) (Kept sD) := by
      refine Returns.bind hup ?_
      intro s1 k1
      have hl1 : (s1.con p).isSome := by rw [k1.soft.soft_live]; exact hplive
      obtain ⟨t2, ht2, k2⟩ := dirtyCon_kept hl1
      exact Returns.of_some ht2 (k1.kept_trans k2)
    exact Returns.bind hup2 hlast
  | none =>
    cases hw : C.pending.workspace with
    | some w =>
      have hwl : (sD.ws w).isSome := by
        rw [hpostD.unlinked.skel.wlive]
        exact hv.ws child w (by simp [State.wsOf, hC, hw])
      have hwl2 : ((workspace_update_representation sD w).ws w).isSome := by
        simpa [workspace_update_representation] using hwl
      obtain ⟨t2, ht2, k2⟩ := dirtyWs_kept hwl2
      refine Returns.bind_some ht2 ?_
      exact hlast t2 ((Kept.kept_emit sD _).kept_trans k2)
    | none =>
      refine Returns.bind_some (rfl : (pure sD : Option State) = some sD) ?_
      exact hlast sD (Kept.kept_refl sD)

/-! ## Detaching keeps the tree well formed -/
theorem Unlinked.not_mem_kids {s t : State} {child p : Nat} (h : Unlinked s child t)
    (hp : s.parentOf child = some p) (hn : (s.kids p).Nodup) : child ∉ t.kids p := by
  unfold State.kids at hn ⊢
  rw [h.childrenOf]
  cases hx : s.childrenOf p with
  | none => simp
  | some l =>
    rw [hx] at hn
    simp only [Option.getD_some] at hn
    simp only [hp, if_true, Option.map_some', Option.getD_some]
    exact fun hmem => (List.Nodup.mem_erase_iff hn).mp hmem |>.1 rfl

theorem Unlinked.mem_kids_of_ne {s t : State} {child x q : Nat} (h : Unlinked s child t)
    (hx : x ∈ s.kids q) (hne : x ≠ child) : x ∈ t.kids q := by
  unfold State.kids at hx ⊢
  rw [h.childrenOf]
  cases hq : s.childrenOf q with
  | none => simp [hq] at hx
  | some l =>
    rw [hq] at hx
    simp only [Option.getD_some] at hx
    simp only [Option.map_some', Option.getD_some]
    split
    · exact (List.mem_erase_of_ne hne).mpr hx
    · exact hx

theorem Unlinked.kids_nodup {s t : State} {child : Nat} (h : Unlinked s child t)
    (p : Nat) (hn : (s.kids p).Nodup) : (t.kids p).Nodup := by
  unfold State.kids at hn ⊢
  rw [h.childrenOf]
  cases hq : s.childrenOf p with
  | none => simp
  | some l =>
    rw [hq] at hn
    simp only [Option.getD_some] at hn
    simp only [Option.map_some', Option.getD_some]
    split
    · exact hn.erase _
    · exact hn

/-- The top-level lists after the removal, workspace by workspace. -/
theorem Unlinked.tops_eq {s t : State} {child : Nat} (h : Unlinked s child t) (w : Nat) :
    ∃ T F, t.tops w = T ++ F ∧
      match s.ws w with
      | some W =>
        T = (if s.parentOf child = none ∧ s.wsOf child = some w then W.tiling.erase child
             else W.tiling) ∧
        F = (if s.parentOf child = none ∧ s.wsOf child = some w ∧ child ∉ W.tiling
             then W.floating.erase child else W.floating)
      | none => T = [] ∧ F = [] := by
  have h1 := h.tiling w
  have h2 := h.floating w
  unfold State.tops
  cases hs : s.ws w with
  | none =>
    rw [hs] at h1
    cases ht : t.ws w with
    | none => exact ⟨[], [], rfl, rfl, rfl⟩
    | some V => rw [ht] at h1; simp at h1
  | some W =>
    rw [hs] at h1 h2
    cases ht : t.ws w with
    | none => rw [ht] at h1; simp at h1
    | some V =>
      rw [ht] at h1 h2
      simp only [Option.map_some', Option.some.injEq] at h1 h2
      exact ⟨V.tiling, V.floating, rfl, h1, h2⟩

theorem Unlinked.tops_sublist {s t : State} {child : Nat} (h : Unlinked s child t) (w : Nat) :
    (t.tops w).Sublist (s.tops w) := by
  obtain ⟨T, F, hT, hm⟩ := h.tops_eq w
  rw [hT]
  unfold State.tops
  cases hs : s.ws w with
  | none =>
    rw [hs] at hm
    obtain ⟨rfl, rfl⟩ := hm
    simp
  | some W =>
    rw [hs] at hm
    obtain ⟨rfl, rfl⟩ := hm
    simp only []
    refine List.Sublist.append ?_ ?_
    · split
      · exact List.erase_sublist _ _
      · exact List.Sublist.refl _
    · split
      · exact List.erase_sublist _ _
      · exact List.Sublist.refl _

theorem Unlinked.mem_tops_of_ne {s t : State} {child x w : Nat} (h : Unlinked s child t)
    (hx : x ∈ s.tops w) (hne : x ≠ child) : x ∈ t.tops w := by
  obtain ⟨T, F, hT, hm⟩ := h.tops_eq w
  rw [hT]
  unfold State.tops at hx
  cases hs : s.ws w with
  | none => rw [hs] at hx; simp at hx
  | some W =>
    rw [hs] at hm hx
    obtain ⟨rfl, rfl⟩ := hm
    simp only [List.mem_append] at hx ⊢
    rcases hx with hx | hx
    · left
      split
      · exact (List.mem_erase_of_ne hne).mpr hx
      · exact hx
    · right
      split
      · exact (List.mem_erase_of_ne hne).mpr hx
      · exact hx

theorem Unlinked.not_mem_tops {s t : State} {child w : Nat} (h : Unlinked s child t)
    (hp : s.parentOf child = none) (hw : s.wsOf child = some w) (hn : (s.tops w).Nodup) :
    child ∉ t.tops w := by
  obtain ⟨T, F, hT, hm⟩ := h.tops_eq w
  rw [hT]
  unfold State.tops at hn
  cases hs : s.ws w with
  | none =>
    rw [hs] at hm
    obtain ⟨rfl, rfl⟩ := hm
    simp
  | some W =>
    rw [hs] at hm hn
    obtain ⟨rfl, rfl⟩ := hm
    simp only [] at hn
    have hnt : W.tiling.Nodup := (List.nodup_append.mp hn).1
    have hnf : W.floating.Nodup := (List.nodup_append.mp hn).2.1
    have hdis := (List.nodup_append.mp hn).2.2
    simp only [hp, hw, true_and, if_true, List.mem_append, not_or]
    refine ⟨fun hmem => ((List.Nodup.mem_erase_iff hnt).mp hmem).1 rfl, ?_⟩
    by_cases ht : child ∈ W.tiling
    · simp only [ht, not_true_eq_false, if_false]
      exact fun hf => hdis ht hf
    · simp only [ht, not_false_eq_true, if_true]
      exact fun hmem => ((List.Nodup.mem_erase_iff hnf).mp hmem).1 rfl

theorem DetachPost.not_reach_of_top {s : State} {child c : Nat} (hl : Linked s)
    (hp : s.parentOf c = none) (hne : c ≠ child) : ¬ Reach s child c := by
  intro hr
  rcases reach_cases hr with h | ⟨y, hy, hyc⟩
  · exact hne h
  · rcases Relation.ReflTransGen.cases_tail hyc with h | ⟨z, -, hz⟩
    · rw [h] at hp
      rw [hl.kids_parent child y hy] at hp
      cases hp
    · rw [hl.kids_parent z c hz] at hp
      cases hp

theorem DetachPost.detach_linked {s t : State} {child : Nat} (h : DetachPost s child t)
    (hl : Linked s) : Linked t where
  kids_parent := fun p c hc => by
    have hc0 := h.unlinked.unlinked_kids_subset hc
    have hpar := hl.kids_parent p c hc0
    have hne : c ≠ child := by
      rintro rfl
      exact h.unlinked.not_mem_kids hpar (hl.kids_nodup p) hc
    rw [h.parentOf, if_neg hne]
    exact hpar
  parent_kids := fun c p hc => by
    rw [h.parentOf] at hc
    by_cases hcc : c = child
    · simp [hcc] at hc
    · simp only [hcc, if_false] at hc
      exact h.unlinked.mem_kids_of_ne (hl.parent_kids c p hc) hcc
  kids_nodup := fun p => h.unlinked.kids_nodup p (hl.kids_nodup p)
  tops_nodup := fun w => (hl.tops_nodup w).sublist (h.unlinked.tops_sublist w)
  tops_top := fun w c hc => by
    have hc0 := (h.unlinked.tops_sublist w).subset hc
    obtain ⟨hp, hw⟩ := hl.tops_top w c hc0
    have hne : c ≠ child := by
      rintro rfl
      exact h.unlinked.not_mem_tops hp hw (hl.tops_nodup w) hc
    rw [h.parentOf, if_neg hne, h.ws_out c (DetachPost.not_reach_of_top hl hp hne)]
    exact ⟨hp, hw⟩
  top_tops := fun c w hp hw => by
    have hnr : ¬ Reach s child c := by
      intro hr
      rw [h.ws_in c hr] at hw
      cases hw
    have hne : c ≠ child := fun hcc => hnr (hcc ▸ Reach.reach_refl s child)
    rw [h.parentOf, if_neg hne] at hp
    rw [h.ws_out c hnr] at hw
    exact h.unlinked.mem_tops_of_ne (hl.top_tops c w hp hw) hne
  view_leaf := fun c C hC hview => by
    have hlive : (s.con c).isSome := by rw [← h.unlinked.skel.live, hC]; rfl
    obtain ⟨C0, hC0⟩ := Option.isSome_iff_exists.mp hlive
    have hv0 : C0.view ≠ none := by
      have := h.unlinked.skel.viewOf c
      simp only [State.viewOf, hC, hC0, Option.some_bind] at this
      rw [← this]; exact hview
    have hch := h.unlinked.childrenOf c
    simp only [State.childrenOf, hC, hC0, Option.some_bind, hl.view_leaf c C0 hC0 hv0,
      Option.map_none'] at hch
    exact hch

theorem DetachPost.detach_rank {s t : State} {child : Nat} (h : DetachPost s child t)
    {r : Nat → Nat} (hr : ∀ p c, c ∈ s.kids p → r c < r p) :
    ∀ p c, c ∈ t.kids p → r c < r p :=
  fun p c hc => hr p c (h.unlinked.unlinked_kids_subset hc)

theorem DetachPost.detach_acyclic {s t : State} {child : Nat} (h : DetachPost s child t)
    (ha : Acyclic s) : Acyclic t := by
  obtain ⟨r, K, hK, hr⟩ := ha
  exact ⟨r, K, hK, h.detach_rank hr⟩

theorem DetachPost.detach_reach {s t : State} {child : Nat} (h : DetachPost s child t)
    {c x : Nat} (hx : Reach t c x) : Reach s c x :=
  reach_of_kids_subset (fun _ _ hy => h.unlinked.unlinked_kids_subset hy) hx

theorem DetachPost.detach_fsLive {s t : State} {child : Nat} (h : DetachPost s child t)
    (hf : FsLive s) : FsLive t :=
  fun w f hw => by rw [h.unlinked.skel.live]; exact hf w f (h.unlinked.fsOf w f hw)

/-- Detaching keeps the agreement between a container's workspace and its
parent's. -/
theorem DetachPost.detach_parent_workspace {s t : State} {child : Nat} (h : DetachPost s child t)
    (hl : Linked s) (hpw : ∀ c p, s.parentOf c = some p → s.wsOf c = s.wsOf p) :
    ∀ c p, t.parentOf c = some p → t.wsOf c = t.wsOf p := by
  intro c p hc
  rw [h.parentOf] at hc
  by_cases hcc : c = child
  · simp [hcc] at hc
  · simp only [hcc, if_false] at hc
    by_cases hrc : Reach s child c
    · -- a strict descendant: its parent is in the subtree as well
      have hrp : Reach s child p := by
        rcases Relation.ReflTransGen.cases_tail hrc with h0 | ⟨z, hz, hzc⟩
        · exact absurd h0.symm (fun h1 => hcc h1.symm)
        · have := hl.kids_parent z c hzc
          rw [hc] at this
          cases this
          exact hz
      rw [h.ws_in c hrc, h.ws_in p hrp]
    · have hrp : ¬ Reach s child p := fun hp =>
        hrc (Reach.tail hp (hl.parent_kids c p hc))
      rw [h.ws_out c hrc, h.ws_out p hrp]
      exact hpw c p hc

/-- A rank for the tree with one more edge from `parent` to `child`, when `parent`
is not below `child`. -/
theorem rank_add_edge {s : State} {r : Nat → Nat} {K : Nat} (hK : ∀ x, r x ≤ K)
    (hr : ∀ p c, c ∈ s.kids p → r c < r p) {child parent : Nat}
    (hn : ¬ Reach s child parent) :
    ∃ r2 : Nat → Nat, (∀ x, r2 x ≤ 2 * K + 1) ∧ (∀ p c, c ∈ s.kids p → r2 c < r2 p) ∧
      r2 child < r2 parent := by
  classical
  refine ⟨fun x => if Reach s child x then r x else r x + K + 1, ?_, ?_, ?_⟩
  · intro x
    have := hK x
    show (if Reach s child x then r x else r x + K + 1) ≤ 2 * K + 1
    split <;> omega
  · intro p c hc
    have h1 := hr p c hc
    have h2 := hK c
    show (if Reach s child c then r c else r c + K + 1) <
      (if Reach s child p then r p else r p + K + 1)
    by_cases hp : Reach s child p
    · have hcr : Reach s child c := Reach.tail hp hc
      simp only [hp, hcr, if_true]
      exact h1
    · simp only [hp, if_false]
      split <;> omega
  · have h2 := hK child
    show (if Reach s child child then r child else r child + K + 1) <
      (if Reach s child parent then r parent else r parent + K + 1)
    simp only [Reach.reach_refl s child, hn, if_true, if_false]
    omega

/-! ## Linking a container into its new place -/
theorem LinkPost.soft_right {s2 t u : State} {child : Nat} {newpar neww : Option Nat}
    (h : LinkPost s2 child newpar neww t) (hs : Soft t u) :
    LinkPost s2 child newpar neww u where
  skel := h.skel.skel_trans hs.soft_skel
  parentOf := fun x => by rw [hs.soft_parentOf, h.parentOf]
  ws_in := fun x hx => by rw [hs.soft_wsOf, h.ws_in x hx]
  ws_out := fun x hx => by rw [hs.soft_wsOf, h.ws_out x hx]
  childrenOf := fun x => by rw [hs.soft_childrenOf, h.childrenOf]
  tiling := fun w => by rw [hs.wproj (·.tiling) (fun _ => rfl) w, h.tiling]
  floating := fun w => by rw [hs.wproj (·.floating) (fun _ => rfl) w, h.floating]

theorem LinkPost.kids {s2 t : State} {child : Nat} {newpar neww : Option Nat}
    (h : LinkPost s2 child newpar neww t) (x : Nat) : t.kids x = s2.kids x := by
  simp [State.kids, h.childrenOf]

theorem LinkPost.link_valid {s2 t : State} {child : Nat} {newpar neww : Option Nat}
    (h : LinkPost s2 child newpar neww t) (hv : Valid s2)
    (hpar : ∀ p, newpar = some p → (s2.con p).isSome)
    (hws : ∀ w, neww = some w → (s2.ws w).isSome) : Valid t := by
  refine h.skel.skel_valid hv ?_ ?_ ?_
  · intro c w hw
    by_cases hc : Reach s2 child c
    · rw [h.ws_in c hc] at hw; exact hws w hw
    · rw [h.ws_out c hc] at hw; exact hv.ws c w hw
  · intro p c hc
    rw [h.kids] at hc
    exact hv.kids p c hc
  · intro c p hc
    rw [h.parentOf] at hc
    by_cases hcc : c = child
    · simp only [hcc, if_true] at hc
      exact hpar p hc
    · simp only [hcc, if_false] at hc
      exact hv.parent c p hc

theorem link_core {s2 : State} {child : Nat} (newpar neww : Option Nat) (r : Nat → Nat)
    (K : Nat) (hv : Valid s2) (hfs : FsLive s2) (hK : ∀ x, r x ≤ K)
    (hr : ∀ p c, c ∈ s2.kids p → r c < r p)
    (hok : SubtreeOk s2 child) (hC : (s2.con child).isSome)
    (hpar : ∀ p, newpar = some p → (s2.con p).isSome)
    (hws : ∀ w, neww = some w → (s2.ws w).isSome) :
    Returns (fun fuel =>
      (s2.modCon child (fun C => { C with
          pending := { C.pending with parent := newpar, workspace := neww } })).bind fun s =>
        (container_for_each_child fuel set_workspace s child).bind fun s =>
          container_handle_fullscreen_reparent fuel s child)
      (LinkPost s2 child newpar neww) := by
  refine Returns.bind_some (modCon_setLinks newpar neww hC) ?_
  have hkC : ∀ x, (s2.setLinks child newpar neww).kids x = s2.kids x :=
    kids_setLinks s2 child newpar neww
  have hrC : ∀ p y, y ∈ (s2.setLinks child newpar neww).kids p → r y < r p := by
    intro p y hy
    rw [hkC] at hy
    exact hr p y hy
  have hreach : ∀ x, Reach (s2.setLinks child newpar neww) child x ↔ Reach s2 child x := by
    intro x
    constructor
    · exact reach_of_kids_subset (fun a b hb => by rw [hkC] at hb; exact hb)
    · exact reach_congr (fun p _ => hkC p)
  have hbelow : ∀ x, Below (s2.setLinks child newpar neww) child x ↔ Below s2 child x := by
    intro x
    constructor
    · rintro ⟨y, hy, hyx⟩
      rw [hkC] at hy
      exact ⟨y, hy, reach_of_kids_subset (fun a b hb => by rw [hkC] at hb; exact hb) hyx⟩
    · rintro ⟨y, hy, hyx⟩
      exact ⟨y, by rw [hkC]; exact hy, reach_congr (fun p _ => hkC p) hyx⟩
  have hokC : SubtreeOk (s2.setLinks child newpar neww) child := by
    intro p y hp hy
    rw [hreach] at hp
    rw [hkC] at hy
    obtain ⟨hyl, hyp⟩ := hok p y hp hy
    have hne : y ≠ child := by
      rintro rfl
      have h1 := hr p y hy
      have h2 := Reach.rank_le hr hp
      omega
    refine ⟨by rw [live_setLinks]; exact hyl, ?_⟩
    rw [parentOf_setLinks s2 child newpar neww y hC, if_neg hne]
    exact hyp
  have hcas := for_each_child_spec r (r child + 1) (s2.setLinks child newpar neww) child hrC hokC
    (by omega) (by rw [live_setLinks]; exact hC)
  have hwsC : (s2.setLinks child newpar neww).wsOf child = neww := by
    rw [wsOf_setLinks s2 child newpar neww child hC]; simp
  rw [hwsC] at hcas
  refine Returns.bind hcas ?_
  intro s4 hD
  have hpost : LinkPost s2 child newpar neww s4 := by
    refine ⟨(Skel.setLinks s2 child newpar neww).skel_trans hD.only.wsonly_skel, ?_, ?_, ?_, ?_, ?_,
      ?_⟩
    · intro x
      rw [hD.only.wsonly_parentOf, parentOf_setLinks s2 child newpar neww x hC]
    · intro x hx
      rcases reach_cases hx with rfl | hb
      · have hnb : ¬ Below (s2.setLinks x newpar neww) x x := by
          rw [hbelow]; exact Below.irrefl hr x
        rw [wsOf_of_con_eq (hD.outside x hnb), wsOf_setLinks s2 x newpar neww x hC]
        simp
      · exact hD.inside x ((hbelow x).mpr hb)
    · intro x hx
      have hne : x ≠ child := fun h => hx (h ▸ Reach.reach_refl s2 child)
      have hnb : ¬ Below (s2.setLinks child newpar neww) child x := by
        rw [hbelow]; exact fun hb => hx hb.below_reach
      rw [wsOf_of_con_eq (hD.outside x hnb), wsOf_setLinks s2 child newpar neww x hC]
      simp [hne]
    · intro x
      rw [hD.only.wsonly_childrenOf, childrenOf_setLinks]
    · intro w
      rw [hD.only.wsonly_ws, ws_setLinks]
    · intro w
      rw [hD.only.wsonly_ws, ws_setLinks]
  have hv4 : Valid s4 := hpost.link_valid hv hpar hws
  have ha4 : Acyclic s4 := ⟨r, K, hK, fun p c hc => hr p c (by rw [← hpost.kids]; exact hc)⟩
  have hfs4 : FsLive s4 := by
    intro w f hw
    rw [hpost.skel.live]
    refine hfs w f ?_
    simpa [State.fsOf, hD.only.wsonly_ws, ws_setLinks] using hw
  have hl4 : (s4.con child).isSome := by rw [hpost.skel.live]; exact hC
  exact (handle_fullscreen_reparent_soft hv4 ha4 hfs4 hl4).returns_mono
    (fun t ht => hpost.soft_right ht)

/-! ## The detach at the start of an attach operation -/
theorem detach_or_skip {s : State} {child : Nat} {C : sway_container} (r : Nat → Nat) (K : Nat)
    (hv : Valid s) (hl : Linked s) (hr : ∀ p c, c ∈ s.kids p → r c < r p) (hK : ∀ x, r x ≤ K)
    (hC : s.con child = some C) :
    Returns (fun fuel =>
      if C.pending.workspace.isSome = true then container_detach fuel s child else pure s)
      (PreLink s child) := by
  by_cases hw : C.pending.workspace.isSome = true
  · simp only [hw, if_true]
    refine (detach_spec r K hv hl hr hK hC (Or.inr (Or.inl hw)) (fun _ => hw)).returns_mono ?_
    intro t ht
    exact Or.inl ⟨by simpa [State.wsOf, hC] using hw, ht⟩
  · simp only [hw, if_false]
    refine Returns.of_some rfl (Or.inr ⟨?_, rfl⟩)
    cases hws : C.pending.workspace with
    | none => simp [State.wsOf, hC, hws]
    | some w => simp [hws] at hw

theorem PreLink.skel {s s1 : State} {child : Nat} (h : PreLink s child s1) : Skel s s1 := by
  rcases h with ⟨-, h⟩ | ⟨-, rfl⟩
  · exact h.unlinked.skel
  · exact Skel.skel_refl _

theorem PreLink.prelink_valid {s s1 : State} {child : Nat} (h : PreLink s child s1) (hv : Valid s) :
    Valid s1 := by
  rcases h with ⟨-, h⟩ | ⟨-, rfl⟩
  · exact h.detach_valid hv
  · exact hv

theorem PreLink.prelink_linked {s s1 : State} {child : Nat} (h : PreLink s child s1) (hl : Linked s) :
    Linked s1 := by
  rcases h with ⟨-, h⟩ | ⟨-, rfl⟩
  · exact h.detach_linked hl
  · exact hl

theorem PreLink.prelink_rank {s s1 : State} {child : Nat} (h : PreLink s child s1)
    {r : Nat → Nat} (hr : ∀ p c, c ∈ s.kids p → r c < r p) :
    ∀ p c, c ∈ s1.kids p → r c < r p := by
  rcases h with ⟨-, h⟩ | ⟨-, rfl⟩
  · exact h.detach_rank hr
  · exact hr

theorem PreLink.prelink_fsLive {s s1 : State} {child : Nat} (h : PreLink s child s1) (hf : FsLive s) :
    FsLive s1 := by
  rcases h with ⟨-, h⟩ | ⟨-, rfl⟩
  · exact h.detach_fsLive hf
  · exact hf

theorem PreLink.prelink_reach {s s1 : State} {child : Nat} (h : PreLink s child s1) {c x : Nat}
    (hx : Reach s1 c x) : Reach s c x := by
  rcases h with ⟨-, h⟩ | ⟨-, rfl⟩
  · exact h.detach_reach hx
  · exact hx

theorem PreLink.wsOf_child {s s1 : State} {child : Nat} (h : PreLink s child s1) :
    s1.wsOf child = none := by
  rcases h with ⟨-, h⟩ | ⟨h0, rfl⟩
  · exact h.ws_in child (Reach.reach_refl s child)
  · exact h0

theorem PreLink.prelink_parent_workspace {s s1 : State} {child : Nat} (h : PreLink s child s1)
    (hl : Linked s) (hpw : ∀ c p, s.parentOf c = some p → s.wsOf c = s.wsOf p) :
    ∀ c p, s1.parentOf c = some p → s1.wsOf c = s1.wsOf p := by
  rcases h with ⟨-, h⟩ | ⟨-, rfl⟩
  · exact h.detach_parent_workspace hl hpw
  · exact hpw

/-- Outside the subtree of `child` the workspaces are as before. -/
theorem PreLink.ws_out {s s1 : State} {child : Nat} (h : PreLink s child s1) {x : Nat}
    (hx : ¬ Reach s child x) : s1.wsOf x = s.wsOf x := by
  rcases h with ⟨-, h⟩ | ⟨-, rfl⟩
  · exact h.ws_out x hx
  · rfl

theorem PreLink.prelink_kids_subset {s s1 : State} {child : Nat} (h : PreLink s child s1) {x y : Nat}
    (hy : y ∈ s1.kids x) : y ∈ s.kids x := by
  rcases h with ⟨-, h⟩ | ⟨-, rfl⟩
  · exact h.unlinked.unlinked_kids_subset hy
  · exact hy

/-! ## Inserting into a children list -/
theorem reach_setChildren {s1 : State} {parent child : Nat} {l2 : List Nat}
    (hP : (s1.con parent).isSome) (hn : ¬ Reach s1 child parent) {x : Nat}
    (hx : Reach (s1.setChildren parent l2) child x) : Reach s1 child x := by
  induction hx with
  | refl => exact Reach.reach_refl s1 child
  | tail hy hz ih =>
    rename_i y z
    have hne : y ≠ parent := fun h => hn (h ▸ ih)
    rw [kids_setChildren s1 parent l2 y hP, if_neg hne] at hz
    exact Reach.tail ih hz

theorem LinkPost.upRank {s2 t : State} {child : Nat} {newpar neww : Option Nat}
    (h : LinkPost s2 child newpar neww t) {r : Nat → Nat} {K : Nat} (hK : ∀ x, r x ≤ K)
    (hr : ∀ x q, x ≠ child → s2.parentOf x = some q → r x < r q)
    (hc : ∀ p, newpar = some p → r child < r p) : UpRank t := by
  refine ⟨r, K, hK, fun x q hx => ?_⟩
  rw [h.parentOf] at hx
  by_cases hcc : x = child
  · simp only [hcc, if_true] at hx
    rw [hcc]; exact hc q hx
  · simp only [hcc, if_false] at hx
    exact hr x q hcc hx

theorem insert_core {s1 : State} {parent child : Nat} {l1 l2 : List Nat}
    (hv : Valid s1) (hl : Linked s1) (ha : Acyclic s1) (hfs : FsLive s1)
    (hC : (s1.con child).isSome) (hP : s1.childrenOf parent = some l1)
    (hn : ¬ Reach s1 child parent)
    (hl2 : ∀ y, y ∈ l2 ↔ y ∈ l1 ∨ y = child) :
    Returns (fun fuel =>
      (s1.writeList (.children parent) l2).bind fun s =>
        (s.con parent).bind fun P =>
          (s.modCon child (fun C => { C with
            pending := { C.pending with parent := some parent,
                                        workspace := P.pending.workspace } })).bind fun s =>
          (container_for_each_child fuel set_workspace s child).bind fun s =>
            container_handle_fullscreen_reparent fuel s child)
      (fun t => LinkPost (s1.setChildren parent l2) child (some parent) (s1.wsOf parent) t ∧
        Valid t ∧ UpRank t) := by
  obtain ⟨r, K, hK, hr⟩ := ha
  have hPl : (s1.con parent).isSome := by
    cases h : s1.con parent with
    | none => simp [State.childrenOf, h] at hP
    | some _ => rfl
  obtain ⟨P, hPc⟩ := Option.isSome_iff_exists.mp hPl
  have hkids1 : s1.kids parent = l1 := by simp [State.kids, hP]
  obtain ⟨r2, hK2, hr2, hedge⟩ := rank_add_edge hK hr hn
  refine Returns.bind_some (writeList_children l2 hPl) ?_
  have hP2 : (s1.setChildren parent l2).con parent = some { P with
      pending := { P.pending with children := some l2 } } := by
    simp [State.setChildren, hPc]
  refine Returns.bind_some hP2 ?_
  have hwsP : s1.wsOf parent = P.pending.workspace := by simp [State.wsOf, hPc]
  have hk2 : ∀ x, (s1.setChildren parent l2).kids x = if x = parent then l2 else s1.kids x :=
    fun x => kids_setChildren s1 parent l2 x hPl
  have hC2 : ((s1.setChildren parent l2).con child).isSome := by
    rw [live_setChildren]; exact hC
  have hv2 : Valid (s1.setChildren parent l2) := by
    refine (Skel.setChildren s1 parent l2 (by rw [hP]; rfl)).skel_valid hv ?_ ?_ ?_
    · intro c w hw
      rw [wsOf_setChildren] at hw
      exact hv.ws c w hw
    · intro p c hc
      rw [hk2] at hc
      by_cases hp : p = parent
      · simp only [hp, if_true] at hc
        rcases (hl2 c).mp hc with h | h
        · exact hv.kids parent c (by rw [hkids1]; exact h)
        · rw [h]; exact hC
      · simp only [hp, if_false] at hc
        exact hv.kids p c hc
    · intro c p hc
      rw [parentOf_setChildren] at hc
      exact hv.parent c p hc
  have hfs2 : FsLive (s1.setChildren parent l2) := by
    intro w f hw
    rw [live_setChildren]
    exact hfs w f (by simpa [State.fsOf, ws_setChildren] using hw)
  have hrk2 : ∀ p c, c ∈ (s1.setChildren parent l2).kids p → r2 c < r2 p := by
    intro p c hc
    rw [hk2] at hc
    by_cases hp : p = parent
    · simp only [hp, if_true] at hc
      rw [hp]
      rcases (hl2 c).mp hc with h | h
      · exact hr2 parent c (by rw [hkids1]; exact h)
      · rw [h]; exact hedge
    · simp only [hp, if_false] at hc
      exact hr2 p c hc
  have hok2 : SubtreeOk (s1.setChildren parent l2) child := by
    intro p y hp hy
    have hp1 := reach_setChildren hPl hn hp
    have hne : p ≠ parent := fun h => hn (h ▸ hp1)
    rw [hk2, if_neg hne] at hy
    refine ⟨by rw [live_setChildren]; exact hv.kids p y hy, ?_⟩
    rw [parentOf_setChildren]
    exact hl.kids_parent p y hy
  have hcore := link_core (some parent) P.pending.workspace r2 (2 * K + 1) hv2 hfs2 hK2 hrk2
    hok2 hC2 (fun p hp => by cases hp; rw [live_setChildren]; exact hPl)
    (fun w hw => by
      rw [ws_setChildren]
      exact hv.ws parent w (by rw [hwsP]; exact hw))
  rw [hwsP]
  refine hcore.returns_mono ?_
  intro t ht
  refine ⟨ht, ht.link_valid hv2 (fun p hp => by cases hp; rw [live_setChildren]; exact hPl)
    (fun w hw => by
      rw [ws_setChildren]
      exact hv.ws parent w (by rw [hwsP]; exact hw)), ?_⟩
  refine ht.upRank hK2 ?_ ?_
  · intro x q _ hx
    rw [parentOf_setChildren] at hx
    exact hr2 q x (hl.parent_kids x q hx)
  · intro p hp
    cases hp
    exact hedge

/-! ## Attaching below a parent -/
theorem PreLink.childrenOf_isSome {s s1 : State} {child : Nat} (h : PreLink s child s1)
    {parent : Nat} {l : List Nat} (hP : s.childrenOf parent = some l) :
    ∃ l1, s1.childrenOf parent = some l1 ∧ (l.erase child).length ≤ l1.length := by
  rcases h with ⟨-, h⟩ | ⟨-, rfl⟩
  · have := h.unlinked.childrenOf parent
    rw [hP] at this
    simp only [Option.map_some'] at this
    refine ⟨_, this, ?_⟩
    split
    · exact le_refl _
    · exact (List.erase_sublist child l).length_le
  · exact ⟨l, hP, (List.erase_sublist child l).length_le⟩

theorem attach_tail {t : State} {parent : Nat} (hv : Valid t) (hup : UpRank t)
    (hP : (t.con parent).isSome) :
    Returns (fun fuel => container_update_representation fuel t parent) (Kept t) := by
  obtain ⟨r, K, hK, hr⟩ := hup
  exact update_representation_spec r K hK (K - r parent + 1) t parent hv hr (by omega) hP

theorem add_child_spec {s : State} {parent child : Nat} {l : List Nat}
    (hv : Valid s) (hl : Linked s) (ha : Acyclic s) (hfs : FsLive s)
    (hC : (s.con child).isSome) (hP : s.childrenOf parent = some l)
    (hn : ¬ Reach s child parent) :
    Returns (fun fuel => container_add_child fuel s parent child)
      (AttachPost s parent child (fun l1 => l1 ++ [child])) := by
  obtain ⟨C, hCc⟩ := Option.isSome_iff_exists.mp hC
  obtain ⟨r, K, hK, hr⟩ := ha
  unfold container_add_child
  simp only [hCc, Option.bind_eq_bind, Option.some_bind]
  refine Returns.bind (detach_or_skip r K hv hl hr hK hCc) ?_
  intro s1 hpre
  obtain ⟨l1, hl1, -⟩ := hpre.childrenOf_isSome hP
  have hPl : (s1.con parent).isSome := by
    cases h : s1.con parent with
    | none => simp [State.childrenOf, h] at hl1
    | some _ => rfl
  obtain ⟨P, hPc⟩ := Option.isSome_iff_exists.mp hPl
  have hPch : P.pending.children = some l1 := by
    simpa [State.childrenOf, hPc] using hl1
  refine Returns.bind_some hPc ?_
  refine Returns.bind_some hPch ?_
  have hC1 : (s1.con child).isSome := by rw [hpre.skel.live]; exact hC
  have hcore := insert_core (hpre.prelink_valid hv) (hpre.prelink_linked hl) ⟨r, K, hK, hpre.prelink_rank hr⟩
    (hpre.prelink_fsLive hfs) hC1 hl1 (fun h => hn (hpre.prelink_reach h))
    (by intro y; simp [list_add] : ∀ y, y ∈ list_add l1 child ↔ y ∈ l1 ∨ y = child)
  have htail : ∀ t, (LinkPost (s1.setChildren parent (list_add l1 child)) child (some parent)
        (s1.wsOf parent) t ∧ Valid t ∧ UpRank t) →
      Returns (fun fuel => (container_update_representation fuel t parent).bind fun s =>
        (s.dirtyCon child).bind fun s => s.dirtyCon parent)
        (AttachPost s parent child (fun l1 => l1 ++ [child])) := by
    rintro t ⟨hpost, hvt, hup⟩
    have hlp : (t.con parent).isSome := by
      rw [hpost.skel.live, live_setChildren]; exact hPl
    have hlc : (t.con child).isSome := by
      rw [hpost.skel.live, live_setChildren]; exact hC1
    refine Returns.bind (attach_tail hvt hup hlp) ?_
    intro t1 k1
    have hlc1 : (t1.con child).isSome := by rw [k1.soft.soft_live]; exact hlc
    obtain ⟨t2, ht2, k2⟩ := dirtyCon_kept hlc1
    refine Returns.bind_some ht2 ?_
    have hlp2 : (t2.con parent).isSome := by
      rw [k2.soft.soft_live, k1.soft.soft_live]; exact hlp
    obtain ⟨t3, ht3, k3⟩ := dirtyCon_kept hlp2
    refine Returns.of_some ht3 ⟨s1, l1, hpre, hl1, ?_⟩
    exact hpost.soft_right ((k1.kept_trans (k2.kept_trans k3)).soft)
  refine Returns.congr (fun fuel => ?_) (Returns.bind hcore htail)
  simp only [Option.bind_assoc]

theorem FullscreenConsistent.fsc_fsLive {s : State} (h : FullscreenConsistent s) : FsLive s :=
  fun _ _ hw => live_of_modeOf (h.fs_mode hw).1

/-- The links after `container_add_child` on a state in which `child` has no
workspace. -/
theorem add_child_detached {s : State} {parent child : Nat} {l : List Nat} {t : State}
    (h : AttachPost s parent child (fun l1 => l1 ++ [child]) t)
    (hw : s.wsOf child = none) (hP : s.childrenOf parent = some l) :
    LinkPost (s.setChildren parent (l ++ [child])) child (some parent) (s.wsOf parent) t := by
  obtain ⟨s1, l1, hpre, hl1, hpost⟩ := h
  rcases hpre with ⟨h0, -⟩ | ⟨-, rfl⟩
  · rw [hw] at h0; cases h0
  · rw [hP] at hl1
    cases hl1
    exact hpost

/-- C6: in a well-formed acyclic state with consistent workspaces and fullscreen
back-references, for a container `c` with parent `p` that is not fullscreen,
`container_detach(c)` followed by `container_add_child(p, c)` returns, and
afterwards `c.pending.parent` is `p`, `c` and every container of its subtree
have the workspace of `p`, `c` occurs exactly once in the children of `p` and
is their last element, and the children of `p` other than `c` are the former
ones in their former order. -/
theorem detach_add_child_round_trip (s : State) (c p : Nat)
    (hwf : TreeWF s) (ha : Acyclic s) (hfc : FullscreenConsistent s)
    (hp : s.parentOf c = some p) (hm : s.modeOf c = some FULLSCREEN_NONE) :
    Returns (fun fuel =>
        (container_detach fuel s c).bind fun s1 => container_add_child fuel s1 p c)
      (fun t =>
        t.parentOf c = some p ∧ t.wsOf c = t.wsOf p ∧
        (∀ x, Reach s c x → t.wsOf x = t.wsOf p) ∧
        (t.kids p).count c = 1 ∧ (t.kids p).getLast? = some c ∧
        (t.kids p).erase c = (s.kids p).erase c) := by
  have hv := hwf.treewf_valid
  have hl := hwf.treewf_linked
  obtain ⟨r, K, hK, hr⟩ := ha
  obtain ⟨C, hC⟩ := Option.isSome_iff_exists.mp (live_of_parentOf hp)
  have hCp : C.pending.parent = some p := by simpa [State.parentOf, hC] using hp
  have hCm : C.pending.fullscreen_mode = FULLSCREEN_NONE := by
    simpa [State.modeOf, hC] using hm
  have hdet := detach_spec r K hv hl hr hK hC (Or.inl (by rw [hCp]; rfl))
    (fun h => by rw [hCm] at h; cases h)
  refine Returns.bind hdet ?_
  intro s1 h1
  have hmem : c ∈ s.kids p := hl.parent_kids c p hp
  obtain ⟨P, l, hPc, hPl, hch, hkids⟩ := childrenOf_of_kids hmem
  have hnd : l.Nodup := by rw [← hkids]; exact hl.kids_nodup p
  have hnr : ¬ Reach s c p := by
    intro h
    have h2 := Reach.rank_le hr h
    have h3 := hr p c hmem
    omega
  have hch1 : s1.childrenOf p = some (l.erase c) := by
    rw [h1.unlinked.childrenOf, hch]
    simp [hp]
  have hw1 : s1.wsOf c = none := h1.ws_in c (Reach.reach_refl s c)
  have hadd := add_child_spec (h1.detach_valid hv) (h1.detach_linked hl) (h1.detach_acyclic ⟨r, K, hK, hr⟩)
    (h1.detach_fsLive hfc.fsc_fsLive) (by rw [h1.unlinked.skel.live, hC]; rfl) hch1
    (fun h => hnr (h1.detach_reach h))
  refine hadd.returns_mono ?_
  intro t ht
  have hpost := add_child_detached ht hw1 hch1
  have hPl1 : (s1.con p).isSome := by rw [h1.unlinked.skel.live, hPc]; rfl
  have hkt : t.kids p = l.erase c ++ [c] := by
    rw [hpost.kids, kids_setChildren s1 p _ p hPl1]
    simp
  have hnotin : c ∉ l.erase c := fun h => ((List.Nodup.mem_erase_iff hnd).mp h).1 rfl
  have hnr2 : ¬ Reach (s1.setChildren p (l.erase c ++ [c])) c p :=
    fun h => hnr (h1.detach_reach (reach_setChildren hPl1 (fun h => hnr (h1.detach_reach h)) h))
  have hwp : t.wsOf p = s1.wsOf p := by
    rw [hpost.ws_out p hnr2, wsOf_setChildren]
  have hsub : ∀ x, Reach s c x → Reach (s1.setChildren p (l.erase c ++ [c])) c x := by
    intro x hx
    refine reach_congr ?_ hx
    intro q hq
    have hqp : q ≠ p := fun h => hnr (h ▸ hq)
    rw [kids_setChildren s1 p _ q hPl1, if_neg hqp]
    exact h1.unlinked.kids_eq (by rw [hp]; exact fun h => hqp (Option.some.inj h).symm)
  refine ⟨?_, ?_, ?_, ?_, ?_, ?_⟩
  · rw [hpost.parentOf]; simp
  · rw [hwp]; exact hpost.ws_in c (Reach.reach_refl _ c)
  · intro x hx
    rw [hwp]; exact hpost.ws_in x (hsub x hx)
  · rw [hkt, List.count_append, List.count_eq_zero_of_not_mem hnotin]
    simp
  · rw [hkt]; simp
  · rw [hkt, hkids, List.erase_append_right _ hnotin]
    simp

theorem global_fullscreen_state_acyclic : Acyclic global_fullscreen_state := by
  refine acyclic_of_ids _ (fun x => if x = 0 then 1 else 0) 1 ?_ (by decide)
  intro x
  show (if x = 0 then 1 else 0) ≤ 1
  split <;> omega

/-- C6 at `global_fullscreen_state`: view 2 is detached from the split container
0 and added to it again. -/
theorem detach_add_child_round_trip_witness :
    Returns (fun fuel =>
        (container_detach fuel global_fullscreen_state 2).bind fun s1 =>
          container_add_child fuel s1 0 2)
      (fun t =>
        t.parentOf 2 = some 0 ∧ t.wsOf 2 = t.wsOf 0 ∧
        (∀ x, Reach global_fullscreen_state 2 x → t.wsOf x = t.wsOf 0) ∧
        (t.kids 0).count 2 = 1 ∧ (t.kids 0).getLast? = some 2 ∧
        (t.kids 0).erase 2 = (global_fullscreen_state.kids 0).erase 2) :=
  detach_add_child_round_trip global_fullscreen_state 2 0 (by decide)
    global_fullscreen_state_acyclic (by decide) (by decide) (by decide)

/-! ## Inserting at an index -/
theorem sway_list_insert_some {l : List Nat} {i : Int} (x : Nat) (h0 : 0 ≤ i)
    (h1 : i ≤ l.length) : sway_list_insert l i x = some (l.insertIdx i.toNat x) := by
  unfold sway_list_insert
  simp [h0, h1]

theorem mem_insertIdx_iff {l : List Nat} {n : Nat} {x y : Nat} (h : n ≤ l.length) :
    y ∈ l.insertIdx n x ↔ y ∈ l ∨ y = x := by
  rw [List.mem_insertIdx h]
  exact or_comm

theorem insert_child_spec {s : State} {parent child : Nat} {l : List Nat} {i : Int}
    (hv : Valid s) (hl : Linked s) (ha : Acyclic s) (hfs : FsLive s)
    (hC : (s.con child).isSome) (hP : s.childrenOf parent = some l)
    (hn : ¬ Reach s child parent) (h0 : 0 ≤ i) (h1 : i ≤ (l.erase child).length) :
    Returns (fun fuel => container_insert_child fuel s parent child i)
      (AttachPost s parent child (fun l1 => l1.insertIdx i.toNat child)) := by
  obtain ⟨C, hCc⟩ := Option.isSome_iff_exists.mp hC
  obtain ⟨r, K, hK, hr⟩ := ha
  unfold container_insert_child
  simp only [hCc, Option.bind_eq_bind, Option.some_bind]
  refine Returns.bind (detach_or_skip r K hv hl hr hK hCc) ?_
  intro s1 hpre
  obtain ⟨l1, hl1, hlen⟩ := hpre.childrenOf_isSome hP
  have hPl : (s1.con parent).isSome := by
    cases h : s1.con parent with
    | none => simp [State.childrenOf, h] at hl1
    | some _ => rfl
  obtain ⟨P, hPc⟩ := Option.isSome_iff_exists.mp hPl
  have hPch : P.pending.children = some l1 := by
    simpa [State.childrenOf, hPc] using hl1
  have hi1 : i ≤ l1.length := by
    have : ((l.erase child).length : Int) ≤ l1.length := by exact_mod_cast hlen
    omega
  have hin : i.toNat ≤ l1.length := by omega
  refine Returns.bind_some hPc ?_
  refine Returns.bind_some hPch ?_
  refine Returns.bind_some (sway_list_insert_some child h0 hi1) ?_
  have hC1 : (s1.con child).isSome := by rw [hpre.skel.live]; exact hC
  have hcore := insert_core (hpre.prelink_valid hv) (hpre.prelink_linked hl) ⟨r, K, hK, hpre.prelink_rank hr⟩
    (hpre.prelink_fsLive hfs) hC1 hl1 (fun h => hn (hpre.prelink_reach h))
    (fun y => mem_insertIdx_iff hin :
      ∀ y, y ∈ l1.insertIdx i.toNat child ↔ y ∈ l1 ∨ y = child)
  have htail : ∀ t, (LinkPost (s1.setChildren parent (l1.insertIdx i.toNat child)) child
        (some parent) (s1.wsOf parent) t ∧ Valid t ∧ UpRank t) →
      Returns (fun fuel => container_update_representation fuel t parent)
        (AttachPost s parent child (fun l1 => l1.insertIdx i.toNat child)) := by
    rintro t ⟨hpost, hvt, hup⟩
    have hlp : (t.con parent).isSome := by
      rw [hpost.skel.live, live_setChildren]; exact hPl
    refine (attach_tail hvt hup hlp).returns_mono ?_
    intro t1 k1
    exact ⟨s1, l1, hpre, hl1, hpost.soft_right k1.soft⟩
  refine Returns.congr (fun fuel => ?_) (Returns.bind hcore htail)
  simp only [Option.bind_assoc]

/-! ## The workspace invariant after linking -/
theorem LinkPost.link_parent_workspace {s2 t : State} {child : Nat} {newpar neww : Option Nat}
    (h : LinkPost s2 child newpar neww t) (hok : SubtreeOk s2 child)
    (hpk : ∀ c p, c ≠ child → s2.parentOf c = some p → c ∈ s2.kids p)
    (hinv : ∀ c p, c ≠ child → s2.parentOf c = some p → s2.wsOf c = s2.wsOf p)
    (hnew : ∀ p, newpar = some p → ¬ Reach s2 child p ∧ neww = s2.wsOf p) :
    ∀ c p, t.parentOf c = some p → t.wsOf c = t.wsOf p := by
  intro c p hc
  rw [h.parentOf] at hc
  by_cases hcc : c = child
  · simp only [hcc, if_true] at hc
    obtain ⟨hnr, hw⟩ := hnew p hc
    rw [hcc, h.ws_in child (Reach.reach_refl _ _), h.ws_out p hnr]
    exact hw
  · simp only [hcc, if_false] at hc
    by_cases hrc : Reach s2 child c
    · have hrp : Reach s2 child p := by
        rcases Relation.ReflTransGen.cases_tail hrc with h0 | ⟨z, hz, hzc⟩
        · exact absurd h0.symm (fun h1 => hcc h1.symm)
        · have := (hok z c hz hzc).2
          rw [hc] at this
          cases this
          exact hz
      rw [h.ws_in c hrc, h.ws_in p hrp]
    · have hrp : ¬ Reach s2 child p := fun hp => hrc (Reach.tail hp (hpk c p hcc hc))
      rw [h.ws_out c hrc, h.ws_out p hrp]
      exact hinv c p hcc hc

/-- The workspace invariant after `container_add_child` or
`container_insert_child`. -/
theorem AttachPost.attach_parent_workspace {s t : State} {parent child : Nat}
    {ins : List Nat → List Nat} (h : AttachPost s parent child ins t)
    (hv : Valid s) (hl : Linked s) (ha : Acyclic s)
    (hn : ¬ Reach s child parent) (hins : ∀ l1 y, y ∈ l1 → y ∈ ins l1)
    (hpw : ∀ c p, s.parentOf c = some p → s.wsOf c = s.wsOf p) :
    ∀ c p, t.parentOf c = some p → t.wsOf c = t.wsOf p := by
  obtain ⟨s1, l1, hpre, hl1, hpost⟩ := h
  have hl1s := hpre.prelink_linked hl
  have hv1 := hpre.prelink_valid hv
  obtain ⟨r, K, hK, hr⟩ := ha
  have hr1 := hpre.prelink_rank hr
  have hn1 : ¬ Reach s1 child parent := fun h => hn (hpre.prelink_reach h)
  have hPl : (s1.con parent).isSome := by
    cases h : s1.con parent with
    | none => simp [State.childrenOf, h] at hl1
    | some _ => rfl
  have hkids1 : s1.kids parent = l1 := by simp [State.kids, hl1]
  refine hpost.link_parent_workspace ?_ ?_ ?_ ?_
  · intro p y hp hy
    have hp1 := reach_setChildren hPl hn1 hp
    have hne : p ≠ parent := fun h => hn1 (h ▸ hp1)
    rw [kids_setChildren s1 parent _ p hPl, if_neg hne] at hy
    refine ⟨by rw [live_setChildren]; exact hv1.kids p y hy, ?_⟩
    rw [parentOf_setChildren]
    exact hl1s.kids_parent p y hy
  · intro c p _ hc
    rw [parentOf_setChildren] at hc
    have := hl1s.parent_kids c p hc
    rw [kids_setChildren s1 parent _ p hPl]
    by_cases hp : p = parent
    · simp only [hp, if_true]
      rw [hp, hkids1] at this
      exact hins l1 c this
    · simp only [hp, if_false]; exact this
  · intro c p _ hc
    rw [parentOf_setChildren] at hc
    rw [wsOf_setChildren, wsOf_setChildren]
    exact hpre.prelink_parent_workspace hl hpw c p hc
  · intro p hp
    cases hp
    exact ⟨fun h => hn1 (reach_setChildren hPl hn1 h), by rw [wsOf_setChildren]⟩

/-! ## Inserting beside a sibling -/
theorem insert_beside_index {l : List Nat} {fixed : Nat} (after : Bool) (h : fixed ∈ l) :
    0 ≤ list_find l fixed + (if after then 1 else 0) ∧
    list_find l fixed + (if after then 1 else 0) ≤ l.length := by
  rw [list_find_of_mem h]
  have h1 : l.indexOf fixed < l.length := List.indexOf_lt_length.mpr h
  cases after <;> simp <;> omega

theorem mem_insert_beside {l : List Nat} {fixed active : Nat} (after : Bool) (h : fixed ∈ l)
    (y : Nat) : y ∈ insert_beside l fixed active after ↔ y ∈ l ∨ y = active := by
  unfold insert_beside
  obtain ⟨h0, h1⟩ := insert_beside_index after h
  exact mem_insertIdx_iff (by omega)

theorem insert_core_gen {s1 : State} {parent child : Nat} {l1 l2 : List Nat}
    (neww : Option Nat)
    (hv : Valid s1) (hl : Linked s1) (ha : Acyclic s1) (hfs : FsLive s1)
    (hC : (s1.con child).isSome) (hP : s1.childrenOf parent = some l1)
    (hn : ¬ Reach s1 child parent)
    (hl2 : ∀ y, y ∈ l2 ↔ y ∈ l1 ∨ y = child)
    (hws : ∀ w, neww = some w → (s1.ws w).isSome) :
    Returns (fun fuel =>
          (((s1.setChildren parent l2).modCon child (fun C => { C with
            pending := { C.pending with parent := some parent,
                                        workspace := neww } })).bind fun s =>
          (container_for_each_child fuel set_workspace s child).bind fun s =>
            container_handle_fullscreen_reparent fuel s child))
      (fun t => LinkPost (s1.setChildren parent l2) child (some parent) neww t ∧
        Valid t ∧ UpRank t) := by
  obtain ⟨r, K, hK, hr⟩ := ha
  have hPl : (s1.con parent).isSome := by
    cases h : s1.con parent with
    | none => simp [State.childrenOf, h] at hP
    | some _ => rfl
  have hkids1 : s1.kids parent = l1 := by simp [State.kids, hP]
  obtain ⟨r2, hK2, hr2, hedge⟩ := rank_add_edge hK hr hn
  have hk2 : ∀ x, (s1.setChildren parent l2).kids x = if x = parent then l2 else s1.kids x :=
    fun x => kids_setChildren s1 parent l2 x hPl
  have hC2 : ((s1.setChildren parent l2).con child).isSome := by
    rw [live_setChildren]; exact hC
  have hv2 : Valid (s1.setChildren parent l2) := by
    refine (Skel.setChildren s1 parent l2 (by rw [hP]; rfl)).skel_valid hv ?_ ?_ ?_
    · intro c w hw
      rw [wsOf_setChildren] at hw
      exact hv.ws c w hw
    · intro p c hc
      rw [hk2] at hc
      by_cases hp : p = parent
      · simp only [hp, if_true] at hc
        rcases (hl2 c).mp hc with h | h
        · exact hv.kids parent c (by rw [hkids1]; exact h)
        · rw [h]; exact hC
      · simp only [hp, if_false] at hc
        exact hv.kids p c hc
    · intro c p hc
      rw [parentOf_setChildren] at hc
      exact hv.parent c p hc
  have hfs2 : FsLive (s1.setChildren parent l2) := by
    intro w f hw
    rw [live_setChildren]
    exact hfs w f (by simpa [State.fsOf, ws_setChildren] using hw)
  have hrk2 : ∀ p c, c ∈ (s1.setChildren parent l2).kids p → r2 c < r2 p := by
    intro p c hc
    rw [hk2] at hc
    by_cases hp : p = parent
    · simp only [hp, if_true] at hc
      rw [hp]
      rcases (hl2 c).mp hc with h | h
      · exact hr2 parent c (by rw [hkids1]; exact h)
      · rw [h]; exact hedge
    · simp only [hp, if_false] at hc
      exact hr2 p c hc
  have hok2 : SubtreeOk (s1.setChildren parent l2) child := by
    intro p y hp hy
    have hp1 := reach_setChildren hPl hn hp
    have hne : p ≠ parent := fun h => hn (h ▸ hp1)
    rw [hk2, if_neg hne] at hy
    refine ⟨by rw [live_setChildren]; exact hv.kids p y hy, ?_⟩
    rw [parentOf_setChildren]
    exact hl.kids_parent p y hy
  have hpar2 : ∀ p, some parent = some p → ((s1.setChildren parent l2).con p).isSome := by
    intro p hp; cases hp; rw [live_setChildren]; exact hPl
  have hws2 : ∀ w, neww = some w → ((s1.setChildren parent l2).ws w).isSome := by
    intro w hw; rw [ws_setChildren]; exact hws w hw
  have hcore := link_core (some parent) neww r2 (2 * K + 1) hv2 hfs2 hK2 hrk2
    hok2 hC2 hpar2 hws2
  refine hcore.returns_mono ?_
  intro t ht
  refine ⟨ht, ht.link_valid hv2 hpar2 hws2, ?_⟩
  refine ht.upRank hK2 ?_ ?_
  · intro x q _ hx
    rw [parentOf_setChildren] at hx
    exact hr2 q x (hl.parent_kids x q hx)
  · intro p hp
    cases hp
    exact hedge

/-! ## Inserting into a top-level list -/
theorem kids_updWs (s : State) (w : Nat) (f : sway_workspace → sway_workspace) (x : Nat) :
    (s.updWs w f).kids x = s.kids x := by
  simp [State.kids, State.childrenOf]

theorem parentOf_updWs (s : State) (w : Nat) (f : sway_workspace → sway_workspace) (x : Nat) :
    (s.updWs w f).parentOf x = s.parentOf x := by
  simp [State.parentOf]

theorem wsOf_updWs (s : State) (w : Nat) (f : sway_workspace → sway_workspace) (x : Nat) :
    (s.updWs w f).wsOf x = s.wsOf x := by
  simp [State.wsOf]

theorem reach_updWs (s : State) (w : Nat) (f : sway_workspace → sway_workspace) (c x : Nat) :
    Reach (s.updWs w f) c x ↔ Reach s c x := by
  constructor
  · exact reach_of_kids_subset (fun a b hb => by rw [kids_updWs] at hb; exact hb)
  · exact reach_congr (fun p _ => kids_updWs s w f p)

theorem top_core {s1 : State} {child w : Nat} {f : sway_workspace → sway_workspace}
    (hfo : ∀ V, (f V).output = V.output) (hff : ∀ V, (f V).fullscreen = V.fullscreen)
    (hv : Valid s1) (hl : Linked s1) (ha : Acyclic s1) (hfs : FsLive s1)
    (hC : (s1.con child).isSome) (hw : (s1.ws w).isSome) :
    Returns (fun fuel =>
          (((s1.updWs w f).modCon child (fun C => { C with
            pending := { C.pending with parent := none, workspace := some w } })).bind fun s =>
          (container_for_each_child fuel set_workspace s child).bind fun s =>
            container_handle_fullscreen_reparent fuel s child))
      (fun t => LinkPost (s1.updWs w f) child none (some w) t ∧ Valid t ∧ UpRank t) := by
  obtain ⟨r, K, hK, hr⟩ := ha
  have hsk : Skel s1 (s1.updWs w f) := Skel.skel_updWs s1 w hfo
  have hv2 : Valid (s1.updWs w f) := by
    refine hsk.skel_valid hv ?_ ?_ ?_
    · intro c v hc; rw [wsOf_updWs] at hc; exact hv.ws c v hc
    · intro p c hc; rw [kids_updWs] at hc; exact hv.kids p c hc
    · intro c p hc; rw [parentOf_updWs] at hc; exact hv.parent c p hc
  have hfs2 : FsLive (s1.updWs w f) := by
    intro v g hg
    rw [hsk.live]
    refine hfs v g ?_
    unfold State.fsOf at hg ⊢
    by_cases hvw : v = w
    · subst hvw
      cases hW : s1.ws v with
      | none => simp [hW] at hg
      | some W => simpa [hW, hff] using hg
    · simpa [hvw] using hg
  have hrk2 : ∀ p c, c ∈ (s1.updWs w f).kids p → r c < r p := by
    intro p c hc; rw [kids_updWs] at hc; exact hr p c hc
  have hok2 : SubtreeOk (s1.updWs w f) child := by
    intro p y _ hy
    rw [kids_updWs] at hy
    exact ⟨by rw [hsk.live]; exact hv.kids p y hy, by
      rw [parentOf_updWs]; exact hl.kids_parent p y hy⟩
  have hC2 : ((s1.updWs w f).con child).isSome := by rw [hsk.live]; exact hC
  have hpar2 : ∀ p, (none : Option Nat) = some p → ((s1.updWs w f).con p).isSome := by
    intro p hp; cases hp
  have hws2 : ∀ v, some w = some v → ((s1.updWs w f).ws v).isSome := by
    intro v hv2; cases hv2; rw [hsk.wlive]; exact hw
  have hcore := link_core none (some w) r K hv2 hfs2 hK hrk2 hok2 hC2 hpar2 hws2
  refine hcore.returns_mono ?_
  intro t ht
  refine ⟨ht, ht.link_valid hv2 hpar2 hws2, ?_⟩
  refine ht.upRank hK ?_ ?_
  · intro x q _ hx
    rw [parentOf_updWs] at hx
    exact hr q x (hl.parent_kids x q hx)
  · intro p hp; cases hp

/-! ## Attaching beside a sibling -/
theorem PreLink.parentOf_ne {s s1 : State} {child : Nat} (h : PreLink s child s1) {x : Nat}
    (hx : x ≠ child) : s1.parentOf x = s.parentOf x := by
  rcases h with ⟨-, h⟩ | ⟨-, rfl⟩
  · rw [h.parentOf, if_neg hx]
  · rfl

theorem parentOf_of_con2 {s : State} {c : Nat} {C : sway_container} (h : s.con c = some C) :
    s.parentOf c = C.pending.parent := by
  simp [State.parentOf, h]

theorem wsOf_of_con2 {s : State} {c : Nat} {C : sway_container} (h : s.con c = some C) :
    s.wsOf c = C.pending.workspace := by
  simp [State.wsOf, h]

theorem add_sibling_spec {s : State} {fixed active : Nat} (after : Bool)
    (hv : Valid s) (hl : Linked s) (ha : Acyclic s) (hfs : FsLive s)
    (hA : (s.con active).isSome) (hF : (s.con fixed).isSome)
    (hatt : (s.parentOf fixed).isSome ∨ (s.wsOf fixed).isSome)
    (hn : ¬ Reach s active fixed) :
    Returns (fun fuel => container_add_sibling fuel s fixed active after)
      (SiblingPost s fixed active after) := by
  obtain ⟨A, hAc⟩ := Option.isSome_iff_exists.mp hA
  obtain ⟨r, K, hK, hr⟩ := ha
  have hne : fixed ≠ active := fun h => hn (h ▸ Reach.reach_refl s active)
  unfold container_add_sibling
  simp only [hAc, Option.bind_eq_bind, Option.some_bind]
  refine Returns.bind (detach_or_skip r K hv hl hr hK hAc) ?_
  intro s1 hpre
  have hv1 := hpre.prelink_valid hv
  have hl1 := hpre.prelink_linked hl
  have hr1 := hpre.prelink_rank hr
  have hfs1 := hpre.prelink_fsLive hfs
  have hA1 : (s1.con active).isSome := by rw [hpre.skel.live]; exact hA
  have hF1 : (s1.con fixed).isSome := by rw [hpre.skel.live]; exact hF
  obtain ⟨F, hFc⟩ := Option.isSome_iff_exists.mp hF1
  have hpar1 : s1.parentOf fixed = s.parentOf fixed := hpre.parentOf_ne hne
  have hws1 : s1.wsOf fixed = s.wsOf fixed := hpre.ws_out hn
  have hn1 : ¬ Reach s1 active fixed := fun h => hn (hpre.prelink_reach h)
  have htail : ∀ (s2 : State) (newpar neww : Option Nat) (t : State),
      (∀ t2, LinkPost s2 active newpar neww t2 → SiblingPost s fixed active after t2) →
      (LinkPost s2 active newpar neww t ∧ Valid t ∧ UpRank t) → (s2.con active).isSome →
      Returns (fun fuel => container_update_representation fuel t active)
        (SiblingPost s fixed active after) := by
    rintro s2 newpar neww t hfin ⟨hpost, hvt, hup⟩ hl2
    have hla : (t.con active).isSome := by rw [hpost.skel.live]; exact hl2
    refine (attach_tail hvt hup hla).returns_mono ?_
    intro t1 k1
    exact hfin t1 (hpost.soft_right k1.soft)
  cases hFp : F.pending.parent with
  | some q =>
    have hparq : s1.parentOf fixed = some q := by rw [parentOf_of_con2 hFc, hFp]
    have hmem : fixed ∈ s1.kids q := hl1.parent_kids fixed q hparq
    obtain ⟨Q, l1, hQc, hQl, hch, hkids⟩ := childrenOf_of_kids hmem
    have hmem1 : fixed ∈ l1 := by rw [← hkids]; exact hmem
    have hsib : container_get_siblings s1 fixed = some (some (.children q)) := by
      simp [container_get_siblings, hFc, hFp]
    refine Returns.bind_some hsib ?_
    simp only [Option.some_bind]
    have hread : s1.readList (.children q) = some l1 := by
      simp [State.readList, hQc, hQl]
    refine Returns.bind_some hread ?_
    obtain ⟨h0, h1⟩ := insert_beside_index after hmem1
    refine Returns.bind_some (sway_list_insert_some active h0 h1) ?_
    have hQl1 : (s1.con q).isSome := by rw [hQc]; rfl
    refine Returns.bind_some (writeList_children _ hQl1) ?_
    have hfq : fixed ≠ q := by
      rintro rfl
      have := hr1 fixed fixed hmem
      omega
    have hF2 : (s1.setChildren q (l1.insertIdx
        (list_find l1 fixed + (if after = true then 1 else 0)).toNat active)).con fixed =
        some F := by
      simp [State.setChildren, hfq, hFc]
    refine Returns.bind_some hF2 ?_
    have hnq : ¬ Reach s1 active q := fun h => hn1 (Reach.tail h hmem)
    have hcore := insert_core_gen F.pending.workspace hv1 hl1 ⟨r, K, hK, hr1⟩ hfs1 hA1 hch hnq
      (mem_insert_beside after hmem1 :
        ∀ y, y ∈ insert_beside l1 fixed active after ↔ y ∈ l1 ∨ y = active)
      (fun w hw => hv1.ws fixed w (by rw [wsOf_of_con2 hFc]; exact hw))
    rw [hFp]
    refine Returns.congr (fun fuel => ?_) (Returns.bind hcore
      (fun t ht => htail _ _ _ t ?_ ht (by rw [live_setChildren]; exact hA1)))
    · simp only [Option.bind_assoc]
      rfl
    · intro t2 ht2
      refine ⟨s1, hpre, Or.inl ⟨q, l1, hparq, hch, ?_⟩⟩
      rw [wsOf_of_con2 hFc]
      exact ht2
  | none =>
    have hparn : s1.parentOf fixed = none := by rw [parentOf_of_con2 hFc, hFp]
    have hwsome : (s1.wsOf fixed).isSome := by
      rcases hatt with h | h
      · rw [← hpar1, hparn] at h; cases h
      · rw [hws1]; exact h
    obtain ⟨w, hw⟩ := Option.isSome_iff_exists.mp hwsome
    have hFw : F.pending.workspace = some w := by rw [← wsOf_of_con2 hFc]; exact hw
    obtain ⟨W, hW⟩ := Option.isSome_iff_exists.mp (hv1.ws fixed w hw)
    have htop : fixed ∈ W.tiling ++ W.floating := by
      have := hl1.top_tops fixed w hparn hw
      simpa [State.tops, hW] using this
    have hwl : (s1.ws w).isSome := by rw [hW]; rfl
    by_cases ht : fixed ∈ W.tiling
    · have hsib : container_get_siblings s1 fixed = some (some (.tiling w)) := by
        simp [container_get_siblings, hFc, hFp, container_is_scratchpad_hidden, hFw, hW,
          list_find_ne_neg_one.mpr ht]
      refine Returns.bind_some hsib ?_
      simp only [Option.some_bind]
      have hread : s1.readList (.tiling w) = some W.tiling := by
        simp [State.readList, hW]
      refine Returns.bind_some hread ?_
      obtain ⟨h0, h1⟩ := insert_beside_index after ht
      refine Returns.bind_some (sway_list_insert_some active h0 h1) ?_
      have hwrite : s1.writeList (.tiling w) (W.tiling.insertIdx
          (list_find W.tiling fixed + (if after = true then 1 else 0)).toNat active) =
          some (s1.insertTop w W fixed active after) := by
        unfold State.insertTop
        rw [if_pos (list_find_ne_neg_one.mpr ht)]
        exact modWs_some _ hW
      refine Returns.bind_some hwrite ?_
      have hF2 : (s1.insertTop w W fixed active after).con fixed = some F := by
        unfold State.insertTop
        split <;> simp [hFc]
      refine Returns.bind_some hF2 ?_
      have hcore := @top_core s1 active w
        (fun V => { V with tiling := insert_beside W.tiling fixed active after })
        (fun _ => rfl) (fun _ => rfl) hv1 hl1 ⟨r, K, hK, hr1⟩ hfs1 hA1 hwl
      have hins : s1.insertTop w W fixed active after =
          s1.updWs w (fun V => { V with tiling := insert_beside W.tiling fixed active after }) := by
        unfold State.insertTop
        rw [if_pos (list_find_ne_neg_one.mpr ht)]
      rw [hFp, hFw, hins]
      refine Returns.congr (fun fuel => ?_) (Returns.bind hcore
        (fun t ht => htail _ _ _ t ?_ ht (by simpa using hA1)))
      · simp only [Option.bind_assoc]
      · intro t2 ht2
        exact ⟨s1, hpre, Or.inr ⟨w, W, hparn, hw, hW, by rw [hins]; exact ht2⟩⟩
    · have hf : fixed ∈ W.floating := by
        rcases List.mem_append.mp htop with h | h
        · exact absurd h ht
        · exact h
      have hsib : container_get_siblings s1 fixed = some (some (.floating w)) := by
        simp [container_get_siblings, hFc, hFp, container_is_scratchpad_hidden, hFw, hW,
          list_find_of_not_mem ht]
      refine Returns.bind_some hsib ?_
      simp only [Option.some_bind]
      have hread : s1.readList (.floating w) = some W.floating := by
        simp [State.readList, hW]
      refine Returns.bind_some hread ?_
      obtain ⟨h0, h1⟩ := insert_beside_index after hf
      refine Returns.bind_some (sway_list_insert_some active h0 h1) ?_
      have hnot : ¬ list_find W.tiling fixed ≠ -1 := by
        rw [list_find_of_not_mem ht]; simp
      have hwrite : s1.writeList (.floating w) (W.floating.insertIdx
          (list_find W.floating fixed + (if after = true then 1 else 0)).toNat active) =
          some (s1.insertTop w W fixed active after) := by
        unfold State.insertTop
        rw [if_neg hnot]
        exact modWs_some _ hW
      refine Returns.bind_some hwrite ?_
      have hF2 : (s1.insertTop w W fixed active after).con fixed = some F := by
        unfold State.insertTop
        split <;> simp [hFc]
      refine Returns.bind_some hF2 ?_
      have hcore := @top_core s1 active w
        (fun V => { V with floating := insert_beside W.floating fixed active after })
        (fun _ => rfl) (fun _ => rfl) hv1 hl1 ⟨r, K, hK, hr1⟩ hfs1 hA1 hwl
      have hins : s1.insertTop w W fixed active after =
          s1.updWs w (fun V => { V with
            floating := insert_beside W.floating fixed active after }) := by
        unfold State.insertTop
        rw [if_neg hnot]
      rw [hFp, hFw, hins]
      refine Returns.congr (fun fuel => ?_) (Returns.bind hcore
        (fun t ht => htail _ _ _ t ?_ ht (by simpa using hA1)))
      · simp only [Option.bind_assoc]
      · intro t2 ht2
        exact ⟨s1, hpre, Or.inr ⟨w, W, hparn, hw, hW, by rw [hins]; exact ht2⟩⟩

/-- The workspace invariant after `container_add_sibling`. -/
theorem SiblingPost.sibling_parent_workspace {s t : State} {fixed active : Nat} {after : Bool}
    (h : SiblingPost s fixed active after t)
    (hv : Valid s) (hl : Linked s) (ha : Acyclic s)
    (hn : ¬ Reach s active fixed)
    (hpw : ∀ c p, s.parentOf c = some p → s.wsOf c = s.wsOf p) :
    ∀ c p, t.parentOf c = some p → t.wsOf c = t.wsOf p := by
  obtain ⟨s1, hpre, hcase⟩ := h
  have hl1 := hpre.prelink_linked hl
  have hv1 := hpre.prelink_valid hv
  obtain ⟨r, K, hK, hr⟩ := ha
  have hr1 := hpre.prelink_rank hr
  have hpw1 := hpre.prelink_parent_workspace hl hpw
  have hn1 : ¬ Reach s1 active fixed := fun h => hn (hpre.prelink_reach h)
  rcases hcase with ⟨q, l1, hparq, hch, hpost⟩ | ⟨w, W, hparn, hw, hW, hpost⟩
  · have hQl : (s1.con q).isSome := by
      cases h : s1.con q with
      | none => simp [State.childrenOf, h] at hch
      | some _ => rfl
    have hkids1 : s1.kids q = l1 := by simp [State.kids, hch]
    have hmem : fixed ∈ s1.kids q := hl1.parent_kids fixed q hparq
    have hmem1 : fixed ∈ l1 := by rw [← hkids1]; exact hmem
    have hnq : ¬ Reach s1 active q := fun h => hn1 (Reach.tail h hmem)
    refine hpost.link_parent_workspace ?_ ?_ ?_ ?_
    · intro p y hp hy
      have hp1 := reach_setChildren hQl hnq hp
      have hne : p ≠ q := fun h => hnq (h ▸ hp1)
      rw [kids_setChildren s1 q _ p hQl, if_neg hne] at hy
      refine ⟨by rw [live_setChildren]; exact hv1.kids p y hy, ?_⟩
      rw [parentOf_setChildren]
      exact hl1.kids_parent p y hy
    · intro c p _ hc
      rw [parentOf_setChildren] at hc
      have := hl1.parent_kids c p hc
      rw [kids_setChildren s1 q _ p hQl]
      by_cases hp : p = q
      · simp only [hp, if_true]
        rw [hp, hkids1] at this
        exact (mem_insert_beside after hmem1 c).mpr (Or.inl this)
      · simp only [hp, if_false]; exact this
    · intro c p _ hc
      rw [parentOf_setChildren] at hc
      rw [wsOf_setChildren, wsOf_setChildren]
      exact hpw1 c p hc
    · intro p hp
      cases hp
      refine ⟨fun h => hnq (reach_setChildren hQl hnq h), ?_⟩
      rw [wsOf_setChildren]
      exact hpw1 fixed q hparq
  · have hkt : ∀ x, (s1.insertTop w W fixed active after).kids x = s1.kids x := by
      intro x; unfold State.insertTop; split <;> exact kids_updWs _ _ _ _
    have hpt : ∀ x, (s1.insertTop w W fixed active after).parentOf x = s1.parentOf x := by
      intro x; unfold State.insertTop; split <;> exact parentOf_updWs _ _ _ _
    have hwt : ∀ x, (s1.insertTop w W fixed active after).wsOf x = s1.wsOf x := by
      intro x; unfold State.insertTop; split <;> exact wsOf_updWs _ _ _ _
    have hlt : ∀ x, ((s1.insertTop w W fixed active after).con x).isSome =
        (s1.con x).isSome := by
      intro x; unfold State.insertTop; split <;> simp
    refine hpost.link_parent_workspace ?_ ?_ ?_ ?_
    · intro p y _ hy
      rw [hkt] at hy
      exact ⟨by rw [hlt]; exact hv1.kids p y hy, by rw [hpt]; exact hl1.kids_parent p y hy⟩
    · intro c p _ hc
      rw [hpt] at hc
      rw [hkt]
      exact hl1.parent_kids c p hc
    · intro c p _ hc
      rw [hpt] at hc
      rw [hwt, hwt]
      exact hpw1 c p hc
    · intro p hp; cases hp

/-! ## Parent pointers stay valid -/
theorem LinkPost.link_parent_live {s2 t : State} {child : Nat} {newpar neww : Option Nat}
    (h : LinkPost s2 child newpar neww t)
    (hp2 : ∀ c p, s2.parentOf c = some p → (s2.con p).isSome)
    (hnew : ∀ p, newpar = some p → (s2.con p).isSome) :
    ∀ c p, t.parentOf c = some p → (t.con p).isSome := by
  intro c p hc
  rw [h.skel.live]
  rw [h.parentOf] at hc
  by_cases hcc : c = child
  · simp only [hcc, if_true] at hc; exact hnew p hc
  · simp only [hcc, if_false] at hc; exact hp2 c p hc

theorem AttachPost.attach_parent_live {s t : State} {parent child : Nat}
    {ins : List Nat → List Nat} (h : AttachPost s parent child ins t) (hv : Valid s) :
    ∀ c p, t.parentOf c = some p → (t.con p).isSome := by
  obtain ⟨s1, l1, hpre, hl1, hpost⟩ := h
  have hv1 := hpre.prelink_valid hv
  have hPl : (s1.con parent).isSome := by
    cases h : s1.con parent with
    | none => simp [State.childrenOf, h] at hl1
    | some _ => rfl
  refine hpost.link_parent_live ?_ ?_
  · intro c p hc
    rw [parentOf_setChildren] at hc
    rw [live_setChildren]
    exact hv1.parent c p hc
  · intro p hp
    cases hp
    rw [live_setChildren]; exact hPl

theorem SiblingPost.sibling_parent_live {s t : State} {fixed active : Nat} {after : Bool}
    (h : SiblingPost s fixed active after t) (hv : Valid s) :
    ∀ c p, t.parentOf c = some p → (t.con p).isSome := by
  obtain ⟨s1, hpre, hcase⟩ := h
  have hv1 := hpre.prelink_valid hv
  rcases hcase with ⟨q, l1, hparq, hch, hpost⟩ | ⟨w, W, hparn, hw, hW, hpost⟩
  · refine hpost.link_parent_live ?_ ?_
    · intro c p hc
      rw [parentOf_setChildren] at hc
      rw [live_setChildren]
      exact hv1.parent c p hc
    · intro p hp
      cases hp
      rw [live_setChildren]; exact hv1.parent fixed q hparq
  · refine hpost.link_parent_live ?_ ?_
    · intro c p hc
      have hpt : (s1.insertTop w W fixed active after).parentOf c = s1.parentOf c := by
        unfold State.insertTop; split <;> exact parentOf_updWs _ _ _ _
      have hlt : ((s1.insertTop w W fixed active after).con p).isSome = (s1.con p).isSome := by
        unfold State.insertTop; split <;> simp
      rw [hpt] at hc
      rw [hlt]
      exact hv1.parent c p hc
    · intro p hp; cases hp

theorem parentWorkspaceConsistent_of {t : State}
    (hlive : ∀ c p, t.parentOf c = some p → (t.con p).isSome)
    (hinv : ∀ c p, t.parentOf c = some p → t.wsOf c = t.wsOf p) :
    ParentWorkspaceConsistent t :=
  fun c _ p hp => ⟨hlive c p hp, hinv c p hp⟩

/-- Attach and detach keep the workspace of the parent: in a well-formed
acyclic state whose fullscreen back-references name valid containers and in
which every container with a parent has its parent's workspace, each of
`container_detach` (on an attached child that has a workspace when it is in
mode `FULLSCREEN_WORKSPACE`: without one the call dereferences the null
workspace), `container_insert_child` and `container_add_child` (on a child that
is not an ancestor of the parent; the index within the list), and
`container_add_sibling` (on an active container that is not an ancestor of the
attached fixed one) returns, and in the resulting state every container with a
parent again has its parent's workspace. -/
theorem attach_detach_keep_parent_workspace (s : State)
    (hwf : TreeWF s) (ha : Acyclic s) (hfs : FsLive s)
    (hpw : ParentWorkspaceConsistent s) :
    (∀ child, (s.con child).isSome →
      ((s.parentOf child).isSome ∨ (s.wsOf child).isSome) →
      (s.modeOf child = some FULLSCREEN_WORKSPACE → (s.wsOf child).isSome) →
      Returns (fun fuel => container_detach fuel s child) ParentWorkspaceConsistent) ∧
    (∀ (parent child : Nat) (i : Int), (s.con child).isSome → (s.childrenOf parent).isSome →
      ¬ Reach s child parent → 0 ≤ i → i ≤ ((s.kids parent).erase child).length →
      Returns (fun fuel => container_insert_child fuel s parent child i)
        ParentWorkspaceConsistent) ∧
    (∀ parent child, (s.con child).isSome → (s.childrenOf parent).isSome →
      ¬ Reach s child parent →
      Returns (fun fuel => container_add_child fuel s parent child)
        ParentWorkspaceConsistent) ∧
    (∀ fixed active after, (s.con active).isSome → (s.con fixed).isSome →
      ((s.parentOf fixed).isSome ∨ (s.wsOf fixed).isSome) → ¬ Reach s active fixed →
      Returns (fun fuel => container_add_sibling fuel s fixed active after)
        ParentWorkspaceConsistent) := by
  have hv := hwf.treewf_valid
  have hl := hwf.treewf_linked
  have hinv : ∀ c p, s.parentOf c = some p → s.wsOf c = s.wsOf p := fun c p h => hpw.all h
  refine ⟨?_, ?_, ?_, ?_⟩
  · intro child hC hatt hmode
    obtain ⟨C, hCc⟩ := Option.isSome_iff_exists.mp hC
    obtain ⟨r, K, hK, hr⟩ := ha
    have hatt2 : C.pending.parent.isSome ∨ C.pending.workspace.isSome ∨ C.scratchpad = true := by
      rcases hatt with h | h
      · exact Or.inl (by rw [← parentOf_of_con2 hCc]; exact h)
      · exact Or.inr (Or.inl (by rw [← wsOf_of_con2 hCc]; exact h))
    have hmode2 : C.pending.fullscreen_mode = FULLSCREEN_WORKSPACE →
        C.pending.workspace.isSome := by
      intro h
      rw [← wsOf_of_con2 hCc]
      exact hmode (by simp [State.modeOf, hCc, h])
    refine (detach_spec r K hv hl hr hK hCc hatt2 hmode2).returns_mono ?_
    intro t ht
    exact parentWorkspaceConsistent_of (ht.detach_valid hv).parent (ht.detach_parent_workspace hl hinv)
  · intro parent child i hC hP hn h0 h1
    obtain ⟨l, hPl⟩ := Option.isSome_iff_exists.mp hP
    have hk : s.kids parent = l := by simp [State.kids, hPl]
    rw [hk] at h1
    refine (insert_child_spec hv hl ha hfs hC hPl hn h0 h1).returns_mono ?_
    intro t ht
    refine parentWorkspaceConsistent_of (ht.attach_parent_live hv)
      (ht.attach_parent_workspace hv hl ha hn ?_ hinv)
    intro l1 y hy
    obtain ⟨s1, l1', hpre, hl1, -⟩ := ht
    by_cases hle : i.toNat ≤ l1.length
    · exact (mem_insertIdx_iff hle).mpr (Or.inl hy)
    · rw [List.insertIdx_of_length_lt _ _ _ (by omega)]
      exact hy
  · intro parent child hC hP hn
    obtain ⟨l, hPl⟩ := Option.isSome_iff_exists.mp hP
    refine (add_child_spec hv hl ha hfs hC hPl hn).returns_mono ?_
    intro t ht
    refine parentWorkspaceConsistent_of (ht.attach_parent_live hv)
      (ht.attach_parent_workspace hv hl ha hn ?_ hinv)
    intro l1 y hy
    simp [hy]
  · intro fixed active after hA hF hatt hn
    refine (add_sibling_spec after hv hl ha hfs hA hF hatt hn).returns_mono ?_
    intro t ht
    exact parentWorkspaceConsistent_of (ht.sibling_parent_live hv)
      (ht.sibling_parent_workspace hv hl ha hn hinv)

theorem two_fullscreen_state_not_reach : ¬ Reach two_fullscreen_state 0 2 := by
  intro h
  have hr : ∀ p c, c ∈ two_fullscreen_state.kids p →
      (fun x => if x = 2 then 2 else if x = 0 then 1 else 0) c <
      (fun x => if x = 2 then 2 else if x = 0 then 1 else 0) p := by
    intro p c hc
    have hp : p ∈ two_fullscreen_state.ids := mem_ids (live_of_kids hc)
    revert c
    revert p
    decide
  have := Reach.rank_le hr h
  simp at this

/-- At `two_fullscreen_state`, adding the split container 0 to the split
container 2 keeps the workspace invariant. -/
theorem attach_detach_keep_parent_workspace_witness :
    Returns (fun fuel => container_add_child fuel two_fullscreen_state 2 0)
      ParentWorkspaceConsistent :=
  (attach_detach_keep_parent_workspace two_fullscreen_state (by decide)
    two_fullscreen_state_acyclic (FullscreenConsistent.fsc_fsLive (by decide))
    (by decide)).2.2.1 2 0 (by decide) (by decide)
    two_fullscreen_state_not_reach

theorem utf8ByteSize_go_append (l1 l2 : List Char) :
    String.utf8ByteSize.go (l1 ++ l2) =
      String.utf8ByteSize.go l1 + String.utf8ByteSize.go l2 := by
  induction l1 with
  | nil => simp [String.utf8ByteSize.go]
  | cons c cs ih => simp [String.utf8ByteSize.go, ih]; omega

theorem utf8ByteSize_append (a b : String) :
    (a ++ b).utf8ByteSize = a.utf8ByteSize + b.utf8ByteSize := by
  cases a; cases b
  simp only [String.utf8ByteSize, String.append, HAppend.hAppend, Append.append]
  exact utf8ByteSize_go_append _ _

theorem identifier_text_size (r : Option String) :
    (identifier_text r).utf8ByteSize = match r with
      | some identifier => identifier.utf8ByteSize
      | none => 6 := by
  cases r with
  | none => decide
  | some identifier => rfl

theorem build_representation_loop_eq (s : State) :
    ∀ (l : List Nat) (ids : List (Option String)) (i len : Nat) (buffer : String),
      l.mapM (child_identifier s) = some ids →
      build_representation_loop s l i (len, buffer) =
        some (len + (representation_body i ids).utf8ByteSize,
              buffer ++ representation_body i ids) := by
  intro l
  induction l with
  | nil =>
    intro ids i len buffer h
    simp only [List.mapM_nil, Option.pure_def, Option.some.injEq] at h
    subst h
    simp [build_representation_loop, representation_body, String.utf8ByteSize,
      String.utf8ByteSize.go]
  | cons y l ih =>
    intro ids i len buffer h
    rw [List.mapM_cons] at h
    simp only [Option.pure_def, Option.bind_eq_bind, Option.bind_eq_some] at h
    obtain ⟨r, hr, rest, hrest, hids⟩ := h
    simp only [Option.some.injEq] at hids
    subst hids
    unfold build_representation_loop
    simp only [hr, Option.bind_eq_bind, Option.some_bind]
    have e6 : ("(null)" : String).utf8ByteSize = 6 := by decide
    have e1 : (" " : String).utf8ByteSize = 1 := by decide
    have e0 : ("" : String).utf8ByteSize = 0 := by decide
    have ee : ∀ x : String, "" ++ x = x := fun x => by
      cases x; rfl
    by_cases hi : i = 0
    · subst hi
      cases r with
      | none =>
        simp only [ne_eq, not_true_eq_false, if_false]
        rw [ih rest 1 _ _ hrest]
        refine congrArg some (Prod.ext ?_ ?_)
        · simp only [representation_body, ne_eq, not_true_eq_false, if_false,
            utf8ByteSize_append, identifier_text, Option.getD_none, e6, e0, Nat.zero_add]
          omega
        · simp only [representation_body, ne_eq, not_true_eq_false, if_false,
            identifier_text, Option.getD_none, ee, String.append_assoc]
      | some identifier =>
        simp only [ne_eq, not_true_eq_false, if_false]
        rw [ih rest 1 _ _ hrest]
        refine congrArg some (Prod.ext ?_ ?_)
        · simp only [representation_body, ne_eq, not_true_eq_false, if_false,
            utf8ByteSize_append, identifier_text, Option.getD_some, e0, Nat.zero_add]
          omega
        · simp only [representation_body, ne_eq, not_true_eq_false, if_false,
            identifier_text, Option.getD_some, ee, String.append_assoc]
    · cases r with
      | none =>
        simp only [ne_eq, hi, not_false_eq_true, if_true]
        rw [ih rest (i + 1) _ _ hrest]
        refine congrArg some (Prod.ext ?_ ?_)
        · simp only [representation_body, ne_eq, hi, not_false_eq_true, if_true,
            utf8ByteSize_append, identifier_text, Option.getD_none, e6, e1]
          omega
        · simp only [representation_body, ne_eq, hi, not_false_eq_true, if_true,
            identifier_text, Option.getD_none, String.append_assoc]
      | some identifier =>
        simp only [ne_eq, hi, not_false_eq_true, if_true]
        rw [ih rest (i + 1) _ _ hrest]
        refine congrArg some (Prod.ext ?_ ?_)
        · simp only [representation_body, ne_eq, hi, not_false_eq_true, if_true,
            utf8ByteSize_append, identifier_text, Option.getD_some, e1]
          omega
        · simp only [representation_body, ne_eq, hi, not_false_eq_true, if_true,
            identifier_text, Option.getD_some, String.append_assoc]

theorem string_join_cons (x : String) (xs : List String) :
    String.join (x :: xs) = x ++ String.join xs := by
  simp only [String.join, List.foldl_cons]
  have key : ∀ (ys : List String) (b c : String),
      List.foldl (fun r s => r ++ s) (b ++ c) ys = b ++ List.foldl (fun r s => r ++ s) c ys := by
    intro ys
    induction ys with
    | nil => intro b c; rfl
    | cons y ys ih2 => intro b c; simp only [List.foldl_cons, String.append_assoc, ih2]
  have := key xs x ""
  simpa using this

theorem intercalate_go_eq (sep : String) :
    ∀ (l : List String) (acc : String),
      String.intercalate.go acc sep l = acc ++ String.join (l.map (fun x => sep ++ x)) := by
  intro l
  induction l with
  | nil => intro acc; simp [String.intercalate.go, String.join]
  | cons a l ih =>
    intro acc
    simp only [String.intercalate.go, ih, List.map_cons, string_join_cons, String.append_assoc]

theorem representation_body_succ :
    ∀ (ids : List (Option String)) (i : Nat),
      representation_body (i + 1) ids =
        String.join (ids.map (fun r => " " ++ identifier_text r)) := by
  intro ids
  induction ids with
  | nil => intro i; simp [representation_body, String.join]
  | cons r rest ih =>
    intro i
    simp only [representation_body, ne_eq, Nat.add_one_ne_zero, not_false_eq_true, if_true,
      List.map_cons, string_join_cons, ih, String.append_assoc]

theorem representation_body_eq (ids : List (Option String)) :
    representation_body 0 ids = String.intercalate " " (ids.map identifier_text) := by
  cases ids with
  | nil => rfl
  | cons r rest =>
    have ee : ∀ x : String, "" ++ x = x := fun x => by cases x; rfl
    simp only [representation_body, ne_eq, not_true_eq_false, if_false, List.map_cons,
      String.intercalate, intercalate_go_eq, representation_body_succ, ee, List.map_map,
      String.append_assoc]
    rfl

theorem build_representation_eq (s : State) (layout : sway_container_layout)
    (l : List Nat) (ids : List (Option String)) (h : l.mapM (child_identifier s) = some ids) :
    container_build_representation s layout l =
      some (2 + (representation_body 0 ids).utf8ByteSize + 1,
        layout_opening layout ++ representation_body 0 ids ++ "]") := by
  unfold container_build_representation
  have key : ∀ start : String, ((build_representation_loop s l 0 (2, start)).bind
      fun d => pure (d.1 + 1, d.2 ++ "]")) =
      some (2 + (representation_body 0 ids).utf8ByteSize + 1,
        start ++ representation_body 0 ids ++ "]") := by
    intro start
    rw [build_representation_loop_eq s l ids 0 2 start h]
    rfl
  cases layout <;> exact key _

theorem mapM_child_identifier_defined {s : State} (hv : Valid s) :
    ∀ l : List Nat, (∀ y ∈ l, (s.con y).isSome) →
      ∃ ids, l.mapM (child_identifier s) = some ids := by
  intro l
  induction l with
  | nil => intro _; exact ⟨[], rfl⟩
  | cons y l ih =>
    intro hl
    obtain ⟨r, hr⟩ := child_identifier_defined hv (hl y (List.mem_cons_self _ _))
    obtain ⟨ids, hids⟩ := ih (fun z hz => hl z (List.mem_cons_of_mem _ hz))
    exact ⟨r :: ids, by rw [List.mapM_cons, hr, hids]; rfl⟩

/-- Consecutive child identifiers are separated by a single space: whenever
the identifiers `ids` of the children can be read,
`container_build_representation` writes the layout prefix, the identifiers
(`(null)` for a null one) joined by one space, and the closing bracket, and
returns the number of bytes of that string; for an `L_VERT` layout whose two
children are views of classes `Terminal` and `Firefox` it writes
`V[Terminal Firefox]` and returns 19. -/
theorem build_representation_separator (s : State) (layout : sway_container_layout)
    (l : List Nat) (ids : List (Option String)) (h : l.mapM (child_identifier s) = some ids) :
    container_build_representation s layout l =
      some ((spec_representation " " layout ids).utf8ByteSize,
        spec_representation " " layout ids) ∧
    container_build_representation terminal_firefox_state L_VERT [1, 2] =
      some (19, "V[Terminal Firefox]") := by
  refine ⟨?_, by decide⟩
  rw [build_representation_eq s layout l ids h, spec_representation, representation_body_eq]
  have e2 : (layout_opening layout).utf8ByteSize = 2 := by cases layout <;> decide
  have e1 : ("]" : String).utf8ByteSize = 1 := by decide
  simp only [utf8ByteSize_append, e2, e1]

theorem build_representation_separator_witness :
    container_build_representation terminal_firefox_state L_VERT [1, 2] =
      some ((spec_representation " " L_VERT [some "Terminal", some "Firefox"]).utf8ByteSize,
        spec_representation " " L_VERT [some "Terminal", some "Firefox"]) ∧
    container_build_representation terminal_firefox_state L_VERT [1, 2] =
      some (19, "V[Terminal Firefox]") :=
  build_representation_separator terminal_firefox_state L_VERT [1, 2]
    [some "Terminal", some "Firefox"] (by decide)

/-- C36, evaluated on the code: for the `L_VERT` container of
`terminal_firefox_state`, whose children are views of classes `Terminal` and
`Firefox`, `container_build_representation` returns 19 and writes
`V[Terminal Firefox]`, not the documented `V[Terminal, Firefox]` of length
20. -/
theorem build_representation_not_comma_separated :
    TreeWF terminal_firefox_state ∧
    [1, 2].mapM (child_identifier terminal_firefox_state) =
      some [some "Terminal", some "Firefox"] ∧
    spec_representation ", " L_VERT [some "Terminal", some "Firefox"] =
      "V[Terminal, Firefox]" ∧
    container_build_representation terminal_firefox_state L_VERT [1, 2] =
      some (19, "V[Terminal Firefox]") ∧
    container_build_representation terminal_firefox_state L_VERT [1, 2] ≠
      some (20, "V[Terminal, Firefox]") := by
  decide

/-- C33, evaluated on the code: `two_fullscreen_state` and
`global_fullscreen_state` are well formed with consistent fullscreen
back-references.  After `container_add_child(2, 0)` on the first, which moves
the split container 0 with its fullscreen child 1 to workspace 1, workspace 0
still names container 1 as its fullscreen container although container 1 is
on workspace 1, whose fullscreen container is 3.  After `container_detach(1)`
and `container_add_child(0, 1)` on the second, container 1 is attached in mode
`FULLSCREEN_GLOBAL` while the root's `fullscreen_global` is null. -/
theorem attach_breaks_fullscreen_consistent :
    TreeWF two_fullscreen_state ∧ FullscreenConsistent two_fullscreen_state ∧
    (∃ t ∈ container_add_child 8 two_fullscreen_state 2 0,
      t.fsOf 0 = some 1 ∧ t.wsOf 1 = some 1 ∧ t.modeOf 1 = some FULLSCREEN_WORKSPACE ∧
      t.fsOf 1 = some 3 ∧ ¬ FullscreenConsistent t) ∧
    TreeWF global_fullscreen_state ∧ FullscreenConsistent global_fullscreen_state ∧
    (∃ s1 ∈ container_detach 8 global_fullscreen_state 1,
     ∃ t ∈ container_add_child 8 s1 0 1,
      t.parentOf 1 = some 0 ∧ t.wsOf 1 = some 0 ∧ t.modeOf 1 = some FULLSCREEN_GLOBAL ∧
      t.fullscreen_global = none ∧ ¬ FullscreenConsistent t) := by
  decide

theorem double_to_int_of_nonneg {q : ℚ} (h0 : 0 ≤ q) (h1 : ⌊q⌋ ≤ INT_MAX) :
    double_to_int q = some ⌊q⌋ := by
  have hf : (0 : Int) ≤ ⌊q⌋ := Int.floor_nonneg.mpr h0
  unfold double_to_int
  simp only [h0, if_true]
  rw [if_pos]
  exact ⟨by unfold INT_MIN; omega, h1⟩

theorem double_to_int_intCast (z : Int) (h0 : INT_MIN ≤ z) (h1 : z ≤ INT_MAX) :
    double_to_int (z : ℚ) = some z := by
  unfold double_to_int
  simp only [Int.floor_intCast, Int.ceil_intCast, ite_self]
  rw [if_pos ⟨h0, h1⟩]

theorem narrow_tabbed_state_box :
    node_get_box narrow_tabbed_state (.container 0) =
      some { x := 0, y := 0, width := 2, height := 100 } := by
  have h0 : double_to_int (0 : ℚ) = some 0 := by
    simpa using double_to_int_intCast 0 (by decide) (by decide)
  have h2 : double_to_int (2 : ℚ) = some 2 := by
    simpa using double_to_int_intCast 2 (by decide) (by decide)
  have h100 : double_to_int (100 : ℚ) = some 100 := by
    simpa using double_to_int_intCast 100 (by decide) (by decide)
  simp [node_get_box, container_get_box, narrow_tabbed_state, State.con, h0, h2, h100]

/-- C34, evaluated on the code: in `narrow_tabbed_state` the `L_TABBED`
container 0 has 3 children and a box of width 2, the titlebar height is 20 and
the point (1, 5) lies inside the box and in the title strip; the tab width
`2 / 3` is 0, so the index computation divides by zero and
`container_at_tabbed` has no defined result. -/
theorem tabbed_tab_width_zero :
    TreeWF narrow_tabbed_state ∧
    node_get_box narrow_tabbed_state (.container 0) =
      some { x := 0, y := 0, width := 2, height := 100 } ∧
    node_get_children narrow_tabbed_state (.container 0) = some (some [1, 2, 3]) ∧
    size_t_to_int (container_titlebar_height narrow_tabbed_state) = 20 ∧
    Int.tdiv 2 ([1, 2, 3] : List Nat).length = 0 ∧
    ∀ recurse seat surface,
      container_at_tabbed recurse narrow_tabbed_state seat (.container 0) 1 5 surface = none := by
  refine ⟨by decide, narrow_tabbed_state_box, by decide, by decide, by decide, ?_⟩
  intro recurse seat surface
  have ht : size_t_to_int (container_titlebar_height narrow_tabbed_state) = 20 := by decide
  have hc : node_get_children narrow_tabbed_state (.container 0) = some (some [1, 2, 3]) := by
    decide
  unfold container_at_tabbed
  simp only [narrow_tabbed_state_box, hc, ht, Option.bind_eq_bind, Option.some_bind]
  have hz : Int.tdiv 2 3 = 0 := by decide
  norm_num
  intro h
  exact absurd hz h

theorem tabbed_index (children : List Nat) (box : wlr_box) (k : Int) (lx : ℚ)
    (hn : 1 ≤ children.length) (hmax : (children.length : Int) ≤ INT_MAX)
    (hk : 0 < k) (hw : box.width = k * children.length)
    (hx0 : (box.x : ℚ) ≤ lx) (hx1 : lx ≤ box.x + box.width) :
    Int.tdiv box.width children.length = k ∧
    box.width / (children.length : Int) = k ∧
    double_to_int ((lx - box.x) / k) = some ⌊(lx - box.x) / k⌋ ∧
    0 ≤ ⌊(lx - box.x) / k⌋ ∧ ⌊(lx - box.x) / k⌋ ≤ children.length := by
  have hn0 : ((children.length : Nat) : Int) ≠ 0 := by omega
  have hkq : (0 : ℚ) < k := by exact_mod_cast hk
  have hq0 : 0 ≤ (lx - box.x) / k := div_nonneg (by linarith) hkq.le
  have hqn : (lx - box.x) / k ≤ ((children.length : Int) : ℚ) := by
    rw [div_le_iff₀ hkq]
    have : (box.width : ℚ) = k * children.length := by exact_mod_cast congrArg (fun z : Int => (z : ℚ)) hw
    push_cast
    linarith [mul_comm (k : ℚ) (children.length : ℚ)]
  have hfl : ⌊(lx - box.x) / k⌋ ≤ children.length := by
    have := Int.floor_le_floor hqn
    rwa [Int.floor_intCast] at this
  refine ⟨?_, ?_, double_to_int_of_nonneg hq0 (le_trans hfl hmax), Int.floor_nonneg.mpr hq0, hfl⟩
  · rw [hw]; exact Int.mul_tdiv_cancel k hn0
  · rw [hw]; exact Int.mul_ediv_cancel k hn0

/-- C23 (amended): for every `L_TABBED` node with `n >= 1` children whose box
width is a positive multiple `k * n` of `n`, and every point inside the box
(`box.x <= lx <= box.x + box.width` and `box.y <= ly <= box.y + box.height`):
when `ly` is above the lower edge of the title strip, `container_at_tabbed`
returns the child at index `min(floor((lx - box.x) / (box.width / n)), n - 1)`,
whatever the hit test of the children gives; otherwise it returns the result
of `tiling_container_at` on the seat's active child, or null when there is
none. -/
theorem container_at_tabbed_selects
    (recurse : Node → SurfaceHit → Option (Option Nat × SurfaceHit))
    (s : State) (seat : sway_seat) (parent : Node) (lx ly : ℚ) (surface : SurfaceHit)
    (box : wlr_box) (children : List Nat) (k : Int)
    (hbox : node_get_box s parent = some box)
    (hch : node_get_children s parent = some (some children))
    (hn : 1 ≤ children.length) (hmax : (children.length : Int) ≤ INT_MAX)
    (hk : 0 < k) (hw : box.width = k * children.length)
    (hx0 : (box.x : ℚ) ≤ lx) (hx1 : lx ≤ box.x + box.width)
    (hy0 : (box.y : ℚ) ≤ ly) (hy1 : ly ≤ box.y + box.height) :
    (ly < box.y + size_t_to_int (container_titlebar_height s) →
      ∃ child,
        children.get? (min ⌊(lx - box.x) / ((box.width / (children.length : Int) : Int) : ℚ)⌋
          ((children.length : Int) - 1)).toNat = some child ∧
        container_at_tabbed recurse s seat parent lx ly surface = some (some child, surface)) ∧
    (¬ ly < box.y + size_t_to_int (container_titlebar_height s) →
      container_at_tabbed recurse s seat parent lx ly surface =
        match seat.active_tiling_child parent with
        | some current => recurse current surface
        | none => some (none, surface)) := by
  obtain ⟨htd, hed, hconv, hi0, hin⟩ := tabbed_index children box k lx hn hmax hk hw hx0 hx1
  have hbnd : ¬ (lx < box.x ∨ lx > box.x + box.width ∨ ly < box.y ∨ ly > box.y + box.height) := by
    push_neg
    exact ⟨hx0, hx1, hy0, hy1⟩
  have hlen : ¬ children.length = 0 := by omega
  constructor
  · intro hstrip
    have hidx : 0 ≤ min ⌊(lx - box.x) / (k : ℚ)⌋ ((children.length : Int) - 1) :=
      le_min hi0 (by omega)
    have hlt : (min ⌊(lx - box.x) / (k : ℚ)⌋ ((children.length : Int) - 1)).toNat <
        children.length := by
      rw [Int.toNat_lt hidx]
      have := min_le_right ⌊(lx - box.x) / (k : ℚ)⌋ ((children.length : Int) - 1)
      omega
    refine ⟨children.get ⟨_, hlt⟩, ?_, ?_⟩
    · rw [hed]
      exact List.get?_eq_get hlt
    · unfold container_at_tabbed
      simp only [hbox, hch, Option.bind_eq_bind, Option.some_bind, if_neg hbnd, if_neg hlen,
        if_pos hstrip, htd, if_neg (ne_of_gt hk), hconv]
      have hcl : (if ⌊(lx - box.x) / (k : ℚ)⌋ ≥ (children.length : Int)
          then (children.length : Int) - 1 else ⌊(lx - box.x) / (k : ℚ)⌋) =
          min ⌊(lx - box.x) / (k : ℚ)⌋ ((children.length : Int) - 1) := by
        split_ifs with h
        · rw [min_eq_right (by omega)]
        · rw [min_eq_left (by omega)]
      rw [hcl, if_neg (not_lt.mpr hidx), List.get?_eq_get hlt]
      rfl
  · intro hstrip
    unfold container_at_tabbed
    simp only [hbox, hch, Option.bind_eq_bind, Option.some_bind, if_neg hbnd, if_neg hlen,
      if_neg hstrip]
    cases seat.active_tiling_child parent <;> rfl

theorem tabbed_state_box :
    node_get_box tabbed_state (.container 0) =
      some { x := 0, y := 0, width := 300, height := 200 } := by
  have h0 : double_to_int (0 : ℚ) = some 0 := by
    simpa using double_to_int_intCast 0 (by decide) (by decide)
  have h2 : double_to_int (300 : ℚ) = some 300 := by
    simpa using double_to_int_intCast 300 (by decide) (by decide)
  have h100 : double_to_int (200 : ℚ) = some 200 := by
    simpa using double_to_int_intCast 200 (by decide) (by decide)
  simp [node_get_box, container_get_box, tabbed_state, State.con, h0, h2, h100]

theorem low_tabbed_state_box :
    node_get_box low_tabbed_state (.container 0) =
      some { x := 0, y := 0, width := 300, height := 10 } := by
  have h0 : double_to_int (0 : ℚ) = some 0 := by
    simpa using double_to_int_intCast 0 (by decide) (by decide)
  have h2 : double_to_int (300 : ℚ) = some 300 := by
    simpa using double_to_int_intCast 300 (by decide) (by decide)
  have h100 : double_to_int (10 : ℚ) = some 10 := by
    simpa using double_to_int_intCast 10 (by decide) (by decide)
  simp [node_get_box, container_get_box, low_tabbed_state, State.con, h0, h2, h100]

/-- C23, evaluated on the code: in `low_tabbed_state` the `L_TABBED` container 0
has three equal-width children over x in [0, 300), a box only 10 high and the
titlebar height 20; the point (160, 15) satisfies `box.x <= lx <= box.x +
box.width` and `box.y <= ly < box.y + titlebar height`, and the child at index
`floor(160 / 100) = 1` is container 2, yet `container_at_tabbed` returns null,
because the point is below the box. -/
theorem container_at_tabbed_below_box :
    TreeWF low_tabbed_state ∧
    node_get_box low_tabbed_state (.container 0) =
      some { x := 0, y := 0, width := 300, height := 10 } ∧
    node_get_children low_tabbed_state (.container 0) = some (some [1, 2, 3]) ∧
    size_t_to_int (container_titlebar_height low_tabbed_state) = 20 ∧
    ((0 : Int) : ℚ) ≤ 160 ∧ (160 : ℚ) ≤ ((0 : Int) : ℚ) + ((300 : Int) : ℚ) ∧
    ((0 : Int) : ℚ) ≤ 15 ∧ (15 : ℚ) < ((0 : Int) : ℚ) + ((20 : Int) : ℚ) ∧
    ([1, 2, 3] : List Nat).get? 1 = some 2 ∧
    ∀ recurse seat surface,
      container_at_tabbed recurse low_tabbed_state seat (.container 0) 160 15 surface =
        some (none, surface) := by
  refine ⟨by decide, low_tabbed_state_box, by decide, by decide, by norm_num, by norm_num,
    by norm_num, by norm_num, by decide, ?_⟩
  intro recurse seat surface
  unfold container_at_tabbed
  simp only [low_tabbed_state_box, Option.bind_eq_bind, Option.some_bind]
  norm_num

theorem container_at_tabbed_selects_witness :
    container_at_tabbed (fun _ _ => none) tabbed_state {} (.container 0) 160 5 none =
      some (some 2, none) ∧
    container_at_tabbed (fun _ sf => some (none, sf)) tabbed_state
        { active_tiling_child := fun _ => some (.container 2) } (.container 0) 160 25 none =
      some (none, none) := by
  have hc : node_get_children tabbed_state (.container 0) = some (some [1, 2, 3]) := by decide
  have ht : size_t_to_int (container_titlebar_height tabbed_state) = 20 := by decide
  constructor
  · have h := (container_at_tabbed_selects (fun _ _ => none) tabbed_state {} (.container 0)
      160 5 none { x := 0, y := 0, width := 300, height := 200 } [1, 2, 3] 100
      tabbed_state_box hc (by decide) (by decide) (by decide) (by decide)
      (by norm_num) (by norm_num) (by norm_num) (by norm_num)).1 (by rw [ht]; norm_num)
    obtain ⟨child, hget, hres⟩ := h
    have hidx : (min ⌊((160 : ℚ) - ((0 : Int) : ℚ)) /
        (((300 : Int) / ((([1, 2, 3] : List Nat).length : Nat) : Int) : Int) : ℚ)⌋
        (((([1, 2, 3] : List Nat).length : Nat) : Int) - 1)).toNat = 1 := by
      have e1 : ((300 : Int) / ((([1, 2, 3] : List Nat).length : Nat) : Int) : Int) = 100 := by
        decide
      have e2 : ⌊((160 : ℚ) - ((0 : Int) : ℚ)) / ((100 : Int) : ℚ)⌋ = 1 := by
        rw [Int.floor_eq_iff]; norm_num
      rw [e1, e2]
      decide
    rw [hidx] at hget
    have : child = 2 := by
      have h2 : ([1, 2, 3] : List Nat).get? 1 = some 2 := by decide
      rw [h2] at hget
      exact (Option.some.inj hget).symm
    rw [hres, this]
  · have h := (container_at_tabbed_selects (fun _ sf => some (none, sf)) tabbed_state
      { active_tiling_child := fun _ => some (.container 2) } (.container 0)
      160 25 none { x := 0, y := 0, width := 300, height := 200 } [1, 2, 3] 100
      tabbed_state_box hc (by decide) (by decide) (by decide) (by decide)
      (by norm_num) (by norm_num) (by norm_num) (by norm_num)).2 (by rw [ht]; norm_num)
    rw [h]

/-- C24: for every `L_STACKED` node with `n` children, titlebar height `h > 0`
and every point inside the node's box, with `i = floor((ly - box.y) / h)`:
when `i < n`, `container_at_stacked` returns the child at index `i`, and `i`
lies in `[0, n - 1]`; otherwise it returns the result of `tiling_container_at`
on the seat's active child, or null when there is none. -/
theorem container_at_stacked_selects
    (recurse : Node → SurfaceHit → Option (Option Nat × SurfaceHit))
    (s : State) (seat : sway_seat) (parent : Node) (lx ly : ℚ) (surface : SurfaceHit)
    (box : wlr_box) (children : List Nat)
    (hbox : node_get_box s parent = some box)
    (hch : node_get_children s parent = some (some children))
    (hh : 0 < size_t_to_int (container_titlebar_height s))
    (hmax : box.height ≤ INT_MAX)
    (hx0 : (box.x : ℚ) ≤ lx) (hx1 : lx ≤ box.x + box.width)
    (hy0 : (box.y : ℚ) ≤ ly) (hy1 : ly ≤ box.y + box.height) :
    (⌊(ly - box.y) / (size_t_to_int (container_titlebar_height s) : ℚ)⌋ < children.length →
      ∃ child,
        0 ≤ ⌊(ly - box.y) / (size_t_to_int (container_titlebar_height s) : ℚ)⌋ ∧
        ⌊(ly - box.y) / (size_t_to_int (container_titlebar_height s) : ℚ)⌋ ≤
          (children.length : Int) - 1 ∧
        children.get? ⌊(ly - box.y) / (size_t_to_int (container_titlebar_height s) : ℚ)⌋.toNat =
          some child ∧
        container_at_stacked recurse s seat parent lx ly surface = some (some child, surface)) ∧
    (¬ ⌊(ly - box.y) / (size_t_to_int (container_titlebar_height s) : ℚ)⌋ < children.length →
      container_at_stacked recurse s seat parent lx ly surface =
        match seat.active_tiling_child parent with
        | some current => recurse current surface
        | none => some (none, surface)) := by
  have hbnd : ¬ (lx < box.x ∨ lx > box.x + box.width ∨ ly < box.y ∨ ly > box.y + box.height) := by
    push_neg
    exact ⟨hx0, hx1, hy0, hy1⟩
  have hhq : (0 : ℚ) < (size_t_to_int (container_titlebar_height s) : ℚ) := by exact_mod_cast hh
  have hh1 : (1 : ℚ) ≤ (size_t_to_int (container_titlebar_height s) : ℚ) := by
    exact_mod_cast (show (1 : Int) ≤ size_t_to_int (container_titlebar_height s) by omega)
  have hq0 : 0 ≤ (ly - box.y) / (size_t_to_int (container_titlebar_height s) : ℚ) :=
    div_nonneg (by linarith) hhq.le
  have hqn : (ly - box.y) / (size_t_to_int (container_titlebar_height s) : ℚ) ≤
      ((box.height : Int) : ℚ) := by
    rw [div_le_iff₀ hhq]
    have hb : (0 : ℚ) ≤ (box.height : ℚ) := by linarith
    have hm := mul_le_mul_of_nonneg_left hh1 hb
    rw [mul_one] at hm
    linarith
  have hfl : ⌊(ly - box.y) / (size_t_to_int (container_titlebar_height s) : ℚ)⌋ ≤ box.height := by
    have := Int.floor_le_floor hqn
    rwa [Int.floor_intCast] at this
  have hconv := double_to_int_of_nonneg hq0 (le_trans hfl hmax)
  have hi0 := Int.floor_nonneg.mpr hq0
  constructor
  · intro hlt
    have hlt2 : ⌊(ly - box.y) / (size_t_to_int (container_titlebar_height s) : ℚ)⌋.toNat <
        children.length := by
      rw [Int.toNat_lt hi0]; exact hlt
    refine ⟨children.get ⟨_, hlt2⟩, hi0, by omega, List.get?_eq_get hlt2, ?_⟩
    unfold container_at_stacked
    simp only [hbox, Option.bind_eq_bind, Option.some_bind]
    rw [if_neg hbnd, hch, Option.some_bind, Option.some_bind, if_pos hh, hconv,
      Option.some_bind, if_pos hlt, if_neg (not_lt.mpr hi0), List.get?_eq_get hlt2]
    rfl
  · intro hlt
    unfold container_at_stacked
    simp only [hbox, Option.bind_eq_bind, Option.some_bind]
    rw [if_neg hbnd, hch, Option.some_bind, Option.some_bind, if_pos hh, hconv,
      Option.some_bind, if_neg hlt]
    cases seat.active_tiling_child parent <;> rfl

theorem stacked_state_box :
    node_get_box stacked_state (.container 0) =
      some { x := 0, y := 0, width := 300, height := 200 } := by
  have h0 : double_to_int (0 : ℚ) = some 0 := by
    simpa using double_to_int_intCast 0 (by decide) (by decide)
  have h2 : double_to_int (300 : ℚ) = some 300 := by
    simpa using double_to_int_intCast 300 (by decide) (by decide)
  have h100 : double_to_int (200 : ℚ) = some 200 := by
    simpa using double_to_int_intCast 200 (by decide) (by decide)
  simp [node_get_box, container_get_box, stacked_state, State.con, h0, h2, h100]

theorem container_at_stacked_selects_witness :
    ∃ child,
      0 ≤ ⌊((25 : ℚ) - ((0 : Int) : ℚ)) /
        (size_t_to_int (container_titlebar_height stacked_state) : ℚ)⌋ ∧
      ⌊((25 : ℚ) - ((0 : Int) : ℚ)) /
        (size_t_to_int (container_titlebar_height stacked_state) : ℚ)⌋ ≤
          ((([1, 2, 3] : List Nat).length : Nat) : Int) - 1 ∧
      ([1, 2, 3] : List Nat).get? ⌊((25 : ℚ) - ((0 : Int) : ℚ)) /
        (size_t_to_int (container_titlebar_height stacked_state) : ℚ)⌋.toNat = some child ∧
      container_at_stacked (fun _ _ => none) stacked_state {} (.container 0) 160 25 none =
        some (some child, none) := by
  have ht : size_t_to_int (container_titlebar_height stacked_state) = 20 := by decide
  have e2 : ⌊((25 : ℚ) - ((0 : Int) : ℚ)) / ((20 : Int) : ℚ)⌋ = 1 := by
    rw [Int.floor_eq_iff]; norm_num
  exact (container_at_stacked_selects (fun _ _ => none) stacked_state {} (.container 0)
    160 25 none { x := 0, y := 0, width := 300, height := 200 } [1, 2, 3]
    stacked_state_box (by decide) (by decide) (by decide)
    (by norm_num) (by norm_num) (by norm_num) (by norm_num)).1
    (by rw [ht, e2]; decide)

/-- C31 (amended): when the precondition asserted at the entry of an operation
is violated, the operation only logs the failed assertion: the state returned
is the state before the call with the log entry appended, no container,
workspace or root field changed.  This holds for
`container_set_geometry_from_content` (the container is not a view, or is a
view that is not floating), `container_floating_move_to` and
`container_floating_move_to_center` (the container is not floating),
`container_floating_set_default_size` (the container has no workspace) and
`container_fullscreen_disable` (the container is not fullscreen). -/
theorem failed_entry_assertion_keeps_state (s : State) (con : Nat) (C : sway_container)
    (hC : s.con con = some C) :
    (∀ e, ({ s.emit e with events := s.events } : State) = s) ∧
    (C.view = none → container_set_geometry_from_content s con =
      some (s.emit (.assert_failed "Expected a view"))) ∧
    (C.view.isSome → container_is_floating s con = some false →
      container_set_geometry_from_content s con =
        some (s.emit (.assert_failed "Expected a floating view"))) ∧
    (container_is_floating s con = some false → ∀ fuel lx ly,
      container_floating_move_to fuel s con lx ly =
        some (s.emit (.assert_failed "Expected a floating container"))) ∧
    (container_is_floating s con = some false → ∀ fuel,
      container_floating_move_to_center fuel s con =
        some (s.emit (.assert_failed "Expected a floating container"))) ∧
    (C.pending.workspace = none → container_floating_set_default_size s con =
      some (s.emit (.assert_failed "Expected a container on a workspace"))) ∧
    (C.pending.fullscreen_mode = FULLSCREEN_NONE → ∀ fuel,
      container_fullscreen_disable fuel s con =
        some (s.emit (.assert_failed "Expected a fullscreen container"))) := by
  refine ⟨fun e => rfl, ?_, ?_, ?_, ?_, ?_, ?_⟩
  · intro hv
    simp [container_set_geometry_from_content, hC, hv, sway_assert]
  · intro hv hfl
    obtain ⟨v, hv⟩ := Option.isSome_iff_exists.mp hv
    simp [container_set_geometry_from_content, hC, hv, hfl, sway_assert]
  · intro hfl fuel lx ly
    simp [container_floating_move_to, hfl, sway_assert]
  · intro hfl fuel
    simp [container_floating_move_to_center, hfl, sway_assert]
  · intro hw
    simp [container_floating_set_default_size, hC, hw, sway_assert]
  · intro hm fuel
    simp [container_fullscreen_disable, hC, hm, sway_assert]

theorem failed_entry_assertion_keeps_state_witness :
    (∀ e, ({ two_fullscreen_state.emit e with events := two_fullscreen_state.events } : State) =
      two_fullscreen_state) ∧
    container_set_geometry_from_content two_fullscreen_state 0 =
      some (two_fullscreen_state.emit (.assert_failed "Expected a view")) ∧
    (∀ fuel lx ly, container_floating_move_to fuel two_fullscreen_state 0 lx ly =
      some (two_fullscreen_state.emit (.assert_failed "Expected a floating container"))) ∧
    (∀ fuel, container_fullscreen_disable fuel two_fullscreen_state 0 =
      some (two_fullscreen_state.emit (.assert_failed "Expected a fullscreen container"))) :=
  have h := failed_entry_assertion_keeps_state two_fullscreen_state 0
    { pending := { layout := L_HORIZ, parent := none, workspace := some 0,
                   children := some [1] } } (by decide)
  ⟨h.1, h.2.1 (by decide), h.2.2.2.1 (by decide), h.2.2.2.2.2.2 (by decide)⟩

/-- C31, evaluated on the code: in `no_output_state` the container 0 is
floating and the root's output list is empty; `container_floating_move_to(0, 5,
5)` translates the container from x = 0 to x = 5 and then fails the assertion
that an output can be found: the assertion is logged and the state after the
call differs from the state before it. -/
theorem move_to_translates_before_failed_assertion :
    container_is_floating no_output_state 0 = some true ∧
    (no_output_state.con 0).map (·.pending.x) = some 0 ∧
    ∃ t ∈ container_floating_move_to 8 no_output_state 0 5 5,
      Event.assert_failed "Unable to find any output" ∈ t.events ∧
      (t.con 0).map (·.pending.x) = some 5 ∧
      ({ t with events := no_output_state.events } : State) ≠ no_output_state := by
  refine ⟨by decide, by decide, ?_⟩
  have hfl : container_is_floating no_output_state 0 = some true := by decide
  have hC : no_output_state.con 0 = some floating_split := by decide
  simp only [container_floating_move_to, hfl, hC, sway_assert, Option.bind_eq_bind,
    Option.some_bind, if_true, Bool.not_true, Bool.false_eq_true, if_false]
  simp only [Option.bind_eq_bind,
    Option.some_bind, if_true, Bool.not_true, Bool.false_eq_true, if_false,
    container_floating_translate, State.modCon, State.updCon, no_output_state, State.con,
    List.getD_cons_zero, List.set_cons_zero, floating_split, Option.pure_def,
    List.foldlM_nil, State.dirtyCon, node_set_dirty, container_is_scratchpad_hidden,
    container_floating_find_output, List.foldl_nil, Option.isSome_none, State.emit,
    Option.mem_def, Option.some.injEq, exists_eq_left']
  norm_num

theorem Fixed.fixed_refl (s : State) : Fixed s s :=
  ⟨fun _ C h => ⟨C, h, rfl⟩, fun _ D h => Or.inl (by rw [h]; rfl)⟩

theorem Fixed.fixed_trans {s t u : State} (h1 : Fixed s t) (h2 : Fixed t u) : Fixed s u := by
  constructor
  · intro x C hC
    obtain ⟨D, hD, e1⟩ := h1.1 x C hC
    obtain ⟨E, hE, e2⟩ := h2.1 x D hD
    exact ⟨E, hE, e2.trans e1⟩
  · intro x E hE
    rcases h2.2 x E hE with h | h
    · obtain ⟨D, hD⟩ := Option.isSome_iff_exists.mp h
      rcases h1.2 x D hD with h3 | h3
      · exact Or.inl h3
      · obtain ⟨E2, hE2, e⟩ := h2.1 x D hD
        rw [hE] at hE2
        obtain rfl := Option.some.inj hE2
        simp only [sway_container.fixed, Prod.mk.injEq] at e
        exact Or.inr ⟨e.1.trans h3.1, e.2.1.trans h3.2⟩
    · exact Or.inr h

theorem fixed_of_con {s t : State} (h : ∀ x, t.con x = s.con x) : Fixed s t :=
  ⟨fun x C hC => ⟨C, by rw [h x]; exact hC, rfl⟩,
   fun x D hD => Or.inl (by rw [← h x, hD]; rfl)⟩

theorem fixed_of_containers {s t : State} (h : t.containers = s.containers) : Fixed s t :=
  fixed_of_con (fun x => by unfold State.con; rw [h])

theorem fixed_updCon (s : State) (c : Nat) {f : sway_container → sway_container}
    (hf : ∀ C, (f C).fixed = C.fixed) : Fixed s (s.updCon c f) := by
  constructor
  · intro x C hC
    by_cases hx : x = c
    · subst hx
      exact ⟨f C, by simp [hC], hf C⟩
    · exact ⟨C, by simp [hx, hC], rfl⟩
  · intro x D hD
    left
    by_cases hx : x = c
    · subst hx
      simp only [con_updCon, if_true] at hD
      cases hc : s.con x with
      | none => simp [hc] at hD
      | some C => rfl
    · simp only [con_updCon, hx, if_false] at hD
      rw [hD]; rfl

theorem fixed_modCon {s t : State} {c : Nat} {f : sway_container → sway_container}
    (h : s.modCon c f = some t) (hf : ∀ C, (f C).fixed = C.fixed) : Fixed s t := by
  obtain ⟨-, rfl⟩ := modCon_eq_some h
  exact fixed_updCon s c hf

theorem fixed_updWs (s : State) (w : Nat) (f : sway_workspace → sway_workspace) :
    Fixed s (s.updWs w f) := fixed_of_con (fun x => by simp)

theorem fixed_modWs {s t : State} {w : Nat} {f : sway_workspace → sway_workspace}
    (h : s.modWs w f = some t) : Fixed s t := by
  unfold State.modWs at h
  cases hw : s.ws w with
  | none => simp [hw] at h
  | some W =>
    simp only [hw, Option.some.injEq] at h
    subst h
    exact fixed_updWs s w f

theorem fixed_emit (s : State) (e : Event) : Fixed s (s.emit e) :=
  fixed_of_con (fun _ => rfl)

theorem fixed_dirtyCon {s t : State} {c : Nat} (h : s.dirtyCon c = some t) : Fixed s t :=
  fixed_modCon h (fun _ => rfl)

theorem fixed_dirtyWs {s t : State} {w : Nat} (h : s.dirtyWs w = some t) : Fixed s t :=
  fixed_modWs h

theorem fixed_writeList {s t : State} {r : SiblingList} {l0 l : List Nat}
    (hr : s.readList r = some l0) (h : s.writeList r l = some t) : Fixed s t := by
  cases r with
  | children p =>
    obtain ⟨-, rfl⟩ := modCon_eq_some h
    constructor
    · intro x C hC
      by_cases hx : x = p
      · subst hx
        simp only [State.readList, hC, Option.bind_eq_bind, Option.some_bind] at hr
        refine ⟨{ C with pending := { C.pending with children := some l } }, by simp [hC], ?_⟩
        simp [sway_container.fixed, hr]
      · exact ⟨C, by simp [hx, hC], rfl⟩
    · intro x D hD
      left
      by_cases hx : x = p
      · subst hx
        simp only [con_updCon, if_true] at hD
        cases hc : s.con x with
        | none => simp [hc] at hD
        | some C => rfl
      · simp only [con_updCon, hx, if_false] at hD
        rw [hD]; rfl
  | tiling w => exact fixed_modWs h
  | floating w => exact fixed_modWs h

theorem fixed_sway_assert (s : State) (b : Bool) (msg : String) :
    Fixed s (sway_assert s b msg).1 := by
  cases b
  · exact fixed_emit _ _
  · exact Fixed.fixed_refl s

theorem fixed_set_fullscreen {s t : State} {con : Nat} {b : Bool}
    (h : set_fullscreen s con b = some t) : Fixed s t := by
  unfold set_fullscreen at h
  simp only [Option.bind_eq_bind, Option.pure_def] at h
  obtain ⟨C, -, h⟩ := Option.bind_eq_some.mp h
  split at h
  · simp only [Option.some.injEq] at h; subst h; exact Fixed.fixed_refl s
  · obtain ⟨V, -, h⟩ := Option.bind_eq_some.mp h
    split at h
    · split at h <;> (simp only [Option.some.injEq] at h; subst h)
      · exact (fixed_emit _ _).fixed_trans (fixed_emit _ _)
      · exact fixed_emit _ _
    · simp only [Option.some.injEq] at h; subst h; exact Fixed.fixed_refl s

theorem fixed_set_geometry_from_content {s t : State} {con : Nat}
    (h : container_set_geometry_from_content s con = some t) : Fixed s t := by
  unfold container_set_geometry_from_content at h
  simp only [Option.bind_eq_bind, Option.pure_def] at h
  obtain ⟨C, -, h⟩ := Option.bind_eq_some.mp h
  cases hv : C.view.isSome
  · simp only [sway_assert, hv, Bool.false_eq_true, if_false, Bool.not_false, if_true,
      Option.some.injEq] at h
    subst h
    exact fixed_emit _ _
  · simp only [sway_assert, hv, if_true, Bool.not_true, Bool.false_eq_true, if_false] at h
    obtain ⟨b, -, h⟩ := Option.bind_eq_some.mp h
    cases b
    · simp only [Bool.false_eq_true, if_false, Bool.not_false, if_true, Option.some.injEq] at h
      subst h
      exact fixed_emit _ _
    · simp only [if_true, Bool.not_true, Bool.false_eq_true, if_false] at h
      exact fixed_modCon h (fun _ => rfl)

theorem fixed_foldlM {f : State → Nat → Option State} :
    ∀ (l : List Nat) (s t : State), (∀ u c v, c ∈ l → f u c = some v → Fixed u v) →
      l.foldlM f s = some t → Fixed s t := by
  intro l
  induction l with
  | nil =>
    intro s t _ h
    simp only [List.foldlM_nil, Option.pure_def, Option.some.injEq] at h
    subst h
    exact Fixed.fixed_refl s
  | cons c l ih =>
    intro s t hf h
    simp only [List.foldlM_cons, Option.bind_eq_bind] at h
    obtain ⟨u, hu, h⟩ := Option.bind_eq_some.mp h
    exact (hf s c u (List.mem_cons_self _ _) hu).fixed_trans
      (ih u t (fun u c v hc => hf u c v (List.mem_cons_of_mem _ hc)) h)

theorem fixed_floating_natural_resize {s t : State} {con : Nat}
    (h : floating_natural_resize s con = some t) : Fixed s t := by
  unfold floating_natural_resize at h
  simp only [Option.bind_eq_bind, Option.pure_def] at h
  obtain ⟨C, -, h⟩ := Option.bind_eq_some.mp h
  split at h
  · exact fixed_modCon h (fun _ => rfl)
  · obtain ⟨V, -, h⟩ := Option.bind_eq_some.mp h
    obtain ⟨u, hu, h⟩ := Option.bind_eq_some.mp h
    exact (fixed_modCon hu (fun _ => rfl)).fixed_trans (fixed_set_geometry_from_content h)

theorem fixed_floating_resize_and_center {s t : State} {con : Nat}
    (h : container_floating_resize_and_center s con = some t) : Fixed s t := by
  unfold container_floating_resize_and_center at h
  simp only [Option.bind_eq_bind, Option.pure_def] at h
  obtain ⟨C, -, h⟩ := Option.bind_eq_some.mp h
  split at h
  · exact fixed_floating_natural_resize h
  · obtain ⟨W, -, h⟩ := Option.bind_eq_some.mp h
    obtain ⟨o, -, h⟩ := Option.bind_eq_some.mp h
    obtain ⟨O, -, h⟩ := Option.bind_eq_some.mp h
    split at h
    · exact fixed_modCon h (fun _ => rfl)
    · obtain ⟨u, hu, h⟩ := Option.bind_eq_some.mp h
      refine (fixed_floating_natural_resize hu).fixed_trans ?_
      obtain ⟨D, -, h⟩ := Option.bind_eq_some.mp h
      split at h
      · split at h <;> exact fixed_modCon h (fun _ => rfl)
      · obtain ⟨u1, hu1, h⟩ := Option.bind_eq_some.mp h
        obtain ⟨u2, hu2, h⟩ := Option.bind_eq_some.mp h
        have h1 : Fixed u u1 := by
          split at hu1 <;> exact fixed_modCon hu1 (fun _ => rfl)
        exact h1.fixed_trans ((fixed_modCon hu2 (fun _ => rfl)).fixed_trans
          (fixed_set_geometry_from_content h))

theorem fixed_floating_translate (dx dy : ℚ) :
    ∀ (fuel : Nat) (s t : State) (con : Nat),
      container_floating_translate fuel s con dx dy = some t → Fixed s t := by
  intro fuel
  induction fuel with
  | zero => intro s t con h; simp [container_floating_translate] at h
  | succ fuel ih =>
    intro s t con h
    simp only [container_floating_translate, Option.bind_eq_bind, Option.pure_def] at h
    obtain ⟨u, hu, h⟩ := Option.bind_eq_some.mp h
    obtain ⟨C, -, h⟩ := Option.bind_eq_some.mp h
    obtain ⟨u1, hu1, h⟩ := Option.bind_eq_some.mp h
    refine (fixed_modCon hu (fun _ => rfl)).fixed_trans (Fixed.fixed_trans ?_ (fixed_dirtyCon h))
    split at hu1
    · exact fixed_foldlM _ _ _ (fun a c b _ hab => ih a b c hab) hu1
    · simp only [Option.some.injEq] at hu1; subst hu1; exact Fixed.fixed_refl _

theorem fixed_floating_move_to_center {fuel : Nat} {s t : State} {con : Nat}
    (h : container_floating_move_to_center fuel s con = some t) : Fixed s t := by
  unfold container_floating_move_to_center at h
  simp only [Option.bind_eq_bind, Option.pure_def] at h
  obtain ⟨b, -, h⟩ := Option.bind_eq_some.mp h
  cases b
  · simp only [sway_assert, Bool.false_eq_true, if_false, Bool.not_false, if_true,
      Option.some.injEq] at h
    subst h
    exact fixed_emit _ _
  · simp only [sway_assert, if_true, Bool.not_true, Bool.false_eq_true, if_false] at h
    obtain ⟨C, -, h⟩ := Option.bind_eq_some.mp h
    obtain ⟨w, -, h⟩ := Option.bind_eq_some.mp h
    obtain ⟨W, -, h⟩ := Option.bind_eq_some.mp h
    exact fixed_floating_translate _ _ _ _ _ _ h

theorem fixed_fullscreen_workspace {s t : State} {con : Nat}
    (h : container_fullscreen_workspace s con = some t) : Fixed s t := by
  unfold container_fullscreen_workspace at h
  simp only [Option.bind_eq_bind, Option.pure_def] at h
  obtain ⟨C, -, h⟩ := Option.bind_eq_some.mp h
  by_cases hm : C.pending.fullscreen_mode = FULLSCREEN_NONE
  · simp only [sway_assert, hm, decide_True, if_true, Bool.not_true, Bool.false_eq_true,
      if_false] at h
    obtain ⟨u1, hu1, h⟩ := Option.bind_eq_some.mp h
    obtain ⟨u2, hu2, h⟩ := Option.bind_eq_some.mp h
    obtain ⟨u3, hu3, h⟩ := Option.bind_eq_some.mp h
    obtain ⟨u4, hu4, h⟩ := Option.bind_eq_some.mp h
    simp only [Option.some.injEq] at h
    subst h
    have h4 : Fixed u3 u4 := by
      split at hu4
      · obtain ⟨u5, hu5, hu4⟩ := Option.bind_eq_some.mp hu4
        simp only [Option.some.injEq] at hu4
        subst hu4
        exact (fixed_modWs hu5).fixed_trans (fixed_emit _ _)
      · simp only [Option.some.injEq] at hu4; subst hu4; exact Fixed.fixed_refl _
    exact (fixed_set_fullscreen hu1).fixed_trans ((fixed_modCon hu2 (fun _ => rfl)).fixed_trans
      ((fixed_modCon hu3 (fun _ => rfl)).fixed_trans (h4.fixed_trans
        ((fixed_emit _ _).fixed_trans (fixed_emit _ _)))))
  · simp only [sway_assert, hm, decide_False, Bool.false_eq_true, if_false, Bool.not_false,
      if_true, Option.some.injEq] at h
    subst h
    exact fixed_emit _ _

theorem fixed_fullscreen_global {s t : State} {con : Nat}
    (h : container_fullscreen_global s con = some t) : Fixed s t := by
  unfold container_fullscreen_global at h
  simp only [Option.bind_eq_bind, Option.pure_def] at h
  obtain ⟨C, -, h⟩ := Option.bind_eq_some.mp h
  by_cases hm : C.pending.fullscreen_mode = FULLSCREEN_NONE
  · simp only [sway_assert, hm, decide_True, if_true, Bool.not_true, Bool.false_eq_true,
      if_false] at h
    obtain ⟨u1, hu1, h⟩ := Option.bind_eq_some.mp h
    obtain ⟨u2, hu2, h⟩ := Option.bind_eq_some.mp h
    obtain ⟨u3, hu3, h⟩ := Option.bind_eq_some.mp h
    simp only [Option.some.injEq] at h
    subst h
    have h1 : Fixed u1 ({ u1 with fullscreen_global := some con } : State) :=
      fixed_of_containers rfl
    exact (fixed_set_fullscreen hu1).fixed_trans (h1.fixed_trans
      ((fixed_modCon hu2 (fun _ => rfl)).fixed_trans ((fixed_emit _ _).fixed_trans
        ((fixed_modCon hu3 (fun _ => rfl)).fixed_trans
          ((fixed_emit _ _).fixed_trans (fixed_emit _ _))))))
  · simp only [sway_assert, hm, decide_False, Bool.false_eq_true, if_false, Bool.not_false,
      if_true, Option.some.injEq] at h
    subst h
    exact fixed_emit _ _

theorem fixed_fullscreen_disable {fuel : Nat} {s t : State} {con : Nat}
    (h : container_fullscreen_disable fuel s con = some t) : Fixed s t := by
  unfold container_fullscreen_disable at h
  simp only [Option.bind_eq_bind, Option.pure_def] at h
  obtain ⟨C, -, h⟩ := Option.bind_eq_some.mp h
  by_cases hm : C.pending.fullscreen_mode = FULLSCREEN_NONE
  · simp only [sway_assert, hm, ne_eq, not_true_eq_false, decide_False, Bool.false_eq_true,
      if_false, Bool.not_false, if_true, Option.some.injEq] at h
    subst h
    exact fixed_emit _ _
  · simp only [sway_assert, hm, ne_eq, not_false_eq_true, decide_True, if_true, Bool.not_true,
      Bool.false_eq_true, if_false] at h
    obtain ⟨u1, hu1, h⟩ := Option.bind_eq_some.mp h
    obtain ⟨b1, -, h⟩ := Option.bind_eq_some.mp h
    obtain ⟨u2, hu2, h⟩ := Option.bind_eq_some.mp h
    obtain ⟨u3, hu3, h⟩ := Option.bind_eq_some.mp h
    obtain ⟨C1, -, h⟩ := Option.bind_eq_some.mp h
    obtain ⟨b2, -, h⟩ := Option.bind_eq_some.mp h
    obtain ⟨u4, hu4, h⟩ := Option.bind_eq_some.mp h
    obtain ⟨u5, hu5, h⟩ := Option.bind_eq_some.mp h
    have h2 : Fixed u1 u2 := by
      split at hu2
      · exact fixed_modCon hu2 (fun _ => rfl)
      · simp only [Option.some.injEq] at hu2; subst hu2; exact Fixed.fixed_refl _
    have h3 : Fixed u2 u3 := by
      split at hu3
      · split at hu3
        · obtain ⟨v1, hv1, hu3⟩ := Option.bind_eq_some.mp hu3
          obtain ⟨b3, -, hu3⟩ := Option.bind_eq_some.mp hu3
          refine (fixed_modWs hv1).fixed_trans ?_
          split at hu3
          · obtain ⟨o, -, hu3⟩ := Option.bind_eq_some.mp hu3
            obtain ⟨W, -, hu3⟩ := Option.bind_eq_some.mp hu3
            split at hu3
            · exact fixed_floating_move_to_center hu3
            · simp only [Option.some.injEq] at hu3; subst hu3; exact Fixed.fixed_refl _
          · simp only [Option.some.injEq] at hu3; subst hu3; exact Fixed.fixed_refl _
        · simp only [Option.some.injEq] at hu3; subst hu3; exact Fixed.fixed_refl _
      · simp only [Option.some.injEq] at hu3; subst hu3; exact fixed_of_containers rfl
    have h4 : Fixed u3 u4 := by
      split at hu4
      · exact fixed_floating_resize_and_center hu4
      · simp only [Option.some.injEq] at hu4; subst hu4; exact Fixed.fixed_refl _
    have h5 : Fixed u4 u5 := fixed_modCon hu5 (fun _ => rfl)
    have h6 : Fixed u5 t := by
      split at h <;> (simp only [Option.some.injEq] at h; subst h)
      · exact (fixed_emit _ _).fixed_trans ((fixed_emit _ _).fixed_trans (fixed_emit _ _))
      · exact (fixed_emit _ _).fixed_trans (fixed_emit _ _)
    exact (fixed_set_fullscreen hu1).fixed_trans (h2.fixed_trans (h3.fixed_trans
      (h4.fixed_trans (h5.fixed_trans h6))))

theorem fixed_disable_opt {fuel : Nat} {s t : State} {o : Option Nat}
    (h : (match o with
      | some g => container_fullscreen_disable fuel s g
      | none => pure s) = some t) : Fixed s t := by
  cases o with
  | none => simp only [Option.pure_def, Option.some.injEq] at h; subst h; exact Fixed.fixed_refl _
  | some g => exact fixed_fullscreen_disable h

theorem fixed_set_fullscreen_mode {fuel : Nat} {s t : State} {con : Nat}
    {mode : sway_fullscreen_mode}
    (h : container_set_fullscreen fuel s con mode = some t) : Fixed s t := by
  unfold container_set_fullscreen at h
  simp only [Option.bind_eq_bind, Option.pure_def] at h
  obtain ⟨C, -, h⟩ := Option.bind_eq_some.mp h
  split at h
  · simp only [Option.some.injEq] at h; subst h; exact Fixed.fixed_refl _
  · cases mode with
    | FULLSCREEN_NONE => exact fixed_fullscreen_disable h
    | FULLSCREEN_WORKSPACE =>
      simp only at h
      obtain ⟨u1, hu1, h⟩ := Option.bind_eq_some.mp h
      obtain ⟨C1, -, h⟩ := Option.bind_eq_some.mp h
      obtain ⟨u2, hu2, h⟩ := Option.bind_eq_some.mp h
      have h2 : Fixed u1 u2 := by
        split at hu2
        · obtain ⟨W, -, hu2⟩ := Option.bind_eq_some.mp hu2
          exact fixed_disable_opt hu2
        · simp only [Option.some.injEq] at hu2; subst hu2; exact Fixed.fixed_refl _
      exact (fixed_disable_opt hu1).fixed_trans (h2.fixed_trans (fixed_fullscreen_workspace h))
    | FULLSCREEN_GLOBAL =>
      simp only at h
      obtain ⟨u1, hu1, h⟩ := Option.bind_eq_some.mp h
      obtain ⟨C1, -, h⟩ := Option.bind_eq_some.mp h
      obtain ⟨u2, hu2, h⟩ := Option.bind_eq_some.mp h
      have h2 : Fixed u1 u2 := by
        split at hu2
        · exact fixed_fullscreen_disable hu2
        · simp only [Option.some.injEq] at hu2; subst hu2; exact Fixed.fixed_refl _
      exact (fixed_disable_opt hu1).fixed_trans (h2.fixed_trans (fixed_fullscreen_global h))

theorem fixed_handle_fullscreen_reparent {fuel : Nat} {s t : State} {con : Nat}
    (h : container_handle_fullscreen_reparent fuel s con = some t) : Fixed s t := by
  unfold container_handle_fullscreen_reparent at h
  simp only [Option.bind_eq_bind, Option.pure_def] at h
  obtain ⟨C, -, h⟩ := Option.bind_eq_some.mp h
  split at h
  · simp only [Option.some.injEq] at h; subst h; exact Fixed.fixed_refl _
  · split at h
    · simp only [Option.some.injEq] at h; subst h; exact Fixed.fixed_refl _
    · obtain ⟨W, -, h⟩ := Option.bind_eq_some.mp h
      split at h
      · simp only [Option.some.injEq] at h; subst h; exact Fixed.fixed_refl _
      · obtain ⟨u1, hu1, h⟩ := Option.bind_eq_some.mp h
        obtain ⟨u2, hu2, h⟩ := Option.bind_eq_some.mp h
        simp only [Option.some.injEq] at h
        subst h
        exact (fixed_disable_opt hu1).fixed_trans ((fixed_modWs hu2).fixed_trans
          (fixed_emit _ _))

theorem fixed_set_workspace {s t : State} {c : Nat} (h : set_workspace s c = some t) :
    Fixed s t := by
  unfold set_workspace at h
  simp only [Option.bind_eq_bind] at h
  obtain ⟨C, -, h⟩ := Option.bind_eq_some.mp h
  obtain ⟨p, -, h⟩ := Option.bind_eq_some.mp h
  obtain ⟨P, -, h⟩ := Option.bind_eq_some.mp h
  exact fixed_modCon h (fun _ => rfl)

theorem fixed_for_each_child {f : State → Nat → Option State}
    (hf : ∀ u c v, f u c = some v → Fixed u v) :
    ∀ (fuel : Nat) (s t : State) (c : Nat),
      container_for_each_child fuel f s c = some t → Fixed s t := by
  intro fuel
  induction fuel with
  | zero => intro s t c h; simp [container_for_each_child] at h
  | succ fuel ih =>
    intro s t c h
    simp only [container_for_each_child, Option.bind_eq_bind, Option.pure_def] at h
    obtain ⟨C, -, h⟩ := Option.bind_eq_some.mp h
    split at h
    · refine fixed_foldlM _ _ _ ?_ h
      intro u y v _ huv
      obtain ⟨u1, hu1, huv⟩ := Option.bind_eq_some.mp huv
      exact (hf u y u1 hu1).fixed_trans (ih u1 v y huv)
    · simp only [Option.some.injEq] at h; subst h; exact Fixed.fixed_refl _

theorem fixed_cascade {fuel : Nat} {s t : State} {c : Nat}
    (h : container_for_each_child fuel set_workspace s c = some t) : Fixed s t :=
  fixed_for_each_child (fun _ _ _ => fixed_set_workspace) fuel s t c h

theorem fixed_update_representation :
    ∀ (fuel : Nat) (s t : State) (c : Nat),
      container_update_representation fuel s c = some t → Fixed s t := by
  intro fuel
  induction fuel with
  | zero => intro s t c h; simp [container_update_representation] at h
  | succ fuel ih =>
    intro s t c h
    simp only [container_update_representation, Option.bind_eq_bind, Option.pure_def] at h
    obtain ⟨C, -, h⟩ := Option.bind_eq_some.mp h
    obtain ⟨u1, hu1, h⟩ := Option.bind_eq_some.mp h
    have h1 : Fixed s u1 := by
      split at hu1
      · obtain ⟨l, -, hu1⟩ := Option.bind_eq_some.mp hu1
        obtain ⟨r, -, hu1⟩ := Option.bind_eq_some.mp hu1
        obtain ⟨u2, hu2, hu1⟩ := Option.bind_eq_some.mp hu1
        simp only [Option.some.injEq] at hu1
        subst hu1
        exact (fixed_modCon hu2 (fun _ => rfl)).fixed_trans (fixed_emit _ _)
      · simp only [Option.some.injEq] at hu1; subst hu1; exact Fixed.fixed_refl _
    refine h1.fixed_trans ?_
    split at h
    · exact ih _ _ _ h
    · split at h <;> (simp only [Option.some.injEq] at h; subst h)
      · exact fixed_emit _ _
      · exact Fixed.fixed_refl _

theorem fixed_detach {fuel : Nat} {s t : State} {child : Nat}
    (h : container_detach fuel s child = some t) : Fixed s t := by
  unfold container_detach at h
  simp only [Option.bind_eq_bind, Option.pure_def] at h
  obtain ⟨C, -, h⟩ := Option.bind_eq_some.mp h
  obtain ⟨u1, hu1, h⟩ := Option.bind_eq_some.mp h
  obtain ⟨sib, -, h⟩ := Option.bind_eq_some.mp h
  obtain ⟨u2, hu2, h⟩ := Option.bind_eq_some.mp h
  obtain ⟨u3, hu3, h⟩ := Option.bind_eq_some.mp h
  obtain ⟨u4, hu4, h⟩ := Option.bind_eq_some.mp h
  obtain ⟨u5, hu5, h⟩ := Option.bind_eq_some.mp h
  have h1 : Fixed s u1 := by
    split at hu1
    · obtain ⟨w, -, hu1⟩ := Option.bind_eq_some.mp hu1
      exact fixed_modWs hu1
    · simp only [Option.some.injEq] at hu1; subst hu1; exact Fixed.fixed_refl _
  have h1b : Fixed u1 (if C.pending.fullscreen_mode = FULLSCREEN_GLOBAL then
      ({ u1 with fullscreen_global := none } : State) else u1) := by
    split
    · exact fixed_of_containers rfl
    · exact Fixed.fixed_refl _
  have h2 : Fixed (if C.pending.fullscreen_mode = FULLSCREEN_GLOBAL then
      ({ u1 with fullscreen_global := none } : State) else u1) u2 := by
    split at hu2
    · obtain ⟨l, hl, hu2⟩ := Option.bind_eq_some.mp hu2
      split at hu2
      · obtain ⟨l2, -, hu2⟩ := Option.bind_eq_some.mp hu2
        exact fixed_writeList hl hu2
      · simp only [Option.some.injEq] at hu2; subst hu2; exact Fixed.fixed_refl _
    · simp only [Option.some.injEq] at hu2; subst hu2; exact Fixed.fixed_refl _
  have h3 : Fixed u2 u3 := fixed_modCon hu3 (fun _ => rfl)
  have h4 : Fixed u3 u4 := fixed_cascade hu4
  have h5 : Fixed u4 u5 := by
    split at hu5
    · obtain ⟨v, hv, hu5⟩ := Option.bind_eq_some.mp hu5
      exact (fixed_update_representation _ _ _ _ hv).fixed_trans (fixed_dirtyCon hu5)
    · split at hu5
      · exact (fixed_emit _ _).fixed_trans (fixed_dirtyWs hu5)
      · simp only [Option.some.injEq] at hu5; subst hu5; exact Fixed.fixed_refl _
  exact h1.fixed_trans (h1b.fixed_trans (h2.fixed_trans (h3.fixed_trans (h4.fixed_trans
    (h5.fixed_trans (fixed_dirtyCon h))))))

theorem fixed_detach_opt {fuel : Nat} {s t : State} {child : Nat} {b : Prop} [Decidable b]
    (h : (if b then container_detach fuel s child else pure s) = some t) : Fixed s t := by
  split at h
  · exact fixed_detach h
  · simp only [Option.pure_def, Option.some.injEq] at h; subst h; exact Fixed.fixed_refl _

theorem fixed_link_tail {fuel : Nat} {s t : State} {child : Nat}
    {g : sway_container → sway_container} {k : State → Option State}
    (h : ((s.modCon child g).bind fun s =>
      (container_for_each_child fuel set_workspace s child).bind fun s =>
        (container_handle_fullscreen_reparent fuel s child).bind k) = some t)
    (hg : ∀ C, (g C).fixed = C.fixed)
    (hk : ∀ u v, k u = some v → Fixed u v) : Fixed s t := by
  obtain ⟨u1, hu1, h⟩ := Option.bind_eq_some.mp h
  obtain ⟨u2, hu2, h⟩ := Option.bind_eq_some.mp h
  obtain ⟨u3, hu3, h⟩ := Option.bind_eq_some.mp h
  exact (fixed_modCon hu1 hg).fixed_trans ((fixed_cascade hu2).fixed_trans
    ((fixed_handle_fullscreen_reparent hu3).fixed_trans (hk _ _ h)))

theorem fixed_insert_child {fuel : Nat} {s t : State} {parent child : Nat} {i : Int}
    (h : container_insert_child fuel s parent child i = some t) : Fixed s t := by
  unfold container_insert_child at h
  simp only [Option.bind_eq_bind, Option.pure_def] at h
  obtain ⟨Ch, -, h⟩ := Option.bind_eq_some.mp h
  obtain ⟨u1, hu1, h⟩ := Option.bind_eq_some.mp h
  obtain ⟨P, hP, h⟩ := Option.bind_eq_some.mp h
  obtain ⟨children, hch, h⟩ := Option.bind_eq_some.mp h
  obtain ⟨l, -, h⟩ := Option.bind_eq_some.mp h
  obtain ⟨u2, hu2, h⟩ := Option.bind_eq_some.mp h
  obtain ⟨P2, -, h⟩ := Option.bind_eq_some.mp h
  have hr : u1.readList (.children parent) = some children := by
    simp [State.readList, hP, hch]
  exact (fixed_detach_opt hu1).fixed_trans ((fixed_writeList hr hu2).fixed_trans
    (fixed_link_tail h (fun _ => rfl) (fun u v huv => fixed_update_representation _ _ _ _ huv)))

theorem fixed_add_child {fuel : Nat} {s t : State} {parent child : Nat}
    (h : container_add_child fuel s parent child = some t) : Fixed s t := by
  unfold container_add_child at h
  simp only [Option.bind_eq_bind, Option.pure_def] at h
  obtain ⟨Ch, -, h⟩ := Option.bind_eq_some.mp h
  obtain ⟨u1, hu1, h⟩ := Option.bind_eq_some.mp h
  obtain ⟨P, hP, h⟩ := Option.bind_eq_some.mp h
  obtain ⟨children, hch, h⟩ := Option.bind_eq_some.mp h
  obtain ⟨u2, hu2, h⟩ := Option.bind_eq_some.mp h
  obtain ⟨P2, -, h⟩ := Option.bind_eq_some.mp h
  have hr : u1.readList (.children parent) = some children := by
    simp [State.readList, hP, hch]
  refine (fixed_detach_opt hu1).fixed_trans ((fixed_writeList hr hu2).fixed_trans
    (fixed_link_tail h (fun _ => rfl) ?_))
  intro u v huv
  obtain ⟨v1, hv1, huv⟩ := Option.bind_eq_some.mp huv
  obtain ⟨v2, hv2, huv⟩ := Option.bind_eq_some.mp huv
  exact (fixed_update_representation _ _ _ _ hv1).fixed_trans ((fixed_dirtyCon hv2).fixed_trans
    (fixed_dirtyCon huv))

theorem fixed_add_sibling {fuel : Nat} {s t : State} {fixed active : Nat} {after : Bool}
    (h : container_add_sibling fuel s fixed active after = some t) : Fixed s t := by
  unfold container_add_sibling at h
  simp only [Option.bind_eq_bind, Option.pure_def] at h
  obtain ⟨A, -, h⟩ := Option.bind_eq_some.mp h
  obtain ⟨u1, hu1, h⟩ := Option.bind_eq_some.mp h
  obtain ⟨sib, -, h⟩ := Option.bind_eq_some.mp h
  obtain ⟨siblings, -, h⟩ := Option.bind_eq_some.mp h
  obtain ⟨l, hl, h⟩ := Option.bind_eq_some.mp h
  obtain ⟨l2, -, h⟩ := Option.bind_eq_some.mp h
  obtain ⟨u2, hu2, h⟩ := Option.bind_eq_some.mp h
  obtain ⟨F, -, h⟩ := Option.bind_eq_some.mp h
  exact (fixed_detach_opt hu1).fixed_trans ((fixed_writeList hl hu2).fixed_trans
    (fixed_link_tail h (fun _ => rfl) (fun u v huv => fixed_update_representation _ _ _ _ huv)))

theorem fixed_workspace_insert_tiling_direct {fuel : Nat} {s t : State} {workspace con : Nat}
    {index : Int} (h : workspace_insert_tiling_direct fuel s workspace con index = some t) :
    Fixed s t := by
  unfold workspace_insert_tiling_direct at h
  simp only [Option.bind_eq_bind, Option.pure_def] at h
  obtain ⟨W, hW, h⟩ := Option.bind_eq_some.mp h
  obtain ⟨l, -, h⟩ := Option.bind_eq_some.mp h
  obtain ⟨u1, hu1, h⟩ := Option.bind_eq_some.mp h
  refine (fixed_modWs hu1).fixed_trans (fixed_link_tail h (fun _ => rfl) ?_)
  intro u v huv
  obtain ⟨v1, hv1, huv⟩ := Option.bind_eq_some.mp huv
  exact (fixed_emit _ _).fixed_trans ((fixed_dirtyWs hv1).fixed_trans (fixed_dirtyCon huv))

theorem fixed_scratchpad_remove {s t : State} {con : Nat}
    (h : root_scratchpad_remove_container s con = some t) : Fixed s t := by
  unfold root_scratchpad_remove_container at h
  simp only [Option.bind_eq_bind, Option.pure_def] at h
  obtain ⟨C, -, h⟩ := Option.bind_eq_some.mp h
  cases hs : C.scratchpad
  · simp only [sway_assert, hs, Bool.false_eq_true, if_false, Bool.not_false, if_true,
      Option.some.injEq] at h
    subst h
    exact fixed_emit _ _
  · simp only [sway_assert, hs, if_true, Bool.not_true, Bool.false_eq_true, if_false] at h
    obtain ⟨u1, hu1, h⟩ := Option.bind_eq_some.mp h
    refine (fixed_modCon hu1 (fun _ => rfl)).fixed_trans ?_
    split at h <;> (simp only [Option.some.injEq] at h; subst h)
    · exact fixed_of_containers rfl
    · exact Fixed.fixed_refl _

theorem fixed_begin_destroy {fuel : Nat} {s t : State} {con : Nat}
    (h : container_begin_destroy fuel s con = some t) : Fixed s t := by
  unfold container_begin_destroy at h
  simp only [Option.bind_eq_bind, Option.pure_def] at h
  obtain ⟨C, -, h⟩ := Option.bind_eq_some.mp h
  obtain ⟨u1, hu1, h⟩ := Option.bind_eq_some.mp h
  obtain ⟨u2, hu2, h⟩ := Option.bind_eq_some.mp h
  obtain ⟨u3, hu3, h⟩ := Option.bind_eq_some.mp h
  obtain ⟨C3, -, h⟩ := Option.bind_eq_some.mp h
  obtain ⟨u4, hu4, h⟩ := Option.bind_eq_some.mp h
  obtain ⟨C4, -, h⟩ := Option.bind_eq_some.mp h
  obtain ⟨u5, hu5, h⟩ := Option.bind_eq_some.mp h
  obtain ⟨C5, -, h⟩ := Option.bind_eq_some.mp h
  have h0 : Fixed s (if C.view.isSome = true then ipc_event_window s con "close" else s) := by
    split
    · exact fixed_emit _ _
    · exact Fixed.fixed_refl _
  have h1 : Fixed (if C.view.isSome = true then ipc_event_window s con "close" else s) u1 := by
    split at hu1
    · split at hu1
      · exact fixed_modWs hu1
      · simp only [Option.some.injEq] at hu1; subst hu1; exact Fixed.fixed_refl _
    · simp only [Option.some.injEq] at hu1; subst hu1; exact Fixed.fixed_refl _
  have h2 : Fixed u1 u2 := by
    split at hu2
    · exact fixed_fullscreen_disable hu2
    · simp only [Option.some.injEq] at hu2; subst hu2; exact Fixed.fixed_refl _
  have h3 : Fixed u2 u3 := by
    refine Fixed.fixed_trans ?_ (fixed_modCon hu3 (fun _ => rfl))
    exact (fixed_emit _ _).fixed_trans (fixed_emit _ _)
  have h4 : Fixed u3 u4 := by
    split at hu4
    · exact fixed_scratchpad_remove hu4
    · simp only [Option.some.injEq] at hu4; subst hu4; exact Fixed.fixed_refl _
  have h5 : Fixed u4 u5 := by
    split at hu5
    · exact fixed_fullscreen_disable hu5
    · simp only [Option.some.injEq] at hu5; subst hu5; exact Fixed.fixed_refl _
  have h6 : Fixed u5 t := by
    split at h
    · exact fixed_detach h
    · simp only [Option.some.injEq] at h; subst h; exact Fixed.fixed_refl _
  exact h0.fixed_trans (h1.fixed_trans (h2.fixed_trans (h3.fixed_trans (h4.fixed_trans
    (h5.fixed_trans h6)))))

theorem fixed_reap_empty_loop :
    ∀ (fuel : Nat) (s : State) (o : Option Nat) (r : State × Bool),
      container_reap_empty_loop fuel s o = some r → Fixed s r.1 := by
  intro fuel
  induction fuel with
  | zero =>
    intro s o r h
    cases o with
    | none =>
      simp only [container_reap_empty_loop, Option.some.injEq] at h
      subst h; exact Fixed.fixed_refl _
    | some con => simp [container_reap_empty_loop] at h
  | succ fuel ih =>
    intro s o r h
    cases o with
    | none =>
      simp only [container_reap_empty_loop, Option.some.injEq] at h
      subst h; exact Fixed.fixed_refl _
    | some con =>
      simp only [container_reap_empty_loop, Option.bind_eq_bind, Option.pure_def] at h
      obtain ⟨C, -, h⟩ := Option.bind_eq_some.mp h
      obtain ⟨children, -, h⟩ := Option.bind_eq_some.mp h
      split at h
      · simp only [Option.some.injEq] at h; subst h; exact Fixed.fixed_refl _
      · obtain ⟨u1, hu1, h⟩ := Option.bind_eq_some.mp h
        exact (fixed_begin_destroy hu1).fixed_trans (ih _ _ _ h)

theorem fixed_reap_empty {fuel : Nat} {s t : State} {con : Nat}
    (h : container_reap_empty fuel s con = some t) : Fixed s t := by
  unfold container_reap_empty at h
  simp only [Option.bind_eq_bind, Option.pure_def] at h
  obtain ⟨C, -, h⟩ := Option.bind_eq_some.mp h
  split at h
  · simp only [Option.some.injEq] at h; subst h; exact Fixed.fixed_refl _
  · obtain ⟨r, hr, h⟩ := Option.bind_eq_some.mp h
    have h1 := fixed_reap_empty_loop _ _ _ _ hr
    obtain ⟨u, finished⟩ := r
    simp only at h h1
    split at h
    · simp only [Option.some.injEq] at h; subst h; exact h1
    · split at h <;> (simp only [Option.some.injEq] at h; subst h)
      · exact h1.fixed_trans (fixed_emit _ _)
      · exact h1

theorem fixed_squash_move :
    ∀ (fuel : Nat) (s : State) (con child : Nat) (idx change : Int) (r : State × Int),
      container_squash_move fuel s con child idx change = some r → Fixed s r.1 := by
  intro fuel
  induction fuel with
  | zero => intro s con child idx change r h; simp [container_squash_move] at h
  | succ fuel ih =>
    intro s con child idx change r h
    simp only [container_squash_move, Option.bind_eq_bind, Option.pure_def] at h
    obtain ⟨Ch, -, h⟩ := Option.bind_eq_some.mp h
    obtain ⟨l, -, h⟩ := Option.bind_eq_some.mp h
    cases l with
    | nil =>
      simp only [Option.some.injEq] at h
      subst h; exact Fixed.fixed_refl _
    | cons current rest =>
      simp only at h
      obtain ⟨u1, hu1, h⟩ := Option.bind_eq_some.mp h
      obtain ⟨C, -, h⟩ := Option.bind_eq_some.mp h
      obtain ⟨u2, hu2, h⟩ := Option.bind_eq_some.mp h
      have h2 : Fixed u1 u2 := by
        split at hu2
        · exact fixed_insert_child hu2
        · obtain ⟨w, -, hu2⟩ := Option.bind_eq_some.mp hu2
          exact fixed_workspace_insert_tiling_direct hu2
      exact (fixed_detach hu1).fixed_trans (h2.fixed_trans (ih _ _ _ _ _ _ h))

theorem fixed_squash_both :
    ∀ (fuel : Nat),
      (∀ (s : State) (con : Nat) (i : Int) (t : State),
        container_squash_children_loop fuel s con i = some t → Fixed s t) ∧
      (∀ (s : State) (con : Nat) (r : State × Int),
        container_squash fuel s con = some r → Fixed s r.1) := by
  intro fuel
  induction fuel with
  | zero =>
    constructor
    · intro s con i t h; simp [container_squash_children_loop] at h
    · intro s con r h; simp [container_squash] at h
  | succ fuel ih =>
    constructor
    · intro s con i t h
      simp only [container_squash_children_loop, Option.bind_eq_bind, Option.pure_def] at h
      obtain ⟨C, -, h⟩ := Option.bind_eq_some.mp h
      obtain ⟨children, -, h⟩ := Option.bind_eq_some.mp h
      split at h
      · split at h
        · simp at h
        · obtain ⟨child, -, h⟩ := Option.bind_eq_some.mp h
          obtain ⟨r, hr, h⟩ := Option.bind_eq_some.mp h
          exact (ih.2 _ _ _ hr).fixed_trans (ih.1 _ _ _ _ h)
      · simp only [Option.some.injEq] at h; subst h; exact Fixed.fixed_refl _
    · intro s con r h
      simp only [container_squash, Option.bind_eq_bind, Option.pure_def] at h
      obtain ⟨C, -, h⟩ := Option.bind_eq_some.mp h
      split at h
      · simp only [Option.some.injEq] at h; subst h; exact Fixed.fixed_refl _
      · split at h
        · obtain ⟨u, hu, h⟩ := Option.bind_eq_some.mp h
          simp only [Option.some.injEq] at h; subst h
          exact ih.1 _ _ _ _ hu
        · obtain ⟨child, -, h⟩ := Option.bind_eq_some.mp h
          obtain ⟨idx, -, h⟩ := Option.bind_eq_some.mp h
          obtain ⟨b, -, h⟩ := Option.bind_eq_some.mp h
          split at h
          · obtain ⟨r1, hr1, h⟩ := Option.bind_eq_some.mp h
            obtain ⟨u, hu, h⟩ := Option.bind_eq_some.mp h
            simp only [Option.some.injEq] at h; subst h
            exact (fixed_squash_move _ _ _ _ _ _ _ hr1).fixed_trans (fixed_reap_empty hu)
          · obtain ⟨u, hu, h⟩ := Option.bind_eq_some.mp h
            simp only [Option.some.injEq] at h; subst h
            exact ih.1 _ _ _ _ hu

theorem fixed_squash {fuel : Nat} {s : State} {con : Nat} {r : State × Int}
    (h : container_squash fuel s con = some r) : Fixed s r.1 :=
  (fixed_squash_both fuel).2 s con r h

theorem fixed_floating_set_default_size {s t : State} {con : Nat}
    (h : container_floating_set_default_size s con = some t) : Fixed s t := by
  unfold container_floating_set_default_size at h
  simp only [Option.bind_eq_bind, Option.pure_def] at h
  obtain ⟨C, -, h⟩ := Option.bind_eq_some.mp h
  cases hw : C.pending.workspace.isSome
  · simp only [sway_assert, hw, Bool.false_eq_true, if_false, Bool.not_false, if_true,
      Option.some.injEq] at h
    subst h
    exact fixed_emit _ _
  · simp only [sway_assert, hw, if_true, Bool.not_true, Bool.false_eq_true, if_false] at h
    obtain ⟨w, -, h⟩ := Option.bind_eq_some.mp h
    obtain ⟨W, -, h⟩ := Option.bind_eq_some.mp h
    split at h
    · exact fixed_modCon h (fun _ => rfl)
    · obtain ⟨u, hu, h⟩ := Option.bind_eq_some.mp h
      exact (fixed_modCon hu (fun _ => rfl)).fixed_trans (fixed_set_geometry_from_content h)

theorem fixed_workspace_add_floating {fuel : Nat} {s t : State} {workspace con : Nat}
    (h : workspace_add_floating fuel s workspace con = some t) : Fixed s t := by
  unfold workspace_add_floating at h
  simp only [Option.bind_eq_bind, Option.pure_def] at h
  obtain ⟨C, -, h⟩ := Option.bind_eq_some.mp h
  obtain ⟨u1, hu1, h⟩ := Option.bind_eq_some.mp h
  obtain ⟨W, -, h⟩ := Option.bind_eq_some.mp h
  obtain ⟨u2, hu2, h⟩ := Option.bind_eq_some.mp h
  refine (fixed_detach_opt hu1).fixed_trans ((fixed_modWs hu2).fixed_trans
    (fixed_link_tail h (fun _ => rfl) ?_))
  intro u v huv
  obtain ⟨v1, hv1, huv⟩ := Option.bind_eq_some.mp huv
  exact (fixed_dirtyWs hv1).fixed_trans (fixed_dirtyCon huv)

theorem fixed_workspace_add_tiling {fuel : Nat} {s : State} {workspace con : Nat}
    {r : State × Nat} (h : workspace_add_tiling fuel s workspace con = some r) :
    Fixed s r.1 := by
  unfold workspace_add_tiling at h
  simp only [Option.bind_eq_bind, Option.pure_def] at h
  obtain ⟨C, -, h⟩ := Option.bind_eq_some.mp h
  obtain ⟨u1, hu1, h⟩ := Option.bind_eq_some.mp h
  obtain ⟨W, -, h⟩ := Option.bind_eq_some.mp h
  obtain ⟨u2, hu2, h⟩ := Option.bind_eq_some.mp h
  obtain ⟨u3, hu3, h⟩ := Option.bind_eq_some.mp h
  obtain ⟨u4, hu4, h⟩ := Option.bind_eq_some.mp h
  obtain ⟨u5, hu5, h⟩ := Option.bind_eq_some.mp h
  obtain ⟨u6, hu6, h⟩ := Option.bind_eq_some.mp h
  obtain ⟨u7, hu7, h⟩ := Option.bind_eq_some.mp h
  simp only [Option.some.injEq] at h
  subst h
  exact (fixed_detach_opt hu1).fixed_trans ((fixed_modWs hu2).fixed_trans
    ((fixed_modCon hu3 (fun _ => rfl)).fixed_trans ((fixed_cascade hu4).fixed_trans
      ((fixed_handle_fullscreen_reparent hu5).fixed_trans ((fixed_emit _ _).fixed_trans
        ((fixed_dirtyWs hu6).fixed_trans (fixed_dirtyCon hu7)))))))

theorem con_container_create (s : State) (view : Option Nat) (x : Nat) :
    (container_create s view).1.con x =
      if x = s.containers.length then
        some { node := {}, view := view, alpha := 1
               pending := { layout := L_NONE, children := if view.isNone then some [] else none }
               current := { children := if view.isNone then some [] else none }
               marks := [], outputs := [] }
      else s.con x := by
  unfold container_create
  simp only [con_emit]
  unfold State.con
  simp only [List.getD_eq_getElem?_getD]
  by_cases hx : x = s.containers.length
  · subst hx
    simp
  · rw [if_neg hx]
    by_cases hlt : x < s.containers.length
    · rw [List.getElem?_append_left hlt]
    · have h1 : s.containers.length + 1 ≤ x := by omega
      rw [List.getElem?_eq_none (by simpa using h1), List.getElem?_eq_none (by omega)]

theorem fixed_container_create (s : State) (view : Option Nat) (hview : view = none) :
    Fixed s (container_create s view).1 := by
  subst hview
  constructor
  · intro x C hC
    refine ⟨C, ?_, rfl⟩
    have hx := con_lt hC
    rw [con_container_create, if_neg (by omega)]
    exact hC
  · intro x D hD
    rw [con_container_create] at hD
    split at hD
    · right
      simp only [Option.some.injEq] at hD
      subst hD
      exact ⟨rfl, rfl⟩
    · left
      rw [hD]; rfl

theorem fixed_view_tiled {s t : State} {container : Nat} {view : Option Nat} {b : Bool}
    {g : sway_container → sway_container}
    (h : (match view with
      | some v => (s.vw v).bind fun V =>
          if V.using_csd = true then (view_set_tiled s v b).modCon container g
          else some (view_set_tiled s v b)
      | none => some s) = some t) (hg : ∀ C, (g C).fixed = C.fixed) : Fixed s t := by
  cases view with
  | none => simp only [Option.some.injEq] at h; subst h; exact Fixed.fixed_refl _
  | some v =>
    simp only at h
    obtain ⟨V, -, h⟩ := Option.bind_eq_some.mp h
    split at h
    · exact (fixed_emit _ _).fixed_trans (fixed_modCon h hg)
    · simp only [Option.some.injEq] at h; subst h; exact fixed_emit _ _

theorem fixed_set_floating {fuel : Nat} {seat : sway_seat} {s t : State} {container : Nat}
    {enable : Bool} (h : container_set_floating fuel seat s container enable = some t) :
    Fixed s t := by
  unfold container_set_floating at h
  obtain ⟨b, -, h⟩ := Option.bind_eq_some.mp h
  split at h
  · simp only [Option.pure_def, Option.some.injEq] at h; subst h; exact Fixed.fixed_refl _
  · obtain ⟨C, -, h⟩ := Option.bind_eq_some.mp h
    obtain ⟨u, hu, h⟩ := Option.bind_eq_some.mp h
    simp only [Option.pure_def, Option.some.injEq] at h
    subst h
    simp only [Option.bind_eq_bind] at hu
    refine Fixed.fixed_trans ?_ ((fixed_emit _ _).fixed_trans (fixed_emit _ _))
    by_cases hen : enable = true
    · rw [if_pos hen] at hu
      obtain ⟨u1, hu1, hu⟩ := Option.bind_eq_some.mp hu
      obtain ⟨w, -, hu⟩ := Option.bind_eq_some.mp hu
      obtain ⟨u2, hu2, hu⟩ := Option.bind_eq_some.mp hu
      obtain ⟨u3, hu3, hu⟩ := Option.bind_eq_some.mp hu
      obtain ⟨u4, hu4, hu⟩ := Option.bind_eq_some.mp hu
      obtain ⟨u5, hu5, hu⟩ := Option.bind_eq_some.mp hu
      simp only [Option.pure_def] at hu3 hu
      have h3 : Fixed u2 u3 := fixed_view_tiled hu3 (fun _ => rfl)
      have h6 : Fixed u5 u := by
        split at hu
        · refine Fixed.fixed_trans ?_ (fixed_reap_empty hu)
          split
          · exact (fixed_emit _ _).fixed_trans (fixed_emit _ _)
          · exact Fixed.fixed_refl _
        · simp only [Option.pure_def, Option.some.injEq] at hu; subst hu; exact Fixed.fixed_refl _
      exact (fixed_detach hu1).fixed_trans ((fixed_workspace_add_floating hu2).fixed_trans
        (h3.fixed_trans ((fixed_floating_set_default_size hu4).fixed_trans
          ((fixed_floating_resize_and_center hu5).fixed_trans h6))))
    · rw [if_neg hen] at hu
      obtain ⟨u1, hu1, hu⟩ := Option.bind_eq_some.mp hu
      obtain ⟨u2, hu2, hu⟩ := Option.bind_eq_some.mp hu
      obtain ⟨w, -, hu⟩ := Option.bind_eq_some.mp hu
      obtain ⟨u3, hu3, hu⟩ := Option.bind_eq_some.mp hu
      obtain ⟨u4, hu4, hu⟩ := Option.bind_eq_some.mp hu
      simp only [Option.pure_def] at hu1 hu4
      have h1 : Fixed s u1 := by
        split at hu1
        · exact fixed_scratchpad_remove hu1
        · simp only [Option.pure_def, Option.some.injEq] at hu1; subst hu1; exact Fixed.fixed_refl _
      have h3 : Fixed u2 u3 := by
        split at hu3
        · obtain ⟨R, -, hu3⟩ := Option.bind_eq_some.mp hu3
          obtain ⟨v1, hv1, hu3⟩ := Option.bind_eq_some.mp hu3
          obtain ⟨R2, -, hu3⟩ := Option.bind_eq_some.mp hu3
          refine Fixed.fixed_trans ?_ (fixed_modCon hu3 (fun _ => rfl))
          split at hv1
          · exact fixed_add_sibling hv1
          · exact fixed_add_child hv1
        · obtain ⟨r, hr, hu3⟩ := Option.bind_eq_some.mp hu3
          obtain ⟨W, -, hu3⟩ := Option.bind_eq_some.mp hu3
          exact (fixed_workspace_add_tiling hr).fixed_trans (fixed_modCon hu3 (fun _ => rfl))
      have h4 : Fixed u3 u4 := fixed_view_tiled hu4 (fun _ => rfl)
      exact h1.fixed_trans ((fixed_detach hu2).fixed_trans (h3.fixed_trans (h4.fixed_trans
        (fixed_modCon hu (fun _ => rfl)))))

theorem fixed_scratchpad_show {fuel : Nat} {seat : sway_seat} {s t : State} {con : Nat}
    (h : root_scratchpad_show fuel seat s con = some t) : Fixed s t := by
  unfold root_scratchpad_show at h
  split at h
  · simp only [Option.pure_def, Option.some.injEq] at h; subst h; exact Fixed.fixed_refl _
  · simp only [Option.bind_eq_bind, Option.pure_def] at h
    obtain ⟨C, -, h⟩ := Option.bind_eq_some.mp h
    obtain ⟨W, -, h⟩ := Option.bind_eq_some.mp h
    obtain ⟨u1, hu1, h⟩ := Option.bind_eq_some.mp h
    obtain ⟨u2, hu2, h⟩ := Option.bind_eq_some.mp h
    obtain ⟨r, hr, h⟩ := Option.bind_eq_some.mp h
    obtain ⟨u3, c3⟩ := r
    obtain ⟨u4, hu4, h⟩ := Option.bind_eq_some.mp h
    have h3 : Fixed u2 u3 := by
      split at hr
      · obtain ⟨v, hv, hr⟩ := Option.bind_eq_some.mp hr
        simp only [Option.some.injEq, Prod.mk.injEq] at hr
        obtain ⟨rfl, -⟩ := hr
        exact fixed_detach hv
      · obtain ⟨top, -, hr⟩ := Option.bind_eq_some.mp hr
        simp only [Option.some.injEq, Prod.mk.injEq] at hr
        obtain ⟨rfl, -⟩ := hr
        exact Fixed.fixed_refl _
    have h5 : Fixed u4 t := by
      split at h <;> (simp only [Option.some.injEq] at h; subst h)
      · exact (fixed_emit _ _).fixed_trans ((fixed_emit _ _).fixed_trans (fixed_emit _ _))
      · exact (fixed_emit _ _).fixed_trans (fixed_emit _ _)
    exact (fixed_disable_opt hu1).fixed_trans ((fixed_disable_opt hu2).fixed_trans
      (h3.fixed_trans ((fixed_workspace_add_floating hu4).fixed_trans h5)))

theorem fixed_scratchpad_add {fuel : Nat} {seat : sway_seat} {s t : State} {con : Nat}
    {ws : Option Nat} (h : root_scratchpad_add_container fuel seat s con ws = some t) :
    Fixed s t := by
  unfold root_scratchpad_add_container at h
  simp only [Option.bind_eq_bind, Option.pure_def] at h
  obtain ⟨C, -, h⟩ := Option.bind_eq_some.mp h
  cases hs : C.scratchpad
  · simp only [sway_assert, hs, Bool.not_false, if_true, Bool.not_true, Bool.false_eq_true,
      if_false] at h
    obtain ⟨u1, hu1, h⟩ := Option.bind_eq_some.mp h
    obtain ⟨b, -, h⟩ := Option.bind_eq_some.mp h
    obtain ⟨u2, hu2, h⟩ := Option.bind_eq_some.mp h
    obtain ⟨u3, hu3, h⟩ := Option.bind_eq_some.mp h
    obtain ⟨u4, hu4, h⟩ := Option.bind_eq_some.mp h
    obtain ⟨u5, hu5, h⟩ := Option.bind_eq_some.mp h
    simp only [Option.some.injEq] at h
    subst h
    have h1 : Fixed s u1 := by
      split at hu1
      · exact fixed_fullscreen_disable hu1
      · simp only [Option.some.injEq] at hu1; subst hu1; exact Fixed.fixed_refl _
    have h2 : Fixed u1 u2 := by
      split at hu2
      · obtain ⟨v1, hv1, hu2⟩ := Option.bind_eq_some.mp hu2
        obtain ⟨v2, hv2, hu2⟩ := Option.bind_eq_some.mp hu2
        exact (fixed_set_floating hv1).fixed_trans ((fixed_floating_set_default_size hv2).fixed_trans
          (fixed_floating_move_to_center hu2))
      · simp only [Option.some.injEq] at hu2; subst hu2; exact Fixed.fixed_refl _
    have h5 : Fixed ({ u4 with scratchpad := list_add u4.scratchpad con } : State) u5 := by
      split at hu5
      · exact fixed_workspace_add_floating hu5
      · simp only [Option.some.injEq] at hu5; subst hu5; exact Fixed.fixed_refl _
    exact h1.fixed_trans (h2.fixed_trans ((fixed_detach hu3).fixed_trans
      ((fixed_modCon hu4 (fun _ => rfl)).fixed_trans ((fixed_of_containers rfl).fixed_trans
        (h5.fixed_trans (fixed_emit _ _))))))
  · simp only [sway_assert, hs, Bool.not_true, Bool.false_eq_true, if_false, Bool.not_false,
      if_true, Option.some.injEq] at h
    subst h
    exact fixed_emit _ _

theorem fixed_replace {fuel : Nat} {seat : sway_seat} {s t : State} {container replacement : Nat}
    (h : container_replace fuel seat s container replacement = some t) : Fixed s t := by
  unfold container_replace at h
  simp only [Option.bind_eq_bind, Option.pure_def] at h
  obtain ⟨C, -, h⟩ := Option.bind_eq_some.mp h
  obtain ⟨u1, hu1, h⟩ := Option.bind_eq_some.mp h
  obtain ⟨r, hr, h⟩ := Option.bind_eq_some.mp h
  obtain ⟨u2, ws⟩ := r
  obtain ⟨C2, -, h⟩ := Option.bind_eq_some.mp h
  obtain ⟨u3, hu3, h⟩ := Option.bind_eq_some.mp h
  obtain ⟨u4, hu4, h⟩ := Option.bind_eq_some.mp h
  have h1 : Fixed s u1 := by
    split at hu1
    · exact fixed_fullscreen_disable hu1
    · simp only [Option.some.injEq] at hu1; subst hu1; exact Fixed.fixed_refl _
  have h2 : Fixed u1 u2 := by
    split at hr
    · obtain ⟨D, -, hr⟩ := Option.bind_eq_some.mp hr
      obtain ⟨v1, hv1, hr⟩ := Option.bind_eq_some.mp hr
      obtain ⟨v2, hv2, hr⟩ := Option.bind_eq_some.mp hr
      simp only [Option.some.injEq, Prod.mk.injEq] at hr
      obtain ⟨rfl, -⟩ := hr
      exact (fixed_scratchpad_show hv1).fixed_trans (fixed_scratchpad_remove hv2)
    · simp only [Option.some.injEq, Prod.mk.injEq] at hr
      obtain ⟨rfl, -⟩ := hr
      exact Fixed.fixed_refl _
  have h3 : Fixed u2 u3 := by
    split at hu3
    · obtain ⟨v1, hv1, hu3⟩ := Option.bind_eq_some.mp hu3
      obtain ⟨v2, hv2, hu3⟩ := Option.bind_eq_some.mp hu3
      exact (fixed_add_sibling hv1).fixed_trans ((fixed_detach hv2).fixed_trans
        (fixed_modCon hu3 (fun _ => rfl)))
    · simp only [Option.some.injEq] at hu3; subst hu3; exact Fixed.fixed_refl _
  have h4 : Fixed u3 u4 := by
    split at hu4
    · exact fixed_scratchpad_add hu4
    · simp only [Option.some.injEq] at hu4; subst hu4; exact Fixed.fixed_refl _
  have h5 : Fixed u4 t := by
    split at h
    · exact fixed_fullscreen_workspace h
    · exact fixed_fullscreen_global h
    · simp only [Option.some.injEq] at h; subst h; exact Fixed.fixed_refl _
  exact h1.fixed_trans (h2.fixed_trans (h3.fixed_trans (h4.fixed_trans h5)))

theorem fixed_split_relabel {fuel : Nat} {s : State} {child : Nat}
    {layout : sway_container_layout} {r : Option State}
    (h : container_split_relabel fuel s child layout = some r) :
    ∀ t, r = some t → Fixed s t := by
  intro t ht
  subst ht
  unfold container_split_relabel at h
  simp only [Option.bind_eq_bind] at h
  obtain ⟨C, -, h⟩ := Option.bind_eq_some.mp h
  by_cases hc1 : C.pending.parent.isSome = true ∨ C.pending.workspace.isSome = true
  · rw [if_pos hc1] at h
    obtain ⟨sib, -, h⟩ := Option.bind_eq_some.mp h
    obtain ⟨siblings, -, h⟩ := Option.bind_eq_some.mp h
    obtain ⟨l, -, h⟩ := Option.bind_eq_some.mp h
    by_cases hc2 : l.length = 1
    · rw [if_pos hc2] at h
      obtain ⟨current, -, h⟩ := Option.bind_eq_some.mp h
      obtain ⟨b, -, h⟩ := Option.bind_eq_some.mp h
      by_cases hc3 : (if b = true then L_NONE else current) = L_HORIZ ∨
          (if b = true then L_NONE else current) = L_VERT
      · rw [if_pos hc3] at h
        cases hp : C.pending.parent with
        | some p =>
          simp only [hp] at h
          obtain ⟨u1, hu1, h⟩ := Option.bind_eq_some.mp h
          obtain ⟨u2, hu2, h⟩ := Option.bind_eq_some.mp h
          simp only [Option.pure_def, Option.some.injEq] at h
          subst h
          exact (fixed_modCon hu1 (fun _ => rfl)).fixed_trans
            (fixed_update_representation _ _ _ _ hu2)
        | none =>
          simp only [hp] at h
          obtain ⟨w, -, h⟩ := Option.bind_eq_some.mp h
          obtain ⟨u1, hu1, h⟩ := Option.bind_eq_some.mp h
          simp only [Option.pure_def, Option.some.injEq] at h
          subst h
          exact (fixed_modWs hu1).fixed_trans (fixed_emit _ _)
      · rw [if_neg hc3] at h
        simp only [Option.pure_def, Option.some.injEq, reduceCtorEq] at h
    · rw [if_neg hc2] at h
      simp only [Option.pure_def, Option.some.injEq, reduceCtorEq] at h
  · rw [if_neg hc1] at h
    simp only [Option.pure_def, Option.some.injEq, reduceCtorEq] at h

theorem fixed_split {fuel : Nat} {seat : sway_seat} {s : State} {child : Nat}
    {layout : sway_container_layout} {r : State × Nat}
    (h : container_split fuel seat s child layout = some r) : Fixed s r.1 := by
  unfold container_split at h
  obtain ⟨rel, hrel, h⟩ := Option.bind_eq_some.mp h
  cases rel with
  | some u =>
    simp only [Option.pure_def, Option.some.injEq] at h
    subst h
    exact fixed_split_relabel hrel u rfl
  | none =>
    simp only [Option.bind_eq_bind] at h
    obtain ⟨C, -, h⟩ := Option.bind_eq_some.mp h
    obtain ⟨b, -, h⟩ := Option.bind_eq_some.mp h
    obtain ⟨u1, hu1, h⟩ := Option.bind_eq_some.mp h
    obtain ⟨C1, -, h⟩ := Option.bind_eq_some.mp h
    obtain ⟨u2, hu2, h⟩ := Option.bind_eq_some.mp h
    obtain ⟨u3, hu3, h⟩ := Option.bind_eq_some.mp h
    obtain ⟨u4, hu4, h⟩ := Option.bind_eq_some.mp h
    obtain ⟨u5, hu5, h⟩ := Option.bind_eq_some.mp h
    simp only [Option.pure_def, Option.some.injEq] at h
    subst h
    simp only [Option.pure_def] at hu1 hu5
    have h1 : Fixed s u1 := by
      split at hu1
      · exact fixed_view_tiled hu1 (fun _ => rfl)
      · simp only [Option.pure_def, Option.some.injEq] at hu1; subst hu1; exact Fixed.fixed_refl _
    have h5 : Fixed u4 u5 := by
      split at hu5
      · obtain ⟨D, -, hu5⟩ := Option.bind_eq_some.mp hu5
        split at hu5 <;> (simp only [Option.pure_def, Option.some.injEq] at hu5; subst hu5)
        · exact (fixed_emit _ _).fixed_trans (fixed_emit _ _)
        · exact (fixed_emit _ _).fixed_trans (fixed_emit _ _)
      · simp only [Option.pure_def, Option.some.injEq] at hu5; subst hu5; exact Fixed.fixed_refl _
    exact h1.fixed_trans ((fixed_container_create u1 none rfl).fixed_trans
      ((fixed_modCon hu2 (fun _ => rfl)).fixed_trans ((fixed_replace hu3).fixed_trans
        ((fixed_add_child hu4).fixed_trans h5))))

theorem fixed_flatten_loop :
    ∀ (fuel : Nat) (seat : sway_seat) (s : State) (o : Option Nat) (r : State × Option Nat),
      container_flatten_loop fuel seat s o = some r → Fixed s r.1 := by
  intro fuel
  induction fuel with
  | zero =>
    intro seat s o r h
    cases o with
    | none =>
      simp only [container_flatten_loop, Option.some.injEq] at h
      subst h; exact Fixed.fixed_refl _
    | some con => simp [container_flatten_loop] at h
  | succ fuel ih =>
    intro seat s o r h
    cases o with
    | none =>
      simp only [container_flatten_loop, Option.some.injEq] at h
      subst h; exact Fixed.fixed_refl _
    | some con =>
      simp only [container_flatten_loop, Option.bind_eq_bind, Option.pure_def] at h
      obtain ⟨C, -, h⟩ := Option.bind_eq_some.mp h
      obtain ⟨children, -, h⟩ := Option.bind_eq_some.mp h
      split at h
      · obtain ⟨child, -, h⟩ := Option.bind_eq_some.mp h
        obtain ⟨u1, hu1, h⟩ := Option.bind_eq_some.mp h
        obtain ⟨u2, hu2, h⟩ := Option.bind_eq_some.mp h
        exact (fixed_replace hu1).fixed_trans ((fixed_begin_destroy hu2).fixed_trans
          (ih _ _ _ _ h))
      · simp only [Option.some.injEq] at h; subst h; exact Fixed.fixed_refl _

theorem fixed_flatten {fuel : Nat} {seat : sway_seat} {s : State} {container : Nat}
    {r : State × Option Nat} (h : container_flatten fuel seat s container = some r) :
    Fixed s r.1 := by
  unfold container_flatten at h
  simp only [Option.bind_eq_bind, Option.pure_def] at h
  obtain ⟨C, -, h⟩ := Option.bind_eq_some.mp h
  split at h
  · simp only [Option.some.injEq] at h; subst h; exact Fixed.fixed_refl _
  · exact fixed_flatten_loop _ _ _ _ _ h

theorem Fixed.currentKept {s t : State} (h : Fixed s t) : CurrentKept s t := by
  intro x C hC
  obtain ⟨D, hD, e⟩ := h.1 x C hC
  simp only [sway_container.fixed, Prod.mk.injEq] at e
  exact ⟨D, hD, e.2.2⟩

theorem Fixed.shapeKept {s t : State} (h : Fixed s t) : ShapeKept s t := by
  constructor
  · intro x C hC
    obtain ⟨D, hD, e⟩ := h.1 x C hC
    simp only [sway_container.fixed, Prod.mk.injEq] at e
    exact ⟨D, hD, e.1, e.2.1⟩
  · intro hinv x D hD
    rcases h.2 x D hD with h1 | h1
    · obtain ⟨C, hC⟩ := Option.isSome_iff_exists.mp h1
      obtain ⟨D2, hD2, e⟩ := h.1 x C hC
      rw [hD] at hD2
      obtain rfl := Option.some.inj hD2
      simp only [sway_container.fixed, Prod.mk.injEq] at e
      rw [e.1, e.2.1]
      exact hinv x C hC
    · rw [h1.1, h1.2]; rfl

/-- C30: whenever one of the tree operations `container_insert_child`,
`container_add_child`, `container_add_sibling`, `container_detach`,
`container_replace`, `container_split`, `container_flatten`,
`container_squash`, `container_reap_empty`, `container_set_floating`,
`container_set_fullscreen`, `container_floating_translate` and
`container_set_geometry_from_content` returns, every container that existed
before the call still exists and has the same `current` snapshot (geometry,
layout, parent, workspace, children, border, fullscreen mode). -/
theorem tree_operations_keep_current (fuel : Nat) (seat : sway_seat) (s : State) :
    (∀ parent child i t, container_insert_child fuel s parent child i = some t →
      CurrentKept s t) ∧
    (∀ parent child t, container_add_child fuel s parent child = some t → CurrentKept s t) ∧
    (∀ fixed active after t, container_add_sibling fuel s fixed active after = some t →
      CurrentKept s t) ∧
    (∀ child t, container_detach fuel s child = some t → CurrentKept s t) ∧
    (∀ container replacement t, container_replace fuel seat s container replacement = some t →
      CurrentKept s t) ∧
    (∀ child layout r, container_split fuel seat s child layout = some r →
      CurrentKept s r.1) ∧
    (∀ container r, container_flatten fuel seat s container = some r → CurrentKept s r.1) ∧
    (∀ con r, container_squash fuel s con = some r → CurrentKept s r.1) ∧
    (∀ con t, container_reap_empty fuel s con = some t → CurrentKept s t) ∧
    (∀ container enable t, container_set_floating fuel seat s container enable = some t →
      CurrentKept s t) ∧
    (∀ con mode t, container_set_fullscreen fuel s con mode = some t → CurrentKept s t) ∧
    (∀ con dx dy t, container_floating_translate fuel s con dx dy = some t →
      CurrentKept s t) ∧
    (∀ con t, container_set_geometry_from_content s con = some t → CurrentKept s t) :=
  ⟨fun _ _ _ _ h => (fixed_insert_child h).currentKept,
   fun _ _ _ h => (fixed_add_child h).currentKept,
   fun _ _ _ _ h => (fixed_add_sibling h).currentKept,
   fun _ _ h => (fixed_detach h).currentKept,
   fun _ _ _ h => (fixed_replace h).currentKept,
   fun _ _ _ h => (fixed_split h).currentKept,
   fun _ _ h => (fixed_flatten h).currentKept,
   fun _ _ h => (fixed_squash h).currentKept,
   fun _ _ h => (fixed_reap_empty h).currentKept,
   fun _ _ _ h => (fixed_set_floating h).currentKept,
   fun _ _ _ h => (fixed_set_fullscreen_mode h).currentKept,
   fun _ _ _ _ h => (fixed_floating_translate _ _ _ _ _ _ h).currentKept,
   fun _ _ h => (fixed_set_geometry_from_content h).currentKept⟩

theorem tree_operations_keep_current_witness :
    (∃ t, container_add_child 8 two_fullscreen_state 2 0 = some t ∧
      CurrentKept two_fullscreen_state t) ∧
    (∃ r, container_squash 10 squash_state 1 = some r ∧ CurrentKept squash_state r.1) := by
  obtain ⟨t, ht⟩ := Option.isSome_iff_exists.mp
    (by decide : (container_add_child 8 two_fullscreen_state 2 0).isSome = true)
  obtain ⟨r, hr⟩ := Option.isSome_iff_exists.mp
    (by decide : (container_squash 10 squash_state 1).isSome = true)
  exact ⟨⟨t, ht, (tree_operations_keep_current 8 {} two_fullscreen_state).2.1 2 0 t ht⟩,
    ⟨r, hr, (tree_operations_keep_current 10 {} squash_state).2.2.2.2.2.2.2.1 1 r hr⟩⟩

/-- C32: `container_create(view)` returns a new container with the given view
whose `pending.children` and `current.children` are non-null exactly when the
view is null, with layout `L_NONE` and empty marks and outputs lists, and it
changes no existing container.  Whenever one of the tree operations (the
attach operations `container_insert_child`, `container_add_child` and
`container_add_sibling`, `container_detach`, `container_replace`,
`container_split`, `container_flatten`, `container_squash`,
`container_set_floating`, `container_set_fullscreen`,
`container_begin_destroy`) returns, every container has the view and the
nullness of its children list it had before, and when exactly one of view and
children list was non-null for every container before the call, the same holds
for every container after it. -/
theorem view_xor_children_kept (fuel : Nat) (seat : sway_seat) (s : State) :
    (∀ view, ∃ C, (container_create s view).1.con (container_create s view).2 = some C ∧
      C.view = view ∧ (C.pending.children.isSome ↔ view = none) ∧
      (C.current.children.isSome ↔ view = none) ∧
      C.view.isSome = !C.pending.children.isSome ∧
      C.pending.layout = L_NONE ∧ C.marks = [] ∧ C.outputs = [] ∧
      (s.con (container_create s view).2 = none) ∧
      (∀ x D, s.con x = some D → (container_create s view).1.con x = some D)) ∧
    (∀ parent child i t, container_insert_child fuel s parent child i = some t →
      ShapeKept s t) ∧
    (∀ parent child t, container_add_child fuel s parent child = some t → ShapeKept s t) ∧
    (∀ fixed active after t, container_add_sibling fuel s fixed active after = some t →
      ShapeKept s t) ∧
    (∀ child t, container_detach fuel s child = some t → ShapeKept s t) ∧
    (∀ container replacement t, container_replace fuel seat s container replacement = some t →
      ShapeKept s t) ∧
    (∀ child layout r, container_split fuel seat s child layout = some r →
      ShapeKept s r.1) ∧
    (∀ container r, container_flatten fuel seat s container = some r → ShapeKept s r.1) ∧
    (∀ con r, container_squash fuel s con = some r → ShapeKept s r.1) ∧
    (∀ container enable t, container_set_floating fuel seat s container enable = some t →
      ShapeKept s t) ∧
    (∀ con mode t, container_set_fullscreen fuel s con mode = some t → ShapeKept s t) ∧
    (∀ con t, container_begin_destroy fuel s con = some t → ShapeKept s t) := by
  refine ⟨?_, fun _ _ _ _ h => (fixed_insert_child h).shapeKept,
   fun _ _ _ h => (fixed_add_child h).shapeKept,
   fun _ _ _ _ h => (fixed_add_sibling h).shapeKept,
   fun _ _ h => (fixed_detach h).shapeKept,
   fun _ _ _ h => (fixed_replace h).shapeKept,
   fun _ _ _ h => (fixed_split h).shapeKept,
   fun _ _ h => (fixed_flatten h).shapeKept,
   fun _ _ h => (fixed_squash h).shapeKept,
   fun _ _ _ h => (fixed_set_floating h).shapeKept,
   fun _ _ _ h => (fixed_set_fullscreen_mode h).shapeKept,
   fun _ _ h => (fixed_begin_destroy h).shapeKept⟩
  intro view
  have hnew : (container_create s view).2 = s.containers.length := rfl
  refine ⟨_, by rw [con_container_create, hnew, if_pos rfl], rfl, ?_, ?_, ?_, rfl, rfl, rfl,
    ?_, ?_⟩
  · cases view <;> simp
  · cases view <;> simp
  · cases view <;> simp
  · rw [hnew]
    unfold State.con
    simp [List.getD_eq_getElem?_getD]
  · intro x D hD
    have hx := con_lt hD
    rw [con_container_create, if_neg (by omega)]
    exact hD

theorem view_xor_children_kept_witness :
    (∃ r, container_split 8 {} squash_state 3 L_HORIZ = some r ∧
      ShapeKept squash_state r.1) ∧
    (∃ r, container_squash 10 squash_state 1 = some r ∧ ShapeKept squash_state r.1) := by
  obtain ⟨t, ht⟩ := Option.isSome_iff_exists.mp
    (by decide : (container_split 8 {} squash_state 3 L_HORIZ).isSome = true)
  obtain ⟨r, hr⟩ := Option.isSome_iff_exists.mp
    (by decide : (container_squash 10 squash_state 1).isSome = true)
  exact ⟨⟨t, ht, (view_xor_children_kept 8 {} squash_state).2.2.2.2.2.2.1 3 L_HORIZ t ht⟩,
    ⟨r, hr, (view_xor_children_kept 10 {} squash_state).2.2.2.2.2.2.2.2.1 1 r hr⟩⟩

theorem Up.up_rank_le {s : State} {r : Nat → Nat}
    (hr : ∀ x q, s.parentOf x = some q → r x < r q) {c a : Nat} (h : Up s c a) :
    r c ≤ r a := by
  induction h with
  | refl => exact Nat.le_refl _
  | tail _ hstep ih => exact Nat.le_trans ih (Nat.le_of_lt (hr _ _ hstep))

theorem Up.up_cases_head {s : State} {c a : Nat} (h : Up s c a) :
    a = c ∨ ∃ p, s.parentOf c = some p ∧ Up s p a := by
  rcases Relation.ReflTransGen.cases_head h with h | ⟨p, hp, hpa⟩
  · exact Or.inl h.symm
  · exact Or.inr ⟨p, hp, hpa⟩

theorem up_congr {s t : State} (h : ∀ x, t.parentOf x = s.parentOf x) (c a : Nat) :
    Up t c a ↔ Up s c a := by
  have : (fun x q => t.parentOf x = some q) = (fun x q => s.parentOf x = some q) := by
    funext x q; rw [h]
  unfold Up
  rw [this]

theorem child_identifier_congr {s t : State} {y : Nat} (hc : t.con y = s.con y)
    (hv : t.views = s.views) : child_identifier t y = child_identifier s y := by
  unfold child_identifier State.vw
  rw [hc, hv]

theorem build_representation_loop_congr {s t : State} :
    ∀ (l : List Nat) (i : Nat) (acc : Nat × String),
      (∀ y ∈ l, child_identifier t y = child_identifier s y) →
      build_representation_loop t l i acc = build_representation_loop s l i acc := by
  intro l
  induction l with
  | nil => intro i acc _; rfl
  | cons y l ih =>
    intro i acc h
    obtain ⟨len, buffer⟩ := acc
    unfold build_representation_loop
    rw [h y (List.mem_cons_self _ _)]
    have h2 : ∀ z ∈ l, child_identifier t z = child_identifier s z :=
      fun z hz => h z (List.mem_cons_of_mem _ hz)
    simp only [ih _ _ h2]

theorem build_representation_congr {s t : State} (layout : sway_container_layout)
    (l : List Nat) (h : ∀ y ∈ l, child_identifier t y = child_identifier s y) :
    container_build_representation t layout l = container_build_representation s layout l := by
  unfold container_build_representation
  simp only [build_representation_loop_congr l _ _ h]

/-- What `container_update_representation` does from `c` upwards: the tree and
the `pending` records are kept, every split container on the parent chain of
`c` carries the representation of its children in the final state, and no
other container changes. -/
theorem update_representation_titles (r : Nat → Nat) (K : Nat) (hK : ∀ x, r x ≤ K) :
    ∀ n (s : State) (c : Nat), Valid s → (∀ x q, s.parentOf x = some q → r x < r q) →
      (∀ p y, y ∈ s.kids p → s.parentOf y = some p) →
      K - r c < n → (s.con c).isSome →
      Returns (fun fuel => container_update_representation fuel s c) (fun t =>
        Kept s t ∧ (∀ a, Up s c a → s.viewOf a = none → Titled t a) ∧
        (∀ x, ¬ (Up s c x ∧ s.viewOf x = none) → t.con x = s.con x)) := by
  intro n
  induction n with
  | zero => intro s c _ _ _ hlt; omega
  | succ n ih =>
    intro s c hv hr hkp hlt hlive
    obtain ⟨C, hC⟩ := Option.isSome_iff_exists.mp hlive
    refine Returns.succ (fun fuel => rfl) ?_
    simp only [container_update_representation, hC, Option.bind_eq_bind, Option.some_bind]
    -- the title step
    have step : ∃ s1, (if C.view.isNone = true then
          (C.pending.children.bind fun children =>
            (container_build_representation s C.pending.layout children).bind fun x =>
              (s.modCon c fun C => { C with formatted_title := some x.2, title_height := 0 }).bind
                fun s => pure (s.emit (.update_title_textures c)))
        else pure s) = some s1 ∧ Kept s s1 ∧ (∀ x, x ≠ c → s1.con x = s.con x) ∧
        (C.view ≠ none → s1.con c = s.con c) ∧
        (C.view = none → ∃ l res, C.pending.children = some l ∧
          container_build_representation s C.pending.layout l = some res ∧
          s1.con c = some { C with formatted_title := some res.2, title_height := 0 }) := by
      by_cases hview : C.view.isNone = true
      · simp only [hview, if_true]
        have hnone : C.view = none := Option.isNone_iff_eq_none.mp hview
        obtain ⟨l, hl⟩ := Option.isSome_iff_exists.mp (hv.split c C hC hnone)
        have hkids : ∀ y ∈ l, (s.con y).isSome := by
          intro y hy
          refine hv.kids c y ?_
          simp [State.kids, State.childrenOf, hC, hl, hy]
        obtain ⟨res, hres⟩ := build_representation_defined hv C.pending.layout hkids
        simp only [hl, hres, Option.some_bind, modCon_some _ hC, Option.pure_def]
        refine ⟨_, rfl, (Kept.kept_updCon s c ?_ ?_).kept_trans (Kept.kept_emit _ _), ?_, ?_, ?_⟩
        · intro _; rfl
        · intro _; rfl
        · intro x hx; simp [hx]
        · intro h; exact absurd hnone h
        · intro _; exact ⟨l, res, rfl, hres, by simp [hC]⟩
      · simp only [hview, Bool.false_eq_true, if_false, Option.pure_def]
        refine ⟨s, rfl, Kept.kept_refl s, fun _ _ => rfl, fun _ => rfl, ?_⟩
        intro h
        rw [h] at hview
        exact absurd rfl hview
    obtain ⟨s1, hs1, soft1, hrest, hviewc, htitle⟩ := step
    have hs1' := hs1
    simp only [Option.bind_eq_bind] at hs1' ⊢
    have hpo : ∀ x, s1.parentOf x = s.parentOf x := fun x => soft1.soft.soft_parentOf x
    have hvo : ∀ x, s1.viewOf x = s.viewOf x := fun x => soft1.soft.viewOf x
    have hcc : ¬ c ∈ s.kids c := fun h => Nat.lt_irrefl _ (hr c c (hkp c c h))
    -- the title of `c` is built from children whose records the later steps keep
    have hbuilt : ∀ t : State, t.views = s.views → t.con c = s1.con c →
        (∀ y ∈ s.kids c, t.con y = s.con y) → C.view = none → Titled t c := by
      intro t htv htc hty hnone
      obtain ⟨l, res, hl, hres, hc1⟩ := htitle hnone
      refine ⟨{ C with formatted_title := some res.2, title_height := 0 }, l, res,
        by rw [htc]; exact hc1, hl, ?_, rfl⟩
      rw [← hres]
      refine build_representation_congr _ l ?_
      intro y hy
      have hyk : y ∈ s.kids c := by simp [State.kids, State.childrenOf, hC, hl, hy]
      exact child_identifier_congr (hty y hyk) htv
    cases hp : C.pending.parent with
    | some p =>
      have hpar : s.parentOf c = some p := by simp [State.parentOf, hC, hp]
      have hlt2 := hr c p hpar
      have hrec := ih s1 p (soft1.soft.soft_valid hv)
        (fun x q hx => hr x q (by rw [← hpo]; exact hx))
        (fun q y hy => by
          rw [hpo]
          exact hkp q y (by rw [← soft1.soft.soft_kids]; exact hy))
        (by have := hK p; omega)
        (by rw [soft1.soft.soft_live]; exact hv.parent c p hpar)
      refine Returns.congr (fun fuel => ?_) (hrec.returns_mono (fun t ht => ?_))
      · rw [hs1']; rfl
      · obtain ⟨hk, htit, hfr⟩ := ht
        have hnotup : ∀ x, r x ≤ r c → ¬ Up s1 p x := by
          intro x hx hup
          have := Up.up_rank_le (fun a q ha => hr a q (by rw [← hpo]; exact ha)) hup
          omega
        have htc : t.con c = s1.con c := hfr c (fun h => hnotup c (Nat.le_refl _) h.1)
        refine ⟨soft1.kept_trans hk, ?_, ?_⟩
        · intro a hup hva
          rcases Up.up_cases_head hup with rfl | ⟨p2, hp2, hup2⟩
          · refine hbuilt t ?_ htc ?_ ?_
            · rw [hk.soft.views, soft1.soft.views]
            · intro y hy
              have hyp := hkp _ y hy
              have hry := hr y _ hyp
              have hya : y ≠ a := fun h => hcc (h ▸ hy)
              rw [hfr y (fun h => hnotup y (Nat.le_of_lt hry) h.1)]
              exact hrest y hya
            · simpa [State.viewOf, hC] using hva
          · rw [hpar] at hp2
            obtain rfl := Option.some.inj hp2
            exact htit a ((up_congr hpo _ _).mpr hup2) (by rw [hvo]; exact hva)
        · intro x hx
          have hxc : x ≠ c ∨ s.viewOf c ≠ none := by
            by_contra hcon
            push_neg at hcon
            obtain ⟨hxe, hv2⟩ := hcon
            subst hxe
            exact hx ⟨Relation.ReflTransGen.refl, hv2⟩
          have h1 : t.con x = s1.con x := by
            refine hfr x (fun h => hx ⟨?_, by rw [← hvo]; exact h.2⟩)
            exact Relation.ReflTransGen.head hpar ((up_congr hpo _ _).mp h.1)
          rw [h1]
          rcases hxc with hxc | hxc
          · exact hrest x hxc
          · by_cases hxe : x = c
            · subst hxe
              exact hviewc (by simpa [State.viewOf, hC] using hxc)
            · exact hrest x hxe
    | none =>
      have hup1 : ∀ a, Up s c a → a = c := by
        intro a hup
        rcases Up.up_cases_head hup with h | ⟨p2, hp2, -⟩
        · exact h
        · simp [State.parentOf, hC, hp] at hp2
      have hfin : ∀ t : State, Kept s1 t → (∀ x, t.con x = s1.con x) →
          Kept s t ∧ (∀ a, Up s c a → s.viewOf a = none → Titled t a) ∧
          (∀ x, ¬ (Up s c x ∧ s.viewOf x = none) → t.con x = s.con x) := by
        intro t hk hsame
        refine ⟨soft1.kept_trans hk, ?_, ?_⟩
        · intro a hup hva
          obtain rfl := hup1 a hup
          refine hbuilt t ?_ (hsame a) ?_ ?_
          · rw [hk.soft.views, soft1.soft.views]
          · intro y hy
            rw [hsame y]
            exact hrest y (fun h => hcc (h ▸ hy))
          · simpa [State.viewOf, hC] using hva
        · intro x hx
          rw [hsame x]
          by_cases hxe : x = c
          · subst hxe
            refine hviewc (fun h => hx ⟨Relation.ReflTransGen.refl, ?_⟩)
            simp [State.viewOf, hC, h]
          · exact hrest x hxe
      cases hw : C.pending.workspace with
      | some w =>
        refine Returns.congr
          (fun fuel => (?_ : _ = some (workspace_update_representation s1 w)))
          (Returns.of_some rfl (hfin _ (Kept.kept_emit _ _) (fun _ => rfl)))
        rw [hs1']; rfl
      | none =>
        refine Returns.congr (fun fuel => (?_ : _ = some s1))
          (Returns.of_some rfl (hfin _ (Kept.kept_refl _) (fun _ => rfl)))
        rw [hs1']; rfl

/-- C38: in a well-formed acyclic tree `container_update_representation(con)`
returns, and afterwards `con`, if it is a split container, and every ancestor
of `con` have as `formatted_title` the string `container_build_representation`
produces for their layout and children in the final state; the
`formatted_title` of a view container is not modified, and no `pending` record
changes. -/
theorem update_representation_consistent (s : State) (con : Nat)
    (hwf : TreeWF s) (ha : Acyclic s) (hc : (s.con con).isSome) :
    Returns (fun fuel => container_update_representation fuel s con) (fun t =>
      (∀ a, Up s con a → (a = con → s.viewOf con = none) → Titled t a) ∧
      (∀ x, (s.viewOf x).isSome →
        (t.con x).map (·.formatted_title) = (s.con x).map (·.formatted_title)) ∧
      (∀ x, (t.con x).map (·.pending) = (s.con x).map (·.pending))) := by
  have hv := hwf.treewf_valid
  have hl := hwf.treewf_linked
  obtain ⟨r, K, hK, hr⟩ := ha
  have hrp : ∀ x q, s.parentOf x = some q → r x < r q :=
    fun x q hx => hr q x (hl.parent_kids x q hx)
  refine (update_representation_titles r K hK (K - r con + 1) s con hv hrp hl.kids_parent
    (by omega) hc).returns_mono ?_
  intro t ht
  obtain ⟨hk, htit, hfr⟩ := ht
  refine ⟨?_, ?_, hk.pending⟩
  · intro a hup hcon
    refine htit a hup ?_
    by_cases hac : a = con
    · subst hac; exact hcon rfl
    · rcases Relation.ReflTransGen.cases_tail hup with h | ⟨x, -, hx⟩
      · exact absurd h hac
      · have hxa := hl.parent_kids x a hx
        cases hA : s.con a with
        | none => simp [State.viewOf, hA]
        | some A =>
          by_contra hview
          have hview2 : A.view ≠ none := by simpa [State.viewOf, hA] using hview
          have := hl.view_leaf a A hA hview2
          simp [State.kids, State.childrenOf, hA, this] at hxa
  · intro x hx
    rw [hfr x (fun h => by rw [h.2] at hx; exact absurd hx (by simp))]

theorem update_representation_consistent_witness :
    Returns (fun fuel => container_update_representation fuel two_fullscreen_state 1) (fun t =>
      (∀ a, Up two_fullscreen_state 1 a → (a = 1 → two_fullscreen_state.viewOf 1 = none) →
        Titled t a) ∧
      (∀ x, (two_fullscreen_state.viewOf x).isSome →
        (t.con x).map (·.formatted_title) =
          (two_fullscreen_state.con x).map (·.formatted_title)) ∧
      (∀ x, (t.con x).map (·.pending) = (two_fullscreen_state.con x).map (·.pending))) :=
  update_representation_consistent two_fullscreen_state 1 (by decide)
    two_fullscreen_state_acyclic (by decide)

theorem BackRefs.backrefs_refl (s : State) : BackRefs s s := ⟨fun _ => rfl, rfl⟩

theorem BackRefs.backrefs_trans {s t u : State} (h1 : BackRefs s t) (h2 : BackRefs t u) :
    BackRefs s u :=
  ⟨fun w => (h2.1 w).trans (h1.1 w), h2.2.trans h1.2⟩

theorem backrefs_of_eq {s t : State} (h1 : t.workspaces = s.workspaces)
    (h2 : t.fullscreen_global = s.fullscreen_global) : BackRefs s t :=
  ⟨fun w => by unfold State.fsOf State.ws; rw [h1], h2⟩

theorem backrefs_modCon {s t : State} {c : Nat} {f : sway_container → sway_container}
    (h : s.modCon c f = some t) : BackRefs s t := by
  obtain ⟨-, rfl⟩ := modCon_eq_some h
  exact backrefs_of_eq (by simp) (by simp)

theorem backrefs_modWs {s t : State} {w : Nat} {f : sway_workspace → sway_workspace}
    (h : s.modWs w f = some t) (hf : ∀ W, (f W).fullscreen = W.fullscreen) : BackRefs s t := by
  unfold State.modWs at h
  cases hw : s.ws w with
  | none => simp [hw] at h
  | some W =>
    simp only [hw, Option.some.injEq] at h
    subst h
    refine ⟨fun x => ?_, by simp⟩
    unfold State.fsOf
    by_cases hx : x = w
    · subst hx
      simp [hw, hf]
    · simp [hx]

theorem backrefs_emit (s : State) (e : Event) : BackRefs s (s.emit e) := ⟨fun _ => rfl, rfl⟩

theorem backrefs_writeList {s t : State} {r : SiblingList} {l : List Nat}
    (h : s.writeList r l = some t) : BackRefs s t := by
  cases r with
  | children p => exact backrefs_modCon h
  | tiling w => exact backrefs_modWs h (fun _ => rfl)
  | floating w => exact backrefs_modWs h (fun _ => rfl)

theorem backrefs_foldlM {f : State → Nat → Option State} :
    ∀ (l : List Nat) (s t : State), (∀ u c v, c ∈ l → f u c = some v → BackRefs u v) →
      l.foldlM f s = some t → BackRefs s t := by
  intro l
  induction l with
  | nil =>
    intro s t _ h
    simp only [List.foldlM_nil, Option.pure_def, Option.some.injEq] at h
    subst h
    exact BackRefs.backrefs_refl s
  | cons c l ih =>
    intro s t hf h
    simp only [List.foldlM_cons, Option.bind_eq_bind] at h
    obtain ⟨u, hu, h⟩ := Option.bind_eq_some.mp h
    exact (hf s c u (List.mem_cons_self _ _) hu).backrefs_trans
      (ih u t (fun u c v hc => hf u c v (List.mem_cons_of_mem _ hc)) h)

theorem backrefs_set_workspace {s t : State} {c : Nat} (h : set_workspace s c = some t) :
    BackRefs s t := by
  unfold set_workspace at h
  simp only [Option.bind_eq_bind] at h
  obtain ⟨C, -, h⟩ := Option.bind_eq_some.mp h
  obtain ⟨p, -, h⟩ := Option.bind_eq_some.mp h
  obtain ⟨P, -, h⟩ := Option.bind_eq_some.mp h
  exact backrefs_modCon h

theorem backrefs_cascade :
    ∀ (fuel : Nat) (s t : State) (c : Nat),
      container_for_each_child fuel set_workspace s c = some t → BackRefs s t := by
  intro fuel
  induction fuel with
  | zero => intro s t c h; simp [container_for_each_child] at h
  | succ fuel ih =>
    intro s t c h
    simp only [container_for_each_child, Option.bind_eq_bind, Option.pure_def] at h
    obtain ⟨C, -, h⟩ := Option.bind_eq_some.mp h
    split at h
    · refine backrefs_foldlM _ _ _ ?_ h
      intro u y v _ huv
      obtain ⟨u1, hu1, huv⟩ := Option.bind_eq_some.mp huv
      exact (backrefs_set_workspace hu1).backrefs_trans (ih u1 v y huv)
    · simp only [Option.some.injEq] at h; subst h; exact BackRefs.backrefs_refl _

theorem backrefs_update_representation :
    ∀ (fuel : Nat) (s t : State) (c : Nat),
      container_update_representation fuel s c = some t → BackRefs s t := by
  intro fuel
  induction fuel with
  | zero => intro s t c h; simp [container_update_representation] at h
  | succ fuel ih =>
    intro s t c h
    simp only [container_update_representation, Option.bind_eq_bind, Option.pure_def] at h
    obtain ⟨C, -, h⟩ := Option.bind_eq_some.mp h
    obtain ⟨u1, hu1, h⟩ := Option.bind_eq_some.mp h
    have h1 : BackRefs s u1 := by
      split at hu1
      · obtain ⟨l, -, hu1⟩ := Option.bind_eq_some.mp hu1
        obtain ⟨r, -, hu1⟩ := Option.bind_eq_some.mp hu1
        obtain ⟨u2, hu2, hu1⟩ := Option.bind_eq_some.mp hu1
        simp only [Option.some.injEq] at hu1
        subst hu1
        exact (backrefs_modCon hu2).backrefs_trans (backrefs_emit _ _)
      · simp only [Option.some.injEq] at hu1; subst hu1; exact BackRefs.backrefs_refl _
    refine h1.backrefs_trans ?_
    split at h
    · exact ih _ _ _ h
    · split at h <;> (simp only [Option.some.injEq] at h; subst h)
      · exact backrefs_emit _ _
      · exact BackRefs.backrefs_refl _

/-- The back-references after `container_detach`: the workspace's reference is
cleared when the detached container is in mode `FULLSCREEN_WORKSPACE`, the
root's when it is in mode `FULLSCREEN_GLOBAL`; nothing else changes them. -/
theorem detach_backrefs {fuel : Nat} {s t : State} {child : Nat} {C : sway_container}
    (hC : s.con child = some C) (h : container_detach fuel s child = some t) :
    (∀ w, t.fsOf w =
      if C.pending.fullscreen_mode = FULLSCREEN_WORKSPACE ∧ C.pending.workspace = some w
      then none else s.fsOf w) ∧
    t.fullscreen_global =
      if C.pending.fullscreen_mode = FULLSCREEN_GLOBAL then none else s.fullscreen_global := by
  unfold container_detach at h
  simp only [hC, Option.bind_eq_bind, Option.some_bind, Option.pure_def] at h
  obtain ⟨u1, hu1, h⟩ := Option.bind_eq_some.mp h
  obtain ⟨sib, -, h⟩ := Option.bind_eq_some.mp h
  obtain ⟨u2, hu2, h⟩ := Option.bind_eq_some.mp h
  obtain ⟨u3, hu3, h⟩ := Option.bind_eq_some.mp h
  obtain ⟨u4, hu4, h⟩ := Option.bind_eq_some.mp h
  obtain ⟨u5, hu5, h⟩ := Option.bind_eq_some.mp h
  have h2 : BackRefs (if C.pending.fullscreen_mode = FULLSCREEN_GLOBAL then
      ({ u1 with fullscreen_global := none } : State) else u1) u2 := by
    split at hu2
    · obtain ⟨l, hl, hu2⟩ := Option.bind_eq_some.mp hu2
      split at hu2
      · obtain ⟨l2, -, hu2⟩ := Option.bind_eq_some.mp hu2
        exact backrefs_writeList hu2
      · simp only [Option.some.injEq] at hu2; subst hu2; exact BackRefs.backrefs_refl _
    · simp only [Option.some.injEq] at hu2; subst hu2; exact BackRefs.backrefs_refl _
  have h5 : BackRefs u4 u5 := by
    split at hu5
    · obtain ⟨v, hv, hu5⟩ := Option.bind_eq_some.mp hu5
      exact (backrefs_update_representation _ _ _ _ hv).backrefs_trans (backrefs_modCon hu5)
    · split at hu5
      · exact (backrefs_emit _ _).backrefs_trans (backrefs_modWs hu5 (fun _ => rfl))
      · simp only [Option.some.injEq] at hu5; subst hu5; exact BackRefs.backrefs_refl _
  have hall := h2.backrefs_trans ((backrefs_modCon hu3).backrefs_trans
    ((backrefs_cascade _ _ _ _ hu4).backrefs_trans (h5.backrefs_trans (backrefs_modCon h))))
  have hfs1 : ∀ w, u1.fsOf w =
      if C.pending.fullscreen_mode = FULLSCREEN_WORKSPACE ∧ C.pending.workspace = some w
      then none else s.fsOf w := by
    intro w
    by_cases hm : C.pending.fullscreen_mode = FULLSCREEN_WORKSPACE
    · simp only [hm, if_true, true_and] at hu1 ⊢
      obtain ⟨w0, hw0, hu1⟩ := Option.bind_eq_some.mp hu1
      unfold State.modWs at hu1
      cases hW : s.ws w0 with
      | none => simp [hW] at hu1
      | some W =>
        simp only [hW, Option.some.injEq] at hu1
        subst hu1
        unfold State.fsOf
        by_cases hx : w = w0
        · subst hx; simp [hw0, hW]
        · have : ¬ w0 = w := fun h => hx h.symm
          simp [hw0, hx, this]
    · simp only [hm, if_false, false_and, Option.some.injEq] at hu1 ⊢
      subst hu1; rfl
  have hg1 : u1.fullscreen_global = s.fullscreen_global := by
    split at hu1
    · obtain ⟨w0, -, hu1⟩ := Option.bind_eq_some.mp hu1
      unfold State.modWs at hu1
      cases hW : s.ws w0 with
      | none => simp [hW] at hu1
      | some W =>
        simp only [hW, Option.some.injEq] at hu1
        subst hu1; simp
    · simp only [Option.some.injEq] at hu1; subst hu1; rfl
  constructor
  · intro w
    rw [hall.1 w, ← hfs1 w]
    split <;> rfl
  · rw [hall.2]
    split
    · rfl
    · exact hg1

theorem Returns.returns_with {α : Type} {m : Nat → Option α} {P Q : α → Prop}
    (h : Returns m P) (hp : ∀ fuel a, m fuel = some a → Q a) :
    Returns m (fun a => P a ∧ Q a) := by
  obtain ⟨a, ha, N, hN⟩ := h
  exact ⟨a, ⟨ha, hp N a (hN N (le_refl N))⟩, N, hN⟩

/-- In the state reached from `two_fullscreen_state` by
`container_add_child(2, 0)`, container 1 is attached on workspace 1, whose
fullscreen container is 3, not 1; `container_detach(1)` clears that
back-reference all the same, because container 1 is in mode
`FULLSCREEN_WORKSPACE`. -/
theorem detach_clears_foreign_back_reference :
    ∃ s1 ∈ container_add_child 8 two_fullscreen_state 2 0,
      s1.parentOf 1 = some 0 ∧ s1.wsOf 1 = some 1 ∧ s1.fsOf 1 = some 3 ∧
      ∃ s2 ∈ container_detach 8 s1 1, s2.fsOf 1 = none := by
  decide

/-- C21, amended: in a well-formed state whose fullscreen back-references are
consistent, `container_detach(child)` of a container on workspace `w` returns,
leaves `w.fullscreen` unchanged when it is not `child`, leaves
`root.fullscreen_global` unchanged when it is not `child`, and leaves each of
them null when it was `child`. -/
theorem detach_clears_back_reference_of_fullscreen_window (s : State) (child w : Nat)
    (C : sway_container) (hwf : TreeWF s) (ha : Acyclic s) (hfc : FullscreenConsistent s)
    (hC : s.con child = some C) (hw : C.pending.workspace = some w) :
    Returns (fun fuel => container_detach fuel s child) (fun t =>
      (s.fsOf w ≠ some child → t.fsOf w = s.fsOf w) ∧
      (s.fullscreen_global ≠ some child → t.fullscreen_global = s.fullscreen_global) ∧
      (s.fsOf w = some child → t.fsOf w = none) ∧
      (s.fullscreen_global = some child → t.fullscreen_global = none)) := by
  obtain ⟨r, K, hK, hr⟩ := ha
  have hws : C.pending.workspace.isSome := by rw [hw]; rfl
  have hdet := detach_spec r K hwf.treewf_valid hwf.treewf_linked hr hK hC
    (Or.inr (Or.inl hws)) (fun _ => hws)
  have hid : child ∈ s.ids := mem_ids (by rw [hC]; rfl)
  have hmode : s.modeOf child = some C.pending.fullscreen_mode := by
    unfold State.modeOf; rw [hC]; rfl
  have hwsOf : s.wsOf child = some w := by
    unfold State.wsOf; rw [hC]; exact hw
  refine (hdet.returns_with (fun fuel t ht => detach_backrefs hC ht)).returns_mono ?_
  rintro t ⟨-, hfs, hg⟩
  have hfsw := hfs w
  simp only [hw, and_true] at hfsw
  refine ⟨fun hne => ?_, fun hne => ?_, fun he => ?_, fun he => ?_⟩
  · rw [hfsw, if_neg]
    intro hm
    exact hne (hfc.2.1 child hid (by rw [hmode, hm]) w hwsOf)
  · rw [hg, if_neg]
    intro hm
    exact hne (hfc.2.2.2 child hid (by rw [hmode, hm]))
  · have hwid : w ∈ s.wids := by
      unfold State.fsOf at he
      obtain ⟨W, hW, -⟩ := Option.bind_eq_some.mp he
      exact mem_wids (by rw [hW]; rfl)
    have hm := (hfc.1 w hwid child he).1
    rw [hmode, Option.some.injEq] at hm
    rw [hfsw, if_pos hm]
  · have hm := hfc.2.2.1 child he
    rw [hmode, Option.some.injEq] at hm
    rw [hg, if_pos hm]

theorem detach_clears_back_reference_of_fullscreen_window_witness :
    Returns (fun fuel => container_detach fuel two_fullscreen_state 1) (fun t =>
      (two_fullscreen_state.fsOf 0 ≠ some 1 → t.fsOf 0 = two_fullscreen_state.fsOf 0) ∧
      (two_fullscreen_state.fullscreen_global ≠ some 1 →
        t.fullscreen_global = two_fullscreen_state.fullscreen_global) ∧
      (two_fullscreen_state.fsOf 0 = some 1 → t.fsOf 0 = none) ∧
      (two_fullscreen_state.fullscreen_global = some 1 → t.fullscreen_global = none)) :=
  detach_clears_back_reference_of_fullscreen_window two_fullscreen_state 1 0
    { view := some 0,
      pending := { parent := some 0, workspace := some 0,
                   fullscreen_mode := FULLSCREEN_WORKSPACE } }
    (by decide) two_fullscreen_state_acyclic (by decide) rfl rfl

theorem SameTree.same_refl (s : State) : SameTree s s :=
  ⟨fun _ => rfl, fun _ => rfl, rfl, rfl, rfl⟩

theorem SameTree.same_trans {s t u : State} (h1 : SameTree s t) (h2 : SameTree t u) :
    SameTree s u :=
  ⟨fun x => (h2.con_links x).trans (h1.con_links x),
   fun w => (h2.ws_links w).trans (h1.ws_links w),
   h2.views.trans h1.views, h2.outputs.trans h1.outputs,
   h2.root_outputs.trans h1.root_outputs⟩

theorem SameTree.same_emit (s : State) (e : Event) : SameTree s (s.emit e) :=
  ⟨fun _ => rfl, fun _ => rfl, rfl, rfl, rfl⟩

theorem SameTree.same_updCon (s : State) (c : Nat) {f : sway_container → sway_container}
    (hf : ∀ C, (f C).links = C.links) : SameTree s (s.updCon c f) where
  con_links := fun x => by
    by_cases h : x = c
    · subst h; cases hx : s.con x <;> simp [hx, hf]
    · simp [h]
  ws_links := fun w => by simp [State.ws]
  views := by simp
  outputs := by simp
  root_outputs := by simp

theorem SameTree.same_updWs (s : State) (w : Nat) {f : sway_workspace → sway_workspace}
    (hf : ∀ W, (f W).links = W.links) : SameTree s (s.updWs w f) where
  con_links := fun x => by simp
  ws_links := fun v => by
    by_cases h : v = w
    · subst h; cases hv : s.ws v <;> simp [hv, hf]
    · simp [h]
  views := by simp
  outputs := by simp
  root_outputs := by simp

theorem SameTree.same_modCon {s t : State} {c : Nat} {f : sway_container → sway_container}
    (h : s.modCon c f = some t) (hf : ∀ C, (f C).links = C.links) : SameTree s t := by
  obtain ⟨-, rfl⟩ := modCon_eq_some h
  exact SameTree.same_updCon s c hf

theorem Soft.soft_sameTree {s t : State} (h : Soft s t) : SameTree s t where
  con_links := h.soft_proj (·.links) (fun _ => rfl)
  ws_links := h.wproj (·.links) (fun _ => rfl)
  views := h.views
  outputs := h.outputs
  root_outputs := h.root_outputs

theorem SameTree.same_proj {s t : State} (h : SameTree s t) {α : Type}
    (g : Option Nat × Option Nat × Option Nat × Option (List Nat) → α) (x : Nat) :
    (t.con x).map (fun C => g C.links) = (s.con x).map (fun C => g C.links) := by
  have := congrArg (Option.map g) (h.con_links x)
  simpa [Option.map_map, Function.comp_def] using this

theorem SameTree.same_wproj {s t : State} (h : SameTree s t) {α : Type}
    (g : List Nat × List Nat × Option Nat → α) (w : Nat) :
    (t.ws w).map (fun W => g W.links) = (s.ws w).map (fun W => g W.links) := by
  have := congrArg (Option.map g) (h.ws_links w)
  simpa [Option.map_map, Function.comp_def] using this

theorem SameTree.same_live {s t : State} (h : SameTree s t) (x : Nat) :
    (t.con x).isSome = (s.con x).isSome := by
  have := congrArg Option.isSome (h.con_links x)
  simpa using this

theorem SameTree.same_wlive {s t : State} (h : SameTree s t) (w : Nat) :
    (t.ws w).isSome = (s.ws w).isSome := by
  have := congrArg Option.isSome (h.ws_links w)
  simpa using this

theorem SameTree.same_viewOf {s t : State} (h : SameTree s t) (x : Nat) :
    t.viewOf x = s.viewOf x := by
  have := h.same_proj (fun l => l.1) x
  cases h1 : t.con x <;> cases h2 : s.con x <;>
    simp_all [State.viewOf, sway_container.links]

theorem SameTree.same_parentOf {s t : State} (h : SameTree s t) (x : Nat) :
    t.parentOf x = s.parentOf x := by
  have := h.same_proj (fun l => l.2.1) x
  cases h1 : t.con x <;> cases h2 : s.con x <;>
    simp_all [State.parentOf, sway_container.links]

theorem SameTree.same_wsOf {s t : State} (h : SameTree s t) (x : Nat) :
    t.wsOf x = s.wsOf x := by
  have := h.same_proj (fun l => l.2.2.1) x
  cases h1 : t.con x <;> cases h2 : s.con x <;>
    simp_all [State.wsOf, sway_container.links]

theorem SameTree.same_childrenOf {s t : State} (h : SameTree s t) (x : Nat) :
    t.childrenOf x = s.childrenOf x := by
  have := h.same_proj (fun l => l.2.2.2) x
  cases h1 : t.con x <;> cases h2 : s.con x <;>
    simp_all [State.childrenOf, sway_container.links]

theorem SameTree.same_kids {s t : State} (h : SameTree s t) (x : Nat) :
    t.kids x = s.kids x := by
  simp [State.kids, h.same_childrenOf]

theorem SameTree.same_tiling {s t : State} (h : SameTree s t) (w : Nat) :
    (t.ws w).map (·.tiling) = (s.ws w).map (·.tiling) :=
  h.same_wproj (fun l => l.1) w

theorem SameTree.same_floating {s t : State} (h : SameTree s t) (w : Nat) :
    (t.ws w).map (·.floating) = (s.ws w).map (·.floating) :=
  h.same_wproj (fun l => l.2.1) w

theorem SameTree.same_tops {s t : State} (h : SameTree s t) (w : Nat) :
    t.tops w = s.tops w := by
  have := h.same_wproj (fun l => l.1 ++ l.2.1) w
  cases h1 : t.ws w <;> cases h2 : s.ws w <;>
    simp_all [State.tops, sway_workspace.links]

theorem SameTree.same_valid {s t : State} (h : SameTree s t) (hv : Valid s) : Valid t := by
  have hvw : ∀ v, t.vw v = s.vw v := fun v => by simp [State.vw, h.views]
  have hout : ∀ o, t.out o = s.out o := fun o => by simp [State.out, h.outputs]
  refine ⟨?_, ?_, ?_, ?_, ?_, ?_, ?_⟩
  · intro c D hD v hview
    have h1 := h.same_viewOf c
    cases hC : s.con c with
    | none =>
      have := h.same_live c
      simp [hC, hD] at this
    | some C =>
      simp only [State.viewOf, hC, hD, Option.some_bind] at h1
      rw [hvw]
      exact hv.view c C hC v (by rw [← h1]; exact hview)
  · intro c w hw
    rw [h.same_wsOf] at hw
    rw [h.same_wlive]
    exact hv.ws c w hw
  · intro p c hc
    rw [h.same_kids] at hc
    rw [h.same_live]
    exact hv.kids p c hc
  · intro c p hp
    rw [h.same_parentOf] at hp
    rw [h.same_live]
    exact hv.parent c p hp
  · intro c D hD hview
    have h1 := h.same_viewOf c
    have h2 := h.same_childrenOf c
    cases hC : s.con c with
    | none =>
      have := h.same_live c
      simp [hC, hD] at this
    | some C =>
      simp only [State.viewOf, State.childrenOf, hC, hD, Option.some_bind] at h1 h2
      rw [h2]
      exact hv.split c C hC (by rw [← h1]; exact hview)
  · intro w V hV
    have h1 := h.same_wproj (fun l => l.2.2) w
    cases hW : s.ws w with
    | none =>
      have := h.same_wlive w
      simp [hW, hV] at this
    | some W =>
      simp only [hW, hV, Option.map_some', Option.some.injEq, sway_workspace.links] at h1
      obtain ⟨o, ho, hlive⟩ := hv.output w W hW
      exact ⟨o, by rw [h1]; exact ho, by rw [hout]; exact hlive⟩
  · intro o ho
    rw [h.root_outputs] at ho
    rw [hout]
    exact hv.root_outputs o ho

theorem SameTree.same_linked {s t : State} (h : SameTree s t) (hl : Linked s) : Linked t := by
  refine ⟨?_, ?_, ?_, ?_, ?_, ?_, ?_⟩
  · intro p c hc
    rw [h.same_kids] at hc
    rw [h.same_parentOf]
    exact hl.kids_parent p c hc
  · intro c p hp
    rw [h.same_parentOf] at hp
    rw [h.same_kids]
    exact hl.parent_kids c p hp
  · intro p
    rw [h.same_kids]
    exact hl.kids_nodup p
  · intro w
    rw [h.same_tops]
    exact hl.tops_nodup w
  · intro w c hc
    rw [h.same_tops] at hc
    rw [h.same_parentOf, h.same_wsOf]
    exact hl.tops_top w c hc
  · intro c w hp hw
    rw [h.same_parentOf] at hp
    rw [h.same_wsOf] at hw
    rw [h.same_tops]
    exact hl.top_tops c w hp hw
  · intro c D hD hview
    have h1 := h.same_viewOf c
    have h2 := h.same_childrenOf c
    cases hC : s.con c with
    | none =>
      have := h.same_live c
      simp [hC, hD] at this
    | some C =>
      simp only [State.viewOf, State.childrenOf, hC, hD, Option.some_bind] at h1 h2
      rw [h2]
      exact hl.view_leaf c C hC (by rw [← h1]; exact hview)

theorem flagged_preorder : Preorder2 Flagged :=
  ⟨fun _ => ⟨rfl, id⟩, fun _ _ _ h1 h2 => ⟨h2.1.trans h1.1, fun h => h2.2 (h1.2 h)⟩⟩

theorem relinked_preorder : Preorder2 Relinked :=
  ⟨fun _ => ⟨rfl, id⟩, fun _ _ _ h1 h2 => ⟨h2.1.trans h1.1, fun h => h2.2 (h1.2 h)⟩⟩

theorem each_refl {R : sway_container → sway_container → Prop} (hR : Preorder2 R) (s : State) :
    Each R s s :=
  fun _ C h => ⟨C, h, hR.refl C⟩

theorem each_trans {R : sway_container → sway_container → Prop} (hR : Preorder2 R)
    {s t u : State} (h1 : Each R s t) (h2 : Each R t u) : Each R s u := by
  intro x C hC
  obtain ⟨D, hD, e1⟩ := h1 x C hC
  obtain ⟨E, hE, e2⟩ := h2 x D hD
  exact ⟨E, hE, hR.trans _ _ _ e1 e2⟩

theorem each_of_con {R : sway_container → sway_container → Prop} (hR : Preorder2 R)
    {s t : State} (h : ∀ x, t.con x = s.con x) : Each R s t :=
  fun x C hC => ⟨C, by rw [h x]; exact hC, hR.refl C⟩

theorem each_of_containers {R : sway_container → sway_container → Prop} (hR : Preorder2 R)
    {s t : State} (h : t.containers = s.containers) : Each R s t :=
  each_of_con hR (fun x => by unfold State.con; rw [h])

theorem each_modCon {R : sway_container → sway_container → Prop} {s t : State} {c : Nat}
    {f : sway_container → sway_container} (h : s.modCon c f = some t) (hR : Preorder2 R)
    (hf : ∀ C, R C (f C)) : Each R s t := by
  obtain ⟨-, rfl⟩ := modCon_eq_some h
  intro x C hC
  by_cases hx : x = c
  · subst hx
    exact ⟨f C, by simp [hC], hf C⟩
  · exact ⟨C, by simp [hx, hC], hR.refl C⟩

theorem each_modWs {R : sway_container → sway_container → Prop} {s t : State} {w : Nat}
    {f : sway_workspace → sway_workspace} (h : s.modWs w f = some t) (hR : Preorder2 R) :
    Each R s t := by
  unfold State.modWs at h
  cases hw : s.ws w with
  | none => simp [hw] at h
  | some W =>
    simp only [hw, Option.some.injEq] at h
    subst h
    exact each_of_con hR (fun x => by simp)

theorem each_emit {R : sway_container → sway_container → Prop} (hR : Preorder2 R)
    (s : State) (e : Event) : Each R s (s.emit e) :=
  each_of_con hR (fun _ => rfl)

theorem each_foldlM {R : sway_container → sway_container → Prop} (hR : Preorder2 R)
    {f : State → Nat → Option State} :
    ∀ (l : List Nat) (s t : State), (∀ u c v, c ∈ l → f u c = some v → Each R u v) →
      l.foldlM f s = some t → Each R s t := by
  intro l
  induction l with
  | nil =>
    intro s t _ h
    simp only [List.foldlM_nil, Option.pure_def, Option.some.injEq] at h
    subst h
    exact each_refl hR s
  | cons c l ih =>
    intro s t hf h
    simp only [List.foldlM_cons, Option.bind_eq_bind] at h
    obtain ⟨u, hu, h⟩ := Option.bind_eq_some.mp h
    exact each_trans hR (hf s c u (List.mem_cons_self _ _) hu)
      (ih u t (fun u c v hc => hf u c v (List.mem_cons_of_mem _ hc)) h)

theorem each_pure {R : sway_container → sway_container → Prop} (hR : Preorder2 R)
    {s t : State} (h : some s = some t) : Each R s t := by
  simp only [Option.some.injEq] at h
  subst h
  exact each_refl hR s

/-! ### The flags through the fullscreen state machine -/
theorem flagged_set_fullscreen {s t : State} {con : Nat} {b : Bool}
    (h : set_fullscreen s con b = some t) : Each Flagged s t := by
  unfold set_fullscreen at h
  simp only [Option.bind_eq_bind, Option.pure_def] at h
  obtain ⟨C, -, h⟩ := Option.bind_eq_some.mp h
  split at h
  · exact each_pure flagged_preorder h
  · obtain ⟨V, -, h⟩ := Option.bind_eq_some.mp h
    exact each_of_containers flagged_preorder (by
      split at h
      · split at h <;> (simp only [Option.some.injEq] at h; subst h; rfl)
      · simp only [Option.some.injEq] at h; subst h; rfl)

theorem flagged_set_geometry_from_content {s t : State} {con : Nat}
    (h : container_set_geometry_from_content s con = some t) : Each Flagged s t := by
  unfold container_set_geometry_from_content at h
  simp only [Option.bind_eq_bind, Option.pure_def] at h
  obtain ⟨C, -, h⟩ := Option.bind_eq_some.mp h
  cases hv : C.view.isSome
  · simp only [sway_assert, hv, Bool.false_eq_true, if_false, Bool.not_false, if_true,
      Option.some.injEq] at h
    subst h
    exact each_emit flagged_preorder _ _
  · simp only [sway_assert, hv, if_true, Bool.not_true, Bool.false_eq_true, if_false] at h
    obtain ⟨b, -, h⟩ := Option.bind_eq_some.mp h
    cases b
    · simp only [Bool.false_eq_true, if_false, Bool.not_false, if_true, Option.some.injEq] at h
      subst h
      exact each_emit flagged_preorder _ _
    · simp only [if_true, Bool.not_true, Bool.false_eq_true, if_false] at h
      exact each_modCon h flagged_preorder (fun _ => ⟨rfl, fun _ => rfl⟩)

theorem flagged_floating_natural_resize {s t : State} {con : Nat}
    (h : floating_natural_resize s con = some t) : Each Flagged s t := by
  unfold floating_natural_resize at h
  simp only [Option.bind_eq_bind, Option.pure_def] at h
  obtain ⟨C, -, h⟩ := Option.bind_eq_some.mp h
  split at h
  · exact each_modCon h flagged_preorder (fun _ => ⟨rfl, id⟩)
  · obtain ⟨V, -, h⟩ := Option.bind_eq_some.mp h
    obtain ⟨u, hu, h⟩ := Option.bind_eq_some.mp h
    exact each_trans flagged_preorder (each_modCon hu flagged_preorder (fun _ => ⟨rfl, id⟩))
      (flagged_set_geometry_from_content h)

theorem flagged_floating_resize_and_center {s t : State} {con : Nat}
    (h : container_floating_resize_and_center s con = some t) : Each Flagged s t := by
  unfold container_floating_resize_and_center at h
  simp only [Option.bind_eq_bind, Option.pure_def] at h
  obtain ⟨C, -, h⟩ := Option.bind_eq_some.mp h
  split at h
  · exact flagged_floating_natural_resize h
  · obtain ⟨W, -, h⟩ := Option.bind_eq_some.mp h
    obtain ⟨o, -, h⟩ := Option.bind_eq_some.mp h
    obtain ⟨O, -, h⟩ := Option.bind_eq_some.mp h
    split at h
    · exact each_modCon h flagged_preorder (fun _ => ⟨rfl, id⟩)
    · obtain ⟨u, hu, h⟩ := Option.bind_eq_some.mp h
      refine each_trans flagged_preorder (flagged_floating_natural_resize hu) ?_
      obtain ⟨D, -, h⟩ := Option.bind_eq_some.mp h
      split at h
      · split at h <;> exact each_modCon h flagged_preorder (fun _ => ⟨rfl, id⟩)
      · obtain ⟨u1, hu1, h⟩ := Option.bind_eq_some.mp h
        obtain ⟨u2, hu2, h⟩ := Option.bind_eq_some.mp h
        have h1 : Each Flagged u u1 := by
          split at hu1 <;> exact each_modCon hu1 flagged_preorder (fun _ => ⟨rfl, id⟩)
        exact each_trans flagged_preorder h1 (each_trans flagged_preorder
          (each_modCon hu2 flagged_preorder (fun _ => ⟨rfl, id⟩))
          (flagged_set_geometry_from_content h))

theorem flagged_floating_translate (dx dy : ℚ) :
    ∀ (fuel : Nat) (s t : State) (con : Nat),
      container_floating_translate fuel s con dx dy = some t → Each Flagged s t := by
  intro fuel
  induction fuel with
  | zero => intro s t con h; simp [container_floating_translate] at h
  | succ fuel ih =>
    intro s t con h
    simp only [container_floating_translate, Option.bind_eq_bind, Option.pure_def] at h
    obtain ⟨u, hu, h⟩ := Option.bind_eq_some.mp h
    obtain ⟨C, -, h⟩ := Option.bind_eq_some.mp h
    obtain ⟨u1, hu1, h⟩ := Option.bind_eq_some.mp h
    refine each_trans flagged_preorder (each_modCon hu flagged_preorder (fun _ => ⟨rfl, id⟩))
      (each_trans flagged_preorder ?_
        (each_modCon h flagged_preorder (fun _ => ⟨rfl, fun _ => rfl⟩)))
    split at hu1
    · exact each_foldlM flagged_preorder _ _ _ (fun a c b _ hab => ih a b c hab) hu1
    · exact each_pure flagged_preorder hu1

theorem flagged_floating_move_to_center {fuel : Nat} {s t : State} {con : Nat}
    (h : container_floating_move_to_center fuel s con = some t) : Each Flagged s t := by
  unfold container_floating_move_to_center at h
  simp only [Option.bind_eq_bind, Option.pure_def] at h
  obtain ⟨b, -, h⟩ := Option.bind_eq_some.mp h
  cases b
  · simp only [sway_assert, Bool.false_eq_true, if_false, Bool.not_false, if_true,
      Option.some.injEq] at h
    subst h
    exact each_emit flagged_preorder _ _
  · simp only [sway_assert, if_true, Bool.not_true, Bool.false_eq_true, if_false] at h
    obtain ⟨C, -, h⟩ := Option.bind_eq_some.mp h
    obtain ⟨w, -, h⟩ := Option.bind_eq_some.mp h
    obtain ⟨W, -, h⟩ := Option.bind_eq_some.mp h
    exact flagged_floating_translate _ _ _ _ _ _ h

theorem flagged_fullscreen_disable {fuel : Nat} {s t : State} {con : Nat}
    (h : container_fullscreen_disable fuel s con = some t) : Each Flagged s t := by
  unfold container_fullscreen_disable at h
  simp only [Option.bind_eq_bind, Option.pure_def] at h
  obtain ⟨C, -, h⟩ := Option.bind_eq_some.mp h
  by_cases hm : C.pending.fullscreen_mode = FULLSCREEN_NONE
  · simp only [sway_assert, hm, ne_eq, not_true_eq_false, decide_False, Bool.false_eq_true,
      if_false, Bool.not_false, if_true, Option.some.injEq] at h
    subst h
    exact each_emit flagged_preorder _ _
  · simp only [sway_assert, hm, ne_eq, not_false_eq_true, decide_True, if_true, Bool.not_true,
      Bool.false_eq_true, if_false] at h
    obtain ⟨u1, hu1, h⟩ := Option.bind_eq_some.mp h
    obtain ⟨b1, -, h⟩ := Option.bind_eq_some.mp h
    obtain ⟨u2, hu2, h⟩ := Option.bind_eq_some.mp h
    obtain ⟨u3, hu3, h⟩ := Option.bind_eq_some.mp h
    obtain ⟨C1, -, h⟩ := Option.bind_eq_some.mp h
    obtain ⟨b2, -, h⟩ := Option.bind_eq_some.mp h
    obtain ⟨u4, hu4, h⟩ := Option.bind_eq_some.mp h
    obtain ⟨u5, hu5, h⟩ := Option.bind_eq_some.mp h
    have h2 : Each Flagged u1 u2 := by
      split at hu2
      · exact each_modCon hu2 flagged_preorder (fun _ => ⟨rfl, id⟩)
      · exact each_pure flagged_preorder hu2
    have h3 : Each Flagged u2 u3 := by
      split at hu3
      · split at hu3
        · obtain ⟨v1, hv1, hu3⟩ := Option.bind_eq_some.mp hu3
          obtain ⟨b3, -, hu3⟩ := Option.bind_eq_some.mp hu3
          refine each_trans flagged_preorder (each_modWs hv1 flagged_preorder) ?_
          split at hu3
          · obtain ⟨o, -, hu3⟩ := Option.bind_eq_some.mp hu3
            obtain ⟨W, -, hu3⟩ := Option.bind_eq_some.mp hu3
            split at hu3
            · exact flagged_floating_move_to_center hu3
            · exact each_pure flagged_preorder hu3
          · exact each_pure flagged_preorder hu3
        · exact each_pure flagged_preorder hu3
      · simp only [Option.some.injEq] at hu3; subst hu3
        exact each_of_containers flagged_preorder rfl
    have h4 : Each Flagged u3 u4 := by
      split at hu4
      · exact flagged_floating_resize_and_center hu4
      · exact each_pure flagged_preorder hu4
    have h5 : Each Flagged u4 u5 := each_modCon hu5 flagged_preorder (fun _ => ⟨rfl, id⟩)
    have h6 : Each Flagged u5 t := by
      exact each_of_containers flagged_preorder (by
        split at h <;> (simp only [Option.some.injEq] at h; subst h; rfl))
    exact each_trans flagged_preorder (flagged_set_fullscreen hu1)
      (each_trans flagged_preorder h2 (each_trans flagged_preorder h3
        (each_trans flagged_preorder h4 (each_trans flagged_preorder h5 h6))))

theorem flagged_scratchpad_remove {s t : State} {con : Nat}
    (h : root_scratchpad_remove_container s con = some t) : Each Flagged s t := by
  unfold root_scratchpad_remove_container at h
  simp only [Option.bind_eq_bind, Option.pure_def] at h
  obtain ⟨C, -, h⟩ := Option.bind_eq_some.mp h
  cases hs : C.scratchpad
  · simp only [sway_assert, hs, Bool.false_eq_true, if_false, Bool.not_false, if_true,
      Option.some.injEq] at h
    subst h
    exact each_emit flagged_preorder _ _
  · simp only [sway_assert, hs, if_true, Bool.not_true, Bool.false_eq_true, if_false] at h
    obtain ⟨u1, hu1, h⟩ := Option.bind_eq_some.mp h
    refine each_trans flagged_preorder (each_modCon hu1 flagged_preorder (fun _ => ⟨rfl, id⟩)) ?_
    split at h <;> (simp only [Option.some.injEq] at h; subst h)
    · exact each_of_containers flagged_preorder rfl
    · exact each_refl flagged_preorder _

/-! ### The records through `container_detach` -/
theorem relinked_writeList {s t : State} {r : SiblingList} {l : List Nat}
    (h : s.writeList r l = some t) : Each Relinked s t := by
  cases r with
  | children p => exact each_modCon h relinked_preorder (fun _ => ⟨rfl, id⟩)
  | tiling w => exact each_modWs h relinked_preorder
  | floating w => exact each_modWs h relinked_preorder

theorem relinked_set_workspace {s t : State} {c : Nat} (h : set_workspace s c = some t) :
    Each Relinked s t := by
  unfold set_workspace at h
  simp only [Option.bind_eq_bind] at h
  obtain ⟨C, -, h⟩ := Option.bind_eq_some.mp h
  obtain ⟨p, -, h⟩ := Option.bind_eq_some.mp h
  obtain ⟨P, -, h⟩ := Option.bind_eq_some.mp h
  exact each_modCon h relinked_preorder (fun _ => ⟨rfl, id⟩)

theorem relinked_cascade :
    ∀ (fuel : Nat) (s t : State) (c : Nat),
      container_for_each_child fuel set_workspace s c = some t → Each Relinked s t := by
  intro fuel
  induction fuel with
  | zero => intro s t c h; simp [container_for_each_child] at h
  | succ fuel ih =>
    intro s t c h
    simp only [container_for_each_child, Option.bind_eq_bind, Option.pure_def] at h
    obtain ⟨C, -, h⟩ := Option.bind_eq_some.mp h
    split at h
    · refine each_foldlM relinked_preorder _ _ _ ?_ h
      intro u y v _ huv
      obtain ⟨u1, hu1, huv⟩ := Option.bind_eq_some.mp huv
      exact each_trans relinked_preorder (relinked_set_workspace hu1) (ih u1 v y huv)
    · exact each_pure relinked_preorder h

theorem relinked_update_representation :
    ∀ (fuel : Nat) (s t : State) (c : Nat),
      container_update_representation fuel s c = some t → Each Relinked s t := by
  intro fuel
  induction fuel with
  | zero => intro s t c h; simp [container_update_representation] at h
  | succ fuel ih =>
    intro s t c h
    simp only [container_update_representation, Option.bind_eq_bind, Option.pure_def] at h
    obtain ⟨C, -, h⟩ := Option.bind_eq_some.mp h
    obtain ⟨u1, hu1, h⟩ := Option.bind_eq_some.mp h
    have h1 : Each Relinked s u1 := by
      split at hu1
      · obtain ⟨l, -, hu1⟩ := Option.bind_eq_some.mp hu1
        obtain ⟨r, -, hu1⟩ := Option.bind_eq_some.mp hu1
        obtain ⟨u2, hu2, hu1⟩ := Option.bind_eq_some.mp hu1
        simp only [Option.some.injEq] at hu1
        subst hu1
        exact each_trans relinked_preorder
          (each_modCon hu2 relinked_preorder (fun _ => ⟨rfl, id⟩))
          (each_emit relinked_preorder _ _)
      · exact each_pure relinked_preorder hu1
    refine each_trans relinked_preorder h1 ?_
    split at h
    · exact ih _ _ _ h
    · split at h <;> (simp only [Option.some.injEq] at h; subst h)
      · exact each_emit relinked_preorder _ _
      · exact each_refl relinked_preorder _

theorem relinked_detach {fuel : Nat} {s t : State} {child : Nat}
    (h : container_detach fuel s child = some t) : Each Relinked s t := by
  unfold container_detach at h
  simp only [Option.bind_eq_bind, Option.pure_def] at h
  obtain ⟨C, -, h⟩ := Option.bind_eq_some.mp h
  obtain ⟨u1, hu1, h⟩ := Option.bind_eq_some.mp h
  obtain ⟨sib, -, h⟩ := Option.bind_eq_some.mp h
  obtain ⟨u2, hu2, h⟩ := Option.bind_eq_some.mp h
  obtain ⟨u3, hu3, h⟩ := Option.bind_eq_some.mp h
  obtain ⟨u4, hu4, h⟩ := Option.bind_eq_some.mp h
  obtain ⟨u5, hu5, h⟩ := Option.bind_eq_some.mp h
  have h1 : Each Relinked s u1 := by
    split at hu1
    · obtain ⟨w, -, hu1⟩ := Option.bind_eq_some.mp hu1
      exact each_modWs hu1 relinked_preorder
    · exact each_pure relinked_preorder hu1
  have h1b : Each Relinked u1 (if C.pending.fullscreen_mode = FULLSCREEN_GLOBAL then
      ({ u1 with fullscreen_global := none } : State) else u1) := by
    split
    · exact each_of_containers relinked_preorder rfl
    · exact each_refl relinked_preorder _
  have h2 : Each Relinked (if C.pending.fullscreen_mode = FULLSCREEN_GLOBAL then
      ({ u1 with fullscreen_global := none } : State) else u1) u2 := by
    split at hu2
    · obtain ⟨l, hl, hu2⟩ := Option.bind_eq_some.mp hu2
      split at hu2
      · obtain ⟨l2, -, hu2⟩ := Option.bind_eq_some.mp hu2
        exact relinked_writeList hu2
      · exact each_pure relinked_preorder hu2
    · exact each_pure relinked_preorder hu2
  have h3 : Each Relinked u2 u3 := each_modCon hu3 relinked_preorder (fun _ => ⟨rfl, id⟩)
  have h4 : Each Relinked u3 u4 := relinked_cascade _ _ _ _ hu4
  have h5 : Each Relinked u4 u5 := by
    split at hu5
    · obtain ⟨v, hv, hu5⟩ := Option.bind_eq_some.mp hu5
      exact each_trans relinked_preorder (relinked_update_representation _ _ _ _ hv)
        (each_modCon hu5 relinked_preorder (fun _ => ⟨rfl, fun _ => rfl⟩))
    · split at hu5
      · exact each_trans relinked_preorder (each_emit relinked_preorder _ _)
          (each_modWs hu5 relinked_preorder)
      · exact each_pure relinked_preorder hu5
  exact each_trans relinked_preorder h1 (each_trans relinked_preorder h1b
    (each_trans relinked_preorder h2 (each_trans relinked_preorder h3
      (each_trans relinked_preorder h4 (each_trans relinked_preorder h5
        (each_modCon h relinked_preorder (fun _ => ⟨rfl, fun _ => rfl⟩)))))))

theorem SameTree.same_modWs {s t : State} {w : Nat} {f : sway_workspace → sway_workspace}
    (h : s.modWs w f = some t) (hf : ∀ W, (f W).links = W.links) : SameTree s t := by
  unfold State.modWs at h
  cases hw : s.ws w with
  | none => simp [hw] at h
  | some W =>
    simp only [hw, Option.some.injEq] at h
    subst h
    exact SameTree.same_updWs s w hf

theorem SameTree.same_rank {s t : State} (h : SameTree s t) {r : Nat → Nat}
    (hr : ∀ p c, c ∈ s.kids p → r c < r p) : ∀ p c, c ∈ t.kids p → r c < r p :=
  fun p c hc => hr p c (by rw [← h.same_kids]; exact hc)

theorem SameTree.same_reach {s t : State} (h : SameTree s t) (c x : Nat) :
    Reach t c x ↔ Reach s c x := by
  have : (fun a b => b ∈ t.kids a) = (fun a b => b ∈ s.kids a) := by
    funext a b; rw [h.same_kids]
  unfold Reach
  rw [this]

theorem SameTree.same_con {s t : State} (h : SameTree s t) {x : Nat} {C : sway_container}
    (hC : s.con x = some C) : ∃ D, t.con x = some D ∧ D.links = C.links := by
  have := h.con_links x
  rw [hC] at this
  cases ht : t.con x with
  | none => simp [ht] at this
  | some D => exact ⟨D, rfl, by simpa [ht] using this⟩

/-- What `container_fullscreen_disable` does when it is called on a container in
mode `FULLSCREEN_GLOBAL`, or not called at all. -/
theorem disable_if_global {s : State} (hv : Valid s) (ha : Acyclic s) {f : Nat}
    {F : sway_container} (hF : s.con f = some F) (b : Prop) [Decidable b]
    (hb : b → F.pending.fullscreen_mode = FULLSCREEN_GLOBAL) :
    Returns (fun fuel => if b then container_fullscreen_disable fuel s f else pure s)
      (fun t => SameTree s t ∧ (∀ x, x ≠ f → t.con x = s.con x) ∧
        ∃ D, t.con f = some D ∧ D.links = F.links ∧
          D.node.destroying = F.node.destroying ∧
          (F.node.dirty = true → D.node.dirty = true) ∧ D.scratchpad = F.scratchpad ∧
          D.pending.fullscreen_mode =
            if b then FULLSCREEN_NONE else F.pending.fullscreen_mode) := by
  by_cases h : b
  · simp only [h, if_true]
    have hm := hb h
    have hsp := (fullscreen_disable_spec hv ha hF (by rw [hm]; decide)).returns_with
      (fun fuel t ht => flagged_fullscreen_disable ht)
    refine hsp.returns_mono ?_
    rintro t ⟨hpost, hfl⟩
    refine ⟨hpost.soft.soft_sameTree, ?_, ?_⟩
    · intro x hx
      refine hpost.con_rest x ?_
      rintro (h1 | ⟨h1, -⟩)
      · exact hx h1
      · rw [hm] at h1; cases h1
    · obtain ⟨D, hD, hcore⟩ := hpost.soft.soft_con_some hF
      obtain ⟨D2, hD2, hfl2⟩ := hfl f F hF
      rw [hD] at hD2
      obtain rfl := Option.some.inj hD2
      refine ⟨D, hD, ?_, hfl2.1, hfl2.2, ?_, ?_⟩
      · have := congrArg sway_container.links hcore
        simpa [sway_container.links, sway_container.core, sway_container.gcore] using this
      · have := congrArg sway_container.scratchpad hcore
        simpa [sway_container.core, sway_container.gcore] using this
      · have := hpost.mode_self
        simpa [State.modeOf, hD] using this
  · simp only [h, if_false]
    exact Returns.of_some rfl ⟨SameTree.same_refl s, fun _ _ => rfl, F, hF, rfl, rfl, id, rfl, rfl⟩

theorem scratchpad_remove_if {s : State} {con : Nat} {D : sway_container}
    (hD : s.con con = some D) :
    ∃ t, (if D.scratchpad = true then root_scratchpad_remove_container s con else pure s)
        = some t ∧ SameTree s t ∧ (∀ x, x ≠ con → t.con x = s.con x) ∧
      t.con con = some { D with scratchpad := false } := by
  cases hs : D.scratchpad
  · refine ⟨s, by simp, SameTree.same_refl s, fun _ _ => rfl, ?_⟩
    rw [hD]
    congr 1
    cases D
    simp_all
  · simp only [if_true, root_scratchpad_remove_container, hD, Option.bind_eq_bind,
      Option.some_bind, sway_assert, hs, Bool.not_true, Bool.false_eq_true, if_false,
      modCon_some _ hD, Option.pure_def]
    have hst : SameTree s (s.updCon con (fun C => { C with scratchpad := false })) :=
      SameTree.same_updCon s con (fun _ => rfl)
    have hrest : ∀ x, x ≠ con →
        (s.updCon con (fun C => { C with scratchpad := false })).con x = s.con x := by
      intro x hx; simp [hx]
    have hself : (s.updCon con (fun C => { C with scratchpad := false })).con con =
        some { D with scratchpad := false } := by simp [hD]
    split
    · refine ⟨_, rfl, ?_, ?_, ?_⟩
      · refine hst.same_trans ⟨fun _ => rfl, fun _ => rfl, rfl, rfl, rfl⟩
      · exact hrest
      · exact hself
    · exact ⟨_, rfl, hst, hrest, hself⟩

theorem begin_destroy_steps {s : State} {con : Nat} {C : sway_container}
    (hv : Valid s) (ha : Acyclic s) (hC : s.con con = some C)
    (k : Nat → State → Option State) (Q : State → Prop)
    (hk : ∀ u D, PreDestroy s con C u → u.con con = some D →
      Returns (fun fuel => if D.pending.parent.isSome ∨ D.pending.workspace.isSome
        then k fuel u else pure u) Q) :
    Returns (fun fuel => do
      let C ← s.con con
      let s := if C.view.isSome then ipc_event_window s con "close" else s
      let s ← (match C.pending.workspace with
        | some w =>
          if C.pending.fullscreen_mode = FULLSCREEN_WORKSPACE then
            s.modWs w (fun W => { W with fullscreen := none })
          else pure s
        | none => pure s)
      let s ←
        (if C.scratchpad ∧ C.pending.fullscreen_mode = FULLSCREEN_GLOBAL then
          container_fullscreen_disable fuel s con
        else pure s)
      let s := s.emit (.node_destroy_signal con)
      let s := container_end_mouse_operation s con
      let s ← s.modCon con (fun C => { C with
        node := node_set_dirty { C.node with destroying := true } })
      let C ← s.con con
      let s ← (if C.scratchpad then root_scratchpad_remove_container s con else pure s)
      let C ← s.con con
      let s ←
        (if C.pending.fullscreen_mode = FULLSCREEN_GLOBAL then
          container_fullscreen_disable fuel s con
        else pure s)
      let C ← s.con con
      if C.pending.parent.isSome ∨ C.pending.workspace.isSome then
        k fuel s
      else pure s) Q := by
  simp only [hC, Option.bind_eq_bind, Option.some_bind]
  -- the close event and the workspace back-reference
  have h1 : ∃ s1, (match C.pending.workspace with
        | some w =>
          if C.pending.fullscreen_mode = FULLSCREEN_WORKSPACE then
            (if C.view.isSome = true then ipc_event_window s con "close" else s).modWs w
              (fun W => { W with fullscreen := none })
          else pure (if C.view.isSome = true then ipc_event_window s con "close" else s)
        | none => pure (if C.view.isSome = true then ipc_event_window s con "close" else s))
        = some s1 ∧ SameTree s s1 ∧ ∀ x, s1.con x = s.con x := by
    have h0 : SameTree s (if C.view.isSome = true then ipc_event_window s con "close" else s) ∧
        ∀ x, (if C.view.isSome = true then ipc_event_window s con "close" else s).con x
          = s.con x := by
      split
      · exact ⟨SameTree.same_emit _ _, fun _ => rfl⟩
      · exact ⟨SameTree.same_refl _, fun _ => rfl⟩
    generalize (if C.view.isSome = true then ipc_event_window s con "close" else s) = s0 at h0 ⊢
    obtain ⟨ht0, hc0⟩ := h0
    cases hw : C.pending.workspace with
    | none => exact ⟨s0, rfl, ht0, hc0⟩
    | some w =>
      by_cases hm : C.pending.fullscreen_mode = FULLSCREEN_WORKSPACE
      · simp only [hm, if_true]
        have hwl : (s0.ws w).isSome := by
          rw [ht0.same_wlive]
          exact hv.ws con w (by simp [State.wsOf, hC, hw])
        obtain ⟨W, hW⟩ := Option.isSome_iff_exists.mp hwl
        refine ⟨_, modWs_some _ hW, ht0.same_trans (SameTree.same_updWs s0 w (fun _ => rfl)),
          fun x => by simp [hc0]⟩
      · simp only [hm, if_false]
        exact ⟨s0, rfl, ht0, hc0⟩
  obtain ⟨s1, hs1, ht1, hc1⟩ := h1
  refine Returns.bind_some hs1 ?_
  have hC1 : s1.con con = some C := by rw [hc1]; exact hC
  have ha1 : Acyclic s1 := by
    obtain ⟨r, K, hK, hr⟩ := ha
    exact ⟨r, K, hK, ht1.same_rank hr⟩
  refine Returns.bind (disable_if_global (ht1.same_valid hv) ha1 hC1 _ (fun h => h.2)) ?_
  rintro s2 ⟨ht2, hr2, D2, hD2, hl2, hd2, -, hsc2, hm2⟩
  -- the flags
  have hD2e : ((s2.emit (.node_destroy_signal con)).emit (.end_mouse_operation con)).con con
      = some D2 := hD2
  simp only [container_end_mouse_operation, modCon_some _ hD2e, Option.some_bind]
  have hself3 : (((s2.emit (.node_destroy_signal con)).emit (.end_mouse_operation con)).updCon
      con (fun C => { C with node := node_set_dirty { C.node with destroying := true } })).con
      con = some { D2 with node := node_set_dirty { D2.node with destroying := true } } := by
    simp [hD2]
  have ht3 : SameTree s2 (((s2.emit (.node_destroy_signal con)).emit
      (.end_mouse_operation con)).updCon con
      (fun C => { C with node := node_set_dirty { C.node with destroying := true } })) :=
    ((SameTree.same_emit _ _).same_trans (SameTree.same_emit _ _)).same_trans
      (SameTree.same_updCon _ con (fun _ => rfl))
  have hr3 : ∀ x, x ≠ con → (((s2.emit (.node_destroy_signal con)).emit
      (.end_mouse_operation con)).updCon con
      (fun C => { C with node := node_set_dirty { C.node with destroying := true } })).con x
      = s2.con x := by
    intro x hx; simp [hx]
  generalize (((s2.emit (.node_destroy_signal con)).emit (.end_mouse_operation con)).updCon
      con (fun C => { C with node := node_set_dirty { C.node with destroying := true } }))
      = s3 at hself3 ht3 hr3 ⊢
  simp only [hself3, Option.some_bind]
  -- the scratchpad
  obtain ⟨s4, hs4, ht4, hr4, hself4⟩ := scratchpad_remove_if hself3
  refine Returns.bind_some hs4 ?_
  simp only [hself4, Option.some_bind]
  have hts4 : SameTree s s4 := ht1.same_trans (ht2.same_trans (ht3.same_trans ht4))
  have ha4 : Acyclic s4 := by
    obtain ⟨r, K, hK, hr⟩ := ha
    exact ⟨r, K, hK, hts4.same_rank hr⟩
  refine Returns.bind (disable_if_global (hts4.same_valid hv) ha4 hself4 _ (fun h => h)) ?_
  rintro s5 ⟨ht5, hr5, D5, hD5, hl5, hd5, hdirty5, hsc5, hm5⟩
  simp only [hD5, Option.some_bind]
  refine hk s5 D5 ⟨hts4.same_trans ht5, ?_, D5, hD5, ?_, ?_, ?_, ?_, ?_, ?_⟩ hD5
  · intro x hx
    rw [hr5 x hx, hr4 x hx, hr3 x hx, hr2 x hx, hc1]
  · rw [hl5]
    exact hl2
  · rw [hd5]; rfl
  · exact hdirty5 rfl
  · rw [hsc5]
  · rw [hm5]
    split
    · decide
    · assumption
  · intro h
    rw [hm5] at h
    split at h
    · cases h
    · simp only at h
      rw [hm2] at h
      split at h
      · cases h
      · exact h

theorem relinked_links {C D : sway_container} (h : Relinked C D) :
    D.view = C.view ∧ D.scratchpad = C.scratchpad ∧
    D.node.destroying = C.node.destroying ∧
    D.pending.fullscreen_mode = C.pending.fullscreen_mode ∧
    D.pending.layout = C.pending.layout :=
  ⟨congrArg (fun X => X.view) h.1, congrArg (fun X => X.scratchpad) h.1,
   congrArg (fun X => X.node.destroying) h.1,
   congrArg (fun X => X.pending.fullscreen_mode) h.1,
   congrArg (fun X => X.pending.layout) h.1⟩

theorem begin_destroy_spec {s : State} {con : Nat} {C : sway_container} (r : Nat → Nat)
    (K : Nat) (hv : Valid s) (hl : Linked s) (hr : ∀ p c, c ∈ s.kids p → r c < r p)
    (hK : ∀ x, r x ≤ K) (hC : s.con con = some C)
    (hmode : C.pending.fullscreen_mode = FULLSCREEN_WORKSPACE → C.pending.parent.isSome →
      C.pending.workspace.isSome) :
    Returns (fun fuel => container_begin_destroy fuel s con) (BeginDestroyPost s con) := by
  refine Returns.congr (fun fuel => rfl)
    (begin_destroy_steps hv ⟨r, K, hK, hr⟩ hC (fun fuel u => container_detach fuel u con)
      (BeginDestroyPost s con) ?_)
  rintro u D ⟨htree, hrest, D0, hD0, hlinks, hdes, hdirty, hsc, hmg, hmw⟩ hD
  rw [hD0] at hD
  obtain rfl := Option.some.inj hD
  simp only [sway_container.links, Prod.mk.injEq] at hlinks
  obtain ⟨hview, hpar, hws, hch⟩ := hlinks
  have hpo : u.parentOf con = s.parentOf con := htree.same_parentOf con
  have hspar : s.parentOf con = C.pending.parent := by simp [State.parentOf, hC]
  have hsws : s.wsOf con = C.pending.workspace := by simp [State.wsOf, hC]
  by_cases hatt : D0.pending.parent.isSome ∨ D0.pending.workspace.isSome
  · simp only [hatt, if_true]
    have hvu := htree.same_valid hv
    have hlu := htree.same_linked hl
    have hdet := (detach_spec r K hvu hlu (htree.same_rank hr) hK hD0
      (hatt.elim Or.inl (fun h => Or.inr (Or.inl h)))
      (fun hm => by
        rcases hatt with h | h
        · rw [hws]; exact hmode (hmw hm) (by rw [← hpar]; exact h)
        · exact h)).returns_with (fun fuel t ht => relinked_detach ht)
    refine hdet.returns_mono ?_
    rintro t ⟨hpost, hrel⟩
    refine ⟨hpost.detach_valid hvu, hpost.detach_linked hlu, ?_, ?_, ?_, ?_, ?_, ?_, ?_, ?_,
      ?_, ?_⟩
    · intro x; rw [hpost.unlinked.skel.live, htree.same_live]
    · intro w; rw [hpost.unlinked.skel.wlive, htree.same_wlive]
    · intro x; rw [hpost.parentOf]
      split
      · rfl
      · exact htree.same_parentOf x
    · intro x
      rw [hpost.unlinked.childrenOf, htree.same_childrenOf, hpo]
    · intro w
      rw [hpost.unlinked.tiling, hpo, htree.same_wsOf]
      have := htree.same_tiling w
      cases h1 : u.ws w <;> cases h2 : s.ws w <;> simp_all
    · intro w
      rw [hpost.unlinked.floating, hpo, htree.same_wsOf]
      have h3 := htree.same_tiling w
      have h4 := htree.same_floating w
      cases h1 : u.ws w <;> cases h2 : s.ws w <;> simp_all
    · exact hpost.ws_in con Relation.ReflTransGen.refl
    · intro x hx
      rw [hpost.ws_out x (by rw [htree.same_reach]; exact hx), htree.same_wsOf]
    · obtain ⟨D, hD, hR⟩ := hrel con D0 hD0
      obtain ⟨-, h2, h3, h4, -⟩ := relinked_links hR
      exact ⟨D, hD, by rw [h3]; exact hdes, hR.2 hdirty, by rw [h2]; exact hsc,
        by rw [h4]; exact hmg⟩
    · intro x X hx hX
      exact hrel x X (by rw [hrest x hx]; exact hX)
  · simp only [hatt, if_false]
    have hpn : D0.pending.parent = none := by
      cases h : D0.pending.parent with
      | none => rfl
      | some p => exact absurd (Or.inl (by rw [h]; rfl)) hatt
    have hwn : D0.pending.workspace = none := by
      cases h : D0.pending.workspace with
      | none => rfl
      | some p => exact absurd (Or.inr (by rw [h]; rfl)) hatt
    have hspn : s.parentOf con = none := by rw [hspar, ← hpar]; exact hpn
    have hswn : s.wsOf con = none := by rw [hsws, ← hws]; exact hwn
    refine Returns.of_some rfl ⟨htree.same_valid hv, htree.same_linked hl, htree.same_live,
      htree.same_wlive, ?_, ?_, ?_, ?_, ?_, ?_, ?_, ?_⟩
    · intro x
      rw [htree.same_parentOf]
      split
      · rename_i h; rw [h]; exact hspn
      · rfl
    · intro x
      rw [htree.same_childrenOf, hspn]
      cases s.childrenOf x <;> simp
    · intro w
      rw [htree.same_tiling, hswn]
      cases s.ws w <;> simp
    · intro w
      rw [htree.same_floating, hswn]
      cases s.ws w <;> simp
    · rw [htree.same_wsOf]; exact hswn
    · intro x _; exact htree.same_wsOf x
    · exact ⟨D0, hD0, hdes, hdirty, hsc, hmg⟩
    · intro x X hx hX
      exact ⟨X, by rw [hrest x hx]; exact hX, relinked_preorder.refl X⟩

theorem updCon_self {s : State} {c : Nat} {C : sway_container}
    {f : sway_container → sway_container} (h : s.con c = some C) (hf : f C = C) :
    s.updCon c f = s := by
  unfold State.updCon
  simp only [h, hf]
  have hlt := con_lt h
  have hget : s.containers[c] = some C := by
    unfold State.con at h
    rw [List.getD_eq_getElem _ _ hlt] at h
    exact h
  have : s.containers.set c (some C) = s.containers := by
    apply List.ext_getElem?
    intro i
    by_cases hi : c = i
    · subst hi
      simp [hlt, hget]
    · simp [List.getElem?_set, hi]
  simp only [this]

/-- A second `container_begin_destroy` on a container that is already marked
and unlinked only repeats the outbound notifications. -/
theorem begin_destroy_again (fuel : Nat) {t : State} {con : Nat} {D : sway_container}
    (hD : t.con con = some D) (h1 : D.node.destroying = true) (h2 : D.node.dirty = true)
    (h3 : D.scratchpad = false) (h4 : D.pending.fullscreen_mode ≠ FULLSCREEN_GLOBAL)
    (h5 : D.pending.parent = none) (h6 : D.pending.workspace = none) :
    container_begin_destroy fuel t con =
      some (((if D.view.isSome = true then ipc_event_window t con "close" else t).emit
        (.node_destroy_signal con)).emit (.end_mouse_operation con)) := by
  have hf : (fun C : sway_container =>
      ({ C with node := node_set_dirty { C.node with destroying := true } }
        : sway_container)) D = D := by
    obtain ⟨node, _⟩ := D
    obtain ⟨_, _, _⟩ := node
    simp_all [node_set_dirty]
  have h0 : ∃ t0, (if D.view.isSome = true then ipc_event_window t con "close" else t) = t0 ∧
      t0.con con = some D := by
    split
    · exact ⟨_, rfl, hD⟩
    · exact ⟨_, rfl, hD⟩
  obtain ⟨t0, ht0, hD0⟩ := h0
  have hD1 : ((t0.emit (.node_destroy_signal con)).emit (.end_mouse_operation con)).con con
      = some D := hD0
  have hupd := @updCon_self _ _ _ (fun C : sway_container =>
      ({ C with node := node_set_dirty { C.node with destroying := true } }
        : sway_container)) hD1 hf
  unfold container_begin_destroy
  simp only [hD, Option.bind_eq_bind, Option.some_bind, ht0, h6, h3, Option.pure_def,
    Bool.false_eq_true, false_and, if_false, container_end_mouse_operation,
    modCon_some _ hD1, hupd, hD1, h4, h5, Option.isSome_none, or_self]

/-- Destroying twice: in a well-formed state, calling
`container_begin_destroy(con)` twice returns and yields the state of a single call (containers with their links,
lists, modes and flags, workspaces with their lists and back-references, the
root's fullscreen container, the scratchpad list), the record of outbound
notifications apart; after the first call `con` is marked destroying and has
neither parent nor workspace.  A container in mode `FULLSCREEN_WORKSPACE` with
a parent is taken to have a workspace, which `container_detach` dereferences. -/
theorem begin_destroy_idempotent (s : State) (con : Nat) (C : sway_container)
    (hwf : TreeWF s) (ha : Acyclic s) (hC : s.con con = some C)
    (hmode : C.pending.fullscreen_mode = FULLSCREEN_WORKSPACE → C.pending.parent.isSome →
      C.pending.workspace.isSome) :
    Returns (fun fuel => (container_begin_destroy fuel s con).bind (fun t =>
        (container_begin_destroy fuel t con).map (fun u => (t, u))))
      (fun r => ({ r.2 with events := r.1.events } : State) = r.1 ∧
        ∃ D, r.1.con con = some D ∧ D.node.destroying = true ∧ D.node.dirty = true ∧
          D.pending.parent = none ∧ D.pending.workspace = none) := by
  obtain ⟨r, K, hK, hr⟩ := ha
  refine Returns.bind (begin_destroy_spec r K hwf.treewf_valid hwf.treewf_linked hr hK hC hmode)
    ?_
  intro t post
  obtain ⟨D, hD, h1, h2, h3, h4⟩ := post.self
  have h5 : D.pending.parent = none := by
    have := post.parentOf con
    simpa [State.parentOf, hD] using this
  have h6 : D.pending.workspace = none := by
    have := post.ws_self
    simpa [State.wsOf, hD] using this
  refine ⟨(t, ((if D.view.isSome = true then ipc_event_window t con "close" else t).emit
      (.node_destroy_signal con)).emit (.end_mouse_operation con)),
    ⟨?_, D, hD, h1, h2, h5, h6⟩, 0, fun fuel _ => ?_⟩
  · show ({ ((if D.view.isSome = true then ipc_event_window t con "close" else t).emit
      (.node_destroy_signal con)).emit (.end_mouse_operation con) with events := t.events }
      : State) = t
    split <;> rfl
  · show (container_begin_destroy fuel t con).map (fun u => (t, u)) = _
    rw [begin_destroy_again fuel hD h1 h2 h3 h4 h5 h6]
    rfl

theorem begin_destroy_idempotent_witness :
    Returns (fun fuel => (container_begin_destroy fuel two_fullscreen_state 1).bind (fun t =>
        (container_begin_destroy fuel t 1).map (fun u => (t, u))))
      (fun r => ({ r.2 with events := r.1.events } : State) = r.1 ∧
        ∃ D, r.1.con 1 = some D ∧ D.node.destroying = true ∧ D.node.dirty = true ∧
          D.pending.parent = none ∧ D.pending.workspace = none) :=
  begin_destroy_idempotent two_fullscreen_state 1
    { view := some 0,
      pending := { parent := some 0, workspace := some 0,
                   fullscreen_mode := FULLSCREEN_WORKSPACE } }
    (by decide) two_fullscreen_state_acyclic rfl (fun _ _ => rfl)

theorem reach_childless {s : State} {c x : Nat} (hk : s.kids c = []) (h : Reach s c x) :
    x = c := by
  rcases Relation.ReflTransGen.cases_head h with h | ⟨y, hy, -⟩
  · exact h.symm
  · rw [hk] at hy; cases hy

/-- The containers other than a destroyed childless container keep their
record, up to title and dirty flag; only the parent's children list loses the
destroyed container. -/
theorem begin_destroy_childless {s t : State} {c : Nat} (hk : s.kids c = [])
    (post : BeginDestroyPost s c t) :
    ∀ x X, x ≠ c → s.con x = some X → ∃ X', t.con x = some X' ∧ Relinked X X' ∧
      X'.pending.parent = X.pending.parent ∧ X'.pending.workspace = X.pending.workspace ∧
      X'.pending.children =
        if s.parentOf c = some x then X.pending.children.map (fun l => l.erase c)
        else X.pending.children := by
  intro x X hx hX
  obtain ⟨X', hX', hrel⟩ := post.others x X hx hX
  refine ⟨X', hX', hrel, ?_, ?_, ?_⟩
  · have := post.parentOf x
    simpa [State.parentOf, hX, hX', hx] using this
  · have := post.ws_out x (fun h => hx (reach_childless hk h))
    simpa [State.wsOf, hX, hX'] using this
  · have := post.childrenOf x
    simp only [State.childrenOf, hX, hX', Option.some_bind] at this
    rw [this]
    split
    · rfl
    · cases X.pending.children <;> rfl

theorem begin_destroy_gone {s t : State} {c : Nat} (post : BeginDestroyPost s c t) :
    ∃ D, t.con c = some D ∧ D.node.destroying = true ∧
      D.pending.parent = none ∧ D.pending.workspace = none := by
  obtain ⟨D, hD, h1, -, -, -⟩ := post.self
  refine ⟨D, hD, h1, ?_, ?_⟩
  · have := post.parentOf c
    simpa [State.parentOf, hD] using this
  · have := post.ws_self
    simpa [State.wsOf, hD] using this

theorem begin_destroy_lists {s t : State} {c : Nat}
    (post : BeginDestroyPost s c t) (w : Nat) :
    (t.ws w).map (fun W => (W.tiling, W.floating)) = (s.ws w).map (fun W =>
      if s.parentOf c = none ∧ s.wsOf c = some w then
        (W.tiling.erase c, if c ∈ W.tiling then W.floating else W.floating.erase c)
      else (W.tiling, W.floating)) := by
  have h1 := post.tiling w
  have h2 := post.floating w
  cases hs : s.ws w with
  | none =>
    have := post.wlive w
    cases ht : t.ws w with
    | none => rfl
    | some T => simp [hs, ht] at this
  | some W =>
    cases ht : t.ws w with
    | none =>
      have := post.wlive w
      simp [hs, ht] at this
    | some T =>
      simp only [hs, ht, Option.map_some', Option.some.injEq] at h1 h2 ⊢
      rw [h1, h2]
      by_cases hc : s.parentOf c = none ∧ s.wsOf c = some w
      · simp only [hc, and_self, if_true, true_and]
        by_cases hm : c ∈ W.tiling
        · simp [hm]
        · simp [hm]
      · have hc2 : ¬ (s.parentOf c = none ∧ s.wsOf c = some w ∧ c ∉ W.tiling) :=
          fun h => hc ⟨h.1, h.2.1⟩
        simp only [hc, hc2, if_false]

theorem begin_destroy_fullscreen_on_workspace {s t : State} {c : Nat} (hk : s.kids c = [])
    (post : BeginDestroyPost s c t) (hf : FullscreenOnWorkspace s) :
    FullscreenOnWorkspace t := by
  intro x X' hX' hm hp
  by_cases hx : x = c
  · subst hx
    obtain ⟨D, hD, -, h1, -⟩ := begin_destroy_gone post
    rw [hX'] at hD
    obtain rfl := Option.some.inj hD
    rw [h1] at hp
    cases hp
  · have hlive : (s.con x).isSome := by rw [← post.live, hX']; rfl
    obtain ⟨X, hX⟩ := Option.isSome_iff_exists.mp hlive
    obtain ⟨X2, hX2, hrel, h1, h2, -⟩ := begin_destroy_childless hk post x X hx hX
    rw [hX'] at hX2
    obtain rfl := Option.some.inj hX2
    rw [h2]
    exact hf x X hX (by rw [← (relinked_links hrel).2.2.2.1]; exact hm) (by rw [← h1]; exact hp)

theorem erase_eq_nil {l : List Nat} {c : Nat} (hc : c ∈ l) (hn : l.Nodup)
    (he : l.erase c = []) : l = [c] := by
  cases l with
  | nil => cases hc
  | cons a l =>
    by_cases hac : a = c
    · subst hac
      simp only [List.erase_cons_head] at he
      rw [he]
    · rw [List.erase_cons_tail (by simpa using hac)] at he
      cases he

theorem reap_empty_loop_none (fuel : Nat) (s : State) :
    container_reap_empty_loop fuel s none = some (s, true) := by
  cases fuel <;> rfl

theorem reap_empty_loop_spec (r : Nat → Nat) (K : Nat) (hK : ∀ x, r x ≤ K) :
    ∀ n (s : State) (c : Nat), Valid s → Linked s → (∀ p c, c ∈ s.kids p → r c < r p) →
      (∀ a X, Up s c a → s.con a = some X →
        X.pending.fullscreen_mode = FULLSCREEN_WORKSPACE → X.pending.parent.isSome →
        X.pending.workspace.isSome) →
      K - r c < n → s.childrenOf c = some [] →
      Returns (fun fuel => container_reap_empty_loop fuel s (some c)) (fun res =>
        ∃ ds z, ReapPost s c ds z res.1 ∧ res.2 = (s.parentOf z).isNone) := by
  intro n
  induction n with
  | zero => intro s c _ _ _ _ hlt; omega
  | succ n ih =>
    intro s c hv hl hr hf hlt hch
    obtain ⟨C, hC, hCch⟩ : ∃ C, s.con c = some C ∧ C.pending.children = some [] := by
      cases hC : s.con c with
      | none => simp [State.childrenOf, hC] at hch
      | some C => exact ⟨C, rfl, by simpa [State.childrenOf, hC] using hch⟩
    have hk : s.kids c = [] := by simp [State.kids, hch]
    refine Returns.succ (fun fuel => rfl) ?_
    simp only [container_reap_empty_loop, hC, hCch, Option.bind_eq_bind, Option.some_bind,
      List.length_nil, ne_eq,
      not_true_eq_false, if_false]
    refine Returns.bind (begin_destroy_spec r K hv hl hr hK hC
      (hf c C Relation.ReflTransGen.refl hC)) ?_
    intro s1 post
    have hspar : s.parentOf c = C.pending.parent := by simp [State.parentOf, hC]
    have hkept := begin_destroy_childless hk post
    have hgone := begin_destroy_gone post
    have hlists := begin_destroy_lists post
    have hsub : ∀ p y, y ∈ s1.kids p → y ∈ s.kids p := by
      intro p y hy
      unfold State.kids at hy ⊢
      rw [post.childrenOf] at hy
      cases hx : s.childrenOf p with
      | none => simp [hx] at hy
      | some l =>
        simp only [hx, Option.map_some', Option.getD_some] at hy ⊢
        split at hy
        · exact List.mem_of_mem_erase hy
        · exact hy
    cases hp : C.pending.parent with
    | none =>
      rw [hp] at hspar
      refine Returns.congr (fun fuel => reap_empty_loop_none fuel s1) ?_
      refine Returns.of_some rfl
        ⟨[c], c, ⟨post.valid, post.linked, rfl, rfl, List.chain'_singleton c, ?_, ?_, ?_, ?_, ?_⟩,
          by simp [hspar]⟩
      · intro d hd hne
        simp only [List.mem_singleton] at hd
        exact absurd hd hne
      · intro p h; rw [hspar] at h; cases h
      · intro d hd
        simp only [List.mem_singleton] at hd
        subst hd
        exact hgone
      · intro x X hx hX
        simp only [List.mem_singleton] at hx
        exact hkept x X hx hX
      · exact hlists
    | some p =>
      rw [hp] at hspar
      have hcp : c ∈ s.kids p := hl.parent_kids c p hspar
      have hplive := hv.parent c p hspar
      obtain ⟨P, hP⟩ := Option.isSome_iff_exists.mp hplive
      obtain ⟨l, hPl⟩ : ∃ l, P.pending.children = some l := by
        cases h : P.pending.children with
        | none => simp [State.kids, State.childrenOf, hP, h] at hcp
        | some l => exact ⟨l, rfl⟩
      have hkp : s.kids p = l := by simp [State.kids, State.childrenOf, hP, hPl]
      have hpc : p ≠ c := by
        intro h
        have := hr p c hcp
        rw [h] at this
        omega
      obtain ⟨P1, hP1, -, -, -, hP1ch⟩ := hkept p P hpc hP
      simp only [hspar, if_true, hPl, Option.map_some'] at hP1ch
      have hk1 : s1.kids p = l.erase c := by
        simp [State.kids, State.childrenOf, hP1, hP1ch]
      by_cases hnil : l.erase c = []
      · -- the parent became childless: the walk goes on
        have hl1 : l = [c] := erase_eq_nil (by rw [← hkp]; exact hcp)
          (by rw [← hkp]; exact hl.kids_nodup p) hnil
        have hup1 : ∀ a, Up s1 p a → Up s p a := by
          intro a ha
          induction ha with
          | refl => exact Relation.ReflTransGen.refl
          | @tail x q _ hstep ih2 =>
            have hxc : x ≠ c := by
              rintro rfl
              rw [post.parentOf, if_pos rfl] at hstep
              cases hstep
            rw [post.parentOf, if_neg hxc] at hstep
            exact Relation.ReflTransGen.tail ih2 hstep
        have hf1 : ∀ a X, Up s1 p a → s1.con a = some X →
            X.pending.fullscreen_mode = FULLSCREEN_WORKSPACE → X.pending.parent.isSome →
            X.pending.workspace.isSome := by
          intro a X1 ha hX1 hm hpp
          have has := hup1 a ha
          have hac : a ≠ c := by
            rintro rfl
            have h1 := Up.up_rank_le (fun x q hx => hr q x (hl.parent_kids x q hx)) has
            have h2 := hr p a hcp
            omega
          have hlive : (s.con a).isSome := by rw [← post.live, hX1]; rfl
          obtain ⟨X, hX⟩ := Option.isSome_iff_exists.mp hlive
          obtain ⟨X2, hX2, hrel, h1, h2, -⟩ := hkept a X hac hX
          rw [hX1] at hX2
          obtain rfl := Option.some.inj hX2
          rw [h2]
          exact hf a X (Relation.ReflTransGen.head hspar has) hX
            (by rw [← (relinked_links hrel).2.2.2.1]; exact hm) (by rw [← h1]; exact hpp)
        have hrec := ih s1 p post.valid post.linked (fun q y hy => hr q y (hsub q y hy))
          hf1
          (by have := hr p c hcp; have := hK p; omega)
          (by simp [State.childrenOf, hP1, hP1ch, hnil])
        refine hrec.returns_mono ?_
        rintro res ⟨ds, z, rp, hfin⟩
        have hcds : c ∉ ds := by
          intro hmem
          have := rp.inner c hmem (fun h => hpc h.symm)
          apply this
          unfold State.kids
          rw [post.childrenOf, hch]
          simp
        have hzds : z ∈ ds := List.mem_of_mem_getLast? rp.last
        have hzc : z ≠ c := fun h => hcds (h ▸ hzds)
        have hparz : s1.parentOf z = s.parentOf z := by
          rw [post.parentOf, if_neg hzc]
        have hkids_ne : ∀ e, e ≠ p → s1.kids e = s.kids e := by
          intro e he
          unfold State.kids
          rw [post.childrenOf, hspar]
          have : ¬ (some p = some e) := fun h => he (Option.some.inj h).symm
          simp only [this, if_false]
          cases s.childrenOf e <;> rfl
        obtain ⟨ds1, hds1⟩ : ∃ ds1, ds = p :: ds1 := by
          cases ds with
          | nil => have := rp.head; simp at this
          | cons a ds1 =>
            have := rp.head
            simp only [List.head?_cons, Option.some.injEq] at this
            exact ⟨ds1, by rw [this]⟩
        refine ⟨c :: ds, z, ⟨rp.valid, rp.linked, rfl, ?_, ?_, ?_, ?_, ?_, ?_, ?_⟩, ?_⟩
        · rw [hds1, List.getLast?_cons_cons, ← hds1]
          exact rp.last
        · rw [hds1, List.chain'_cons, ← hds1]
          refine ⟨⟨hspar, by rw [hkp, hl1]⟩, ?_⟩
          refine rp.chain.imp ?_
          rintro d e ⟨h1, h2⟩
          have hdc : d ≠ c := by
            rintro rfl
            rw [post.parentOf, if_pos rfl] at h1
            cases h1
          have hep : e ≠ p := by
            rintro rfl
            rw [hk1, hnil] at h2
            cases h2
          refine ⟨?_, ?_⟩
          · rw [post.parentOf, if_neg hdc] at h1
            exact h1
          · rw [← hkids_ne e hep]
            exact h2
        · intro d hd hne
          rcases List.mem_cons.mp hd with h | h
          · exact absurd h hne
          · by_cases hdp : d = p
            · subst hdp
              rw [hkp, hl1]
              simp
            · rw [← hkids_ne d hdp]
              exact rp.inner d h hdp
        · intro q hq
          rw [← hparz] at hq
          have h1 := rp.stop q hq
          by_cases hqp : q = p
          · subst hqp
            rw [hkp, hl1]
            intro h
            simp only [List.cons.injEq, and_true] at h
            exact hzc h.symm
          · rw [← hkids_ne q hqp]
            exact h1
        · intro d hd
          rcases List.mem_cons.mp hd with h | h
          · subst h
            obtain ⟨D, hD, h1, h2, h3⟩ := hgone
            obtain ⟨D', hD', hrel, h4, h5, -⟩ := rp.kept d D hcds hD
            exact ⟨D', hD', by rw [(relinked_links hrel).2.2.1]; exact h1,
              by rw [h4]; exact h2, by rw [h5]; exact h3⟩
          · exact rp.gone d h
        · intro x X hx hX
          have hxc : x ≠ c := fun h => hx (h ▸ List.mem_cons_self _ _)
          have hxds : x ∉ ds := fun h => hx (List.mem_cons_of_mem _ h)
          have hxp : x ≠ p := by
            intro h
            apply hxds
            rw [h, hds1]
            exact List.mem_cons_self _ _
          obtain ⟨X1, hX1, hrel1, h1, h2, h3⟩ := hkept x X hxc hX
          have : ¬ (some p = some x) := fun h => hxp (Option.some.inj h).symm
          simp only [hspar, this, if_false] at h3
          obtain ⟨X', hX', hrel2, h4, h5, h6⟩ := rp.kept x X1 hxds hX1
          refine ⟨X', hX', relinked_preorder.trans _ _ _ hrel1 hrel2, by rw [h4, h1],
            by rw [h5, h2], ?_⟩
          rw [h6, hparz, h3]
        · intro w
          rw [rp.lists w]
          have h1 := hlists w
          have h2 : s1.wsOf z = s.wsOf z :=
            post.ws_out z (fun h => hzc (reach_childless hk h))
          rw [hparz, h2]
          have hne : ¬ (s.parentOf c = none ∧ s.wsOf c = some w) := by
            rw [hspar]; rintro ⟨h, -⟩; cases h
          simp only [hne, if_false] at h1
          cases hs : s.ws w with
          | none =>
            cases ht : s1.ws w with
            | none => rfl
            | some T => simp [hs, ht] at h1
          | some W =>
            cases ht : s1.ws w with
            | none => simp [hs, ht] at h1
            | some T =>
              simp only [hs, ht, Option.map_some', Option.some.injEq, Prod.mk.injEq] at h1 ⊢
              rw [h1.1, h1.2]
        · rw [hfin, hparz]
      · -- the parent still has a child: the walk stops
        have hlen : (l.erase c).length ≠ 0 := by
          intro h
          exact hnil (List.length_eq_zero.mp h)
        refine @Returns.succ _ (fun fuel => container_reap_empty_loop fuel s1 (some p))
          (fun _ => some (s1, false)) _ (fun fuel => ?_) ?_
        · simp only [container_reap_empty_loop, hP1, hP1ch, Option.bind_eq_bind,
            Option.some_bind, ne_eq, hlen, not_false_eq_true, if_true, Option.pure_def]
        refine Returns.of_some rfl ⟨[c], c,
          ⟨post.valid, post.linked, rfl, rfl, List.chain'_singleton c, ?_, ?_, ?_, ?_, ?_⟩,
          by simp [hspar]⟩
        · intro d hd hne
          simp only [List.mem_singleton] at hd
          exact absurd hd hne
        · intro q h
          rw [hspar] at h
          obtain rfl := Option.some.inj h
          rw [hkp]
          intro h2
          rw [h2] at hnil
          simp at hnil
        · intro d hd
          simp only [List.mem_singleton] at hd
          subst hd
          exact hgone
        · intro x X hx hX
          simp only [List.mem_singleton] at hx
          exact hkept x X hx hX
        · exact hlists

theorem ReapPost.reap_emit {s t : State} {con z : Nat} {ds : List Nat}
    (h : ReapPost s con ds z t) (e : Event) : ReapPost s con ds z (t.emit e) :=
  { h with
    valid := (SameTree.same_emit t e).same_valid h.valid
    linked := (SameTree.same_emit t e).same_linked h.linked }

theorem nested_squash_state_acyclic : Acyclic nested_squash_state := by
  refine acyclic_of_ids _ (fun x => 4 - x) 4 ?_ (by decide)
  intro x
  show 4 - x ≤ 4
  omega

theorem nested_squash_state_fullscreen_on_workspace :
    FullscreenOnWorkspace nested_squash_state := by
  intro x X hX hm
  have hlt := con_lt hX
  have h5 : x < 5 := hlt
  interval_cases x <;>
    (simp only [State.con, nested_squash_state, split, leaf, List.getD_cons_zero,
      List.getD_cons_succ, Option.some.injEq] at hX
     subst hX
     cases hm)

/-- The state reached by the walk and the flag of `container_reap_empty_loop`
determine the result of `container_reap_empty`. -/
theorem reap_empty_of_loop {s u : State} {con : Nat} {C : sway_container} {fin : Bool}
    (hC : s.con con = some C) (hview : C.view = none)
    (h : Returns (fun fuel => container_reap_empty_loop fuel s (some con))
      (fun res => res = (u, fin))) :
    Returns (fun fuel => container_reap_empty fuel s con) (fun t =>
      t = if fin = true then
          (match C.pending.workspace with
            | some w => workspace_consider_destroy u w
            | none => u)
        else u) := by
  unfold container_reap_empty
  simp only [hC, Option.bind_eq_bind, Option.some_bind, hview, Option.isSome_none,
    Bool.false_eq_true, if_false]
  refine Returns.bind h ?_
  rintro res rfl
  cases fin
  · exact Returns.of_some rfl rfl
  · cases hw : C.pending.workspace with
    | none => exact Returns.of_some rfl rfl
    | some w => exact Returns.of_some rfl rfl

/-- The result of `container_reap_empty`: the walk on a childless split
container, no change otherwise. -/
theorem reap_empty_spec (r : Nat → Nat) (K : Nat) (hK : ∀ x, r x ≤ K) {s : State} {con : Nat}
    {C : sway_container} (hv : Valid s) (hl : Linked s)
    (hr : ∀ p c, c ∈ s.kids p → r c < r p)
    (hf : ∀ a X, Up s con a → s.con a = some X →
      X.pending.fullscreen_mode = FULLSCREEN_WORKSPACE → X.pending.parent.isSome →
      X.pending.workspace.isSome)
    (hC : s.con con = some C) :
    Returns (fun fuel => container_reap_empty fuel s con) (fun t =>
      if C.view = none ∧ C.pending.children = some [] then ∃ ds z, ReapPost s con ds z t
      else t = s) := by
  by_cases hcase : C.view = none ∧ C.pending.children = some []
  · simp only [hcase, and_self, if_true]
    obtain ⟨hview, hch⟩ := hcase
    have hloop := reap_empty_loop_spec r K hK (K - r con + 1) s con hv hl hr hf (by omega)
      (by simp [State.childrenOf, hC, hch])
    obtain ⟨res, ⟨ds, z, rp, hfin⟩, N, hN⟩ := hloop
    have h2 := @reap_empty_of_loop s res.1 con C res.2 hC hview ⟨res, rfl, N, hN⟩
    refine h2.returns_mono ?_
    rintro t rfl
    refine ⟨ds, z, ?_⟩
    split
    · split
      · exact rp.reap_emit _
      · exact rp
    · exact rp
  · simp only [hcase, if_false]
    unfold container_reap_empty
    simp only [hC, Option.bind_eq_bind, Option.some_bind, Option.pure_def]
    cases hview : C.view with
    | some v => exact Returns.of_some (by simp) rfl
    | none =>
      obtain ⟨l, hl2⟩ := Option.isSome_iff_exists.mp (hv.split con C hC hview)
      have hne : l ≠ [] := by
        rintro rfl
        exact hcase ⟨hview, hl2⟩
      have hlen : l.length ≠ 0 := fun h => hne (List.length_eq_zero.mp h)
      simp only [Option.isSome_none, Bool.false_eq_true, if_false]
      refine @Returns.succ _ _ (fun _ => some s) _ (fun fuel => ?_) (Returns.of_some rfl rfl)
      simp only [container_reap_empty_loop, hC, hl2, Option.bind_eq_bind, Option.some_bind,
        ne_eq, hlen, not_false_eq_true, if_true, Option.pure_def, Bool.not_false]

/-- The destroyed containers are `con` and ancestors of `con`. -/
theorem ReapPost.reap_rank {s t : State} {con z : Nat} {ds : List Nat}
    (h : ReapPost s con ds z t) {r : Nat → Nat} (hr : ∀ p c, c ∈ s.kids p → r c < r p) :
    ∀ d ∈ ds, r con ≤ r d := by
  have key : ∀ (l : List Nat) (a : Nat),
      List.Chain' (fun d e => s.parentOf d = some e ∧ s.kids e = [d]) (a :: l) →
      ∀ d ∈ a :: l, r a ≤ r d := by
    intro l
    induction l with
    | nil =>
      intro a _ d hd
      simp only [List.mem_singleton] at hd
      rw [hd]
    | cons b l ih =>
      intro a hc d hd
      rw [List.chain'_cons] at hc
      rcases List.mem_cons.mp hd with rfl | hd
      · exact Nat.le_refl _
      · have h1 : r a < r b := hr b a (by rw [hc.1.2]; exact List.mem_singleton_self a)
        have h2 := ih b hc.2 d hd
        omega
  cases hds : ds with
  | nil =>
    intro d hd
    cases hd
  | cons a l =>
    have hh := h.head
    rw [hds] at hh
    simp only [List.head?_cons, Option.some.injEq] at hh
    subst hh
    have hc := h.chain
    rw [hds] at hc
    exact key l a hc

/-- In `nested_squash_state` the childless split container 3 is on workspace
0.  `container_reap_empty(3)` destroys the containers 3, 2 and 1 and stops at
container 0, which still has the child 4; it returns without a call of
`workspace_consider_destroy`. -/
theorem reap_empty_stops_without_cleanup :
    nested_squash_state.wsOf 3 = some 0 ∧ nested_squash_state.viewOf 3 = none ∧
    nested_squash_state.childrenOf 3 = some [] ∧
    ∃ t ∈ container_reap_empty 8 nested_squash_state 3,
      t.kids 0 = [4] ∧ Event.workspace_consider_destroy 0 ∉ t.events := by
  decide

/-- C19, amended: in a well-formed state, for a childless split container `con`
on workspace `w`, `container_reap_empty(con)` returns; when the walk reached
the top of the tree (the last destroyed container `z` has no parent) it
requests `workspace_consider_destroy(w)` after the walk, and when the walk
stopped at an ancestor that still has children it returns the state of the
walk without that request. -/
theorem reap_empty_cleanup_when_top_reached (s : State) (con w : Nat) (C : sway_container)
    (hwf : TreeWF s) (ha : Acyclic s) (hf : FullscreenOnWorkspace s)
    (hC : s.con con = some C) (hview : C.view = none)
    (hch : C.pending.children = some []) (hw : C.pending.workspace = some w) :
    ∃ u ds z, ReapPost s con ds z u ∧
      Returns (fun fuel => container_reap_empty_loop fuel s (some con))
        (fun res => res = (u, (s.parentOf z).isNone)) ∧
      Returns (fun fuel => container_reap_empty fuel s con) (fun t =>
        t = if (s.parentOf z).isNone = true then workspace_consider_destroy u w else u) := by
  obtain ⟨r, K, hK, hr⟩ := ha
  have hloop := reap_empty_loop_spec r K hK (K - r con + 1) s con hwf.treewf_valid
    hwf.treewf_linked hr (fun a X _ => hf a X) (by omega) (by simp [State.childrenOf, hC, hch])
  obtain ⟨res, ⟨ds, z, rp, hfin⟩, N, hN⟩ := hloop
  have h1 : Returns (fun fuel => container_reap_empty_loop fuel s (some con))
      (fun x => x = (res.1, (s.parentOf z).isNone)) :=
    ⟨res, by rw [← hfin], N, hN⟩
  refine ⟨res.1, ds, z, rp, h1, ?_⟩
  have h2 := reap_empty_of_loop hC hview h1
  simp only [hw] at h2
  exact h2

theorem reap_empty_cleanup_when_top_reached_witness :
    ∃ u ds z, ReapPost nested_squash_state 3 ds z u ∧
      Returns (fun fuel => container_reap_empty_loop fuel nested_squash_state (some 3))
        (fun res => res = (u, (nested_squash_state.parentOf z).isNone)) ∧
      Returns (fun fuel => container_reap_empty fuel nested_squash_state 3) (fun t =>
        t = if (nested_squash_state.parentOf z).isNone = true then
          workspace_consider_destroy u 0 else u) :=
  reap_empty_cleanup_when_top_reached nested_squash_state 3 0
    { pending := { layout := L_HORIZ, parent := some 2, workspace := some 0,
                   children := some [] } }
    (by decide) nested_squash_state_acyclic nested_squash_state_fullscreen_on_workspace rfl
    rfl rfl rfl

/-- C13: for a non-floating container `child` that is the only element of its
sibling list and whose parent layout is `L_HORIZ` or `L_VERT`,
`container_split(child, layout)` returns `child` itself, creates no container,
leaves every parent link, workspace link, children list, tiling list and
floating list unchanged, and sets the layout of the parent, or of the workspace
when there is no parent, to `layout`. -/
theorem split_relabels_single_child (seat : sway_seat) (s : State) (child : Nat)
    (layout cur : sway_container_layout) (C : sway_container) (r : SiblingList) (l : List Nat)
    (hwf : TreeWF s) (ha : Acyclic s) (hC : s.con child = some C)
    (hsib : container_get_siblings s child = some (some r)) (hl : s.readList r = some l)
    (hlen : l.length = 1) (hfl : container_is_floating s child = some false)
    (hcur : container_parent_layout s child = some cur)
    (hHV : cur = L_HORIZ ∨ cur = L_VERT) :
    Returns (fun fuel => container_split fuel seat s child layout) (fun res =>
      res.2 = child ∧ (∀ x, (res.1.con x).isSome = (s.con x).isSome) ∧
      (∀ x, res.1.parentOf x = s.parentOf x) ∧ (∀ x, res.1.wsOf x = s.wsOf x) ∧
      (∀ x, res.1.childrenOf x = s.childrenOf x) ∧
      (∀ w, (res.1.ws w).map (·.tiling) = (s.ws w).map (·.tiling)) ∧
      (∀ w, (res.1.ws w).map (·.floating) = (s.ws w).map (·.floating)) ∧
      (∀ p, C.pending.parent = some p → (res.1.con p).map (·.pending.layout) = some layout) ∧
      (∀ w, C.pending.parent = none → C.pending.workspace = some w →
        (res.1.ws w).map (·.layout) = some layout)) := by
  have hv := hwf.treewf_valid
  have hlk := hwf.treewf_linked
  obtain ⟨rk, K, hK, hrk⟩ := ha
  have hatt : C.pending.parent.isSome ∨ C.pending.workspace.isSome := by
    cases hp : C.pending.parent with
    | some p => exact Or.inl rfl
    | none =>
      cases hw : C.pending.workspace with
      | some w => exact Or.inr rfl
      | none =>
        exfalso
        simp only [container_get_siblings, container_is_scratchpad_hidden, hC, hp, hw,
          Option.bind_eq_bind, Option.some_bind, Option.pure_def, Option.isNone_none,
          Bool.and_true] at hsib
        cases hsc : C.scratchpad <;> simp [hsc] at hsib
  have key : Returns (fun fuel => container_split_relabel fuel s child layout) (fun o =>
      ∃ t, o = some t ∧ SameTree s t ∧
      (∀ p, C.pending.parent = some p → (t.con p).map (·.pending.layout) = some layout) ∧
      (∀ w, C.pending.parent = none → C.pending.workspace = some w →
        (t.ws w).map (·.layout) = some layout)) := by
    unfold container_split_relabel
    simp only [hC, hatt, hsib, hl, hlen, hcur, hfl, hHV, Option.bind_eq_bind, Option.some_bind,
      Option.pure_def, if_true, Bool.false_eq_true, if_false]
    cases hp : C.pending.parent with
    | some p =>
      have hpo : s.parentOf child = some p := by simp [State.parentOf, hC, hp]
      have hplive := hv.parent child p hpo
      obtain ⟨P, hP⟩ := Option.isSome_iff_exists.mp hplive
      have hst : SameTree s (s.updCon p (fun P => { P with
          pending := { P.pending with layout := layout } })) :=
        SameTree.same_updCon s p (fun _ => rfl)
      have hmod : s.modCon p (fun P => { P with
          pending := { P.pending with layout := layout } }) = some (s.updCon p (fun P => { P with
          pending := { P.pending with layout := layout } })) := by
        simp [State.modCon, hP]
      simp only [hmod, Option.some_bind]
      have hup := update_representation_spec rk K hK (K - rk p + 1) _ p (hst.same_valid hv)
        (fun x q hx => hrk q x (hlk.parent_kids x q (by rw [← hst.same_parentOf]; exact hx)))
        (by omega) (by rw [hst.same_live]; exact hplive)
      refine Returns.bind hup ?_
      intro t ht
      refine Returns.of_some rfl ⟨t, rfl, hst.same_trans ht.soft.soft_sameTree, ?_, ?_⟩
      · intro p2 hp2
        cases hp2
        have := ht.pending p
        simp only [con_updCon, if_true, hP, Option.map_some'] at this
        cases htp : t.con p with
        | none => simp [htp] at this
        | some T =>
          simp only [htp, Option.map_some', Option.some.injEq] at this
          simp [this]
      · intro w h
        cases h
    | none =>
      cases hw : C.pending.workspace with
      | none => simp [hp, hw] at hatt
      | some w =>
        have hwo : s.wsOf child = some w := by simp [State.wsOf, hC, hw]
        obtain ⟨W, hW⟩ := Option.isSome_iff_exists.mp (hv.ws child w hwo)
        have hmod : s.modWs w (fun W => { W with layout := layout }) =
            some (s.updWs w (fun W => { W with layout := layout })) := by
          simp [State.modWs, hW]
        simp only [hmod, Option.some_bind]
        refine Returns.of_some rfl ⟨_, rfl, ?_, ?_, ?_⟩
        · have h1 : SameTree s (s.updWs w (fun W => { W with layout := layout })) :=
            SameTree.same_updWs s w (fun _ => rfl)
          exact h1.same_trans (SameTree.same_emit _ _)
        · intro p h; cases h
        · intro w2 _ hw2
          cases hw2
          show ((s.updWs w (fun W => { W with layout := layout })).ws w).map (·.layout) = _
          simp [hW]
  unfold container_split
  simp only [Option.bind_eq_bind]
  refine Returns.bind key ?_
  rintro o ⟨t, rfl, hst, h1, h2⟩
  refine Returns.of_some rfl ⟨rfl, hst.same_live, hst.same_parentOf, hst.same_wsOf,
    hst.same_childrenOf, hst.same_tiling, hst.same_floating, h1, h2⟩

theorem split_relabels_single_child_witness :
    Returns (fun fuel => container_split fuel {} two_fullscreen_state 1 L_VERT) (fun res =>
      res.2 = 1 ∧ (∀ x, (res.1.con x).isSome = (two_fullscreen_state.con x).isSome) ∧
      (∀ x, res.1.parentOf x = two_fullscreen_state.parentOf x) ∧
      (∀ x, res.1.wsOf x = two_fullscreen_state.wsOf x) ∧
      (∀ x, res.1.childrenOf x = two_fullscreen_state.childrenOf x) ∧
      (∀ w, (res.1.ws w).map (·.tiling) = (two_fullscreen_state.ws w).map (·.tiling)) ∧
      (∀ w, (res.1.ws w).map (·.floating) = (two_fullscreen_state.ws w).map (·.floating)) ∧
      (∀ p, some 0 = some p → (res.1.con p).map (·.pending.layout) = some L_VERT) ∧
      (∀ w, some 0 = (none : Option Nat) → some 0 = some w →
        (res.1.ws w).map (·.layout) = some L_VERT)) :=
  split_relabels_single_child {} two_fullscreen_state 1 L_VERT L_HORIZ
    { view := some 0,
      pending := { parent := some 0, workspace := some 0,
                   fullscreen_mode := FULLSCREEN_WORKSPACE } }
    (.children 0) [1] (by decide) two_fullscreen_state_acyclic rfl rfl rfl rfl rfl rfl
    (Or.inl rfl)

theorem LinkPost.link_tops {s2 t : State} {child : Nat} {newpar neww : Option Nat}
    (h : LinkPost s2 child newpar neww t) (w : Nat) : t.tops w = s2.tops w := by
  have h1 := h.tiling w
  have h2 := h.floating w
  unfold State.tops
  cases ht : t.ws w <;> cases hs : s2.ws w <;> simp_all

/-- A container of `s2` other than `child` that `child` reaches is listed as a
child in `s1`, when the children lists of `s2` are those of `s1` with `child`
inserted. -/
theorem reach_inserted {s1 s2 : State} {child x : Nat} {newpar : Option Nat}
    (hkids : ∀ p, (s2.kids p).Perm (if newpar = some p then child :: s1.kids p else s1.kids p))
    (h : Reach s2 child x) (hx : x ≠ child) : ∃ z, x ∈ s1.kids z := by
  rcases Relation.ReflTransGen.cases_tail h with h0 | ⟨z, -, hz⟩
  · exact absurd h0 hx
  · refine ⟨z, ?_⟩
    have := (hkids z).mem_iff.mp hz
    split at this
    · rcases List.mem_cons.mp this with h1 | h1
      · exact absurd h1 hx
      · exact h1
    · exact this

/-- Linking a free container into a tree whose lists already hold it gives a
tree whose lists and links agree. -/
theorem LinkPost.link_linked {s1 s2 t : State} {child : Nat} {newpar neww : Option Nat}
    (h : LinkPost s2 child newpar neww t) (hl : Linked s1)
    (hfp : s1.parentOf child = none) (hfw : s1.wsOf child = none)
    (hpar : ∀ x, s2.parentOf x = s1.parentOf x) (hws : ∀ x, s2.wsOf x = s1.wsOf x)
    (hview : ∀ x, s2.viewOf x = s1.viewOf x)
    (hch : ∀ x, (s2.childrenOf x).isSome = (s1.childrenOf x).isSome)
    (hkids : ∀ p, (s2.kids p).Perm (if newpar = some p then child :: s1.kids p else s1.kids p))
    (htops : ∀ w, (s2.tops w).Perm
      (if newpar = none ∧ neww = some w then child :: s1.tops w else s1.tops w)) :
    Linked t := by
  have hnk : ∀ p, child ∉ s1.kids p := by
    intro p hc
    rw [hl.kids_parent p child hc] at hfp
    cases hfp
  have hnt : ∀ w, child ∉ s1.tops w := by
    intro w hc
    rw [(hl.tops_top w child hc).2] at hfw
    cases hfw
  have hmk : ∀ p c, c ∈ t.kids p ↔ (c = child ∧ newpar = some p) ∨ c ∈ s1.kids p := by
    intro p c
    rw [h.kids, (hkids p).mem_iff]
    split
    · rename_i hp
      simp [hp]
    · rename_i hp
      simp [hp]
  have hmt : ∀ w c, c ∈ t.tops w ↔
      (c = child ∧ newpar = none ∧ neww = some w) ∨ c ∈ s1.tops w := by
    intro w c
    rw [h.link_tops, (htops w).mem_iff]
    split
    · rename_i hp
      simp [hp]
    · rename_i hp
      simp [hp]
  have hpo : ∀ x, x ≠ child → t.parentOf x = s1.parentOf x := by
    intro x hx
    rw [h.parentOf, if_neg hx, hpar]
  have hpc : t.parentOf child = newpar := by rw [h.parentOf, if_pos rfl]
  have hwo : ∀ x, x ≠ child → s1.parentOf x = none → t.wsOf x = s1.wsOf x := by
    intro x hx hp
    rw [h.ws_out x, hws]
    intro hr
    obtain ⟨z, hz⟩ := reach_inserted hkids hr hx
    rw [hl.kids_parent z x hz] at hp
    cases hp
  refine ⟨?_, ?_, ?_, ?_, ?_, ?_, ?_⟩
  · intro p c hc
    rcases (hmk p c).mp hc with ⟨rfl, hp⟩ | hc1
    · rw [hpc, hp]
    · have hne : c ≠ child := fun e => hnk p (e ▸ hc1)
      rw [hpo c hne]
      exact hl.kids_parent p c hc1
  · intro c p hp
    by_cases hc : c = child
    · subst hc
      rw [hpc] at hp
      exact (hmk p c).mpr (Or.inl ⟨rfl, hp⟩)
    · rw [hpo c hc] at hp
      exact (hmk p c).mpr (Or.inr (hl.parent_kids c p hp))
  · intro p
    rw [h.kids, (hkids p).nodup_iff]
    split
    · exact List.nodup_cons.mpr ⟨hnk p, hl.kids_nodup p⟩
    · exact hl.kids_nodup p
  · intro w
    rw [h.link_tops, (htops w).nodup_iff]
    split
    · exact List.nodup_cons.mpr ⟨hnt w, hl.tops_nodup w⟩
    · exact hl.tops_nodup w
  · intro w c hc
    rcases (hmt w c).mp hc with ⟨rfl, hp, hw⟩ | hc1
    · exact ⟨by rw [hpc, hp], by rw [h.ws_in c (Reach.reach_refl s2 c), hw]⟩
    · have hne : c ≠ child := fun e => hnt w (e ▸ hc1)
      obtain ⟨h1, h2⟩ := hl.tops_top w c hc1
      exact ⟨by rw [hpo c hne]; exact h1, by rw [hwo c hne h1]; exact h2⟩
  · intro c w hp hw
    by_cases hc : c = child
    · subst hc
      rw [hpc] at hp
      rw [h.ws_in c (Reach.reach_refl s2 c)] at hw
      exact (hmt w c).mpr (Or.inl ⟨rfl, hp, hw⟩)
    · rw [hpo c hc] at hp
      rw [hwo c hc hp] at hw
      exact (hmt w c).mpr (Or.inr (hl.top_tops c w hp hw))
  · intro c D hD hv
    have h1 : t.viewOf c = s1.viewOf c := by rw [h.skel.viewOf, hview]
    have h2 : (t.childrenOf c).isSome = (s1.childrenOf c).isSome := by
      rw [h.skel.split, hch]
    have hlive : (s1.con c).isSome := by
      cases hC : s1.con c with
      | some _ => rfl
      | none =>
        simp only [State.viewOf, hD, hC, Option.some_bind, Option.none_bind] at h1
        exact absurd h1 hv
    obtain ⟨C, hC⟩ := Option.isSome_iff_exists.mp hlive
    simp only [State.viewOf, State.childrenOf, hD, hC, Option.some_bind] at h1 h2
    have := hl.view_leaf c C hC (by rw [← h1]; exact hv)
    rw [this] at h2
    cases hd : D.pending.children with
    | none => rfl
    | some l => simp [hd] at h2

theorem LinkPost.link_rank {s1 s2 t : State} {child : Nat} {newpar neww : Option Nat}
    (h : LinkPost s2 child newpar neww t)
    (hkids : ∀ p, (s2.kids p).Perm (if newpar = some p then child :: s1.kids p else s1.kids p))
    {r : Nat → Nat} (hr : ∀ p c, c ∈ s1.kids p → r c < r p)
    (hc : ∀ p, newpar = some p → r child < r p) :
    ∀ p c, c ∈ t.kids p → r c < r p := by
  intro p c hcp
  rw [h.kids, (hkids p).mem_iff] at hcp
  split at hcp
  · rename_i hp
    rcases List.mem_cons.mp hcp with rfl | h1
    · exact hc p hp
    · exact hr p c h1
  · exact hr p c hcp

theorem modCon_workspace_eq {s : State} {c : Nat} {C : sway_container} (x : Option Nat)
    (hC : s.con c = some C) (hp : C.pending.parent = none) :
    s.modCon c (fun C => { C with pending := { C.pending with workspace := x } }) =
      s.modCon c (fun C => { C with pending := { C.pending with parent := none, workspace := x } })
    := by
  rw [modCon_some _ hC, modCon_some _ hC]
  unfold State.updCon
  simp only [hC]
  congr 4
  rw [← hp]

theorem tops_updWs_floating (s : State) (w : Nat) (W : sway_workspace) (l : List Nat)
    (hW : s.ws w = some W) (v : Nat) :
    (s.updWs w (fun V => { V with floating := l })).tops v =
      if v = w then W.tiling ++ l else s.tops v := by
  unfold State.tops
  by_cases h : v = w
  · subst h
    simp [hW]
  · simp [h]

/-- What `workspace_add_floating` does with a container that has neither parent
nor workspace: it appends the container to the floating list of the workspace
and links it, with its subtree, to the workspace. -/
theorem workspace_add_floating_spec {s1 : State} {c w : Nat} {C : sway_container}
    {W : sway_workspace} (r : Nat → Nat) (K : Nat) (hK : ∀ x, r x ≤ K)
    (hr : ∀ p c, c ∈ s1.kids p → r c < r p)
    (hv : Valid s1) (hl : Linked s1) (hfs : FsLive s1)
    (hC : s1.con c = some C) (hfp : C.pending.parent = none)
    (hfw : C.pending.workspace = none) (hW : s1.ws w = some W) :
    Returns (fun fuel => workspace_add_floating fuel s1 w c) (fun t =>
      LinkPost (s1.updWs w (fun V => { V with floating := list_add W.floating c })) c none
        (some w) t ∧ Valid t ∧ Linked t ∧ (∀ p y, y ∈ t.kids p → r y < r p)) := by
  have hlive : (s1.con c).isSome := by rw [hC]; rfl
  have hwl : (s1.ws w).isSome := by rw [hW]; rfl
  unfold workspace_add_floating
  simp only [hC, hfw, Option.isSome_none, Bool.false_eq_true, if_false, Option.bind_eq_bind,
    Option.some_bind, Option.pure_def, hW, State.writeList, modWs_some _ hW]
  have hC2 : (s1.updWs w (fun V => { V with floating := list_add W.floating c })).con c
      = some C := by simp [hC]
  rw [modCon_workspace_eq (some w) hC2 hfp]
  have hcore := top_core (f := fun V => { V with floating := list_add W.floating c })
    (fun _ => rfl) (fun _ => rfl) hv hl ⟨r, K, hK, hr⟩ hfs hlive hwl
  have hassoc : ∀ (k : State → Option State) (fuel : Nat),
      (((s1.updWs w (fun V => { V with floating := list_add W.floating c })).modCon c
          (fun C => { C with pending := { C.pending with parent := none, workspace := some w } })).bind
        fun s => (container_for_each_child fuel set_workspace s c).bind fun s =>
          (container_handle_fullscreen_reparent fuel s c).bind k) =
      ((((s1.updWs w (fun V => { V with floating := list_add W.floating c })).modCon c
          (fun C => { C with pending := { C.pending with parent := none, workspace := some w } })).bind
        fun s => (container_for_each_child fuel set_workspace s c).bind fun s =>
          container_handle_fullscreen_reparent fuel s c).bind k) := by
    intro k fuel
    simp only [Option.bind_assoc]
  refine Returns.congr (fun fuel => hassoc _ fuel) ?_
  refine Returns.bind hcore ?_
  rintro t ⟨hpost, hvt, -⟩
  have hwt : (t.ws w).isSome := by
    rw [hpost.skel.wlive]
    simp [hW]
  obtain ⟨t1, ht1, hs1⟩ := dirtyWs_spec hwt
  refine Returns.bind_some ht1 ?_
  have hct : (t1.con c).isSome := by
    rw [hs1.soft_live, hpost.skel.live]
    simp [hC]
  obtain ⟨t2, ht2, hs2⟩ := dirtyCon_spec hct
  refine Returns.of_some ht2 ?_
  have hpost2 := hpost.soft_right (hs1.soft_trans hs2)
  have hkids : ∀ p, ((s1.updWs w (fun V => { V with floating := list_add W.floating c })).kids
      p).Perm (if (none : Option Nat) = some p then c :: s1.kids p else s1.kids p) := by
    intro p
    rw [kids_updWs]
    simp
  refine ⟨hpost2, (hs1.soft_trans hs2).soft_valid hvt, ?_, ?_⟩
  · refine hpost2.link_linked hl (by simp [State.parentOf, hC, hfp])
      (by simp [State.wsOf, hC, hfw]) (fun x => parentOf_updWs _ _ _ x)
      (fun x => wsOf_updWs _ _ _ x) (fun x => by simp [State.viewOf])
      (fun x => by simp [State.childrenOf]) hkids ?_
    intro v
    rw [tops_updWs_floating s1 w W _ hW]
    by_cases hvw : v = w
    · subst hvw
      simp only [true_and, if_true]
      unfold State.tops list_add
      rw [hW]
      simp only []
      rw [← List.append_assoc]
      exact List.perm_append_singleton _ _
    · have : ¬ ((none : Option Nat) = none ∧ some w = some v) := by
        rintro ⟨-, h⟩
        exact hvw (Option.some.inj h).symm
      rw [if_neg hvw, if_neg this]
  · exact hpost2.link_rank hkids hr (fun p hp => by cases hp)

theorem Floats.floats_is_floating {t : State} {c w : Nat} (h : Floats t c w) :
    container_is_floating t c = some true := by
  obtain ⟨hp, hw, W, hW, hc⟩ := h
  cases hC : t.con c with
  | none => simp [State.wsOf, hC] at hw
  | some C =>
    rw [container_is_floating_eq t c C hC]
    have h1 : C.pending.parent = none := by simpa [State.parentOf, hC] using hp
    have h2 : C.pending.workspace = some w := by simpa [State.wsOf, hC] using hw
    simp only [h1, h2, hW, Option.some_bind]
    rw [if_pos (list_find_ne_neg_one.mpr hc)]

theorem Floats.floats_same {s t : State} {c w : Nat} (h : Floats s c w) (hst : SameTree s t) :
    Floats t c w := by
  obtain ⟨hp, hw, W, hW, hc⟩ := h
  refine ⟨by rw [hst.same_parentOf]; exact hp, by rw [hst.same_wsOf]; exact hw, ?_⟩
  have h1 := hst.same_floating w
  cases ht : t.ws w with
  | none => simp [ht, hW] at h1
  | some T =>
    simp only [ht, hW, Option.map_some', Option.some.injEq] at h1
    exact ⟨T, rfl, by rw [h1]; exact hc⟩

theorem Floats.floats_reap {s t : State} {c w con z : Nat} {ds : List Nat}
    (h : Floats s c w) (rp : ReapPost s con ds z t) (hc : c ∉ ds) : Floats t c w := by
  obtain ⟨hp, hw, W, hW, hmem⟩ := h
  have hlive : (s.con c).isSome := live_of_wsOf hw
  obtain ⟨C, hC⟩ := Option.isSome_iff_exists.mp hlive
  obtain ⟨C', hC', -, h1, h2, -⟩ := rp.kept c C hc hC
  have hzc : c ≠ z := fun e => hc (e ▸ List.mem_of_mem_getLast? rp.last)
  refine ⟨?_, ?_, ?_⟩
  · simp only [State.parentOf, hC', hC, Option.some_bind] at hp ⊢
    rw [h1]; exact hp
  · simp only [State.wsOf, hC', hC, Option.some_bind] at hw ⊢
    rw [h2]; exact hw
  · have hl := rp.lists w
    cases ht : t.ws w with
    | none => simp [ht, hW] at hl
    | some T =>
      simp only [ht, hW, Option.map_some', Option.some.injEq] at hl
      refine ⟨T, rfl, ?_⟩
      split at hl
      · simp only [Prod.mk.injEq] at hl
        rw [hl.2]
        split
        · exact hmem
        · exact (List.mem_erase_of_ne hzc).mpr hmem
      · simp only [Prod.mk.injEq] at hl
        rw [hl.2]; exact hmem

theorem set_default_size_spec {s : State} {c w : Nat} {C : sway_container} (hv : Valid s)
    (hC : s.con c = some C) (hw : C.pending.workspace = some w) :
    ∃ t, container_floating_set_default_size s c = some t ∧ SameTree s t := by
  obtain ⟨W, hW⟩ := Option.isSome_iff_exists.mp (hv.ws c w (by simp [State.wsOf, hC, hw]))
  unfold container_floating_set_default_size
  simp only [hC, Option.bind_eq_bind, Option.some_bind, sway_assert, hw, Option.isSome_some,
    if_true, Bool.not_true, Bool.false_eq_true, if_false, hW]
  cases hview : C.view with
  | none => exact ⟨_, modCon_some _ hC, SameTree.same_updCon s c (fun _ => rfl)⟩
  | some v =>
    simp only [modCon_some _ hC, Option.some_bind]
    have hst : SameTree s (s.updCon c (fun C => { C with pending := { C.pending with
        content_width := max ((floating_calculate_constraints s).1 : ℚ)
          (min ((W.width : ℚ) * (1 / 2)) (floating_calculate_constraints s).2.1)
        content_height := max ((floating_calculate_constraints s).2.2.1 : ℚ)
          (min ((W.height : ℚ) * (3 / 4)) (floating_calculate_constraints s).2.2.2) } })) :=
      SameTree.same_updCon s c (fun _ => rfl)
    have hC2 : ∃ C2, (s.updCon c (fun C => { C with pending := { C.pending with
        content_width := max ((floating_calculate_constraints s).1 : ℚ)
          (min ((W.width : ℚ) * (1 / 2)) (floating_calculate_constraints s).2.1)
        content_height := max ((floating_calculate_constraints s).2.2.1 : ℚ)
          (min ((W.height : ℚ) * (3 / 4)) (floating_calculate_constraints s).2.2.2) } })).con c
        = some C2 := by
      simp [hC]
    obtain ⟨C2, hC2⟩ := hC2
    obtain ⟨t, ht, hg⟩ := set_geometry_from_content_spec (hst.same_valid hv) hC2
    exact ⟨t, ht, hst.same_trans hg.soft.soft_sameTree⟩

theorem up_wsOf {s : State} (hpw : ∀ x p, s.parentOf x = some p → s.wsOf x = s.wsOf p)
    {c a : Nat} (h : Up s c a) : s.wsOf a = s.wsOf c := by
  induction h with
  | refl => rfl
  | tail _ hstep ih => rw [← ih, hpw _ _ hstep]

/-- Floating a tiled container: with enough fuel `container_set_floating(c,
true)` returns a state in which `c` is a top-level floating container of its
workspace. -/
theorem set_floating_enable_spec (seat : sway_seat) {s : State} {c w : Nat}
    {C : sway_container} (r : Nat → Nat) (K : Nat) (hK : ∀ x, r x ≤ K)
    (hr : ∀ p c, c ∈ s.kids p → r c < r p) (hv : Valid s) (hl : Linked s) (hfs : FsLive s)
    (hpw : ∀ x p, s.parentOf x = some p → s.wsOf x = s.wsOf p)
    (hC : s.con c = some C) (hfl : container_is_floating s c = some false)
    (hw : C.pending.workspace = some w) :
    Returns (fun fuel => container_set_floating fuel seat s c true)
      (fun t => Floats t c w) := by
  have hws : C.pending.workspace.isSome := by rw [hw]; rfl
  have hwsOf : s.wsOf c = some w := by simp [State.wsOf, hC, hw]
  unfold container_set_floating
  simp only [hfl, Option.bind_eq_bind, Option.some_bind, hC, Bool.false_eq_true, if_false,
    if_true, hw, Option.pure_def]
  refine @Returns.bind _ _ _ _ (fun t => Floats t c w) _ ?_ ?_
  swap
  · intro t ht
    exact Returns.of_some rfl (ht.floats_same
      ((SameTree.same_emit _ _).same_trans (SameTree.same_emit _ _)))
  refine Returns.bind (detach_spec r K hv hl hr hK hC (Or.inr (Or.inl hws)) (fun _ => hws)) ?_
  intro s1 hd
  have hv1 := hd.detach_valid hv
  have hl1 := hd.detach_linked hl
  have hr1 := hd.detach_rank hr
  have hfs1 := hd.detach_fsLive hfs
  have hlive1 : (s1.con c).isSome := by rw [hd.unlinked.skel.live, hC]; rfl
  obtain ⟨C1, hC1⟩ := Option.isSome_iff_exists.mp hlive1
  have hfp : C1.pending.parent = none := by
    have := hd.parentOf c
    simpa [State.parentOf, hC1] using this
  have hfw : C1.pending.workspace = none := by
    have := hd.ws_in c (Reach.reach_refl s c)
    simpa [State.wsOf, hC1] using this
  have hwl1 : (s1.ws w).isSome := by
    rw [hd.unlinked.skel.wlive]; exact hv.ws c w hwsOf
  obtain ⟨W1, hW1⟩ := Option.isSome_iff_exists.mp hwl1
  refine Returns.bind (workspace_add_floating_spec r K hK hr1 hv1 hl1 hfs1 hC1 hfp hfw hW1) ?_
  rintro s2 ⟨hlink, hv2, hl2, hr2⟩
  have hF2 : Floats s2 c w := by
    refine ⟨by rw [hlink.parentOf, if_pos rfl], hlink.ws_in c (Reach.reach_refl _ c), ?_⟩
    have h1 := hlink.floating w
    simp only [ws_updWs, if_true, hW1, Option.map_some'] at h1
    cases ht : s2.ws w with
    | none => simp [ht] at h1
    | some T =>
      simp only [ht, Option.map_some', Option.some.injEq] at h1
      exact ⟨T, rfl, by rw [h1]; simp [list_add]⟩
  have hpar2 : ∀ x, s2.parentOf x = if x = c then none else s.parentOf x := by
    intro x
    rw [hlink.parentOf]
    split
    · rfl
    · rename_i hx
      rw [parentOf_updWs, hd.parentOf, if_neg hx]
  -- the view is told, the border is set
  have hviews2 : s2.views = s.views := by
    rw [hlink.skel.views, views_updWs, hd.unlinked.skel.views]
  have h3 : ∃ s3, (match C.view with
      | some v =>
        (s2.vw v).bind fun V =>
          if V.using_csd = true then
            (view_set_tiled s2 v false).modCon c fun C =>
              { C with pending := { C.pending with border := B_CSD } }
          else some (view_set_tiled s2 v false)
      | none => some s2) = some s3 ∧ SameTree s2 s3 := by
    cases hview : C.view with
    | none => exact ⟨s2, rfl, SameTree.same_refl s2⟩
    | some v =>
      have hvl : (s2.vw v).isSome := by
        have := hv.view c C hC v hview
        simpa [State.vw, hviews2] using this
      obtain ⟨V, hV⟩ := Option.isSome_iff_exists.mp hvl
      simp only [hV, Option.some_bind]
      by_cases hcsd : V.using_csd = true
      · simp only [hcsd, if_true]
        have hlive2 : ((view_set_tiled s2 v false).con c).isSome := by
          show (s2.con c).isSome
          exact live_of_wsOf hF2.2.1
        obtain ⟨C2, hC2⟩ := Option.isSome_iff_exists.mp hlive2
        exact ⟨_, modCon_some _ hC2, (SameTree.same_emit _ _).same_trans
          (SameTree.same_updCon _ c (fun _ => rfl))⟩
      · simp only [hcsd, if_false]
        exact ⟨_, rfl, SameTree.same_emit _ _⟩
  obtain ⟨s3, hs3, hst3⟩ := h3
  refine Returns.bind_some hs3 ?_
  have hv3 := hst3.same_valid hv2
  have hF3 := hF2.floats_same hst3
  obtain ⟨C3, hC3⟩ := Option.isSome_iff_exists.mp (live_of_wsOf hF3.2.1)
  have hw3 : C3.pending.workspace = some w := by
    have := hF3.2.1
    simpa [State.wsOf, hC3] using this
  obtain ⟨s4, hs4, hst4⟩ := set_default_size_spec hv3 hC3 hw3
  refine Returns.bind_some hs4 ?_
  have hv4 := hst4.same_valid hv3
  have hF4 := hF3.floats_same hst4
  obtain ⟨C4, hC4⟩ := Option.isSome_iff_exists.mp (live_of_wsOf hF4.2.1)
  obtain ⟨s5, hs5, hg5⟩ := floating_resize_and_center_spec hv4 hC4
  refine Returns.bind_some hs5 ?_
  have hst5 : SameTree s2 s5 := hst3.same_trans (hst4.same_trans hg5.soft.soft_sameTree)
  have hF5 := hF2.floats_same hst5
  cases hp : C.pending.parent with
  | none => exact Returns.of_some rfl hF5
  | some p =>
    have hspar : s.parentOf c = some p := by simp [State.parentOf, hC, hp]
    have hcp : c ∈ s.kids p := hl.parent_kids c p hspar
    have h6 : ∃ s6, (if decide (seat.focused_container = some c) = true then
        (s5.emit (.seat_set_raw_focus p)).emit (.seat_set_raw_focus c) else s5) = s6 ∧
        SameTree s5 s6 := by
      split
      · exact ⟨_, rfl, (SameTree.same_emit _ _).same_trans (SameTree.same_emit _ _)⟩
      · exact ⟨_, rfl, SameTree.same_refl _⟩
    obtain ⟨s6, hs6, hst6⟩ := h6
    simp only [hs6]
    have hst26 := hst5.same_trans hst6
    have hF6 := hF5.floats_same hst6
    have hpar6 : ∀ x, s6.parentOf x = if x = c then none else s.parentOf x := by
      intro x; rw [hst26.same_parentOf, hpar2]
    have hup6 : ∀ a, Up s6 p a → Up s p a := by
      intro a ha
      induction ha with
      | refl => exact Relation.ReflTransGen.refl
      | @tail x q _ hstep ih2 =>
        rw [hpar6] at hstep
        split at hstep
        · cases hstep
        · exact Relation.ReflTransGen.tail ih2 hstep
    have hplive6 : (s6.con p).isSome := by
      rw [hst26.same_live, hlink.skel.live, con_updWs, hd.unlinked.skel.live]
      exact hv.parent c p hspar
    obtain ⟨P6, hP6⟩ := Option.isSome_iff_exists.mp hplive6
    have hf6 : ∀ a X, Up s6 p a → s6.con a = some X →
        X.pending.fullscreen_mode = FULLSCREEN_WORKSPACE → X.pending.parent.isSome →
        X.pending.workspace.isSome := by
      intro a X ha hX _ _
      have has := hup6 a ha
      have hrk : r p ≤ r a :=
        Up.up_rank_le (fun x q hx => hr q x (hl.parent_kids x q hx)) has
      have hcp2 := hr p c hcp
      have hwa : s.wsOf a = some w := by
        rw [up_wsOf hpw (Relation.ReflTransGen.head hspar has)]
        exact hwsOf
      have h1 : s1.wsOf a = some w := by
        rw [hd.ws_out a, hwa]
        intro hreach
        have := Reach.rank_le hr hreach
        omega
      have h2 : (s2.wsOf a).isSome := by
        by_cases hre : Reach (s1.updWs w (fun V => { V with floating := list_add W1.floating c }))
            c a
        · rw [hlink.ws_in a hre]; rfl
        · rw [hlink.ws_out a hre, wsOf_updWs, h1]; rfl
      rw [← hst26.same_wsOf] at h2
      simpa [State.wsOf, hX] using h2
    refine (reap_empty_spec r K hK (hst26.same_valid hv2) (hst26.same_linked hl2)
      (hst26.same_rank hr2) hf6 hP6).returns_mono ?_
    intro t ht
    split at ht
    · obtain ⟨ds, z, rp⟩ := ht
      refine hF6.floats_reap rp ?_
      intro hmem
      have h1 := rp.reap_rank (hst26.same_rank hr2) c hmem
      have h2 := hr p c hcp
      omega
    · rw [ht]; exact hF6

theorem set_floating_noop (seat : sway_seat) (u : State) (x : Nat) (enable : Bool)
    (fuel : Nat) (h : container_is_floating u x = some enable) :
    container_set_floating fuel seat u x enable = some u := by
  unfold container_set_floating
  simp [h]

/-- C22: in a well-formed state, for a tiled container `c` on a workspace,
`container_set_floating(c, true)` called twice returns, and the state after the
second call is the state after the first, in which `c` is floating; and
whenever `container_is_floating(c)` already equals `enable`,
`container_set_floating(c, enable)` returns the state unchanged, the record of
outbound calls included. -/
theorem set_floating_idempotent (seat : sway_seat) (s : State) (c w : Nat)
    (C : sway_container) (hwf : TreeWF s) (ha : Acyclic s) (hfc : FullscreenConsistent s)
    (hpw : ParentWorkspaceConsistent s) (hC : s.con c = some C)
    (hfl : container_is_floating s c = some false) (hw : C.pending.workspace = some w) :
    Returns (fun fuel => (container_set_floating fuel seat s c true).bind (fun t =>
        (container_set_floating fuel seat t c true).map (fun u => (t, u))))
      (fun res => res.2 = res.1 ∧ container_is_floating res.1 c = some true) ∧
    (∀ (u : State) (x : Nat) (enable : Bool) (fuel : Nat),
      container_is_floating u x = some enable →
      container_set_floating fuel seat u x enable = some u) := by
  refine ⟨?_, fun u x enable fuel h => set_floating_noop seat u x enable fuel h⟩
  obtain ⟨r, K, hK, hr⟩ := ha
  have hpw2 : ∀ x p, s.parentOf x = some p → s.wsOf x = s.wsOf p := by
    intro x p hx
    exact (hpw x (mem_ids (live_of_parentOf hx)) p hx).2
  refine Returns.bind (set_floating_enable_spec seat r K hK hr hwf.treewf_valid
    hwf.treewf_linked hfc.fsc_fsLive hpw2 hC hfl hw) ?_
  intro t ht
  refine ⟨(t, t), ⟨rfl, ht.floats_is_floating⟩, 0, fun fuel _ => ?_⟩
  show (container_set_floating fuel seat t c true).map (fun u => (t, u)) = _
  rw [set_floating_noop seat t c true fuel ht.floats_is_floating]
  rfl

theorem set_floating_idempotent_witness :
    Returns (fun fuel => (container_set_floating fuel {} two_fullscreen_state 1 true).bind
        (fun t => (container_set_floating fuel {} t 1 true).map (fun u => (t, u))))
      (fun res => res.2 = res.1 ∧ container_is_floating res.1 1 = some true) ∧
    (∀ (u : State) (x : Nat) (enable : Bool) (fuel : Nat),
      container_is_floating u x = some enable →
      container_set_floating fuel {} u x enable = some u) :=
  set_floating_idempotent {} two_fullscreen_state 1 0
    { view := some 0,
      pending := { parent := some 0, workspace := some 0,
                   fullscreen_mode := FULLSCREEN_WORKSPACE } }
    (by decide) two_fullscreen_state_acyclic (by decide) (by decide) rfl (by decide) rfl

theorem list_swap_of_not_mem {c r : Nat} {l : List Nat} (h : c ∉ l) : list_swap c r l = l := by
  unfold list_swap
  induction l with
  | nil => rfl
  | cons a l ih =>
    have ha : a ≠ c := fun e => h (e ▸ List.mem_cons_self _ _)
    have hl : c ∉ l := fun e => h (List.mem_cons_of_mem _ e)
    simp only [List.map_cons, if_neg ha, ih hl]

theorem insertIdx_erase_swap {l : List Nat} {c r : Nat} (hc : c ∈ l) (hn : l.Nodup)
    (hne : r ≠ c) : (l.insertIdx (l.indexOf c + 1) r).erase c = list_swap c r l := by
  induction l with
  | nil => cases hc
  | cons a l ih =>
    have hnl : l.Nodup := (List.nodup_cons.mp hn).2
    have hal : a ∉ l := (List.nodup_cons.mp hn).1
    by_cases hac : a = c
    · subst hac
      have h1 : (a :: l).indexOf a = 0 := List.indexOf_cons_self a l
      rw [h1]
      show ((a :: l).insertIdx 1 r).erase a = _
      have h2 : (a :: l).insertIdx 1 r = a :: r :: l := by
        cases l <;> rfl
      rw [h2, List.erase_cons_head]
      unfold list_swap
      simp only [List.map_cons, if_true]
      have := list_swap_of_not_mem (c := a) (r := r) hal
      unfold list_swap at this
      rw [this]
    · have hcl : c ∈ l := by
        rcases List.mem_cons.mp hc with h | h
        · exact absurd h.symm hac
        · exact h
      have h1 : (a :: l).indexOf c = l.indexOf c + 1 := by
        rw [List.indexOf_cons_ne _ hac]
      rw [h1]
      have h2 : (a :: l).insertIdx (l.indexOf c + 1 + 1) r = a :: l.insertIdx (l.indexOf c + 1) r :=
        rfl
      rw [h2, List.erase_cons_tail (by simpa using hac), ih hcl hnl]
      unfold list_swap
      simp only [List.map_cons, if_neg hac]

theorem insert_beside_erase_swap {l : List Nat} {c r : Nat} (hc : c ∈ l) (hn : l.Nodup)
    (hne : r ≠ c) : (insert_beside l c r true).erase c = list_swap c r l := by
  unfold insert_beside
  rw [list_find_of_mem hc]
  have : ((l.indexOf c : Int) + (if true = true then 1 else 0)).toNat = l.indexOf c + 1 := by
    simp
  rw [this]
  exact insertIdx_erase_swap hc hn hne

theorem not_mem_children_of_parent {s : State} (hl : Linked s) {r p : Nat} {l : List Nat}
    (hp : s.childrenOf p = some l) (h : s.parentOf r ≠ some p) : r ∉ l := by
  intro hm
  exact h (hl.kids_parent p r (by simp [State.kids, hp, hm]))

theorem not_mem_tiling_of_top {s : State} (hl : Linked s) {r w : Nat} {W : sway_workspace}
    (hW : s.ws w = some W) (h : ¬ (s.parentOf r = none ∧ s.wsOf r = some w)) :
    r ∉ W.tiling ∧ r ∉ W.floating := by
  constructor <;> intro hm <;> exact h (hl.tops_top w r (by simp [State.tops, hW, hm]))

theorem tiling_floating_disjoint {s : State} (hl : Linked s) {r w : Nat} {W : sway_workspace}
    (hW : s.ws w = some W) (h : r ∈ W.tiling) : r ∉ W.floating := by
  have hn := hl.tops_nodup w
  simp only [State.tops, hW] at hn
  exact fun hf => (List.nodup_append.mp hn).2.2 h hf

theorem children_nodup {s : State} (hl : Linked s) {p : Nat} {l : List Nat}
    (hp : s.childrenOf p = some l) : l.Nodup := by
  have := hl.kids_nodup p
  simpa [State.kids, hp] using this

theorem tiling_nodup {s : State} (hl : Linked s) {w : Nat} {W : sway_workspace}
    (hW : s.ws w = some W) : W.tiling.Nodup ∧ W.floating.Nodup := by
  have hn := hl.tops_nodup w
  simp only [State.tops, hW] at hn
  exact ⟨(List.nodup_append.mp hn).1, (List.nodup_append.mp hn).2.1⟩

/-- In a tree whose lists and links agree, `container_detach` takes the
container out of every list. -/
theorem DetachPost.detach_lists {s t : State} {r : Nat} (h : DetachPost s r t) (hl : Linked s) :
    (∀ p, t.childrenOf p = (s.childrenOf p).map (fun l => l.erase r)) ∧
    (∀ w, (t.ws w).map (·.tiling) = (s.ws w).map (fun W => W.tiling.erase r)) ∧
    (∀ w, (t.ws w).map (·.floating) = (s.ws w).map (fun W => W.floating.erase r)) := by
  refine ⟨?_, ?_, ?_⟩
  · intro p
    rw [h.unlinked.childrenOf]
    cases hp : s.childrenOf p with
    | none => rfl
    | some l =>
      simp only [Option.map_some', Option.some.injEq]
      split
      · rfl
      · rename_i hne
        exact (List.erase_of_not_mem (not_mem_children_of_parent hl hp hne)).symm
  · intro w
    rw [h.unlinked.tiling]
    cases hW : s.ws w with
    | none => rfl
    | some W =>
      simp only [Option.map_some', Option.some.injEq]
      split
      · rfl
      · rename_i hne
        exact (List.erase_of_not_mem (not_mem_tiling_of_top hl hW hne).1).symm
  · intro w
    rw [h.unlinked.floating]
    cases hW : s.ws w with
    | none => rfl
    | some W =>
      simp only [Option.map_some', Option.some.injEq]
      split
      · rfl
      · rename_i hne
        by_cases htop : s.parentOf r = none ∧ s.wsOf r = some w
        · have ht : r ∈ W.tiling := by
            by_contra hnt
            exact hne ⟨htop.1, htop.2, hnt⟩
          exact (List.erase_of_not_mem (tiling_floating_disjoint hl hW ht)).symm
        · exact (List.erase_of_not_mem (not_mem_tiling_of_top hl hW htop).2).symm

/-- The lists before the insertion of an attach operation are those of `s`
without the container to attach, which is free. -/
theorem PreLink.prelink_lists {s s1 : State} {r : Nat} (h : PreLink s r s1) (hl : Linked s)
    (hfree : s.wsOf r = none → s.parentOf r = none) :
    (∀ p, s1.childrenOf p = (s.childrenOf p).map (fun l => l.erase r)) ∧
    (∀ w, (s1.ws w).map (·.tiling) = (s.ws w).map (fun W => W.tiling.erase r)) ∧
    (∀ w, (s1.ws w).map (·.floating) = (s.ws w).map (fun W => W.floating.erase r)) ∧
    s1.parentOf r = none ∧ s1.wsOf r = none := by
  rcases h with ⟨hws, h⟩ | ⟨hws, rfl⟩
  · obtain ⟨h1, h2, h3⟩ := h.detach_lists hl
    exact ⟨h1, h2, h3, by rw [h.parentOf, if_pos rfl], h.ws_in r (Reach.reach_refl s r)⟩
  · have hp := hfree hws
    refine ⟨?_, ?_, ?_, hp, hws⟩
    · intro p
      cases hc : s1.childrenOf p with
      | none => rfl
      | some l =>
        simp only [Option.map_some', Option.some.injEq]
        exact (List.erase_of_not_mem
          (not_mem_children_of_parent hl hc (by rw [hp]; exact fun e => by cases e))).symm
    · intro w
      cases hW : s1.ws w with
      | none => rfl
      | some W =>
        simp only [Option.map_some', Option.some.injEq]
        exact (List.erase_of_not_mem (not_mem_tiling_of_top hl hW
          (by rw [hws]; rintro ⟨-, e⟩; cases e)).1).symm
    · intro w
      cases hW : s1.ws w with
      | none => rfl
      | some W =>
        simp only [Option.map_some', Option.some.injEq]
        exact (List.erase_of_not_mem (not_mem_tiling_of_top hl hW
          (by rw [hws]; rintro ⟨-, e⟩; cases e)).2).symm

theorem tops_updWs_tiling (s : State) (w : Nat) (W : sway_workspace) (l : List Nat)
    (hW : s.ws w = some W) (v : Nat) :
    (s.updWs w (fun V => { V with tiling := l })).tops v =
      if v = w then l ++ W.floating else s.tops v := by
  unfold State.tops
  by_cases h : v = w
  · subst h
    simp [hW]
  · simp [h]

theorem insert_beside_perm {l : List Nat} {fixed : Nat} (active : Nat) (after : Bool)
    (h : fixed ∈ l) : (insert_beside l fixed active after).Perm (active :: l) := by
  unfold insert_beside
  obtain ⟨h0, h1⟩ := insert_beside_index after h
  exact List.perm_insertIdx _ _ (by omega)

/-- After `container_add_sibling` the tree is again well formed, when the
inserted container was free or on a workspace and is not an ancestor of the
container it is put beside. -/
theorem SiblingPost.sibling_wf {s t : State} {fixed active : Nat} {after : Bool}
    (h : SiblingPost s fixed active after t) (hv : Valid s) (hl : Linked s)
    {r : Nat → Nat} {K : Nat} (hK : ∀ x, r x ≤ K) (hr : ∀ p c, c ∈ s.kids p → r c < r p)
    (hA : (s.con active).isSome)
    (hfree : s.wsOf active = none → s.parentOf active = none)
    (hn : ¬ Reach s active fixed) :
    Valid t ∧ Linked t ∧
      ∃ r2 : Nat → Nat, (∀ x, r2 x ≤ 2 * K + 1) ∧ ∀ p c, c ∈ t.kids p → r2 c < r2 p := by
  obtain ⟨s1, hpre, hcase⟩ := h
  have hv1 := hpre.prelink_valid hv
  have hl1 := hpre.prelink_linked hl
  have hr1 := hpre.prelink_rank hr
  obtain ⟨-, -, -, hfp, hfw⟩ := hpre.prelink_lists hl hfree
  have hn1 : ¬ Reach s1 active fixed := fun h => hn (hpre.prelink_reach h)
  have hA1 : (s1.con active).isSome := by rw [hpre.skel.live]; exact hA
  rcases hcase with ⟨q, l1, hparq, hch, hpost⟩ | ⟨w, W, hparn, hw, hW, hpost⟩
  · have hmem : fixed ∈ s1.kids q := hl1.parent_kids fixed q hparq
    have hkq : s1.kids q = l1 := by simp [State.kids, hch]
    have hmem1 : fixed ∈ l1 := hkq ▸ hmem
    have hQl : (s1.con q).isSome := hv1.parent fixed q hparq
    have hnq : ¬ Reach s1 active q := fun h => hn1 (Reach.tail h hmem)
    have hk2 : ∀ x, (s1.setChildren q (insert_beside l1 fixed active after)).kids x =
        if x = q then insert_beside l1 fixed active after else s1.kids x :=
      fun x => kids_setChildren s1 q _ x hQl
    have hkids : ∀ p, ((s1.setChildren q (insert_beside l1 fixed active after)).kids p).Perm
        (if some q = some p then active :: s1.kids p else s1.kids p) := by
      intro p
      rw [hk2]
      by_cases hp : p = q
      · subst hp
        rw [if_pos rfl, if_pos rfl, hkq]
        exact insert_beside_perm active after hmem1
      · have : ¬ (some q = some p) := fun e => hp (Option.some.inj e).symm
        rw [if_neg hp, if_neg this]
    have hv2 : Valid (s1.setChildren q (insert_beside l1 fixed active after)) := by
      refine (Skel.setChildren s1 q _ (by rw [hch]; rfl)).skel_valid hv1 ?_ ?_ ?_
      · intro c w hw
        rw [wsOf_setChildren] at hw
        exact hv1.ws c w hw
      · intro p c hc
        rw [hk2] at hc
        split at hc
        · rcases (mem_insert_beside after hmem1 c).mp hc with h | h
          · exact hv1.kids q c (hkq ▸ h)
          · subst h; exact hA1
        · exact hv1.kids p c hc
      · intro c p hc
        rw [parentOf_setChildren] at hc
        exact hv1.parent c p hc
    refine ⟨hpost.link_valid hv2 (fun p hp => by cases hp; rw [live_setChildren]; exact hQl)
      (fun w hw => by rw [ws_setChildren]; exact hv1.ws fixed w hw), ?_, ?_⟩
    · refine hpost.link_linked hl1 hfp hfw (parentOf_setChildren s1 q _)
        (wsOf_setChildren s1 q _) (viewOf_setChildren s1 q _) ?_ hkids ?_
      · intro x
        rw [childrenOf_setChildren _ _ _ _ hQl]
        split
        · rename_i hx
          subst hx
          simp [hch]
        · rfl
      · intro v
        have : ¬ ((some q : Option Nat) = none ∧ s1.wsOf fixed = some v) := by
          rintro ⟨e, -⟩; cases e
        rw [if_neg this]
        unfold State.tops
        rw [ws_setChildren]
    · obtain ⟨r2, hK2, hr2, hedge⟩ := rank_add_edge hK hr1 hnq
      exact ⟨r2, hK2, hpost.link_rank hkids hr2 (fun p hp => by cases hp; exact hedge)⟩
  · have htop : fixed ∈ W.tiling ++ W.floating := by
      have := hl1.top_tops fixed w hparn hw
      simpa [State.tops, hW] using this
    have hsk : ∀ f : sway_workspace → sway_workspace, (∀ V, (f V).output = V.output) →
        Valid (s1.updWs w f) := by
      intro f hf
      refine (Skel.skel_updWs s1 w hf).skel_valid hv1 ?_ ?_ ?_
      · intro c v hc; rw [wsOf_updWs] at hc; exact hv1.ws c v hc
      · intro p c hc; rw [kids_updWs] at hc; exact hv1.kids p c hc
      · intro c p hc; rw [parentOf_updWs] at hc; exact hv1.parent c p hc
    have hwl : (s1.ws w).isSome := by rw [hW]; rfl
    have hrest : ∀ (f : sway_workspace → sway_workspace),
        (∀ V, (f V).output = V.output) →
        LinkPost (s1.updWs w f) active none (some w) t →
        (∀ v, ((s1.updWs w f).tops v).Perm
          (if (none : Option Nat) = none ∧ some w = some v then active :: s1.tops v
           else s1.tops v)) →
        Valid t ∧ Linked t ∧
          ∃ r2 : Nat → Nat, (∀ x, r2 x ≤ 2 * K + 1) ∧ ∀ p c, c ∈ t.kids p → r2 c < r2 p := by
      intro f hf hp htops
      have hkids : ∀ p, ((s1.updWs w f).kids p).Perm
          (if (none : Option Nat) = some p then active :: s1.kids p else s1.kids p) := by
        intro p
        rw [kids_updWs]
        simp
      refine ⟨hp.link_valid (hsk f hf) (fun p e => by cases e)
        (fun v e => by cases e; simpa using hwl), ?_, ?_⟩
      · exact hp.link_linked hl1 hfp hfw (fun x => parentOf_updWs _ _ _ x)
          (fun x => wsOf_updWs _ _ _ x) (fun x => by simp [State.viewOf])
          (fun x => by simp [State.childrenOf]) hkids htops
      · exact ⟨r, fun x => by have := hK x; omega,
          hp.link_rank hkids hr1 (fun p e => by cases e)⟩
    unfold State.insertTop at hpost
    split at hpost
    · rename_i ht
      have ht := list_find_ne_neg_one.mp ht
      refine hrest (fun V => { V with tiling := insert_beside W.tiling fixed active after })
        (fun _ => rfl) hpost ?_
      intro v
      rw [tops_updWs_tiling s1 w W _ hW]
      by_cases hvw : v = w
      · subst hvw
        simp only [true_and, if_true]
        unfold State.tops
        rw [hW]
        exact ((insert_beside_perm active after ht).append_right W.floating)
      · have : ¬ ((none : Option Nat) = none ∧ some w = some v) := by
          rintro ⟨-, h⟩
          exact hvw (Option.some.inj h).symm
        rw [if_neg hvw, if_neg this]
    · rename_i ht
      have ht : fixed ∉ W.tiling := fun h => ht (list_find_ne_neg_one.mpr h)
      have hf : fixed ∈ W.floating := by
        rcases List.mem_append.mp htop with h | h
        · exact absurd h ht
        · exact h
      refine hrest (fun V => { V with floating := insert_beside W.floating fixed active after })
        (fun _ => rfl) hpost ?_
      intro v
      rw [tops_updWs_floating s1 w W _ hW]
      by_cases hvw : v = w
      · subst hvw
        simp only [true_and, if_true]
        unfold State.tops
        rw [hW]
        simp only []
        refine ((insert_beside_perm active after hf).append_left W.tiling).trans ?_
        exact List.perm_middle
      · have : ¬ ((none : Option Nat) = none ∧ some w = some v) := by
          rintro ⟨-, h⟩
          exact hvw (Option.some.inj h).symm
        rw [if_neg hvw, if_neg this]

theorem calm_preorder : Preorder2 Calm :=
  ⟨fun _ => id, fun _ _ _ h1 h2 h => h2 (h1 h)⟩

theorem each_mono {R T : sway_container → sway_container → Prop}
    (h : ∀ C D, R C D → T C D) {s t : State} (hs : Each R s t) : Each T s t := by
  intro x C hC
  obtain ⟨D, hD, hr⟩ := hs x C hC
  exact ⟨D, hD, h C D hr⟩

theorem relinked_mode {C D : sway_container} (h : Relinked C D) :
    D.pending.fullscreen_mode = C.pending.fullscreen_mode := by
  have := congrArg (fun X => X.pending.fullscreen_mode) h.1
  exact this

theorem calm_of_relinked {s t : State} (h : Each Relinked s t) : Each Calm s t :=
  each_mono (fun C D hr hc => by rw [relinked_mode hr]; exact hc) h

theorem calm_set_fullscreen {s t : State} {con : Nat} {b : Bool}
    (h : set_fullscreen s con b = some t) : Each Calm s t := by
  unfold set_fullscreen at h
  simp only [Option.bind_eq_bind, Option.pure_def] at h
  obtain ⟨C, -, h⟩ := Option.bind_eq_some.mp h
  split at h
  · exact each_pure calm_preorder h
  · obtain ⟨V, -, h⟩ := Option.bind_eq_some.mp h
    exact each_of_containers calm_preorder (by
      split at h
      · split at h <;> (simp only [Option.some.injEq] at h; subst h; rfl)
      · simp only [Option.some.injEq] at h; subst h; rfl)

theorem calm_set_geometry_from_content {s t : State} {con : Nat}
    (h : container_set_geometry_from_content s con = some t) : Each Calm s t := by
  unfold container_set_geometry_from_content at h
  simp only [Option.bind_eq_bind, Option.pure_def] at h
  obtain ⟨C, -, h⟩ := Option.bind_eq_some.mp h
  cases hv : C.view.isSome
  · simp only [sway_assert, hv, Bool.false_eq_true, if_false, Bool.not_false, if_true,
      Option.some.injEq] at h
    subst h
    exact each_emit calm_preorder _ _
  · simp only [sway_assert, hv, if_true, Bool.not_true, Bool.false_eq_true, if_false] at h
    obtain ⟨b, -, h⟩ := Option.bind_eq_some.mp h
    cases b
    · simp only [Bool.false_eq_true, if_false, Bool.not_false, if_true, Option.some.injEq] at h
      subst h
      exact each_emit calm_preorder _ _
    · simp only [if_true, Bool.not_true, Bool.false_eq_true, if_false] at h
      exact each_modCon h calm_preorder (fun _ => id)

theorem calm_floating_natural_resize {s t : State} {con : Nat}
    (h : floating_natural_resize s con = some t) : Each Calm s t := by
  unfold floating_natural_resize at h
  simp only [Option.bind_eq_bind, Option.pure_def] at h
  obtain ⟨C, -, h⟩ := Option.bind_eq_some.mp h
  split at h
  · exact each_modCon h calm_preorder (fun _ => id)
  · obtain ⟨V, -, h⟩ := Option.bind_eq_some.mp h
    obtain ⟨u, hu, h⟩ := Option.bind_eq_some.mp h
    exact each_trans calm_preorder (each_modCon hu calm_preorder (fun _ => id))
      (calm_set_geometry_from_content h)

theorem calm_floating_resize_and_center {s t : State} {con : Nat}
    (h : container_floating_resize_and_center s con = some t) : Each Calm s t := by
  unfold container_floating_resize_and_center at h
  simp only [Option.bind_eq_bind, Option.pure_def] at h
  obtain ⟨C, -, h⟩ := Option.bind_eq_some.mp h
  split at h
  · exact calm_floating_natural_resize h
  · obtain ⟨W, -, h⟩ := Option.bind_eq_some.mp h
    obtain ⟨o, -, h⟩ := Option.bind_eq_some.mp h
    obtain ⟨O, -, h⟩ := Option.bind_eq_some.mp h
    split at h
    · exact each_modCon h calm_preorder (fun _ => id)
    · obtain ⟨u, hu, h⟩ := Option.bind_eq_some.mp h
      refine each_trans calm_preorder (calm_floating_natural_resize hu) ?_
      obtain ⟨D, -, h⟩ := Option.bind_eq_some.mp h
      split at h
      · split at h <;> exact each_modCon h calm_preorder (fun _ => id)
      · obtain ⟨u1, hu1, h⟩ := Option.bind_eq_some.mp h
        obtain ⟨u2, hu2, h⟩ := Option.bind_eq_some.mp h
        have h1 : Each Calm u u1 := by
          split at hu1 <;> exact each_modCon hu1 calm_preorder (fun _ => id)
        exact each_trans calm_preorder h1 (each_trans calm_preorder
          (each_modCon hu2 calm_preorder (fun _ => id))
          (calm_set_geometry_from_content h))

theorem calm_floating_translate (dx dy : ℚ) :
    ∀ (fuel : Nat) (s t : State) (con : Nat),
      container_floating_translate fuel s con dx dy = some t → Each Calm s t := by
  intro fuel
  induction fuel with
  | zero => intro s t con h; simp [container_floating_translate] at h
  | succ fuel ih =>
    intro s t con h
    simp only [container_floating_translate, Option.bind_eq_bind, Option.pure_def] at h
    obtain ⟨u, hu, h⟩ := Option.bind_eq_some.mp h
    obtain ⟨C, -, h⟩ := Option.bind_eq_some.mp h
    obtain ⟨u1, hu1, h⟩ := Option.bind_eq_some.mp h
    refine each_trans calm_preorder (each_modCon hu calm_preorder (fun _ => id))
      (each_trans calm_preorder ?_
        (each_modCon h calm_preorder (fun _ => id)))
    split at hu1
    · exact each_foldlM calm_preorder _ _ _ (fun a c b _ hab => ih a b c hab) hu1
    · exact each_pure calm_preorder hu1

theorem calm_floating_move_to_center {fuel : Nat} {s t : State} {con : Nat}
    (h : container_floating_move_to_center fuel s con = some t) : Each Calm s t := by
  unfold container_floating_move_to_center at h
  simp only [Option.bind_eq_bind, Option.pure_def] at h
  obtain ⟨b, -, h⟩ := Option.bind_eq_some.mp h
  cases b
  · simp only [sway_assert, Bool.false_eq_true, if_false, Bool.not_false, if_true,
      Option.some.injEq] at h
    subst h
    exact each_emit calm_preorder _ _
  · simp only [sway_assert, if_true, Bool.not_true, Bool.false_eq_true, if_false] at h
    obtain ⟨C, -, h⟩ := Option.bind_eq_some.mp h
    obtain ⟨w, -, h⟩ := Option.bind_eq_some.mp h
    obtain ⟨W, -, h⟩ := Option.bind_eq_some.mp h
    exact calm_floating_translate _ _ _ _ _ _ h

theorem calm_fullscreen_disable {fuel : Nat} {s t : State} {con : Nat}
    (h : container_fullscreen_disable fuel s con = some t) : Each Calm s t := by
  unfold container_fullscreen_disable at h
  simp only [Option.bind_eq_bind, Option.pure_def] at h
  obtain ⟨C, -, h⟩ := Option.bind_eq_some.mp h
  by_cases hm : C.pending.fullscreen_mode = FULLSCREEN_NONE
  · simp only [sway_assert, hm, ne_eq, not_true_eq_false, decide_False, Bool.false_eq_true,
      if_false, Bool.not_false, if_true, Option.some.injEq] at h
    subst h
    exact each_emit calm_preorder _ _
  · simp only [sway_assert, hm, ne_eq, not_false_eq_true, decide_True, if_true, Bool.not_true,
      Bool.false_eq_true, if_false] at h
    obtain ⟨u1, hu1, h⟩ := Option.bind_eq_some.mp h
    obtain ⟨b1, -, h⟩ := Option.bind_eq_some.mp h
    obtain ⟨u2, hu2, h⟩ := Option.bind_eq_some.mp h
    obtain ⟨u3, hu3, h⟩ := Option.bind_eq_some.mp h
    obtain ⟨C1, -, h⟩ := Option.bind_eq_some.mp h
    obtain ⟨b2, -, h⟩ := Option.bind_eq_some.mp h
    obtain ⟨u4, hu4, h⟩ := Option.bind_eq_some.mp h
    obtain ⟨u5, hu5, h⟩ := Option.bind_eq_some.mp h
    have h2 : Each Calm u1 u2 := by
      split at hu2
      · exact each_modCon hu2 calm_preorder (fun _ => id)
      · exact each_pure calm_preorder hu2
    have h3 : Each Calm u2 u3 := by
      split at hu3
      · split at hu3
        · obtain ⟨v1, hv1, hu3⟩ := Option.bind_eq_some.mp hu3
          obtain ⟨b3, -, hu3⟩ := Option.bind_eq_some.mp hu3
          refine each_trans calm_preorder (each_modWs hv1 calm_preorder) ?_
          split at hu3
          · obtain ⟨o, -, hu3⟩ := Option.bind_eq_some.mp hu3
            obtain ⟨W, -, hu3⟩ := Option.bind_eq_some.mp hu3
            split at hu3
            · exact calm_floating_move_to_center hu3
            · exact each_pure calm_preorder hu3
          · exact each_pure calm_preorder hu3
        · exact each_pure calm_preorder hu3
      · simp only [Option.some.injEq] at hu3; subst hu3
        exact each_of_containers calm_preorder rfl
    have h4 : Each Calm u3 u4 := by
      split at hu4
      · exact calm_floating_resize_and_center hu4
      · exact each_pure calm_preorder hu4
    have h5 : Each Calm u4 u5 := each_modCon hu5 calm_preorder (fun _ _ => rfl)
    have h6 : Each Calm u5 t := by
      exact each_of_containers calm_preorder (by
        split at h <;> (simp only [Option.some.injEq] at h; subst h; rfl))
    exact each_trans calm_preorder (calm_set_fullscreen hu1)
      (each_trans calm_preorder h2 (each_trans calm_preorder h3
        (each_trans calm_preorder h4 (each_trans calm_preorder h5 h6))))

theorem calm_handle_fullscreen_reparent {fuel : Nat} {s t : State} {con : Nat}
    (h : container_handle_fullscreen_reparent fuel s con = some t) : Each Calm s t := by
  unfold container_handle_fullscreen_reparent at h
  simp only [Option.bind_eq_bind, Option.pure_def] at h
  obtain ⟨C, -, h⟩ := Option.bind_eq_some.mp h
  split at h
  · exact each_pure calm_preorder h
  · split at h
    · exact each_pure calm_preorder h
    · obtain ⟨W, -, h⟩ := Option.bind_eq_some.mp h
      split at h
      · exact each_pure calm_preorder h
      · obtain ⟨u1, hu1, h⟩ := Option.bind_eq_some.mp h
        obtain ⟨u2, hu2, h⟩ := Option.bind_eq_some.mp h
        simp only [Option.some.injEq] at h
        subst h
        have h1 : Each Calm s u1 := by
          split at hu1
          · exact calm_fullscreen_disable hu1
          · exact each_pure calm_preorder hu1
        exact each_trans calm_preorder h1 (each_trans calm_preorder
          (each_modWs hu2 calm_preorder) (each_of_containers calm_preorder rfl))

/-- No container that is not fullscreen becomes fullscreen by
`container_add_sibling`. -/
theorem calm_add_sibling {fuel : Nat} {s t : State} {fixed active : Nat} {after : Bool}
    (h : container_add_sibling fuel s fixed active after = some t) : Each Calm s t := by
  unfold container_add_sibling at h
  simp only [Option.bind_eq_bind, Option.pure_def] at h
  obtain ⟨A, -, h⟩ := Option.bind_eq_some.mp h
  obtain ⟨u1, hu1, h⟩ := Option.bind_eq_some.mp h
  obtain ⟨sib, -, h⟩ := Option.bind_eq_some.mp h
  obtain ⟨sib1, -, h⟩ := Option.bind_eq_some.mp h
  obtain ⟨l, -, h⟩ := Option.bind_eq_some.mp h
  obtain ⟨l2, -, h⟩ := Option.bind_eq_some.mp h
  obtain ⟨u2, hu2, h⟩ := Option.bind_eq_some.mp h
  obtain ⟨F, -, h⟩ := Option.bind_eq_some.mp h
  obtain ⟨u3, hu3, h⟩ := Option.bind_eq_some.mp h
  obtain ⟨u4, hu4, h⟩ := Option.bind_eq_some.mp h
  obtain ⟨u5, hu5, h⟩ := Option.bind_eq_some.mp h
  have h1 : Each Calm s u1 := by
    split at hu1
    · exact calm_of_relinked (relinked_detach hu1)
    · exact each_pure calm_preorder hu1
  exact each_trans calm_preorder h1 (each_trans calm_preorder
    (calm_of_relinked (relinked_writeList hu2)) (each_trans calm_preorder
    (each_modCon hu3 calm_preorder (fun _ => id)) (each_trans calm_preorder
    (calm_of_relinked (relinked_cascade _ _ _ _ hu4)) (each_trans calm_preorder
    (calm_handle_fullscreen_reparent hu5)
    (calm_of_relinked (relinked_update_representation _ _ _ _ h))))))

theorem con_isSome_of_childrenOf {s : State} {q : Nat} {l : List Nat}
    (h : s.childrenOf q = some l) : (s.con q).isSome := by
  cases hq : s.con q with
  | none => simp [State.childrenOf, hq] at h
  | some _ => rfl

theorem childrenOf_insertTop (s : State) (w : Nat) (W : sway_workspace) (fixed active : Nat)
    (after : Bool) (p : Nat) :
    (s.insertTop w W fixed active after).childrenOf p = s.childrenOf p := by
  unfold State.insertTop
  split <;> simp [State.childrenOf]

/-- The lists after `container_add_sibling`: `active` has left its former list
and stands beside `fixed`. -/
theorem SiblingPost.sibling_lists {s t : State} {fixed active : Nat} {after : Bool}
    (h : SiblingPost s fixed active after t) (hl : Linked s)
    (hfree : s.wsOf active = none → s.parentOf active = none)
    (hn : ¬ Reach s active fixed) :
    (∀ p, t.childrenOf p = (s.childrenOf p).map (fun l =>
        if fixed ∈ l then insert_beside (l.erase active) fixed active after
        else l.erase active)) ∧
    (∀ w, (t.ws w).map (·.tiling) = (s.ws w).map (fun W =>
        if fixed ∈ W.tiling then insert_beside (W.tiling.erase active) fixed active after
        else W.tiling.erase active)) ∧
    (∀ w, (t.ws w).map (·.floating) = (s.ws w).map (fun W =>
        if fixed ∈ W.floating then insert_beside (W.floating.erase active) fixed active after
        else W.floating.erase active)) := by
  have hne : fixed ≠ active := fun h => hn (h ▸ Reach.reach_refl s active)
  obtain ⟨s1, hpre, hcase⟩ := h
  obtain ⟨hc1, ht1, hf1, -, -⟩ := hpre.prelink_lists hl hfree
  have hpar1 : s1.parentOf fixed = s.parentOf fixed := hpre.parentOf_ne hne
  have hws1 : s1.wsOf fixed = s.wsOf fixed := hpre.ws_out hn
  rcases hcase with ⟨q, l1, hparq, hch, hpost⟩ | ⟨w, W1, hparn, hw, hW1, hpost⟩
  · have hQl : (s1.con q).isSome := con_isSome_of_childrenOf hch
    have hsq : s.parentOf fixed = some q := hpar1 ▸ hparq
    refine ⟨?_, ?_, ?_⟩
    · intro p
      rw [hpost.childrenOf, childrenOf_setChildren _ _ _ _ hQl]
      by_cases hp : p = q
      · subst hp
        rw [if_pos rfl]
        have h1 := hc1 p
        rw [hch] at h1
        cases hsp : s.childrenOf p with
        | none => rw [hsp] at h1; cases h1
        | some l =>
          rw [hsp] at h1
          simp only [Option.map_some', Option.some.injEq] at h1 ⊢
          have hfl : fixed ∈ l := by
            have := hl.parent_kids fixed p hsq
            simpa [State.kids, hsp] using this
          rw [if_pos hfl, h1]
      · rw [if_neg hp, hc1]
        cases hsp : s.childrenOf p with
        | none => rfl
        | some l =>
          simp only [Option.map_some', Option.some.injEq]
          have : fixed ∉ l := not_mem_children_of_parent hl hsp
            (by rw [hsq]; exact fun e => hp (Option.some.inj e).symm)
          rw [if_neg this]
    · intro w
      rw [hpost.tiling, ws_setChildren, ht1]
      cases hW : s.ws w with
      | none => rfl
      | some W =>
        simp only [Option.map_some', Option.some.injEq]
        have := (not_mem_tiling_of_top hl hW (by rw [hsq]; rintro ⟨e, -⟩; cases e)).1
        rw [if_neg this]
    · intro w
      rw [hpost.floating, ws_setChildren, hf1]
      cases hW : s.ws w with
      | none => rfl
      | some W =>
        simp only [Option.map_some', Option.some.injEq]
        have := (not_mem_tiling_of_top hl hW (by rw [hsq]; rintro ⟨e, -⟩; cases e)).2
        rw [if_neg this]
  · have hsp : s.parentOf fixed = none := hpar1 ▸ hparn
    have hsw : s.wsOf fixed = some w := hws1 ▸ hw
    have hother : ∀ v W, v ≠ w → s.ws v = some W → fixed ∉ W.tiling ∧ fixed ∉ W.floating := by
      intro v W hv hW
      exact not_mem_tiling_of_top hl hW
        (by rw [hsw]; rintro ⟨-, e⟩; exact hv (Option.some.inj e).symm)
    have htop1 : fixed ∈ W1.tiling ++ W1.floating := by
      have := (hpre.prelink_linked hl).top_tops fixed w hparn hw
      simpa [State.tops, hW1] using this
    obtain ⟨W, hW, hWt, hWf⟩ : ∃ W, s.ws w = some W ∧ W1.tiling = W.tiling.erase active ∧
        W1.floating = W.floating.erase active := by
      have h1 := ht1 w
      have h2 := hf1 w
      rw [hW1] at h1 h2
      cases hW : s.ws w with
      | none => rw [hW] at h1; cases h1
      | some W =>
        rw [hW] at h1 h2
        simp only [Option.map_some', Option.some.injEq] at h1 h2
        exact ⟨W, rfl, h1, h2⟩
    have hmt : fixed ∈ W1.tiling ↔ fixed ∈ W.tiling := by
      rw [hWt]; exact List.mem_erase_of_ne hne
    have hmf : fixed ∈ W1.floating ↔ fixed ∈ W.floating := by
      rw [hWf]; exact List.mem_erase_of_ne hne
    refine ⟨?_, ?_, ?_⟩
    · intro p
      rw [hpost.childrenOf, childrenOf_insertTop, hc1]
      cases hsc : s.childrenOf p with
      | none => rfl
      | some l =>
        simp only [Option.map_some', Option.some.injEq]
        have : fixed ∉ l := not_mem_children_of_parent hl hsc
          (by rw [hsp]; exact fun e => by cases e)
        rw [if_neg this]
    · intro v
      rw [hpost.tiling]
      unfold State.insertTop
      by_cases ht : fixed ∈ W1.tiling
      · rw [if_pos (list_find_ne_neg_one.mpr ht)]
        by_cases hvw : v = w
        · subst hvw
          simp only [ws_updWs, if_true, hW1, hW, Option.map_some', Option.some.injEq]
          rw [if_pos (hmt.mp ht), hWt]
        · simp only [ws_updWs, if_neg hvw]
          rw [ht1]
          cases hV : s.ws v with
          | none => rfl
          | some V =>
            simp only [Option.map_some', Option.some.injEq]
            rw [if_neg (hother v V hvw hV).1]
      · rw [if_neg (fun h => ht (list_find_ne_neg_one.mp h))]
        have hkeep : ((s1.updWs w (fun V => { V with
            floating := insert_beside W1.floating fixed active after })).ws v).map (·.tiling) =
            (s1.ws v).map (·.tiling) := by
          by_cases hvw : v = w
          · subst hvw; simp [hW1]
          · simp [hvw]
        rw [hkeep, ht1]
        cases hV : s.ws v with
        | none => rfl
        | some V =>
          simp only [Option.map_some', Option.some.injEq]
          have : fixed ∉ V.tiling := by
            by_cases hvw : v = w
            · subst hvw
              rw [hW] at hV
              cases hV
              exact fun h => ht (hmt.mpr h)
            · exact (hother v V hvw hV).1
          rw [if_neg this]
    · intro v
      rw [hpost.floating]
      unfold State.insertTop
      by_cases ht : fixed ∈ W1.tiling
      · rw [if_pos (list_find_ne_neg_one.mpr ht)]
        have hkeep : ((s1.updWs w (fun V => { V with
            tiling := insert_beside W1.tiling fixed active after })).ws v).map (·.floating) =
            (s1.ws v).map (·.floating) := by
          by_cases hvw : v = w
          · subst hvw; simp [hW1]
          · simp [hvw]
        rw [hkeep, hf1]
        cases hV : s.ws v with
        | none => rfl
        | some V =>
          simp only [Option.map_some', Option.some.injEq]
          have : fixed ∉ V.floating := by
            by_cases hvw : v = w
            · subst hvw
              rw [hW] at hV
              cases hV
              exact tiling_floating_disjoint hl hW (hmt.mp ht)
            · exact (hother v V hvw hV).2
          rw [if_neg this]
      · rw [if_neg (fun h => ht (list_find_ne_neg_one.mp h))]
        have hf : fixed ∈ W1.floating := by
          rcases List.mem_append.mp htop1 with h | h
          · exact absurd h ht
          · exact h
        by_cases hvw : v = w
        · subst hvw
          simp only [ws_updWs, if_true, hW1, hW, Option.map_some', Option.some.injEq]
          rw [if_pos (hmf.mp hf), hWf]
        · simp only [ws_updWs, if_neg hvw]
          rw [hf1]
          cases hV : s.ws v with
          | none => rfl
          | some V =>
            simp only [Option.map_some', Option.some.injEq]
            rw [if_neg (hother v V hvw hV).2]

/-- The links of the two containers after `container_add_sibling`. -/
theorem SiblingPost.sibling_links {s t : State} {fixed active : Nat} {after : Bool}
    (h : SiblingPost s fixed active after t) (hl : Linked s) (hv : Valid s)
    (hn : ¬ Reach s active fixed) :
    t.parentOf active = s.parentOf fixed ∧ t.wsOf active = s.wsOf fixed ∧
    t.parentOf fixed = s.parentOf fixed ∧ t.wsOf fixed = s.wsOf fixed := by
  have hne : fixed ≠ active := fun h => hn (h ▸ Reach.reach_refl s active)
  obtain ⟨s1, hpre, hcase⟩ := h
  have hpar1 : s1.parentOf fixed = s.parentOf fixed := hpre.parentOf_ne hne
  have hws1 : s1.wsOf fixed = s.wsOf fixed := hpre.ws_out hn
  have hn1 : ¬ Reach s1 active fixed := fun h => hn (hpre.prelink_reach h)
  have hl1 := hpre.prelink_linked hl
  have hv1 := hpre.prelink_valid hv
  rcases hcase with ⟨q, l1, hparq, hch, hpost⟩ | ⟨w, W1, hparn, hw, hW1, hpost⟩
  · have hQl : (s1.con q).isSome := con_isSome_of_childrenOf hch
    have hmem : fixed ∈ s1.kids q := hl1.parent_kids fixed q hparq
    have hnq : ¬ Reach s1 active q := fun h => hn1 (Reach.tail h hmem)
    have hn2 : ¬ Reach (s1.setChildren q (insert_beside l1 fixed active after)) active fixed :=
      fun h => hn1 (reach_setChildren hQl hnq h)
    refine ⟨?_, ?_, ?_, ?_⟩
    · rw [hpost.parentOf, if_pos rfl, ← hpar1, hparq]
    · rw [hpost.ws_in active (Reach.reach_refl _ _), hws1]
    · rw [hpost.parentOf, if_neg hne, parentOf_setChildren, hpar1]
    · rw [hpost.ws_out fixed hn2, wsOf_setChildren, hws1]
  · have hn2 : ¬ Reach (s1.insertTop w W1 fixed active after) active fixed := by
      unfold State.insertTop
      split <;> exact fun h => hn1 ((reach_updWs _ _ _ _ _).mp h)
    have hp2 : ∀ x, (s1.insertTop w W1 fixed active after).parentOf x = s1.parentOf x := by
      intro x
      unfold State.insertTop
      split <;> exact parentOf_updWs _ _ _ x
    have hw2 : ∀ x, (s1.insertTop w W1 fixed active after).wsOf x = s1.wsOf x := by
      intro x
      unfold State.insertTop
      split <;> exact wsOf_updWs _ _ _ x
    refine ⟨?_, ?_, ?_, ?_⟩
    · rw [hpost.parentOf, if_pos rfl, ← hpar1, hparn]
    · rw [hpost.ws_in active (Reach.reach_refl _ _), ← hws1, hw]
    · rw [hpost.parentOf, if_neg hne, hp2, hpar1]
    · rw [hpost.ws_out fixed hn2, hw2, hws1]

theorem swap_list_eq {l : List Nat} {c r : Nat} (hn : l.Nodup) (hne : r ≠ c) :
    (if c ∈ l then insert_beside (l.erase r) c r true else l.erase r).erase c =
      list_swap c r (l.erase r) := by
  split
  · rename_i hc
    exact insert_beside_erase_swap ((List.mem_erase_of_ne (Ne.symm hne)).mpr hc)
      (hn.erase r) hne
  · rename_i hc
    have : c ∉ l.erase r := fun h => hc (List.mem_of_mem_erase h)
    rw [List.erase_of_not_mem this, list_swap_of_not_mem this]

theorem SiblingPost.sibling_skel {s t : State} {fixed active : Nat} {after : Bool}
    (h : SiblingPost s fixed active after t) : Skel s t := by
  obtain ⟨s1, hpre, hcase⟩ := h
  rcases hcase with ⟨q, l1, hparq, hch, hpost⟩ | ⟨w, W1, hparn, hw, hW1, hpost⟩
  · exact hpre.skel.skel_trans
      ((Skel.setChildren s1 q _ (by rw [hch]; rfl)).skel_trans hpost.skel)
  · refine hpre.skel.skel_trans (Skel.skel_trans ?_ hpost.skel)
    unfold State.insertTop
    split <;> exact Skel.skel_updWs s1 w (fun _ => rfl)

theorem option_map_congr {α β : Type} {o : Option α} {f g : α → β}
    (h : ∀ a, o = some a → f a = g a) : o.map f = o.map g := by
  cases o with
  | none => rfl
  | some a => simp [h a rfl]

theorem SameTree.same_skel {s t : State} (h : SameTree s t)
    (hs : ∀ x, (t.con x).map (·.scratchpad) = (s.con x).map (·.scratchpad)) : Skel s t where
  live := h.same_live
  wlive := h.same_wlive
  viewOf := h.same_viewOf
  split := fun x => by rw [h.same_childrenOf]
  scratch := hs
  output := fun w => h.same_wproj (fun l => l.2.2) w
  views := h.views
  outputs := h.outputs
  root_outputs := h.root_outputs

/-- The swap inside `container_replace`, for a container `c` that is attached
and not fullscreen and a replacement `r` that is neither `c` nor one of its
ancestors and is free or on a workspace. -/
theorem swap_spec {s : State} {c r : Nat} {C : sway_container} (rk : Nat → Nat) (K : Nat)
    (hK : ∀ x, rk x ≤ K) (hr : ∀ p x, x ∈ s.kids p → rk x < rk p)
    (hv : Valid s) (hl : Linked s) (hfs : FsLive s)
    (hC : s.con c = some C) (hmode : C.pending.fullscreen_mode = FULLSCREEN_NONE)
    (hatt : C.pending.parent.isSome ∨ C.pending.workspace.isSome)
    (hR : (s.con r).isSome) (hn : ¬ Reach s r c)
    (hfree : s.wsOf r = none → s.parentOf r = none) :
    Returns (fun fuel => (container_add_sibling fuel s c r true).bind fun s1 =>
        (container_detach fuel s1 c).bind fun s2 =>
          s2.modCon r (fun R => { R with width_fraction := double_to_float C.width_fraction,
                                         height_fraction := double_to_float C.height_fraction }))
      (SwapPost s c r C) := by
  have hne : c ≠ r := fun h => hn (h ▸ Reach.reach_refl s r)
  have hsib := (add_sibling_spec true hv hl ⟨rk, K, hK, hr⟩ hfs hR (by rw [hC]; rfl)
    (by simpa [State.parentOf, State.wsOf, hC] using hatt) hn).returns_with
    (fun fuel a h => calm_add_sibling h)
  refine Returns.bind hsib ?_
  rintro t1 ⟨hpost, hcalm1⟩
  obtain ⟨hv1, hl1, r2, hK2, hr2⟩ := hpost.sibling_wf hv hl hK hr hR hfree hn
  obtain ⟨hpa, hwa, hpf, hwf⟩ := hpost.sibling_links hl hv hn
  obtain ⟨hc1, ht1, hf1⟩ := hpost.sibling_lists hl hfree hn
  have hsk1 := hpost.sibling_skel
  obtain ⟨C1, hC1, hcm⟩ := hcalm1 c C hC
  have hmode1 := hcm hmode
  have hp1 : C1.pending.parent = C.pending.parent := by
    rw [← parentOf_of_con2 hC1, hpf, parentOf_of_con2 hC]
  have hw1 : C1.pending.workspace = C.pending.workspace := by
    rw [← wsOf_of_con2 hC1, hwf, wsOf_of_con2 hC]
  have hatt1 : C1.pending.parent.isSome ∨ C1.pending.workspace.isSome ∨
      C1.scratchpad = true := by
    rw [hp1, hw1]
    rcases hatt with h | h
    · exact Or.inl h
    · exact Or.inr (Or.inl h)
  have hdet := (detach_spec r2 (2 * K + 1) hv1 hl1 hr2 hK2 hC1 hatt1
    (fun h => by rw [hmode1] at h; cases h)).returns_with
    (fun fuel a h => relinked_detach h)
  refine Returns.bind hdet ?_
  rintro t2 ⟨hd, hrel2⟩
  have hv2 := hd.detach_valid hv1
  have hl2 := hd.detach_linked hl1
  have hr2b := hd.detach_rank hr2
  obtain ⟨hc2, ht2, hf2⟩ := hd.detach_lists hl1
  have hR2 : (t2.con r).isSome := by
    rw [hd.unlinked.skel.live, hsk1.live]; exact hR
  obtain ⟨R2, hR2c⟩ := Option.isSome_iff_exists.mp hR2
  refine Returns.of_some (modCon_some _ hR2c) ?_
  have hsame : SameTree t2 (t2.updCon r (fun R => { R with
      width_fraction := double_to_float C.width_fraction,
      height_fraction := double_to_float C.height_fraction })) :=
    SameTree.same_updCon t2 r (fun _ => rfl)
  -- `r` is not below `c` once it stands beside it
  have hnr : ¬ Reach t1 c r := by
    intro hreach
    rcases Relation.ReflTransGen.cases_tail hreach with h0 | ⟨z, hz, hrz⟩
    · exact hne h0.symm
    · have hpz : t1.parentOf r = some z := hl1.kids_parent z r hrz
      have hcz : t1.parentOf c = some z := by rw [hpf, ← hpa, hpz]
      have hcm : c ∈ t1.kids z := hl1.parent_kids c z hcz
      have h1 := Reach.rank_le hr2 hz
      have h2 := hr2 z c hcm
      omega
  refine ⟨hsame.same_valid hv2, hsame.same_linked hl2,
    ⟨r2, 2 * K + 1, hK2, hsame.same_rank hr2b⟩, ?_, ?_, ?_, ?_, ?_, ?_, ?_, ?_, ?_, ?_, ?_, ?_,
    ?_, ?_⟩
  · intro x
    rw [hsame.same_live, hd.unlinked.skel.live, hsk1.live]
  · intro w
    rw [hsame.same_wlive, hd.unlinked.skel.wlive, hsk1.wlive]
  · intro p
    rw [hsame.same_childrenOf, hc2, hc1, Option.map_map]
    refine option_map_congr (fun l hl0 => ?_)
    exact swap_list_eq (children_nodup hl hl0) (Ne.symm hne)
  · intro w
    have hsplit : (t1.ws w).map (fun W => W.tiling.erase c) =
        ((t1.ws w).map (·.tiling)).map (fun l => l.erase c) := by
      rw [Option.map_map]; rfl
    rw [hsame.same_tiling, ht2, hsplit, ht1, Option.map_map]
    refine option_map_congr (fun W hW => ?_)
    exact swap_list_eq (tiling_nodup hl hW).1 (Ne.symm hne)
  · intro w
    have hsplit : (t1.ws w).map (fun W => W.floating.erase c) =
        ((t1.ws w).map (·.floating)).map (fun l => l.erase c) := by
      rw [Option.map_map]; rfl
    rw [hsame.same_floating, hf2, hsplit, hf1, Option.map_map]
    refine option_map_congr (fun W hW => ?_)
    exact swap_list_eq (tiling_nodup hl hW).2 (Ne.symm hne)
  · rw [hsame.same_parentOf, hd.parentOf, if_neg (Ne.symm hne), hpa, parentOf_of_con2 hC]
  · rw [hsame.same_wsOf, hd.ws_out r hnr, hwa, wsOf_of_con2 hC]
  · rw [hsame.same_parentOf, hd.parentOf, if_pos rfl]
  · rw [hsame.same_wsOf, hd.ws_in c (Reach.reach_refl _ _)]
  · intro x hxc hxr
    rw [hsame.same_parentOf, hd.parentOf, if_neg hxc]
    obtain ⟨s1, hpre, hcase⟩ := hpost
    rcases hcase with ⟨q, l1, hparq, hch, hpost⟩ | ⟨w, W1, hparn, hw, hW1, hpost⟩
    · rw [hpost.parentOf, if_neg hxr, parentOf_setChildren, hpre.parentOf_ne hxr]
    · rw [hpost.parentOf, if_neg hxr]
      have : (s1.insertTop w W1 c r true).parentOf x = s1.parentOf x := by
        unfold State.insertTop
        split <;> exact parentOf_updWs _ _ _ x
      rw [this, hpre.parentOf_ne hxr]
  · exact ⟨{ R2 with width_fraction := double_to_float C.width_fraction,
                     height_fraction := double_to_float C.height_fraction },
      by simp [hR2c], rfl, rfl⟩
  · refine each_trans calm_preorder hcalm1 (each_trans calm_preorder
      (calm_of_relinked hrel2) ?_)
    exact each_modCon (modCon_some _ hR2c) calm_preorder (fun _ => id)
  · refine hsk1.skel_trans (hd.unlinked.skel.skel_trans (hsame.same_skel ?_))
    intro x
    by_cases hx : x = r
    · subst hx
      simp [hR2c]
    · simp [hx]
  · intro hpw x p hx
    have h1 := hpost.sibling_parent_workspace hv hl ⟨rk, K, hK, hr⟩ hn hpw
    have h2 := hd.detach_parent_workspace hl1 h1
    rw [hsame.same_parentOf] at hx
    rw [hsame.same_wsOf, hsame.same_wsOf]
    exact h2 x p hx

theorem squash_state_rank : ∀ p c, c ∈ squash_state.kids p → 8 - c < 8 - p := by
  intro p c hc
  have hp : p ∈ squash_state.ids := mem_ids (live_of_kids hc)
  revert c
  revert p
  decide

theorem squash_state_acyclic : Acyclic squash_state :=
  ⟨fun x => 8 - x, 8, fun x => Nat.sub_le 8 x, squash_state_rank⟩

/-- The swap of `container_replace`: in a well-formed state, for a container
`c` that is attached to a parent or a workspace, is not in the scratchpad and
is not fullscreen, and a replacement `r` that is neither `c` nor one of its
ancestors and is free or on a workspace (the only child of `c` included),
`container_replace(c, r)` returns, and afterwards every sibling list is the
former one with `r` taken out and `c` replaced by `r` (so `r` stands where `c`
stood and the other siblings keep their order), `r` has the former parent and
workspace of `c`, `c` has neither parent nor workspace and is in no sibling
list, and the fractions of `r` are those `c` had before the call converted to
`float`. -/
theorem replace_swaps_in_place (seat : sway_seat) (s : State) (c r : Nat) (C : sway_container)
    (hwf : TreeWF s) (ha : Acyclic s) (hfs : FsLive s)
    (hC : s.con c = some C)
    (hmode : C.pending.fullscreen_mode = FULLSCREEN_NONE) (hscr : C.scratchpad = false)
    (hatt : C.pending.parent.isSome ∨ C.pending.workspace.isSome)
    (hR : (s.con r).isSome) (hn : ¬ Reach s r c)
    (hfree : s.wsOf r = none → s.parentOf r = none) :
    Returns (fun fuel => container_replace fuel seat s c r) (fun t =>
      (∀ p, t.childrenOf p = (s.childrenOf p).map (fun l => list_swap c r (l.erase r))) ∧
      (∀ w, (t.ws w).map (·.tiling) =
        (s.ws w).map (fun W => list_swap c r (W.tiling.erase r))) ∧
      (∀ w, (t.ws w).map (·.floating) =
        (s.ws w).map (fun W => list_swap c r (W.floating.erase r))) ∧
      t.parentOf r = C.pending.parent ∧ t.wsOf r = C.pending.workspace ∧
      t.parentOf c = none ∧ t.wsOf c = none ∧
      (∀ p, c ∉ t.kids p) ∧ (∀ w, c ∉ t.tops w) ∧
      ∃ R, t.con r = some R ∧ R.width_fraction = double_to_float C.width_fraction ∧
        R.height_fraction = double_to_float C.height_fraction) := by
  obtain ⟨rk, K, hK, hr⟩ := ha
  unfold container_replace
  simp only [hC, Option.bind_eq_bind, Option.some_bind, hmode, hscr, ne_eq, not_true_eq_false,
    if_false, Bool.false_eq_true, Option.pure_def, if_pos hatt]
  refine Returns.bind (swap_spec rk K hK hr hwf.treewf_valid hwf.treewf_linked hfs hC hmode
    hatt hR hn hfree) ?_
  intro t ht
  refine Returns.of_some rfl ⟨ht.childrenOf, ht.tiling, ht.floating, ht.parent_new, ht.ws_new,
    ht.parent_old, ht.ws_old, ?_, ?_, ht.fractions⟩
  · intro p hp
    have := ht.linked.kids_parent p c hp
    rw [ht.parent_old] at this
    cases this
  · intro w hw
    have := (ht.linked.tops_top w c hw).2
    rw [ht.ws_old] at this
    cases this

theorem replace_swaps_in_place_witness :
    Returns (fun fuel => container_replace fuel {} squash_state 1 2) (fun t =>
      (∀ p, t.childrenOf p =
        (squash_state.childrenOf p).map (fun l => list_swap 1 2 (l.erase 2))) ∧
      (∀ w, (t.ws w).map (·.tiling) =
        (squash_state.ws w).map (fun W => list_swap 1 2 (W.tiling.erase 2))) ∧
      (∀ w, (t.ws w).map (·.floating) =
        (squash_state.ws w).map (fun W => list_swap 1 2 (W.floating.erase 2))) ∧
      t.parentOf 2 = some 0 ∧ t.wsOf 2 = some 0 ∧
      t.parentOf 1 = none ∧ t.wsOf 1 = none ∧
      (∀ p, 1 ∉ t.kids p) ∧ (∀ w, 1 ∉ t.tops w) ∧
      ∃ R, t.con 2 = some R ∧ R.width_fraction = double_to_float 0 ∧
        R.height_fraction = double_to_float 0) :=
  replace_swaps_in_place {} squash_state 1 2
    { pending := { layout := L_HORIZ, parent := some 0, workspace := some 0,
                   children := some [2] } }
    (by decide) squash_state_acyclic
    (FullscreenConsistent.fsc_fsLive (by decide)) rfl rfl rfl (Or.inl rfl) rfl
    (fun h => by have := Reach.rank_le squash_state_rank h; simp at this)
    (fun h => by cases h)

theorem DisablePost.disable_fsLive {s t : State} {f : Nat} {F : sway_container}
    (h : DisablePost s f F t) (hfs : FsLive s) : FsLive t := by
  intro w g hg
  rw [h.fsOf] at hg
  split at hg
  · cases hg
  · rw [h.soft.soft_live]; exact hfs w g hg

theorem FsKept.fskept_fsLive {s t : State} (h : FsKept s t) (hf : FsLive s) : FsLive t := by
  intro w f hw
  rw [h.1]
  rcases h.2 w f hw with h1 | h1
  · exact hf w f h1
  · exact h1

theorem fskept_refl (s : State) : FsKept s s :=
  ⟨fun _ => rfl, fun _ _ h => Or.inl h⟩

theorem fskept_trans {s t u : State} (h1 : FsKept s t) (h2 : FsKept t u) : FsKept s u := by
  refine ⟨fun x => (h2.1 x).trans (h1.1 x), fun w f hw => ?_⟩
  rcases h2.2 w f hw with h | h
  · exact h1.2 w f h
  · exact Or.inr (by rw [← h1.1]; exact h)

theorem fskept_of_fields {s t : State} (hc : t.containers = s.containers)
    (hw : t.workspaces = s.workspaces) : FsKept s t := by
  refine ⟨fun x => by unfold State.con; rw [hc], fun w f h => Or.inl ?_⟩
  unfold State.fsOf State.ws at h ⊢
  rw [← hw]
  exact h

theorem fskept_emit (s : State) (e : Event) : FsKept s (s.emit e) :=
  fskept_of_fields rfl rfl

theorem fskept_pure {s t : State} (h : some s = some t) : FsKept s t := by
  simp only [Option.some.injEq] at h
  subst h
  exact fskept_refl s

theorem fskept_modCon {s t : State} {c : Nat} {f : sway_container → sway_container}
    (h : s.modCon c f = some t) : FsKept s t := by
  obtain ⟨hl, rfl⟩ := modCon_eq_some h
  refine ⟨fun x => ?_, fun w g hg => Or.inl ?_⟩
  · by_cases hx : x = c
    · subst hx
      obtain ⟨C, hC⟩ := Option.isSome_iff_exists.mp hl
      simp [hC]
    · simp [hx]
  · simpa [State.fsOf] using hg

theorem fskept_modWs {s t : State} {w : Nat} {f : sway_workspace → sway_workspace}
    (h : s.modWs w f = some t)
    (hf : ∀ W o, (f W).fullscreen = some o → W.fullscreen = some o ∨ (s.con o).isSome) :
    FsKept s t := by
  unfold State.modWs at h
  cases hw : s.ws w with
  | none => simp [hw] at h
  | some W =>
    simp only [hw, Option.some.injEq] at h
    subst h
    refine ⟨fun x => by simp, fun v g hg => ?_⟩
    by_cases hv : v = w
    · subst hv
      simp only [State.fsOf, ws_updWs, if_true, hw, Option.map_some', Option.some_bind] at hg ⊢
      exact hf W g hg
    · left
      simpa [State.fsOf, hv] using hg

theorem fskept_foldlM {f : State → Nat → Option State} :
    ∀ (l : List Nat) (s t : State), (∀ u c v, c ∈ l → f u c = some v → FsKept u v) →
      l.foldlM f s = some t → FsKept s t := by
  intro l
  induction l with
  | nil =>
    intro s t _ h
    simp only [List.foldlM_nil, Option.pure_def, Option.some.injEq] at h
    subst h
    exact fskept_refl s
  | cons c l ih =>
    intro s t hf h
    simp only [List.foldlM_cons, Option.bind_eq_bind] at h
    obtain ⟨u, hu, h⟩ := Option.bind_eq_some.mp h
    exact fskept_trans (hf s c u (List.mem_cons_self _ _) hu)
      (ih u t (fun u c v hc => hf u c v (List.mem_cons_of_mem _ hc)) h)

theorem fskept_set_fullscreen {s t : State} {con : Nat} {b : Bool}
    (h : set_fullscreen s con b = some t) : FsKept s t := by
  unfold set_fullscreen at h
  simp only [Option.bind_eq_bind, Option.pure_def] at h
  obtain ⟨C, -, h⟩ := Option.bind_eq_some.mp h
  split at h
  · exact fskept_pure h
  · obtain ⟨V, -, h⟩ := Option.bind_eq_some.mp h
    exact fskept_of_fields (by
      split at h
      · split at h <;> (simp only [Option.some.injEq] at h; subst h; rfl)
      · simp only [Option.some.injEq] at h; subst h; rfl) (by
      split at h
      · split at h <;> (simp only [Option.some.injEq] at h; subst h; rfl)
      · simp only [Option.some.injEq] at h; subst h; rfl)

theorem fskept_set_geometry_from_content {s t : State} {con : Nat}
    (h : container_set_geometry_from_content s con = some t) : FsKept s t := by
  unfold container_set_geometry_from_content at h
  simp only [Option.bind_eq_bind, Option.pure_def] at h
  obtain ⟨C, -, h⟩ := Option.bind_eq_some.mp h
  cases hv : C.view.isSome
  · simp only [sway_assert, hv, Bool.false_eq_true, if_false, Bool.not_false, if_true,
      Option.some.injEq] at h
    subst h
    exact fskept_emit _ _
  · simp only [sway_assert, hv, if_true, Bool.not_true, Bool.false_eq_true, if_false] at h
    obtain ⟨b, -, h⟩ := Option.bind_eq_some.mp h
    cases b
    · simp only [Bool.false_eq_true, if_false, Bool.not_false, if_true, Option.some.injEq] at h
      subst h
      exact fskept_emit _ _
    · simp only [if_true, Bool.not_true, Bool.false_eq_true, if_false] at h
      exact fskept_modCon h

theorem fskept_floating_natural_resize {s t : State} {con : Nat}
    (h : floating_natural_resize s con = some t) : FsKept s t := by
  unfold floating_natural_resize at h
  simp only [Option.bind_eq_bind, Option.pure_def] at h
  obtain ⟨C, -, h⟩ := Option.bind_eq_some.mp h
  split at h
  · exact fskept_modCon h
  · obtain ⟨V, -, h⟩ := Option.bind_eq_some.mp h
    obtain ⟨u, hu, h⟩ := Option.bind_eq_some.mp h
    exact fskept_trans (fskept_modCon hu)
      (fskept_set_geometry_from_content h)

theorem fskept_floating_resize_and_center {s t : State} {con : Nat}
    (h : container_floating_resize_and_center s con = some t) : FsKept s t := by
  unfold container_floating_resize_and_center at h
  simp only [Option.bind_eq_bind, Option.pure_def] at h
  obtain ⟨C, -, h⟩ := Option.bind_eq_some.mp h
  split at h
  · exact fskept_floating_natural_resize h
  · obtain ⟨W, -, h⟩ := Option.bind_eq_some.mp h
    obtain ⟨o, -, h⟩ := Option.bind_eq_some.mp h
    obtain ⟨O, -, h⟩ := Option.bind_eq_some.mp h
    split at h
    · exact fskept_modCon h
    · obtain ⟨u, hu, h⟩ := Option.bind_eq_some.mp h
      refine fskept_trans (fskept_floating_natural_resize hu) ?_
      obtain ⟨D, -, h⟩ := Option.bind_eq_some.mp h
      split at h
      · split at h <;> exact fskept_modCon h
      · obtain ⟨u1, hu1, h⟩ := Option.bind_eq_some.mp h
        obtain ⟨u2, hu2, h⟩ := Option.bind_eq_some.mp h
        have h1 : FsKept u u1 := by
          split at hu1 <;> exact fskept_modCon hu1
        exact fskept_trans h1 (fskept_trans
          (fskept_modCon hu2)
          (fskept_set_geometry_from_content h))

theorem fskept_floating_translate (dx dy : ℚ) :
    ∀ (fuel : Nat) (s t : State) (con : Nat),
      container_floating_translate fuel s con dx dy = some t → FsKept s t := by
  intro fuel
  induction fuel with
  | zero => intro s t con h; simp [container_floating_translate] at h
  | succ fuel ih =>
    intro s t con h
    simp only [container_floating_translate, Option.bind_eq_bind, Option.pure_def] at h
    obtain ⟨u, hu, h⟩ := Option.bind_eq_some.mp h
    obtain ⟨C, -, h⟩ := Option.bind_eq_some.mp h
    obtain ⟨u1, hu1, h⟩ := Option.bind_eq_some.mp h
    refine fskept_trans (fskept_modCon hu)
      (fskept_trans ?_
        (fskept_modCon h))
    split at hu1
    · exact fskept_foldlM _ _ _ (fun a c b _ hab => ih a b c hab) hu1
    · exact fskept_pure hu1

theorem fskept_floating_move_to_center {fuel : Nat} {s t : State} {con : Nat}
    (h : container_floating_move_to_center fuel s con = some t) : FsKept s t := by
  unfold container_floating_move_to_center at h
  simp only [Option.bind_eq_bind, Option.pure_def] at h
  obtain ⟨b, -, h⟩ := Option.bind_eq_some.mp h
  cases b
  · simp only [sway_assert, Bool.false_eq_true, if_false, Bool.not_false, if_true,
      Option.some.injEq] at h
    subst h
    exact fskept_emit _ _
  · simp only [sway_assert, if_true, Bool.not_true, Bool.false_eq_true, if_false] at h
    obtain ⟨C, -, h⟩ := Option.bind_eq_some.mp h
    obtain ⟨w, -, h⟩ := Option.bind_eq_some.mp h
    obtain ⟨W, -, h⟩ := Option.bind_eq_some.mp h
    exact fskept_floating_translate _ _ _ _ _ _ h

theorem fskept_fullscreen_disable {fuel : Nat} {s t : State} {con : Nat}
    (h : container_fullscreen_disable fuel s con = some t) : FsKept s t := by
  unfold container_fullscreen_disable at h
  simp only [Option.bind_eq_bind, Option.pure_def] at h
  obtain ⟨C, -, h⟩ := Option.bind_eq_some.mp h
  by_cases hm : C.pending.fullscreen_mode = FULLSCREEN_NONE
  · simp only [sway_assert, hm, ne_eq, not_true_eq_false, decide_False, Bool.false_eq_true,
      if_false, Bool.not_false, if_true, Option.some.injEq] at h
    subst h
    exact fskept_emit _ _
  · simp only [sway_assert, hm, ne_eq, not_false_eq_true, decide_True, if_true, Bool.not_true,
      Bool.false_eq_true, if_false] at h
    obtain ⟨u1, hu1, h⟩ := Option.bind_eq_some.mp h
    obtain ⟨b1, -, h⟩ := Option.bind_eq_some.mp h
    obtain ⟨u2, hu2, h⟩ := Option.bind_eq_some.mp h
    obtain ⟨u3, hu3, h⟩ := Option.bind_eq_some.mp h
    obtain ⟨C1, -, h⟩ := Option.bind_eq_some.mp h
    obtain ⟨b2, -, h⟩ := Option.bind_eq_some.mp h
    obtain ⟨u4, hu4, h⟩ := Option.bind_eq_some.mp h
    obtain ⟨u5, hu5, h⟩ := Option.bind_eq_some.mp h
    have h2 : FsKept u1 u2 := by
      split at hu2
      · exact fskept_modCon hu2
      · exact fskept_pure hu2
    have h3 : FsKept u2 u3 := by
      split at hu3
      · split at hu3
        · obtain ⟨v1, hv1, hu3⟩ := Option.bind_eq_some.mp hu3
          obtain ⟨b3, -, hu3⟩ := Option.bind_eq_some.mp hu3
          refine fskept_trans (fskept_modWs hv1 (fun _ _ ho => by cases ho)) ?_
          split at hu3
          · obtain ⟨o, -, hu3⟩ := Option.bind_eq_some.mp hu3
            obtain ⟨W, -, hu3⟩ := Option.bind_eq_some.mp hu3
            split at hu3
            · exact fskept_floating_move_to_center hu3
            · exact fskept_pure hu3
          · exact fskept_pure hu3
        · exact fskept_pure hu3
      · simp only [Option.some.injEq] at hu3; subst hu3
        exact fskept_of_fields rfl rfl
    have h4 : FsKept u3 u4 := by
      split at hu4
      · exact fskept_floating_resize_and_center hu4
      · exact fskept_pure hu4
    have h5 : FsKept u4 u5 := fskept_modCon hu5
    have h6 : FsKept u5 t := by
      exact fskept_of_fields (by
        split at h <;> (simp only [Option.some.injEq] at h; subst h; rfl)) (by
        split at h <;> (simp only [Option.some.injEq] at h; subst h; rfl))
    exact fskept_trans (fskept_set_fullscreen hu1)
      (fskept_trans h2 (fskept_trans h3
        (fskept_trans h4 (fskept_trans h5 h6))))

theorem fskept_handle_fullscreen_reparent {fuel : Nat} {s t : State} {con : Nat}
    (h : container_handle_fullscreen_reparent fuel s con = some t) : FsKept s t := by
  unfold container_handle_fullscreen_reparent at h
  simp only [Option.bind_eq_bind, Option.pure_def] at h
  obtain ⟨C, hC, h⟩ := Option.bind_eq_some.mp h
  split at h
  · exact fskept_pure h
  · split at h
    · exact fskept_pure h
    · obtain ⟨W, -, h⟩ := Option.bind_eq_some.mp h
      split at h
      · exact fskept_pure h
      · obtain ⟨u1, hu1, h⟩ := Option.bind_eq_some.mp h
        obtain ⟨u2, hu2, h⟩ := Option.bind_eq_some.mp h
        simp only [Option.some.injEq] at h
        subst h
        have h1 : FsKept s u1 := by
          split at hu1
          · exact fskept_fullscreen_disable hu1
          · exact fskept_pure hu1
        have hlive : (u1.con con).isSome := by rw [h1.1, hC]; rfl
        exact fskept_trans h1 (fskept_trans
          (fskept_modWs hu2 (fun _ o ho => Or.inr (by cases ho; exact hlive)))
          (fskept_of_fields rfl rfl))

theorem fskept_writeList {s t : State} {r : SiblingList} {l : List Nat}
    (h : s.writeList r l = some t) : FsKept s t := by
  cases r with
  | children p => exact fskept_modCon h
  | tiling w => exact fskept_modWs h (fun _ _ ho => Or.inl ho)
  | floating w => exact fskept_modWs h (fun _ _ ho => Or.inl ho)

theorem fskept_set_workspace {s t : State} {c : Nat} (h : set_workspace s c = some t) :
    FsKept s t := by
  unfold set_workspace at h
  simp only [Option.bind_eq_bind] at h
  obtain ⟨C, -, h⟩ := Option.bind_eq_some.mp h
  obtain ⟨p, -, h⟩ := Option.bind_eq_some.mp h
  obtain ⟨P, -, h⟩ := Option.bind_eq_some.mp h
  exact fskept_modCon h

theorem fskept_cascade :
    ∀ (fuel : Nat) (s t : State) (c : Nat),
      container_for_each_child fuel set_workspace s c = some t → FsKept s t := by
  intro fuel
  induction fuel with
  | zero => intro s t c h; simp [container_for_each_child] at h
  | succ fuel ih =>
    intro s t c h
    simp only [container_for_each_child, Option.bind_eq_bind, Option.pure_def] at h
    obtain ⟨C, -, h⟩ := Option.bind_eq_some.mp h
    split at h
    · refine fskept_foldlM _ _ _ ?_ h
      intro u y v _ huv
      obtain ⟨u1, hu1, huv⟩ := Option.bind_eq_some.mp huv
      exact fskept_trans (fskept_set_workspace hu1) (ih u1 v y huv)
    · exact fskept_pure h

theorem fskept_update_representation :
    ∀ (fuel : Nat) (s t : State) (c : Nat),
      container_update_representation fuel s c = some t → FsKept s t := by
  intro fuel
  induction fuel with
  | zero => intro s t c h; simp [container_update_representation] at h
  | succ fuel ih =>
    intro s t c h
    simp only [container_update_representation, Option.bind_eq_bind, Option.pure_def] at h
    obtain ⟨C, -, h⟩ := Option.bind_eq_some.mp h
    obtain ⟨u1, hu1, h⟩ := Option.bind_eq_some.mp h
    have h1 : FsKept s u1 := by
      split at hu1
      · obtain ⟨l, -, hu1⟩ := Option.bind_eq_some.mp hu1
        obtain ⟨r, -, hu1⟩ := Option.bind_eq_some.mp hu1
        obtain ⟨u2, hu2, hu1⟩ := Option.bind_eq_some.mp hu1
        simp only [Option.some.injEq] at hu1
        subst hu1
        exact fskept_trans
          (fskept_modCon hu2)
          (fskept_emit _ _)
      · exact fskept_pure hu1
    refine fskept_trans h1 ?_
    split at h
    · exact ih _ _ _ h
    · split at h <;> (simp only [Option.some.injEq] at h; subst h)
      · exact fskept_emit _ _
      · exact fskept_refl _

theorem fskept_detach {fuel : Nat} {s t : State} {child : Nat}
    (h : container_detach fuel s child = some t) : FsKept s t := by
  unfold container_detach at h
  simp only [Option.bind_eq_bind, Option.pure_def] at h
  obtain ⟨C, -, h⟩ := Option.bind_eq_some.mp h
  obtain ⟨u1, hu1, h⟩ := Option.bind_eq_some.mp h
  obtain ⟨sib, -, h⟩ := Option.bind_eq_some.mp h
  obtain ⟨u2, hu2, h⟩ := Option.bind_eq_some.mp h
  obtain ⟨u3, hu3, h⟩ := Option.bind_eq_some.mp h
  obtain ⟨u4, hu4, h⟩ := Option.bind_eq_some.mp h
  obtain ⟨u5, hu5, h⟩ := Option.bind_eq_some.mp h
  have h1 : FsKept s u1 := by
    split at hu1
    · obtain ⟨w, -, hu1⟩ := Option.bind_eq_some.mp hu1
      exact fskept_modWs hu1 (fun _ _ ho => by cases ho)
    · exact fskept_pure hu1
  have h1b : FsKept u1 (if C.pending.fullscreen_mode = FULLSCREEN_GLOBAL then
      ({ u1 with fullscreen_global := none } : State) else u1) := by
    split
    · exact fskept_of_fields rfl rfl
    · exact fskept_refl _
  have h2 : FsKept (if C.pending.fullscreen_mode = FULLSCREEN_GLOBAL then
      ({ u1 with fullscreen_global := none } : State) else u1) u2 := by
    split at hu2
    · obtain ⟨l, hl, hu2⟩ := Option.bind_eq_some.mp hu2
      split at hu2
      · obtain ⟨l2, -, hu2⟩ := Option.bind_eq_some.mp hu2
        exact fskept_writeList hu2
      · exact fskept_pure hu2
    · exact fskept_pure hu2
  have h3 : FsKept u2 u3 := fskept_modCon hu3
  have h4 : FsKept u3 u4 := fskept_cascade _ _ _ _ hu4
  have h5 : FsKept u4 u5 := by
    split at hu5
    · obtain ⟨v, hv, hu5⟩ := Option.bind_eq_some.mp hu5
      exact fskept_trans (fskept_update_representation _ _ _ _ hv)
        (fskept_modCon hu5)
    · split at hu5
      · exact fskept_trans (fskept_emit _ _)
          (fskept_modWs hu5 (fun _ _ ho => Or.inl ho))
      · exact fskept_pure hu5
  exact fskept_trans h1 (fskept_trans h1b
    (fskept_trans h2 (fskept_trans h3
      (fskept_trans h4 (fskept_trans h5
        (fskept_modCon h))))))

theorem fskept_add_sibling {fuel : Nat} {s t : State} {fixed active : Nat} {after : Bool}
    (h : container_add_sibling fuel s fixed active after = some t) : FsKept s t := by
  unfold container_add_sibling at h
  simp only [Option.bind_eq_bind, Option.pure_def] at h
  obtain ⟨A, -, h⟩ := Option.bind_eq_some.mp h
  obtain ⟨u1, hu1, h⟩ := Option.bind_eq_some.mp h
  obtain ⟨sib, -, h⟩ := Option.bind_eq_some.mp h
  obtain ⟨sib1, -, h⟩ := Option.bind_eq_some.mp h
  obtain ⟨l, -, h⟩ := Option.bind_eq_some.mp h
  obtain ⟨l2, -, h⟩ := Option.bind_eq_some.mp h
  obtain ⟨u2, hu2, h⟩ := Option.bind_eq_some.mp h
  obtain ⟨F, -, h⟩ := Option.bind_eq_some.mp h
  obtain ⟨u3, hu3, h⟩ := Option.bind_eq_some.mp h
  obtain ⟨u4, hu4, h⟩ := Option.bind_eq_some.mp h
  obtain ⟨u5, hu5, h⟩ := Option.bind_eq_some.mp h
  have h1 : FsKept s u1 := by
    split at hu1
    · exact (fskept_detach hu1)
    · exact fskept_pure hu1
  exact fskept_trans h1 (fskept_trans
    ((fskept_writeList hu2)) (fskept_trans
    (fskept_modCon hu3) (fskept_trans
    ((fskept_cascade _ _ _ _ hu4)) (fskept_trans
    (fskept_handle_fullscreen_reparent hu5)
    ((fskept_update_representation _ _ _ _ h))))))

theorem fskept_swap {fuel : Nat} {s t : State} {c r : Nat} {f : sway_container → sway_container}
    (h : ((container_add_sibling fuel s c r true).bind fun s1 =>
        (container_detach fuel s1 c).bind fun s2 => s2.modCon r f) = some t) : FsKept s t := by
  obtain ⟨u1, hu1, h⟩ := Option.bind_eq_some.mp h
  obtain ⟨u2, hu2, h⟩ := Option.bind_eq_some.mp h
  exact fskept_trans (fskept_add_sibling hu1) (fskept_trans (fskept_detach hu2) (fskept_modCon h))

theorem relinked_shape {C D : sway_container} (h : Relinked C D) : D.shape = C.shape := by
  have h1 := congrArg (fun X => X.shape) h.1
  exact h1

theorem relinked_fractions {C D : sway_container} (h : Relinked C D) :
    D.width_fraction = C.width_fraction ∧ D.height_fraction = C.height_fraction :=
  ⟨congrArg (fun X => X.width_fraction) h.1, congrArg (fun X => X.height_fraction) h.1⟩

/-- For a container that is not fullscreen `container_handle_fullscreen_reparent`
does nothing. -/
theorem handle_fullscreen_reparent_calm {fuel : Nat} {s t : State} {c : Nat}
    {C : sway_container} (hC : s.con c = some C)
    (hm : C.pending.fullscreen_mode = FULLSCREEN_NONE)
    (h : container_handle_fullscreen_reparent fuel s c = some t) : t = s := by
  unfold container_handle_fullscreen_reparent at h
  simp only [hC, Option.bind_eq_bind, Option.some_bind, hm, ne_eq, Option.pure_def] at h
  split at h
  · exact (Option.some.inj h).symm
  · simp only [not_false_eq_true, if_true, Option.some.injEq, reduceCtorEq] at h
    exact h.symm

/-- When the inserted container is not fullscreen, `container_add_sibling`
writes links, titles and dirty flags only. -/
theorem relinked_add_sibling_calm {fuel : Nat} {s t : State} {fixed active : Nat} {after : Bool}
    {A : sway_container} (hA : s.con active = some A)
    (hm : A.pending.fullscreen_mode = FULLSCREEN_NONE)
    (h : container_add_sibling fuel s fixed active after = some t) : Each Relinked s t := by
  unfold container_add_sibling at h
  simp only [Option.bind_eq_bind, Option.pure_def] at h
  obtain ⟨A0, hA0, h⟩ := Option.bind_eq_some.mp h
  obtain ⟨u1, hu1, h⟩ := Option.bind_eq_some.mp h
  obtain ⟨sib, -, h⟩ := Option.bind_eq_some.mp h
  obtain ⟨sib1, -, h⟩ := Option.bind_eq_some.mp h
  obtain ⟨l, -, h⟩ := Option.bind_eq_some.mp h
  obtain ⟨l2, -, h⟩ := Option.bind_eq_some.mp h
  obtain ⟨u2, hu2, h⟩ := Option.bind_eq_some.mp h
  obtain ⟨F, -, h⟩ := Option.bind_eq_some.mp h
  obtain ⟨u3, hu3, h⟩ := Option.bind_eq_some.mp h
  obtain ⟨u4, hu4, h⟩ := Option.bind_eq_some.mp h
  obtain ⟨u5, hu5, h⟩ := Option.bind_eq_some.mp h
  have h1 : Each Relinked s u1 := by
    split at hu1
    · exact relinked_detach hu1
    · exact each_pure relinked_preorder hu1
  have h4 : Each Relinked s u4 :=
    each_trans relinked_preorder h1 (each_trans relinked_preorder (relinked_writeList hu2)
      (each_trans relinked_preorder (each_modCon hu3 relinked_preorder (fun _ => ⟨rfl, id⟩))
        (relinked_cascade _ _ _ _ hu4)))
  obtain ⟨A4, hA4, hrel⟩ := h4 active A hA
  have hm4 : A4.pending.fullscreen_mode = FULLSCREEN_NONE := by
    rw [(relinked_links hrel).2.2.2.1, hm]
  rw [handle_fullscreen_reparent_calm hA4 hm4 hu5] at h
  exact each_trans relinked_preorder h4 (relinked_update_representation _ _ _ _ h)

theorem EnterWorkspacePost.enter_fsLive {s t : State} {c : Nat} {C : sway_container}
    (h : EnterWorkspacePost s c C t) (hC : s.con c = some C) (hfs : FsLive s) : FsLive t := by
  intro w f hf
  rw [h.fsOf] at hf
  rw [h.soft.soft_live]
  split at hf
  · cases hf
    rw [hC]; rfl
  · exact hfs w f hf

theorem EnterGlobalPost.enter_global_fsLive {s t : State} {c : Nat} {C : sway_container}
    (h : EnterGlobalPost s c C t) (hfs : FsLive s) : FsLive t := by
  intro w f hf
  rw [h.soft.soft_live]
  refine hfs w f ?_
  simpa [State.fsOf, h.ws] using hf

/-- The last step of `container_replace`: the replacement enters the
fullscreen mode `m` when it is not fullscreen itself; nothing else changes
beyond its mode and saved geometry and the back-reference of the scope. -/
theorem restore_fullscreen_spec {s : State} (hv : Valid s) (hfs : FsLive s) {r : Nat}
    {R : sway_container} (hR : s.con r = some R) (m : sway_fullscreen_mode) :
    ∃ t, ((match m with
        | FULLSCREEN_WORKSPACE => container_fullscreen_workspace s r
        | FULLSCREEN_GLOBAL => container_fullscreen_global s r
        | FULLSCREEN_NONE => some s) : Option State) = some t ∧
      Soft s t ∧ FsLive t ∧ (∀ x, x ≠ r → t.con x = s.con x) ∧
      ∃ Y, t.con r = some Y ∧ Y.shape = R.shape ∧ Y.width_fraction = R.width_fraction ∧
        Y.height_fraction = R.height_fraction ∧
        (R.pending.fullscreen_mode = FULLSCREEN_NONE → Y.pending.fullscreen_mode = m) := by
  have hfail : ∀ msg : String, Soft s (s.emit (.assert_failed msg)) ∧
      FsLive (s.emit (.assert_failed msg)) ∧
      (∀ x, x ≠ r → (s.emit (.assert_failed msg)).con x = s.con x) ∧
      ∃ Y, (s.emit (.assert_failed msg)).con r = some Y ∧ Y.shape = R.shape ∧
        Y.width_fraction = R.width_fraction ∧ Y.height_fraction = R.height_fraction := by
    intro msg
    exact ⟨Soft.soft_emit _ _, (fskept_emit s _).fskept_fsLive hfs, fun _ _ => rfl, R, hR, rfl,
      rfl, rfl⟩
  cases m with
  | FULLSCREEN_NONE =>
    exact ⟨s, rfl, Soft.soft_refl s, hfs, fun _ _ => rfl, R, hR, rfl, rfl, rfl, fun h => h⟩
  | FULLSCREEN_WORKSPACE =>
    by_cases hm : R.pending.fullscreen_mode = FULLSCREEN_NONE
    · obtain ⟨t, ht, hp⟩ := fullscreen_workspace_spec hv hR hm
      exact ⟨t, ht, hp.soft, hp.enter_fsLive hR hfs, hp.con_rest, _, hp.con_self, rfl, rfl, rfl,
        fun _ => rfl⟩
    · obtain ⟨h1, h2, h3, Y, h4, h5, h6, h7⟩ := hfail "Expected a non-fullscreen container"
      refine ⟨_, ?_, h1, h2, h3, Y, h4, h5, h6, h7, fun h => absurd h hm⟩
      unfold container_fullscreen_workspace
      simp [hR, sway_assert, hm]
  | FULLSCREEN_GLOBAL =>
    by_cases hm : R.pending.fullscreen_mode = FULLSCREEN_NONE
    · obtain ⟨t, ht, hp⟩ := fullscreen_global_spec hv hR hm
      exact ⟨t, ht, hp.soft, hp.enter_global_fsLive hfs, hp.con_rest, _, hp.con_self, rfl, rfl,
        rfl, fun _ => rfl⟩
    · obtain ⟨h1, h2, h3, Y, h4, h5, h6, h7⟩ := hfail "Expected a non-fullscreen container"
      refine ⟨_, ?_, h1, h2, h3, Y, h4, h5, h6, h7, fun h => absurd h hm⟩
      unfold container_fullscreen_global
      simp [hR, sway_assert, hm]

theorem swap_shape_calm {fuel : Nat} {s t : State} {c r : Nat} {X : sway_container}
    {f : sway_container → sway_container} (hX : s.con r = some X)
    (hm : X.pending.fullscreen_mode = FULLSCREEN_NONE)
    (hf : ∀ C, (f C).shape = C.shape ∧
      (f C).pending.fullscreen_mode = C.pending.fullscreen_mode)
    (h : ((container_add_sibling fuel s c r true).bind fun s1 =>
        (container_detach fuel s1 c).bind fun s2 => s2.modCon r f) = some t) :
    ∃ Y, t.con r = some Y ∧ Y.shape = X.shape ∧
      Y.pending.fullscreen_mode = FULLSCREEN_NONE := by
  obtain ⟨u1, hu1, h⟩ := Option.bind_eq_some.mp h
  obtain ⟨u2, hu2, h⟩ := Option.bind_eq_some.mp h
  obtain ⟨X2, hX2, hrel⟩ := each_trans relinked_preorder
    (relinked_add_sibling_calm hX hm hu1) (relinked_detach hu2) r X hX
  obtain ⟨-, rfl⟩ := modCon_eq_some h
  refine ⟨f X2, by simp [hX2], ?_, ?_⟩
  · rw [(hf X2).1, relinked_shape hrel]
  · rw [(hf X2).2, (relinked_links hrel).2.2.2.1, hm]

theorem core_fractions {C D : sway_container} (h : D.core = C.core) :
    D.width_fraction = C.width_fraction ∧ D.height_fraction = C.height_fraction :=
  ⟨congrArg (fun X => X.width_fraction) h, congrArg (fun X => X.height_fraction) h⟩

theorem Soft.soft_tiling {s t : State} (h : Soft s t) (w : Nat) :
    (t.ws w).map (·.tiling) = (s.ws w).map (·.tiling) :=
  h.wproj (·.tiling) (fun _ => rfl) w

theorem Soft.soft_floating {s t : State} (h : Soft s t) (w : Nat) :
    (t.ws w).map (·.floating) = (s.ws w).map (·.floating) :=
  h.wproj (·.floating) (fun _ => rfl) w

/-- The swap of `container_replace` between two states that have the trees of
`s` and of `t`. -/
theorem ReplacePost.of_swap {s s0 t1 t : State} {c r : Nat} {C C0 : sway_container}
    (h : SwapPost s0 c r C0 t1) (h0 : Soft s s0) (h1 : Soft t1 t) (hfs : FsLive t)
    (hp : C0.pending.parent = C.pending.parent) (hw : C0.pending.workspace = C.pending.workspace)
    (hfr : C0.width_fraction = C.width_fraction ∧ C0.height_fraction = C.height_fraction)
    (hfr1 : ∀ Y1 Y, t1.con r = some Y1 → t.con r = some Y →
      Y.width_fraction = Y1.width_fraction ∧ Y.height_fraction = Y1.height_fraction)
    (hmode : t.modeOf c = some FULLSCREEN_NONE)
    (hself : ∀ X, s.con r = some X → X.pending.fullscreen_mode = FULLSCREEN_NONE →
      ¬ Reach s c r → ∃ Y, t.con r = some Y ∧ Y.shape = X.shape ∧
        Y.pending.fullscreen_mode = C.pending.fullscreen_mode) :
    ReplacePost s c r C t where
  valid := h1.soft_valid h.valid
  linked := h1.soft_linked h.linked
  acyclic := h1.soft_acyclic h.acyclic
  fsLive := hfs
  skel := h0.soft_skel.skel_trans (h.skel.skel_trans h1.soft_skel)
  childrenOf := fun p => by rw [h1.soft_childrenOf, h.childrenOf, h0.soft_childrenOf]
  tiling := fun w => by
    rw [h1.soft_tiling, h.tiling]
    exact h0.wproj (fun W => list_swap c r (W.tiling.erase r)) (fun _ => rfl) w
  floating := fun w => by
    rw [h1.soft_floating, h.floating]
    exact h0.wproj (fun W => list_swap c r (W.floating.erase r)) (fun _ => rfl) w
  parent_new := by rw [h1.soft_parentOf, h.parent_new, hp]
  ws_new := by rw [h1.soft_wsOf, h.ws_new, hw]
  parent_old := by rw [h1.soft_parentOf, h.parent_old]
  ws_old := by rw [h1.soft_wsOf, h.ws_old]
  parent_rest := fun x hxc hxr => by
    rw [h1.soft_parentOf, h.parent_rest x hxc hxr, h0.soft_parentOf]
  fractions := by
    obtain ⟨R1, hR1, hf1, hf2⟩ := h.fractions
    obtain ⟨Y, hY, -⟩ := h1.soft_con_some hR1
    obtain ⟨e1, e2⟩ := hfr1 R1 Y hR1 hY
    exact ⟨Y, hY, by rw [e1, hf1, hfr.1], by rw [e2, hf2, hfr.2]⟩
  mode_old := hmode
  self := hself
  pwc := fun hpw => h1.soft_parent_workspace (h.pwc (h0.soft_parent_workspace hpw))

/-- The specification of `container_replace` for a container `c` that is
attached and not a scratchpad member and a replacement `r` that is neither `c`
nor one of its ancestors and is free or on a workspace. -/
theorem replace_plain_spec (seat : sway_seat) {s : State} {c r : Nat} {C : sway_container}
    (rk : Nat → Nat) (K : Nat)
    (hK : ∀ x, rk x ≤ K) (hr : ∀ p x, x ∈ s.kids p → rk x < rk p)
    (hv : Valid s) (hl : Linked s) (hfs : FsLive s)
    (hC : s.con c = some C) (hscr : C.scratchpad = false)
    (hatt : C.pending.parent.isSome ∨ C.pending.workspace.isSome)
    (hR : (s.con r).isSome) (hn : ¬ Reach s r c)
    (hfree : s.wsOf r = none → s.parentOf r = none) :
    Returns (fun fuel => container_replace fuel seat s c r) (ReplacePost s c r C) := by
  have hne : c ≠ r := fun h => hn (h ▸ Reach.reach_refl s r)
  have ha : Acyclic s := ⟨rk, K, hK, hr⟩
  unfold container_replace
  by_cases hm : C.pending.fullscreen_mode = FULLSCREEN_NONE
  · simp only [hC, Option.bind_eq_bind, Option.some_bind, hm, hscr, ne_eq, not_true_eq_false,
      if_false, Bool.false_eq_true, Option.pure_def, if_pos hatt]
    refine Returns.bind (((swap_spec rk K hK hr hv hl hfs hC hm hatt hR hn
      hfree).returns_with (fun fuel a h => fskept_swap h)).returns_with
      (fun fuel a h => (fun X (hX : s.con r = some X)
        (hXm : X.pending.fullscreen_mode = FULLSCREEN_NONE) =>
          @swap_shape_calm fuel s a c r X (fun R => { R with
            width_fraction := double_to_float C.width_fraction,
            height_fraction := double_to_float C.height_fraction })
            hX hXm (fun _ => ⟨rfl, rfl⟩) h))) ?_
    rintro t1 ⟨⟨hsw, hk⟩, hshape⟩
    refine Returns.of_some rfl (ReplacePost.of_swap hsw (Soft.soft_refl s) (Soft.soft_refl t1)
      (hk.fskept_fsLive hfs) rfl rfl ⟨rfl, rfl⟩ ?_ ?_ ?_)
    · intro Y1 Y h1 h2
      rw [h1] at h2
      cases h2
      exact ⟨rfl, rfl⟩
    · obtain ⟨C1, hC1, hcalm⟩ := hsw.calm c C hC
      rw [modeOf_of_con hC1, hcalm hm]
    · intro X hX hXm _
      obtain ⟨Y, hY, hs, hmY⟩ := hshape X hX hXm
      exact ⟨Y, hY, hs, by rw [hmY, hm]⟩
  · simp only [hC, Option.bind_eq_bind, Option.some_bind, hscr, ne_eq, hm, not_false_eq_true,
      if_true, Bool.false_eq_true, if_false, Option.pure_def]
    refine Returns.bind (fullscreen_disable_spec hv ha hC hm) ?_
    intro t0 hd
    obtain ⟨C0, hC0, hcore⟩ := hd.soft.soft_con_some hC
    refine Returns.bind_some hC0 ?_
    have hp0 : C0.pending.parent = C.pending.parent := core_parent hcore
    have hw0 : C0.pending.workspace = C.pending.workspace := core_workspace hcore
    have hatt0 : C0.pending.parent.isSome ∨ C0.pending.workspace.isSome := by
      rw [hp0, hw0]; exact hatt
    have hmode0 : C0.pending.fullscreen_mode = FULLSCREEN_NONE := by
      have := hd.mode_self
      rw [modeOf_of_con hC0] at this
      exact Option.some.inj this
    have hr0 : ∀ p x, x ∈ t0.kids p → rk x < rk p :=
      fun p x hx => hr p x (by rw [← hd.soft.soft_kids]; exact hx)
    have hfs0 := hd.disable_fsLive hfs
    simp only [if_pos hatt0]
    refine Returns.bind (((swap_spec rk K hK hr0 (hd.soft.soft_valid hv)
      (hd.soft.soft_linked hl) hfs0 hC0 hmode0 hatt0
      (by rw [hd.soft.soft_live]; exact hR)
      (fun h => hn ((hd.soft.soft_reach r c).mp h))
      (by rw [hd.soft.soft_wsOf, hd.soft.soft_parentOf]; exact hfree)).returns_with
      (fun fuel a h => fskept_swap h)).returns_with
      (fun fuel a h => (fun X (hX : t0.con r = some X)
        (hXm : X.pending.fullscreen_mode = FULLSCREEN_NONE) =>
          @swap_shape_calm fuel t0 a c r X (fun R => { R with
            width_fraction := double_to_float C0.width_fraction,
            height_fraction := double_to_float C0.height_fraction })
            hX hXm (fun _ => ⟨rfl, rfl⟩) h))) ?_
    rintro t1 ⟨⟨hsw, hk⟩, hshape⟩
    obtain ⟨R1, hR1⟩ := Option.isSome_iff_exists.mp
      (show (t1.con r).isSome by rw [hsw.live, hd.soft.soft_live]; exact hR)
    obtain ⟨t, ht, hsoft, hfst, hrest, Y, hY, hYs, hYw, hYh, hYm⟩ :=
      restore_fullscreen_spec hsw.valid (hk.fskept_fsLive hfs0) hR1 C.pending.fullscreen_mode
    refine Returns.of_some ht (ReplacePost.of_swap hsw hd.soft hsoft hfst hp0 hw0
      (core_fractions hcore) ?_ ?_ ?_)
    · intro Y1 Y2 h1 h2
      rw [hR1] at h1
      rw [hY] at h2
      cases h1
      cases h2
      exact ⟨hYw, hYh⟩
    · obtain ⟨C1, hC1, hcalm⟩ := hsw.calm c C0 hC0
      rw [State.modeOf, hrest c hne, hC1]
      simp [hcalm hmode0]
    · intro X hX hXm hnr
      have hX0 : t0.con r = some X := by
        rw [hd.con_rest r]
        · exact hX
        · rintro (h | ⟨-, h⟩)
          · exact hne h.symm
          · exact hnr h
      obtain ⟨Y1, hY1, hs1, hm1⟩ := hshape X hX0 hXm
      rw [hR1] at hY1
      cases hY1
      exact ⟨Y, hY, by rw [hYs, hs1], hYm hm1⟩

theorem Fresh.fresh_ws {s t : State} {w : Nat} (h : Fresh s w t) (v : Nat) : t.ws v = s.ws v := by
  unfold State.ws; rw [h.workspaces]

theorem Fresh.fresh_parentOf {s t : State} {w : Nat} (h : Fresh s w t) (x : Nat) :
    t.parentOf x = s.parentOf x := by
  by_cases hx : x = w
  · subst hx
    obtain ⟨D, hD, -, hp, -⟩ := h.new
    simp [State.parentOf, hD, hp, h.before]
  · simp [State.parentOf, h.old x hx]

theorem Fresh.fresh_wsOf {s t : State} {w : Nat} (h : Fresh s w t) (x : Nat) :
    t.wsOf x = s.wsOf x := by
  by_cases hx : x = w
  · subst hx
    obtain ⟨D, hD, -, -, hp, -⟩ := h.new
    simp [State.wsOf, hD, hp, h.before]
  · simp [State.wsOf, h.old x hx]

theorem Fresh.fresh_kids {s t : State} {w : Nat} (h : Fresh s w t) (x : Nat) :
    t.kids x = s.kids x := by
  by_cases hx : x = w
  · subst hx
    obtain ⟨D, hD, -, -, -, hp, -⟩ := h.new
    simp [State.kids, State.childrenOf, hD, hp, h.before]
  · simp [State.kids, State.childrenOf, h.old x hx]

theorem Fresh.fresh_childrenOf {s t : State} {w : Nat} (h : Fresh s w t) (x : Nat)
    (hx : x ≠ w) : t.childrenOf x = s.childrenOf x := by
  simp [State.childrenOf, h.old x hx]

theorem Fresh.fresh_tops {s t : State} {w : Nat} (h : Fresh s w t) (v : Nat) :
    t.tops v = s.tops v := by
  unfold State.tops; rw [h.fresh_ws]

theorem Fresh.fresh_live {s t : State} {w : Nat} (h : Fresh s w t) {x : Nat}
    (hx : (s.con x).isSome) : (t.con x).isSome := by
  have : x ≠ w := by
    rintro rfl
    rw [h.before] at hx
    cases hx
  rw [h.old x this]; exact hx

theorem Fresh.fresh_valid {s t : State} {w : Nat} (h : Fresh s w t) (hv : Valid s) :
    Valid t := by
  have hvw : ∀ v, t.vw v = s.vw v := fun v => by unfold State.vw; rw [h.views]
  have hout : ∀ o, t.out o = s.out o := fun o => by unfold State.out; rw [h.outputs]
  obtain ⟨D, hD, hDv, hDp, hDw, hDc, -⟩ := h.new
  refine ⟨?_, ?_, ?_, ?_, ?_, ?_, ?_⟩
  · intro c C hC v hview
    by_cases hc : c = w
    · subst hc
      rw [hD] at hC
      cases hC
      rw [hDv] at hview
      cases hview
    · rw [h.old c hc] at hC
      rw [hvw]
      exact hv.view c C hC v hview
  · intro c v hc
    rw [h.fresh_wsOf] at hc
    rw [h.fresh_ws]
    exact hv.ws c v hc
  · intro p c hc
    rw [h.fresh_kids] at hc
    exact h.fresh_live (hv.kids p c hc)
  · intro c p hc
    rw [h.fresh_parentOf] at hc
    exact h.fresh_live (hv.parent c p hc)
  · intro c C hC hview
    by_cases hc : c = w
    · subst hc
      rw [hD] at hC
      cases hC
      rw [hDc]; rfl
    · rw [h.old c hc] at hC
      exact hv.split c C hC hview
  · intro v W hW
    rw [h.fresh_ws] at hW
    obtain ⟨o, ho, hlive⟩ := hv.output v W hW
    exact ⟨o, ho, by rw [hout]; exact hlive⟩
  · intro o ho
    rw [h.root_outputs] at ho
    rw [hout]
    exact hv.root_outputs o ho

theorem Fresh.fresh_linked {s t : State} {w : Nat} (h : Fresh s w t) (hl : Linked s) :
    Linked t := by
  obtain ⟨D, hD, hDv, hDp, hDw, hDc, -⟩ := h.new
  refine ⟨?_, ?_, ?_, ?_, ?_, ?_, ?_⟩
  · intro p c hc
    rw [h.fresh_kids] at hc
    rw [h.fresh_parentOf]
    exact hl.kids_parent p c hc
  · intro c p hp
    rw [h.fresh_parentOf] at hp
    rw [h.fresh_kids]
    exact hl.parent_kids c p hp
  · intro p
    rw [h.fresh_kids]
    exact hl.kids_nodup p
  · intro v
    rw [h.fresh_tops]
    exact hl.tops_nodup v
  · intro v c hc
    rw [h.fresh_tops] at hc
    rw [h.fresh_parentOf, h.fresh_wsOf]
    exact hl.tops_top v c hc
  · intro c v hp hw
    rw [h.fresh_parentOf] at hp
    rw [h.fresh_wsOf] at hw
    rw [h.fresh_tops]
    exact hl.top_tops c v hp hw
  · intro c C hC hview
    by_cases hc : c = w
    · subst hc
      rw [hD] at hC
      cases hC
      exact absurd hDv hview
    · rw [h.old c hc] at hC
      exact hl.view_leaf c C hC hview

theorem Fresh.fresh_fsLive {s t : State} {w : Nat} (h : Fresh s w t) (hf : FsLive s) :
    FsLive t := by
  intro v f hv
  have : s.fsOf v = some f := by
    simpa [State.fsOf, h.fresh_ws] using hv
  exact h.fresh_live (hf v f this)

theorem Fresh.fresh_reach {s t : State} {w : Nat} (h : Fresh s w t) (c x : Nat) :
    Reach t c x ↔ Reach s c x := by
  have : (fun a b => b ∈ t.kids a) = (fun a b => b ∈ s.kids a) := by
    funext a b; rw [h.fresh_kids]
  unfold Reach
  rw [this]

/-- When the added child is not fullscreen, `container_add_child` writes links,
titles and dirty flags only. -/
theorem relinked_add_child_calm {fuel : Nat} {s t : State} {parent child : Nat}
    {A : sway_container} (hA : s.con child = some A)
    (hm : A.pending.fullscreen_mode = FULLSCREEN_NONE)
    (h : container_add_child fuel s parent child = some t) : Each Relinked s t := by
  unfold container_add_child at h
  simp only [Option.bind_eq_bind, Option.pure_def] at h
  obtain ⟨A0, hA0, h⟩ := Option.bind_eq_some.mp h
  obtain ⟨u1, hu1, h⟩ := Option.bind_eq_some.mp h
  obtain ⟨P, -, h⟩ := Option.bind_eq_some.mp h
  obtain ⟨l, -, h⟩ := Option.bind_eq_some.mp h
  obtain ⟨u2, hu2, h⟩ := Option.bind_eq_some.mp h
  obtain ⟨P2, -, h⟩ := Option.bind_eq_some.mp h
  obtain ⟨u3, hu3, h⟩ := Option.bind_eq_some.mp h
  obtain ⟨u4, hu4, h⟩ := Option.bind_eq_some.mp h
  obtain ⟨u5, hu5, h⟩ := Option.bind_eq_some.mp h
  obtain ⟨u6, hu6, h⟩ := Option.bind_eq_some.mp h
  obtain ⟨u7, hu7, h⟩ := Option.bind_eq_some.mp h
  have h1 : Each Relinked s u1 := by
    split at hu1
    · exact relinked_detach hu1
    · exact each_pure relinked_preorder hu1
  have h4 : Each Relinked s u4 :=
    each_trans relinked_preorder h1 (each_trans relinked_preorder (relinked_writeList hu2)
      (each_trans relinked_preorder (each_modCon hu3 relinked_preorder (fun _ => ⟨rfl, id⟩))
        (relinked_cascade _ _ _ _ hu4)))
  obtain ⟨A4, hA4, hrel⟩ := h4 child A hA
  have hm4 : A4.pending.fullscreen_mode = FULLSCREEN_NONE := by
    rw [(relinked_links hrel).2.2.2.1, hm]
  rw [handle_fullscreen_reparent_calm hA4 hm4 hu5] at hu6
  exact each_trans relinked_preorder h4 (each_trans relinked_preorder
    (relinked_update_representation _ _ _ _ hu6)
    (each_trans relinked_preorder (each_modCon hu7 relinked_preorder (fun _ => ⟨rfl, fun _ => rfl⟩))
      (each_modCon h relinked_preorder (fun _ => ⟨rfl, fun _ => rfl⟩))))

theorem relabel_none_fuel {a b : Nat} {s : State} {child : Nat} {layout : sway_container_layout}
    (h : container_split_relabel a s child layout = some none) :
    container_split_relabel b s child layout = some none := by
  unfold container_split_relabel at h
  simp only [Option.bind_eq_bind] at h
  obtain ⟨C, hC, h⟩ := Option.bind_eq_some.mp h
  by_cases hc1 : C.pending.parent.isSome = true ∨ C.pending.workspace.isSome = true
  · rw [if_pos hc1] at h
    obtain ⟨sib, hsib, h⟩ := Option.bind_eq_some.mp h
    obtain ⟨siblings, hsiblings, h⟩ := Option.bind_eq_some.mp h
    obtain ⟨l, hl, h⟩ := Option.bind_eq_some.mp h
    by_cases hc2 : l.length = 1
    · rw [if_pos hc2] at h
      obtain ⟨current, hcur, h⟩ := Option.bind_eq_some.mp h
      obtain ⟨fl, hfl, h⟩ := Option.bind_eq_some.mp h
      by_cases hc3 : (if fl = true then L_NONE else current) = L_HORIZ ∨
          (if fl = true then L_NONE else current) = L_VERT
      · exfalso
        rw [if_pos hc3] at h
        cases hp : C.pending.parent with
        | some p =>
          simp only [hp] at h
          obtain ⟨u1, hu1, h⟩ := Option.bind_eq_some.mp h
          obtain ⟨u2, hu2, h⟩ := Option.bind_eq_some.mp h
          cases h
        | none =>
          simp only [hp] at h
          obtain ⟨w, -, h⟩ := Option.bind_eq_some.mp h
          obtain ⟨u1, hu1, h⟩ := Option.bind_eq_some.mp h
          cases h
      · unfold container_split_relabel
        simp only [hC, hsib, hsiblings, hl, hcur, hfl, Option.bind_eq_bind, Option.some_bind,
          if_pos hc1, if_pos hc2, if_neg hc3, Option.pure_def]
    · unfold container_split_relabel
      simp only [hC, hsib, hsiblings, hl, Option.bind_eq_bind, Option.some_bind,
        if_pos hc1, if_neg hc2, Option.pure_def]
  · unfold container_split_relabel
    simp only [hC, Option.bind_eq_bind, Option.some_bind, if_neg hc1, Option.pure_def]

/-- The step of `container_split` before the wrapper is created: the view of a
floating child is told that it is tiled, and its border is restored. -/
theorem split_prepare {s : State} {child : Nat} {C : sway_container} (hv : Valid s)
    (hC : s.con child = some C) (b : Bool) (g : sway_container → sway_container)
    (hg : ∀ X, (g X).links = X.links) :
    ∃ s1, (if b = true then
        (match C.view with
          | some v => (s.vw v).bind fun V =>
              if V.using_csd = true then (view_set_tiled s v true).modCon child g
              else some (view_set_tiled s v true)
          | none => some s)
        else some s) = some s1 ∧ SameTree s s1 ∧ FsKept s s1 ∧
      s1.containers.length = s.containers.length ∧
      (∀ x, x ≠ child → s1.con x = s.con x) ∧ (s1.con child = some C ∨ s1.con child = some (g C)) := by
  have hemit : ∀ e, SameTree s (s.emit e) ∧ FsKept s (s.emit e) ∧
      (s.emit e).containers.length = s.containers.length ∧
      (∀ x, x ≠ child → (s.emit e).con x = s.con x) ∧
      ((s.emit e).con child = some C ∨ (s.emit e).con child = some (g C)) := fun e =>
    ⟨SameTree.same_emit s e, fskept_emit s e, rfl, fun _ _ => rfl, Or.inl hC⟩
  split
  · cases hview : C.view with
    | none => exact ⟨s, rfl, SameTree.same_refl s, fskept_refl s, rfl, fun _ _ => rfl, Or.inl hC⟩
    | some v =>
      obtain ⟨V, hV⟩ := Option.isSome_iff_exists.mp (hv.view child C hC v hview)
      simp only [hV, Option.some_bind]
      split
      · have hC1 : (view_set_tiled s v true).con child = some C := hC
        refine ⟨_, modCon_some g hC1, ?_, ?_, ?_, ?_, ?_⟩
        · exact (SameTree.same_emit s _).same_trans (SameTree.same_modCon (modCon_some g hC1) hg)
        · exact fskept_trans (fskept_emit s _) (fskept_modCon (modCon_some g hC1))
        · have hC2 : ({ s with events := s.events ++ [Event.view_set_tiled v true] } : State).con child = some C := hC
          simp [State.updCon, view_set_tiled, State.emit, hC2]
        · intro x hx
          simp [hx, view_set_tiled]
        · right
          simp [hC1]
      · exact ⟨_, rfl, hemit _⟩
  · exact ⟨s, rfl, SameTree.same_refl s, fskept_refl s, rfl, fun _ _ => rfl, Or.inl hC⟩

theorem Reach.rank_lt {s : State} {r : Nat → Nat} (hr : ∀ p c, c ∈ s.kids p → r c < r p)
    {c x : Nat} (h : Reach s c x) : c = x ∨ r x < r c := by
  induction h with
  | refl => exact Or.inl rfl
  | tail h1 hx _ =>
    exact Or.inr (lt_of_lt_of_le (hr _ _ hx) (Reach.rank_le hr h1))

theorem kids_of_childrenOf {s t : State} {p : Nat} {f : List Nat → List Nat}
    (h : t.childrenOf p = (s.childrenOf p).map f) (hf : f [] = []) :
    t.kids p = f (s.kids p) := by
  unfold State.kids
  rw [h]
  cases s.childrenOf p with
  | none => simp [hf]
  | some l => rfl

/-- After `container_replace` with a replacement that was in no children list
and had no children, the replaced container does not reach the replacement. -/
theorem ReplacePost.replace_no_back {s t : State} {c r : Nat} {C : sway_container}
    (h : ReplacePost s c r C t) {rk : Nat → Nat} (hr : ∀ p x, x ∈ s.kids p → rk x < rk p)
    (hnew : ∀ p, r ∉ s.kids p) (hleaf : s.kids r = []) (hne : c ≠ r) : ¬ Reach t c r := by
  have hk : ∀ p, t.kids p = list_swap c r (s.kids p) := by
    intro p
    rw [kids_of_childrenOf (h.childrenOf p) rfl, List.erase_of_not_mem (hnew p)]
  have hr4 : ∀ p x, x ∈ t.kids p →
      (fun y => if y = r then rk c else rk y) x < (fun y => if y = r then rk c else rk y) p := by
    intro p x hx
    rw [hk] at hx
    obtain ⟨z, hz, rfl⟩ := List.mem_map.mp hx
    have hp : p ≠ r := by
      rintro rfl
      rw [hleaf] at hz
      cases hz
    have hzr : z ≠ r := fun e => hnew p (e ▸ hz)
    simp only [if_neg hp]
    by_cases hzc : z = c
    · subst hzc
      simp only [if_true]
      exact hr p z hz
    · simp only [if_neg hzc, if_neg hzr]
      exact hr p z hz
  intro hreach
  rcases Reach.rank_lt hr4 hreach with e | e
  · exact hne e
  · simp only [if_true, if_neg hne] at e
    exact lt_irrefl _ e

/-- The state after `container_create` and a write to the record of the new
container that leaves its links, its mode and its scratchpad flag alone. -/
theorem fresh_create (s : State) (g : sway_container → sway_container)
    (hg : ∀ D, (g D).view = D.view ∧ (g D).pending.parent = D.pending.parent ∧
      (g D).pending.workspace = D.pending.workspace ∧
      (g D).pending.children = D.pending.children ∧
      (g D).pending.fullscreen_mode = D.pending.fullscreen_mode ∧
      (g D).scratchpad = D.scratchpad) :
    Fresh s s.containers.length ((container_create s none).1.updCon s.containers.length g) where
  before := by
    cases h : s.con s.containers.length with
    | none => rfl
    | some C => exact absurd (con_lt h) (lt_irrefl _)
  old := fun x hx => by
    rw [con_updCon, if_neg hx, con_container_create, if_neg hx]
  new := by
    obtain ⟨h1, h2, h3, h4, h5, h6⟩ := hg
      { node := {}, view := none, alpha := 1
        pending := { layout := L_NONE, children := if (none : Option Nat).isNone then some [] else none }
        current := { children := if (none : Option Nat).isNone then some [] else none }
        marks := [], outputs := [] }
    refine ⟨_, ?_, h1, h2, h3, h4, h5, h6⟩
    rw [con_updCon, if_pos rfl, con_container_create, if_pos rfl]
    rfl
  workspaces := by rw [ws_updCon]; rfl
  views := by rw [views_updCon]; rfl
  outputs := by unfold State.updCon; split <;> rfl
  root_outputs := by unfold State.updCon; split <;> rfl

theorem is_floating_returns {s : State} {c : Nat} {C : sway_container} (hv : Valid s)
    (hC : s.con c = some C) : ∃ b, container_is_floating s c = some b := by
  unfold container_is_floating
  simp only [hC, Option.bind_eq_bind, Option.some_bind, Option.pure_def]
  cases hp : C.pending.parent with
  | some p => exact ⟨_, rfl⟩
  | none =>
    cases hw : C.pending.workspace with
    | none => exact ⟨_, rfl⟩
    | some w =>
      have : s.wsOf c = some w := by simp [State.wsOf, hC, hw]
      obtain ⟨W, hW⟩ := Option.isSome_iff_exists.mp (hv.ws c w this)
      simp only [hW, Option.some_bind]
      split
      · exact ⟨_, rfl⟩
      · exact ⟨_, rfl⟩

theorem container_create_snd (s : State) (view : Option Nat) :
    (container_create s view).2 = s.containers.length := rfl

theorem scratchpad_pair_state_rank :
    ∀ p c, c ∈ scratchpad_pair_state.kids p → 2 - c < 2 - p := by
  intro p c hc
  have hp : p ∈ scratchpad_pair_state.ids := mem_ids (live_of_kids hc)
  revert c
  revert p
  decide

/-- In `scratchpad_pair_state`, a well-formed state, container 0 is a
scratchpad member and the first element of the floating list `[0, 1]` of
workspace 0, and the relabel case does not apply to it.
`container_split(0, L_HORIZ)` returns the new container 2 with the child 0, and
the floating list is `[1, 2]` afterwards: the wrapper is the last element, not
at the position the child had, because `container_replace` takes a scratchpad
member out of the scratchpad and adds its replacement to the scratchpad
again, which appends it to the floating list. -/
theorem split_moves_scratchpad_wrapper :
    TreeWF scratchpad_pair_state ∧ Acyclic scratchpad_pair_state ∧
    FsLive scratchpad_pair_state ∧
    (scratchpad_pair_state.con 0).map (fun C => (C.scratchpad, C.pending.workspace))
      = some (true, some 0) ∧
    container_split_relabel 0 scratchpad_pair_state 0 L_HORIZ = some none ∧
    (scratchpad_pair_state.ws 0).map (·.floating) = some [0, 1] ∧
    ∃ r ∈ container_split 8 {} scratchpad_pair_state 0 L_HORIZ,
      r.2 = 2 ∧ r.1.parentOf 0 = some 2 ∧ r.1.kids 2 = [0] ∧
      (r.1.ws 0).map (·.floating) = some [1, 2] :=
  ⟨by decide, ⟨fun x => 2 - x, 2, fun x => Nat.sub_le 2 x, scratchpad_pair_state_rank⟩,
   FullscreenConsistent.fsc_fsLive (by decide), by decide, by decide, by decide, by decide⟩

/-- C14, amended: in a well-formed state, for an attached container `child`
that is not a scratchpad member and for which the relabel case does not apply
(`container_split_relabel` answers that the child has to be wrapped),
`container_split(child, layout)` returns a new split container `w` (the next
free slot of the arena) with `w.pending.layout == layout`,
`w.pending.children == [child]`, `child.pending.parent == w`, the pending `x`,
`y`, `width` and `height` of `child` at call time, each of the two fractions of
`child` at call time when that fraction is a `float` value, and the former
parent and workspace of `child`; every children list other than that of
`w` and every tiling and floating list is the former one with `child` replaced
by `w`, so `w` stands at the position `child` had and the other siblings are
unchanged.  The fullscreen mode of `child` is arbitrary. -/
theorem split_wraps_child (seat : sway_seat) (s : State) (child : Nat)
    (layout : sway_container_layout) (C : sway_container)
    (hwf : TreeWF s) (ha : Acyclic s) (hfs : FsLive s)
    (hC : s.con child = some C) (hscr : C.scratchpad = false)
    (hatt : C.pending.parent.isSome ∨ C.pending.workspace.isSome)
    (hwrap : container_split_relabel 0 s child layout = some none) :
    Returns (fun fuel => container_split fuel seat s child layout) (fun res =>
      res.2 = s.containers.length ∧ s.con res.2 = none ∧
      (∃ D, res.1.con res.2 = some D ∧ D.view = none ∧ D.pending.layout = layout ∧
        D.pending.children = some [child] ∧
        D.pending.x = C.pending.x ∧ D.pending.y = C.pending.y ∧
        D.pending.width = C.pending.width ∧ D.pending.height = C.pending.height ∧
        (double_to_float C.width_fraction = C.width_fraction →
          D.width_fraction = C.width_fraction) ∧
        (double_to_float C.height_fraction = C.height_fraction →
          D.height_fraction = C.height_fraction)) ∧
      res.1.parentOf child = some res.2 ∧
      (∀ p, p ≠ res.2 → res.1.childrenOf p = (s.childrenOf p).map (list_swap child res.2)) ∧
      (∀ w, (res.1.ws w).map (·.tiling) =
        (s.ws w).map (fun W => list_swap child res.2 W.tiling)) ∧
      (∀ w, (res.1.ws w).map (·.floating) =
        (s.ws w).map (fun W => list_swap child res.2 W.floating)) ∧
      res.1.parentOf res.2 = C.pending.parent ∧ res.1.wsOf res.2 = C.pending.workspace) := by
  have hv := hwf.treewf_valid
  have hl := hwf.treewf_linked
  obtain ⟨rk, K, hK, hr⟩ := ha
  have h0 : ∀ fuel, container_split_relabel fuel s child layout = some none :=
    fun fuel => relabel_none_fuel hwrap
  unfold container_split
  simp only [h0, Option.bind_eq_bind, Option.some_bind, hC, Option.pure_def,
    container_create_snd]
  obtain ⟨b, hb⟩ := is_floating_returns hv hC
  refine Returns.bind_some hb ?_
  obtain ⟨s1, hs1, hsame, hkept, hlen, hrest1, hC1⟩ := split_prepare hv hC b
    (fun C => { C with pending := { C.pending with border := C.saved_border } }) (fun _ => rfl)
  refine Returns.bind_some hs1 ?_
  obtain ⟨C1, hC1, hx, hy, hwd, hht, hwf1, hhf1, hpar1, hws1, hscr1⟩ :
      ∃ C1, s1.con child = some C1 ∧ C1.pending.x = C.pending.x ∧ C1.pending.y = C.pending.y ∧
        C1.pending.width = C.pending.width ∧ C1.pending.height = C.pending.height ∧
        C1.width_fraction = C.width_fraction ∧ C1.height_fraction = C.height_fraction ∧
        C1.pending.parent = C.pending.parent ∧ C1.pending.workspace = C.pending.workspace ∧
        C1.scratchpad = C.scratchpad := by
    rcases hC1 with h | h
    · exact ⟨_, h, rfl, rfl, rfl, rfl, rfl, rfl, rfl, rfl, rfl⟩
    · exact ⟨_, h, rfl, rfl, rfl, rfl, rfl, rfl, rfl, rfl, rfl⟩
  have hlt : child < s1.containers.length := con_lt hC1
  have hne : child ≠ s1.containers.length := ne_of_lt hlt
  have hC2 : (container_create s1 none).1.con child = some C1 := by
    rw [con_container_create, if_neg hne]; exact hC1
  refine Returns.bind_some hC2 ?_
  obtain ⟨s3, hs3, hfresh⟩ : ∃ s3, s3 = (container_create s1 none).1.updCon s1.containers.length
      (fun D => { D with
        pending := { D.pending with
          width := C1.pending.width, height := C1.pending.height
          x := C1.pending.x, y := C1.pending.y, layout := layout }
        width_fraction := C1.width_fraction, height_fraction := C1.height_fraction }) ∧
      Fresh s1 s1.containers.length s3 :=
    ⟨_, rfl, fresh_create s1 _ (fun _ => ⟨rfl, rfl, rfl, rfl, rfl, rfl⟩)⟩
  have hD0 : (container_create s1 none).1.con s1.containers.length =
      some { node := {}, view := none, alpha := 1
             pending := { layout := L_NONE, children := if (none : Option Nat).isNone then some [] else none }
             current := { children := if (none : Option Nat).isNone then some [] else none }
             marks := [], outputs := [] } := by
    rw [con_container_create, if_pos rfl]
  have hmod := modCon_some (fun D : sway_container => { D with
        pending := { D.pending with
          width := C1.pending.width, height := C1.pending.height
          x := C1.pending.x, y := C1.pending.y, layout := layout }
        width_fraction := C1.width_fraction, height_fraction := C1.height_fraction }) hD0
  rw [← hs3] at hmod
  refine Returns.bind_some hmod ?_
  obtain ⟨D3, hD3, hD3v, hD3m, hD3sh, hD3c⟩ : ∃ D3, s3.con s1.containers.length = some D3 ∧
      D3.view = none ∧ D3.pending.fullscreen_mode = FULLSCREEN_NONE ∧
      D3.shape = (C1.pending.x, C1.pending.y, C1.pending.width, C1.pending.height, layout) ∧
      D3.pending.children = some [] := by
    have hraw := congrArg (fun u : State => u.con s1.containers.length) hs3
    simp only [con_updCon, if_true, hD0, Option.map_some'] at hraw
    exact ⟨_, hraw, rfl, rfl, rfl, rfl⟩
  have hv1 := hsame.same_valid hv
  have hl1 := hsame.same_linked hl
  have hfs1 := hkept.fskept_fsLive hfs
  have hr1 : ∀ p x, x ∈ s1.kids p → rk x < rk p := fun p x hx =>
    hr p x (by rw [← hsame.same_kids]; exact hx)
  have hv3 := hfresh.fresh_valid hv1
  have hl3 := hfresh.fresh_linked hl1
  have hfs3 := hfresh.fresh_fsLive hfs1
  have hr3 : ∀ p x, x ∈ s3.kids p → rk x < rk p := fun p x hx =>
    hr1 p x (by rw [← hfresh.fresh_kids]; exact hx)
  have hC3 : s3.con child = some C1 := by rw [hfresh.old child hne]; exact hC1
  have hnew1 : ∀ p, s1.containers.length ∉ s1.kids p := fun p h => by
    have := hv1.kids p _ h
    rw [hfresh.before] at this
    cases this
  have hleaf1 : s1.kids s1.containers.length = [] := by
    simp [State.kids, State.childrenOf, hfresh.before]
  have hnew3 : ∀ p, s1.containers.length ∉ s3.kids p := fun p => by
    rw [hfresh.fresh_kids]; exact hnew1 p
  have hleaf3 : s3.kids s1.containers.length = [] := by
    rw [hfresh.fresh_kids]; exact hleaf1
  have hn3 : ¬ Reach s3 s1.containers.length child := by
    intro h
    rcases Relation.ReflTransGen.cases_head h with e | ⟨y, hy, -⟩
    · exact hne e.symm
    · rw [hleaf3] at hy
      cases hy
  have hn3b : ¬ Reach s3 child s1.containers.length := by
    intro h
    rcases Relation.ReflTransGen.cases_tail h with e | ⟨y, -, hy⟩
    · exact hne e.symm
    · exact hnew3 y hy
  have hfree3 : s3.wsOf s1.containers.length = none → s3.parentOf s1.containers.length = none :=
    fun _ => by rw [hfresh.fresh_parentOf]; simp [State.parentOf, hfresh.before]
  have hatt1 : C1.pending.parent.isSome ∨ C1.pending.workspace.isSome := by
    rw [hpar1, hws1]; exact hatt
  refine Returns.bind (replace_plain_spec seat rk K hK hr3 hv3 hl3 hfs3 hC3 (hscr1.trans hscr)
    hatt1 (by rw [hD3]; rfl) hn3 hfree3) ?_
  intro t4 h4
  have hP4 : t4.childrenOf s1.containers.length = some [] := by
    rw [h4.childrenOf]
    simp [State.childrenOf, hD3, hD3c, list_swap]
  have hn4 : ¬ Reach t4 child s1.containers.length := h4.replace_no_back hr3 hnew3 hleaf3 hne
  have hC4 : (t4.con child).isSome := by rw [h4.skel.live, hC3]; rfl
  obtain ⟨A4, hA4⟩ := Option.isSome_iff_exists.mp hC4
  have hmA4 : A4.pending.fullscreen_mode = FULLSCREEN_NONE := by
    have := h4.mode_old
    simpa [State.modeOf, hA4] using this
  refine Returns.bind ((add_child_spec h4.valid h4.linked h4.acyclic h4.fsLive hC4 hP4
    hn4).returns_with (fun fuel a h => relinked_add_child_calm hA4 hmA4 h)) ?_
  rintro t5 ⟨h5, hrel5⟩
  have hlink := add_child_detached h5 h4.ws_old hP4
  obtain ⟨Y4, hY4, hY4sh, -⟩ := h4.self D3 hD3 hD3m hn3b
  obtain ⟨R4, hR4, hR4w, hR4h⟩ := h4.fractions
  rw [hY4] at hR4
  cases hR4
  obtain ⟨Y5, hY5, hrelY⟩ := hrel5 _ Y4 hY4
  have hlive4 : (t4.con s1.containers.length).isSome := by rw [hY4]; rfl
  have hfin : ∀ t6 : State, t6.containers = t5.containers → t6.workspaces = t5.workspaces →
      s1.containers.length = s.containers.length ∧ s.con s1.containers.length = none ∧
      (∃ D, t6.con s1.containers.length = some D ∧ D.view = none ∧ D.pending.layout = layout ∧
        D.pending.children = some [child] ∧
        D.pending.x = C.pending.x ∧ D.pending.y = C.pending.y ∧
        D.pending.width = C.pending.width ∧ D.pending.height = C.pending.height ∧
        (double_to_float C.width_fraction = C.width_fraction →
          D.width_fraction = C.width_fraction) ∧
        (double_to_float C.height_fraction = C.height_fraction →
          D.height_fraction = C.height_fraction)) ∧
      t6.parentOf child = some s1.containers.length ∧
      (∀ p, p ≠ s1.containers.length →
        t6.childrenOf p = (s.childrenOf p).map (list_swap child s1.containers.length)) ∧
      (∀ w, (t6.ws w).map (·.tiling) =
        (s.ws w).map (fun W => list_swap child s1.containers.length W.tiling)) ∧
      (∀ w, (t6.ws w).map (·.floating) =
        (s.ws w).map (fun W => list_swap child s1.containers.length W.floating)) ∧
      t6.parentOf s1.containers.length = C.pending.parent ∧
      t6.wsOf s1.containers.length = C.pending.workspace := by
    intro t6 hc6 hw6
    have hcon : ∀ x, t6.con x = t5.con x := fun x => by unfold State.con; rw [hc6]
    have hws : ∀ w, t6.ws w = t5.ws w := fun w => by unfold State.ws; rw [hw6]
    have hlivein : ∀ x, (s.con x).isSome → x ≠ s1.containers.length := by
      rintro x hx rfl
      obtain ⟨X, hX⟩ := Option.isSome_iff_exists.mp hx
      have := con_lt hX
      omega
    have hshape := (relinked_shape hrelY).trans hY4sh
    rw [hD3sh] at hshape
    simp only [sway_container.shape, Prod.mk.injEq] at hshape
    obtain ⟨e1, e2, e3, e4, e5⟩ := hshape
    have hch5 : t5.childrenOf s1.containers.length = some [child] := by
      rw [hlink.childrenOf, childrenOf_setChildren _ _ _ _ hlive4, if_pos rfl]
      rfl
    refine ⟨hlen, ?_, ⟨Y5, by rw [hcon]; exact hY5, ?_, e5, ?_, e1.trans hx, e2.trans hy,
      e3.trans hwd, e4.trans hht, ?_, ?_⟩, ?_, ?_, ?_, ?_, ?_, ?_⟩
    · cases h : s.con s1.containers.length with
      | none => rfl
      | some X =>
        have := con_lt h
        omega
    · rw [(relinked_links hrelY).1]
      have := h4.skel.viewOf s1.containers.length
      simpa [State.viewOf, hY4, hD3, hD3v] using this
    · simpa [State.childrenOf, hY5] using hch5
    · intro hfl
      rw [(relinked_fractions hrelY).1, hR4w, hwf1, hfl]
    · intro hfl
      rw [(relinked_fractions hrelY).2, hR4h, hhf1, hfl]
    · have := hlink.parentOf child
      rw [if_pos rfl] at this
      simpa [State.parentOf, hcon] using this
    · intro p hp
      have e : t6.childrenOf p = t5.childrenOf p := by simp [State.childrenOf, hcon]
      rw [e, hlink.childrenOf, childrenOf_setChildren _ _ _ _ hlive4, if_neg hp, h4.childrenOf,
        hfresh.fresh_childrenOf p hp, hsame.same_childrenOf]
      refine option_map_congr (fun l hl0 => ?_)
      rw [List.erase_of_not_mem]
      intro hmem
      have hk : s1.containers.length ∈ s.kids p := by simpa [State.kids, hl0] using hmem
      exact hlivein _ (hv.kids p _ hk) rfl
    · intro w
      have hswap : ∀ W, s.ws w = some W →
          list_swap child s1.containers.length (W.tiling.erase s1.containers.length) =
            list_swap child s1.containers.length W.tiling := by
        intro W hW
        rw [List.erase_of_not_mem]
        intro hmem
        have ht : s1.containers.length ∈ s.tops w := by simp [State.tops, hW, hmem]
        have := (hl.tops_top w _ ht).2
        have hlv : (s.con s1.containers.length).isSome := by
          cases hx0 : s.con s1.containers.length with
          | none => simp [State.wsOf, hx0] at this
          | some _ => rfl
        exact hlivein _ hlv rfl
      rw [hws, hlink.tiling, ws_setChildren, h4.tiling, hfresh.fresh_ws,
        ← option_map_congr hswap]
      have e1 := hsame.same_tiling w
      have e2 : ∀ u : State, (u.ws w).map (fun W =>
          list_swap child s1.containers.length (W.tiling.erase s1.containers.length)) =
          ((u.ws w).map (·.tiling)).map (fun l =>
            list_swap child s1.containers.length (l.erase s1.containers.length)) := by
        intro u; rw [Option.map_map]; rfl
      rw [e2 s1, e2 s, e1]
    · intro w
      have hswap : ∀ W, s.ws w = some W →
          list_swap child s1.containers.length (W.floating.erase s1.containers.length) =
            list_swap child s1.containers.length W.floating := by
        intro W hW
        rw [List.erase_of_not_mem]
        intro hmem
        have ht : s1.containers.length ∈ s.tops w := by simp [State.tops, hW, hmem]
        have := (hl.tops_top w _ ht).2
        have hlv : (s.con s1.containers.length).isSome := by
          cases hx0 : s.con s1.containers.length with
          | none => simp [State.wsOf, hx0] at this
          | some _ => rfl
        exact hlivein _ hlv rfl
      rw [hws, hlink.floating, ws_setChildren, h4.floating, hfresh.fresh_ws,
        ← option_map_congr hswap]
      have e1 := hsame.same_floating w
      have e2 : ∀ u : State, (u.ws w).map (fun W =>
          list_swap child s1.containers.length (W.floating.erase s1.containers.length)) =
          ((u.ws w).map (·.floating)).map (fun l =>
            list_swap child s1.containers.length (l.erase s1.containers.length)) := by
        intro u; rw [Option.map_map]; rfl
      rw [e2 s1, e2 s, e1]
    · have e : t6.parentOf s1.containers.length = t5.parentOf s1.containers.length := by
        simp [State.parentOf, hcon]
      rw [e, hlink.parentOf, if_neg hne.symm, parentOf_setChildren, h4.parent_new, hpar1]
    · have e : t6.wsOf s1.containers.length = t5.wsOf s1.containers.length := by
        simp [State.wsOf, hcon]
      rw [e, hlink.ws_out _ (fun h => hn4 (reach_setChildren hlive4 hn4 h)), wsOf_setChildren,
        h4.ws_new, hws1]
  by_cases hf : decide (seat.focus = some (Node.container child)) = true
  · simp only [hf, if_true, con_emit, hY5, Option.some_bind]
    by_cases hg : Y5.pending.fullscreen_mode = FULLSCREEN_GLOBAL
    · simp only [if_pos hg, Option.some_bind]
      exact Returns.of_some rfl (hfin _ rfl rfl)
    · simp only [if_neg hg, Option.some_bind]
      exact Returns.of_some rfl (hfin _ rfl rfl)
  · simp only [hf, if_false, Option.some_bind]
    exact Returns.of_some rfl (hfin _ rfl rfl)

theorem fraction_state_rank : ∀ p c, c ∈ fraction_state.kids p → 3 - c < 3 - p := by
  intro p c hc
  have hp : p ∈ fraction_state.ids := mem_ids (live_of_kids hc)
  revert c
  revert p
  decide

theorem fraction_state_acyclic : Acyclic fraction_state :=
  ⟨fun x => 3 - x, 3, fun x => Nat.sub_le 3 x, fraction_state_rank⟩

theorem double_to_float_third : double_to_float (1 / 3) = 11184811 / 33554432 := by
  simp [double_to_float, Nat.log2]

theorem double_to_float_half : double_to_float (1 / 2) = 1 / 2 := by
  simp [double_to_float, Nat.log2]
  norm_num

theorem double_to_float_one : double_to_float 1 = 1 := by
  simp [double_to_float, Nat.log2]

/-- C11, evaluated on the code: in `fraction_state`, a well-formed state, the
tiled container 0 has the width fraction 1/3 and the replacement 2 is attached
nowhere.  `container_replace(0, 2)` returns with container 2 in the place of
container 0, and its width fraction is 11184811/33554432, the `float` nearest
to 1/3, not the 1/3 that container 0 had: the fraction was carried through a
`float` local. -/
theorem replace_narrows_width_fraction :
    TreeWF fraction_state ∧
    (fraction_state.con 0).map (·.width_fraction) = some (1 / 3) ∧
    Returns (fun fuel => container_replace fuel {} fraction_state 0 2) (fun t =>
      (t.ws 0).map (·.tiling) = some [2, 1] ∧
      ∃ R, t.con 2 = some R ∧ R.width_fraction = 11184811 / 33554432 ∧
        R.width_fraction ≠ 1 / 3) := by
  refine ⟨by decide, rfl, ?_⟩
  refine (replace_swaps_in_place {} fraction_state 0 2
    { view := some 0, pending := { workspace := some 0 },
      width_fraction := 1 / 3, height_fraction := 1 }
    (by decide) fraction_state_acyclic (FullscreenConsistent.fsc_fsLive (by decide))
    rfl rfl rfl (Or.inr rfl) rfl
    (fun h => by have := Reach.rank_le fraction_state_rank h; simp at this)
    (fun _ => rfl)).returns_mono ?_
  rintro t ⟨-, ht, -, -, -, -, -, -, -, R, hR, hw, -⟩
  refine ⟨?_, R, hR, ?_, ?_⟩
  · rw [ht]; decide
  · rw [hw]; exact double_to_float_third
  · rw [hw, double_to_float_third]; norm_num

/-- C1, evaluated on the code: `detached_fullscreen_state` is well formed and
every container with a parent has its parent's workspace (the view 1 and its
parent 0 both have none); the view 1 is attached to its parent and is not an
ancestor of anything.  `container_detach(1)` reads the `fullscreen` field of
the null workspace of the view, which is in mode `FULLSCREEN_WORKSPACE`: with
no amount of fuel is there a state after the call, so none that satisfies the
invariant again. -/
theorem detach_leaves_no_state_for_invariant :
    TreeWF detached_fullscreen_state ∧
    ParentWorkspaceConsistent detached_fullscreen_state ∧
    detached_fullscreen_state.parentOf 1 = some 0 ∧
    detached_fullscreen_state.wsOf 1 = none ∧
    detached_fullscreen_state.modeOf 1 = some FULLSCREEN_WORKSPACE ∧
    ∀ fuel, container_detach fuel detached_fullscreen_state 1 = none := by
  refine ⟨by decide, by decide, by decide, by decide, by decide, ?_⟩
  intro fuel
  have hc : detached_fullscreen_state.con 1 = leaf (some 0) none 0 FULLSCREEN_WORKSPACE := rfl
  simp [container_detach, hc, leaf]

/-- C20, evaluated on the code: in the well-formed `detached_fullscreen_state`
the view 1 has a parent, no workspace and the mode `FULLSCREEN_WORKSPACE`.
`container_begin_destroy(1)` skips its own, guarded, write to the workspace,
marks the container and then calls `container_detach(1)`, which reads the
`fullscreen` field of the null workspace: with no amount of fuel does the call
return a state, so the container is never left without parent. -/
theorem begin_destroy_fails_without_workspace :
    TreeWF detached_fullscreen_state ∧
    detached_fullscreen_state.parentOf 1 = some 0 ∧
    detached_fullscreen_state.wsOf 1 = none ∧
    detached_fullscreen_state.modeOf 1 = some FULLSCREEN_WORKSPACE ∧
    ∀ fuel, container_begin_destroy fuel detached_fullscreen_state 1 = none := by
  refine ⟨by decide, by decide, by decide, by decide, ?_⟩
  intro fuel
  have hc : detached_fullscreen_state.con 1 = leaf (some 0) none 0 FULLSCREEN_WORKSPACE := rfl
  have hd : ∀ (u : State) (D : sway_container), u.con 1 = some D →
      D.pending.fullscreen_mode = FULLSCREEN_WORKSPACE → D.pending.workspace = none →
      container_detach fuel u 1 = none := by
    intro u D hD hm hw
    simp [container_detach, hD, hm, hw]
  unfold container_begin_destroy
  simp only [hc, leaf, Option.bind_eq_bind, Option.some_bind, Option.isSome_some, if_true,
    Option.pure_def, Bool.false_eq_true, false_and, if_false, reduceCtorEq]
  have h0 : (container_end_mouse_operation
      ((ipc_event_window detached_fullscreen_state 1 "close").emit
        (Event.node_destroy_signal 1)) 1).con 1 =
      some { view := some 0, pending := { parent := some 0, workspace := none,
                                          fullscreen_mode := FULLSCREEN_WORKSPACE } } := rfl
  rw [modCon_some _ h0]
  simp only [Option.some_bind, con_updCon, if_true, h0, Option.map_some', Bool.false_eq_true,
    if_false, reduceCtorEq, Option.isSome_some, Option.isSome_none, true_or]
  exact hd _ _ (by simp [h0]; rfl) rfl rfl

/-- The amended C14 at `fraction_state`: splitting the tiled view 1, which has
the sibling 0 and the `float` fractions 1/2 and 1, creates the container 3 with
the child 1 and these fractions in the place of container 1. -/
theorem split_wraps_child_witness :
    Returns (fun fuel => container_split fuel {} fraction_state 1 L_VERT) (fun res =>
      res.2 = 3 ∧
      (∃ D, res.1.con res.2 = some D ∧ D.view = none ∧ D.pending.layout = L_VERT ∧
        D.pending.children = some [1] ∧ D.width_fraction = 1 / 2 ∧ D.height_fraction = 1) ∧
      res.1.parentOf 1 = some res.2 ∧
      (res.1.ws 0).map (·.tiling) = some [0, 3] ∧
      res.1.parentOf res.2 = none ∧ res.1.wsOf res.2 = some 0) := by
  refine (split_wraps_child {} fraction_state 1 L_VERT
    { view := some 1, pending := { workspace := some 0 },
      width_fraction := 1 / 2, height_fraction := 1 }
    (by decide) fraction_state_acyclic (FullscreenConsistent.fsc_fsLive (by decide))
    rfl rfl (Or.inr rfl) (by decide)).returns_mono ?_
  rintro ⟨t, w⟩ ⟨h1, -, ⟨D, hD, hv, hlay, hch, -, -, -, -, hwf, hhf⟩, hp, -, ht, -, hpw, hww⟩
  have hw : w = 3 := h1
  subst hw
  refine ⟨rfl, ⟨D, hD, hv, hlay, hch, hwf double_to_float_half, hhf double_to_float_one⟩,
    hp, ?_, hpw, hww⟩
  rw [ht 0]
  show (fraction_state.ws 0).map (fun W => list_swap 1 3 W.tiling) = some [0, 3]
  decide

theorem natural_resize_view_outer (s : State) (con : Nat) (C : sway_container) (v : Nat)
    (V : sway_view) (hC : s.con con = some C) (hv : C.view = some v) (hV : s.vw v = some V)
    (hfl : container_is_floating s con = some true) :
    ∃ t D, floating_natural_resize s con = some t ∧ t.con con = some D ∧
      D.pending.content_width = max ((floating_calculate_constraints s).1 : ℚ)
          (min (V.natural_width : ℚ) ((floating_calculate_constraints s).2.1 : ℚ)) ∧
      D.pending.content_height = max ((floating_calculate_constraints s).2.2.1 : ℚ)
          (min (V.natural_height : ℚ) ((floating_calculate_constraints s).2.2.2 : ℚ)) ∧
      D.pending.content_x = C.pending.content_x ∧ D.pending.content_y = C.pending.content_y ∧
      D.pending.x = C.pending.content_x - geometry_border_width C ∧
      D.pending.y = C.pending.content_y - geometry_top s C := by
  unfold floating_natural_resize
  simp only [hC, hv, hV, Option.bind_eq_bind, Option.some_bind]
  rw [modCon_some _ hC, Option.some_bind]
  let f : sway_container → sway_container := fun C => { C with pending := { C.pending with
      content_width := max ((floating_calculate_constraints s).1 : ℚ)
        (min (V.natural_width : ℚ) ((floating_calculate_constraints s).2.1 : ℚ))
      content_height := max ((floating_calculate_constraints s).2.2.1 : ℚ)
        (min (V.natural_height : ℚ) ((floating_calculate_constraints s).2.2.2 : ℚ)) } }
  have hC1 : (s.updCon con f).con con = some (f C) := by simp [hC]
  have soft1 : Soft s (s.updCon con f) := Soft.soft_updCon s con (fun _ => rfl)
  obtain ⟨t, ht, hD, -, -⟩ := set_geometry_from_content_eq (s.updCon con f) con (f C) v
    hC1 hv (by rw [soft1.is_floating]; exact hfl)
  have htop : geometry_top (s.updCon con f) (f C) = geometry_top s C := by
    simp [geometry_top, geometry_border_width, container_titlebar_height, f]
  refine ⟨t, _, ht, hD, rfl, rfl, rfl, rfl, rfl, ?_⟩
  show (f C).pending.content_y - ((geometry_top (s.updCon con f) (f C) : Nat) : ℚ) = _
  rw [htop]

/-- C29 as stated fails for a view without workspace: the container of
`hidden_view_state` is a floating view (a scratchpad member) without workspace
whose outer box is at (0, 0); after `container_floating_resize_and_center` its
`pending.x` and `pending.y` are 10 and 20, the position of its content
box: the position is not unchanged. -/
theorem resize_and_center_moves_hidden_view :
    container_is_floating hidden_view_state 0 = some true ∧
    hidden_view_state.con 0 = some hidden_view ∧
    hidden_view.pending.workspace = none ∧
    hidden_view.pending.x = 0 ∧ hidden_view.pending.y = 0 ∧
    ∃ t ∈ container_floating_resize_and_center hidden_view_state 0,
      ∃ D ∈ t.con 0, D.pending.x = 10 ∧ D.pending.y = 20 := by
  refine ⟨by decide, rfl, rfl, rfl, rfl, ?_⟩
  obtain ⟨t, D, ht, hD, -, -, -, -, hx, hy⟩ := natural_resize_view_outer hidden_view_state 0
    hidden_view 0 { container := some 0, natural_width := 100, natural_height := 80 }
    rfl rfl rfl (by decide)
  have h0 : geometry_border_width hidden_view = 0 := by decide
  have h1 : geometry_top hidden_view_state hidden_view = 0 := by decide
  refine ⟨t, ?_, D, hD, ?_, ?_⟩
  · have : container_floating_resize_and_center hidden_view_state 0 =
        floating_natural_resize hidden_view_state 0 := rfl
    rw [this]
    exact ht
  · rw [hx, h0]; norm_num [hidden_view]
  · rw [hy, h1]; norm_num [hidden_view]

/-- C29 (amended): `container_floating_resize_and_center` clamps the size of a
floating container and centres it.  On a workspace `W` whose output has the
layout box `ob`, a split container ends with its width and height clamped into
the constraints of `floating_calculate_constraints` and its box centred in `W`
when the clamped size fits into `W`, centred in `ob` otherwise; for a view the
content size is the clamped natural size of the view, the same centring holds
for the content box, and its four border flags are set.  Without workspace the
call only clamps the size: a split container keeps `pending.x` and
`pending.y`; a view keeps `content_x` and `content_y`, and its outer position
is recomputed from the content box (`content_x` minus the border width,
`content_y` minus the top offset). -/
theorem resize_and_center_centres (s : State) (con : Nat) (C : sway_container)
    (hC : s.con con = some C) (hview : ∀ v, C.view = some v → (s.vw v).isSome)
    (hfl : container_is_floating s con = some true) :
    (∀ w W o O ob, C.pending.workspace = some w → s.ws w = some W → W.output = some o →
      s.out o = some O → O.layout_box = some ob →
      ∃ t D, container_floating_resize_and_center s con = some t ∧ t.con con = some D ∧
        (C.view = none →
          D.pending.width = max ((floating_calculate_constraints s).1 : ℚ)
            (min C.pending.width ((floating_calculate_constraints s).2.1 : ℚ)) ∧
          D.pending.height = max ((floating_calculate_constraints s).2.2.1 : ℚ)
            (min C.pending.height ((floating_calculate_constraints s).2.2.2 : ℚ)) ∧
          (D.pending.width ≤ W.width ∧ D.pending.height ≤ W.height →
            D.pending.x = W.x + (W.width - D.pending.width) / 2 ∧
            D.pending.y = W.y + (W.height - D.pending.height) / 2) ∧
          (¬ (D.pending.width ≤ W.width ∧ D.pending.height ≤ W.height) →
            D.pending.x = ob.x + (ob.width - D.pending.width) / 2 ∧
            D.pending.y = ob.y + (ob.height - D.pending.height) / 2)) ∧
        (∀ v V, C.view = some v → s.vw v = some V →
          D.pending.content_width = max ((floating_calculate_constraints s).1 : ℚ)
            (min (V.natural_width : ℚ) ((floating_calculate_constraints s).2.1 : ℚ)) ∧
          D.pending.content_height = max ((floating_calculate_constraints s).2.2.1 : ℚ)
            (min (V.natural_height : ℚ) ((floating_calculate_constraints s).2.2.2 : ℚ)) ∧
          (D.pending.content_width ≤ W.width ∧ D.pending.content_height ≤ W.height →
            D.pending.content_x = W.x + (W.width - D.pending.content_width) / 2 ∧
            D.pending.content_y = W.y + (W.height - D.pending.content_height) / 2) ∧
          (¬ (D.pending.content_width ≤ W.width ∧ D.pending.content_height ≤ W.height) →
            D.pending.content_x = ob.x + (ob.width - D.pending.content_width) / 2 ∧
            D.pending.content_y = ob.y + (ob.height - D.pending.content_height) / 2) ∧
          D.pending.border_top = true ∧ D.pending.border_bottom = true ∧
          D.pending.border_left = true ∧ D.pending.border_right = true)) ∧
    (C.pending.workspace = none →
      ∃ t D, container_floating_resize_and_center s con = some t ∧ t.con con = some D ∧
        (C.view = none →
          D.pending.x = C.pending.x ∧ D.pending.y = C.pending.y ∧
          D.pending.width = max ((floating_calculate_constraints s).1 : ℚ)
            (min C.pending.width ((floating_calculate_constraints s).2.1 : ℚ)) ∧
          D.pending.height = max ((floating_calculate_constraints s).2.2.1 : ℚ)
            (min C.pending.height ((floating_calculate_constraints s).2.2.2 : ℚ))) ∧
        (∀ v V, C.view = some v → s.vw v = some V →
          D.pending.content_x = C.pending.content_x ∧
          D.pending.content_y = C.pending.content_y ∧
          D.pending.content_width = max ((floating_calculate_constraints s).1 : ℚ)
            (min (V.natural_width : ℚ) ((floating_calculate_constraints s).2.1 : ℚ)) ∧
          D.pending.content_height = max ((floating_calculate_constraints s).2.2.1 : ℚ)
            (min (V.natural_height : ℚ) ((floating_calculate_constraints s).2.2.2 : ℚ)) ∧
          D.pending.x = C.pending.content_x - geometry_border_width C ∧
          D.pending.y = C.pending.content_y - geometry_top s C)) := by
  refine ⟨?_, ?_⟩
  · intro w W o O ob hw hW ho hO hob
    unfold container_floating_resize_and_center
    simp only [hC, hw, hW, ho, hO, hob, Option.bind_eq_bind, Option.some_bind]
    cases hv : C.view with
    | none =>
      obtain ⟨t1, ht1, hD1, -, -⟩ := natural_resize_split_eq s con C hC hv
      simp only [ht1, hD1, Option.some_bind, hv]
      by_cases hfit : max ((floating_calculate_constraints s).1 : ℚ)
            (min C.pending.width ((floating_calculate_constraints s).2.1 : ℚ)) > W.width ∨
          max ((floating_calculate_constraints s).2.2.1 : ℚ)
            (min C.pending.height ((floating_calculate_constraints s).2.2.2 : ℚ)) > W.height
      · simp only [hfit, if_true]
        rw [modCon_some _ hD1]
        refine ⟨_, _, rfl, by simp [hD1]; rfl, fun _ => ⟨rfl, rfl, ?_, ?_⟩,
          fun v V h => by cases h⟩
        · rintro ⟨h1, h2⟩
          exfalso
          rcases hfit with h | h
          · exact absurd h1 (not_le.mpr h)
          · exact absurd h2 (not_le.mpr h)
        · intro _; exact ⟨rfl, rfl⟩
      · simp only [hfit, if_false]
        rw [modCon_some _ hD1]
        refine ⟨_, _, rfl, by simp [hD1]; rfl, fun _ => ⟨rfl, rfl, ?_, ?_⟩,
          fun v V h => by cases h⟩
        · intro _; exact ⟨rfl, rfl⟩
        · intro hn
          exfalso
          apply hn
          simp only [gt_iff_lt, not_or, not_lt] at hfit
          exact hfit
    | some v =>
      obtain ⟨V, hV⟩ := Option.isSome_iff_exists.mp (hview v hv)
      obtain ⟨t1, D1, ht1, hD1, hcw, hch, -, -, -, -, -, -, -, hview1, -, soft1⟩ :=
        natural_resize_view_eq s con C v V hC hv hV hfl
      have hv1 : D1.view = some v := hview1.trans hv
      simp only [ht1, hD1, Option.some_bind, hv1]
      -- centring the content box
      have hcentre : ∃ t2 D2, (if D1.pending.content_width > W.width ∨
            D1.pending.content_height > W.height then
          t1.modCon con (fun C => { C with pending := { C.pending with
            content_x := ob.x + (ob.width - C.pending.content_width) / 2
            content_y := ob.y + (ob.height - C.pending.content_height) / 2 } })
        else
          t1.modCon con (fun C => { C with pending := { C.pending with
            content_x := W.x + (W.width - C.pending.content_width) / 2
            content_y := W.y + (W.height - C.pending.content_height) / 2 } })) = some t2 ∧
          t2.con con = some D2 ∧ Soft t1 t2 ∧ D2.view = some v ∧
          D2.pending.content_width = D1.pending.content_width ∧
          D2.pending.content_height = D1.pending.content_height ∧
          (D1.pending.content_width ≤ W.width ∧ D1.pending.content_height ≤ W.height →
            D2.pending.content_x = W.x + (W.width - D1.pending.content_width) / 2 ∧
            D2.pending.content_y = W.y + (W.height - D1.pending.content_height) / 2) ∧
          (¬ (D1.pending.content_width ≤ W.width ∧ D1.pending.content_height ≤ W.height) →
            D2.pending.content_x = ob.x + (ob.width - D1.pending.content_width) / 2 ∧
            D2.pending.content_y = ob.y + (ob.height - D1.pending.content_height) / 2) := by
        by_cases hfit : D1.pending.content_width > W.width ∨ D1.pending.content_height > W.height
        · simp only [hfit, if_true]
          rw [modCon_some _ hD1]
          refine ⟨_, { D1 with pending := { D1.pending with
              content_x := ob.x + (ob.width - D1.pending.content_width) / 2
              content_y := ob.y + (ob.height - D1.pending.content_height) / 2 } },
            rfl, by simp [hD1], Soft.soft_updCon t1 con (fun _ => rfl), hv1,
            rfl, rfl, ?_, fun _ => ⟨rfl, rfl⟩⟩
          rintro ⟨h1, h2⟩
          exfalso
          rcases hfit with h | h
          · exact absurd h1 (not_le.mpr h)
          · exact absurd h2 (not_le.mpr h)
        · simp only [hfit, if_false]
          rw [modCon_some _ hD1]
          refine ⟨_, { D1 with pending := { D1.pending with
              content_x := W.x + (W.width - D1.pending.content_width) / 2
              content_y := W.y + (W.height - D1.pending.content_height) / 2 } },
            rfl, by simp [hD1], Soft.soft_updCon t1 con (fun _ => rfl), hv1,
            rfl, rfl, fun _ => ⟨rfl, rfl⟩, ?_⟩
          intro hn
          exfalso
          apply hn
          simp only [gt_iff_lt, not_or, not_lt] at hfit
          exact hfit
      obtain ⟨t2, D2, ht2, hD2, soft2, hv2, hcw2, hch2, hin, hout⟩ := hcentre
      rw [ht2, Option.some_bind, modCon_some _ hD2, Option.some_bind]
      have soft3 : Soft t2 (t2.updCon con (fun C => { C with pending := { C.pending with
          border_top := true, border_bottom := true
          border_left := true, border_right := true } })) :=
        Soft.soft_updCon t2 con (fun _ => rfl)
      have hfl3 : container_is_floating (t2.updCon con (fun C => { C with
          pending := { C.pending with
            border_top := true, border_bottom := true
            border_left := true, border_right := true } })) con = some true := by
        rw [soft3.is_floating, soft2.is_floating, soft1.is_floating]; exact hfl
      obtain ⟨t, ht, hD, -, -⟩ := set_geometry_from_content_eq _ con
        { D2 with pending := { D2.pending with
            border_top := true, border_bottom := true
            border_left := true, border_right := true } } v
        (by rw [con_updCon, if_pos rfl, hD2]; rfl) hv2 hfl3
      refine ⟨t, _, ht, hD, fun h => absurd h (by simp), ?_⟩
      intro v2 V2 hv2e hV2
      cases hv2e
      rw [hV] at hV2
      cases hV2
      refine ⟨hcw2.trans hcw, hch2.trans hch, ?_, ?_, rfl, rfl, rfl, rfl⟩
      · intro h
        exact hin (by simpa [hcw2, hch2] using h) |>.imp (fun h => by simpa [hcw2] using h)
          (fun h => by simpa [hch2] using h)
      · intro h
        exact hout (by simpa [hcw2, hch2] using h) |>.imp (fun h => by simpa [hcw2] using h)
          (fun h => by simpa [hch2] using h)
  · intro hw
    unfold container_floating_resize_and_center
    simp only [hC, hw, Option.bind_eq_bind, Option.some_bind]
    cases hv : C.view with
    | none =>
      obtain ⟨t1, ht1, hD1, -, -⟩ := natural_resize_split_eq s con C hC hv
      exact ⟨t1, _, ht1, hD1, fun _ => ⟨rfl, rfl, rfl, rfl⟩, fun v V h => by cases h⟩
    | some v =>
      obtain ⟨V, hV⟩ := Option.isSome_iff_exists.mp (hview v hv)
      obtain ⟨t1, D1, ht1, hD1, hcw, hch, hx, hy, hox, hoy⟩ :=
        natural_resize_view_outer s con C v V hC hv hV hfl
      refine ⟨t1, D1, ht1, hD1, fun h => absurd h (by simp), ?_⟩
      intro v2 V2 hv2e hV2
      cases hv2e
      rw [hV] at hV2
      cases hV2
      exact ⟨hx, hy, hcw, hch, hox, hoy⟩

/-- The amended C29 at `centred_state`: the floating split container of 60 x 40
is clamped to the minimum size 75 x 50 and centred in the workspace box of
800 x 600. -/
theorem resize_and_center_centres_witness :
    ∃ t D, container_floating_resize_and_center centred_state 0 = some t ∧
      t.con 0 = some D ∧ D.pending.width = 75 ∧ D.pending.height = 50 ∧
      D.pending.x = 725 / 2 ∧ D.pending.y = 275 := by
  obtain ⟨t, D, ht, hD, h1, -⟩ :=
    (resize_and_center_centres centred_state 0 floating_split rfl (by decide) (by decide)).1
      0 centred_workspace 0 { layout_box := some { width := 800, height := 600 } }
      { width := 800, height := 600 } rfl rfl rfl rfl rfl
  obtain ⟨hw, hh, hin, -⟩ := h1 rfl
  have hw2 : D.pending.width = 75 := by
    rw [hw]
    norm_num [floating_calculate_constraints, centred_state, floating_split]
  have hh2 : D.pending.height = 50 := by
    rw [hh]
    norm_num [floating_calculate_constraints, centred_state, floating_split]
  obtain ⟨hx, hy⟩ := hin (by rw [hw2, hh2]; norm_num [centred_workspace])
  refine ⟨t, D, ht, hD, hw2, hh2, ?_, ?_⟩
  · rw [hx, hw2]; norm_num [centred_workspace]
  · rw [hy, hh2]; norm_num [centred_workspace]

theorem child_identifier_spec {s : State} {y : Nat} {r : Option String}
    (h : child_identifier s y = some r) :
    ∃ Ch, s.con y = some Ch ∧
      (∀ v V, Ch.view = some v → s.vw v = some V →
        r = if V.view_class.isSome then V.view_class else V.app_id) ∧
      (Ch.view = none → r = Ch.formatted_title) := by
  unfold child_identifier at h
  simp only [Option.bind_eq_bind] at h
  obtain ⟨Ch, hCh, h⟩ := Option.bind_eq_some.mp h
  refine ⟨Ch, hCh, ?_, ?_⟩
  · intro v V hv hV
    simp only [hv] at h
    obtain ⟨V2, hV2, h⟩ := Option.bind_eq_some.mp h
    rw [hV] at hV2
    cases hV2
    cases hc : V.view_class with
    | none =>
      simp only [hc, Option.pure_def, Option.some.injEq] at h
      simp [← h]
    | some cls =>
      simp only [hc, Option.pure_def, Option.some.injEq] at h
      simp [← h]
  · intro hv
    simp only [hv, Option.pure_def, Option.some.injEq] at h
    exact h.symm

theorem mapM_child_identifier_spec {s : State} :
    ∀ (l : List Nat) (ids : List (Option String)), l.mapM (child_identifier s) = some ids →
      List.Forall₂ (fun child r => ∃ Ch, s.con child = some Ch ∧
        (∀ v V, Ch.view = some v → s.vw v = some V →
          r = if V.view_class.isSome then V.view_class else V.app_id) ∧
        (Ch.view = none → r = Ch.formatted_title)) l ids := by
  intro l
  induction l with
  | nil =>
    intro ids h
    simp only [List.mapM_nil, Option.pure_def, Option.some.injEq] at h
    subst h
    exact List.Forall₂.nil
  | cons y l ih =>
    intro ids h
    rw [List.mapM_cons] at h
    simp only [Option.bind_eq_bind, Option.pure_def] at h
    obtain ⟨r, hr, h⟩ := Option.bind_eq_some.mp h
    obtain ⟨rest, hrest, h⟩ := Option.bind_eq_some.mp h
    simp only [Option.some.injEq] at h
    subst h
    exact List.Forall₂.cons (child_identifier_spec hr) (ih rest hrest)

/-- C35: for every layout and every list of children that are valid
containers, `container_build_representation` returns a length and writes a
string such that the length is the number of bytes of the string.  The string
is the layout prefix, then for each child in list order its identifier (one
separator character before every child but the first), then the closing
bracket; the identifier of a view is its class, else its app id, that of a
split container its `formatted_title`, and `(null)` is written for a null
identifier.  So the string with its terminator fills at most the `len + 1`
bytes allocated for it. -/
theorem build_representation_length (s : State) (hv : Valid s)
    (layout : sway_container_layout) (l : List Nat) (hl : ∀ y ∈ l, (s.con y).isSome) :
    ∃ ids len buffer,
      List.Forall₂ (fun child r => ∃ Ch, s.con child = some Ch ∧
        (∀ v V, Ch.view = some v → s.vw v = some V →
          r = if V.view_class.isSome then V.view_class else V.app_id) ∧
        (Ch.view = none → r = Ch.formatted_title)) l ids ∧
      container_build_representation s layout l = some (len, buffer) ∧
      len = buffer.utf8ByteSize ∧
      buffer = layout_opening layout ++ representation_body 0 ids ++ "]" ∧
      buffer.utf8ByteSize + 1 ≤ len + 1 := by
  obtain ⟨ids, hids⟩ := mapM_child_identifier_defined hv l hl
  refine ⟨ids, _, _, mapM_child_identifier_spec l ids hids,
    build_representation_eq s layout l ids hids, ?_, rfl, ?_⟩
  · have e2 : (layout_opening layout).utf8ByteSize = 2 := by cases layout <;> decide
    have e1 : ("]" : String).utf8ByteSize = 1 := by decide
    simp only [utf8ByteSize_append, e2, e1]
  · have e2 : (layout_opening layout).utf8ByteSize = 2 := by cases layout <;> decide
    have e1 : ("]" : String).utf8ByteSize = 1 := by decide
    simp only [utf8ByteSize_append, e2, e1]
    omega

/-- C35 at `mixed_children_state`: the children are a view with a class, a view
with an app id only, a split container with a title and a view without class
and app id. -/
theorem build_representation_length_witness :
    ∃ len buffer,
      container_build_representation mixed_children_state L_TABBED [1, 2, 3, 4]
        = some (len, buffer) ∧
      len = buffer.utf8ByteSize ∧ buffer = "T[Terminal foot H[a b] (null)]" ∧ len = 30 := by
  obtain ⟨ids, len, buffer, hids, hb, hlen, hbuf, -⟩ :=
    build_representation_length mixed_children_state (TreeWF.treewf_valid (by decide))
      L_TABBED [1, 2, 3, 4] (by decide)
  have he : container_build_representation mixed_children_state L_TABBED [1, 2, 3, 4]
      = some (30, "T[Terminal foot H[a b] (null)]") := by decide
  rw [he] at hb
  simp only [Option.some.injEq, Prod.mk.injEq] at hb
  obtain ⟨h1, h2⟩ := hb
  subst h1
  subst h2
  exact ⟨_, _, he, hlen, rfl, rfl⟩

/-- What `container_insert_child` does with a container that has neither parent
nor workspace: it puts the container into the children list of `parent` at the
index and links it, with its subtree, to the workspace of `parent`. -/
theorem insert_child_free_spec {s1 : State} {parent child : Nat} {C : sway_container}
    {l1 : List Nat} {i : Int} (r : Nat → Nat) (K : Nat) (hK : ∀ x, r x ≤ K)
    (hr : ∀ p c, c ∈ s1.kids p → r c < r p)
    (hv : Valid s1) (hl : Linked s1) (hfs : FsLive s1)
    (hC : s1.con child = some C) (hfp : C.pending.parent = none)
    (hfw : C.pending.workspace = none)
    (hP : s1.childrenOf parent = some l1) (hrk : r child < r parent)
    (h0 : 0 ≤ i) (h1 : i ≤ l1.length) :
    Returns (fun fuel => container_insert_child fuel s1 parent child i) (fun t =>
      LinkPost (s1.setChildren parent (l1.insertIdx i.toNat child)) child (some parent)
        (s1.wsOf parent) t ∧ Valid t ∧ Linked t ∧ (∀ p y, y ∈ t.kids p → r y < r p)) := by
  have hlive : (s1.con child).isSome := by rw [hC]; rfl
  have hn : ¬ Reach s1 child parent := by
    intro h
    have := Reach.rank_le hr h
    omega
  have hPl : (s1.con parent).isSome := by
    cases h : s1.con parent with
    | none => simp [State.childrenOf, h] at hP
    | some _ => rfl
  obtain ⟨P, hPc⟩ := Option.isSome_iff_exists.mp hPl
  have hPch : P.pending.children = some l1 := by
    simpa [State.childrenOf, hPc] using hP
  have hin : i.toNat ≤ l1.length := by omega
  have hkq : s1.kids parent = l1 := by simp [State.kids, hP]
  unfold container_insert_child
  simp only [hC, hfw, Option.isSome_none, Bool.false_eq_true, if_false, Option.bind_eq_bind,
    Option.some_bind, Option.pure_def, hPc, hPch, sway_list_insert_some child h0 h1]
  have hcore := insert_core hv hl ⟨r, K, hK, hr⟩ hfs hlive hP hn
    (fun y => mem_insertIdx_iff hin :
      ∀ y, y ∈ l1.insertIdx i.toNat child ↔ y ∈ l1 ∨ y = child)
  have hk2 : ∀ x, (s1.setChildren parent (l1.insertIdx i.toNat child)).kids x =
      if x = parent then l1.insertIdx i.toNat child else s1.kids x :=
    fun x => kids_setChildren s1 parent _ x hPl
  have hkids : ∀ p, ((s1.setChildren parent (l1.insertIdx i.toNat child)).kids p).Perm
      (if some parent = some p then child :: s1.kids p else s1.kids p) := by
    intro p
    rw [hk2]
    by_cases hp : p = parent
    · subst hp
      rw [if_pos rfl, if_pos rfl, hkq]
      exact List.perm_insertIdx _ _ hin
    · have : ¬ (some parent = some p) := fun e => hp (Option.some.inj e).symm
      rw [if_neg hp, if_neg this]
  have htail : ∀ t, (LinkPost (s1.setChildren parent (l1.insertIdx i.toNat child)) child
        (some parent) (s1.wsOf parent) t ∧ Valid t ∧ UpRank t) →
      Returns (fun fuel => container_update_representation fuel t parent) (fun t =>
        LinkPost (s1.setChildren parent (l1.insertIdx i.toNat child)) child (some parent)
          (s1.wsOf parent) t ∧ Valid t ∧ Linked t ∧ (∀ p y, y ∈ t.kids p → r y < r p)) := by
    rintro t ⟨hpost, hvt, hup⟩
    have hlp : (t.con parent).isSome := by
      rw [hpost.skel.live, live_setChildren]; exact hPl
    refine (attach_tail hvt hup hlp).returns_mono ?_
    intro t1 k1
    have hpost2 := hpost.soft_right k1.soft
    refine ⟨hpost2, k1.soft.soft_valid hvt, ?_, ?_⟩
    · refine hpost2.link_linked hl (by simp [State.parentOf, hC, hfp])
        (by simp [State.wsOf, hC, hfw]) (parentOf_setChildren s1 parent _)
        (wsOf_setChildren s1 parent _) (viewOf_setChildren s1 parent _) ?_ hkids ?_
      · intro x
        rw [childrenOf_setChildren _ _ _ _ hPl]
        split
        · rename_i hx
          subst hx
          simp [hP]
        · rfl
      · intro v
        have : ¬ ((some parent : Option Nat) = none ∧ s1.wsOf parent = some v) := by
          rintro ⟨e, -⟩; cases e
        rw [if_neg this]
        unfold State.tops
        rw [ws_setChildren]
    · exact hpost2.link_rank hkids hr (fun p hp => by cases hp; exact hrk)
  refine Returns.congr (fun fuel => ?_) (Returns.bind hcore htail)
  simp only [Option.bind_assoc, State.writeList]

/-- What `workspace_insert_tiling_direct` does with a container that has
neither parent nor workspace: it puts the container into the tiling list of
the workspace at the index and links it, with its subtree, to the workspace. -/
theorem insert_tiling_direct_spec {s1 : State} {c w : Nat} {C : sway_container}
    {W : sway_workspace} {i : Int} (r : Nat → Nat) (K : Nat) (hK : ∀ x, r x ≤ K)
    (hr : ∀ p c, c ∈ s1.kids p → r c < r p)
    (hv : Valid s1) (hl : Linked s1) (hfs : FsLive s1)
    (hC : s1.con c = some C) (hfp : C.pending.parent = none)
    (hfw : C.pending.workspace = none) (hW : s1.ws w = some W)
    (h0 : 0 ≤ i) (h1 : i ≤ W.tiling.length) :
    Returns (fun fuel => workspace_insert_tiling_direct fuel s1 w c i) (fun t =>
      LinkPost (s1.updWs w (fun V => { V with tiling := W.tiling.insertIdx i.toNat c })) c none
        (some w) t ∧ Valid t ∧ Linked t ∧ (∀ p y, y ∈ t.kids p → r y < r p)) := by
  have hlive : (s1.con c).isSome := by rw [hC]; rfl
  have hwl : (s1.ws w).isSome := by rw [hW]; rfl
  have hin : i.toNat ≤ W.tiling.length := by omega
  unfold workspace_insert_tiling_direct
  simp only [hW, Option.bind_eq_bind, Option.some_bind, Option.pure_def,
    sway_list_insert_some c h0 h1, State.writeList, modWs_some _ hW]
  have hC2 : (s1.updWs w (fun V => { V with tiling := W.tiling.insertIdx i.toNat c })).con c
      = some C := by simp [hC]
  rw [modCon_workspace_eq (some w) hC2 hfp]
  have hcore := top_core (f := fun V => { V with tiling := W.tiling.insertIdx i.toNat c })
    (fun _ => rfl) (fun _ => rfl) hv hl ⟨r, K, hK, hr⟩ hfs hlive hwl
  have hassoc : ∀ (k : State → Option State) (fuel : Nat),
      (((s1.updWs w (fun V => { V with tiling := W.tiling.insertIdx i.toNat c })).modCon c
          (fun C => { C with pending := { C.pending with parent := none, workspace := some w } })).bind
        fun s => (container_for_each_child fuel set_workspace s c).bind fun s =>
          (container_handle_fullscreen_reparent fuel s c).bind k) =
      ((((s1.updWs w (fun V => { V with tiling := W.tiling.insertIdx i.toNat c })).modCon c
          (fun C => { C with pending := { C.pending with parent := none, workspace := some w } })).bind
        fun s => (container_for_each_child fuel set_workspace s c).bind fun s =>
          container_handle_fullscreen_reparent fuel s c).bind k) := by
    intro k fuel
    simp only [Option.bind_assoc]
  refine Returns.congr (fun fuel => hassoc _ fuel) ?_
  refine Returns.bind hcore ?_
  rintro t ⟨hpost, hvt, -⟩
  have hwt : ((workspace_update_representation t w).ws w).isSome := by
    show (t.ws w).isSome
    rw [hpost.skel.wlive]
    simp [hW]
  obtain ⟨t1, ht1, hs1⟩ := dirtyWs_spec hwt
  refine Returns.bind_some ht1 ?_
  have hct : (t1.con c).isSome := by
    rw [hs1.soft_live]
    show (t.con c).isSome
    rw [hpost.skel.live]
    simp [hC]
  obtain ⟨t2, ht2, hs2⟩ := dirtyCon_spec hct
  refine Returns.of_some ht2 ?_
  have hs0 : Soft t (workspace_update_representation t w) := Soft.soft_emit _ _
  have hpost2 := hpost.soft_right (hs0.soft_trans (hs1.soft_trans hs2))
  have hkids : ∀ p, ((s1.updWs w (fun V => { V with tiling := W.tiling.insertIdx i.toNat c })).kids
      p).Perm (if (none : Option Nat) = some p then c :: s1.kids p else s1.kids p) := by
    intro p
    rw [kids_updWs]
    simp
  refine ⟨hpost2, (hs0.soft_trans (hs1.soft_trans hs2)).soft_valid hvt, ?_, ?_⟩
  · refine hpost2.link_linked hl (by simp [State.parentOf, hC, hfp])
      (by simp [State.wsOf, hC, hfw]) (fun x => parentOf_updWs _ _ _ x)
      (fun x => wsOf_updWs _ _ _ x) (fun x => by simp [State.viewOf])
      (fun x => by simp [State.childrenOf]) hkids ?_
    intro v
    rw [tops_updWs_tiling s1 w W _ hW]
    by_cases hvw : v = w
    · subst hvw
      simp only [true_and, if_true]
      unfold State.tops
      rw [hW]
      simp only []
      exact (List.perm_insertIdx _ _ hin).append_right W.floating
    · have : ¬ ((none : Option Nat) = none ∧ some w = some v) := by
        rintro ⟨-, h⟩
        exact hvw (Option.some.inj h).symm
      rw [if_neg hvw, if_neg this]
  · exact hpost2.link_rank hkids hr (fun p hp => by cases hp)

theorem flagged_of_relinked {s t : State} (h : Each Relinked s t) : Each Flagged s t :=
  each_mono (fun _ _ hr => ⟨(relinked_links hr).2.2.1, hr.2⟩) h

theorem flagged_handle_fullscreen_reparent {fuel : Nat} {s t : State} {con : Nat}
    (h : container_handle_fullscreen_reparent fuel s con = some t) : Each Flagged s t := by
  unfold container_handle_fullscreen_reparent at h
  simp only [Option.bind_eq_bind, Option.pure_def] at h
  obtain ⟨C, -, h⟩ := Option.bind_eq_some.mp h
  split at h
  · exact each_pure flagged_preorder h
  · split at h
    · exact each_pure flagged_preorder h
    · obtain ⟨W, -, h⟩ := Option.bind_eq_some.mp h
      split at h
      · exact each_pure flagged_preorder h
      · obtain ⟨u1, hu1, h⟩ := Option.bind_eq_some.mp h
        obtain ⟨u2, hu2, h⟩ := Option.bind_eq_some.mp h
        simp only [Option.some.injEq] at h
        subst h
        have h1 : Each Flagged s u1 := by
          split at hu1
          · exact flagged_fullscreen_disable hu1
          · exact each_pure flagged_preorder hu1
        exact each_trans flagged_preorder h1 (each_trans flagged_preorder
          (each_modWs hu2 flagged_preorder) (each_of_containers flagged_preorder rfl))

/-- The flags through `container_insert_child`: no `destroying` flag changes
and no dirty flag is cleared. -/
theorem flagged_insert_child {fuel : Nat} {s t : State} {parent child : Nat} {i : Int}
    (h : container_insert_child fuel s parent child i = some t) : Each Flagged s t := by
  unfold container_insert_child at h
  simp only [Option.bind_eq_bind, Option.pure_def] at h
  obtain ⟨Ch, -, h⟩ := Option.bind_eq_some.mp h
  obtain ⟨u1, hu1, h⟩ := Option.bind_eq_some.mp h
  obtain ⟨P, -, h⟩ := Option.bind_eq_some.mp h
  obtain ⟨children, -, h⟩ := Option.bind_eq_some.mp h
  obtain ⟨l, -, h⟩ := Option.bind_eq_some.mp h
  obtain ⟨u2, hu2, h⟩ := Option.bind_eq_some.mp h
  obtain ⟨P2, -, h⟩ := Option.bind_eq_some.mp h
  obtain ⟨u3, hu3, h⟩ := Option.bind_eq_some.mp h
  obtain ⟨u4, hu4, h⟩ := Option.bind_eq_some.mp h
  obtain ⟨u5, hu5, h⟩ := Option.bind_eq_some.mp h
  have h1 : Each Flagged s u1 := by
    split at hu1
    · exact flagged_of_relinked (relinked_detach hu1)
    · exact each_pure flagged_preorder hu1
  exact each_trans flagged_preorder h1 (each_trans flagged_preorder
    (flagged_of_relinked (relinked_writeList hu2)) (each_trans flagged_preorder
    (each_modCon hu3 flagged_preorder (fun _ => ⟨rfl, id⟩)) (each_trans flagged_preorder
    (flagged_of_relinked (relinked_cascade _ _ _ _ hu4)) (each_trans flagged_preorder
    (flagged_handle_fullscreen_reparent hu5)
    (flagged_of_relinked (relinked_update_representation _ _ _ _ h))))))

theorem fskept_insert_child {fuel : Nat} {s t : State} {parent child : Nat} {i : Int}
    (h : container_insert_child fuel s parent child i = some t) : FsKept s t := by
  unfold container_insert_child at h
  simp only [Option.bind_eq_bind, Option.pure_def] at h
  obtain ⟨Ch, -, h⟩ := Option.bind_eq_some.mp h
  obtain ⟨u1, hu1, h⟩ := Option.bind_eq_some.mp h
  obtain ⟨P, -, h⟩ := Option.bind_eq_some.mp h
  obtain ⟨children, -, h⟩ := Option.bind_eq_some.mp h
  obtain ⟨l, -, h⟩ := Option.bind_eq_some.mp h
  obtain ⟨u2, hu2, h⟩ := Option.bind_eq_some.mp h
  obtain ⟨P2, -, h⟩ := Option.bind_eq_some.mp h
  obtain ⟨u3, hu3, h⟩ := Option.bind_eq_some.mp h
  obtain ⟨u4, hu4, h⟩ := Option.bind_eq_some.mp h
  obtain ⟨u5, hu5, h⟩ := Option.bind_eq_some.mp h
  have h1 : FsKept s u1 := by
    split at hu1
    · exact (fskept_detach hu1)
    · exact fskept_pure hu1
  exact fskept_trans h1 (fskept_trans
    ((fskept_writeList hu2)) (fskept_trans
    (fskept_modCon hu3) (fskept_trans
    ((fskept_cascade _ _ _ _ hu4)) (fskept_trans
    (fskept_handle_fullscreen_reparent hu5)
    ((fskept_update_representation _ _ _ _ h))))))

/-- The flags through `workspace_insert_tiling_direct`. -/
theorem flagged_insert_tiling_direct {fuel : Nat} {s t : State} {w c : Nat} {i : Int}
    (h : workspace_insert_tiling_direct fuel s w c i = some t) : Each Flagged s t := by
  unfold workspace_insert_tiling_direct at h
  simp only [Option.bind_eq_bind, Option.pure_def] at h
  obtain ⟨W, -, h⟩ := Option.bind_eq_some.mp h
  obtain ⟨l, -, h⟩ := Option.bind_eq_some.mp h
  obtain ⟨u2, hu2, h⟩ := Option.bind_eq_some.mp h
  obtain ⟨u3, hu3, h⟩ := Option.bind_eq_some.mp h
  obtain ⟨u4, hu4, h⟩ := Option.bind_eq_some.mp h
  obtain ⟨u5, hu5, h⟩ := Option.bind_eq_some.mp h
  obtain ⟨u6, hu6, h⟩ := Option.bind_eq_some.mp h
  exact each_trans flagged_preorder
    (flagged_of_relinked (relinked_writeList hu2)) (each_trans flagged_preorder
    (each_modCon hu3 flagged_preorder (fun _ => ⟨rfl, id⟩)) (each_trans flagged_preorder
    (flagged_of_relinked (relinked_cascade _ _ _ _ hu4)) (each_trans flagged_preorder
    (flagged_handle_fullscreen_reparent hu5) (each_trans flagged_preorder
    (each_emit flagged_preorder _ _) (each_trans flagged_preorder
    (each_modWs hu6 flagged_preorder)
    (each_modCon h flagged_preorder (fun _ => ⟨rfl, fun _ => rfl⟩)))))))

theorem fskept_insert_tiling_direct {fuel : Nat} {s t : State} {w c : Nat} {i : Int}
    (h : workspace_insert_tiling_direct fuel s w c i = some t) : FsKept s t := by
  unfold workspace_insert_tiling_direct at h
  simp only [Option.bind_eq_bind, Option.pure_def] at h
  obtain ⟨W, -, h⟩ := Option.bind_eq_some.mp h
  obtain ⟨l, -, h⟩ := Option.bind_eq_some.mp h
  obtain ⟨u2, hu2, h⟩ := Option.bind_eq_some.mp h
  obtain ⟨u3, hu3, h⟩ := Option.bind_eq_some.mp h
  obtain ⟨u4, hu4, h⟩ := Option.bind_eq_some.mp h
  obtain ⟨u5, hu5, h⟩ := Option.bind_eq_some.mp h
  obtain ⟨u6, hu6, h⟩ := Option.bind_eq_some.mp h
  exact fskept_trans (fskept_writeList hu2) (fskept_trans (fskept_modCon hu3)
    (fskept_trans (fskept_cascade _ _ _ _ hu4) (fskept_trans
      (fskept_handle_fullscreen_reparent hu5) (fskept_trans (fskept_emit _ _) (fskept_trans
        (fskept_modWs hu6 (fun _ _ ho => Or.inl ho)) (fskept_modCon h))))))

theorem reach_wsOf {s : State} (hl : Linked s)
    (hpw : ∀ x p, s.parentOf x = some p → s.wsOf x = s.wsOf p) {c x : Nat}
    (h : Reach s c x) : s.wsOf x = s.wsOf c := by
  induction h with
  | refl => rfl
  | tail _ hstep ih => rw [← ih]; exact hpw _ _ (hl.kids_parent _ _ hstep)

theorem SquashPre.child_mem {s0 : State} {con child w K : Nat} {P0 : Option Nat}
    {r : Nat → Nat} (pre : SquashPre s0 con child P0 w r K) : child ∈ s0.kids con := by
  simp [State.kids, pre.only]

theorem SquashPre.rank_child {s0 : State} {con child w K : Nat} {P0 : Option Nat}
    {r : Nat → Nat} (pre : SquashPre s0 con child P0 w r K) : r child < r con :=
  pre.rank con child pre.child_mem

theorem SquashPre.rank_parent {s0 : State} {con child w K : Nat} {P0 : Option Nat}
    {r : Nat → Nat} (pre : SquashPre s0 con child P0 w r K) {p : Nat} (hp : P0 = some p) :
    r con < r p :=
  pre.rank p con (pre.linked.parent_kids con p (by rw [pre.parent, hp]))

/-- The first of the remaining grandchildren inside the loop: a child of
`child` on workspace `w`, below `child`, `con` and the parent of `con`. -/
theorem SquashInv.head_facts {s0 t : State} {con child w K current : Nat} {P0 : Option Nat}
    {r : Nat → Nat} {moved rem : List Nat} (pre : SquashPre s0 con child P0 w r K)
    (inv : SquashInv s0 con child P0 w r moved (current :: rem) t) :
    t.parentOf current = some child ∧ t.wsOf current = some w ∧ r current < r child ∧
    current ∉ moved := by
  have hmem : current ∈ t.kids child := by simp [State.kids, inv.rest]
  have hpar := inv.linked.kids_parent child current hmem
  refine ⟨hpar, ?_, inv.rank child current hmem, ?_⟩
  · rw [inv.pwc current child hpar, inv.wsOf, pre.ws_child]
  · intro hm
    have h1 := inv.parentOf current
    rw [if_pos hm, hpar] at h1
    have h2 := pre.rank_parent h1.symm
    have h3 := pre.rank_child
    omega

theorem SquashInv.not_moved {s0 t : State} {con child w K : Nat} {P0 : Option Nat}
    {r : Nat → Nat} {moved rem : List Nat} (pre : SquashPre s0 con child P0 w r K)
    (inv : SquashInv s0 con child P0 w r moved rem t) {x : Nat} (hx : r child ≤ r x) :
    x ∉ moved := by
  intro hm
  have := pre.rank child x ((inv.source x).mpr (Or.inl hm))
  omega

/-- Detaching the first remaining grandchild inside the loop of
`container_squash`. -/
theorem SquashInv.detached {s0 t s1 : State} {con child w K current : Nat} {P0 : Option Nat}
    {r : Nat → Nat} {moved rem : List Nat} (pre : SquashPre s0 con child P0 w r K)
    (inv : SquashInv s0 con child P0 w r moved (current :: rem) t)
    (hd : DetachPost t current s1) : SquashMid t child current w r rem s1 := by
  obtain ⟨hpar, hws, hrk, hnm⟩ := inv.head_facts pre
  have hsub : ∀ x, Reach t current x → Reach s1 current x := by
    intro x hx
    refine reach_congr (fun p hp => hd.unlinked.kids_eq ?_) hx
    rw [hpar]
    intro e
    cases e
    have := Reach.rank_le inv.rank hp
    omega
  have hlive : (t.con current).isSome := live_of_parentOf hpar
  refine
    { valid := hd.detach_valid inv.valid
      linked := hd.detach_linked inv.linked
      rank := hd.detach_rank inv.rank
      fsLive := hd.detach_fsLive inv.fsLive
      pwc := hd.detach_parent_workspace inv.linked inv.pwc
      free := ?_
      live := hd.unlinked.skel.live
      parentOf := hd.parentOf
      ws_in := fun x hx => by
        rw [reach_wsOf inv.linked inv.pwc (hd.detach_reach hx)]; exact hws
      ws_out := fun x hx => hd.ws_out x (fun h => hx (hsub x h))
      rest := ?_
      children := ?_
      tiling := ?_
      floating := ?_ }
  · have h1 : (s1.con current).isSome := by rw [hd.unlinked.skel.live]; exact hlive
    obtain ⟨C1, hC1⟩ := Option.isSome_iff_exists.mp h1
    refine ⟨C1, hC1, ?_, ?_⟩
    · have := hd.parentOf current
      simpa [State.parentOf, hC1] using this
    · have := hd.ws_in current (Reach.reach_refl _ _)
      simpa [State.wsOf, hC1] using this
  · rw [hd.unlinked.childrenOf, inv.rest, hpar]
    simp
  · intro x hx
    rw [hd.unlinked.childrenOf, hpar]
    have : ¬ (some child = some x) := fun e => hx (Option.some.inj e).symm
    simp only [if_neg this]
    cases t.childrenOf x <;> rfl
  · intro v
    rw [hd.unlinked.tiling, hpar]
    simp
  · intro v
    rw [hd.unlinked.floating, hpar]
    simp

/-- Linking the detached grandchild below the parent of `con`, or at the top
of the workspace, re-establishes the loop invariant of `container_squash`
with the grandchild counted as moved. -/
theorem SquashInv.relink {s0 t s1 s2 t2 : State} {con child w K current : Nat}
    {P0 : Option Nat} {r : Nat → Nat} {moved rem : List Nat}
    (pre : SquashPre s0 con child P0 w r K)
    (inv : SquashInv s0 con child P0 w r moved (current :: rem) t)
    (mid : SquashMid t child current w r rem s1)
    (h2par : ∀ x, s2.parentOf x = s1.parentOf x)
    (h2ws : ∀ x, s2.wsOf x = s1.wsOf x)
    (h2live : ∀ x, (s2.con x).isSome = (s1.con x).isSome)
    (h2kids : ∀ q, P0 ≠ some q → s2.childrenOf q = s1.childrenOf q)
    (h2fl : ∀ v, (s2.ws v).map (·.floating) = (s1.ws v).map (·.floating))
    (h2til : ∀ v, ¬ (P0 = none ∧ v = w) → (s2.ws v).map (·.tiling) = (s1.ws v).map (·.tiling))
    (h2target : ∀ p, P0 = some p → ∃ l1 l2, s1.childrenOf p = some l1 ∧
      s2.childrenOf p = some l2 ∧ (∀ y, y ∈ l2 ↔ y ∈ l1 ∨ y = current) ∧
      l1.length ≤ l2.length)
    (h2top : P0 = none → ∃ W1 W2, s1.ws w = some W1 ∧ s2.ws w = some W2 ∧
      (∀ y, y ∈ W2.tiling ↔ y ∈ W1.tiling ∨ y = current) ∧
      W1.tiling.length ≤ W2.tiling.length)
    (hpost : LinkPost s2 current P0 (some w) t2)
    (hv : Valid t2) (hl : Linked t2) (hr : ∀ p y, y ∈ t2.kids p → r y < r p)
    (hfk : FsKept s1 t2) (hfl : Each Flagged t t2) :
    SquashInv s0 con child P0 w r (current :: moved) rem t2 := by
  obtain ⟨hpar, hws, hrk, hnm⟩ := inv.head_facts pre
  have hrc := pre.rank_child
  have hr2 : ∀ p c, c ∈ s2.kids p → r c < r p := fun p c hc => hr p c (by rw [hpost.kids]; exact hc)
  have hk21 : ∀ q, r q ≤ r current → s2.kids q = s1.kids q := by
    intro q hq
    unfold State.kids
    rw [h2kids q]
    intro e
    have := pre.rank_parent e
    omega
  have hreach21 : ∀ x, Reach s2 current x → Reach s1 current x := by
    intro x hx
    exact reach_congr (fun q hq => (hk21 q (Reach.rank_le hr2 hq)).symm) hx
  have hreach12 : ∀ x, Reach s1 current x → Reach s2 current x := by
    intro x hx
    exact reach_congr (fun q hq => hk21 q (Reach.rank_le mid.rank hq)) hx
  have hwsOf : ∀ x, t2.wsOf x = s0.wsOf x := by
    intro x
    by_cases hx : Reach s2 current x
    · rw [hpost.ws_in x hx, ← inv.wsOf, mid.ws_in x (hreach21 x hx)]
    · rw [hpost.ws_out x hx, h2ws, mid.ws_out x (fun h => hx (hreach12 x h)), inv.wsOf]
  have hparentOf : ∀ x, t2.parentOf x = if x ∈ current :: moved then P0 else s0.parentOf x := by
    intro x
    rw [hpost.parentOf, h2par, mid.parentOf, inv.parentOf]
    by_cases hx : x = current
    · simp [hx]
    · simp [hx]
  have hnc : P0 ≠ some child := by
    intro e
    have := pre.rank_parent e
    omega
  refine
    { valid := hv
      linked := hl
      rank := hr
      fsLive := hfk.fskept_fsLive mid.fsLive
      pwc := ?_
      live := fun x => by rw [hpost.skel.live, h2live, mid.live, inv.live]
      parentOf := hparentOf
      wsOf := hwsOf
      rest := by rw [hpost.childrenOf, h2kids child hnc, mid.rest]
      source := ?_
      count := ?_
      children := fun x hx hP => by
        rw [hpost.childrenOf, h2kids x hP, mid.children x hx, inv.children x hx hP]
      target := ?_
      floating := fun v => by rw [hpost.floating, h2fl, mid.floating, inv.floating]
      tiling := fun v hv => by rw [hpost.tiling, h2til v hv, mid.tiling, inv.tiling v hv]
      top := ?_
      flagged := each_trans flagged_preorder inv.flagged hfl }
  · intro x q hx
    rw [hwsOf, hwsOf]
    rw [hparentOf] at hx
    by_cases hm : x ∈ current :: moved
    · rw [if_pos hm] at hx
      have hxk : x ∈ s0.kids child := by
        rw [inv.source]
        rcases List.mem_cons.mp hm with h | h
        · exact Or.inr (h ▸ List.mem_cons_self _ _)
        · exact Or.inl h
      rw [pre.pwc x child (pre.linked.kids_parent child x hxk), pre.ws_child,
        ← pre.pwc con q (by rw [pre.parent, hx]), pre.ws]
    · rw [if_neg hm] at hx
      exact pre.pwc x q hx
  · intro y
    rw [inv.source]
    simp only [List.mem_cons]
    tauto
  · have := inv.count
    simp only [List.length_cons] at this ⊢
    omega
  · intro p hp
    obtain ⟨l1, l2, h1, h2, hmem, hlen⟩ := h2target p hp
    obtain ⟨l0, l, h0, ht, hmem0, hlen0⟩ := inv.target p hp
    have hpc : p ≠ child := fun e => hnc (e ▸ hp)
    rw [mid.children p hpc, ht] at h1
    cases h1
    refine ⟨l0, l2, h0, by rw [hpost.childrenOf, h2], ?_, by omega⟩
    intro y
    rw [hmem, hmem0]
    simp only [List.mem_cons]
    tauto
  · intro hp
    obtain ⟨W1, W2, h1, h2, hmem, hlen⟩ := h2top hp
    obtain ⟨W0, W, h0, ht, hmem0, hlen0⟩ := inv.top hp
    have hf := hpost.tiling w
    have hf1 := mid.tiling w
    rw [h1, ht] at hf1
    simp only [Option.map_some', Option.some.injEq] at hf1
    cases hT : t2.ws w with
    | none => simp [hT, h2] at hf
    | some T =>
      rw [hT, h2] at hf
      simp only [Option.map_some', Option.some.injEq] at hf
      refine ⟨W0, T, h0, rfl, ?_, ?_⟩
      · intro y
        rw [hf, hmem, hf1, hmem0]
        simp only [List.mem_cons]
        tauto
      · rw [hf]
        rw [hf1] at hlen
        omega

/-- Inside the loop of `container_squash`, `con` keeps its parent and its
workspace while a grandchild is detached. -/
theorem SquashMid.con_links {s0 t s1 : State} {con child w K current : Nat}
    {P0 : Option Nat} {r : Nat → Nat} {moved rem : List Nat}
    (pre : SquashPre s0 con child P0 w r K)
    (inv : SquashInv s0 con child P0 w r moved (current :: rem) t)
    (mid : SquashMid t child current w r rem s1) :
    ∃ C, s1.con con = some C ∧ C.pending.parent = P0 ∧ C.pending.workspace = some w := by
  obtain ⟨hpar, hws, hrk, hnm⟩ := inv.head_facts pre
  have hrc := pre.rank_child
  have hne : con ≠ current := by
    intro e
    rw [e] at hrc
    omega
  have hnr : ¬ Reach s1 current con := by
    intro h
    have := Reach.rank_le mid.rank h
    omega
  have h1 : s1.wsOf con = some w := by
    rw [mid.ws_out con hnr, inv.wsOf, pre.ws]
  have h2 : s1.parentOf con = P0 := by
    rw [mid.parentOf, if_neg hne, inv.parentOf, if_neg (inv.not_moved pre (by omega)), pre.parent]
  obtain ⟨C, hC⟩ := Option.isSome_iff_exists.mp (live_of_wsOf h1)
  refine ⟨C, hC, ?_, ?_⟩
  · simpa [State.parentOf, hC] using h2
  · simpa [State.wsOf, hC] using h1

/-- One round of the loop of `container_squash` when `con` has a parent. -/
theorem SquashInv.step_parent {s0 t s1 : State} {con child w K current p : Nat}
    {r : Nat → Nat} {moved rem : List Nat} {idx : Int}
    (pre : SquashPre s0 con child (some p) w r K)
    (inv : SquashInv s0 con child (some p) w r moved (current :: rem) t)
    (mid : SquashMid t child current w r rem s1) (hfl1 : Each Flagged t s1)
    (h0 : 0 ≤ idx) (hidx : ∀ l0, s0.childrenOf p = some l0 → idx ≤ l0.length) :
    Returns (fun fuel => container_insert_child fuel s1 p current idx)
      (SquashInv s0 con child (some p) w r (current :: moved) rem) := by
  obtain ⟨hpar, hws, hrk, hnm⟩ := inv.head_facts pre
  have hrc := pre.rank_child
  have hrp := pre.rank_parent (rfl : some p = some p)
  obtain ⟨C1, hC1, hfp, hfw⟩ := mid.free
  obtain ⟨l0, l, h0l, hl, hmem0, hlen0⟩ := inv.target p rfl
  have hpc : p ≠ child := by
    intro e
    rw [e] at hrp
    omega
  have hl1 : s1.childrenOf p = some l := by rw [mid.children p hpc, hl]
  have hPl : (s1.con p).isSome := by
    cases h : s1.con p with
    | none => simp [State.childrenOf, h] at hl1
    | some _ => rfl
  have hi1 : idx ≤ l.length := by
    have := hidx l0 h0l
    omega
  have hin : idx.toNat ≤ l.length := by omega
  have hnr : ¬ Reach s1 current p := by
    intro h
    have := Reach.rank_le mid.rank h
    omega
  have hwp : s1.wsOf p = some w := by
    have hcp : t.parentOf con = some p := by
      rw [inv.parentOf, if_neg (inv.not_moved pre (by omega)), pre.parent]
    rw [mid.ws_out p hnr, ← inv.pwc con p hcp, inv.wsOf, pre.ws]
  have hspec := (insert_child_free_spec r K pre.bound mid.rank mid.valid mid.linked mid.fsLive
    hC1 hfp hfw hl1 (by omega : r current < r p) h0 hi1).returns_with
    (fun fuel a h => (⟨fskept_insert_child h, flagged_insert_child h⟩ :
      FsKept s1 a ∧ Each Flagged s1 a))
  refine hspec.returns_mono ?_
  rintro t2 ⟨⟨hpost, hv, hln, hr⟩, hfk, hfl2⟩
  rw [hwp] at hpost
  refine inv.relink pre mid (parentOf_setChildren s1 p _) (wsOf_setChildren s1 p _)
    (live_setChildren s1 p _) ?_ (fun v => by rw [ws_setChildren])
    (fun v _ => by rw [ws_setChildren]) ?_ (fun e => by cases e) hpost hv hln hr hfk
    (each_trans flagged_preorder hfl1 hfl2)
  · intro q hq
    rw [childrenOf_setChildren _ _ _ _ hPl, if_neg (fun e => hq (by rw [e]))]
  · intro p2 hp2
    cases hp2
    refine ⟨l, _, hl1, by rw [childrenOf_setChildren _ _ _ _ hPl, if_pos rfl], ?_,
      List.length_le_length_insertIdx _ _ _⟩
    intro y
    exact mem_insertIdx_iff hin

/-- One round of the loop of `container_squash` when `con` has no parent. -/
theorem SquashInv.step_top {s0 t s1 : State} {con child w K current : Nat}
    {r : Nat → Nat} {moved rem : List Nat} {idx : Int}
    (pre : SquashPre s0 con child none w r K)
    (inv : SquashInv s0 con child none w r moved (current :: rem) t)
    (mid : SquashMid t child current w r rem s1) (hfl1 : Each Flagged t s1)
    (h0 : 0 ≤ idx) (hidx : ∀ W0, s0.ws w = some W0 → idx ≤ W0.tiling.length) :
    Returns (fun fuel => workspace_insert_tiling_direct fuel s1 w current idx)
      (SquashInv s0 con child none w r (current :: moved) rem) := by
  obtain ⟨C1, hC1, hfp, hfw⟩ := mid.free
  obtain ⟨W0, W, h0W, hW, hmem0, hlen0⟩ := inv.top rfl
  have ht1 := mid.tiling w
  cases hW1 : s1.ws w with
  | none => simp [hW1, hW] at ht1
  | some W1 =>
    rw [hW1, hW] at ht1
    simp only [Option.map_some', Option.some.injEq] at ht1
    have hi1 : idx ≤ W1.tiling.length := by
      have := hidx W0 h0W
      rw [ht1]
      omega
    have hin : idx.toNat ≤ W1.tiling.length := by omega
    have hspec := (insert_tiling_direct_spec r K pre.bound mid.rank mid.valid mid.linked
      mid.fsLive hC1 hfp hfw hW1 h0 hi1).returns_with
      (fun fuel a h => (⟨fskept_insert_tiling_direct h, flagged_insert_tiling_direct h⟩ :
        FsKept s1 a ∧ Each Flagged s1 a))
    refine hspec.returns_mono ?_
    rintro t2 ⟨⟨hpost, hv, hln, hr⟩, hfk, hfl2⟩
    refine inv.relink pre mid (fun x => parentOf_updWs _ _ _ x) (fun x => wsOf_updWs _ _ _ x)
      (fun x => by simp) (fun q _ => by simp [State.childrenOf]) ?_ ?_ (fun p e => by cases e)
      ?_ hpost hv hln hr hfk (each_trans flagged_preorder hfl1 hfl2)
    · intro v
      by_cases hv : v = w
      · subst hv
        simp [hW1]
      · simp [hv]
    · intro v hv
      have hvw : v ≠ w := fun e => hv ⟨rfl, e⟩
      simp [hvw]
    · intro _
      refine ⟨W1, { W1 with tiling := W1.tiling.insertIdx idx.toNat current }, hW1,
        by simp [hW1], ?_, List.length_le_length_insertIdx _ _ _⟩
      intro y
      exact mem_insertIdx_iff hin

/-- The loop of `container_squash` that moves the grandchildren up returns:
it ends with no grandchild left below `child` and has counted one change for
each grandchild. -/
theorem squash_move_spec {s0 : State} {con child w K : Nat} {P0 : Option Nat}
    {r : Nat → Nat} {idx : Int} (pre : SquashPre s0 con child P0 w r K) (h0 : 0 ≤ idx)
    (hidxP : ∀ p l0, P0 = some p → s0.childrenOf p = some l0 → idx ≤ l0.length)
    (hidxT : P0 = none → ∀ W0, s0.ws w = some W0 → idx ≤ W0.tiling.length) :
    ∀ (rem moved : List Nat) (t : State) (change : Int),
      SquashInv s0 con child P0 w r moved rem t →
      Returns (fun fuel => container_squash_move fuel t con child idx change) (fun res =>
        (∃ moved2, SquashInv s0 con child P0 w r moved2 [] res.1) ∧
        res.2 = change + rem.length) := by
  intro rem
  induction rem with
  | nil =>
    intro moved t change inv
    obtain ⟨Ch, hCh⟩ := Option.isSome_iff_exists.mp (con_isSome_of_childrenOf inv.rest)
    have hch : Ch.pending.children = some [] := by
      simpa [State.childrenOf, hCh] using inv.rest
    refine Returns.succ (fun fuel => rfl) ?_
    simp only [container_squash_move, hCh, hch, Option.bind_eq_bind, Option.some_bind,
      Option.pure_def]
    exact Returns.of_some rfl ⟨⟨moved, inv⟩, by simp⟩
  | cons current rem ih =>
    intro moved t change inv
    obtain ⟨Ch, hCh⟩ := Option.isSome_iff_exists.mp (con_isSome_of_childrenOf inv.rest)
    have hch : Ch.pending.children = some (current :: rem) := by
      simpa [State.childrenOf, hCh] using inv.rest
    obtain ⟨hpar, hws, hrk, hnm⟩ := inv.head_facts pre
    obtain ⟨Cc, hCc⟩ := Option.isSome_iff_exists.mp (live_of_parentOf hpar)
    have hcp : Cc.pending.parent = some child := by
      simpa [State.parentOf, hCc] using hpar
    have hcw : Cc.pending.workspace = some w := by
      simpa [State.wsOf, hCc] using hws
    refine Returns.succ (fun fuel => rfl) ?_
    simp only [container_squash_move, hCh, hch, Option.bind_eq_bind, Option.some_bind]
    refine Returns.bind ((detach_spec r K inv.valid inv.linked inv.rank pre.bound hCc
      (Or.inl (by rw [hcp]; rfl)) (fun _ => by rw [hcw]; rfl)).returns_with
      (fun fuel a h => flagged_of_relinked (relinked_detach h))) ?_
    rintro s1 ⟨hd, hfl1⟩
    have mid := inv.detached pre hd
    obtain ⟨C, hC, hCp, hCw⟩ := mid.con_links pre inv
    refine Returns.bind_some hC ?_
    cases P0 with
    | some p =>
      simp only [hCp]
      refine Returns.bind (inv.step_parent pre mid hfl1 h0 (fun l0 h => hidxP p l0 rfl h)) ?_
      intro t2 inv2
      refine (ih _ t2 (change + 1) inv2).returns_mono ?_
      rintro res ⟨h1, h2⟩
      refine ⟨h1, ?_⟩
      rw [h2]
      simp only [List.length_cons, Nat.cast_add, Nat.cast_one]
      ring
    | none =>
      simp only [hCp, hCw, Option.some_bind]
      refine Returns.bind (inv.step_top pre mid hfl1 h0 (hidxT rfl)) ?_
      intro t2 inv2
      refine (ih _ t2 (change + 1) inv2).returns_mono ?_
      rintro res ⟨h1, h2⟩
      refine ⟨h1, ?_⟩
      rw [h2]
      simp only [List.length_cons, Nat.cast_add, Nat.cast_one]
      ring

theorem Depth.depth_unique {s : State} : ∀ {n m c : Nat}, Depth s c n → Depth s c m → n = m := by
  intro n
  induction n with
  | zero =>
    intro m c h1 h2
    cases m with
    | zero => rfl
    | succ m =>
      obtain ⟨p, hp, -⟩ := h2
      have h1 : s.parentOf c = none := h1
      rw [h1] at hp
      cases hp
  | succ n ih =>
    intro m c h1 h2
    obtain ⟨p, hp, hd⟩ := h1
    cases m with
    | zero =>
      have h2 : s.parentOf c = none := h2
      rw [h2] at hp
      cases hp
    | succ m =>
      obtain ⟨q, hq, hd2⟩ := h2
      rw [hp] at hq
      cases hq
      rw [ih hd hd2]

/-- A container whose ancestors have the same parent pointers in `u` as in `s`
has the same depth in `u` as in `s`. -/
theorem Depth.depth_congr {s u : State} : ∀ {n c : Nat},
    (∀ x, Up s c x → u.parentOf x = s.parentOf x) → Depth s c n → Depth u c n := by
  intro n
  induction n with
  | zero =>
    intro c h hd
    have hd : s.parentOf c = none := hd
    show u.parentOf c = none
    rw [h c Relation.ReflTransGen.refl, hd]
  | succ n ih =>
    intro c h hd
    obtain ⟨p, hp, hd⟩ := hd
    refine ⟨p, by rw [h c Relation.ReflTransGen.refl, hp], ih ?_ hd⟩
    intro x hx
    exact h x (Relation.ReflTransGen.head hp hx)

/-- In a tree without cycles every container has a depth. -/
theorem depth_exists {s : State} {r : Nat → Nat} {K : Nat} (hK : ∀ x, r x ≤ K)
    (hr : ∀ x q, s.parentOf x = some q → r x < r q) :
    ∀ n c, K - r c < n → ∃ d, Depth s c d := by
  intro n
  induction n with
  | zero => intro c h; omega
  | succ n ih =>
    intro c h
    cases hp : s.parentOf c with
    | none => exact ⟨0, hp⟩
    | some p =>
      have h1 := hr c p hp
      have h2 := hK p
      obtain ⟨d, hd⟩ := ih p (by omega)
      exact ⟨d + 1, p, hp, hd⟩

/-- The index at which `container_squash` inserts the grandchildren: the
position of `con` in the children list of its parent, or in the tiling list of
its workspace. -/
theorem squash_index {s : State} {con w : Nat} (hl : Linked s)
    (hw : s.wsOf con = some w)
    (htil : s.parentOf con = none → ∃ W, s.ws w = some W ∧ con ∈ W.tiling) :
    ∃ idx : Int, container_sibling_index s con = some idx ∧ 0 ≤ idx ∧
      (∀ p l0, s.parentOf con = some p → s.childrenOf p = some l0 → idx ≤ l0.length) ∧
      (s.parentOf con = none → ∀ W0, s.ws w = some W0 → idx ≤ W0.tiling.length) := by
  obtain ⟨C, hC⟩ := Option.isSome_iff_exists.mp (live_of_wsOf hw)
  have hCw : C.pending.workspace = some w := by simpa [State.wsOf, hC] using hw
  cases hp : C.pending.parent with
  | some p =>
    have hpar : s.parentOf con = some p := by simp [State.parentOf, hC, hp]
    have hmem := hl.parent_kids con p hpar
    obtain ⟨P, hP⟩ := Option.isSome_iff_exists.mp (live_of_kids hmem)
    cases hch : P.pending.children with
    | none => simp [State.kids, State.childrenOf, hP, hch] at hmem
    | some l =>
      have hml : con ∈ l := by simpa [State.kids, State.childrenOf, hP, hch] using hmem
      refine ⟨list_find l con, ?_, ?_, ?_, ?_⟩
      · simp [container_sibling_index, container_get_siblings, hC, hp, State.readList, hP, hch]
      · rw [list_find_of_mem hml]; omega
      · intro p2 l0 hp2 hl0
        rw [hpar] at hp2
        cases hp2
        have : l0 = l := by simpa [State.childrenOf, hP, hch] using hl0.symm
        subst this
        rw [list_find_of_mem hml]
        have := List.indexOf_lt_length.mpr hml
        omega
      · intro h
        rw [hpar] at h
        cases h
  | none =>
    have hpar : s.parentOf con = none := by simp [State.parentOf, hC, hp]
    obtain ⟨W, hW, hmem⟩ := htil hpar
    refine ⟨list_find W.tiling con, ?_, ?_, ?_, ?_⟩
    · simp [container_sibling_index, container_get_siblings, hC, hp, State.readList,
        container_is_scratchpad_hidden, hCw, hW, list_find_ne_neg_one.mpr hmem]
    · rw [list_find_of_mem hmem]; omega
    · intro p2 l0 hp2
      rw [hpar] at hp2
      cases hp2
    · intro _ W0 hW0
      rw [hW] at hW0
      cases hW0
      rw [list_find_of_mem hmem]
      have := List.indexOf_lt_length.mpr hmem
      omega

/-- The loop invariant of `container_squash` holds at the start. -/
theorem SquashInv.start {s : State} {con child w K : Nat} {r : Nat → Nat} {gs : List Nat}
    (pre : SquashPre s con child (s.parentOf con) w r K) (hv : Valid s) (hfs : FsLive s)
    (hgs : s.childrenOf child = some gs) :
    SquashInv s con child (s.parentOf con) w r [] gs s where
  valid := hv
  linked := pre.linked
  rank := pre.rank
  fsLive := hfs
  pwc := pre.pwc
  live := fun _ => rfl
  parentOf := fun _ => by simp
  wsOf := fun _ => rfl
  rest := hgs
  source := fun y => by simp [State.kids, hgs]
  count := by simp [State.kids, hgs]
  children := fun _ _ _ => rfl
  target := fun p hp => by
    have hmem := pre.linked.parent_kids con p hp
    obtain ⟨l0, h⟩ : ∃ l0, s.childrenOf p = some l0 := by
      cases h : s.childrenOf p with
      | none => simp [State.kids, h] at hmem
      | some l0 => exact ⟨l0, rfl⟩
    exact ⟨l0, l0, h, h, by simp, le_refl _⟩
  floating := fun _ => rfl
  tiling := fun _ _ => rfl
  top := fun _ => by
    obtain ⟨W0, hW0⟩ := Option.isSome_iff_exists.mp (hv.ws con w pre.ws)
    exact ⟨W0, W0, hW0, hW0, by simp, le_refl _⟩
  flagged := each_refl flagged_preorder s

theorem up_live {s : State} (hv : Valid s) {c a : Nat} (h : Up s c a)
    (hc : (s.con c).isSome) : (s.con a).isSome := by
  induction h with
  | refl => exact hc
  | tail _ hstep _ => exact hv.parent _ _ hstep

/-- After the loop of `container_squash` the walk of `container_reap_empty`
from `child` destroys `child` and `con` and stops there. -/
theorem SquashInv.reap_pair {s0 t u : State} {con child w K z : Nat} {P0 : Option Nat}
    {r : Nat → Nat} {moved ds : List Nat} (pre : SquashPre s0 con child P0 w r K)
    (inv : SquashInv s0 con child P0 w r moved [] t) (hne : moved ≠ [])
    (rp : ReapPost t child ds z u) : ds = [child, con] ∧ z = con := by
  have hrc := pre.rank_child
  have hpc : t.parentOf child = some con := by
    rw [inv.parentOf, if_neg (inv.not_moved pre (le_refl _))]
    exact pre.linked.kids_parent con child pre.child_mem
  have hcc : con ≠ child := by
    intro e
    rw [e] at hrc
    omega
  have hkc : t.kids con = [child] := by
    unfold State.kids
    rw [inv.children con hcc, pre.only]
    · rfl
    · intro e
      have := pre.rank_parent e
      omega
  have hpcon : t.parentOf con = P0 := by
    rw [inv.parentOf, if_neg (inv.not_moved pre (by omega)), pre.parent]
  have hstop : ∀ p, t.parentOf con = some p → t.kids p ≠ [con] := by
    intro p hp hk
    rw [hpcon] at hp
    obtain ⟨l0, l, -, hl, hmem, -⟩ := inv.target p hp
    obtain ⟨g, hg⟩ := List.exists_mem_of_ne_nil moved hne
    have hgl : g ∈ t.kids p := by
      unfold State.kids
      rw [hl]
      exact (hmem g).mpr (Or.inr hg)
    rw [hk] at hgl
    simp only [List.mem_singleton] at hgl
    subst hgl
    exact inv.not_moved pre (by omega) hg
  have hhead := rp.head
  have hlast := rp.last
  have hchain := rp.chain
  cases ds with
  | nil => simp at hhead
  | cons d tl =>
    simp only [List.head?_cons, Option.some.injEq] at hhead
    subst hhead
    cases tl with
    | nil =>
      simp only [List.getLast?_singleton, Option.some.injEq] at hlast
      subst hlast
      exact absurd hkc (rp.stop con hpc)
    | cons e tl2 =>
      rw [List.chain'_cons] at hchain
      obtain ⟨⟨he, -⟩, hchain⟩ := hchain
      rw [hpc] at he
      cases he
      cases tl2 with
      | nil =>
        refine ⟨rfl, ?_⟩
        simp at hlast
        exact hlast.symm
      | cons e2 tl3 =>
        rw [List.chain'_cons] at hchain
        obtain ⟨⟨he2, hk2⟩, -⟩ := hchain
        exact absurd hk2 (hstop e2 he2)

/-- C17, amended: squash removes two levels.  In a well-formed tree, for a
container `con` on a workspace (with a parent, or in the tiling list of the
workspace) whose single child `child` makes a squashable pair with it and has
the children `gs`, at least one, `container_squash(con)` returns
`gs.length - 1`; `con` and `child` are marked destroying and detached, every
other container keeps its `destroying` flag and its workspace, the former
grandchildren get the former parent of `con` as parent and every other
container keeps its parent; the depth of each former grandchild has
decreased by exactly two. -/
theorem squash_removes_pair {s : State} {con child w : Nat} {gs : List Nat}
    (hwf : TreeWF s) (ha : Acyclic s) (hpw : ParentWorkspaceConsistent s) (hfs : FsLive s)
    (hw : s.wsOf con = some w)
    (htil : s.parentOf con = none → ∃ W, s.ws w = some W ∧ con ∈ W.tiling)
    (hch : s.childrenOf con = some [child])
    (hgs : s.childrenOf child = some gs) (hne : gs ≠ [])
    (hsq : container_is_squashable s con child = some true) :
    Returns (fun fuel => container_squash fuel s con) (fun res =>
      res.2 = (gs.length : Int) - 1 ∧
      (∀ d, d = con ∨ d = child → ∃ D, res.1.con d = some D ∧ D.node.destroying = true ∧
        D.pending.parent = none ∧ D.pending.workspace = none ∧
        (∀ p, d ∉ res.1.kids p) ∧ ∀ v, d ∉ res.1.tops v) ∧
      (∀ x X, x ≠ con → x ≠ child → s.con x = some X → ∃ X', res.1.con x = some X' ∧
        X'.node.destroying = X.node.destroying ∧
        X'.pending.workspace = X.pending.workspace ∧
        X'.pending.parent = if x ∈ gs then s.parentOf con else X.pending.parent) ∧
      (∀ g ∈ gs, ∃ n, Depth s g (n + 2) ∧ Depth res.1 g n) ∧
      Linked res.1) := by
  obtain ⟨r, K, hK, hr⟩ := ha
  have hv := hwf.treewf_valid
  have hl := hwf.treewf_linked
  have hmemc : child ∈ s.kids con := by simp [State.kids, hch]
  have hpc : s.parentOf child = some con := hl.kids_parent con child hmemc
  have hkg : s.kids child = gs := by simp [State.kids, hgs]
  have pre : SquashPre s con child (s.parentOf con) w r K :=
    { bound := hK
      rank := hr
      linked := hl
      pwc := fun x p h => hpw.all h
      parent := rfl
      ws := hw
      ws_child := by rw [hpw.all hpc, hw]
      only := hch }
  have hrc := pre.rank_child
  have hup : ∀ x q, s.parentOf x = some q → r x < r q :=
    fun x q h => hr q x (hl.parent_kids x q h)
  obtain ⟨idx, hidx, h0, hiP, hiT⟩ := squash_index hl hw htil
  obtain ⟨C, hC⟩ := Option.isSome_iff_exists.mp (live_of_wsOf hw)
  have hCch : C.pending.children = some [child] := by
    simpa [State.childrenOf, hC] using hch
  refine Returns.succ (fun fuel => rfl) ?_
  simp only [container_squash, hC, hCch, List.length_singleton, ne_eq, not_true_eq_false,
    if_false, List.head?_cons, hidx, hsq, Option.bind_eq_bind, Option.some_bind, if_true]
  refine Returns.bind (squash_move_spec pre h0 hiP hiT gs [] s 0
    (SquashInv.start pre hv hfs hgs)) ?_
  rintro ⟨t, change⟩ ⟨⟨moved, inv⟩, hchange⟩
  simp only [] at hchange inv ⊢
  obtain ⟨Ch, hCh⟩ := Option.isSome_iff_exists.mp (con_isSome_of_childrenOf inv.rest)
  have hch0 : Ch.pending.children = some [] := by
    simpa [State.childrenOf, hCh] using inv.rest
  have hview : Ch.view = none := by
    by_contra hne
    have := inv.linked.view_leaf child Ch hCh hne
    rw [hch0] at this
    cases this
  have hwc : t.wsOf child = some w := by rw [inv.wsOf, pre.ws_child]
  have hf : ∀ a X, Up t child a → t.con a = some X →
      X.pending.fullscreen_mode = FULLSCREEN_WORKSPACE → X.pending.parent.isSome →
      X.pending.workspace.isSome := by
    intro a X ha hX _ _
    have := up_wsOf inv.pwc ha
    rw [hwc, wsOf_of_con2 hX] at this
    rw [this]
    rfl
  refine Returns.bind (reap_empty_spec r K hK inv.valid inv.linked inv.rank hf hCh) ?_
  intro u hu
  rw [if_pos ⟨hview, hch0⟩] at hu
  obtain ⟨ds, z, rp⟩ := hu
  refine Returns.of_some rfl ?_
  have hmg : ∀ y, y ∈ moved ↔ y ∈ gs := by
    intro y
    rw [← hkg, inv.source]
    simp
  have hmne : moved ≠ [] := by
    obtain ⟨g, hg⟩ := List.exists_mem_of_ne_nil gs hne
    exact List.ne_nil_of_mem ((hmg g).mpr hg)
  obtain ⟨hds, -⟩ := inv.reap_pair pre hmne rp
  subst hds
  have hothers : ∀ x X, x ≠ con → x ≠ child → s.con x = some X → ∃ X', u.con x = some X' ∧
      X'.node.destroying = X.node.destroying ∧
      X'.pending.workspace = X.pending.workspace ∧
      X'.pending.parent = if x ∈ gs then s.parentOf con else X.pending.parent := by
    intro x X hx1 hx2 hX
    obtain ⟨D, hD, hfl⟩ := inv.flagged x X hX
    obtain ⟨X', hX', hrel, hp, hw', -⟩ := rp.kept x D (by simp [hx1, hx2]) hD
    refine ⟨X', hX', ?_, ?_, ?_⟩
    · rw [(relinked_links hrel).2.2.1, hfl.1]
    · rw [hw', ← wsOf_of_con2 hD, inv.wsOf, wsOf_of_con2 hX]
    · rw [hp, ← parentOf_of_con2 hD, inv.parentOf]
      by_cases hm : x ∈ moved
      · rw [if_pos hm, if_pos ((hmg x).mp hm)]
      · rw [if_neg hm, if_neg (fun h => hm ((hmg x).mpr h)), parentOf_of_con2 hX]
  refine ⟨?_, ?_, hothers, ?_, rp.linked⟩
  · show change - 1 = (gs.length : Int) - 1
    rw [hchange]
    simp
  · intro d hd
    have hmem : d ∈ [child, con] := by
      rcases hd with h | h <;> simp [h]
    obtain ⟨D, hD, h1, h2, h3⟩ := rp.gone d hmem
    refine ⟨D, hD, h1, h2, h3, ?_, ?_⟩
    · intro p hp
      have := rp.linked.kids_parent p d hp
      rw [parentOf_of_con2 hD, h2] at this
      cases this
    · intro v hv
      have := (rp.linked.tops_top v d hv).2
      rw [wsOf_of_con2 hD, h3] at this
      cases this
  · intro g hg
    have hgk : g ∈ s.kids child := by rw [hkg]; exact hg
    have hgp : s.parentOf g = some child := hl.kids_parent child g hgk
    have hrg := hr child g hgk
    obtain ⟨G, hG⟩ := Option.isSome_iff_exists.mp (live_of_parentOf hgp)
    obtain ⟨G', hG', -, -, hGp⟩ := hothers g G (fun e => by rw [e] at hrg; omega)
      (fun e => by rw [e] at hrg; omega) hG
    rw [if_pos hg] at hGp
    have hug : u.parentOf g = s.parentOf con := by rw [parentOf_of_con2 hG', hGp]
    cases hP : s.parentOf con with
    | none =>
      refine ⟨0, ⟨child, hgp, con, hpc, hP⟩, ?_⟩
      show u.parentOf g = none
      rw [hug, hP]
    | some p =>
      have hrp := hup con p hP
      obtain ⟨m, hm⟩ := depth_exists hK hup (K - r p + 1) p (by omega)
      refine ⟨m + 1, ⟨child, hgp, con, hpc, p, hP, hm⟩, p, by rw [hug, hP],
        Depth.depth_congr ?_ hm⟩
      intro x hx
      have hrx := Up.up_rank_le hup hx
      have hlx := up_live hv hx (hv.parent con p hP)
      obtain ⟨X, hX⟩ := Option.isSome_iff_exists.mp hlx
      obtain ⟨X', hX', -, -, hXp⟩ := hothers x X (fun e => by rw [e] at hrx; omega)
        (fun e => by rw [e] at hrx; omega) hX
      have hxg : x ∉ gs := by
        intro h
        have := hr child x (by rw [hkg]; exact h)
        omega
      rw [if_neg hxg] at hXp
      rw [parentOf_of_con2 hX', hXp, parentOf_of_con2 hX]

/-- C17 as stated fails: in `squash_state` the `L_HORIZ` container 1 has the
single child 2, which is `L_VERT` with the children 5, 6, 7, under the
`L_VERT` container 0.  After `container_squash(1)` the containers marked
destroying are 1 and 2, both detached: two containers have been removed, not
one; and the former grandchild 5, of depth 3 before, has depth 1, not 2. -/
theorem squash_removes_two_levels :
    TreeWF squash_state ∧ ParentWorkspaceConsistent squash_state ∧
    FullscreenConsistent squash_state ∧
    (squash_state.con 1).map (·.pending.layout) = some L_HORIZ ∧
    (squash_state.con 2).map (·.pending.layout) = some L_VERT ∧
    (squash_state.con 0).map (·.pending.layout) = some L_VERT ∧
    squash_state.parentOf 1 = some 0 ∧
    squash_state.kids 1 = [2] ∧ squash_state.kids 2 = [5, 6, 7] ∧
    squash_state.ids.filter (fun x => (squash_state.con x).any (·.node.destroying)) = [] ∧
    Depth squash_state 5 3 ∧
    ∃ r ∈ container_squash 10 squash_state 1,
      r.1.ids.filter (fun x => (r.1.con x).any (·.node.destroying)) = [1, 2] ∧
      r.1.parentOf 1 = none ∧ r.1.wsOf 1 = none ∧
      r.1.parentOf 2 = none ∧ r.1.wsOf 2 = none ∧
      r.1.parentOf 5 = some 0 ∧ Depth r.1 5 1 ∧ ¬ Depth r.1 5 2 := by
  decide

/-- C17, amended, at `squash_state`: `container_squash(1)` returns 2, the
containers 1 and 2 are marked destroying and detached, and the former
grandchildren 5, 6, 7, of depth 3 before, are children of container 0, at
depth 1. -/
theorem squash_removes_pair_witness :
    Returns (fun fuel => container_squash fuel squash_state 1) (fun res =>
      res.2 = 2 ∧
      (∀ d, d = 1 ∨ d = 2 → ∃ D, res.1.con d = some D ∧ D.node.destroying = true ∧
        D.pending.parent = none ∧ D.pending.workspace = none) ∧
      (∀ g ∈ [5, 6, 7], res.1.parentOf g = some 0 ∧ Depth squash_state g 3 ∧
        Depth res.1 g 1)) := by
  refine (@squash_removes_pair squash_state 1 2 0 [5, 6, 7]
    (by decide) squash_state_acyclic (by decide)
    (FullscreenConsistent.fsc_fsLive (by decide)) (by decide : squash_state.wsOf 1 = some 0)
    (fun h => by revert h; decide) (by decide : squash_state.childrenOf 1 = some [2])
    (by decide) (by decide) (by decide)).returns_mono ?_
  rintro res ⟨h1, h2, h3, h4, -⟩
  refine ⟨h1, ?_, ?_⟩
  · intro d hd
    obtain ⟨D, hD, hdes, hp, hw, -⟩ := h2 d hd
    exact ⟨D, hD, hdes, hp, hw⟩
  · intro g hg
    have hlive : ∃ X, squash_state.con g = some X ∧ g ≠ 1 ∧ g ≠ 2 ∧
        Depth squash_state g 3 := by
      revert g
      decide
    obtain ⟨X, hX, hg1, hg2, hd3⟩ := hlive
    obtain ⟨X', hX', -, -, hpar⟩ := h3 g X hg1 hg2 hX
    rw [if_pos hg] at hpar
    obtain ⟨n, hn2, hn⟩ := h4 g hg
    have hn1 : n + 2 = 3 := Depth.depth_unique hn2 hd3
    have hn1 : n = 1 := by omega
    subst hn1
    refine ⟨?_, hd3, hn⟩
    rw [parentOf_of_con2 hX', hpar]
    decide

theorem not_mem_tops_of_parent {t : State} (hl : Linked t) {x p : Nat}
    (hp : t.parentOf x = some p) (v : Nat) : x ∉ t.tops v := by
  intro h
  rw [(hl.tops_top v x h).1] at hp
  cases hp

theorem not_in_list_of_parent {t : State} (hl : Linked t) {x p q : Nat} {l : List Nat}
    (hp : t.parentOf x = some p) (hq : q ≠ p) (hl0 : t.childrenOf q = some l) : x ∉ l := by
  intro h
  have : x ∈ t.kids q := by simp [State.kids, hl0, h]
  rw [hl.kids_parent q x this] at hp
  exact hq (Option.some.inj hp)

theorem tiling_mem_tops {t : State} {v : Nat} {W : sway_workspace} (hW : t.ws v = some W)
    {x : Nat} (h : x ∈ W.tiling ∨ x ∈ W.floating) : x ∈ t.tops v := by
  unfold State.tops
  rw [hW]
  exact List.mem_append.mpr h

/-- The lists of a round of `container_flatten` seen from outside: a list
that holds neither the wrapper's child nor the wrapper is unchanged. -/
theorem swap_erase_id {c child : Nat} {l : List Nat} (h1 : child ∉ l) (h2 : c ∉ l) :
    list_swap c child (l.erase child) = l := by
  rw [List.erase_of_not_mem h1, list_swap_of_not_mem h2]

/-- The lists of the state after a round of `container_flatten`, for a
wrapper `c` that has a parent: outside `c` and its parent nothing changed. -/
theorem FlattenStep.outside {t t1 : State} {c child c1 : Nat} (hl : Linked t)
    (step : FlattenStep t c child t1) (hcc : t.parentOf child = some c)
    (hc1 : t.parentOf c = some c1) :
    (∀ p, p ≠ c → p ≠ c1 → t1.childrenOf p = t.childrenOf p) ∧
    (∀ w, (t1.ws w).map (·.tiling) = (t.ws w).map (·.tiling)) ∧
    (∀ w, (t1.ws w).map (·.floating) = (t.ws w).map (·.floating)) := by
  refine ⟨?_, ?_, ?_⟩
  · intro p hp hp1
    rw [step.childrenOf]
    cases hl0 : t.childrenOf p with
    | none => rfl
    | some l =>
      simp only [Option.map_some', Option.some.injEq]
      exact swap_erase_id (not_in_list_of_parent hl hcc hp hl0)
        (not_in_list_of_parent hl hc1 hp1 hl0)
  · intro w
    rw [step.tiling]
    refine option_map_congr (fun W hW => ?_)
    exact swap_erase_id
      (fun h => not_mem_tops_of_parent hl hcc w (tiling_mem_tops hW (Or.inl h)))
      (fun h => not_mem_tops_of_parent hl hc1 w (tiling_mem_tops hW (Or.inl h)))
  · intro w
    rw [step.floating]
    refine option_map_congr (fun W hW => ?_)
    exact swap_erase_id
      (fun h => not_mem_tops_of_parent hl hcc w (tiling_mem_tops hW (Or.inr h)))
      (fun h => not_mem_tops_of_parent hl hc1 w (tiling_mem_tops hW (Or.inr h)))

end Sway
